import Mathlib

/-! # The SQL scanner of the DM driver (`driver/dm/parser/zu.go`)

A shallow embedding of the table-driven scanner `Lexer` and of its scanning method
`Yylex`, followed by theorems about it.

Conventions of the embedding.

* A rune is a `Char` (a Unicode scalar value): this is what decoding a character source
  yields.  A Go `string` is the list of its runes, so `string(zzBuffer[a:b])` is a sublist
  and `+` on strings is `++`.
* Go `int` is `Int`; the values met here are far from the 64-bit boundary.
* A run-time panic of Go (an index or a slice out of range, an explicit `panic`) is an
  explicit outcome, as is a non-nil `error` result.
* The unbounded loops of `Yylex` take a fuel argument; `timeout` is the outcome of a
  model that ran out of it and has no counterpart in the program.
-/

namespace DmLexer

/-! ## Constants and packed tables -/

/-- This character denotes the end of file. -/
def YYEOF : Int := -1

/-- Initial size of the lookahead buffer. -/
def ZZ_BUFFERSIZE : Nat := 16384

/-- Lexical state `YYINITIAL`. -/
def YYINITIAL : Int := 0
/-- Lexical state `xc`: inside a block comment. -/
def xc : Int := 2
/-- Lexical state `xq`: inside a single-quoted string. -/
def xq : Int := 4
/-- Lexical state `xdq`: inside a double-quoted identifier. -/
def xdq : Int := 6
/-- Lexical state `xbin`: inside a binary string literal. -/
def xbin : Int := 10
/-- Lexical state `xhex`: inside a hexadecimal string literal. -/
def xhex : Int := 12
/-- Lexical state `xq2`: inside a bracket-quoted string. -/
def xq2 : Int := 16
/-- Lexical state `xq2_2`: inside a bracket-quoted string, after a closing bracket. -/
def xq2_2 : Int := 18

/-- `ZZ_LEXSTATE[l]` is the state in the DFA for the lexical state `l`. -/
def ZZ_LEXSTATE : List Int := [0, 0, 1, 1, 2, 2, 3, 3, 4, 4, 5, 5, 6, 6, 4, 4, 7, 7, 8, 8]

def ZZ_CMAP_PACKED : List Nat := [
  0o011, 0o000, 0o001, 0o026, 0o001, 0o025, 0o001, 0o030, 0o001, 0o026, 0o001, 0o025, 0o022, 0o000, 0o001, 0o026,
  0o001, 0o017, 0o001, 0o002,
  0o002, 0o012, 0o002, 0o017, 0o001, 0o001, 0o002, 0o017, 0o001, 0o004, 0o001, 0o023, 0o001, 0o017, 0o001, 0o027,
  0o001, 0o016, 0o001, 0o003,
  0o001, 0o020, 0o011, 0o013, 0o001, 0o014, 0o001, 0o017, 0o001, 0o017, 0o001, 0o015, 0o003, 0o017, 0o001, 0o021,
  0o001, 0o010, 0o001, 0o021,
  0o001, 0o024, 0o001, 0o022, 0o001, 0o024, 0o002, 0o012, 0o001, 0o034, 0o002, 0o012, 0o001, 0o033, 0o001, 0o012,
  0o001, 0o031, 0o001, 0o036,
  0o001, 0o012, 0o001, 0o007, 0o001, 0o012, 0o001, 0o035, 0o001, 0o037, 0o001, 0o032, 0o002, 0o012, 0o001, 0o011,
  0o002, 0o012, 0o001, 0o005,
  0o001, 0o000, 0o001, 0o006, 0o001, 0o017, 0o001, 0o012, 0o001, 0o000, 0o001, 0o021, 0o001, 0o010, 0o001, 0o021,
  0o001, 0o024, 0o001, 0o022,
  0o001, 0o024, 0o002, 0o012, 0o001, 0o034, 0o002, 0o012, 0o001, 0o033, 0o001, 0o012, 0o001, 0o031, 0o001, 0o036,
  0o001, 0o012, 0o001, 0o007,
  0o001, 0o012, 0o001, 0o035, 0o001, 0o037, 0o001, 0o032, 0o002, 0o012, 0o001, 0o011, 0o002, 0o012, 0o001, 0o017,
  0o001, 0o017, 0o002, 0o017,
  0o001, 0o000, 0o005, 0o012, 0o001, 0o012, 0o172, 0o012, 0x1f28, 0o000, 0o001, 0o030, 0o001, 0o030, 0xffff, 0o000,
  0xffff, 0o000, 0xffff, 0o000, 0xffff, 0o000, 0xffff, 0o000, 0xffff, 0o000, 0xffff, 0o000, 0xffff, 0o000, 0xffff, 0o000,
  0xffff, 0o000, 0xffff, 0o000, 0xffff, 0o000, 0xffff, 0o000, 0xffff, 0o000, 0xffff, 0o000, 0xffff, 0o000, 0xdfe6, 0o000]

def ZZ_ACTION_PACKED_0 : List Nat := [
  0o011, 0o000, 0o001, 0o001, 0o001, 0o002, 0o001, 0o003, 0o002, 0o004, 0o004, 0o005, 0o001, 0o006, 0o002, 0o004,
  0o001, 0o006, 0o001, 0o007, 0o001, 0o004, 0o002, 0o005, 0o001, 0o010, 0o002, 0o011, 0o001, 0o012, 0o001, 0o013,
  0o001, 0o014, 0o001, 0o015, 0o001, 0o016, 0o001, 0o017, 0o001, 0o020, 0o001, 0o021, 0o001, 0o022, 0o001, 0o023,
  0o001, 0o024, 0o001, 0o025, 0o001, 0o026, 0o001, 0o007, 0o001, 0o027, 0o001, 0o000, 0o001, 0o030, 0o001, 0o031,
  0o001, 0o032, 0o001, 0o000, 0o001, 0o033, 0o001, 0o034, 0o001, 0o035, 0o001, 0o032, 0o001, 0o036, 0o001, 0o000,
  0o003, 0o005, 0o001, 0o037, 0o001, 0o040, 0o001, 0o000, 0o001, 0o041, 0o002, 0o000, 0o001, 0o042, 0o004, 0o000,
  0o001, 0o043, 0o001, 0o044, 0o001, 0o033, 0o001, 0o000, 0o001, 0o045, 0o002, 0o005, 0o003, 0o000, 0o001, 0o046,
  0o001, 0o047, 0o001, 0o050, 0o001, 0o051, 0o020, 0o000, 0o001, 0o052, 0o001, 0o000, 0o001, 0o053, 0o001, 0o052,
  0o001, 0o053]

def ZZ_ROWMAP_PACKED_0 : List Nat := [
  0o000, 0o000, 0o000, 0o040, 0o000, 0o100, 0o000, 0o140, 0o000, 0o200, 0o000, 0o240, 0o000, 0o300, 0o000, 0o340,
  0o000, 0x0100, 0o000, 0o200, 0o000, 0o200, 0o000, 0o200, 0o000, 0x0120, 0o000, 0o200, 0o000, 0x0140, 0o000, 0x0160,
  0o000, 0x0180, 0o000, 0x01a0, 0o000, 0x01c0, 0o000, 0x01e0, 0o000, 0x0200, 0o000, 0x0220, 0o000, 0o200, 0o000, 0x0240,
  0o000, 0x0260, 0o000, 0x0280, 0o000, 0x02a0, 0o000, 0x02c0, 0o000, 0x02e0, 0o000, 0x0300, 0o000, 0x0320, 0o000, 0x0340,
  0o000, 0x0360, 0o000, 0x0380, 0o000, 0x03a0, 0o000, 0x03c0, 0o000, 0x03e0, 0o000, 0x0400, 0o000, 0o200, 0o000, 0o200,
  0o000, 0o200, 0o000, 0o200, 0o000, 0x0420, 0o000, 0o200, 0o000, 0x0440, 0o000, 0o200, 0o000, 0o200, 0o000, 0x0460,
  0o000, 0x0480, 0o000, 0o200, 0o000, 0o200, 0o000, 0o200, 0o000, 0x04a0, 0o000, 0o200, 0o000, 0x04c0, 0o000, 0x04e0,
  0o000, 0x0500, 0o000, 0x0520, 0o000, 0o200, 0o000, 0o200, 0o000, 0x02e0, 0o000, 0o200, 0o000, 0x0540, 0o000, 0x0560,
  0o000, 0o200, 0o000, 0x0580, 0o000, 0x03a0, 0o000, 0x05a0, 0o000, 0x03e0, 0o000, 0o200, 0o000, 0o200, 0o000, 0x05c0,
  0o000, 0x05c0, 0o000, 0x04c0, 0o000, 0x05e0, 0o000, 0x0600, 0o000, 0x0620, 0o000, 0x0640, 0o000, 0x0660, 0o000, 0o200,
  0o000, 0o200, 0o000, 0o200, 0o000, 0x01a0, 0o000, 0x0680, 0o000, 0x06a0, 0o000, 0x06c0, 0o000, 0x06e0, 0o000, 0x0700,
  0o000, 0x0720, 0o000, 0x0740, 0o000, 0x0760, 0o000, 0x0780, 0o000, 0x07a0, 0o000, 0x07c0, 0o000, 0x07e0, 0o000, 0x0800,
  0o000, 0x0820, 0o000, 0x0840, 0o000, 0x0860, 0o000, 0o200, 0o000, 0x0880, 0o000, 0o200, 0o000, 0x06e0, 0o000, 0x0720]

def ZZ_TRANS_PACKED_0 : List Nat := [
  0o001, 0o012, 0o001, 0o013, 0o001, 0o014, 0o001, 0o015, 0o003, 0o016, 0o001, 0o017, 0o001, 0o020, 0o001, 0o021,
  0o001, 0o022, 0o001, 0o023, 0o001, 0o024, 0o001, 0o016, 0o001, 0o025, 0o001, 0o016, 0o001, 0o026, 0o002, 0o022,
  0o001, 0o016, 0o001, 0o022, 0o002, 0o027, 0o001, 0o030, 0o001, 0o000, 0o001, 0o031, 0o002, 0o022, 0o001, 0o032,
  0o003, 0o022, 0o003, 0o033, 0o001, 0o034, 0o001, 0o035, 0o033, 0o033, 0o001, 0o036, 0o001, 0o037, 0o036, 0o036,
  0o002, 0o040, 0o001, 0o041, 0o035, 0o040, 0o040, 0o000, 0o001, 0o042, 0o001, 0o043, 0o036, 0o042, 0o001, 0o044,
  0o001, 0o045, 0o036, 0o044, 0o006, 0o046, 0o001, 0o047, 0o031, 0o046, 0o001, 0o050, 0o001, 0o051, 0o004, 0o050,
  0o001, 0o052, 0o031, 0o050, 0o003, 0o000, 0o001, 0o053, 0o001, 0o054, 0o034, 0o000, 0o001, 0o055, 0o005, 0o000,
  0o005, 0o022, 0o004, 0o000, 0o003, 0o022, 0o001, 0o000, 0o001, 0o022, 0o004, 0o000, 0o007, 0o022, 0o001, 0o000,
  0o001, 0o056, 0o005, 0o000, 0o005, 0o022, 0o004, 0o000, 0o003, 0o022, 0o001, 0o000, 0o001, 0o022, 0o004, 0o000,
  0o007, 0o022, 0o001, 0o000, 0o001, 0o057, 0o005, 0o000, 0o005, 0o022, 0o004, 0o000, 0o003, 0o022, 0o001, 0o000,
  0o001, 0o022, 0o004, 0o000, 0o007, 0o022, 0o007, 0o000, 0o005, 0o022, 0o004, 0o000, 0o003, 0o022, 0o001, 0o000,
  0o001, 0o022, 0o004, 0o000, 0o007, 0o022, 0o013, 0o000, 0o001, 0o023, 0o002, 0o000, 0o001, 0o060, 0o001, 0o000,
  0o001, 0o023, 0o001, 0o000, 0o001, 0o061, 0o001, 0o000, 0o001, 0o062, 0o030, 0o000, 0o001, 0o063, 0o026, 0o000,
  0o001, 0o064, 0o006, 0o000, 0o001, 0o065, 0o002, 0o000, 0o001, 0o066, 0o001, 0o000, 0o001, 0o065, 0o030, 0o000,
  0o001, 0o067, 0o001, 0o000, 0o001, 0o023, 0o002, 0o000, 0o001, 0o060, 0o001, 0o000, 0o001, 0o023, 0o001, 0o000,
  0o001, 0o061, 0o001, 0o000, 0o001, 0o062, 0o042, 0o000, 0o001, 0o053, 0o017, 0o000, 0o005, 0o022, 0o004, 0o000,
  0o003, 0o022, 0o001, 0o000, 0o001, 0o022, 0o004, 0o000, 0o001, 0o022, 0o001, 0o070, 0o003, 0o022, 0o001, 0o071,
  0o001, 0o022, 0o007, 0o000, 0o005, 0o022, 0o004, 0o000, 0o003, 0o022, 0o001, 0o000, 0o001, 0o022, 0o004, 0o000,
  0o004, 0o022, 0o001, 0o072, 0o002, 0o022, 0o003, 0o033, 0o002, 0o000, 0o033, 0o033, 0o004, 0o000, 0o001, 0o073,
  0o036, 0o000, 0o001, 0o074, 0o001, 0o075, 0o033, 0o000, 0o001, 0o036, 0o001, 0o000, 0o036, 0o036, 0o001, 0o000,
  0o001, 0o076, 0o023, 0o000, 0o001, 0o077, 0o001, 0o100, 0o011, 0o000, 0o002, 0o040, 0o001, 0o000, 0o035, 0o040,
  0o002, 0o000, 0o001, 0o101, 0o035, 0o000, 0o001, 0o042, 0o001, 0o000, 0o036, 0o042, 0o025, 0o000, 0o001, 0o102,
  0o001, 0o103, 0o011, 0o000, 0o001, 0o044, 0o001, 0o000, 0o036, 0o044, 0o025, 0o000, 0o001, 0o104, 0o001, 0o105,
  0o011, 0o000, 0o006, 0o046, 0o001, 0o000, 0o031, 0o046, 0o025, 0o053, 0o001, 0o000, 0o012, 0o053, 0o005, 0o000,
  0o001, 0o106, 0o045, 0o000, 0o001, 0o065, 0o002, 0o000, 0o001, 0o107, 0o001, 0o000, 0o001, 0o065, 0o001, 0o000,
  0o001, 0o061, 0o001, 0o000, 0o001, 0o062, 0o026, 0o000, 0o001, 0o110, 0o004, 0o000, 0o001, 0o110, 0o002, 0o000,
  0o001, 0o111, 0o003, 0o000, 0o001, 0o111, 0o023, 0o000, 0o001, 0o065, 0o004, 0o000, 0o001, 0o065, 0o001, 0o000,
  0o001, 0o061, 0o001, 0o000, 0o001, 0o062, 0o023, 0o000, 0o001, 0o112, 0o002, 0o000, 0o001, 0o112, 0o004, 0o000,
  0o003, 0o112, 0o001, 0o000, 0o001, 0o112, 0o022, 0o000, 0o005, 0o022, 0o004, 0o000, 0o003, 0o022, 0o001, 0o000,
  0o001, 0o022, 0o004, 0o000, 0o002, 0o022, 0o001, 0o113, 0o004, 0o022, 0o007, 0o000, 0o005, 0o022, 0o004, 0o000,
  0o003, 0o022, 0o001, 0o000, 0o001, 0o022, 0o004, 0o000, 0o006, 0o022, 0o001, 0o114, 0o003, 0o000, 0o001, 0o115,
  0o003, 0o000, 0o005, 0o022, 0o004, 0o000, 0o003, 0o022, 0o001, 0o000, 0o001, 0o022, 0o002, 0o116, 0o001, 0o117,
  0o001, 0o000, 0o007, 0o022, 0o001, 0o000, 0o001, 0o120, 0o023, 0o000, 0o002, 0o077, 0o036, 0o000, 0o001, 0o077,
  0o001, 0o100, 0o012, 0o000, 0o001, 0o121, 0o023, 0o000, 0o002, 0o102, 0o012, 0o000, 0o001, 0o122, 0o023, 0o000,
  0o002, 0o104, 0o024, 0o000, 0o001, 0o110, 0o004, 0o000, 0o001, 0o110, 0o026, 0o000, 0o005, 0o022, 0o004, 0o000,
  0o003, 0o022, 0o001, 0o000, 0o001, 0o022, 0o004, 0o000, 0o002, 0o022, 0o001, 0o123, 0o004, 0o022, 0o003, 0o000,
  0o001, 0o124, 0o003, 0o000, 0o005, 0o022, 0o004, 0o000, 0o003, 0o022, 0o001, 0o000, 0o001, 0o022, 0o002, 0o125,
  0o001, 0o126, 0o001, 0o000, 0o007, 0o022, 0o003, 0o000, 0o001, 0o127, 0o037, 0o000, 0o001, 0o115, 0o021, 0o000,
  0o002, 0o116, 0o001, 0o117, 0o001, 0o000, 0o001, 0o130, 0o035, 0o000, 0o001, 0o127, 0o013, 0o000, 0o001, 0o131,
  0o037, 0o000, 0o001, 0o124, 0o021, 0o000, 0o002, 0o125, 0o001, 0o126, 0o001, 0o000, 0o001, 0o132, 0o035, 0o000,
  0o001, 0o131, 0o010, 0o000, 0o025, 0o127, 0o001, 0o116, 0o003, 0o127, 0o001, 0o133, 0o006, 0o127, 0o032, 0o000,
  0o001, 0o134, 0o005, 0o000, 0o025, 0o131, 0o001, 0o125, 0o003, 0o131, 0o001, 0o135, 0o006, 0o131, 0o032, 0o000,
  0o001, 0o136, 0o005, 0o000, 0o025, 0o127, 0o001, 0o116, 0o003, 0o127, 0o001, 0o133, 0o001, 0o137, 0o005, 0o127,
  0o033, 0o000, 0o001, 0o140, 0o004, 0o000, 0o025, 0o131, 0o001, 0o125, 0o003, 0o131, 0o001, 0o135, 0o001, 0o141,
  0o005, 0o131, 0o033, 0o000, 0o001, 0o142, 0o004, 0o000, 0o025, 0o127, 0o001, 0o116, 0o003, 0o127, 0o001, 0o133,
  0o001, 0o127, 0o001, 0o143, 0o004, 0o127, 0o033, 0o000, 0o001, 0o144, 0o004, 0o000, 0o025, 0o131, 0o001, 0o125,
  0o003, 0o131, 0o001, 0o135, 0o001, 0o131, 0o001, 0o145, 0o004, 0o131, 0o033, 0o000, 0o001, 0o146, 0o004, 0o000,
  0o025, 0o127, 0o001, 0o116, 0o003, 0o127, 0o001, 0o133, 0o001, 0o127, 0o001, 0o147, 0o004, 0o127, 0o025, 0o131,
  0o001, 0o125, 0o003, 0o131, 0o001, 0o135, 0o001, 0o131, 0o001, 0o150, 0o004, 0o131]

def ZZ_ATTRIBUTE_PACKED_0 : List Nat := [
  0o004, 0o000, 0o001, 0o010, 0o004, 0o000, 0o003, 0o011, 0o001, 0o001, 0o001, 0o011, 0o010, 0o001, 0o001, 0o011,
  0o017, 0o001, 0o004, 0o011, 0o001, 0o001, 0o001, 0o011, 0o001, 0o000, 0o002, 0o011, 0o001, 0o001, 0o001, 0o000,
  0o003, 0o011, 0o001, 0o001, 0o001, 0o011, 0o001, 0o000, 0o003, 0o001, 0o002, 0o011, 0o001, 0o000, 0o001, 0o011,
  0o002, 0o000, 0o001, 0o011, 0o004, 0o000, 0o002, 0o011, 0o001, 0o001, 0o001, 0o000, 0o003, 0o001, 0o003, 0o000,
  0o003, 0o011, 0o001, 0o001, 0o020, 0o000, 0o001, 0o011, 0o001, 0o000, 0o001, 0o011, 0o002, 0o001]

/-! ## Unpacking the tables -/

/-- Go indexing `xs[i]` with an `int` index: `none` stands for the index-out-of-range panic. -/
def idx {α : Type} (xs : List α) (i : Int) : Option α :=
  if i < 0 then none else xs.get? i.toNat

/-- Go slicing `xs[lo:hi]` of a slice whose capacity is its length: `none` stands for the
slice-bounds-out-of-range panic. -/
def slice {α : Type} (xs : List α) (lo hi : Int) : Option (List α) :=
  if 0 ≤ lo ∧ lo ≤ hi ∧ hi ≤ (xs.length : Int) then some ((xs.drop lo.toNat).take (hi - lo).toNat)
  else none

/-- The consecutive writes `result[j] = v`, `j++` for the values `vs` in turn, starting at
index `j` (they fit for all the tables below). -/
def writeAt {α : Type} (result : List α) (j : Nat) (vs : List α) : List α :=
  result.take j ++ vs ++ result.drop (j + vs.length)

/-- The values that the run-length loop shared by `zzUnpackAction`, `zzUnpackAttribute`
and `zzUnpackCMap` writes, in order: for each pair `count, value` one write of `value`,
then `count - 1` more while `count > 0`. -/
def unpackRuns : List Nat → List Nat
  | count :: value :: rest => value :: (List.replicate (count - 1) value ++ unpackRuns rest)
  | _ => []

/-- The values that the loop of `zzUnpackTrans` writes: as `unpackRuns`, after `value--`. -/
def unpackTransRuns : List Nat → List Int
  | count :: value :: rest =>
      ((value : Int) - 1) :: (List.replicate (count - 1) ((value : Int) - 1) ++ unpackTransRuns rest)
  | _ => []

/-- The values that the loop of `zzUnpackRowMap` writes: `high << 16 | low` for each pair. -/
def unpackRowRuns : List Nat → List Int
  | high :: low :: rest => (((high <<< 16) ||| low : Nat) : Int) :: unpackRowRuns rest
  | _ => []

/-- `zzUnpackAction(packed, offset, result)`: the new offset and the filled array. -/
def zzUnpackAction (packed : List Nat) (offset : Nat) (result : List Int) : Nat × List Int :=
  let vs := (unpackRuns packed).map Int.ofNat
  (offset + vs.length, writeAt result offset vs)

/-- `zzUnpackActionNoParams()`. -/
def zzUnpackActionNoParams : List Int :=
  (zzUnpackAction ZZ_ACTION_PACKED_0 0 (List.replicate 104 0)).2

/-- Translates DFA states to action switch labels. -/
def ZZ_ACTION : List Int := zzUnpackActionNoParams

/-- `zzUnpackRowMap(packed, offset, result)`. -/
def zzUnpackRowMap (packed : List Nat) (offset : Nat) (result : List Int) : Nat × List Int :=
  let vs := unpackRowRuns packed
  (offset + vs.length, writeAt result offset vs)

/-- `zzUnpackRowMapNoParams()`. -/
def zzUnpackRowMapNoParams : List Int :=
  (zzUnpackRowMap ZZ_ROWMAP_PACKED_0 0 (List.replicate 104 0)).2

/-- Translates a state to a row index in the transition table. -/
def ZZ_ROWMAP : List Int := zzUnpackRowMapNoParams

/-- `zzUnpackTrans(packed, offset, result)`. -/
def zzUnpackTrans (packed : List Nat) (offset : Nat) (result : List Int) : Nat × List Int :=
  let vs := unpackTransRuns packed
  (offset + vs.length, writeAt result offset vs)

/-- `zzUnpackTransNoParams()`. -/
def zzUnpackTransNoParams : List Int :=
  (zzUnpackTrans ZZ_TRANS_PACKED_0 0 (List.replicate 2208 0)).2

/-- The transition table of the DFA. -/
def ZZ_TRANS : List Int := zzUnpackTransNoParams

/-- `zzUnpackAttribute(packed, offset, result)`. -/
def zzUnpackAttribute (packed : List Nat) (offset : Nat) (result : List Int) : Nat × List Int :=
  let vs := (unpackRuns packed).map Int.ofNat
  (offset + vs.length, writeAt result offset vs)

/-- `zzUnpackAttributeNoParams()`. -/
def zzUnpackAttributeNoParams : List Int :=
  (zzUnpackAttribute ZZ_ATTRIBUTE_PACKED_0 0 (List.replicate 104 0)).2

/-- `ZZ_ATTRIBUTE[aState]` contains the attributes of state `aState`. -/
def ZZ_ATTRIBUTE : List Int := zzUnpackAttributeNoParams

/-- `zzUnpackCMap(packed)`: the loop reads the first 208 entries of `packed` and writes
from index 0 into an array of `0x110000` zeros. -/
def zzUnpackCMap (packed : List Nat) : List Nat :=
  writeAt (List.replicate 0x110000 0) 0 (unpackRuns (packed.take 208))

/-- Translates characters to character classes. -/
def ZZ_CMAP : List Nat := zzUnpackCMap ZZ_CMAP_PACKED

/-- Error codes. -/
def ZZ_UNKNOWN_ERROR : Int := 0
/-- Error code of a failed match. -/
def ZZ_NO_MATCH : Int := 1
/-- Error code of an oversized pushback. -/
def ZZ_PUSHBACK_2BIG : Int := 2

/-- Error messages for the codes above. -/
def ZZ_ERROR_MSG : List String :=
  ["Unknown internal scanner error", "Error: could not match input",
   "Error: pushback Value was too large"]

/-! ## Tokens, the character source and the scanner state -/

/-- Modelled from the spec: the token kinds (the constants `NORMAL`, `INT`, ... that
`Yylex` passes to `newLVal` are declared outside the given sources). -/
inductive Kind
  | NORMAL | INT | DOUBLE | DECIMAL | STRING | HEX_INT | WHITESPACE_OR_COMMENT | NULL
  deriving DecidableEq, Repr

/-- Modelled from the spec: the token `newLVal(text, kind)` builds (`LVal` and `newLVal`
are declared outside the given sources): a text and a kind. -/
structure LVal where
  Value : List Char
  Tp : Kind
  deriving DecidableEq, Repr

/-- Modelled from the spec: `newLVal(text, kind)`. -/
def newLVal (text : List Char) (kind : Kind) : LVal := ⟨text, kind⟩

/-- One answer of `ReadRune()`: a rune, or an error other than `io.EOF`. -/
inductive RuneRead
  | rune (r : Char)
  | fail (err : String)
  deriving DecidableEq, Repr

/-- An `io.RuneReader`, given by the answers it has yet to deliver; once they are
exhausted `ReadRune()` answers `io.EOF`. -/
abbrev RuneReader := List RuneRead

/-- The reader over a given text. -/
def ofRunes (text : List Char) : RuneReader := text.map RuneRead.rune

/-- The scanner. -/
structure Lexer where
  /-- the input device -/
  zzReader : RuneReader
  /-- the current state of the DFA -/
  zzState : Int
  /-- the current lexical state -/
  zzLexicalState : Int
  /-- this buffer contains the current text to be matched and is the source of the
  yytext() string -/
  zzBuffer : List Char
  /-- the textposition at the last accepting state -/
  zzMarkedPos : Int
  /-- the current text Position in the buffer -/
  zzCurrentPos : Int
  /-- startRead marks the beginning of the yytext() string in the buffer -/
  zzStartRead : Int
  /-- endRead marks the last character in the buffer, that has been read from input -/
  zzEndRead : Int
  /-- number of newlines encountered up to the start of the matched text -/
  yyline : Int
  /-- the number of characters up to the start of the matched text -/
  yychar : Int
  /-- the number of characters from the last newline up to the start of the matched text -/
  yycolumn : Int
  /-- the scanner is currently at the beginning of a line -/
  zzAtBOL : Bool
  /-- the scanner is at the EOF -/
  zzAtEOF : Bool
  /-- denotes if the user-EOF-code has already been executed -/
  zzEOFDone : Bool
  /-- the number of occupied positions in zzBuffer beyond zzEndRead -/
  zzFinalHighSurrogate : Int
  /-- user code: the text accumulated inside a sub-state -/
  ltstr : List Char
  /-- user code -/
  debugFlag : Bool
  deriving DecidableEq, Repr

/-- The zero rune a fresh buffer is filled with. -/
def zeroRune : Char := Char.ofNat 0

/-- `new(Lexer)`: every field has its zero value. -/
def Lexer.zero : Lexer :=
  { zzReader := [], zzState := 0, zzLexicalState := 0, zzBuffer := [], zzMarkedPos := 0,
    zzCurrentPos := 0, zzStartRead := 0, zzEndRead := 0, yyline := 0, yychar := 0,
    yycolumn := 0, zzAtBOL := false, zzAtEOF := false, zzEOFDone := false,
    zzFinalHighSurrogate := 0, ltstr := [], debugFlag := false }

/-- `lexer.init()`. -/
def Lexer.init (lexer : Lexer) : Lexer :=
  { lexer with
    zzLexicalState := YYINITIAL
    zzBuffer := List.replicate ZZ_BUFFERSIZE zeroRune
    zzAtBOL := true }

/-- `lexer.Reset(in)`. -/
def Lexer.Reset (lexer : Lexer) (rd : RuneReader) : Lexer :=
  { lexer with
    zzLexicalState := YYINITIAL
    zzAtBOL := true
    zzReader := rd
    zzState := 0
    zzMarkedPos := 0
    zzCurrentPos := 0
    zzStartRead := 0
    zzEndRead := 0
    yyline := 0
    yychar := 0
    yycolumn := 0
    zzAtEOF := false
    zzEOFDone := false
    zzFinalHighSurrogate := 0
    ltstr := [] }

/-- `NewLexer(in, debug)`. -/
def NewLexer (rd : RuneReader) (debug : Bool) : Lexer :=
  { Lexer.zero.init with debugFlag := debug, zzReader := rd }

/-- `strconv.Itoa`. -/
def Itoa (n : Int) : String := toString n

/-- The message `lexer.yyerror(msg)` panics with. -/
def Lexer.yyerror (lexer : Lexer) (msg : String) : String :=
  let locInfo := "(line: " ++ Itoa lexer.yyline ++ ", column: " ++ Itoa lexer.yycolumn ++
    ", char: " ++ Itoa lexer.yychar ++ ")"
  if msg = "" then "syntex error" ++ locInfo else "syntex error" ++ locInfo ++ ": " ++ msg

/-- Go run-time panic of an index out of range. -/
def indexPanic : String := "runtime error: index out of range"

/-- Go run-time panic of slice bounds out of range. -/
def slicePanic : String := "runtime error: slice bounds out of range"

/-- The message `lexer.zzScanError(errorCode)` panics with. -/
def zzScanError (errorCode : Int) : String :=
  match idx ZZ_ERROR_MSG errorCode with
  | none => indexPanic
  | some message => if message = "" then ZZ_ERROR_MSG.getD 0 "" else message

/-- `lexer.yystate()`. -/
def Lexer.yystate (lexer : Lexer) : Int := lexer.zzLexicalState

/-- `lexer.yybegin(newState)`. -/
def Lexer.yybegin (lexer : Lexer) (newState : Int) : Lexer :=
  { lexer with zzLexicalState := newState }

/-- `lexer.yytext()`; `none` is the slice panic. -/
def Lexer.yytext (lexer : Lexer) : Option (List Char) :=
  slice lexer.zzBuffer lexer.zzStartRead lexer.zzMarkedPos

/-- `lexer.yylength()`. -/
def Lexer.yylength (lexer : Lexer) : Int := lexer.zzMarkedPos - lexer.zzStartRead

/-- `lexer.yypushback(number)`: the scanner after the pushback, or, when `zzScanError`
panics, the panic message together with the scanner as the panic leaves it (the method
works on the scanner in place, so the caller that recovers from the panic finds the
fields as they were when it was raised). -/
def Lexer.yypushback (lexer : Lexer) (number : Int) : Except (String × Lexer) Lexer :=
  if number > lexer.yylength then .error (zzScanError ZZ_PUSHBACK_2BIG, lexer)
  else .ok { lexer with zzMarkedPos := lexer.zzMarkedPos - number }

/-- `utf8.RuneLen`. -/
def utf8.RuneLen (r : Char) : Int :=
  if r.toNat ≤ 0x7F then 1
  else if r.toNat ≤ 0x7FF then 2
  else if 0xD800 ≤ r.toNat ∧ r.toNat ≤ 0xDFFF then -1
  else if r.toNat ≤ 0xFFFF then 3
  else if r.toNat ≤ 0x10FFFF then 4
  else -1

/-- `utf8.ValidRune`. -/
def utf8.ValidRune (r : Char) : Bool :=
  if r.toNat < 0xD800 then true
  else if 0xDFFF < r.toNat ∧ r.toNat ≤ 0x10FFFF then true
  else false

/-! ## Refilling the buffer -/

/-- Outcome of `zzRefill`: `more` is `(false, nil)`, `eof` is `(true, nil)`, `fail e`
is `(false, e)`. -/
inductive Refill
  | more
  | eof
  | fail (err : String)
  | panic (msg : String)
  deriving DecidableEq, Repr

/-- First part of `zzRefill`: make room by moving the text from `zzStartRead` on to the
front of the buffer. `Except.error` carries the scanner at the slice panic of `copy`. -/
def zzRefillMakeRoom (lexer : Lexer) : Except Lexer Lexer :=
  if lexer.zzStartRead > 0 then
    let l1 := { lexer with
      zzEndRead := lexer.zzEndRead + lexer.zzFinalHighSurrogate
      zzFinalHighSurrogate := 0 }
    let l := l1.zzEndRead - l1.zzStartRead
    let moved : Option (List Char) :=
      if l > 0 then
        match slice l1.zzBuffer 0 l, slice l1.zzBuffer l1.zzStartRead l1.zzEndRead with
        | some _, some src => some (src ++ l1.zzBuffer.drop src.length)
        | _, _ => none
      else some l1.zzBuffer
    match moved with
    | none => .error l1
    | some buf =>
      .ok { l1 with
        zzBuffer := buf
        zzEndRead := l1.zzEndRead - l1.zzStartRead
        zzCurrentPos := l1.zzCurrentPos - l1.zzStartRead
        zzMarkedPos := l1.zzMarkedPos - l1.zzStartRead
        zzStartRead := 0 }
  else .ok lexer

/-- Second part of `zzRefill`: double the buffer when the current position has reached
its end. -/
def zzRefillGrow (lexer : Lexer) : Lexer :=
  if lexer.zzCurrentPos ≥ (lexer.zzBuffer.length : Int) - lexer.zzFinalHighSurrogate then
    { lexer with
      zzBuffer := lexer.zzBuffer ++ List.replicate lexer.zzBuffer.length zeroRune
      zzEndRead := lexer.zzEndRead + lexer.zzFinalHighSurrogate
      zzFinalHighSurrogate := 0 }
  else lexer

/-- How the read loop of `zzRefill` ends. -/
inductive ReadLoop
  | done (rd : RuneReader) (buf : List Char) (numRead : Int)
  | fail (err : String) (rd : RuneReader) (buf : List Char)
  | panic (rd : RuneReader) (buf : List Char)
  deriving DecidableEq, Repr

/-- The read loop of `zzRefill`: `n` iterations are left, `i` is the loop index. -/
def zzRefillRead : Nat → RuneReader → List Char → Int → Int → ReadLoop
  | 0, rd, buf, _, numRead => .done rd buf numRead
  | _ + 1, [], buf, _, numRead => .done [] buf (if numRead = 0 then -1 else numRead)
  | _ + 1, RuneRead.fail err :: rd, buf, _, _ => .fail err rd buf
  | n + 1, RuneRead.rune r :: rd, buf, i, numRead =>
      if 0 ≤ i ∧ i < (buf.length : Int) then
        zzRefillRead n rd (buf.set i.toNat r) (i + 1) (numRead + 1)
      else .panic rd buf

/-- Third part of `zzRefill`: fill the buffer with new input. -/
def zzRefillFill (lexer : Lexer) : Refill × Lexer :=
  let requested : Int := (lexer.zzBuffer.length : Int) - lexer.zzEndRead
  match zzRefillRead requested.toNat lexer.zzReader lexer.zzBuffer lexer.zzEndRead 0 with
  | .fail err rd buf => (.fail err, { lexer with zzReader := rd, zzBuffer := buf })
  | .panic rd buf => (.panic indexPanic, { lexer with zzReader := rd, zzBuffer := buf })
  | .done rd buf numRead =>
    let l3 := { lexer with zzReader := rd, zzBuffer := buf }
    if numRead = 0 then
      (.panic "Reader returned 0 characters. See JFlex examples for workaround.", l3)
    else if numRead > 0 then
      let l4 := { l3 with zzEndRead := l3.zzEndRead + numRead }
      if numRead = requested then
        match idx l4.zzBuffer (l4.zzEndRead - 1) with
        | none => (.panic indexPanic, l4)
        | some r =>
          if utf8.ValidRune r then
            (.more, { l4 with zzEndRead := l4.zzEndRead - 1, zzFinalHighSurrogate := 1 })
          else (.more, l4)
      else (.more, l4)
    else (.eof, l3)

/-- `lexer.zzRefill()`. -/
def Lexer.zzRefill (lexer : Lexer) : Refill × Lexer :=
  match zzRefillMakeRoom lexer with
  | .error l1 => (.panic slicePanic, l1)
  | .ok l1 => zzRefillFill (zzRefillGrow l1)

/-! ## The scanning method -/

/-- What a call of `Yylex` ends with: `token v` is `(v, nil)`, `eof` is `(nil, nil)`,
`fail e` is `(nil, e)`. -/
inductive YyReturn
  | token (v : LVal)
  | eof
  | fail (err : String)
  | panic (msg : String)
  | timeout
  deriving DecidableEq, Repr

/-- The local variables of `Yylex` that live across the DFA loop. -/
structure Scan where
  zzAction : Int
  zzCurrentPosL : Int
  zzMarkedPosL : Int
  zzEndReadL : Int
  zzBufferL : List Char
  deriving DecidableEq, Repr

/-- The loop that brings `yyline` and `yycolumn` up to date over the text of the previous
match, on a buffer of runes that are Unicode scalar values (the type `Char`): the result
is `(yyline, yycolumn, zzR)`, `none` the index panic.  The first argument is the number of
iterations allowed.  On a Unicode scalar value `utf8.RuneLen` is at least 1, every
iteration moves `zzCurrentPosL` forward, and the `zzMarkedPos - zzStartRead` iterations
that `zzCount` allows are enough: with them the loop is left by its own condition and is
never cut off under way (`lineColumn_enough`).  The same loop over every rune value that a
reader can deliver, where `utf8.RuneLen` may be -1 and the loop need not end, is
`zzLineColumnRunes`. -/
def zzLineColumn : Nat → List Char → Int → Int → Int → Int → Bool → Option (Int × Int × Bool)
  | 0, _, _, _, yyline, yycolumn, zzR => some (yyline, yycolumn, zzR)
  | n + 1, zzBufferL, zzCurrentPosL, zzMarkedPosL, yyline, yycolumn, zzR =>
    if zzCurrentPosL < zzMarkedPosL then
      match idx zzBufferL zzCurrentPosL with
      | none => none
      | some zzCh =>
        let zzCharCount := utf8.RuneLen zzCh
        let next := zzLineColumn n zzBufferL (zzCurrentPosL + zzCharCount) zzMarkedPosL
        if zzCh.toNat = 0x0B ∨ zzCh.toNat = 0x0C ∨ zzCh.toNat = 0x85 ∨ zzCh.toNat = 0x2028 ∨
            zzCh.toNat = 0x2029 then
          next (yyline + 1) 0 false
        else if zzCh.toNat = 0x0D then
          next (yyline + 1) 0 true
        else if zzCh.toNat = 0x0A then
          if zzR then next yyline yycolumn false else next (yyline + 1) 0 false
        else
          next yyline (yycolumn + zzCharCount) false
    else some (yyline, yycolumn, zzR)

/-- How bringing the position counters up to date ends: `ok` carries the scanner and the
locals `zzMarkedPosL`, `zzEndReadL`, `zzBufferL`. -/
inductive Counted
  | ok (lexer : Lexer) (zzMarkedPosL zzEndReadL : Int) (zzBufferL : List Char)
  | fail (err : String) (lexer : Lexer)
  | panic (msg : String) (lexer : Lexer)
  deriving DecidableEq, Repr

/-- The peek after a match that ended in a carriage return: is the next rune a line
feed?  The buffer is refilled when the match ended at `zzEndReadL`. -/
def zzPeekLF (lexer : Lexer) (zzMarkedPosL zzEndReadL : Int) (zzBufferL : List Char) :
    Counted :=
  let decr (zzPeek : Bool) (l1 : Lexer) : Lexer :=
    if zzPeek then { l1 with yyline := l1.yyline - 1 } else l1
  if zzMarkedPosL < zzEndReadL then
    match idx zzBufferL zzMarkedPosL with
    | none => .panic indexPanic lexer
    | some r => .ok (decr (r.toNat = 0x0A) lexer) zzMarkedPosL zzEndReadL zzBufferL
  else if lexer.zzAtEOF then .ok lexer zzMarkedPosL zzEndReadL zzBufferL
  else
    match lexer.zzRefill with
    | (.fail err, l1) => .fail err l1
    | (.panic msg, l1) => .panic msg l1
    | (.eof, l1) => .ok l1 l1.zzMarkedPos l1.zzEndRead l1.zzBuffer
    | (.more, l1) =>
      match idx l1.zzBuffer l1.zzMarkedPos with
      | none => .panic indexPanic l1
      | some r => .ok (decr (r.toNat = 0x0A) l1) l1.zzMarkedPos l1.zzEndRead l1.zzBuffer

/-- The start of a pass of the outer loop of `Yylex`: `yychar`, `yyline` and `yycolumn`
are brought up to date over the text of the previous match. -/
def zzCount (lexer : Lexer) (zzEndReadL : Int) (zzBufferL : List Char) : Counted :=
  let zzMarkedPosL := lexer.zzMarkedPos
  let l1 := { lexer with yychar := lexer.yychar + (zzMarkedPosL - lexer.zzStartRead) }
  match zzLineColumn (zzMarkedPosL - l1.zzStartRead).toNat zzBufferL l1.zzStartRead zzMarkedPosL
      l1.yyline l1.yycolumn false with
  | none => .panic indexPanic l1
  | some (yyline, yycolumn, zzR) =>
    let l2 := { l1 with yyline := yyline, yycolumn := yycolumn }
    if zzR then zzPeekLF l2 zzMarkedPosL zzEndReadL zzBufferL
    else .ok l2 zzMarkedPosL zzEndReadL zzBufferL

/-- How the start of a pass ends. -/
inductive Begun
  | ready (lexer : Lexer) (s : Scan)
  | fail (err : String) (lexer : Lexer)
  | panic (msg : String) (lexer : Lexer)
  deriving DecidableEq, Repr

/-- The start of a pass of the outer loop of `Yylex`, up to the DFA loop: the position
counters are brought up to date and the DFA is put in the start state of the lexical
state. -/
def zzBegin (lexer : Lexer) (zzEndReadL : Int) (zzBufferL : List Char) : Begun :=
  match zzCount lexer zzEndReadL zzBufferL with
  | .fail err l3 => .fail err l3
  | .panic msg l3 => .panic msg l3
  | .ok l3 zzMarkedPosL zzEndReadL zzBufferL =>
    match idx ZZ_LEXSTATE l3.zzLexicalState with
    | none =>
      .panic indexPanic { l3 with zzCurrentPos := zzMarkedPosL, zzStartRead := zzMarkedPosL }
    | some st =>
      let l4 := { l3 with
        zzCurrentPos := zzMarkedPosL, zzStartRead := zzMarkedPosL, zzState := st }
      match idx ZZ_ATTRIBUTE l4.zzState with
      | none => .panic indexPanic l4
      | some zzAttributes =>
        .ready l4
          { zzAction := if zzAttributes.toNat &&& 1 = 1 then l4.zzState else -1
            zzCurrentPosL := zzMarkedPosL
            zzMarkedPosL := zzMarkedPosL
            zzEndReadL := zzEndReadL
            zzBufferL := zzBufferL }

/-- How fetching the next input character ends. -/
inductive Fetched
  | char (zzInput : Char) (lexer : Lexer) (s : Scan)
  | eof (lexer : Lexer) (s : Scan)
  | fail (err : String) (lexer : Lexer)
  | panic (msg : String) (lexer : Lexer)
  deriving DecidableEq, Repr

/-- First half of an iteration of the DFA loop: the next input character, from the
buffer or after a refill; `eof` stands for `zzInput = YYEOF`. -/
def zzFetch (lexer : Lexer) (s : Scan) : Fetched :=
  if s.zzCurrentPosL < s.zzEndReadL then
    match idx s.zzBufferL s.zzCurrentPosL with
    | none => .panic indexPanic lexer
    | some zzInput => .char zzInput lexer { s with zzCurrentPosL := s.zzCurrentPosL + 1 }
  else if lexer.zzAtEOF then .eof lexer s
  else
    -- store back cached positions
    let l1 := { lexer with zzCurrentPos := s.zzCurrentPosL, zzMarkedPos := s.zzMarkedPosL }
    match l1.zzRefill with
    | (.fail err, l2) => .fail err l2
    | (.panic msg, l2) => .panic msg l2
    | (.eof, l2) =>
      -- get translated positions and possibly new buffer
      .eof l2 { s with
        zzCurrentPosL := l2.zzCurrentPos
        zzMarkedPosL := l2.zzMarkedPos
        zzBufferL := l2.zzBuffer
        zzEndReadL := l2.zzEndRead }
    | (.more, l2) =>
      match idx l2.zzBuffer l2.zzCurrentPos with
      | none => .panic indexPanic l2
      | some zzInput =>
        .char zzInput l2 { s with
          zzCurrentPosL := l2.zzCurrentPos + 1
          zzMarkedPosL := l2.zzMarkedPos
          zzBufferL := l2.zzBuffer
          zzEndReadL := l2.zzEndRead }

/-- How the transition on one input character ends. -/
inductive Moved
  | next (lexer : Lexer) (s : Scan)
  | stop (lexer : Lexer) (s : Scan)
  | panic (msg : String) (lexer : Lexer)
  deriving DecidableEq, Repr

/-- `zzTransL[zzRowMapL[zzState] + zzCMapL[zzInput]]`; `none` is the index panic. -/
def zzNext (zzState : Int) (zzInput : Char) : Option Int :=
  match idx ZZ_ROWMAP zzState, ZZ_CMAP.get? zzInput.toNat with
  | some row, some cls => idx ZZ_TRANS (row + (cls : Int))
  | _, _ => none

/-- Second half of an iteration of the DFA loop: the transition on `zzInput`; `stop` is
the jump to `zzForAction`. -/
def zzMove (zzInput : Char) (lexer : Lexer) (s : Scan) : Moved :=
  match zzNext lexer.zzState zzInput with
  | none => .panic indexPanic lexer
  | some next =>
    if next = -1 then .stop lexer s
    else
      let l1 := { lexer with zzState := next }
      match idx ZZ_ATTRIBUTE l1.zzState with
      | none => .panic indexPanic l1
      | some zzAttributes =>
        if zzAttributes.toNat &&& 1 = 1 then
          let s1 := { s with zzAction := l1.zzState, zzMarkedPosL := s.zzCurrentPosL }
          if zzAttributes.toNat &&& 8 = 8 then .stop l1 s1 else .next l1 s1
        else .next l1 s

/-- How the DFA loop ends; `forAction none` is the arrival at `zzForAction` with
`zzInput = YYEOF`. -/
inductive LoopExit
  | forAction (zzInput : Option Char) (lexer : Lexer) (s : Scan)
  | fail (err : String) (lexer : Lexer)
  | panic (msg : String) (lexer : Lexer)
  | timeout (lexer : Lexer)
  deriving DecidableEq, Repr

/-- The DFA loop of `Yylex`. -/
def zzLoop : Nat → Lexer → Scan → LoopExit
  | 0, lexer, _ => .timeout lexer
  | fuel + 1, lexer, s =>
    match zzFetch lexer s with
    | .eof l1 s1 => .forAction none l1 s1
    | .fail err l1 => .fail err l1
    | .panic msg l1 => .panic msg l1
    | .char zzInput l1 s1 =>
      match zzMove zzInput l1 s1 with
      | .next l2 s2 => zzLoop fuel l2 s2
      | .stop l2 s2 => .forAction (some zzInput) l2 s2
      | .panic msg l2 => .panic msg l2

/-- How one pass of the outer loop of `Yylex` ends: with a return, or back at the top of
the loop with the cached `zzEndReadL` and `zzBufferL`. -/
inductive Pass
  | ret (r : YyReturn) (lexer : Lexer)
  | again (lexer : Lexer) (zzEndReadL : Int) (zzBufferL : List Char)
  deriving DecidableEq, Repr

/-- The switch on the lexical state at end of input (`zzAtEOF` is already set).  The
cases `105` to `111` are empty and leave the switch. -/
def zzEofSwitch (lexer : Lexer) (s : Scan) : Pass :=
  let st := lexer.zzLexicalState
  let unterminated (msg : String) : Pass :=
    let l1 := lexer.yybegin YYINITIAL
    .ret (.panic (l1.yyerror msg)) l1
  if st = xc then unterminated "unterminated /* comment"
  else if st = 105 then .again lexer s.zzEndReadL s.zzBufferL
  else if st = xq then unterminated "unterminated quoted string"
  else if st = 106 then .again lexer s.zzEndReadL s.zzBufferL
  else if st = xdq then unterminated "unterminated quoted identifier"
  else if st = 107 then .again lexer s.zzEndReadL s.zzBufferL
  else if st = xbin then unterminated "unterminated binary string literal"
  else if st = 108 then .again lexer s.zzEndReadL s.zzBufferL
  else if st = xhex then unterminated "unterminated hexadecimal integer"
  else if st = 109 then .again lexer s.zzEndReadL s.zzBufferL
  else if st = xq2 then unterminated "unterminated q2 string"
  else if st = 110 then .again lexer s.zzEndReadL s.zzBufferL
  else if st = xq2_2 then unterminated "unterminated q2 string"
  else if st = 111 then .again lexer s.zzEndReadL s.zzBufferL
  else .ret .eof lexer

/-- The switch on the action of the match, `text` being `lexer.yytext()`.  A case that
does not return falls through into the empty case after it and leaves the switch; the
cases `44` to `86` are empty. -/
def zzActionSwitch (action : Int) (text : List Char) (lexer : Lexer) (s : Scan) : Pass :=
  let again (l1 : Lexer) : Pass := .again l1 s.zzEndReadL s.zzBufferL
  if action < 0 then .ret (.panic (zzScanError ZZ_NO_MATCH)) lexer
  else
    match action.toNat with
    | 1 => .ret (.token (newLVal text .NORMAL)) lexer
    | 2 => again { lexer.yybegin xq with ltstr := [] }
    | 3 => again { lexer.yybegin xdq with ltstr := [] ++ text }
    | 4 => .ret (.token (newLVal text .NORMAL)) lexer
    | 5 => .ret (.token (newLVal text .NORMAL)) lexer
    | 6 => .ret (.token (newLVal text .INT)) lexer
    | 7 => .ret (.token (newLVal text .WHITESPACE_OR_COMMENT)) lexer
    | 8 => again { lexer with ltstr := lexer.ltstr ++ text }
    | 9 => again { lexer with ltstr := lexer.ltstr ++ text }
    | 10 => again { lexer with ltstr := lexer.ltstr ++ text }
    | 11 => .ret (.token (newLVal lexer.ltstr .STRING)) (lexer.yybegin YYINITIAL)
    | 12 => again { lexer with ltstr := lexer.ltstr ++ text }
    | 13 =>
      let l1 := { lexer.yybegin YYINITIAL with ltstr := lexer.ltstr ++ text }
      .ret (.token (newLVal l1.ltstr .NORMAL)) l1
    | 14 => again { lexer with ltstr := lexer.ltstr ++ text }
    | 15 =>
      let l1 := { lexer.yybegin YYINITIAL with ltstr := lexer.ltstr ++ text }
      .ret (.token (newLVal l1.ltstr .NORMAL)) l1
    | 16 => again { lexer with ltstr := lexer.ltstr ++ text }
    | 17 =>
      let l1 := { lexer.yybegin YYINITIAL with ltstr := lexer.ltstr ++ text }
      .ret (.token (newLVal l1.ltstr .NORMAL)) l1
    | 18 => again { lexer with ltstr := lexer.ltstr ++ text }
    | 19 => again (lexer.yybegin xq2_2)
    | 20 => again ({ lexer with ltstr := lexer.ltstr ++ "]".toList ++ text }.yybegin xq2)
    | 21 => .ret (.token (newLVal lexer.ltstr .STRING)) (lexer.yybegin YYINITIAL)
    | 22 => again ({ lexer with ltstr := lexer.ltstr ++ "]".toList }.yybegin xq2_2)
    | 23 => again { lexer.yybegin xc with ltstr := text }
    | 24 => again { lexer.yybegin xbin with ltstr := [] ++ text }
    | 25 => again { lexer.yybegin xhex with ltstr := [] ++ text }
    | 26 => .ret (.token (newLVal text .DECIMAL)) lexer
    | 27 => .ret (.token (newLVal text .DOUBLE)) lexer
    | 28 => .ret (.token (newLVal text .NORMAL)) lexer
    | 29 => .ret (.token (newLVal text .NORMAL)) lexer
    | 30 => .ret (.token (newLVal text .NORMAL)) lexer
    | 31 => again { lexer with ltstr := lexer.ltstr ++ text }
    | 32 =>
      let l1 := { lexer.yybegin YYINITIAL with ltstr := lexer.ltstr ++ text }
      .ret (.token (newLVal l1.ltstr .WHITESPACE_OR_COMMENT)) l1
    | 33 => again { lexer with ltstr := lexer.ltstr ++ "\\\x27".toList }
    | 34 => again { lexer with ltstr := lexer.ltstr ++ text }
    | 35 => again { lexer.yybegin xq2 with ltstr := [] }
    | 36 => .ret (.token (newLVal text .NORMAL)) lexer
    | 37 => .ret (.token (newLVal text .HEX_INT)) lexer
    | 38 => again lexer
    | 39 => again lexer
    | 40 => again lexer
    | 41 => .ret (.token (newLVal "null".toList .NULL)) lexer
    | 42 => .ret (.token (newLVal text .NORMAL)) lexer
    | 43 => .ret (.token (newLVal text .NORMAL)) lexer
    | n =>
      if 44 ≤ n ∧ n ≤ 86 then again lexer
      else .ret (.panic (zzScanError ZZ_NO_MATCH)) lexer

/-- The action of the match: the switch on `ZZ_ACTION[zzAction]` (on `zzAction` itself
when it is negative). -/
def zzDispatch (lexer : Lexer) (s : Scan) : Pass :=
  let looked : Option Int :=
    if s.zzAction < 0 then some s.zzAction else idx ZZ_ACTION s.zzAction
  match looked with
  | none => .ret (.panic indexPanic) lexer
  | some action =>
    match lexer.yytext with
    | none => .ret (.panic slicePanic) lexer
    | some text => zzActionSwitch action text lexer s

/-- The code at the label `zzForAction`: store back the marked position, then either
the end-of-input switch or the action of the match. -/
def zzForAction (zzInput : Option Char) (lexer : Lexer) (s : Scan) : Pass :=
  let l1 := { lexer with zzMarkedPos := s.zzMarkedPosL }
  if zzInput = none ∧ l1.zzStartRead = l1.zzCurrentPos then
    zzEofSwitch { l1 with zzAtEOF := true } s
  else zzDispatch l1 s

/-- The DFA loop of a pass and what follows it. -/
def zzRun (fuel : Nat) (lexer : Lexer) (s : Scan) : Pass :=
  match zzLoop fuel lexer s with
  | .fail err l2 => .ret (.fail err) l2
  | .panic msg l2 => .ret (.panic msg) l2
  | .timeout l2 => .ret .timeout l2
  | .forAction zzInput l2 s2 => zzForAction zzInput l2 s2

/-- One pass of the outer loop of `Yylex`. -/
def yyPass (fuel : Nat) (lexer : Lexer) (zzEndReadL : Int) (zzBufferL : List Char) : Pass :=
  match zzBegin lexer zzEndReadL zzBufferL with
  | .fail err l1 => .ret (.fail err) l1
  | .panic msg l1 => .ret (.panic msg) l1
  | .ready l1 s => zzRun fuel l1 s

/-- The outer loop of `Yylex`. -/
def yyLoop : Nat → Nat → Lexer → Int → List Char → YyReturn × Lexer
  | 0, _, lexer, _, _ => (.timeout, lexer)
  | passes + 1, fuel, lexer, zzEndReadL, zzBufferL =>
    match yyPass fuel lexer zzEndReadL zzBufferL with
    | .ret r l1 => (r, l1)
    | .again l1 e b => yyLoop passes fuel l1 e b

/-- `lexer.Yylex()`: the result and the scanner after the call.  `fuel` bounds both the
number of passes of the outer loop and the iterations of each DFA loop. -/
def Lexer.Yylex (fuel : Nat) (lexer : Lexer) : YyReturn × Lexer :=
  yyLoop fuel fuel lexer lexer.zzEndRead lexer.zzBuffer

/-! ## Specification-side definitions -/

/-- The DFA loop of `Yylex` run over a given text, as a function of the text alone: from
the DFA state `st`, the last accepting state `a` (or `-1`), and the offsets `m` of the
marked and `c` of the current position, the run reads the runes of the text in turn as
`zzMove` does.  The result is the rune that stopped the run (`none` when the text was
read to its end), the DFA state, the last accepting state and the two offsets; `none`
stands for the index panic of a table lookup. -/
def dfaRun : Int → Int → Nat → Nat → List Char → Option (Option Char × Int × Int × Nat × Nat)
  | st, a, m, c, [] => some (none, st, a, m, c)
  | st, a, m, c, x :: xs =>
    match zzNext st x with
    | none => none
    | some next =>
      if next = -1 then some (some x, st, a, m, c + 1)
      else
        match idx ZZ_ATTRIBUTE next with
        | none => none
        | some zzAttributes =>
          if zzAttributes.toNat &&& 1 = 1 then
            if zzAttributes.toNat &&& 8 = 8 then some (some x, next, next, c + 1, c + 1)
            else dfaRun next next (c + 1) (c + 1) xs
          else dfaRun next a m (c + 1) xs

/-- The fields of the scanner that a refill leaves alone. -/
def Same (l l' : Lexer) : Prop :=
  l'.zzState = l.zzState ∧ l'.zzLexicalState = l.zzLexicalState ∧ l'.yyline = l.yyline ∧
  l'.yychar = l.yychar ∧ l'.yycolumn = l.yycolumn ∧ l'.zzAtBOL = l.zzAtBOL ∧
  l'.zzAtEOF = l.zzAtEOF ∧ l'.zzEOFDone = l.zzEOFDone ∧ l'.ltstr = l.ltstr ∧
  l'.debugFlag = l.debugFlag

/-- The buffer invariant: the buffer is `pre ++ live ++ post`, where `pre` is the text
before `zzStartRead`, `live` the text from `zzStartRead` up to `zzEndRead` followed by
the `h` held-back runes, and the reader still has the text `rest` to deliver.  A rune is
held back exactly when the buffer is full. -/
structure Buf (l : Lexer) (pre live post : List Char) (h : Nat) (rest : List Char) : Prop where
  buf : l.zzBuffer = pre ++ live ++ post
  st : l.zzStartRead = (pre.length : Int)
  en : l.zzEndRead = ((pre.length + live.length - h : Nat) : Int)
  fhs : l.zzFinalHighSurrogate = (h : Int)
  hle : h ≤ live.length
  hh : (h = 1 ∧ post = []) ∨ (h = 0 ∧ post ≠ [])
  rd : l.zzReader = ofRunes rest

/-- The number of runes a refill asks the reader for. -/
def room (pre live post : List Char) (h : Nat) : Nat :=
  if pre = [] ∧ h = 1 then live.length else pre.length + post.length

/-- The invariant of the DFA loop: the buffer invariant, the cached locals agree with
the fields, and the marked and the current position are `m` and `c` runes after
`zzStartRead`. -/
structure Inv (l : Lexer) (s : Scan) (pre live post : List Char) (h : Nat)
    (rest : List Char) (m c : Nat) : Prop where
  b : Buf l pre live post h rest
  hbuf : s.zzBufferL = l.zzBuffer
  hend : s.zzEndReadL = l.zzEndRead
  hm : s.zzMarkedPosL = ((pre.length + m : Nat) : Int)
  hc : s.zzCurrentPosL = ((pre.length + c : Nat) : Int)
  hmc : m ≤ c
  hcl : c ≤ live.length

/-- The state of a scanner whose reader is exhausted, between two passes of `Yylex`, as
far as the tokens depend on it: the lexical state, the accumulated text, the text of the
previous match, the text not yet matched that lies before `zzEndRead`, and the rune held
back beyond `zzEndRead`, if any. -/
structure Abs where
  lex : Int
  ltstr : List Char
  txt : List Char
  rem : List Char
  held : List Char
  deriving DecidableEq, Repr

/-- How a pass ends, in terms of `Abs`: `unterminated msg` is the panic of
`yyerror(msg)`, `unknown` a pass this description does not cover. -/
inductive AbsOut
  | token (v : LVal) (a : Abs)
  | again (a : Abs)
  | eof
  | unterminated (msg : String)
  | panic (msg : String)
  | unknown
  deriving DecidableEq, Repr

/-- The scanner, reduced to the two fields the action switch reads and writes. -/
def Abs.user (a : Abs) : Lexer :=
  { Lexer.zero with zzLexicalState := a.lex, ltstr := a.ltstr }

/-- Unused locals for `Abs.user`. -/
def Scan.zero : Scan :=
  { zzAction := 0, zzCurrentPosL := 0, zzMarkedPosL := 0, zzEndReadL := 0, zzBufferL := [] }

/-- The action switch in terms of `Abs`. -/
def absAction (action : Int) (text : List Char) (a : Abs) (rem held : List Char) : AbsOut :=
  match zzActionSwitch action text a.user Scan.zero with
  | .ret (.token v) u => .token v ⟨u.zzLexicalState, u.ltstr, text, rem, held⟩
  | .ret (.panic msg) _ => .panic msg
  | .ret _ _ => .unknown
  | .again u _ _ => .again ⟨u.zzLexicalState, u.ltstr, text, rem, held⟩

/-- The end-of-input switch in terms of the lexical state. -/
def absEof (lex : Int) : AbsOut :=
  if lex = xc then .unterminated "unterminated /* comment"
  else if lex = xq then .unterminated "unterminated quoted string"
  else if lex = xdq then .unterminated "unterminated quoted identifier"
  else if lex = xbin then .unterminated "unterminated binary string literal"
  else if lex = xhex then .unterminated "unterminated hexadecimal integer"
  else if lex = xq2 then .unterminated "unterminated q2 string"
  else if lex = xq2_2 then .unterminated "unterminated q2 string"
  else .eof

/-- The carriage return. -/
def CR : Char := Char.ofNat 0x0D

/-- The DFA loop of a pass and what follows it, in terms of `Abs`, from the DFA state
`st0` with `act0` as the last accepting state. -/
def absRun (a : Abs) (st0 act0 : Int) : AbsOut :=
  match dfaRun st0 act0 0 0 a.rem with
  | none => .panic indexPanic
  | some (inp, _, act, m, c) =>
    if inp = none ∧ c = 0 then absEof a.lex
    else
      match (if act < 0 then some act else idx ZZ_ACTION act) with
      | none => .panic indexPanic
      | some action =>
        if inp = none then absAction action (a.rem.take m) a (a.rem.drop m ++ a.held) []
        else absAction action (a.rem.take m) a (a.rem.drop m) a.held

/-- One pass of the outer loop of `Yylex` in terms of `Abs`. -/
def absPass (a : Abs) : AbsOut :=
  if a.held ≠ [] ∧ a.rem = [] ∧ a.txt.getLast? = some CR then .unknown
  else
    match idx ZZ_LEXSTATE a.lex with
    | none => .panic indexPanic
    | some st0 =>
      match idx ZZ_ATTRIBUTE st0 with
      | none => .panic indexPanic
      | some attr => absRun a st0 (if attr.toNat &&& 1 = 1 then st0 else -1)

/-- A call of `Yylex` in terms of `Abs`: passes until one returns. -/
def absYylex : Nat → Abs → AbsOut
  | 0, _ => .unknown
  | n + 1, a =>
    match absPass a with
    | .again a1 => absYylex n a1
    | out => out

/-- The state `Abs` of a scanner that has read the whole of a text of at most
`ZZ_BUFFERSIZE` runes into its buffer and matched none of it: the last rune is held
back when the text fills the buffer. -/
def Abs.start (text : List Char) : Abs :=
  if text.length = ZZ_BUFFERSIZE then ⟨YYINITIAL, [], [], text.dropLast, text.drop (text.length - 1)⟩
  else ⟨YYINITIAL, [], [], text, []⟩

/-- The scanner `l` is in the state `a`. -/
def Sim (l : Lexer) (a : Abs) : Prop :=
  ∃ pre post c, Buf l pre (a.txt ++ a.rem ++ a.held) post a.held.length [] ∧
    l.zzMarkedPos = ((pre.length + a.txt.length : Nat) : Int) ∧
    l.zzCurrentPos = ((pre.length + c : Nat) : Int) ∧
    c ≤ (a.txt ++ a.rem ++ a.held).length ∧
    l.zzAtEOF = false ∧ l.zzLexicalState = a.lex ∧ l.ltstr = a.ltstr

/-- The outcome `p` of a pass of the scanner is the outcome `out` in terms of `Abs`. -/
def PassSim (p : Pass) (out : AbsOut) : Prop :=
  match out with
  | .token v a' => ∃ l', p = .ret (.token v) l' ∧ Sim l' a'
  | .again a' => ∃ l', p = .again l' l'.zzEndRead l'.zzBuffer ∧ Sim l' a'
  | .eof => ∃ l', p = .ret .eof l' ∧ l'.zzAtEOF = true ∧ l'.zzMarkedPos = l'.zzStartRead
  | .unterminated msg =>
    ∃ l', p = .ret (.panic (l'.yyerror msg)) l' ∧ l'.zzLexicalState = YYINITIAL
  | .panic msg => ∃ l', p = .ret (.panic msg) l'
  | .unknown => True

/-- The outcome `r` of a call of `Yylex` is the outcome `out` in terms of `Abs`. -/
def YySim (r : YyReturn × Lexer) (out : AbsOut) : Prop :=
  match out with
  | .token v a' => r.1 = .token v ∧ Sim r.2 a'
  | .again _ => True
  | .eof => r.1 = .eof ∧ r.2.zzAtEOF = true ∧ r.2.zzMarkedPos = r.2.zzStartRead
  | .unterminated msg => r.1 = .panic (r.2.yyerror msg) ∧ r.2.zzLexicalState = YYINITIAL
  | .panic msg => r.1 = .panic msg
  | .unknown => True

/-- The runs of a packed table as triples `(start, length, value)`, the first run
starting at `off`. -/
def rleRuns : List Nat → Nat → List (Nat × Nat × Nat)
  | count :: value :: rest, off =>
      (off, 1 + (count - 1), value) :: rleRuns rest (off + (1 + (count - 1)))
  | _, _ => []

/-- The character class of a rune: `ZZ_CMAP[r]`. -/
def cmap (r : Char) : Option Nat := ZZ_CMAP.get? r.toNat

/-- The single quote. -/
def quote : Char := Char.ofNat 39

/-- The double quote. -/
def dquote : Char := Char.ofNat 34

/-- The transition of the DFA from state `st` on a rune of class `k`:
`ZZ_TRANS[ZZ_ROWMAP[st] + k]`. -/
def trans (st : Int) (k : Nat) : Option Int :=
  match idx ZZ_ROWMAP st with
  | some row => idx ZZ_TRANS (row + (k : Int))
  | none => none

/-- From state `st`, a rune of class `k` leads to one of the states `tgt`, each of them
accepting and with lookahead (attribute `1`). -/
def stepsInto (tgt : List Int) (st : Int) (k : Nat) : Bool :=
  match trans st k with
  | some next => decide (next ≠ -1) && decide (idx ZZ_ATTRIBUTE next = some 1) && decide (next ∈ tgt)
  | none => false

/-- The runes of one of the classes `ks`. -/
def inClasses (ks : List Nat) (r : Char) : Prop := ∃ k ∈ ks, cmap r = some k

/-- A hexadecimal digit: `0`-`9`, `a`-`f` or `A`-`F`. -/
def hexDigit (r : Char) : Bool :=
  r.isDigit || (decide (97 ≤ r.toNat) && decide (r.toNat ≤ 102))
    || (decide (65 ≤ r.toNat) && decide (r.toNat ≤ 70))

/-- The rune `q` occurs in the text only in doubled pairs `qq`, read from the left. -/
def paired (q : Char) : List Char → Bool
  | [] => true
  | [c] => c != q
  | c :: c2 :: rest => if c = q then c2 == q && paired q rest else paired q (c2 :: rest)

/-- The body of a single-quoted literal with each doubled quote replaced by a backslash
and a quote, which is what the action `xq_double` appends to `ltstr`. -/
def escaped : List Char → List Char
  | [] => []
  | [c] => [c]
  | c :: c2 :: rest =>
    if c = quote then '\\' :: quote :: escaped rest else c :: escaped (c2 :: rest)

/-- The body of a single-quoted literal with each doubled quote collapsed to one quote. -/
def collapsed : List Char → List Char
  | [] => []
  | [c] => [c]
  | c :: c2 :: rest =>
    if c = quote then quote :: collapsed rest else c :: collapsed (c2 :: rest)

/-- The classes of runes other than the class `j`. -/
def others (j : Nat) : List Nat := (List.range 32).filter (fun k => k != j)

/-- Successive calls of `Yylex` until one returns the end-of-input signal, as a list
with one entry for each pass of the outer loop: the token the pass returned, if any, and
the text it matched (`yytext()` after the pass).  A pass that returns a token ends a
call, and the next call starts from the fields of the scanner.  The result is `none`
when a call fails or the fuel runs out: `passes` bounds the number of passes, `fuel` the
iterations of each DFA loop. -/
def scanPasses : Nat → Nat → Lexer → Int → List Char → Option (List (Option LVal × List Char))
  | 0, _, _, _, _ => none
  | passes + 1, fuel, lexer, zzEndReadL, zzBufferL =>
    match yyPass fuel lexer zzEndReadL zzBufferL with
    | .ret (.token v) l1 =>
      match l1.yytext, scanPasses passes fuel l1 l1.zzEndRead l1.zzBuffer with
      | some t, some ps => some ((some v, t) :: ps)
      | _, _ => none
    | .ret .eof _ => some []
    | .ret _ _ => none
    | .again l1 e b =>
      match l1.yytext, scanPasses passes fuel l1 e b with
      | some t, some ps => some ((none, t) :: ps)
      | _, _ => none

/-- The scan of a whole input by successive calls of `Yylex`. -/
def Lexer.scan (passes fuel : Nat) (lexer : Lexer) : Option (List (Option LVal × List Char)) :=
  scanPasses passes fuel lexer lexer.zzEndRead lexer.zzBuffer

/-- The scan `scanPasses` in terms of `Abs`. -/
def absScan : Nat → Abs → Option (List (Option LVal × List Char))
  | 0, _ => none
  | n + 1, a =>
    match absPass a with
    | .token v a1 =>
      match absScan n a1 with
      | some ps => some ((some v, a1.txt) :: ps)
      | none => none
    | .again a1 =>
      match absScan n a1 with
      | some ps => some ((none, a1.txt) :: ps)
      | none => none
    | .eof => some []
    | _ => none

/-- The runes that the line and column loop of `Yylex` counts as a line break. -/
def isLineBreak (c : Char) : Bool :=
  c.toNat = 0x0A || c.toNat = 0x0B || c.toNat = 0x0C || c.toNat = 0x0D || c.toNat = 0x85 ||
    c.toNat = 0x2028 || c.toNat = 0x2029

/-- Whether the rune `c`, given the rune that follows it, ends a line: a line break does,
except a carriage return that a line feed follows (the pair ends the line at the line
feed). -/
def breakAt (c : Char) (following : Option Char) : Nat :=
  if c.toNat = 0x0D then (if following.map Char.toNat = some 0x0A then 0 else 1)
  else if isLineBreak c then 1 else 0

/-- The number of line breaks in a text that the rune `next` follows, if any: a carriage
return and line feed pair counts as one break. -/
def lineBreaks : List Char → Option Char → Nat
  | [], _ => 0
  | c :: cs, next => breakAt c (match cs with | [] => next | d :: _ => some d) + lineBreaks cs next

/-- What the line and column loop adds to `yyline` over a text, entered with the flag
`zzR`. -/
def countedBreaks : Bool → List Char → Int
  | _, [] => 0
  | zzR, c :: cs =>
    if c.toNat = 0x0B ∨ c.toNat = 0x0C ∨ c.toNat = 0x85 ∨ c.toNat = 0x2028 ∨ c.toNat = 0x2029 then
      1 + countedBreaks false cs
    else if c.toNat = 0x0D then 1 + countedBreaks true cs
    else if c.toNat = 0x0A then
      (if zzR then countedBreaks false cs else 1 + countedBreaks false cs)
    else countedBreaks false cs

/-- The flag `zzR` after the line and column loop over a text. -/
def endsCR : Bool → List Char → Bool
  | zzR, [] => zzR
  | _, c :: cs => endsCR (decide (c.toNat = 0x0D)) cs

/-- The scanner after `calls` successive calls of `Yylex`. -/
def Lexer.afterCalls : Nat → Nat → Lexer → Lexer
  | 0, _, lexer => lexer
  | calls + 1, fuel, lexer => Lexer.afterCalls calls fuel (lexer.Yylex fuel).2

/-- The scanner after each pass of successive calls of `Yylex`, as long as the passes end
with a token or go back to the top of the outer loop: the matches of the scan, one after
the other.  The list ends at the first pass that returns the end-of-input signal, fails
or panics. -/
def passLexers : Nat → Nat → Lexer → Int → List Char → List Lexer
  | 0, _, _, _, _ => []
  | passes + 1, fuel, lexer, zzEndReadL, zzBufferL =>
    match yyPass fuel lexer zzEndReadL zzBufferL with
    | .ret (.token _) l1 => l1 :: passLexers passes fuel l1 l1.zzEndRead l1.zzBuffer
    | .ret _ _ => []
    | .again l1 e b => l1 :: passLexers passes fuel l1 e b

/-- What a refill makes of the positions of the scanner: the position counters stay, and
`zzStartRead`, `zzMarkedPos` and `zzCurrentPos` move back by the same amount. -/
def Shifted (l l' : Lexer) : Prop :=
  l'.yychar = l.yychar ∧ l'.yyline = l.yyline ∧ l'.yycolumn = l.yycolumn ∧
  ∃ d : Int, l'.zzStartRead = l.zzStartRead - d ∧ l'.zzMarkedPos = l.zzMarkedPos - d ∧
    l'.zzCurrentPos = l.zzCurrentPos - d

/-- The state of a scanner that has returned the end-of-input signal in `YYINITIAL`:
`zzAtEOF` is set, the match is empty and no text is left in the buffer. -/
def AtEnd (l : Lexer) : Prop :=
  l.zzAtEOF = true ∧ l.zzStartRead = l.zzMarkedPos ∧ ¬ (l.zzMarkedPos < l.zzEndRead) ∧
    l.zzLexicalState = YYINITIAL

/-- `fmt.Errorf(message, err)` for a message with one verb `%w`. -/
def Errorf (message : String) (err : String) : String := message.replace "%w" err

/-- `wrapErr(message, err)`. -/
def wrapErr (message : String) (err : Option String) : Option String :=
  match err with
  | none => none
  | some e => some (Errorf message e)

/-- The error `validationErr` of `validate`. -/
def validationErr : String :=
  "invalid character found: can only include printable, non-space characters between [0x0001-0xFFFF]"

/-- The loop of `validate` over the runes of the name; `unicode.IsPrint` and
`unicode.IsSpace` are the parameters `isPrint` and `isSpace`. -/
def validateRunes (isPrint isSpace : Char → Bool) : List Char → Option String
  | [] => none
  | r :: runes =>
    if r.toNat = 0x0000 then some "invalid character: cannot include 0x0000"
    else if r.toNat > 0xFFFF then
      some "invalid character: cannot include any characters above 0xFFFF"
    else if r = Char.ofNat 0x60 then
      some "invalid character: cannot include \x27\x60\x27 character"
    else if r = Char.ofNat 0x27 ∨ r = Char.ofNat 0x22 then
      some "invalid character: cannot include quotes"
    else if ! isPrint r then some validationErr
    else if isSpace r then some validationErr
    else validateRunes isPrint isSpace runes

/-- `validate(name)`. -/
def validate (isPrint isSpace : Char → Bool) (name : List Char) : Option String :=
  if name = [] then some "missing name" else validateRunes isPrint isSpace name

/-- `validateDBTable(db, table)`: the errors collected in the `multierror.Error`, `none`
when `ErrorOrNil` gives `nil`.  `multierror.Append` adds the errors that are not `nil`,
and `ErrorOrNil` gives `nil` when none was added. -/
def validateDBTable (isPrint isSpace : Char → Bool) (db table : List Char) :
    Option (List String) :=
  let merr : List String := []
  let merr := merr ++ (wrapErr "invalid database: %w" (validate isPrint isSpace db)).toList
  let merr := merr ++ (wrapErr "invalid table: %w" (validate isPrint isSpace table)).toList
  if merr = [] then none else some merr

/-- `strings.TrimPrefix(s, pfx)`. -/
def strings.TrimPrefix (s pfx : List Char) : List Char :=
  if pfx.isPrefixOf s then s.drop pfx.length else s

/-- `strings.Index(s, "/")`, for the rune `c` in the place of `/`. -/
def strings.Index (s : List Char) (c : Char) : Int :=
  if c ∈ s then (s.indexOf c : Int) else -1

/-- `strutil.AppendIfMissing(slice, str)`. -/
def AppendIfMissing (slice : List (List Char)) (str : List Char) : List (List Char) :=
  if str ∈ slice then slice else slice ++ [str]

/-- `sort.Strings(keys)`. -/
def sort.Strings (keys : List (List Char)) : List (List Char) :=
  keys.insertionSort (fun a b => a ≤ b)

/-- The body of the loop over the rows in `List`: `keys` after the row with the key
`key`. -/
def listRow (pfx : List Char) (keys : List (List Char)) (key : List Char) :
    List (List Char) :=
  let key := strings.TrimPrefix key pfx
  let i := strings.Index key '/'
  if i = -1 then keys ++ [key]
  else if i ≠ -1 then AppendIfMissing keys (key.take (i + 1).toNat)
  else keys

/-- The keys that `List(ctx, pfx)` returns when the statement yields `rows`. -/
def listKeys (pfx : List Char) (rows : List (List Char)) : List (List Char) :=
  sort.Strings (rows.foldl (listRow pfx) [])

/-- The entry that a stored key stands for in the listing under `pfx`: what is left of
the key behind `pfx` when this has no `/`, and else its beginning up to the first `/`. -/
def listEntry (pfx key : List Char) : List Char :=
  if '/' ∈ strings.TrimPrefix key pfx then
    (strings.TrimPrefix key pfx).take ((strings.TrimPrefix key pfx).indexOf '/' + 1)
  else strings.TrimPrefix key pfx

/-! ## What a call takes from the character source -/

/-- The error a read loop ended with, if any. -/
def ReadLoop.error : ReadLoop → Option String
  | .fail err _ _ => some err
  | _ => none

/-- The reader a read loop leaves. -/
def ReadLoop.reader : ReadLoop → RuneReader
  | .done rd _ _ => rd
  | .fail _ rd _ => rd
  | .panic rd _ => rd

/-- The error `zzRefill` returned, if any. -/
def Refill.error : Refill → Option String
  | .fail err => some err
  | _ => none

/-- The error the start of a pass ended with, if any. -/
def Counted.error : Counted → Option String
  | .fail err _ => some err
  | _ => none

/-- The scanner after the position counters were brought up to date. -/
def Counted.lexer : Counted → Lexer
  | .ok l _ _ _ => l
  | .fail _ l => l
  | .panic _ l => l

/-- The error the start of a pass ended with, if any. -/
def Begun.error : Begun → Option String
  | .fail err _ => some err
  | _ => none

/-- The scanner after the start of a pass. -/
def Begun.lexer : Begun → Lexer
  | .ready l _ => l
  | .fail _ l => l
  | .panic _ l => l

/-- The error fetching a character ended with, if any. -/
def Fetched.error : Fetched → Option String
  | .fail err _ => some err
  | _ => none

/-- The scanner after fetching a character. -/
def Fetched.lexer : Fetched → Lexer
  | .char _ l _ => l
  | .eof l _ => l
  | .fail _ l => l
  | .panic _ l => l

/-- The scanner after a transition. -/
def Moved.lexer : Moved → Lexer
  | .next l _ => l
  | .stop l _ => l
  | .panic _ l => l

/-- The error the DFA loop ended with, if any. -/
def LoopExit.error : LoopExit → Option String
  | .fail err _ => some err
  | _ => none

/-- The scanner after the DFA loop. -/
def LoopExit.lexer : LoopExit → Lexer
  | .forAction _ l _ => l
  | .fail _ l => l
  | .panic _ l => l
  | .timeout l => l

/-- The error a call returned, if any. -/
def YyReturn.error : YyReturn → Option String
  | .fail err => some err
  | _ => none

/-- The error a pass returned, if any. -/
def Pass.error : Pass → Option String
  | .ret r _ => r.error
  | .again _ _ _ => none

/-- The scanner after a pass. -/
def Pass.lexer : Pass → Lexer
  | .ret _ l => l
  | .again l _ _ => l

/-- Between the reader `rd` and the reader `rd'` the source has delivered runes only
(`err = none`), or runes and then the error `e` (`err = some e`). -/
def Delivered (rd rd' : RuneReader) (err : Option String) : Prop :=
  ∃ runes : List Char,
    rd = ofRunes runes ++ (match err with
      | none => rd'
      | some e => RuneRead.fail e :: rd')

/-! ## The lexical state between calls -/

/-- The lexical states the actions of the scanner switch between: `YYINITIAL` and the
sub-states of comments, strings, quoted identifiers and binary and hexadecimal
literals. -/
def lexStates : List Int := [YYINITIAL, xc, xq, xdq, xbin, xhex, xq2, xq2_2]

/-- The DFA states of the sub-states: the start states of the lexical states other than
`YYINITIAL` in `lexStates`, and the states the DFA reaches from them. -/
def subStates : List Int :=
  [1, 2, 3, 5, 6, 7, 8, 26, 27, 28, 29, 30, 31, 32, 33, 34, 35, 36, 37, 38, 39, 40, 41, 58,
   59, 60, 61, 62, 63, 64, 65, 66, 67, 68, 79, 80, 81]

/-- The actions that return a token and leave the lexical state as it is. -/
def plainActions : List Nat := [1, 4, 5, 6, 7, 26, 27, 28, 29, 30, 36, 37, 41, 42, 43]

/-- The messages of the panics other than those of `yyerror`. -/
def runtimePanics : List String :=
  [indexPanic, slicePanic, "Reader returned 0 characters. See JFlex examples for workaround.",
   zzScanError ZZ_NO_MATCH]

/-- The ways a call ends other than with a token, with the end-of-input signal or with a
panic of `yyerror`: with an error of the source, with a run-time panic or a scan error,
or not within the bound on the loops. -/
def Broken (r : YyReturn) : Prop :=
  (∃ e, r = .fail e) ∨ r = .timeout ∨ ∃ m, r = .panic m ∧ m ∈ runtimePanics

/-- A pass ends well: it goes on in one of the lexical states of `lexStates`, or it
returns in `YYINITIAL` unless the call is broken off. -/
def PassOk : Pass → Prop
  | .again l _ _ => l.zzLexicalState ∈ lexStates
  | .ret r l => l.zzLexicalState = YYINITIAL ∨ Broken r

/-! ## The end of a comment -/

/-- The number of runes of the text behind the opener `/*` up to and including the first
`*/`, if there is one. -/
def firstClose : List Char → Option Nat
  | [] => none
  | [_] => none
  | c :: d :: t =>
    if c = '*' ∧ d = '/' then some 2
    else (firstClose (d :: t)).map (fun n => n + 1)

/-- The number of runes of the text behind the opener `/*` up to and including the `*/`
that closes the comment, if there is one: the text is read from left to right, and a
`/*` met on the way is passed over as a whole. -/
def closeAt : List Char → Option Nat
  | [] => none
  | [_] => none
  | c :: d :: t =>
    if c = '*' ∧ d = '/' then some 2
    else if c = '/' ∧ d = '*' then (closeAt t).map (fun n => n + 2)
    else (closeAt (d :: t)).map (fun n => n + 1)

/-! ## Binary and hexadecimal string literals -/

/-- The scanner is inside a literal of the lexical state `lex`, with the text `T` still
to be matched: `txt` is the text of the previous match, `vis` the part of `T` that is in
the buffer, of which the last `h` runes are held back, and `rest` the part the reader
has yet to deliver.  At least one rune of `T` lies before `zzEndRead`, and a rune is
held back while the reader has text left. -/
def InLit (lex : Int) (l : Lexer) (T : List Char) : Prop :=
  ∃ (pre txt vis post : List Char) (h : Nat) (rest : List Char) (c0 : Nat),
    Buf l pre (txt ++ vis) post h rest ∧
    l.zzMarkedPos = ((pre.length + txt.length : Nat) : Int) ∧
    l.zzCurrentPos = ((pre.length + c0 : Nat) : Int) ∧ c0 ≤ (txt ++ vis).length ∧
    h < vis.length ∧ l.zzAtEOF = false ∧ l.zzLexicalState = lex ∧ vis ++ rest = T ∧
    (rest ≠ [] → h = 1)

/-! ## Words -/

/-- The runes of white space between two words: blank, tab, line feed, carriage return
and form feed. -/
def whiteSpace : List Char := [' ', '\t', '\n', '\r', Char.ofNat 12]

/-- The text is the given lower-case word in some letter case: rune by rune the letter
of the word or its upper-case letter. -/
def anyCase : List Char → List Char → Bool
  | [], [] => true
  | c :: w, x :: t => (x == c || x == c.toUpper) && anyCase w t
  | _, _ => false

/-! ## The unpacked tables of the DFA -/

/-- The entries of `ZZ_TRANS` in rows of 32, one entry for each character class, each
of them one more than the entry, as in the packed table (`tables_unpacked` proves the
equality). -/
def transRows : List (List Nat) := [
  [10, 11, 12, 13, 14, 14, 14, 15, 16, 17, 18, 19, 20, 14, 21, 14, 22, 18, 18, 14, 18, 23, 23,
   24, 0, 25, 18, 18, 26, 18, 18, 18],
  [27, 27, 27, 28, 29, 27, 27, 27, 27, 27, 27, 27, 27, 27, 27, 27, 27, 27, 27, 27, 27, 27, 27,
   27, 27, 27, 27, 27, 27, 27, 27, 27],
  [30, 31, 30, 30, 30, 30, 30, 30, 30, 30, 30, 30, 30, 30, 30, 30, 30, 30, 30, 30, 30, 30, 30,
   30, 30, 30, 30, 30, 30, 30, 30, 30],
  [32, 32, 33, 32, 32, 32, 32, 32, 32, 32, 32, 32, 32, 32, 32, 32, 32, 32, 32, 32, 32, 32, 32,
   32, 32, 32, 32, 32, 32, 32, 32, 32],
  [0, 0, 0, 0, 0, 0, 0, 0, 0, 0, 0, 0, 0, 0, 0, 0, 0, 0, 0, 0, 0, 0, 0, 0, 0, 0, 0, 0, 0, 0, 0,
   0],
  [34, 35, 34, 34, 34, 34, 34, 34, 34, 34, 34, 34, 34, 34, 34, 34, 34, 34, 34, 34, 34, 34, 34,
   34, 34, 34, 34, 34, 34, 34, 34, 34],
  [36, 37, 36, 36, 36, 36, 36, 36, 36, 36, 36, 36, 36, 36, 36, 36, 36, 36, 36, 36, 36, 36, 36,
   36, 36, 36, 36, 36, 36, 36, 36, 36],
  [38, 38, 38, 38, 38, 38, 39, 38, 38, 38, 38, 38, 38, 38, 38, 38, 38, 38, 38, 38, 38, 38, 38,
   38, 38, 38, 38, 38, 38, 38, 38, 38],
  [40, 41, 40, 40, 40, 40, 42, 40, 40, 40, 40, 40, 40, 40, 40, 40, 40, 40, 40, 40, 40, 40, 40,
   40, 40, 40, 40, 40, 40, 40, 40, 40],
  [0, 0, 0, 43, 44, 0, 0, 0, 0, 0, 0, 0, 0, 0, 0, 0, 0, 0, 0, 0, 0, 0, 0, 0, 0, 0, 0, 0, 0, 0,
   0, 0],
  [0, 45, 0, 0, 0, 0, 0, 18, 18, 18, 18, 18, 0, 0, 0, 0, 18, 18, 18, 0, 18, 0, 0, 0, 0, 18, 18,
   18, 18, 18, 18, 18],
  [0, 46, 0, 0, 0, 0, 0, 18, 18, 18, 18, 18, 0, 0, 0, 0, 18, 18, 18, 0, 18, 0, 0, 0, 0, 18, 18,
   18, 18, 18, 18, 18],
  [0, 47, 0, 0, 0, 0, 0, 18, 18, 18, 18, 18, 0, 0, 0, 0, 18, 18, 18, 0, 18, 0, 0, 0, 0, 18, 18,
   18, 18, 18, 18, 18],
  [0, 0, 0, 0, 0, 0, 0, 18, 18, 18, 18, 18, 0, 0, 0, 0, 18, 18, 18, 0, 18, 0, 0, 0, 0, 18, 18,
   18, 18, 18, 18, 18],
  [0, 0, 0, 0, 0, 0, 0, 0, 0, 0, 0, 19, 0, 0, 48, 0, 19, 0, 49, 0, 50, 0, 0, 0, 0, 0, 0, 0, 0,
   0, 0, 0],
  [0, 0, 0, 0, 0, 0, 0, 0, 0, 0, 0, 0, 0, 51, 0, 0, 0, 0, 0, 0, 0, 0, 0, 0, 0, 0, 0, 0, 0, 0, 0,
   0],
  [0, 0, 0, 0, 52, 0, 0, 0, 0, 0, 0, 53, 0, 0, 54, 0, 53, 0, 0, 0, 0, 0, 0, 0, 0, 0, 0, 0, 0, 0,
   0, 0],
  [0, 0, 0, 0, 0, 0, 0, 0, 0, 55, 0, 19, 0, 0, 48, 0, 19, 0, 49, 0, 50, 0, 0, 0, 0, 0, 0, 0, 0,
   0, 0, 0],
  [0, 0, 0, 0, 0, 0, 0, 0, 0, 0, 0, 0, 0, 0, 0, 0, 0, 0, 0, 0, 0, 0, 0, 43, 0, 0, 0, 0, 0, 0, 0,
   0],
  [0, 0, 0, 0, 0, 0, 0, 18, 18, 18, 18, 18, 0, 0, 0, 0, 18, 18, 18, 0, 18, 0, 0, 0, 0, 18, 56,
   18, 18, 18, 57, 18],
  [0, 0, 0, 0, 0, 0, 0, 18, 18, 18, 18, 18, 0, 0, 0, 0, 18, 18, 18, 0, 18, 0, 0, 0, 0, 18, 18,
   18, 18, 58, 18, 18],
  [27, 27, 27, 0, 0, 27, 27, 27, 27, 27, 27, 27, 27, 27, 27, 27, 27, 27, 27, 27, 27, 27, 27, 27,
   27, 27, 27, 27, 27, 27, 27, 27],
  [0, 0, 0, 0, 59, 0, 0, 0, 0, 0, 0, 0, 0, 0, 0, 0, 0, 0, 0, 0, 0, 0, 0, 0, 0, 0, 0, 0, 0, 0, 0,
   0],
  [0, 0, 0, 60, 61, 0, 0, 0, 0, 0, 0, 0, 0, 0, 0, 0, 0, 0, 0, 0, 0, 0, 0, 0, 0, 0, 0, 0, 0, 0,
   0, 0],
  [30, 0, 30, 30, 30, 30, 30, 30, 30, 30, 30, 30, 30, 30, 30, 30, 30, 30, 30, 30, 30, 30, 30,
   30, 30, 30, 30, 30, 30, 30, 30, 30],
  [0, 62, 0, 0, 0, 0, 0, 0, 0, 0, 0, 0, 0, 0, 0, 0, 0, 0, 0, 0, 0, 63, 64, 0, 0, 0, 0, 0, 0, 0,
   0, 0],
  [32, 32, 0, 32, 32, 32, 32, 32, 32, 32, 32, 32, 32, 32, 32, 32, 32, 32, 32, 32, 32, 32, 32,
   32, 32, 32, 32, 32, 32, 32, 32, 32],
  [0, 0, 65, 0, 0, 0, 0, 0, 0, 0, 0, 0, 0, 0, 0, 0, 0, 0, 0, 0, 0, 0, 0, 0, 0, 0, 0, 0, 0, 0, 0,
   0],
  [34, 0, 34, 34, 34, 34, 34, 34, 34, 34, 34, 34, 34, 34, 34, 34, 34, 34, 34, 34, 34, 34, 34,
   34, 34, 34, 34, 34, 34, 34, 34, 34],
  [0, 0, 0, 0, 0, 0, 0, 0, 0, 0, 0, 0, 0, 0, 0, 0, 0, 0, 0, 0, 0, 66, 67, 0, 0, 0, 0, 0, 0, 0,
   0, 0],
  [36, 0, 36, 36, 36, 36, 36, 36, 36, 36, 36, 36, 36, 36, 36, 36, 36, 36, 36, 36, 36, 36, 36,
   36, 36, 36, 36, 36, 36, 36, 36, 36],
  [0, 0, 0, 0, 0, 0, 0, 0, 0, 0, 0, 0, 0, 0, 0, 0, 0, 0, 0, 0, 0, 68, 69, 0, 0, 0, 0, 0, 0, 0,
   0, 0],
  [38, 38, 38, 38, 38, 38, 0, 38, 38, 38, 38, 38, 38, 38, 38, 38, 38, 38, 38, 38, 38, 38, 38,
   38, 38, 38, 38, 38, 38, 38, 38, 38],
  [43, 43, 43, 43, 43, 43, 43, 43, 43, 43, 43, 43, 43, 43, 43, 43, 43, 43, 43, 43, 43, 0, 43,
   43, 43, 43, 43, 43, 43, 43, 43, 43],
  [0, 0, 0, 0, 0, 70, 0, 0, 0, 0, 0, 0, 0, 0, 0, 0, 0, 0, 0, 0, 0, 0, 0, 0, 0, 0, 0, 0, 0, 0, 0,
   0],
  [0, 0, 0, 0, 0, 0, 0, 0, 0, 0, 0, 53, 0, 0, 71, 0, 53, 0, 49, 0, 50, 0, 0, 0, 0, 0, 0, 0, 0,
   0, 0, 0],
  [0, 0, 0, 0, 0, 0, 0, 0, 0, 0, 0, 72, 0, 0, 0, 0, 72, 0, 0, 73, 0, 0, 0, 73, 0, 0, 0, 0, 0, 0,
   0, 0],
  [0, 0, 0, 0, 0, 0, 0, 0, 0, 0, 0, 53, 0, 0, 0, 0, 53, 0, 49, 0, 50, 0, 0, 0, 0, 0, 0, 0, 0, 0,
   0, 0],
  [0, 0, 0, 0, 0, 0, 0, 0, 74, 0, 0, 74, 0, 0, 0, 0, 74, 74, 74, 0, 74, 0, 0, 0, 0, 0, 0, 0, 0,
   0, 0, 0],
  [0, 0, 0, 0, 0, 0, 0, 18, 18, 18, 18, 18, 0, 0, 0, 0, 18, 18, 18, 0, 18, 0, 0, 0, 0, 18, 18,
   75, 18, 18, 18, 18],
  [0, 0, 0, 0, 0, 0, 0, 18, 18, 18, 18, 18, 0, 0, 0, 0, 18, 18, 18, 0, 18, 0, 0, 0, 0, 18, 18,
   18, 18, 18, 18, 76],
  [0, 0, 0, 77, 0, 0, 0, 18, 18, 18, 18, 18, 0, 0, 0, 0, 18, 18, 18, 0, 18, 78, 78, 79, 0, 18,
   18, 18, 18, 18, 18, 18],
  [0, 80, 0, 0, 0, 0, 0, 0, 0, 0, 0, 0, 0, 0, 0, 0, 0, 0, 0, 0, 0, 63, 63, 0, 0, 0, 0, 0, 0, 0,
   0, 0],
  [0, 0, 0, 0, 0, 0, 0, 0, 0, 0, 0, 0, 0, 0, 0, 0, 0, 0, 0, 0, 0, 63, 64, 0, 0, 0, 0, 0, 0, 0,
   0, 0],
  [0, 81, 0, 0, 0, 0, 0, 0, 0, 0, 0, 0, 0, 0, 0, 0, 0, 0, 0, 0, 0, 66, 66, 0, 0, 0, 0, 0, 0, 0,
   0, 0],
  [0, 82, 0, 0, 0, 0, 0, 0, 0, 0, 0, 0, 0, 0, 0, 0, 0, 0, 0, 0, 0, 68, 68, 0, 0, 0, 0, 0, 0, 0,
   0, 0],
  [0, 0, 0, 0, 0, 0, 0, 0, 0, 0, 0, 72, 0, 0, 0, 0, 72, 0, 0, 0, 0, 0, 0, 0, 0, 0, 0, 0, 0, 0,
   0, 0],
  [0, 0, 0, 0, 0, 0, 0, 18, 18, 18, 18, 18, 0, 0, 0, 0, 18, 18, 18, 0, 18, 0, 0, 0, 0, 18, 18,
   83, 18, 18, 18, 18],
  [0, 0, 0, 84, 0, 0, 0, 18, 18, 18, 18, 18, 0, 0, 0, 0, 18, 18, 18, 0, 18, 85, 85, 86, 0, 18,
   18, 18, 18, 18, 18, 18],
  [0, 0, 0, 87, 0, 0, 0, 0, 0, 0, 0, 0, 0, 0, 0, 0, 0, 0, 0, 0, 0, 0, 0, 0, 0, 0, 0, 0, 0, 0, 0,
   0],
  [0, 0, 0, 77, 0, 0, 0, 0, 0, 0, 0, 0, 0, 0, 0, 0, 0, 0, 0, 0, 0, 78, 78, 79, 0, 88, 0, 0, 0,
   0, 0, 0],
  [0, 0, 0, 0, 0, 0, 0, 0, 0, 0, 0, 0, 0, 0, 0, 0, 0, 0, 0, 0, 0, 0, 0, 87, 0, 0, 0, 0, 0, 0, 0,
   0],
  [0, 0, 0, 89, 0, 0, 0, 0, 0, 0, 0, 0, 0, 0, 0, 0, 0, 0, 0, 0, 0, 0, 0, 0, 0, 0, 0, 0, 0, 0, 0,
   0],
  [0, 0, 0, 84, 0, 0, 0, 0, 0, 0, 0, 0, 0, 0, 0, 0, 0, 0, 0, 0, 0, 85, 85, 86, 0, 90, 0, 0, 0,
   0, 0, 0],
  [0, 0, 0, 0, 0, 0, 0, 0, 0, 0, 0, 0, 0, 0, 0, 0, 0, 0, 0, 0, 0, 0, 0, 89, 0, 0, 0, 0, 0, 0, 0,
   0],
  [87, 87, 87, 87, 87, 87, 87, 87, 87, 87, 87, 87, 87, 87, 87, 87, 87, 87, 87, 87, 87, 78, 87,
   87, 87, 91, 87, 87, 87, 87, 87, 87],
  [0, 0, 0, 0, 0, 0, 0, 0, 0, 0, 0, 0, 0, 0, 0, 0, 0, 0, 0, 0, 0, 0, 0, 0, 0, 0, 92, 0, 0, 0, 0,
   0],
  [89, 89, 89, 89, 89, 89, 89, 89, 89, 89, 89, 89, 89, 89, 89, 89, 89, 89, 89, 89, 89, 85, 89,
   89, 89, 93, 89, 89, 89, 89, 89, 89],
  [0, 0, 0, 0, 0, 0, 0, 0, 0, 0, 0, 0, 0, 0, 0, 0, 0, 0, 0, 0, 0, 0, 0, 0, 0, 0, 94, 0, 0, 0, 0,
   0],
  [87, 87, 87, 87, 87, 87, 87, 87, 87, 87, 87, 87, 87, 87, 87, 87, 87, 87, 87, 87, 87, 78, 87,
   87, 87, 91, 95, 87, 87, 87, 87, 87],
  [0, 0, 0, 0, 0, 0, 0, 0, 0, 0, 0, 0, 0, 0, 0, 0, 0, 0, 0, 0, 0, 0, 0, 0, 0, 0, 0, 96, 0, 0, 0,
   0],
  [89, 89, 89, 89, 89, 89, 89, 89, 89, 89, 89, 89, 89, 89, 89, 89, 89, 89, 89, 89, 89, 85, 89,
   89, 89, 93, 97, 89, 89, 89, 89, 89],
  [0, 0, 0, 0, 0, 0, 0, 0, 0, 0, 0, 0, 0, 0, 0, 0, 0, 0, 0, 0, 0, 0, 0, 0, 0, 0, 0, 98, 0, 0, 0,
   0],
  [87, 87, 87, 87, 87, 87, 87, 87, 87, 87, 87, 87, 87, 87, 87, 87, 87, 87, 87, 87, 87, 78, 87,
   87, 87, 91, 87, 99, 87, 87, 87, 87],
  [0, 0, 0, 0, 0, 0, 0, 0, 0, 0, 0, 0, 0, 0, 0, 0, 0, 0, 0, 0, 0, 0, 0, 0, 0, 0, 0, 100, 0, 0,
   0, 0],
  [89, 89, 89, 89, 89, 89, 89, 89, 89, 89, 89, 89, 89, 89, 89, 89, 89, 89, 89, 89, 89, 85, 89,
   89, 89, 93, 89, 101, 89, 89, 89, 89],
  [0, 0, 0, 0, 0, 0, 0, 0, 0, 0, 0, 0, 0, 0, 0, 0, 0, 0, 0, 0, 0, 0, 0, 0, 0, 0, 0, 102, 0, 0,
   0, 0],
  [87, 87, 87, 87, 87, 87, 87, 87, 87, 87, 87, 87, 87, 87, 87, 87, 87, 87, 87, 87, 87, 78, 87,
   87, 87, 91, 87, 103, 87, 87, 87, 87],
  [89, 89, 89, 89, 89, 89, 89, 89, 89, 89, 89, 89, 89, 89, 89, 89, 89, 89, 89, 89, 89, 85, 89,
   89, 89, 93, 89, 104, 89, 89, 89, 89]]

/-- The value of `ZZ_ROWMAP` (see `tables_unpacked`). -/
def rowMapValues : List Nat :=
  [0, 32, 64, 96, 128, 160, 192, 224, 256, 128, 128, 128, 288, 128, 320, 352, 384, 416, 448,
   480, 512, 544, 128, 576, 608, 640, 672, 704, 736, 768, 800, 832, 864, 896, 928, 960, 992,
   1024, 128, 128, 128, 128, 1056, 128, 1088, 128, 128, 1120, 1152, 128, 128, 128, 1184, 128,
   1216, 1248, 1280, 1312, 128, 128, 736, 128, 1344, 1376, 128, 1408, 928, 1440, 992, 128, 128,
   1472, 1472, 1216, 1504, 1536, 1568, 1600, 1632, 128, 128, 128, 416, 1664, 1696, 1728, 1760,
   1792, 1824, 1856, 1888, 1920, 1952, 1984, 2016, 2048, 2080, 2112, 2144, 128, 2176, 128, 1760,
   1824]

/-- The value of `ZZ_ATTRIBUTE` (see `tables_unpacked`). -/
def attributeValues : List Nat :=
  [0, 0, 0, 0, 8, 0, 0, 0, 0, 9, 9, 9, 1, 9, 1, 1, 1, 1, 1, 1, 1, 1, 9, 1, 1, 1, 1, 1, 1, 1, 1,
   1, 1, 1, 1, 1, 1, 1, 9, 9, 9, 9, 1, 9, 0, 9, 9, 1, 0, 9, 9, 9, 1, 9, 0, 1, 1, 1, 9, 9, 0, 9,
   0, 0, 9, 0, 0, 0, 0, 9, 9, 1, 0, 1, 1, 1, 0, 0, 0, 9, 9, 9, 1, 0, 0, 0, 0, 0, 0, 0, 0, 0, 0,
   0, 0, 0, 0, 0, 0, 9, 0, 9, 1, 1]

/-- The value of `ZZ_ACTION` (see `tables_unpacked`). -/
def actionValues : List Nat :=
  [0, 0, 0, 0, 0, 0, 0, 0, 0, 1, 2, 3, 4, 4, 5, 5, 5, 5, 6, 4, 4, 6, 7, 4, 5, 5, 8, 9, 9, 10,
   11, 12, 13, 14, 15, 16, 17, 18, 19, 20, 21, 22, 7, 23, 0, 24, 25, 26, 0, 27, 28, 29, 26, 30,
   0, 5, 5, 5, 31, 32, 0, 33, 0, 0, 34, 0, 0, 0, 0, 35, 36, 27, 0, 37, 5, 5, 0, 0, 0, 38, 39,
   40, 41, 0, 0, 0, 0, 0, 0, 0, 0, 0, 0, 0, 0, 0, 0, 0, 0, 42, 0, 43, 42, 43]

/-- The transition from state `st` on class `k`, read from the unpacked tables. -/
def transAt (st : Int) (k : Nat) : Option Int :=
  match idx rowMapValues st with
  | some row =>
    if row % 32 = 0 ∧ k < 32 then
      match transRows.get? (row / 32) with
      | some r => (r.get? k).map (fun v : Nat => (v : Int) - 1)
      | none => none
    else none
  | none => none

/-- The attribute of state `st`, read from the unpacked tables. -/
def attributeAt (st : Int) : Option Int := (idx attributeValues st).map (fun v : Nat => (v : Int))

/-- The action of state `st`, read from the unpacked tables. -/
def actionAt (st : Int) : Option Int := (idx actionValues st).map (fun v : Nat => (v : Int))

/-- The test `stepsInto`, read from the unpacked tables. -/
def stepsAt (tgt : List Int) (st : Int) (k : Nat) : Bool :=
  match transAt st k with
  | some next => decide (next ≠ -1) && decide (attributeAt next = some 1) && decide (next ∈ tgt)
  | none => false

/-! ## Progress of a call -/

/-- The input that a scanner has yet to match from the position `pos` on: the answers
its reader has yet to give, and the runes of the buffer from `pos` up to `zzEndRead`,
those held back beyond `zzEndRead` included. -/
def remaining (l : Lexer) (pos : Int) : Nat :=
  l.zzReader.length + (l.zzEndRead + l.zzFinalHighSurrogate - pos).toNat

/-- The state `st` of the DFA is accepting: bit 0 of its attribute is set. -/
def accepting (st : Int) : Bool :=
  match idx ZZ_ATTRIBUTE st with
  | some a => decide (a.toNat &&& 1 = 1)
  | none => false

/-- The DFA of a pass is in one of its states, and the state recorded in `zzAction`, if
any, is an accepting state. -/
structure Accepted (l : Lexer) (s : Scan) : Prop where
  st0 : 0 ≤ l.zzState
  st1 : l.zzState < 104
  acc : s.zzAction = -1 ∨ (0 ≤ s.zzAction ∧ s.zzAction < 104 ∧ accepting s.zzAction = true)

/-- The invariant of the DFA loop of a pass that started with the input `B` yet to
match: the cached end of the buffer is up to date, an accepting state was recorded only
behind the start of the match, and once a rune has been read less than `B` is left
behind the first rune of the match. -/
structure Running (l : Lexer) (s : Scan) (B : Nat) : Prop where
  sync : s.zzEndReadL = l.zzEndRead
  held : 0 ≤ l.zzFinalHighSurrogate
  mark : (s.zzAction = -1 ∧ s.zzMarkedPosL = l.zzStartRead) ∨
    (s.zzAction ≠ -1 ∧ l.zzStartRead < s.zzMarkedPosL)
  prog : (s.zzCurrentPosL = l.zzStartRead ∧ remaining l l.zzStartRead ≤ B) ∨
    (l.zzStartRead < s.zzCurrentPosL ∧ remaining l (l.zzStartRead + 1) < B)
  mc : s.zzMarkedPosL ≤ s.zzCurrentPosL

/-- The lexical states in which the end-of-input switch of `Yylex` returns: all but the
values `105` to `111` of its empty cases. -/
def Lexer.returnsAtEof (l : Lexer) : Prop :=
  l.zzLexicalState < 105 ∨ 111 < l.zzLexicalState

/-- The scanner `l2` has the input of `l` before it: the same reader, buffer bounds and
match. -/
def Lexer.sameInput (l l2 : Lexer) : Prop :=
  l2.zzReader = l.zzReader ∧ l2.zzStartRead = l.zzStartRead ∧ l2.zzMarkedPos = l.zzMarkedPos ∧
    l2.zzEndRead = l.zzEndRead ∧ l2.zzFinalHighSurrogate = l.zzFinalHighSurrogate

/-- What the code behind the DFA loop leaves of the scanner `l` and of the cached end of
the buffer `e`: a pass that goes on or returns a token has the input of `l` before it,
and no pass ends for lack of fuel. -/
def Pass.Frame (l : Lexer) (e : Int) : Pass → Prop
  | .again l2 e2 _ => e2 = e ∧ l.sameInput l2 ∧ l2.returnsAtEof
  | .ret (.token _) l2 => l.sameInput l2
  | .ret .timeout _ => False
  | .ret _ _ => True

/-! ## Definitions for the fallback of the start states -/

/-- The messages of the panics of the Go run time and of the reader check of `zzRefill`,
the ones that are not scan errors of `zzScanError`. -/
def ioPanics : List String :=
  [indexPanic, slicePanic, "Reader returned 0 characters. See JFlex examples for workaround."]

/-- The transition from state `st` on class `k` leads into an accepting state. -/
def firstStep (st : Int) (k : Nat) : Bool :=
  match transAt st k with
  | some n =>
    decide (0 ≤ n) && (attributeAt n).any (fun a : Int => decide (a.toNat &&& 1 = 1))
  | none => false

/-- The runes `ZZ_CMAP` puts in class 24: U+000B, U+2028 and U+2029. -/
def noRule (x : Char) : Prop := x.toNat = 0x0B ∨ x.toNat = 0x2028 ∨ x.toNat = 0x2029

/-- The start states of the lexical states of `lexStates`. -/
def startStates : List Int := [0, 1, 2, 3, 5, 6, 7, 8]

/-! ## Definitions for the refill of the buffer -/

/-- The buffer a read loop leaves. -/
def ReadLoop.buffer : ReadLoop → List Char
  | .done _ buf _ => buf
  | .fail _ _ buf => buf
  | .panic _ buf => buf

/-- The bounds on the positions of the buffer that `Reset` sets up and every `zzRefill`
keeps: the text from `zzStartRead` to `zzEndRead` and the rune held back behind it lie
in the buffer, and a rune is held back only in the last place of the buffer. -/
structure Lexer.Bounded (l : Lexer) : Prop where
  start : 0 ≤ l.zzStartRead
  live : l.zzStartRead ≤ l.zzEndRead
  fits : l.zzEndRead + l.zzFinalHighSurrogate ≤ (l.zzBuffer.length : Int)
  held : l.zzFinalHighSurrogate = 0 ∨
    (l.zzFinalHighSurrogate = 1 ∧ l.zzEndRead + 1 = (l.zzBuffer.length : Int))

/-- The text of the buffer that is not yet consumed: `zzBuffer[zzStartRead:zzEndRead]`. -/
def Lexer.unread (l : Lexer) : List Char :=
  (l.zzBuffer.drop l.zzStartRead.toNat).take (l.zzEndRead - l.zzStartRead).toNat

/-- The text of the buffer from `zzStartRead` on that has been read from the source:
`zzBuffer[zzStartRead:zzEndRead+zzFinalHighSurrogate]`. -/
def Lexer.stored (l : Lexer) : List Char :=
  (l.zzBuffer.drop l.zzStartRead.toNat).take
    (l.zzEndRead + l.zzFinalHighSurrogate - l.zzStartRead).toNat

/-! ## The off-row binder of a reader (`zr.go`) -/

/-- The error that a call of `Read` of an `io.Reader` returns: `nil`, `io.EOF` or another
error. -/
inductive ReadErr
  | nil
  | eof
  | other (msg : String)
  deriving DecidableEq, Repr

/-- What a call `reader.Read(p)` returns: the `n` bytes it has written to `p[0:n]`, and
the error. -/
structure ReadResult where
  bytes : List Nat
  err : ReadErr
  deriving DecidableEq, Repr

/-- An `io.Reader`, as the results of its successive calls of `Read`; once they are used
up, every call returns `(0, io.EOF)`. -/
abbrev ByteReader := List ReadResult

/-- One call of `Read`: its result and the reader after it. -/
def ByteReader.Read (rd : ByteReader) : ReadResult × ByteReader :=
  match rd with
  | [] => (⟨[], .eof⟩, [])
  | r :: rest => (r, rest)

/-- Modelled from the spec: the byte buffer type `Dm_build_0` and its methods are not
under src/, and the spec has no words on them; the model is the queue of bytes that the
uses in `zr.go` need: `Dm_build_4()` is the empty buffer, `Dm_build_5()` the number of
bytes in it, `Dm_build_26(bytes, off, len)` appends `bytes[off:off+len]`,
`Dm_build_37(src)` moves the bytes of `src` to the end of the buffer and leaves `src`
empty, `Dm_build_47()` is the bytes of the buffer. -/
abbrev Dm_build_0 := List Nat

/-- The empty buffer, `Dm_build_4()`. -/
def Dm_build_4 : Dm_build_0 := []

/-- The number of bytes in the buffer, `buf.Dm_build_5()`. -/
def Dm_build_5 (buf : Dm_build_0) : Int := (buf.length : Int)

/-- Appending `bytes[off:off+len]`, `buf.Dm_build_26(bytes, off, len)`; `none` is the
panic of the slice. -/
def Dm_build_26 (buf : Dm_build_0) (bytes : List Nat) (off len : Int) : Option Dm_build_0 :=
  (slice bytes off (off + len)).map (fun bs => buf ++ bs)

/-- Moving the bytes of `src` to the end of the buffer, `buf.Dm_build_37(src)`: the
buffer and `src` after the call. -/
def Dm_build_37 (buf src : Dm_build_0) : Dm_build_0 × Dm_build_0 := (buf ++ src, [])

/-- The bytes of the buffer, `buf.Dm_build_47()`. -/
def Dm_build_47 (buf : Dm_build_0) : List Nat := buf

/-- The value of an `int` as an `int32`. -/
def int32 (x : Int) : Int := (x + 2147483648) % 4294967296 - 2147483648

/-- The struct `offRowBinder`, with a reader as its `obj`. -/
structure offRowBinder where
  obj : ByteReader
  encoding : String
  readOver : Bool
  buffer : Dm_build_0
  position : Int
  offRow : Bool
  targetLength : Int
  deriving DecidableEq, Repr

/-- The constructor `newOffRowBinder(obj, encoding, targetLength)`. -/
def newOffRowBinder (obj : ByteReader) (encoding : String) (targetLength : Int) :
    offRowBinder :=
  { obj := obj, encoding := encoding, targetLength := targetLength, readOver := false,
    buffer := Dm_build_4, position := 0, offRow := false }

/-- The method `(b *offRowReaderBinder) read(buf)` for a buffer `buf` other than
`b.buffer`: the binder and `buf` after the call, `none` the panic of the slice
`bytes[0:readLen]`.  The constants `READ_LEN` and `IGNORE_TARGET_LENGTH`, which are not
under src/, are parameters. -/
def offRowReaderBinder.read (READ_LEN : Nat) (IGNORE_TARGET_LENGTH : Int) (b : offRowBinder)
    (buf : Dm_build_0) : Option (offRowBinder × Dm_build_0) :=
  if Dm_build_5 b.buffer > 0 then
    some ({ b with buffer := (Dm_build_37 buf b.buffer).2 }, (Dm_build_37 buf b.buffer).1)
  else if ¬ b.readOver then
    -- readLen, err = reader.Read(bytes), with bytes := make([]byte, READ_LEN)
    let res := b.obj.Read.1
    let b1 := { b with obj := b.obj.Read.2 }
    if res.err = .eof then some ({ b1 with readOver := true }, buf)
    else
      let readLen : Int := (res.bytes.length : Int)
      let b2 := { b1 with position := int32 (b1.position + int32 readLen) }
      let b3 :=
        if readLen < (READ_LEN : Int) ∨
            (b2.targetLength ≠ IGNORE_TARGET_LENGTH ∧ b2.position = b2.targetLength) then
          { b2 with readOver := true }
        else b2
      if readLen ≤ (READ_LEN : Int) then
        (Dm_build_26 buf res.bytes 0 readLen).map (fun buf1 => (b3, buf1))
      else none
  else some (b, buf)

/-- The constructor `newOffRowReaderBinder(reader, encoding)`: the first call of `read`
has the binder's own buffer as its argument, which is empty then, so that `read` does not
move it; `Dm_build_806`, which is not under src/, is a parameter. -/
def newOffRowReaderBinder (READ_LEN : Nat) (IGNORE_TARGET_LENGTH Dm_build_806 : Int)
    (reader : ByteReader) (encoding : String) : Option offRowBinder :=
  let binder := newOffRowBinder reader encoding IGNORE_TARGET_LENGTH
  match offRowReaderBinder.read READ_LEN IGNORE_TARGET_LENGTH binder binder.buffer with
  | none => none
  | some (b1, buf) =>
    some { b1 with buffer := buf, offRow := decide (Dm_build_5 buf > Dm_build_806) }

/-- The loop `for !b.readOver` of `readAll`, which calls `b.read(byteArray)`, with a bound
on the number of iterations: `none` when the bound is reached or `read` panics. -/
def readAllLoop (READ_LEN : Nat) (IGNORE_TARGET_LENGTH : Int) :
    Nat → offRowBinder → Dm_build_0 → Option (offRowBinder × Dm_build_0)
  | 0, _, _ => none
  | fuel + 1, b, byteArray =>
    if ¬ b.readOver then
      match offRowReaderBinder.read READ_LEN IGNORE_TARGET_LENGTH b byteArray with
      | none => none
      | some (b1, buf1) => readAllLoop READ_LEN IGNORE_TARGET_LENGTH fuel b1 buf1
    else some (b, byteArray)

/-- The method `(b *offRowReaderBinder) readAll()`: the bytes it returns and the binder
after the call. -/
def offRowReaderBinder.readAll (READ_LEN : Nat) (IGNORE_TARGET_LENGTH : Int) (fuel : Nat)
    (b : offRowBinder) : Option (List Nat × offRowBinder) :=
  match offRowReaderBinder.read READ_LEN IGNORE_TARGET_LENGTH b Dm_build_4 with
  | none => none
  | some (b1, byteArray) =>
    match readAllLoop READ_LEN IGNORE_TARGET_LENGTH fuel b1 byteArray with
    | none => none
    | some (b2, buf2) => some (Dm_build_47 buf2, b2)

/-- The bytes a reader delivers up to the end of the stream: those of its reads up to
and including the first that returns `io.EOF`. -/
def delivered : ByteReader → List Nat
  | [] => []
  | r :: rest => if r.err = .eof then r.bytes else r.bytes ++ delivered rest

/-- The bytes of the reads up to and including the first that returns fewer than
`READ_LEN` bytes. -/
def upToShort (READ_LEN : Nat) : ByteReader → List Nat
  | [] => []
  | r :: rest =>
    if r.bytes.length < READ_LEN then r.bytes else r.bytes ++ upToShort READ_LEN rest

/-- A reader obeys the contract of `io.Reader` for requests of `READ_LEN` bytes: a read
returns at most `READ_LEN` bytes. -/
def obeys (READ_LEN : Nat) (rd : ByteReader) : Prop := ∀ r ∈ rd, r.bytes.length ≤ READ_LEN

/-! ## Definitions for the continuation of string literals -/

/-- The line feed and the carriage return: the runes of class 21. -/
def newline (r : Char) : Prop := r = '\n' ∨ r = '\r'

/-- The blank, the tab and the form feed: the runes of class 22. -/
def blank (r : Char) : Prop := r = ' ' ∨ r = '\t' ∨ r = Char.ofNat 12

/-- The tokens that the scan of a whole input returns, in order; `none` when a call
fails or the bounds are reached. -/
def Lexer.tokens (passes fuel : Nat) (lexer : Lexer) : Option (List LVal) :=
  (lexer.scan passes fuel).map (fun ps => ps.filterMap Prod.fst)

/-- The token of a white-space rune. -/
def spaceToken (r : Char) : LVal := newLVal [r] .WHITESPACE_OR_COMMENT

/-- The text of two string literals with the bodies `a` and `b` and the text `ws`
between them. -/
def twoLiterals (a ws b : List Char) : List Char :=
  quote :: (a ++ quote :: (ws ++ quote :: (b ++ [quote])))

/-- The tokens of the scan `absScan`. -/
def absTokens (n : Nat) (a : Abs) : Option (List LVal) :=
  (absScan n a).map (fun ps => ps.filterMap Prod.fst)

/-- The scan from the state `a` returns the tokens `ts` and then the end-of-input
signal, within `k` passes. -/
def ScansIn (k : Nat) (a : Abs) (ts : List LVal) : Prop :=
  ∀ n, k ≤ n → absTokens n a = some ts

/-! ## The line and column loop over every rune a reader can deliver -/

/-- The value of a rune of type `Char` as the `int32` that Go's `rune` is. -/
def runeValue (r : Char) : Int := (r.toNat : Int)

/-- `utf8.RuneLen` on a rune given by its `int32` value: a reader may deliver any value,
also one that is no Unicode scalar value, and for a negative value, a surrogate or a value
above U+10FFFF the result is -1. -/
def utf8.RuneLenValue (r : Int) : Int :=
  if r < 0 then -1
  else if r ≤ 0x7F then 1
  else if r ≤ 0x7FF then 2
  else if 0xD800 ≤ r ∧ r ≤ 0xDFFF then -1
  else if r ≤ 0xFFFF then 3
  else if r ≤ 0x10FFFF then 4
  else -1

/-- How the line and column loop of `Yylex` stands after a number of iterations: `done`
is the loop left with `(yyline, yycolumn, zzR)`, `panic` the index panic of
`zzBufferL[zzCurrentPosL]`, and `running` the loop still under way, with its variables,
when the iterations allowed are used up. -/
inductive LineColumn
  | done (yyline yycolumn : Int) (zzR : Bool)
  | panic
  | running (zzCurrentPosL yyline yycolumn : Int) (zzR : Bool)
  deriving DecidableEq, Repr

/-- The loop `for zzCurrentPosL < zzMarkedPosL` at the start of a pass of `Yylex`, which
brings `yyline` and `yycolumn` up to date, over a buffer of runes given by their `int32`
values; the first argument is the number of iterations allowed.  The loop moves
`zzCurrentPosL` by `utf8.RuneLen(zzCh)`, which is -1 for a rune that is no Unicode scalar
value. -/
def zzLineColumnRunes : Nat → List Int → Int → Int → Int → Int → Bool → LineColumn
  | 0, _, zzCurrentPosL, zzMarkedPosL, yyline, yycolumn, zzR =>
    if zzCurrentPosL < zzMarkedPosL then .running zzCurrentPosL yyline yycolumn zzR
    else .done yyline yycolumn zzR
  | n + 1, zzBufferL, zzCurrentPosL, zzMarkedPosL, yyline, yycolumn, zzR =>
    if zzCurrentPosL < zzMarkedPosL then
      match idx zzBufferL zzCurrentPosL with
      | none => .panic
      | some zzCh =>
        let zzCharCount := utf8.RuneLenValue zzCh
        let next := zzLineColumnRunes n zzBufferL (zzCurrentPosL + zzCharCount) zzMarkedPosL
        if zzCh = 0x0B ∨ zzCh = 0x0C ∨ zzCh = 0x85 ∨ zzCh = 0x2028 ∨ zzCh = 0x2029 then
          next (yyline + 1) 0 false
        else if zzCh = 0x0D then
          next (yyline + 1) 0 true
        else if zzCh = 0x0A then
          if zzR then next yyline yycolumn false else next (yyline + 1) 0 false
        else
          next yyline (yycolumn + zzCharCount) false
    else .done yyline yycolumn zzR

/-- The result of the loop over runes of type `Char` (`zzLineColumn`) as a stand of the
loop over rune values. -/
def LineColumn.ofChars : Option (Int × Int × Bool) → LineColumn
  | some (yyline, yycolumn, zzR) => .done yyline yycolumn zzR
  | none => .panic

/-! ## Reading the tables of the DFA -/

/-- The tables that the unpacking functions build are the tables written out above. -/
theorem tables_unpacked : ZZ_TRANS = transRows.flatten.map (fun v : Nat => (v : Int) - 1) ∧
    ZZ_ROWMAP = rowMapValues.map (fun v : Nat => (v : Int)) ∧
    ZZ_ATTRIBUTE = attributeValues.map (fun v : Nat => (v : Int)) ∧
    ZZ_ACTION = actionValues.map (fun v : Nat => (v : Int)) := by
  decide!

theorem idx_map {α β : Type} (f : α → β) (xs : List α) (i : Int) :
    idx (xs.map f) i = (idx xs i).map f := by
  unfold idx
  split
  · rfl
  · exact List.get?_map f xs i.toNat

/-- Entry `k` of row `i` of a table stored row by row. -/
theorem join_get (rows : List (List Nat)) (hl : ∀ r ∈ rows, r.length = 32) (k : Nat)
    (hk : k < 32) :
    ∀ i : Nat, rows.flatten.get? (32 * i + k) = (rows.get? i).bind (fun r => r.get? k) := by
  induction rows with
  | nil =>
    intro i
    rfl
  | cons r rs ih =>
    intro i
    have hr : r.length = 32 := hl r (List.mem_cons_self _ _)
    cases i with
    | zero =>
      show (r ++ rs.flatten).get? (32 * 0 + k) = r.get? k
      rw [Nat.mul_zero, Nat.zero_add]
      exact List.get?_append (by omega)
    | succ j =>
      show (r ++ rs.flatten).get? (32 * (j + 1) + k) = (rs.get? j).bind (fun r => r.get? k)
      rw [List.get?_append_right (by omega), hr,
        show 32 * (j + 1) + k - 32 = 32 * j + k from by omega]
      exact ih (fun r hr => hl r (List.mem_cons_of_mem _ hr)) j

/-- A transition read from the unpacked tables is the transition of the DFA. -/
theorem trans_at (st : Int) (k : Nat) (n : Int) (h : transAt st k = some n) :
    trans st k = some n := by
  unfold transAt at h
  unfold trans
  rw [tables_unpacked.2.1, idx_map]
  cases hrow : idx rowMapValues st with
  | none =>
    rw [hrow] at h
    exact absurd h (by simp)
  | some row =>
    rw [hrow] at h
    simp only [Option.map_some'] at h ⊢
    split at h
    · rename_i hc
      have e : idx ZZ_TRANS ((row : Int) + (k : Int)) = ZZ_TRANS.get? (32 * (row / 32) + k) := by
        unfold idx
        rw [if_neg (by omega)]
        congr 1
        omega
      rw [e, tables_unpacked.1, List.get?_map,
        join_get transRows (by decide) k hc.2 (row / 32)]
      cases hr : transRows.get? (row / 32) with
      | none =>
        rw [hr] at h
        exact absurd h (by simp)
      | some r =>
        rw [hr] at h
        exact h
    · exact absurd h (by simp)

/-- An attribute read from the unpacked tables is the attribute of the state. -/
theorem attr_at (st n : Int) (h : attributeAt st = some n) : idx ZZ_ATTRIBUTE st = some n := by
  rw [tables_unpacked.2.2.1, idx_map]
  exact h

/-- An action read from the unpacked tables is the action of the state. -/
theorem action_at (st n : Int) (h : actionAt st = some n) : idx ZZ_ACTION st = some n := by
  rw [tables_unpacked.2.2.2, idx_map]
  exact h

/-- The action of a match that ended in the accepting state `act`, read from the unpacked
tables. -/
theorem act_at (act action : Int) (h0 : ¬ act < 0) (h : actionAt act = some action) :
    (if act < 0 then some act else idx ZZ_ACTION act) = some action := by
  rw [if_neg h0]
  exact action_at _ _ h

/-- The test `stepsInto` can be made on the unpacked tables. -/
theorem steps_at (tgt : List Int) (st : Int) (k : Nat) (h : stepsAt tgt st k = true) :
    stepsInto tgt st k = true := by
  unfold stepsAt at h
  unfold stepsInto
  cases ht : transAt st k with
  | none =>
    rw [ht] at h
    exact absurd h (by simp)
  | some next =>
    rw [ht] at h
    rw [trans_at st k next ht]
    simp only [Bool.and_eq_true, decide_eq_true_eq] at h ⊢
    exact ⟨⟨h.1.1, attr_at next 1 h.1.2⟩, h.2⟩

/-! ## Basic facts about indexing and slicing -/

theorem idx_natCast {α : Type} (xs : List α) (n : Nat) : idx xs (n : Int) = xs[n]? := by
  unfold idx
  simp

theorem idx_mid {α : Type} (pre live post : List α) (i : Nat) (h : i < live.length) :
    idx (pre ++ live ++ post) ((pre.length + i : Nat) : Int) = live[i]? := by
  rw [idx_natCast, List.append_assoc, List.getElem?_append_right (by omega)]
  simp [List.getElem?_append_left h]

theorem slice_mid {α : Type} (pre live post : List α) (n : Nat) (h : n ≤ live.length) :
    slice (pre ++ live ++ post) (pre.length : Int) ((pre.length + n : Nat) : Int)
      = some (live.take n) := by
  unfold slice
  have h1 : (0 : Int) ≤ (pre.length : Int) ∧ (pre.length : Int) ≤ ((pre.length + n : Nat) : Int) ∧
      ((pre.length + n : Nat) : Int) ≤ ((pre ++ live ++ post).length : Int) := by
    simp only [List.length_append]
    omega
  rw [if_pos h1]
  have h2 : (((pre.length + n : Nat) : Int) - (pre.length : Int)).toNat = n := by omega
  rw [h2, Int.toNat_ofNat, List.append_assoc, List.drop_left, List.take_append_of_le_length h]

theorem validRune_eq_true (r : Char) : utf8.ValidRune r = true := by
  unfold utf8.ValidRune
  have h := r.valid
  have h2 : r.toNat = r.val.toNat := rfl
  rcases h with h | h
  · have : r.toNat < 0xD800 := by rw [h2]; exact h
    simp [this]
  · have h3 : 0xDFFF < r.toNat ∧ r.toNat ≤ 0x10FFFF := by
      rw [h2]
      constructor
      · exact h.1
      · have := h.2
        omega
    by_cases h4 : r.toNat < 0xD800
    · simp [h4]
    · simp [h4, h3]

theorem runeLen_pos (r : Char) : 1 ≤ utf8.RuneLen r ∧ utf8.RuneLen r ≤ 4 := by
  unfold utf8.RuneLen
  have h := r.valid
  have h2 : r.toNat = r.val.toNat := rfl
  have h5 : r.val.toNat < 0xD800 ∨ (0xDFFF < r.val.toNat ∧ r.val.toNat < 0x110000) := h
  rw [← h2] at h5
  split_ifs <;> omega

theorem ofRunes_nil : ofRunes [] = [] := rfl

theorem ofRunes_cons (r : Char) (rest : List Char) :
    ofRunes (r :: rest) = RuneRead.rune r :: ofRunes rest := rfl

/-- The read loop of `zzRefill` over a reader that delivers the text `rest`: it writes
the first `n` runes of `rest` after the prefix `a` of the buffer. -/
theorem zzRefillRead_spec (n : Nat) : ∀ (rest a b : List Char) (j : Nat), n ≤ b.length →
    zzRefillRead n (ofRunes rest) (a ++ b) (a.length : Int) (j : Int)
      = .done (ofRunes (rest.drop n)) (a ++ rest.take n ++ b.drop (min n rest.length))
          (if rest.length < n ∧ j + rest.length = 0 then -1
           else ((j + min n rest.length : Nat) : Int)) := by
  induction n with
  | zero =>
    intro rest a b j _
    simp [zzRefillRead]
  | succ n ih =>
    intro rest a b j hn
    cases rest with
    | nil =>
      simp only [ofRunes_nil, zzRefillRead, List.drop_nil, List.take_nil, List.append_nil,
        List.length_nil, Nat.min_zero, List.drop_zero, Nat.add_zero]
      by_cases hj : j = 0
      · subst hj
        simp
      · have : ¬ ((j : Int) = 0) := by omega
        simp [hj, this]
    | cons r rest =>
      cases b with
      | nil => simp at hn
      | cons b0 b =>
        have hlen : (0 : Int) ≤ (a.length : Int) ∧
            (a.length : Int) < ((a ++ b0 :: b).length : Int) := by
          simp only [List.length_append, List.length_cons]
          omega
        rw [ofRunes_cons]
        simp only [zzRefillRead]
        rw [if_pos hlen]
        have hset : (a ++ b0 :: b).set (a.length : Int).toNat r = (a ++ [r]) ++ b := by
          simp [List.set_append_right]
        have hidx : (a.length : Int) + 1 = ((a ++ [r]).length : Int) := by simp
        have hj : (j : Int) + 1 = ((j + 1 : Nat) : Int) := by simp
        rw [hset, hidx, hj, ih rest (a ++ [r]) b (j + 1) (by simpa using hn)]
        have hmin : min (n + 1) (r :: rest).length = min n rest.length + 1 := by
          simp only [List.length_cons]
          omega
        have hif1 : ¬ (rest.length < n ∧ j + 1 + rest.length = 0) := by omega
        have hif2 : ¬ ((r :: rest).length < n + 1 ∧ j + (r :: rest).length = 0) := by
          simp only [List.length_cons]
          omega
        rw [if_neg hif1, if_neg hif2, hmin]
        simp only [List.drop_succ_cons, List.take_succ_cons, List.append_assoc,
          List.singleton_append, List.cons_append, List.nil_append]
        congr 2
        omega

/-! ## The buffer invariant and the effect of a refill -/

theorem Same.refl (l : Lexer) : Same l l := by
  simp [Same]

theorem Same.trans {a b c : Lexer} (h1 : Same a b) (h2 : Same b c) : Same a c := by
  obtain ⟨a1, a2, a3, a4, a5, a6, a7, a8, a9, a10⟩ := h1
  obtain ⟨b1, b2, b3, b4, b5, b6, b7, b8, b9, b10⟩ := h2
  exact ⟨b1.trans a1, b2.trans a2, b3.trans a3, b4.trans a4, b5.trans a5, b6.trans a6,
    b7.trans a7, b8.trans a8, b9.trans a9, b10.trans a10⟩

theorem fill_spec (l : Lexer) (live post rest : List Char)
    (hb : Buf l [] live post 0 rest) :
    ∃ post' l', zzRefillFill l = (if rest = [] then Refill.eof else Refill.more, l') ∧
      Buf l' [] (live ++ rest.take post.length) post'
        (if rest ≠ [] ∧ post.length ≤ rest.length then 1 else 0) (rest.drop post.length) ∧
      l'.zzMarkedPos = l.zzMarkedPos ∧ l'.zzCurrentPos = l.zzCurrentPos ∧ Same l l' ∧
      l'.zzBuffer.length = l.zzBuffer.length := by
  obtain ⟨hbuf, hst, hen, hfhs, _, hh, hrd⟩ := hb
  have hpost : post ≠ [] := by
    rcases hh with h | h
    · omega
    · exact h.2
  have hplen : 0 < post.length := List.length_pos.mpr hpost
  simp only [List.length_nil, Nat.zero_add, Nat.sub_zero, List.nil_append] at hbuf hen
  have hreq : ((l.zzBuffer.length : Int) - l.zzEndRead).toNat = post.length := by
    rw [hbuf, hen, List.length_append]
    omega
  have hread := zzRefillRead_spec post.length rest live post 0 (le_refl _)
  unfold zzRefillFill
  simp only []
  rw [hreq, hrd, hbuf, hen]
  simp only [Nat.cast_zero] at hread
  rw [hread]
  by_cases hrest : rest = []
  · subst hrest
    have h1 : ((0 : Nat) < post.length ∧ 0 + ([] : List Char).length = 0) := ⟨hplen, rfl⟩
    simp only [List.length_nil] at h1
    simp only [List.length_nil, h1, and_self, if_true, List.take_nil, List.drop_nil,
      List.append_nil, Nat.min_zero, List.drop_zero]
    refine ⟨post, _, rfl, ?_, rfl, rfl, ?_, ?_⟩
    · refine ⟨by simp, by simp [hst], by simp, by simp [hfhs], by simp, ?_, by simp [ofRunes]⟩
      simp [hpost]
    · simp [Same]
    · simp [hbuf]
  · have hrlen : 0 < rest.length := List.length_pos.mpr hrest
    have hc : ¬ (rest.length < post.length ∧ 0 + rest.length = 0) := by omega
    rw [if_neg hc, if_neg hrest]
    have hk : 0 < min post.length rest.length := by omega
    have hne0 : ¬ (((0 + min post.length rest.length : Nat) : Int) = 0) := by omega
    have hpos : ((0 + min post.length rest.length : Nat) : Int) > 0 := by omega
    simp only [hne0, if_false, hpos, if_true]
    by_cases hfull : post.length ≤ rest.length
    · -- the buffer is filled: the last rune is held back
      have hmin : min post.length rest.length = post.length := by omega
      have heq : ((0 + min post.length rest.length : Nat) : Int)
          = ((live ++ post).length : Int) - ((live.length : Nat) : Int) := by
        rw [hmin, List.length_append]
        omega
      rw [if_pos heq]
      have htk : (rest.take post.length).length = post.length := by
        rw [List.length_take]
        omega
      have hix : ((live.length : Nat) : Int) + ((0 + min post.length rest.length : Nat) : Int) - 1
          = ((live.length + (post.length - 1) : Nat) : Int) := by
        rw [hmin]
        omega
      have hdrop : post.drop (min post.length rest.length) = [] := by
        rw [hmin]
        simp
      obtain ⟨r, hr⟩ : ∃ r, idx (live ++ rest.take post.length ++ post.drop
          (min post.length rest.length)) ((live.length + (post.length - 1) : Nat) : Int)
          = some r := by
        rw [hdrop, List.append_nil]
        have := idx_mid ([] : List Char) (live ++ rest.take post.length) [] (live.length + (post.length - 1))
          (by rw [List.length_append, htk]; omega)
        simp only [List.nil_append, List.append_nil, List.length_nil, Nat.zero_add] at this
        rw [this]
        have hlt : live.length + (post.length - 1) < (live ++ rest.take post.length).length := by
          rw [List.length_append, htk]; omega
        exact ⟨_, List.getElem?_eq_getElem hlt⟩
      simp only [hix, hr, validRune_eq_true, if_true]
      refine ⟨[], _, rfl, ?_, rfl, rfl, ?_, ?_⟩
      · have hcond : rest ≠ [] ∧ post.length ≤ rest.length := ⟨hrest, hfull⟩
        rw [if_pos hcond]
        refine ⟨by simp [hdrop], by simp [hst], ?_, by simp, ?_, by simp, by simp⟩
        · simp only [List.length_nil, Nat.zero_add, List.length_append, htk]
          omega
        · rw [List.length_append, htk]; omega
      · simp [Same]
      · simp only [hdrop, List.append_nil, List.length_append, htk, hbuf]
    · have hmin : min post.length rest.length = rest.length := by omega
      have hneq : ¬ (((0 + min post.length rest.length : Nat) : Int)
          = ((live ++ post).length : Int) - ((live.length : Nat) : Int)) := by
        rw [hmin, List.length_append]
        omega
      rw [if_neg hneq]
      have htk : (rest.take post.length).length = rest.length := by
        rw [List.length_take]
        omega
      have hdne : post.drop (min post.length rest.length) ≠ [] := by
        rw [hmin]
        intro h
        have := congrArg List.length h
        simp at this
        omega
      refine ⟨post.drop (min post.length rest.length), _, rfl, ?_, rfl, rfl, ?_, ?_⟩
      · have hcond : ¬ (rest ≠ [] ∧ post.length ≤ rest.length) := by
          intro h; exact hfull h.2
        rw [if_neg hcond]
        refine ⟨by simp, by simp [hst], ?_, by simp [hfhs], by simp, ?_, by simp⟩
        · simp only [List.length_nil, Nat.zero_add, List.length_append, htk, Nat.sub_zero, hmin]
          omega
        · exact Or.inr ⟨rfl, hdne⟩
      · simp [Same]
      · simp only [List.length_append, htk, hbuf, List.length_drop, hmin]
        omega

theorem room_pos (l : Lexer) (pre live post : List Char) (h : Nat) (rest : List Char)
    (hb : Buf l pre live post h rest) : 0 < room pre live post h := by
  unfold room
  obtain ⟨_, _, _, _, hle, hh, _⟩ := hb
  split_ifs with h1
  · omega
  · rcases hh with h2 | h2
    · have : pre ≠ [] := fun hp => h1 ⟨hp, h2.1⟩
      have := List.length_pos.mpr this
      omega
    · have := List.length_pos.mpr h2.2
      omega

/-- The effect of `zzRefill` on a scanner that satisfies the buffer invariant, with the
marked and the current position `m` and `c` runes after `zzStartRead`: the live text is
moved to the front of the buffer and the next runes of the reader are appended to it. -/
theorem refill_spec (l : Lexer) (pre live post : List Char) (h : Nat) (rest : List Char)
    (m c : Nat) (hb : Buf l pre live post h rest)
    (hm : l.zzMarkedPos = ((pre.length + m : Nat) : Int))
    (hc : l.zzCurrentPos = ((pre.length + c : Nat) : Int))
    (hcl : c ≤ live.length)
    (hsafe : pre ≠ [] ∨ h = 0 ∨ live.length ≤ c + 1) :
    ∃ post' l', l.zzRefill = (if rest = [] then Refill.eof else Refill.more, l') ∧
      Buf l' [] (live ++ rest.take (room pre live post h)) post'
        (if rest ≠ [] ∧ room pre live post h ≤ rest.length then 1 else 0)
        (rest.drop (room pre live post h)) ∧
      l'.zzMarkedPos = (m : Int) ∧ l'.zzCurrentPos = (c : Int) ∧ Same l l' := by
  have hb' := hb
  obtain ⟨hbuf, hst, hen, hfhs, hle, hh, hrd⟩ := hb
  by_cases hpre : pre = []
  · -- nothing to move
    subst hpre
    simp only [List.length_nil, Nat.zero_add, List.nil_append, Nat.cast_zero] at hbuf hst hen hm hc
    have hmr : zzRefillMakeRoom l = .ok l := by
      unfold zzRefillMakeRoom
      have : ¬ (l.zzStartRead > 0) := by omega
      rw [if_neg this]
    rcases hh with ⟨h1, hp⟩ | ⟨h0, hp⟩
    · -- a rune is held back: the buffer is full and grows
      subst h1; subst hp
      have hc1 : live.length ≤ c + 1 := by
        rcases hsafe with hs | hs | hs
        · exact absurd rfl hs
        · omega
        · exact hs
      simp only [List.append_nil] at hbuf
      have hgrow : zzRefillGrow l = { l with
          zzBuffer := l.zzBuffer ++ List.replicate l.zzBuffer.length zeroRune
          zzEndRead := l.zzEndRead + l.zzFinalHighSurrogate
          zzFinalHighSurrogate := 0 } := by
        unfold zzRefillGrow
        have : l.zzCurrentPos ≥ (l.zzBuffer.length : Int) - l.zzFinalHighSurrogate := by
          rw [hc, hbuf, hfhs]; omega
        rw [if_pos this]
      have hroom : room [] live [] 1 = (List.replicate live.length zeroRune).length := by
        simp [room]
      have hb2 : Buf (zzRefillGrow l) [] live (List.replicate live.length zeroRune) 0 rest := by
        rw [hgrow]
        refine ⟨by simp [hbuf], by simp [hst], ?_, by simp, by simp, ?_, by simp [hrd]⟩
        · show l.zzEndRead + l.zzFinalHighSurrogate = _
          rw [hen, hfhs]
          simp only [List.length_nil]
          omega
        · right
          refine ⟨rfl, ?_⟩
          intro hz
          have := congrArg List.length hz
          rw [List.length_replicate, List.length_nil] at this
          omega
      obtain ⟨post', l', h1, h2, h3, h4, h5, _⟩ := fill_spec _ _ _ _ hb2
      refine ⟨post', l', ?_, ?_, ?_, ?_, ?_⟩
      · unfold Lexer.zzRefill
        rw [hmr]
        exact h1
      · rw [hroom]; exact h2
      · rw [h3, hgrow]; simp [hm]
      · rw [h4, hgrow]; simp [hc]
      · refine Same.trans ?_ h5
        rw [hgrow]; simp [Same]
    · -- the buffer is not full
      subst h0
      have hplen := List.length_pos.mpr hp
      have hgrow : zzRefillGrow l = l := by
        unfold zzRefillGrow
        have : ¬ (l.zzCurrentPos ≥ (l.zzBuffer.length : Int) - l.zzFinalHighSurrogate) := by
          rw [hc, hbuf, hfhs, List.length_append]; omega
        rw [if_neg this]
      have hroom : room [] live post 0 = post.length := by
        simp [room]
      obtain ⟨post', l', h1, h2, h3, h4, h5, _⟩ := fill_spec _ _ _ _ hb'
      refine ⟨post', l', ?_, ?_, ?_, ?_, h5⟩
      · unfold Lexer.zzRefill
        rw [hmr]
        simp only []
        rw [hgrow]
        exact h1
      · rw [hroom]; exact h2
      · rw [h3]; simp [hm]
      · rw [h4]; simp [hc]
  · -- the live text moves to the front
    have hprelen := List.length_pos.mpr hpre
    have hroom : room pre live post h = ((pre ++ live ++ post).drop live.length).length := by
      unfold room
      have : ¬ (pre = [] ∧ h = 1) := fun hx => hpre hx.1
      rw [if_neg this]
      simp only [List.length_drop, List.length_append]
      omega
    have hend : l.zzEndRead + l.zzFinalHighSurrogate = ((pre.length + live.length : Nat) : Int) := by
      rw [hen, hfhs]; omega
    have hmr : zzRefillMakeRoom l = .ok { l with
        zzBuffer := live ++ (pre ++ live ++ post).drop live.length
        zzFinalHighSurrogate := 0
        zzEndRead := (live.length : Int)
        zzCurrentPos := (c : Int)
        zzMarkedPos := (m : Int)
        zzStartRead := 0 } := by
      unfold zzRefillMakeRoom
      have hpos : l.zzStartRead > 0 := by rw [hst]; omega
      rw [if_pos hpos]
      simp only [hend, hst, hbuf, hm, hc]
      have hd : ((pre.length + live.length : Nat) : Int) - (pre.length : Int) = (live.length : Int) := by
        omega
      rw [hd]
      by_cases hl : live = []
      · subst hl
        simp
      · have hll := List.length_pos.mpr hl
        have hgt : (live.length : Int) > 0 := by omega
        rw [if_pos hgt]
        have hs1 : slice (pre ++ live ++ post) 0 (live.length : Int)
            = some ((pre ++ live ++ post).take live.length) := by
          unfold slice
          have : (0 : Int) ≤ 0 ∧ (0 : Int) ≤ (live.length : Int) ∧
              (live.length : Int) ≤ ((pre ++ live ++ post).length : Int) := by
            simp only [List.length_append]; omega
          rw [if_pos this]
          simp
        have hs2 := slice_mid pre live post live.length (le_refl _)
        rw [List.take_length] at hs2
        rw [hs1, hs2]
        simp
    have hgrow : ∀ l1 : Lexer, l1.zzCurrentPos = (c : Int) →
        l1.zzBuffer = live ++ (pre ++ live ++ post).drop live.length →
        l1.zzFinalHighSurrogate = 0 → zzRefillGrow l1 = l1 := by
      intro l1 e1 e2 e3
      unfold zzRefillGrow
      have : ¬ (l1.zzCurrentPos ≥ (l1.zzBuffer.length : Int) - l1.zzFinalHighSurrogate) := by
        rw [e1, e2, e3]
        simp only [List.length_append, List.length_drop]
        omega
      rw [if_neg this]
    have hb2 : Buf { l with
        zzBuffer := live ++ (pre ++ live ++ post).drop live.length
        zzFinalHighSurrogate := 0
        zzEndRead := (live.length : Int)
        zzCurrentPos := (c : Int)
        zzMarkedPos := (m : Int)
        zzStartRead := 0 } [] live ((pre ++ live ++ post).drop live.length) 0 rest := by
      refine ⟨by simp, by simp, by simp, by simp, by simp, ?_, by simp [hrd]⟩
      right
      refine ⟨rfl, ?_⟩
      intro hz
      have := congrArg List.length hz
      simp only [List.length_drop, List.length_append, List.length_nil] at this
      omega
    obtain ⟨post', l', h1, h2, h3, h4, h5, _⟩ := fill_spec _ _ _ _ hb2
    refine ⟨post', l', ?_, ?_, ?_, ?_, ?_⟩
    · unfold Lexer.zzRefill
      rw [hmr]
      simp only []
      rw [hgrow _ rfl rfl rfl]
      exact h1
    · rw [hroom]; exact h2
    · rw [h3]
    · rw [h4]
    · refine Same.trans ?_ h5
      simp [Same]

/-! ## The DFA loop while the input comes from the buffer -/

theorem zzFetch_buffered (l : Lexer) (s : Scan) (x : Char)
    (h1 : s.zzCurrentPosL < s.zzEndReadL) (h2 : idx s.zzBufferL s.zzCurrentPosL = some x) :
    zzFetch l s = .char x l { s with zzCurrentPosL := s.zzCurrentPosL + 1 } := by
  unfold zzFetch
  rw [if_pos h1, h2]

/-- While the input comes from the buffer, the DFA loop follows `dfaRun`: either the run
stops inside the text `(live.drop c).take n`, or the loop goes on at its end. -/
theorem loop_buffered (pre live post : List Char) (n : Nat) :
    ∀ (fuel : Nat) (l : Lexer) (s : Scan) (m c : Nat) (endL : Nat),
      s.zzBufferL = pre ++ live ++ post →
      s.zzMarkedPosL = ((pre.length + m : Nat) : Int) →
      s.zzCurrentPosL = ((pre.length + c : Nat) : Int) →
      s.zzEndReadL = ((pre.length + endL : Nat) : Int) →
      c + n = endL → endL ≤ live.length →
      ∀ inp st' a' m' c',
        dfaRun l.zzState s.zzAction m c ((live.drop c).take n) = some (inp, st', a', m', c') →
        zzLoop (fuel + n) l s =
          match inp with
          | some x => .forAction (some x) { l with zzState := st' }
              { s with zzAction := a', zzMarkedPosL := ((pre.length + m' : Nat) : Int),
                       zzCurrentPosL := ((pre.length + c' : Nat) : Int) }
          | none => zzLoop fuel { l with zzState := st' }
              { s with zzAction := a', zzMarkedPosL := ((pre.length + m' : Nat) : Int),
                       zzCurrentPosL := ((pre.length + c' : Nat) : Int) } := by
  induction n with
  | zero =>
    intro fuel l s m c endL hbuf hm hc he hcn hel inp st' a' m' c' hrun
    simp only [List.take_zero, dfaRun, Option.some.injEq, Prod.mk.injEq] at hrun
    obtain ⟨h1, h2, h3, h4, h5⟩ := hrun
    subst h1; subst h2; subst h3; subst h4; subst h5
    simp only [Nat.add_zero]
    rw [← hm, ← hc]
  | succ n ih =>
    intro fuel l s m c endL hbuf hm hc he hcn hel inp st' a' m' c' hrun
    have hclt : c < live.length := by omega
    have hx : live[c]? = some (live[c]) := List.getElem?_eq_getElem hclt
    have hdrop : (live.drop c).take (n + 1) = live[c] :: (live.drop (c + 1)).take n := by
      rw [List.drop_eq_getElem_cons hclt, List.take_succ_cons]
    rw [hdrop] at hrun
    have hfetch : zzFetch l s = .char live[c] l { s with zzCurrentPosL := s.zzCurrentPosL + 1 } := by
      apply zzFetch_buffered
      · rw [hc, he]; omega
      · rw [hbuf, hc, idx_mid pre live post c hclt, hx]
    have hfuel : fuel + (n + 1) = (fuel + n) + 1 := by omega
    rw [hfuel]
    simp only [zzLoop]
    rw [hfetch]
    simp only [zzMove]
    simp only [dfaRun] at hrun
    cases hnx : zzNext l.zzState live[c] with
    | none => rw [hnx] at hrun; simp at hrun
    | some next =>
      rw [hnx] at hrun
      simp only [] at hrun ⊢
      by_cases hneg : next = -1
      · rw [if_pos hneg] at hrun ⊢
        simp only [Option.some.injEq, Prod.mk.injEq] at hrun
        obtain ⟨h1, h2, h3, h4, h5⟩ := hrun
        subst h1; subst h2; subst h3; subst h4; subst h5
        simp only []
        rw [← hm]
        have : s.zzCurrentPosL + 1 = ((pre.length + (c + 1) : Nat) : Int) := by rw [hc]; omega
        rw [this]
      · rw [if_neg hneg] at hrun ⊢
        cases hat : idx ZZ_ATTRIBUTE next with
        | none => rw [hat] at hrun; simp at hrun
        | some attr =>
          rw [hat] at hrun
          simp only [] at hrun ⊢
          have hc1 : s.zzCurrentPosL + 1 = ((pre.length + (c + 1) : Nat) : Int) := by
            rw [hc]; omega
          by_cases hacc : attr.toNat &&& 1 = 1
          · rw [if_pos hacc] at hrun ⊢
            by_cases hnl : attr.toNat &&& 8 = 8
            · rw [if_pos hnl] at hrun ⊢
              simp only [Option.some.injEq, Prod.mk.injEq] at hrun
              obtain ⟨h1, h2, h3, h4, h5⟩ := hrun
              subst h1; subst h2; subst h3; subst h4; subst h5
              simp only []
              rw [hc1]
            · rw [if_neg hnl] at hrun ⊢
              simp only []
              have := ih fuel { l with zzState := next }
                { s with zzCurrentPosL := s.zzCurrentPosL + 1, zzAction := next,
                         zzMarkedPosL := s.zzCurrentPosL + 1 } (c + 1) (c + 1) endL
                hbuf hc1 hc1 he (by omega) hel inp st' a' m' c' hrun
              rw [this]
          · rw [if_neg hacc] at hrun ⊢
            simp only []
            have := ih fuel { l with zzState := next }
              { s with zzCurrentPosL := s.zzCurrentPosL + 1 } m (c + 1) endL
              hbuf hm hc1 he (by omega) hel inp st' a' m' c' hrun
            rw [this]

/-- While the input comes from the buffer: a run that ends in an index panic makes the
loop panic. -/
theorem loop_buffered_panic (pre live post : List Char) (n : Nat) :
    ∀ (fuel : Nat) (l : Lexer) (s : Scan) (m c : Nat) (endL : Nat),
      s.zzBufferL = pre ++ live ++ post →
      s.zzCurrentPosL = ((pre.length + c : Nat) : Int) →
      s.zzEndReadL = ((pre.length + endL : Nat) : Int) →
      c + n = endL → endL ≤ live.length →
      dfaRun l.zzState s.zzAction m c ((live.drop c).take n) = none →
      ∃ l', zzLoop (fuel + n) l s = .panic indexPanic l' := by
  induction n with
  | zero =>
    intro fuel l s m c endL _ _ _ _ _ hrun
    simp [dfaRun] at hrun
  | succ n ih =>
    intro fuel l s m c endL hbuf hc he hcn hel hrun
    have hclt : c < live.length := by omega
    have hx : live[c]? = some (live[c]) := List.getElem?_eq_getElem hclt
    have hdrop : (live.drop c).take (n + 1) = live[c] :: (live.drop (c + 1)).take n := by
      rw [List.drop_eq_getElem_cons hclt, List.take_succ_cons]
    rw [hdrop] at hrun
    have hfetch : zzFetch l s = .char live[c] l { s with zzCurrentPosL := s.zzCurrentPosL + 1 } := by
      apply zzFetch_buffered
      · rw [hc, he]; omega
      · rw [hbuf, hc, idx_mid pre live post c hclt, hx]
    have hfuel : fuel + (n + 1) = (fuel + n) + 1 := by omega
    rw [hfuel]
    simp only [zzLoop]
    rw [hfetch]
    simp only [zzMove]
    simp only [dfaRun] at hrun
    cases hnx : zzNext l.zzState live[c] with
    | none => exact ⟨_, rfl⟩
    | some next =>
      rw [hnx] at hrun
      simp only [] at hrun ⊢
      by_cases hneg : next = -1
      · rw [if_pos hneg] at hrun
        simp at hrun
      · rw [if_neg hneg] at hrun ⊢
        cases hat : idx ZZ_ATTRIBUTE next with
        | none => exact ⟨_, rfl⟩
        | some attr =>
          rw [hat] at hrun
          simp only [] at hrun ⊢
          have hc1 : s.zzCurrentPosL + 1 = ((pre.length + (c + 1) : Nat) : Int) := by
            rw [hc]; omega
          by_cases hacc : attr.toNat &&& 1 = 1
          · rw [if_pos hacc] at hrun ⊢
            by_cases hnl : attr.toNat &&& 8 = 8
            · rw [if_pos hnl] at hrun
              simp at hrun
            · rw [if_neg hnl] at hrun ⊢
              simp only []
              exact ih fuel { l with zzState := next }
                { s with zzCurrentPosL := s.zzCurrentPosL + 1, zzAction := next,
                         zzMarkedPosL := s.zzCurrentPosL + 1 } (c + 1) (c + 1) endL
                hbuf hc1 he (by omega) hel hrun
          · rw [if_neg hacc] at hrun ⊢
            simp only []
            exact ih fuel { l with zzState := next }
              { s with zzCurrentPosL := s.zzCurrentPosL + 1 } m (c + 1) endL
              hbuf hc1 he (by omega) hel hrun

/-- At the end of the buffered text, with the reader exhausted, the loop ends with
`zzInput = YYEOF` after a refill that moves the live text to the front of the buffer and
releases the rune that was held back. -/
theorem loop_end (l : Lexer) (s : Scan) (pre live post : List Char) (h m c : Nat)
    (hinv : Inv l s pre live post h [] m c) (hc : live.length ≤ c + h)
    (heof : l.zzAtEOF = false) (fuel : Nat) :
    ∃ l' s' post', zzLoop (fuel + 1) l s = .forAction none l' s' ∧
      Inv l' s' [] live post' 0 [] m c ∧ l'.zzCurrentPos = (c : Int) ∧
      l'.zzMarkedPos = (m : Int) ∧ Same l l' ∧ s'.zzAction = s.zzAction := by
  obtain ⟨hb, hsb, hse, hsm, hsc, hmc, hcl⟩ := hinv
  have hb1 : Buf { l with zzCurrentPos := s.zzCurrentPosL, zzMarkedPos := s.zzMarkedPosL }
      pre live post h [] := by
    obtain ⟨b1, b2, b3, b4, b5, b6, b7⟩ := hb
    exact ⟨b1, b2, b3, b4, b5, b6, b7⟩
  have hsafe : pre ≠ [] ∨ h = 0 ∨ live.length ≤ c + 1 := by
    rcases hb.hh with hh | hh
    · right; right; omega
    · right; left; exact hh.1
  obtain ⟨post', l', h1, h2, h3, h4, h5⟩ :=
    refill_spec _ pre live post h [] m c hb1 hsm hsc hcl hsafe
  simp only [if_true, List.take_nil, List.append_nil, List.drop_nil, ne_eq, not_true_eq_false,
    false_and, if_false] at h1 h2
  have hnlt : ¬ (s.zzCurrentPosL < s.zzEndReadL) := by
    rw [hsc, hse, hb.en]
    have := hb.hle
    omega
  refine ⟨l', ⟨s.zzAction, l'.zzCurrentPos, l'.zzMarkedPos, l'.zzEndRead, l'.zzBuffer⟩, post',
    ?_, ?_, h4, h3, ?_, rfl⟩
  · simp only [zzLoop, zzFetch]
    have hne : ¬ (l.zzAtEOF = true) := by rw [heof]; simp
    rw [if_neg hnlt, if_neg hne, h1]
  · exact ⟨h2, rfl, rfl, by simp [h3], by simp [h4], hmc, hcl⟩
  · refine Same.trans ?_ h5
    simp [Same]

/-! ## The start of a pass -/

theorem CR_toNat : CR.toNat = 0x0D := by decide

theorem toNat_eq_CR (r : Char) (h : r.toNat = 0x0D) : r = CR := by
  apply Char.ext
  apply UInt32.ext
  show r.toNat = CR.toNat
  rw [h, CR_toNat]

/-- The line and column loop over the text `txt` of the previous match does not panic,
and ends with `zzR` set only if the text ends in a carriage return. -/
theorem lineColumn_spec (pre txt post : List Char) (n : Nat) :
    ∀ (i : Nat) (yyline yycolumn : Int) (zzR : Bool),
      txt.length - i ≤ n →
      (zzR = true → 1 ≤ i ∧ i ≤ txt.length ∧ txt[i - 1]? = some CR) →
      ∃ yl yc zr,
        zzLineColumn n (pre ++ txt ++ post) ((pre.length + i : Nat) : Int)
          ((pre.length + txt.length : Nat) : Int) yyline yycolumn zzR = some (yl, yc, zr) ∧
        (zr = true → txt.getLast? = some CR) := by
  have hlast : ∀ i, 1 ≤ i → i ≤ txt.length → txt.length ≤ i → txt[i - 1]? = some CR →
      txt.getLast? = some CR := by
    intro i h1 h2 h3 h4
    have : i = txt.length := by omega
    subst this
    rw [List.getLast?_eq_getElem?]
    exact h4
  induction n with
  | zero =>
    intro i yl yc zr hn hz
    refine ⟨yl, yc, zr, by simp [zzLineColumn], ?_⟩
    intro hzr
    obtain ⟨h1, h2, h3⟩ := hz hzr
    exact hlast i h1 h2 (by omega) h3
  | succ n ih =>
    intro i yl yc zr hn hz
    simp only [zzLineColumn]
    by_cases hlt : i < txt.length
    · have hcond : ((pre.length + i : Nat) : Int) < ((pre.length + txt.length : Nat) : Int) := by
        omega
      rw [if_pos hcond, idx_mid pre txt post i hlt, List.getElem?_eq_getElem hlt]
      simp only []
      obtain ⟨hr1, hr4⟩ := runeLen_pos txt[i]
      obtain ⟨k, hk⟩ : ∃ k : Nat, utf8.RuneLen txt[i] = (k : Int) :=
        ⟨(utf8.RuneLen txt[i]).toNat, by omega⟩
      have hk1 : 1 ≤ k := by omega
      have hnext : ((pre.length + i : Nat) : Int) + utf8.RuneLen txt[i]
          = ((pre.length + (i + k) : Nat) : Int) := by
        rw [hk]; omega
      rw [hnext]
      have hfalse : ∀ yl' yc', ∃ yl yc zr,
          zzLineColumn n (pre ++ txt ++ post) ((pre.length + (i + k) : Nat) : Int)
            ((pre.length + txt.length : Nat) : Int) yl' yc' false = some (yl, yc, zr) ∧
          (zr = true → txt.getLast? = some CR) := by
        intro yl' yc'
        exact ih (i + k) yl' yc' false (by omega) (by simp)
      split_ifs with h1 h2 h3 h4
      · exact hfalse _ _
      · -- a carriage return
        have hcr : txt[i] = CR := toNat_eq_CR _ h2
        have hk' : k = 1 := by
          have : utf8.RuneLen txt[i] = 1 := by
            rw [hcr]; decide
          omega
        subst hk'
        apply ih (i + 1) _ _ true (by omega)
        intro _
        refine ⟨by omega, by omega, ?_⟩
        simp only [Nat.add_sub_cancel]
        rw [List.getElem?_eq_getElem hlt, hcr]
      · exact hfalse _ _
      · exact hfalse _ _
      · exact hfalse _ _
    · have hcond : ¬ (((pre.length + i : Nat) : Int) < ((pre.length + txt.length : Nat) : Int)) := by
        omega
      rw [if_neg hcond]
      refine ⟨yl, yc, zr, rfl, ?_⟩
      intro hzr
      obtain ⟨h1, h2, h3⟩ := hz hzr
      exact hlast i h1 h2 (by omega) h3

/-- `Sim` depends on the buffer fields, the reader, the lexical state, `zzAtEOF` and
`ltstr` only. -/
theorem Sim.congr {l l' : Lexer} {a : Abs} (h : Sim l a)
    (h1 : l'.zzBuffer = l.zzBuffer) (h2 : l'.zzStartRead = l.zzStartRead)
    (h3 : l'.zzEndRead = l.zzEndRead) (h4 : l'.zzFinalHighSurrogate = l.zzFinalHighSurrogate)
    (h5 : l'.zzReader = l.zzReader) (h6 : l'.zzMarkedPos = l.zzMarkedPos)
    (h7 : l'.zzCurrentPos = l.zzCurrentPos) (h8 : l'.zzAtEOF = l.zzAtEOF)
    (h9 : l'.zzLexicalState = l.zzLexicalState) (h10 : l'.ltstr = l.ltstr) : Sim l' a := by
  obtain ⟨pre, post, c, ⟨b1, b2, b3, b4, b5, b6, b7⟩, hm, hc, hcl, he, hx, hs⟩ := h
  exact ⟨pre, post, c, ⟨by rw [h1, b1], by rw [h2, b2], by rw [h3, b3], by rw [h4, b4], b5, b6,
    by rw [h5, b7]⟩, by rw [h6, hm], by rw [h7, hc], hcl, by rw [h8, he], by rw [h9, hx],
    by rw [h10, hs]⟩

/-- Bringing the position counters up to date keeps the scanner in its state. -/
theorem count_spec (l : Lexer) (a : Abs) (hsim : Sim l a)
    (hg : ¬ (a.held ≠ [] ∧ a.rem = [] ∧ a.txt.getLast? = some CR)) :
    ∃ l3, zzCount l l.zzEndRead l.zzBuffer = .ok l3 l3.zzMarkedPos l3.zzEndRead l3.zzBuffer ∧
      Sim l3 a := by
  have hsim' := hsim
  obtain ⟨pre, post, c, hb, hm, hc, hcl, heof, hlex, hlt⟩ := hsim
  have hbuf : l.zzBuffer = pre ++ a.txt ++ (a.rem ++ a.held ++ post) := by
    rw [hb.buf]; simp only [List.append_assoc]
  have hst0 : l.zzStartRead = ((pre.length + 0 : Nat) : Int) := by rw [hb.st]; rfl
  have hn : (l.zzMarkedPos - l.zzStartRead).toNat = a.txt.length := by
    rw [hm, hb.st]; omega
  obtain ⟨yl, yc, zr, hlc, hzr⟩ := lineColumn_spec pre a.txt (a.rem ++ a.held ++ post)
    a.txt.length 0 l.yyline l.yycolumn false (by omega) (by simp)
  have hlc' : zzLineColumn (l.zzMarkedPos - l.zzStartRead).toNat l.zzBuffer l.zzStartRead
      l.zzMarkedPos l.yyline l.yycolumn false = some (yl, yc, zr) := by
    rw [hn, hbuf, hst0, hm]; exact hlc
  unfold zzCount
  dsimp only
  rw [hlc']
  dsimp only
  cases zr with
  | false =>
    simp only [Bool.false_eq_true, if_false]
    exact ⟨_, rfl, Sim.congr hsim' rfl rfl rfl rfl rfl rfl rfl rfl rfl rfl⟩
  | true =>
    simp only [if_true]
    have hcr := hzr rfl
    unfold zzPeekLF
    dsimp only
    by_cases hrem : a.rem = []
    · -- the previous match ended at `zzEndRead`: a refill
      have hheld : a.held = [] := by
        by_contra hne
        exact hg ⟨hne, hrem, hcr⟩
      have hnlt : ¬ (l.zzMarkedPos < l.zzEndRead) := by
        rw [hm, hb.en, hrem, hheld]
        simp only [List.append_nil, List.length_nil]
        omega
      have hne : ¬ (l.zzAtEOF = true) := by rw [heof]; simp
      rw [if_neg hnlt, if_neg hne]
      have hb1 : Buf { l with
          yychar := l.yychar + (l.zzMarkedPos - l.zzStartRead)
          yyline := yl, yycolumn := yc } pre (a.txt ++ a.rem ++ a.held) post a.held.length [] := by
        obtain ⟨b1, b2, b3, b4, b5, b6, b7⟩ := hb
        exact ⟨b1, b2, b3, b4, b5, b6, b7⟩
      have hsafe : pre ≠ [] ∨ a.held.length = 0 ∨ (a.txt ++ a.rem ++ a.held).length ≤ c + 1 := by
        right; left; rw [hheld]; rfl
      obtain ⟨post', l', h1, h2, h3, h4, h5⟩ :=
        refill_spec _ pre (a.txt ++ a.rem ++ a.held) post a.held.length [] a.txt.length c hb1
          hm hc hcl hsafe
      simp only [if_true, List.take_nil, List.append_nil, List.drop_nil, ne_eq,
        not_true_eq_false, false_and, if_false] at h1 h2
      rw [h1]
      refine ⟨l', rfl, ?_⟩
      obtain ⟨_, s2, _, _, _, _, s7, _, s9, _⟩ := h5
      refine ⟨[], post', c, ?_, ?_, ?_, hcl, ?_, ?_, ?_⟩
      · rw [hheld] at h2 ⊢; exact h2
      · rw [h3]; simp
      · rw [h4]; simp
      · rw [s7]; exact heof
      · rw [s2]; exact hlex
      · rw [s9]; exact hlt
    · -- the next rune is in the buffer
      have hrl := List.length_pos.mpr hrem
      have hl : l.zzMarkedPos < l.zzEndRead := by
        rw [hm, hb.en]
        simp only [List.length_append]
        omega
      rw [if_pos hl]
      have hix : idx l.zzBuffer l.zzMarkedPos = some (a.rem[0]) := by
        have h1 : pre ++ a.txt ++ (a.rem ++ a.held ++ post)
            = (pre ++ a.txt) ++ a.rem ++ (a.held ++ post) := by
          simp only [List.append_assoc]
        have h2 : ((pre.length + a.txt.length : Nat) : Int)
            = (((pre ++ a.txt).length + 0 : Nat) : Int) := by
          simp only [List.length_append, Nat.add_zero]
        rw [hbuf, hm, h1, h2, idx_mid (pre ++ a.txt) a.rem (a.held ++ post) 0 hrl]
        exact List.getElem?_eq_getElem hrl
      rw [hix]
      dsimp only
      split_ifs
      · exact ⟨_, rfl, Sim.congr hsim' rfl rfl rfl rfl rfl rfl rfl rfl rfl rfl⟩
      · exact ⟨_, rfl, Sim.congr hsim' rfl rfl rfl rfl rfl rfl rfl rfl rfl rfl⟩

/-! ## The switches -/

/-- The action switch reads and writes the lexical state and `ltstr` only. -/
theorem actionSwitch_frame (action : Int) (text : List Char) (l : Lexer) (s : Scan) (a : Abs)
    (h1 : l.zzLexicalState = a.lex) (h2 : l.ltstr = a.ltstr) :
    zzActionSwitch action text l s =
      match zzActionSwitch action text a.user Scan.zero with
      | .ret r u => .ret r { l with zzLexicalState := u.zzLexicalState, ltstr := u.ltstr }
      | .again u _ _ =>
        .again { l with zzLexicalState := u.zzLexicalState, ltstr := u.ltstr }
          s.zzEndReadL s.zzBufferL := by
  have e1 : { l with zzLexicalState := a.lex, ltstr := a.ltstr } = l := by
    rw [← h1, ← h2]
  unfold zzActionSwitch
  dsimp only
  by_cases hneg : action < 0
  · rw [if_pos hneg, if_pos hneg]
    dsimp only [Abs.user]
    rw [e1]
  · rw [if_neg hneg, if_neg hneg]
    generalize action.toNat = n
    split <;> simp [Abs.user, Lexer.yybegin, Lexer.zero, ← h1, ← h2]
    all_goals (split_ifs <;> simp [← h1, ← h2])

theorem dfaRun_bounds (cs : List Char) :
    ∀ (st a : Int) (m c : Nat) inp st' a' m' c',
      dfaRun st a m c cs = some (inp, st', a', m', c') → m ≤ c →
      m ≤ m' ∧ m' ≤ c' ∧ c' ≤ c + cs.length ∧ (inp = none → c' = c + cs.length) := by
  induction cs with
  | nil =>
    intro st a m c inp st' a' m' c' h hmc
    simp only [dfaRun, Option.some.injEq, Prod.mk.injEq] at h
    obtain ⟨h1, _, _, h4, h5⟩ := h
    subst h4; subst h5
    simp [hmc]
  | cons x xs ih =>
    intro st a m c inp st' a' m' c' h hmc
    simp only [dfaRun] at h
    cases hnx : zzNext st x with
    | none => rw [hnx] at h; simp at h
    | some next =>
      rw [hnx] at h
      dsimp only at h
      by_cases hneg : next = -1
      · rw [if_pos hneg] at h
        simp only [Option.some.injEq, Prod.mk.injEq] at h
        obtain ⟨h1, _, _, h4, h5⟩ := h
        subst h1; subst h4; subst h5
        simp only [List.length_cons]
        refine ⟨le_refl _, by omega, by omega, by simp⟩
      · rw [if_neg hneg] at h
        cases hat : idx ZZ_ATTRIBUTE next with
        | none => rw [hat] at h; simp at h
        | some attr =>
          rw [hat] at h
          dsimp only at h
          by_cases hacc : attr.toNat &&& 1 = 1
          · rw [if_pos hacc] at h
            by_cases hnl : attr.toNat &&& 8 = 8
            · rw [if_pos hnl] at h
              simp only [Option.some.injEq, Prod.mk.injEq] at h
              obtain ⟨h1, _, _, h4, h5⟩ := h
              subst h1; subst h4; subst h5
              simp only [List.length_cons]
              refine ⟨by omega, le_refl _, by omega, by simp⟩
            · rw [if_neg hnl] at h
              have := ih next next (c + 1) (c + 1) inp st' a' m' c' h (le_refl _)
              simp only [List.length_cons]
              refine ⟨by omega, this.2.1, by omega, ?_⟩
              intro hi
              have := this.2.2.2 hi
              omega
          · rw [if_neg hacc] at h
            have := ih next a m (c + 1) inp st' a' m' c' h (by omega)
            simp only [List.length_cons]
            refine ⟨this.1, this.2.1, by omega, ?_⟩
            intro hi
            have := this.2.2.2 hi
            omega

/-- The end-of-input switch, for a lexical state that has a DFA start state. -/
theorem eofSwitch_spec (l : Lexer) (s : Scan) (st0 : Int)
    (h : idx ZZ_LEXSTATE l.zzLexicalState = some st0) :
    zzEofSwitch l s =
      match absEof l.zzLexicalState with
      | .unterminated msg =>
        .ret (.panic ((l.yybegin YYINITIAL).yyerror msg)) (l.yybegin YYINITIAL)
      | _ => .ret .eof l := by
  have hr : 0 ≤ l.zzLexicalState ∧ l.zzLexicalState < 20 := by
    unfold idx at h
    by_cases hneg : l.zzLexicalState < 0
    · rw [if_pos hneg] at h; simp at h
    · rw [if_neg hneg] at h
      have hlt : l.zzLexicalState.toNat < ZZ_LEXSTATE.length := by
        by_contra hge
        rw [List.get?_eq_none.mpr (by omega)] at h
        simp at h
      have : ZZ_LEXSTATE.length = 20 := by decide
      omega
  unfold zzEofSwitch absEof
  dsimp only
  generalize l.zzLexicalState = st at hr
  have e1 : xc = (2 : Int) := rfl
  have e2 : xq = (4 : Int) := rfl
  have e3 : xdq = (6 : Int) := rfl
  have e4 : xbin = (10 : Int) := rfl
  have e5 : xhex = (12 : Int) := rfl
  have e6 : xq2 = (16 : Int) := rfl
  have e7 : xq2_2 = (18 : Int) := rfl
  rw [e1, e2, e3, e4, e5, e6, e7]
  by_cases h1 : st = 2
  · rw [if_pos h1, if_pos h1]
  rw [if_neg h1, if_neg h1, if_neg (show ¬ st = 105 by omega)]
  by_cases h2 : st = 4
  · rw [if_pos h2, if_pos h2]
  rw [if_neg h2, if_neg h2, if_neg (show ¬ st = 106 by omega)]
  by_cases h3 : st = 6
  · rw [if_pos h3, if_pos h3]
  rw [if_neg h3, if_neg h3, if_neg (show ¬ st = 107 by omega)]
  by_cases h4 : st = 10
  · rw [if_pos h4, if_pos h4]
  rw [if_neg h4, if_neg h4, if_neg (show ¬ st = 108 by omega)]
  by_cases h5 : st = 12
  · rw [if_pos h5, if_pos h5]
  rw [if_neg h5, if_neg h5, if_neg (show ¬ st = 109 by omega)]
  by_cases h6 : st = 16
  · rw [if_pos h6, if_pos h6]
  rw [if_neg h6, if_neg h6, if_neg (show ¬ st = 110 by omega)]
  by_cases h7 : st = 18
  · rw [if_pos h7, if_pos h7]
  rw [if_neg h7, if_neg h7, if_neg (show ¬ st = 111 by omega)]

/-- The action of a match, for a scanner whose buffer holds the matched text `text`
followed by the text `rem` still to be matched. -/
theorem dispatch_spec (l6 : Lexer) (s : Scan) (a : Abs) (pre post text rem held : List Char)
    (c : Nat)
    (hb : Buf l6 pre (text ++ rem ++ held) post held.length [])
    (hm : l6.zzMarkedPos = ((pre.length + text.length : Nat) : Int))
    (hc : l6.zzCurrentPos = ((pre.length + c : Nat) : Int))
    (hcl : c ≤ (text ++ rem ++ held).length)
    (heof : l6.zzAtEOF = false) (hlex : l6.zzLexicalState = a.lex) (hlt : l6.ltstr = a.ltstr)
    (hse : s.zzEndReadL = l6.zzEndRead) (hsb : s.zzBufferL = l6.zzBuffer) :
    PassSim (zzDispatch l6 s)
      (match (if s.zzAction < 0 then some s.zzAction else idx ZZ_ACTION s.zzAction) with
       | none => .panic indexPanic
       | some action => absAction action text a rem held) := by
  unfold zzDispatch
  dsimp only
  cases hlook : (if s.zzAction < 0 then some s.zzAction else idx ZZ_ACTION s.zzAction) with
  | none => exact ⟨_, rfl⟩
  | some action =>
    dsimp only
    have htext : l6.yytext = some text := by
      unfold Lexer.yytext
      rw [hb.buf, hb.st, hm]
      have := slice_mid pre (text ++ rem ++ held) post text.length (by simp)
      rw [this]
      simp
    rw [htext]
    dsimp only
    rw [actionSwitch_frame action text l6 s a hlex hlt]
    unfold absAction
    cases hsw : zzActionSwitch action text a.user Scan.zero with
    | ret r u =>
      dsimp only
      cases r with
      | token v =>
        refine ⟨{ l6 with zzLexicalState := u.zzLexicalState, ltstr := u.ltstr }, rfl,
          pre, post, c, ?_, hm, hc, hcl, heof, rfl, rfl⟩
        obtain ⟨b1, b2, b3, b4, b5, b6, b7⟩ := hb
        exact ⟨b1, b2, b3, b4, b5, b6, b7⟩
      | eof => trivial
      | fail err => trivial
      | panic msg => exact ⟨_, rfl⟩
      | timeout => trivial
    | again u e b =>
      dsimp only
      refine ⟨{ l6 with zzLexicalState := u.zzLexicalState, ltstr := u.ltstr }, ?_,
        pre, post, c, ?_, hm, hc, hcl, heof, rfl, rfl⟩
      · rw [hse, hsb]
      · obtain ⟨b1, b2, b3, b4, b5, b6, b7⟩ := hb
        exact ⟨b1, b2, b3, b4, b5, b6, b7⟩

theorem absEof_cases (lex : Int) :
    absEof lex = .eof ∨ ∃ msg, absEof lex = .unterminated msg := by
  unfold absEof
  split_ifs
  all_goals first | (left; rfl) | (right; exact ⟨_, rfl⟩)

/-- The DFA loop of a pass and the action that follows it, for a scanner whose reader is
exhausted and whose buffer holds the text `a.rem` from `zzStartRead` on. -/
theorem run_spec (l4 : Lexer) (s4 : Scan) (a : Abs) (pre post : List Char) (fuel : Nat)
    (st0 : Int)
    (hinv : Inv l4 s4 pre (a.rem ++ a.held) post a.held.length [] 0 0)
    (hcur : l4.zzCurrentPos = (pre.length : Int))
    (heof : l4.zzAtEOF = false) (hlex : l4.zzLexicalState = a.lex) (hlt : l4.ltstr = a.ltstr)
    (hst : idx ZZ_LEXSTATE a.lex = some st0)
    (hfuel : a.rem.length < fuel) :
    PassSim (zzRun fuel l4 s4) (absRun a l4.zzState s4.zzAction) := by
  obtain ⟨hb, hsb, hse, hsm, hsc, _, _⟩ := hinv
  have hbufS : s4.zzBufferL = pre ++ (a.rem ++ a.held) ++ post := by rw [hsb, hb.buf]
  have heS : s4.zzEndReadL = ((pre.length + a.rem.length : Nat) : Int) := by
    rw [hse, hb.en]
    simp only [List.length_append]
    congr 1
    omega
  have havail : ((a.rem ++ a.held).drop 0).take a.rem.length = a.rem := by
    simp
  obtain ⟨f, hf⟩ : ∃ f, fuel = (f + 1) + a.rem.length := ⟨fuel - a.rem.length - 1, by omega⟩
  unfold zzRun absRun
  cases hrun : dfaRun l4.zzState s4.zzAction 0 0 a.rem with
  | none =>
    obtain ⟨l', hl'⟩ := loop_buffered_panic pre (a.rem ++ a.held) post a.rem.length (f + 1) l4 s4
      0 0 a.rem.length hbufS hsc heS (by omega) (by simp) (by rw [havail]; exact hrun)
    rw [hf, hl']
    exact ⟨_, rfl⟩
  | some r =>
    obtain ⟨inp, st', act, m, c'⟩ := r
    obtain ⟨_, hmc', hcl', hnone⟩ := dfaRun_bounds a.rem _ _ 0 0 inp st' act m c' hrun (le_refl _)
    simp only [Nat.zero_add] at hcl' hnone
    have hloop := loop_buffered pre (a.rem ++ a.held) post a.rem.length (f + 1) l4 s4
      0 0 a.rem.length hbufS hsm hsc heS (by omega) (by simp) inp st' act m c'
      (by rw [havail]; exact hrun)
    rw [hf, hloop]
    dsimp only
    have htd : a.rem.take m ++ a.rem.drop m = a.rem := List.take_append_drop m a.rem
    have htl : (a.rem.take m).length = m := by
      rw [List.length_take]; omega
    cases inp with
    | some x =>
      dsimp only
      unfold zzForAction
      dsimp only
      have hcond : ¬ ((some x : Option Char) = none ∧
          l4.zzStartRead = l4.zzCurrentPos) := by
        intro h; exact absurd h.1 (by simp)
      have hcond2 : ¬ ((some x : Option Char) = none ∧ c' = 0) := by
        intro h; exact absurd h.1 (by simp)
      rw [if_neg hcond, if_neg hcond2]
      have hd := dispatch_spec
        { l4 with zzState := st', zzMarkedPos := ((pre.length + m : Nat) : Int) }
        { s4 with zzAction := act, zzMarkedPosL := ((pre.length + m : Nat) : Int),
                  zzCurrentPosL := ((pre.length + c' : Nat) : Int) }
        a pre post (a.rem.take m) (a.rem.drop m) a.held 0
        (by
          rw [htd]
          obtain ⟨b1, b2, b3, b4, b5, b6, b7⟩ := hb
          exact ⟨b1, b2, b3, b4, b5, b6, b7⟩)
        (by rw [htl]) (by simpa using hcur) (by omega) heof hlex hlt hse hsb
      dsimp only at hd
      cases hlook : (if act < 0 then some act else idx ZZ_ACTION act) with
      | none =>
        rw [hlook] at hd
        exact hd
      | some action =>
        rw [hlook] at hd
        dsimp only
        have hne : ¬ ((some x : Option Char) = none) := by simp
        rw [if_neg hne]
        exact hd
    | none =>
      dsimp only
      have hc' : c' = a.rem.length := hnone rfl
      have hinv5 : Inv { l4 with zzState := st' }
          { s4 with zzAction := act, zzMarkedPosL := ((pre.length + m : Nat) : Int),
                    zzCurrentPosL := ((pre.length + c' : Nat) : Int) }
          pre (a.rem ++ a.held) post a.held.length [] m c' := by
        refine ⟨?_, hsb, hse, rfl, rfl, hmc', ?_⟩
        · obtain ⟨b1, b2, b3, b4, b5, b6, b7⟩ := hb
          exact ⟨b1, b2, b3, b4, b5, b6, b7⟩
        · simp only [List.length_append]; omega
      obtain ⟨l7, s7, post', h1, h2, h3, h4, h5, h6⟩ := loop_end _ _ pre (a.rem ++ a.held) post
        a.held.length m c' hinv5 (by simp only [List.length_append]; omega) heof f
      rw [h1]
      dsimp only
      obtain ⟨hb7, hsb7, hse7, hsm7, hsc7, _, _⟩ := h2
      obtain ⟨_, e2, _, _, _, _, e7, _, e9, _⟩ := h5
      dsimp only at e2 e7 e9
      have hst7 : l7.zzStartRead = 0 := by rw [hb7.st]; rfl
      have hsm7' : s7.zzMarkedPosL = (m : Int) := by rw [hsm7]; simp
      unfold zzForAction
      dsimp only
      by_cases hc0 : c' = 0
      · -- nothing was read: the end of input
        have hm0 : m = 0 := by omega
        have hcond : ((none : Option Char) = none ∧ l7.zzStartRead = l7.zzCurrentPos) := by
          refine ⟨rfl, ?_⟩
          rw [hst7, h3, hc0]; rfl
        have hcond2 : ((none : Option Char) = none ∧ c' = 0) := ⟨rfl, hc0⟩
        rw [if_pos hcond, if_pos hcond2]
        have hsw := eofSwitch_spec
          { l7 with zzMarkedPos := s7.zzMarkedPosL, zzAtEOF := true } s7 st0
          (by dsimp only; rw [e2, hlex]; exact hst)
        rw [hsw]
        dsimp only
        rw [e2, hlex]
        rcases absEof_cases a.lex with he | ⟨msg, he⟩
        · rw [he]
          dsimp only
          refine ⟨_, rfl, rfl, ?_⟩
          dsimp only
          rw [hsm7', hst7, hm0]; rfl
        · rw [he]
          dsimp only
          exact ⟨_, rfl, rfl⟩
      · have hcond : ¬ ((none : Option Char) = none ∧ l7.zzStartRead = l7.zzCurrentPos) := by
          intro h
          have := h.2
          rw [hst7, h3] at this
          omega
        have hcond2 : ¬ ((none : Option Char) = none ∧ c' = 0) := fun h => hc0 h.2
        rw [if_neg hcond, if_neg hcond2]
        have hd := dispatch_spec { l7 with zzMarkedPos := s7.zzMarkedPosL } s7
          a [] post' (a.rem.take m) (a.rem.drop m ++ a.held) [] c'
          (by
            have hl : a.rem.take m ++ (a.rem.drop m ++ a.held) ++ [] = a.rem ++ a.held := by
              rw [List.append_nil, ← List.append_assoc, htd]
            rw [hl]
            obtain ⟨b1, b2, b3, b4, b5, b6, b7⟩ := hb7
            exact ⟨b1, b2, b3, b4, b5, b6, b7⟩)
          (by dsimp only; rw [hsm7', htl]; simp)
          (by dsimp only; rw [h3]; simp)
          (by simp only [List.length_append, List.length_take, List.length_drop,
                List.length_nil]; omega)
          (by dsimp only; rw [e7]; exact heof)
          (by dsimp only; rw [e2]; exact hlex)
          (by dsimp only; rw [e9]; exact hlt)
          hse7 hsb7
        rw [h6] at hd
        dsimp only at hd
        cases hlook : (if act < 0 then some act else idx ZZ_ACTION act) with
        | none =>
          rw [hlook] at hd
          exact hd
        | some action =>
          rw [hlook] at hd
          dsimp only
          rw [if_pos rfl]
          exact hd

/-! ## A pass and a call of `Yylex`, for a scanner whose reader is exhausted -/

/-- One pass of the outer loop of `Yylex` follows `absPass`. -/
theorem sim_pass (l : Lexer) (a : Abs) (fuel : Nat) (hsim : Sim l a)
    (hfuel : a.rem.length < fuel) :
    PassSim (yyPass fuel l l.zzEndRead l.zzBuffer) (absPass a) := by
  unfold absPass
  by_cases hg : a.held ≠ [] ∧ a.rem = [] ∧ a.txt.getLast? = some CR
  · rw [if_pos hg]; trivial
  rw [if_neg hg]
  obtain ⟨l3, hcount, hsim3⟩ := count_spec l a hsim hg
  obtain ⟨pre, post, c, hb, hm, hc, hcl, heof, hlex, hlt⟩ := hsim3
  unfold yyPass zzBegin
  rw [hcount]
  dsimp only
  have hx : idx ZZ_LEXSTATE l3.zzLexicalState = idx ZZ_LEXSTATE a.lex := by rw [hlex]
  rw [hx]
  cases hst : idx ZZ_LEXSTATE a.lex with
  | none => exact ⟨_, rfl⟩
  | some st0 =>
    dsimp only
    cases hat : idx ZZ_ATTRIBUTE st0 with
    | none => exact ⟨_, rfl⟩
    | some attr =>
      dsimp only
      have hlen : ((pre.length + a.txt.length : Nat) : Int) = ((pre ++ a.txt).length : Int) := by
        simp
      refine run_spec _ _ a (pre ++ a.txt) post fuel st0 ⟨⟨?_, ?_, ?_, hb.fhs, ?_, hb.hh, hb.rd⟩,
        rfl, rfl, ?_, ?_, le_refl _, Nat.zero_le _⟩ ?_ heof hlex hlt hst hfuel
      · show l3.zzBuffer = _
        rw [hb.buf]; simp only [List.append_assoc]
      · show l3.zzMarkedPos = _
        rw [hm, hlen]
      · show l3.zzEndRead = _
        rw [hb.en]
        simp only [List.length_append]
        congr 1
        omega
      · simp only [List.length_append]; omega
      · show l3.zzMarkedPos = _
        rw [hm]; simp
      · show l3.zzMarkedPos = _
        rw [hm]; simp
      · show l3.zzMarkedPos = _
        rw [hm, hlen]

/-- The text still to be read does not grow in a pass. -/
theorem absAction_size (action : Int) (text : List Char) (a : Abs) (rem held : List Char) :
    (∀ v a', absAction action text a rem held = .token v a' → a'.rem = rem ∧ a'.held = held) ∧
    (∀ a', absAction action text a rem held = .again a' → a'.rem = rem ∧ a'.held = held) := by
  unfold absAction
  constructor
  · intro v a' h
    split at h <;> simp at h
    obtain ⟨_, h2⟩ := h
    rw [← h2]
    exact ⟨rfl, rfl⟩
  · intro a' h
    split at h <;> simp at h
    rw [← h]
    exact ⟨rfl, rfl⟩

theorem absEof_not_again (lex : Int) :
    (∀ v a', absEof lex ≠ .token v a') ∧ (∀ a', absEof lex ≠ .again a') := by
  rcases absEof_cases lex with h | ⟨msg, h⟩ <;> rw [h] <;> simp

theorem absRun_size (a : Abs) (st0 act0 : Int) :
    (∀ v a', absRun a st0 act0 = .token v a' →
      a'.rem.length + a'.held.length ≤ a.rem.length + a.held.length) ∧
    (∀ a', absRun a st0 act0 = .again a' →
      a'.rem.length + a'.held.length ≤ a.rem.length + a.held.length) := by
  unfold absRun
  cases hrun : dfaRun st0 act0 0 0 a.rem with
  | none => simp
  | some r =>
    obtain ⟨inp, st', act, m, c⟩ := r
    dsimp only
    by_cases h1 : inp = none ∧ c = 0
    · rw [if_pos h1]
      have := absEof_not_again a.lex
      exact ⟨fun v a' h => absurd h (this.1 v a'), fun a' h => absurd h (this.2 a')⟩
    · rw [if_neg h1]
      cases hlook : (if act < 0 then some act else idx ZZ_ACTION act) with
      | none => simp
      | some action =>
        dsimp only
        by_cases h2 : inp = none
        · rw [if_pos h2]
          have h := absAction_size action (a.rem.take m) a (a.rem.drop m ++ a.held) []
          constructor
          · intro v a' h3
            obtain ⟨e1, e2⟩ := h.1 v a' h3
            rw [e1, e2]
            simp only [List.length_append, List.length_drop, List.length_nil]
            omega
          · intro a' h3
            obtain ⟨e1, e2⟩ := h.2 a' h3
            rw [e1, e2]
            simp only [List.length_append, List.length_drop, List.length_nil]
            omega
        · rw [if_neg h2]
          have h := absAction_size action (a.rem.take m) a (a.rem.drop m) a.held
          constructor
          · intro v a' h3
            obtain ⟨e1, e2⟩ := h.1 v a' h3
            rw [e1, e2]
            simp only [List.length_drop]
            omega
          · intro a' h3
            obtain ⟨e1, e2⟩ := h.2 a' h3
            rw [e1, e2]
            simp only [List.length_drop]
            omega

theorem absPass_size (a : Abs) :
    (∀ v a', absPass a = .token v a' →
      a'.rem.length + a'.held.length ≤ a.rem.length + a.held.length) ∧
    (∀ a', absPass a = .again a' →
      a'.rem.length + a'.held.length ≤ a.rem.length + a.held.length) := by
  unfold absPass
  by_cases hg : a.held ≠ [] ∧ a.rem = [] ∧ a.txt.getLast? = some CR
  · rw [if_pos hg]; simp
  rw [if_neg hg]
  cases hst : idx ZZ_LEXSTATE a.lex with
  | none => simp
  | some st0 =>
    dsimp only
    cases hat : idx ZZ_ATTRIBUTE st0 with
    | none => simp
    | some attr => exact absRun_size a _ _

/-- From the outcome of one pass to the outcome of the outer loop. -/
theorem sim_yyLoop (fuel : Nat) (n : Nat) :
    ∀ (l : Lexer) (e : Int) (b : List Char) (a : Abs),
      a.rem.length + a.held.length < fuel →
      PassSim (yyPass fuel l e b) (absPass a) →
      YySim (yyLoop (n + 1) fuel l e b) (absYylex (n + 1) a) := by
  induction n with
  | zero =>
    intro l e b a hfuel hp
    simp only [yyLoop, absYylex]
    cases hout : absPass a with
    | again a' =>
      rw [hout] at hp
      obtain ⟨l', hl', _⟩ := hp
      rw [hl']
      trivial
    | token v a' =>
      rw [hout] at hp
      obtain ⟨l', hl', hs⟩ := hp
      rw [hl']
      exact ⟨rfl, hs⟩
    | eof =>
      rw [hout] at hp
      obtain ⟨l', hl', hs⟩ := hp
      rw [hl']
      exact ⟨rfl, hs⟩
    | unterminated msg =>
      rw [hout] at hp
      obtain ⟨l', hl', hs⟩ := hp
      rw [hl']
      exact ⟨rfl, hs⟩
    | panic msg =>
      rw [hout] at hp
      obtain ⟨l', hl'⟩ := hp
      rw [hl']
      exact rfl
    | unknown => trivial
  | succ n ih =>
    intro l e b a hfuel hp
    rw [yyLoop, absYylex]
    cases hout : absPass a with
    | again a' =>
      rw [hout] at hp
      obtain ⟨l', hl', hs⟩ := hp
      rw [hl']
      dsimp only
      have hsz := (absPass_size a).2 a' hout
      exact ih l' _ _ a' (by omega) (sim_pass l' a' fuel hs (by omega))
    | token v a' =>
      rw [hout] at hp
      obtain ⟨l', hl', hs⟩ := hp
      rw [hl']
      exact ⟨rfl, hs⟩
    | eof =>
      rw [hout] at hp
      obtain ⟨l', hl', hs⟩ := hp
      rw [hl']
      exact ⟨rfl, hs⟩
    | unterminated msg =>
      rw [hout] at hp
      obtain ⟨l', hl', hs⟩ := hp
      rw [hl']
      exact ⟨rfl, hs⟩
    | panic msg =>
      rw [hout] at hp
      obtain ⟨l', hl'⟩ := hp
      rw [hl']
      exact rfl
    | unknown => trivial

/-- A call of `Yylex` on a scanner whose reader is exhausted follows `absYylex`. -/
theorem sim_Yylex (l : Lexer) (a : Abs) (fuel : Nat) (hsim : Sim l a)
    (hfuel : a.rem.length + a.held.length < fuel) :
    YySim (l.Yylex fuel) (absYylex fuel a) := by
  obtain ⟨n, hn⟩ : ∃ n, fuel = n + 1 := ⟨fuel - 1, by omega⟩
  unfold Lexer.Yylex
  have := sim_yyLoop fuel n l l.zzEndRead l.zzBuffer a hfuel (sim_pass l a fuel hsim (by omega))
  rw [hn] at this ⊢
  exact this

/-! ## The first pass of a fresh scanner -/

/-- A refill that delivers runes before the current position is reached does not change
the result of the DFA loop. -/
theorem loop_refill_more (l : Lexer) (s : Scan) (f : Nat) (l2 : Lexer)
    (h1 : ¬ (s.zzCurrentPosL < s.zzEndReadL)) (h2 : l.zzAtEOF = false)
    (h3 : ({ l with zzCurrentPos := s.zzCurrentPosL, zzMarkedPos := s.zzMarkedPosL } :
      Lexer).zzRefill = (.more, l2))
    (h4 : l2.zzCurrentPos < l2.zzEndRead) :
    zzLoop (f + 1) l s = zzLoop (f + 1) l2
      ⟨s.zzAction, l2.zzCurrentPos, l2.zzMarkedPos, l2.zzEndRead, l2.zzBuffer⟩ := by
  have hne : ¬ (l.zzAtEOF = true) := by rw [h2]; simp
  have hl : zzFetch l s = zzFetch l2
      ⟨s.zzAction, l2.zzCurrentPos, l2.zzMarkedPos, l2.zzEndRead, l2.zzBuffer⟩ := by
    unfold zzFetch
    dsimp only
    rw [if_neg h1, if_neg hne, h3, if_pos h4]
  simp only [zzLoop]
  rw [hl]

theorem dropLast_append_last (text : List Char) :
    text.dropLast ++ text.drop (text.length - 1) = text := by
  have h1 : text.dropLast = text.take (text.length - 1) := List.dropLast_eq_take text
  rw [h1, List.take_append_drop]

/-- The DFA loop of the first pass of a scanner that has read nothing yet, on a text that
fits into its buffer. -/
theorem lazy_run (l4 : Lexer) (s4 : Scan) (post text : List Char) (a : Abs) (fuel : Nat)
    (st0 : Int)
    (hb : Buf l4 [] [] post 0 text)
    (_ : s4.zzBufferL = l4.zzBuffer) (hse : s4.zzEndReadL = l4.zzEndRead)
    (hsm : s4.zzMarkedPosL = 0) (hsc : s4.zzCurrentPosL = 0)
    (heof : l4.zzAtEOF = false)
    (hlex : l4.zzLexicalState = a.lex) (hlt : l4.ltstr = a.ltstr)
    (hst : idx ZZ_LEXSTATE a.lex = some st0)
    (hne : text ≠ []) (hlen : text.length ≤ post.length) (hpost : 2 ≤ post.length)
    (hrem : a.rem ++ a.held = text)
    (hheld : a.held.length = if post.length ≤ text.length then 1 else 0)
    (hfuel : text.length < fuel) :
    PassSim (zzRun fuel l4 s4) (absRun a l4.zzState s4.zzAction) := by
  have hen0 : l4.zzEndRead = 0 := by rw [hb.en]; rfl
  have hrl : a.rem.length ≤ text.length := by
    rw [← hrem, List.length_append]; omega
  have hb1 : Buf ({ l4 with
      zzCurrentPos := s4.zzCurrentPosL
      zzMarkedPos := s4.zzMarkedPosL } : Lexer) [] [] post 0 text := by
    obtain ⟨b1, b2, b3, b4, b5, b6, b7⟩ := hb
    exact ⟨b1, b2, b3, b4, b5, b6, b7⟩
  obtain ⟨post', l', h1, h2, h3, h4, h5⟩ := refill_spec _ [] [] post 0 text 0 0 hb1
    hsm hsc (le_refl _) (Or.inr (Or.inl rfl))
  have hroom : room [] [] post 0 = post.length := by simp [room]
  rw [if_neg hne] at h1
  rw [hroom] at h2
  have htake : text.take post.length = text := List.take_of_length_le hlen
  have hdrop : text.drop post.length = [] := List.drop_of_length_le hlen
  rw [htake, hdrop, List.nil_append] at h2
  have hh' : (if text ≠ [] ∧ post.length ≤ text.length then 1 else 0) = a.held.length := by
    rw [hheld]
    by_cases hc : post.length ≤ text.length
    · rw [if_pos hc, if_pos ⟨hne, hc⟩]
    · rw [if_neg hc, if_neg (fun h => hc h.2)]
  rw [hh', ← hrem] at h2
  simp only [Nat.cast_zero] at h3 h4
  have htl := List.length_pos.mpr hne
  have hlenrh : a.rem.length + a.held.length = text.length := by
    rw [← hrem, List.length_append]
  have hremne : 0 < a.rem.length := by
    by_cases hc : post.length ≤ text.length
    · rw [if_pos hc] at hheld; omega
    · rw [if_neg hc] at hheld; omega
  have hlt' : l'.zzCurrentPos < l'.zzEndRead := by
    rw [h4, h2.en]
    simp only [List.length_nil, Nat.zero_add, List.length_append]
    omega
  have hnlt : ¬ (s4.zzCurrentPosL < s4.zzEndReadL) := by
    rw [hsc, hse, hen0]; omega
  obtain ⟨f, hf⟩ : ∃ f, fuel = f + 1 := ⟨fuel - 1, by omega⟩
  have hloop := loop_refill_more l4 s4 f l' hnlt heof h1 hlt'
  obtain ⟨e1, e2, _, _, _, _, e7, _, e9, _⟩ := h5
  dsimp only at e1 e2 e7 e9
  have hrun := run_spec l' ⟨s4.zzAction, l'.zzCurrentPos, l'.zzMarkedPos, l'.zzEndRead,
      l'.zzBuffer⟩ a [] post' fuel st0
    ⟨h2, rfl, rfl, by simp [h3], by simp [h4], le_refl _, Nat.zero_le _⟩
    (by rw [h4]; rfl) (by rw [e7]; exact heof) (by rw [e2]; exact hlex)
    (by rw [e9]; exact hlt) hst (by omega)
  rw [e1] at hrun
  unfold zzRun at hrun ⊢
  rw [hf] at hrun ⊢
  rw [hloop]
  exact hrun

/-- The first pass of a scanner that has read nothing yet, on a text that fits into its
buffer: it is the pass of a scanner that has the whole text in its buffer, with the last
rune held back when the text fills the buffer. -/
theorem lazy_pass (l0 : Lexer) (post text : List Char) (a : Abs) (fuel : Nat)
    (hb : Buf l0 [] [] post 0 text) (hm : l0.zzMarkedPos = 0) (heof : l0.zzAtEOF = false)
    (hlex : l0.zzLexicalState = a.lex) (hlt : l0.ltstr = a.ltstr)
    (hne : text ≠ []) (hlen : text.length ≤ post.length) (hpost : 2 ≤ post.length)
    (htxt : a.txt = [])
    (hrem : a.rem ++ a.held = text)
    (hheld : a.held.length = if post.length ≤ text.length then 1 else 0)
    (hfuel : text.length < fuel) :
    PassSim (yyPass fuel l0 l0.zzEndRead l0.zzBuffer) (absPass a) := by
  have hst0 : l0.zzStartRead = 0 := by rw [hb.st]; rfl
  unfold absPass
  have hg : ¬ (a.held ≠ [] ∧ a.rem = [] ∧ a.txt.getLast? = some CR) := by
    rw [htxt]; simp
  rw [if_neg hg]
  unfold yyPass zzBegin zzCount
  dsimp only
  rw [hm, hst0]
  simp only [sub_self, Int.toNat_zero, zzLineColumn, Bool.false_eq_true, if_false]
  have hx : idx ZZ_LEXSTATE l0.zzLexicalState = idx ZZ_LEXSTATE a.lex := by rw [hlex]
  rw [hx]
  cases hst : idx ZZ_LEXSTATE a.lex with
  | none => exact ⟨_, rfl⟩
  | some st0 =>
    dsimp only
    cases hat : idx ZZ_ATTRIBUTE st0 with
    | none => exact ⟨_, rfl⟩
    | some attr =>
      dsimp only
      refine lazy_run _ _ post text a fuel st0 ?_ rfl rfl rfl rfl heof hlex hlt hst hne hlen
        hpost hrem hheld hfuel
      obtain ⟨b1, b2, b3, b4, b5, b6, b7⟩ := hb
      exact ⟨b1, rfl, b3, b4, b5, b6, b7⟩

/-- A fresh scanner satisfies the buffer invariant. -/
theorem newLexer_buf (text : List Char) (d : Bool) :
    Buf (NewLexer (ofRunes text) d) [] [] (List.replicate ZZ_BUFFERSIZE zeroRune) 0 text := by
  refine ⟨rfl, rfl, rfl, rfl, le_refl _, Or.inr ⟨rfl, ?_⟩, rfl⟩
  intro h
  have := congrArg List.length h
  rw [List.length_replicate] at this
  simp [ZZ_BUFFERSIZE] at this

theorem start_rem_held (text : List Char) :
    (Abs.start text).rem ++ (Abs.start text).held = text := by
  unfold Abs.start
  split_ifs
  · apply dropLast_append_last
  · simp

/-- The first call of `Yylex` on a fresh scanner over a text of at most `ZZ_BUFFERSIZE`
runes follows `absYylex` from `Abs.start`. -/
theorem sim_fresh (text : List Char) (d : Bool) (fuel : Nat)
    (hlen : text.length ≤ ZZ_BUFFERSIZE) (hfuel : text.length < fuel) :
    YySim ((NewLexer (ofRunes text) d).Yylex fuel) (absYylex fuel (Abs.start text)) := by
  have hb := newLexer_buf text d
  have hrh := start_rem_held text
  have hsz : (Abs.start text).rem.length + (Abs.start text).held.length = text.length := by
    rw [← List.length_append, hrh]
  have hlexs : (Abs.start text).lex = YYINITIAL ∧ (Abs.start text).ltstr = [] ∧
      (Abs.start text).txt = [] := by
    unfold Abs.start
    split_ifs <;> exact ⟨rfl, rfl, rfl⟩
  by_cases hne : text = []
  · -- nothing to read
    subst hne
    refine sim_Yylex _ _ fuel ?_ (by rw [hsz]; exact hfuel)
    have hs : Abs.start [] = ⟨YYINITIAL, [], [], [], []⟩ := by
      unfold Abs.start
      rw [if_neg (by simp [ZZ_BUFFERSIZE])]
    rw [hs]
    exact ⟨[], List.replicate ZZ_BUFFERSIZE zeroRune, 0, hb, rfl, rfl, le_refl _, rfl, rfl, rfl⟩
  · obtain ⟨n, hn⟩ : ∃ n, fuel = n + 1 := ⟨fuel - 1, by omega⟩
    unfold Lexer.Yylex
    have hheld : (Abs.start text).held.length
        = if (List.replicate ZZ_BUFFERSIZE zeroRune).length ≤ text.length then 1 else 0 := by
      rw [List.length_replicate]
      unfold Abs.start
      by_cases h : text.length = ZZ_BUFFERSIZE
      · rw [if_pos h, if_pos (by omega)]
        simp only [List.length_drop]
        have := List.length_pos.mpr hne
        omega
      · rw [if_neg h, if_neg (by omega)]
        rfl
    have hp := lazy_pass (NewLexer (ofRunes text) d) (List.replicate ZZ_BUFFERSIZE zeroRune) text
      (Abs.start text) fuel hb rfl rfl hlexs.1.symm hlexs.2.1.symm hne
      (by rw [List.length_replicate]; exact hlen)
      (by rw [List.length_replicate]; simp [ZZ_BUFFERSIZE]) hlexs.2.2 hrh hheld hfuel
    have := sim_yyLoop fuel n _ _ _ (Abs.start text) (by rw [hsz]; exact hfuel) hp
    rw [hn] at this ⊢
    exact this

/-! ## The character classes -/

/-- An entry of the unpacked table lies in one of the runs of the packed one. -/
theorem unpackRuns_get (packed : List Nat) :
    ∀ (off n v : Nat), (unpackRuns packed)[n]? = some v →
      ∃ t ∈ rleRuns packed off, t.1 ≤ off + n ∧ off + n < t.1 + t.2.1 ∧ t.2.2 = v := by
  induction packed using unpackRuns.induct with
  | case1 count value rest ih =>
    intro off n v h
    simp only [unpackRuns] at h
    by_cases hn : n < 1 + (count - 1)
    · refine ⟨(off, 1 + (count - 1), value), by simp [rleRuns], le_add_right (le_refl _), by
        simpa using hn, ?_⟩
      have e : value :: (List.replicate (count - 1) value ++ unpackRuns rest)
          = List.replicate (1 + (count - 1)) value ++ unpackRuns rest := by
        rw [Nat.add_comm, List.replicate_succ]; rfl
      rw [e, List.getElem?_append_left (by simpa using hn)] at h
      rw [List.getElem?_replicate, if_pos hn] at h
      simpa using h
    · have e : value :: (List.replicate (count - 1) value ++ unpackRuns rest)
          = List.replicate (1 + (count - 1)) value ++ unpackRuns rest := by
        rw [Nat.add_comm, List.replicate_succ]; rfl
      rw [e, List.getElem?_append_right (by simpa using hn)] at h
      simp only [List.length_replicate] at h
      obtain ⟨t, ht, h1, h2, h3⟩ := ih (off + (1 + (count - 1))) (n - (1 + (count - 1))) v h
      refine ⟨t, by simp [rleRuns, ht], by omega, by omega, h3⟩
  | case2 packed hp =>
    intro off n v h
    have : unpackRuns packed = [] := by
      unfold unpackRuns
      split
      · exact absurd rfl (hp _ _ _)
      · rfl
    rw [this] at h
    simp at h

theorem unpackRuns_length (packed : List Nat) :
    (unpackRuns packed).length = ((rleRuns packed 0).map (fun t => t.2.1)).sum := by
  have key : ∀ off, (unpackRuns packed).length = ((rleRuns packed off).map (fun t => t.2.1)).sum := by
    induction packed using unpackRuns.induct with
    | case1 count value rest ih =>
      intro off
      simp only [unpackRuns, rleRuns, List.length_cons, List.length_append, List.length_replicate,
        List.map_cons, List.sum_cons]
      rw [ih (off + (1 + (count - 1)))]
      omega
    | case2 packed hp =>
      intro off
      have h1 : unpackRuns packed = [] := by
        unfold unpackRuns
        split
        · exact absurd rfl (hp _ _ _)
        · rfl
      have h2 : rleRuns packed off = [] := by
        unfold rleRuns
        split
        · exact absurd rfl (hp _ _ _)
        · rfl
      rw [h1, h2]; rfl
  exact key 0

theorem cmap_runs_sum :
    ((rleRuns (ZZ_CMAP_PACKED.take 208) 0).map (fun t => t.2.1)).sum = 0x110000 := by
  decide!

/-- The class of a rune is the value of the run of `ZZ_CMAP_PACKED` it lies in. -/
theorem cmap_run (r : Char) :
    ∃ t ∈ rleRuns (ZZ_CMAP_PACKED.take 208) 0, t.1 ≤ r.toNat ∧ r.toNat < t.1 + t.2.1 ∧
      cmap r = some t.2.2 := by
  have hlen : (unpackRuns (ZZ_CMAP_PACKED.take 208)).length = 0x110000 := by
    rw [unpackRuns_length, cmap_runs_sum]
  have hr : r.toNat < 0x110000 := by
    have h := r.valid
    have h5 : r.val.toNat < 0xD800 ∨ (0xDFFF < r.val.toNat ∧ r.val.toNat < 0x110000) := h
    have h2 : r.toNat = r.val.toNat := rfl
    omega
  have hget : cmap r = (unpackRuns (ZZ_CMAP_PACKED.take 208))[r.toNat]? := by
    unfold cmap ZZ_CMAP zzUnpackCMap writeAt
    rw [List.get?_eq_getElem?, List.take_zero, List.nil_append,
      List.getElem?_append_left (by rw [hlen]; exact hr)]
  obtain ⟨v, hsome⟩ : ∃ v, (unpackRuns (ZZ_CMAP_PACKED.take 208))[r.toNat]? = some v :=
    ⟨_, List.getElem?_eq_getElem (by rw [hlen]; exact hr)⟩
  obtain ⟨t, ht, h1, h2, h3⟩ := unpackRuns_get _ 0 r.toNat _ hsome
  refine ⟨t, ht, by omega, by omega, ?_⟩
  rw [hget, hsome, h3]

/-- Every rune has a class below 32; the classes 1 to 6 are those of the single quote,
the double quote, the slash, the star and the two square brackets. -/
theorem cmap_cases (r : Char) :
    ∃ k, cmap r = some k ∧ k < 32 ∧ (k = 1 ↔ r.toNat = 39) ∧ (k = 2 ↔ r.toNat = 34) ∧
      (k = 3 ↔ r.toNat = 47) ∧ (k = 4 ↔ r.toNat = 42) ∧ (k = 5 ↔ r.toNat = 91) ∧
      (k = 6 ↔ r.toNat = 93) := by
  have hall : ∀ t ∈ rleRuns (ZZ_CMAP_PACKED.take 208) 0,
      t.2.2 < 32 ∧
      (t.2.2 = 1 → t.1 = 39 ∧ t.2.1 = 1) ∧ (39 < t.1 ∨ t.1 + t.2.1 ≤ 39 ∨ t.2.2 = 1) ∧
      (t.2.2 = 2 → t.1 = 34 ∧ t.2.1 = 1) ∧ (34 < t.1 ∨ t.1 + t.2.1 ≤ 34 ∨ t.2.2 = 2) ∧
      (t.2.2 = 3 → t.1 = 47 ∧ t.2.1 = 1) ∧ (47 < t.1 ∨ t.1 + t.2.1 ≤ 47 ∨ t.2.2 = 3) ∧
      (t.2.2 = 4 → t.1 = 42 ∧ t.2.1 = 1) ∧ (42 < t.1 ∨ t.1 + t.2.1 ≤ 42 ∨ t.2.2 = 4) ∧
      (t.2.2 = 5 → t.1 = 91 ∧ t.2.1 = 1) ∧ (91 < t.1 ∨ t.1 + t.2.1 ≤ 91 ∨ t.2.2 = 5) ∧
      (t.2.2 = 6 → t.1 = 93 ∧ t.2.1 = 1) ∧ (93 < t.1 ∨ t.1 + t.2.1 ≤ 93 ∨ t.2.2 = 6) := by
    decide!
  obtain ⟨t, ht, h1, h2, h3⟩ := cmap_run r
  obtain ⟨a0, a1, b1, a2, b2, a3, b3, a4, b4, a5, b5, a6, b6⟩ := hall t ht
  refine ⟨t.2.2, h3, a0, ?_, ?_, ?_, ?_, ?_, ?_⟩
  · constructor
    · intro h; have := a1 h; omega
    · intro h; omega
  · constructor
    · intro h; have := a2 h; omega
    · intro h; omega
  · constructor
    · intro h; have := a3 h; omega
    · intro h; omega
  · constructor
    · intro h; have := a4 h; omega
    · intro h; omega
  · constructor
    · intro h; have := a5 h; omega
    · intro h; omega
  · constructor
    · intro h; have := a6 h; omega
    · intro h; omega

/-- The runes between `lo` and `hi` have one of the classes `ks`, when every run of
`ZZ_CMAP_PACKED` that meets the range has one of them. -/
theorem cmap_range (lo hi : Nat) (ks : List Nat)
    (hcheck : ∀ t ∈ rleRuns (ZZ_CMAP_PACKED.take 208) 0,
      t.1 + t.2.1 ≤ lo ∨ hi < t.1 ∨ t.2.2 ∈ ks)
    (r : Char) (h1 : lo ≤ r.toNat) (h2 : r.toNat ≤ hi) : inClasses ks r := by
  obtain ⟨t, ht, a1, a2, a3⟩ := cmap_run r
  rcases hcheck t ht with h | h | h
  · omega
  · omega
  · exact ⟨t.2.2, h, a3⟩

theorem zzNext_eq (st : Int) (r : Char) (k : Nat) (h : cmap r = some k) :
    zzNext st r = trans st k := by
  unfold zzNext trans
  unfold cmap at h
  rw [h]
  cases idx ZZ_ROWMAP st <;> rfl

/-- A run of the DFA over runes that keep it inside a set of accepting states with
lookahead reads them all. -/
theorem dfaRun_accepting (src tgt : List Int) (ks : List Nat)
    (hstep : ∀ st ∈ src, ∀ k ∈ ks, stepsInto tgt st k = true)
    (hsub : ∀ st ∈ tgt, st ∈ src) (cs : List Char) :
    ∀ (st a : Int) (m c : Nat), st ∈ src → (∀ x ∈ cs, inClasses ks x) →
      ∃ st', (cs = [] → st' = st) ∧ (cs ≠ [] → st' ∈ tgt) ∧
        dfaRun st a m c cs = some (none, st', (if cs = [] then a else st'),
          (if cs = [] then m else c + cs.length), c + cs.length) := by
  induction cs with
  | nil =>
    intro st a m c _ _
    exact ⟨st, fun _ => rfl, fun h => absurd rfl h, by simp [dfaRun]⟩
  | cons x xs ih =>
    intro st a m c hst hcs
    obtain ⟨k, hk, hkx⟩ := hcs x (List.mem_cons_self _ _)
    have hs := hstep st hst k hk
    unfold stepsInto at hs
    cases htr : trans st k with
    | none => rw [htr] at hs; simp at hs
    | some next =>
      rw [htr] at hs
      simp only [Bool.and_eq_true, decide_eq_true_eq] at hs
      obtain ⟨⟨hn1, hat⟩, hmem⟩ := hs
      obtain ⟨st', h1, h2, h3⟩ := ih next next (c + 1) (c + 1) (hsub next hmem)
        (fun y hy => hcs y (List.mem_cons_of_mem _ hy))
      refine ⟨st', fun h => absurd h (by simp), fun _ => ?_, ?_⟩
      · by_cases hxs : xs = []
        · rw [h1 hxs]; exact hmem
        · exact h2 hxs
      · simp only [dfaRun]
        rw [zzNext_eq st x k hkx, htr]
        dsimp only
        rw [if_neg hn1, hat]
        dsimp only
        have e1 : (1 : Int).toNat &&& 1 = 1 := by decide
        have e8 : ¬ ((1 : Int).toNat &&& 8 = 8) := by decide
        rw [if_pos e1, if_neg e8, h3]
        have hne : ¬ (x :: xs = []) := by simp
        rw [if_neg hne, if_neg hne]
        by_cases hxs : xs = []
        · subst hxs
          rw [h1 rfl]
          simp
        · rw [if_neg hxs, if_neg hxs]
          simp only [List.length_cons]
          have e : c + 1 + xs.length = c + (xs.length + 1) := by omega
          rw [e]

/-! ## Numbers -/

theorem absYylex_succ_of_ne_again (n : Nat) (a : Abs) (out : AbsOut)
    (h : absPass a = out) (hne : ∀ a', out ≠ .again a') : absYylex (n + 1) a = out := by
  rw [absYylex, h]
  cases out with
  | again a' => exact absurd rfl (hne a')
  | _ => rfl

theorem absYylex_succ_again (n : Nat) (a a' : Abs) (h : absPass a = .again a') :
    absYylex (n + 1) a = absYylex n a' := by
  rw [absYylex, h]

theorem digit_class (r : Char) (h : r.isDigit = true) : inClasses [11, 16] r := by
  have hr : 48 ≤ r.toNat ∧ r.toNat ≤ 57 := by
    unfold Char.isDigit at h
    simp only [Bool.and_eq_true, decide_eq_true_eq] at h
    have h1 : (48 : UInt32) ≤ r.val := h.1
    have h2 : r.val ≤ (57 : UInt32) := h.2
    have e : r.toNat = r.val.toNat := rfl
    rw [e]
    exact ⟨h1, h2⟩
  exact cmap_range 48 57 [11, 16] (by decide!) r hr.1 hr.2

theorem int_steps : ∀ st ∈ ([0, 18, 21] : List Int), ∀ k ∈ ([11, 16] : List Nat),
    stepsInto [18, 21] st k = true := by decide!

/-- The DFA run over a run of digits, from the start state of `YYINITIAL`. -/
theorem dfaRun_digits (ds : List Char) (hne : ds ≠ []) (hdig : ∀ x ∈ ds, x.isDigit = true) :
    ∃ st', (st' = 18 ∨ st' = 21) ∧
      dfaRun 0 (-1) 0 0 ds = some (none, st', st', ds.length, ds.length) := by
  obtain ⟨st', _, h2, h3⟩ := dfaRun_accepting [0, 18, 21] [18, 21] [11, 16] int_steps
    (by decide) ds 0 (-1) 0 0 (by decide) (fun x hx => digit_class x (hdig x hx))
  rw [if_neg hne, if_neg hne, Nat.zero_add] at h3
  have := h2 hne
  simp only [List.mem_cons, List.mem_singleton, List.not_mem_nil, or_false] at this
  exact ⟨st', this, h3⟩

/-- A pass of `Yylex` in `YYINITIAL` over a run of digits that ends the input: the `INT`
token of the run. -/
theorem absPass_digits (ds lt txt held : List Char) (hne : ds ≠ [])
    (hdig : ∀ x ∈ ds, x.isDigit = true) :
    absPass ⟨YYINITIAL, lt, txt, ds, held⟩
      = .token (newLVal ds .INT) ⟨YYINITIAL, lt, ds, held, []⟩ := by
  obtain ⟨st', hst', hrun⟩ := dfaRun_digits ds hne hdig
  have hlen := List.length_pos.mpr hne
  unfold absPass
  have hg : ¬ (held ≠ [] ∧ ds = [] ∧ txt.getLast? = some CR) := fun h => hne h.2.1
  dsimp only
  rw [if_neg hg]
  have h0 : idx ZZ_LEXSTATE YYINITIAL = some 0 := by decide
  have h1 : idx ZZ_ATTRIBUTE 0 = some 0 := by decide!
  rw [h0]
  dsimp only
  rw [h1]
  dsimp only
  have e1 : ¬ ((0 : Int).toNat &&& 1 = 1) := by decide
  rw [if_neg e1]
  unfold absRun
  dsimp only
  rw [hrun]
  dsimp only
  have hc : ¬ ((none : Option Char) = none ∧ ds.length = 0) := by
    intro h; omega
  rw [if_neg hc]
  have hact : (if st' < 0 then some st' else idx ZZ_ACTION st') = some 6 := by
    rcases hst' with h | h <;> subst h <;> decide!
  rw [hact]
  dsimp only
  rw [if_pos rfl]
  simp [absAction, zzActionSwitch, Abs.user, newLVal, Lexer.zero]

/-- A run of fewer than `ZZ_BUFFERSIZE` digits followed by the end of input is a single
`INT` token. -/
theorem Yylex_int_run (ds : List Char) (d : Bool) (fuel : Nat) (hne : ds ≠ [])
    (hdig : ∀ x ∈ ds, x.isDigit = true) (hlen : ds.length < ZZ_BUFFERSIZE)
    (hfuel : ds.length < fuel) :
    ((NewLexer (ofRunes ds) d).Yylex fuel).1 = .token (newLVal ds .INT) := by
  have hsim := sim_fresh ds d fuel (by omega) hfuel
  obtain ⟨n, hn⟩ : ∃ n, fuel = n + 1 := ⟨fuel - 1, by omega⟩
  have hstart : Abs.start ds = ⟨YYINITIAL, [], [], ds, []⟩ := by
    unfold Abs.start
    rw [if_neg (by omega)]
  rw [hstart, hn, absYylex_succ_of_ne_again n _ _ (absPass_digits ds [] [] [] hne hdig)
    (by simp)] at hsim
  rw [hn]
  exact hsim.1

/-- A run of exactly `ZZ_BUFFERSIZE` digits is split: the first call of `Yylex` returns
an `INT` token without the last digit. -/
theorem Yylex_int_run_full (ds : List Char) (d : Bool) (fuel : Nat)
    (hdig : ∀ x ∈ ds, x.isDigit = true) (hlen : ds.length = ZZ_BUFFERSIZE)
    (hfuel : ds.length < fuel) :
    ((NewLexer (ofRunes ds) d).Yylex fuel).1 = .token (newLVal ds.dropLast .INT) := by
  have hsim := sim_fresh ds d fuel (by omega) hfuel
  obtain ⟨n, hn⟩ : ∃ n, fuel = n + 1 := ⟨fuel - 1, by omega⟩
  have hstart : Abs.start ds
      = ⟨YYINITIAL, [], [], ds.dropLast, ds.drop (ds.length - 1)⟩ := by
    unfold Abs.start
    rw [if_pos hlen]
  have hne : ds.dropLast ≠ [] := by
    intro h
    have := congrArg List.length h
    rw [List.length_dropLast, hlen] at this
    simp [ZZ_BUFFERSIZE] at this
  have hdig' : ∀ x ∈ ds.dropLast, x.isDigit = true :=
    fun x hx => hdig x (List.mem_of_mem_dropLast hx)
  rw [hstart, hn, absYylex_succ_of_ne_again n _ _
    (absPass_digits ds.dropLast [] [] _ hne hdig') (by simp)] at hsim
  rw [hn]
  exact hsim.1

/-! ## Single steps of the DFA -/

/-- A step of the DFA run into a state that is not accepting. -/
theorem dfaRun_through (st a : Int) (m c : Nat) (x : Char) (xs : List Char) (k : Nat)
    (next : Int) (hk : cmap x = some k) (ht : trans st k = some next) (hn : next ≠ -1)
    (hat : idx ZZ_ATTRIBUTE next = some 0) :
    dfaRun st a m c (x :: xs) = dfaRun next a m (c + 1) xs := by
  simp only [dfaRun]
  rw [zzNext_eq st x k hk, ht]
  dsimp only
  rw [if_neg hn, hat]
  dsimp only
  have e1 : ¬ ((0 : Int).toNat &&& 1 = 1) := by decide
  rw [if_neg e1]

/-- A step of the DFA run into an accepting state with lookahead. -/
theorem dfaRun_accept (st a : Int) (m c : Nat) (x : Char) (xs : List Char) (k : Nat)
    (next : Int) (hk : cmap x = some k) (ht : trans st k = some next) (hn : next ≠ -1)
    (hat : idx ZZ_ATTRIBUTE next = some 1) :
    dfaRun st a m c (x :: xs) = dfaRun next next (c + 1) (c + 1) xs := by
  simp only [dfaRun]
  rw [zzNext_eq st x k hk, ht]
  dsimp only
  rw [if_neg hn, hat]
  dsimp only
  have e1 : (1 : Int).toNat &&& 1 = 1 := by decide
  have e8 : ¬ ((1 : Int).toNat &&& 8 = 8) := by decide
  rw [if_pos e1, if_neg e8]

/-- A step of the DFA run into an accepting state without lookahead ends the run. -/
theorem dfaRun_final (st a : Int) (m c : Nat) (x : Char) (xs : List Char) (k : Nat)
    (next : Int) (hk : cmap x = some k) (ht : trans st k = some next) (hn : next ≠ -1)
    (hat : idx ZZ_ATTRIBUTE next = some 9) :
    dfaRun st a m c (x :: xs) = some (some x, next, next, c + 1, c + 1) := by
  simp only [dfaRun]
  rw [zzNext_eq st x k hk, ht]
  dsimp only
  rw [if_neg hn, hat]
  dsimp only
  have e1 : (9 : Int).toNat &&& 1 = 1 := by decide
  have e8 : (9 : Int).toNat &&& 8 = 8 := by decide
  rw [if_pos e1, if_pos e8]

/-- A rune without a transition ends the run. -/
theorem dfaRun_stop (st a : Int) (m c : Nat) (x : Char) (xs : List Char) (k : Nat)
    (hk : cmap x = some k) (ht : trans st k = some (-1)) :
    dfaRun st a m c (x :: xs) = some (some x, st, a, m, c + 1) := by
  simp only [dfaRun]
  rw [zzNext_eq st x k hk, ht]
  dsimp only
  rw [if_pos rfl]

/-! ## Passes in terms of `Abs` -/

/-- A pass over a non-empty rest of the text, from the result of its DFA run. -/
theorem absPass_of_run (a : Abs) (st0 attr : Int) (inp : Option Char) (st' act : Int)
    (m c : Nat) (action : Int)
    (h0 : idx ZZ_LEXSTATE a.lex = some st0) (h1 : idx ZZ_ATTRIBUTE st0 = some attr)
    (hne : a.rem ≠ [])
    (hrun : dfaRun st0 (if attr.toNat &&& 1 = 1 then st0 else -1) 0 0 a.rem
      = some (inp, st', act, m, c))
    (hact : (if act < 0 then some act else idx ZZ_ACTION act) = some action) :
    absPass a =
      if inp = none then absAction action (a.rem.take m) a (a.rem.drop m ++ a.held) []
      else absAction action (a.rem.take m) a (a.rem.drop m) a.held := by
  have hb := dfaRun_bounds a.rem _ _ 0 0 inp st' act m c hrun (le_refl _)
  have hlen := List.length_pos.mpr hne
  unfold absPass
  have hg : ¬ (a.held ≠ [] ∧ a.rem = [] ∧ a.txt.getLast? = some CR) := fun h => hne h.2.1
  rw [if_neg hg, h0]
  dsimp only
  rw [h1]
  dsimp only
  unfold absRun
  rw [hrun]
  dsimp only
  have hc : ¬ (inp = none ∧ c = 0) := by
    intro h
    have := hb.2.2.2 h.1
    omega
  rw [if_neg hc, hact]

/-- A pass at the end of the text: the end-of-input switch. -/
theorem absPass_end (a : Abs) (st0 attr : Int)
    (h0 : idx ZZ_LEXSTATE a.lex = some st0) (h1 : idx ZZ_ATTRIBUTE st0 = some attr)
    (hrem : a.rem = []) (hg : a.held = [] ∨ a.txt.getLast? ≠ some CR) :
    absPass a = absEof a.lex := by
  unfold absPass
  have hg' : ¬ (a.held ≠ [] ∧ a.rem = [] ∧ a.txt.getLast? = some CR) := by
    intro h
    rcases hg with h' | h'
    · exact h.1 h'
    · exact h' h.2.2
  rw [if_neg hg', h0]
  dsimp only
  rw [h1]
  dsimp only
  unfold absRun
  rw [hrem]
  simp [dfaRun]

/-- The actions that return the matched text as a token. -/
theorem absAction_text (action : Int) (kind : Kind)
    (hk : (action, kind) ∈ [((1 : Int), Kind.NORMAL), (4, .NORMAL), (5, .NORMAL), (6, .INT),
      (7, .WHITESPACE_OR_COMMENT), (26, .DECIMAL), (27, .DOUBLE), (28, .NORMAL),
      (29, .NORMAL), (30, .NORMAL), (36, .NORMAL), (37, .HEX_INT), (42, .NORMAL),
      (43, .NORMAL)])
    (text : List Char) (a : Abs) (rem held : List Char) :
    absAction action text a rem held
      = .token (newLVal text kind) ⟨a.lex, a.ltstr, text, rem, held⟩ := by
  simp only [List.mem_cons, Prod.mk.injEq, List.mem_singleton, List.not_mem_nil, or_false] at hk
  rcases hk with h | h | h | h | h | h | h | h | h | h | h | h | h | h <;>
    (obtain ⟨h1, h2⟩ := h; subst h1; subst h2;
     simp [absAction, zzActionSwitch, Abs.user, newLVal, Lexer.zero])

/-! ## Texts that are one token -/

/-- The kinds of the actions that return the matched text as a token. -/
theorem absPass_whole (a : Abs) (action : Int) (kind : Kind) (act : Int)
    (hlex : a.lex = YYINITIAL) (hne : a.rem ≠ [])
    (hrun : ∃ st', dfaRun 0 (-1) 0 0 a.rem = some (none, st', act, a.rem.length, a.rem.length))
    (hact : (if act < 0 then some act else idx ZZ_ACTION act) = some action)
    (hk : (action, kind) ∈ [((1 : Int), Kind.NORMAL), (4, .NORMAL), (5, .NORMAL), (6, .INT),
      (7, .WHITESPACE_OR_COMMENT), (26, .DECIMAL), (27, .DOUBLE), (28, .NORMAL),
      (29, .NORMAL), (30, .NORMAL), (36, .NORMAL), (37, .HEX_INT), (42, .NORMAL),
      (43, .NORMAL)]) :
    absPass a = .token (newLVal a.rem kind) ⟨YYINITIAL, a.ltstr, a.rem, a.held, []⟩ := by
  obtain ⟨st', hrun⟩ := hrun
  have h0 : idx ZZ_LEXSTATE a.lex = some 0 := by rw [hlex]; decide
  have h1 : idx ZZ_ATTRIBUTE 0 = some 0 := by decide!
  have e1 : (if (0 : Int).toNat &&& 1 = 1 then (0 : Int) else -1) = -1 := by decide
  rw [absPass_of_run a 0 0 none st' act _ _ action h0 h1 hne (by rw [e1]; exact hrun) hact,
    if_pos rfl, List.take_length, List.drop_length, List.nil_append,
    absAction_text action kind hk, hlex]

/-- A text of fewer than `ZZ_BUFFERSIZE` runes that the DFA reads to its end from the
start state of `YYINITIAL`, ending in a state whose action returns the matched text:
the first call of `Yylex` returns the whole text as one token. -/
theorem Yylex_whole (text : List Char) (d : Bool) (fuel : Nat) (action : Int) (kind : Kind)
    (act : Int) (hne : text ≠ []) (hlen : text.length < ZZ_BUFFERSIZE)
    (hfuel : text.length < fuel)
    (hrun : ∃ st', dfaRun 0 (-1) 0 0 text = some (none, st', act, text.length, text.length))
    (hact : (if act < 0 then some act else idx ZZ_ACTION act) = some action)
    (hk : (action, kind) ∈ [((1 : Int), Kind.NORMAL), (4, .NORMAL), (5, .NORMAL), (6, .INT),
      (7, .WHITESPACE_OR_COMMENT), (26, .DECIMAL), (27, .DOUBLE), (28, .NORMAL),
      (29, .NORMAL), (30, .NORMAL), (36, .NORMAL), (37, .HEX_INT), (42, .NORMAL),
      (43, .NORMAL)]) :
    ((NewLexer (ofRunes text) d).Yylex fuel).1 = .token (newLVal text kind) ∧
      Sim ((NewLexer (ofRunes text) d).Yylex fuel).2 ⟨YYINITIAL, [], text, [], []⟩ := by
  have hsim := sim_fresh text d fuel (by omega) hfuel
  obtain ⟨n, hn⟩ : ∃ n, fuel = n + 1 := ⟨fuel - 1, by omega⟩
  have hstart : Abs.start text = ⟨YYINITIAL, [], [], text, []⟩ := by
    unfold Abs.start
    rw [if_neg (by omega)]
  rw [hstart, hn, absYylex_succ_of_ne_again n _ _
    (absPass_whole ⟨YYINITIAL, [], [], text, []⟩ action kind act rfl hne hrun hact hk)
    (by simp)] at hsim
  rw [hn]
  exact hsim

/-- A text of exactly `ZZ_BUFFERSIZE` runes: the first call of `Yylex` sees the text
without its last rune. -/
theorem Yylex_whole_full (text : List Char) (d : Bool) (fuel : Nat) (action : Int)
    (kind : Kind) (act : Int) (hlen : text.length = ZZ_BUFFERSIZE)
    (hfuel : text.length < fuel)
    (hrun : ∃ st', dfaRun 0 (-1) 0 0 text.dropLast
      = some (none, st', act, text.dropLast.length, text.dropLast.length))
    (hact : (if act < 0 then some act else idx ZZ_ACTION act) = some action)
    (hk : (action, kind) ∈ [((1 : Int), Kind.NORMAL), (4, .NORMAL), (5, .NORMAL), (6, .INT),
      (7, .WHITESPACE_OR_COMMENT), (26, .DECIMAL), (27, .DOUBLE), (28, .NORMAL),
      (29, .NORMAL), (30, .NORMAL), (36, .NORMAL), (37, .HEX_INT), (42, .NORMAL),
      (43, .NORMAL)]) :
    ((NewLexer (ofRunes text) d).Yylex fuel).1 = .token (newLVal text.dropLast kind) ∧
      Sim ((NewLexer (ofRunes text) d).Yylex fuel).2
        ⟨YYINITIAL, [], text.dropLast, text.drop (text.length - 1), []⟩ := by
  have hsim := sim_fresh text d fuel (by omega) hfuel
  obtain ⟨n, hn⟩ : ∃ n, fuel = n + 1 := ⟨fuel - 1, by omega⟩
  have hstart : Abs.start text
      = ⟨YYINITIAL, [], [], text.dropLast, text.drop (text.length - 1)⟩ := by
    unfold Abs.start
    rw [if_pos hlen]
  have hne : text.dropLast ≠ [] := by
    intro h
    have := congrArg List.length h
    rw [List.length_dropLast, hlen] at this
    simp [ZZ_BUFFERSIZE] at this
  rw [hstart, hn, absYylex_succ_of_ne_again n _ _
    (absPass_whole ⟨YYINITIAL, [], [], text.dropLast, text.drop (text.length - 1)⟩
      action kind act rfl hne hrun hact hk) (by simp)] at hsim
  rw [hn]
  exact hsim

/-- A call of `Yylex` in `YYINITIAL` when the whole text is matched returns the
end-of-input signal. -/
theorem Yylex_at_end (l : Lexer) (lt txt : List Char) (fuel : Nat)
    (hsim : Sim l ⟨YYINITIAL, lt, txt, [], []⟩) (hfuel : 0 < fuel) :
    (l.Yylex fuel).1 = .eof := by
  have h := sim_Yylex l _ fuel hsim (by simpa using hfuel)
  obtain ⟨n, hn⟩ : ∃ n, fuel = n + 1 := ⟨fuel - 1, by omega⟩
  have hp : absPass ⟨YYINITIAL, lt, txt, [], []⟩ = .eof := by
    have h0 : idx ZZ_LEXSTATE YYINITIAL = some 0 := by decide
    have h1 : idx ZZ_ATTRIBUTE 0 = some 0 := by decide!
    rw [absPass_end _ 0 0 h0 h1 rfl (Or.inl rfl)]
    show absEof YYINITIAL = .eof
    decide
  rw [hn, absYylex_succ_of_ne_again n _ _ hp (by simp)] at h
  rw [hn]
  exact h.1

/-! ## Numeric literals -/

theorem class_of (lo hi k : Nat)
    (hcheck : ∀ t ∈ rleRuns (ZZ_CMAP_PACKED.take 208) 0,
      t.1 + t.2.1 ≤ lo ∨ hi < t.1 ∨ t.2.2 ∈ [k])
    (r : Char) (h1 : lo ≤ r.toNat) (h2 : r.toNat ≤ hi) : cmap r = some k := by
  obtain ⟨k', hk, h⟩ := cmap_range lo hi [k] hcheck r h1 h2
  rw [List.mem_singleton] at hk
  rw [h, hk]

theorem isDigit_toNat (r : Char) (h : r.isDigit = true) : 48 ≤ r.toNat ∧ r.toNat ≤ 57 := by
  unfold Char.isDigit at h
  simp only [Bool.and_eq_true, decide_eq_true_eq] at h
  have h1 : (48 : UInt32) ≤ r.val := h.1
  have h2 : r.val ≤ (57 : UInt32) := h.2
  exact ⟨h1, h2⟩

theorem hex_class (r : Char) (h : hexDigit r = true) : inClasses [8, 11, 16, 17, 18, 20] r := by
  unfold hexDigit at h
  simp only [Bool.or_eq_true, Bool.and_eq_true, decide_eq_true_eq] at h
  rcases h with (h | h) | h
  · have := isDigit_toNat r h
    exact cmap_range 48 57 _ (by decide!) r this.1 this.2
  · exact cmap_range 97 102 _ (by decide!) r h.1 h.2
  · exact cmap_range 65 70 _ (by decide!) r h.1 h.2

theorem zero_class : cmap '0' = some 16 := class_of 48 48 16 (by decide!) '0' (by decide) (by decide)

theorem x_class (r : Char) (h : r = 'x' ∨ r = 'X') : cmap r = some 9 := by
  rcases h with h | h <;> subst h
  · exact class_of 120 120 9 (by decide!) 'x' (by decide) (by decide)
  · exact class_of 88 88 9 (by decide!) 'X' (by decide) (by decide)

theorem dot_class : cmap '.' = some 14 := class_of 46 46 14 (by decide!) '.' (by decide) (by decide)

theorem e_class (r : Char) (h : r = 'e' ∨ r = 'E') : cmap r = some 18 := by
  rcases h with h | h <;> subst h
  · exact class_of 101 101 18 (by decide!) 'e' (by decide) (by decide)
  · exact class_of 69 69 18 (by decide!) 'E' (by decide) (by decide)

theorem sign_class (r : Char) (h : r = '+' ∨ r = '-') : inClasses [19, 23] r := by
  rcases h with h | h <;> subst h
  · exact cmap_range 43 43 _ (by decide!) '+' (by decide) (by decide)
  · exact cmap_range 45 45 _ (by decide!) '-' (by decide) (by decide)

theorem hex_steps : ∀ st ∈ ([54, 73] : List Int), ∀ k ∈ ([8, 11, 16, 17, 18, 20] : List Nat),
    stepsInto [73] st k = true := by decide!

/-- The DFA run over `0x` and hexadecimal digits. -/
theorem dfaRun_hex (x : Char) (hs : List Char) (hx : x = 'x' ∨ x = 'X') (hne : hs ≠ [])
    (hhex : ∀ r ∈ hs, hexDigit r = true) :
    dfaRun 0 (-1) 0 0 ('0' :: x :: hs)
      = some (none, 73, 73, ('0' :: x :: hs).length, ('0' :: x :: hs).length) := by
  rw [dfaRun_accept 0 (-1) 0 0 '0' _ 16 21 zero_class (by decide!) (by decide) (by decide!),
    dfaRun_through 21 21 1 1 x _ 9 54 (x_class x hx) (by decide!) (by decide) (by decide!)]
  obtain ⟨st', _, h2, h3⟩ := dfaRun_accepting [54, 73] [73] [8, 11, 16, 17, 18, 20] hex_steps
    (by decide) hs 54 21 1 2 (by decide) (fun r hr => hex_class r (hhex r hr))
  have := h2 hne
  rw [List.mem_singleton] at this
  subst this
  rw [if_neg hne, if_neg hne] at h3
  rw [h3]
  simp only [List.length_cons]
  have e : 1 + 1 + hs.length = hs.length + 1 + 1 := by omega
  rw [e]

/-- Below the buffer size, `0x` or `0X` and one or more hexadecimal digits are one
`HEX_INT` token, and the next call returns the end-of-input signal. -/
theorem Yylex_hex (x : Char) (hs : List Char) (d : Bool) (fuel : Nat)
    (hx : x = 'x' ∨ x = 'X') (hne : hs ≠ []) (hhex : ∀ r ∈ hs, hexDigit r = true)
    (hlen : ('0' :: x :: hs).length < ZZ_BUFFERSIZE) (hfuel : ('0' :: x :: hs).length < fuel) :
    ((NewLexer (ofRunes ('0' :: x :: hs)) d).Yylex fuel).1
        = .token (newLVal ('0' :: x :: hs) .HEX_INT) ∧
      (((NewLexer (ofRunes ('0' :: x :: hs)) d).Yylex fuel).2.Yylex fuel).1 = .eof := by
  have h := Yylex_whole ('0' :: x :: hs) d fuel 37 .HEX_INT 73 (by simp) hlen hfuel
    ⟨73, dfaRun_hex x hs hx hne hhex⟩ (by decide!) (by decide)
  exact ⟨h.1, Yylex_at_end _ _ _ fuel h.2 (by omega)⟩

/-- A run of the DFA that reads a text to its end goes on with the text after it. -/
theorem dfaRun_append (xs ys : List Char) :
    ∀ (st a : Int) (m c : Nat) (st' a' : Int) (m' c' : Nat),
      dfaRun st a m c xs = some (none, st', a', m', c') →
      dfaRun st a m c (xs ++ ys) = dfaRun st' a' m' c' ys := by
  induction xs with
  | nil =>
    intro st a m c st' a' m' c' h
    simp only [dfaRun, Option.some.injEq, Prod.mk.injEq, true_and] at h
    obtain ⟨h1, h2, h3, h4⟩ := h
    subst h1; subst h2; subst h3; subst h4
    rfl
  | cons x xs ih =>
    intro st a m c st' a' m' c' h
    rw [List.cons_append]
    simp only [dfaRun] at h ⊢
    cases hz : zzNext st x with
    | none => rw [hz] at h; simp at h
    | some next =>
      rw [hz] at h
      dsimp only at h ⊢
      by_cases hn : next = -1
      · rw [if_pos hn] at h; simp at h
      · rw [if_neg hn] at h ⊢
        cases hat : idx ZZ_ATTRIBUTE next with
        | none => rw [hat] at h; simp at h
        | some attr =>
          rw [hat] at h
          dsimp only at h ⊢
          by_cases h1 : attr.toNat &&& 1 = 1
          · rw [if_pos h1] at h ⊢
            by_cases h8 : attr.toNat &&& 8 = 8
            · rw [if_pos h8] at h; simp at h
            · rw [if_neg h8] at h ⊢
              exact ih _ _ _ _ _ _ _ _ h
          · rw [if_neg h1] at h ⊢
            exact ih _ _ _ _ _ _ _ _ h

theorem frac_steps : ∀ st ∈ ([47, 52] : List Int), ∀ k ∈ ([11, 16] : List Nat),
    stepsInto [52] st k = true := by decide!

theorem exp_steps : ∀ st ∈ ([48, 72, 71] : List Int), ∀ k ∈ ([11, 16] : List Nat),
    stepsInto [71] st k = true := by decide!

/-- The DFA run over digits, a point and digits. -/
theorem dfaRun_decimal (ds fs : List Char) (hne : ds ≠ [])
    (hds : ∀ x ∈ ds, x.isDigit = true) (hfs : ∀ x ∈ fs, x.isDigit = true) :
    ∃ st', (st' = 47 ∨ st' = 52) ∧ dfaRun 0 (-1) 0 0 (ds ++ '.' :: fs)
      = some (none, st', st', (ds ++ '.' :: fs).length, (ds ++ '.' :: fs).length) := by
  obtain ⟨s1, hs1, hrun⟩ := dfaRun_digits ds hne hds
  rw [dfaRun_append ds _ 0 (-1) 0 0 s1 s1 _ _ hrun]
  have hstep : dfaRun s1 s1 ds.length ds.length ('.' :: fs)
      = dfaRun 47 47 (ds.length + 1) (ds.length + 1) fs := by
    rcases hs1 with h | h <;> subst h
    · exact dfaRun_accept 18 18 _ _ '.' fs 14 47 dot_class (by decide!) (by decide) (by decide!)
    · exact dfaRun_accept 21 21 _ _ '.' fs 14 47 dot_class (by decide!) (by decide) (by decide!)
  rw [hstep]
  obtain ⟨st', h1, h2, h3⟩ := dfaRun_accepting [47, 52] [52] [11, 16] frac_steps
    (by decide) fs 47 47 (ds.length + 1) (ds.length + 1) (by decide)
    (fun r hr => digit_class r (hfs r hr))
  have e : (ds ++ '.' :: fs).length = ds.length + 1 + fs.length := by
    rw [List.length_append, List.length_cons]; omega
  rw [e]
  by_cases hfs0 : fs = []
  · rw [if_pos hfs0, if_pos hfs0, h1 hfs0] at h3
    refine ⟨47, Or.inl rfl, ?_⟩
    rw [h3, hfs0]
    rfl
  · rw [if_neg hfs0, if_neg hfs0] at h3
    have := h2 hfs0
    rw [List.mem_singleton] at this
    subst this
    exact ⟨52, Or.inr rfl, h3⟩

/-- The DFA run over an exponent: the marker, an optional sign and digits, after a
mantissa. -/
theorem dfaRun_exponent (st a : Int) (m c : Nat) (e : Char) (sg ds : List Char)
    (hst : st ∈ ([18, 21, 47, 52] : List Int)) (he : e = 'e' ∨ e = 'E')
    (hsg : sg = [] ∨ sg = ['+'] ∨ sg = ['-'])
    (hne : ds ≠ []) (hds : ∀ x ∈ ds, x.isDigit = true) :
    dfaRun st a m c (e :: (sg ++ ds))
      = some (none, 71, 71, c + (e :: (sg ++ ds)).length, c + (e :: (sg ++ ds)).length) := by
  have h1 : dfaRun st a m c (e :: (sg ++ ds)) = dfaRun 48 a m (c + 1) (sg ++ ds) := by
    have hall : ∀ s ∈ ([18, 21, 47, 52] : List Int), trans s 18 = some 48 := by decide!
    have ht : trans st 18 = some 48 := hall st hst
    exact dfaRun_through st a m c e _ 18 48 (e_class e he) ht (by decide) (by decide!)
  rw [h1]
  have hdig : ∀ (s0 : Int) (c0 : Nat), s0 ∈ ([48, 72, 71] : List Int) →
      dfaRun s0 a m c0 ds = some (none, 71, 71, c0 + ds.length, c0 + ds.length) := by
    intro s0 c0 hs0
    obtain ⟨st', _, h2, h3⟩ := dfaRun_accepting [48, 72, 71] [71] [11, 16] exp_steps
      (by decide) ds s0 a m c0 hs0 (fun r hr => digit_class r (hds r hr))
    rw [if_neg hne, if_neg hne] at h3
    have := h2 hne
    rw [List.mem_singleton] at this
    subst this
    exact h3
  have hsign : ∀ s : Char, s = '+' ∨ s = '-' →
      dfaRun 48 a m (c + 1) (s :: ds) = dfaRun 72 a m (c + 1 + 1) ds := by
    intro s hs
    obtain ⟨k, hk, hks⟩ := sign_class s hs
    have hall : ∀ j ∈ ([19, 23] : List Nat), trans 48 j = some 72 := by decide!
    have ht : trans 48 k = some 72 := hall k hk
    exact dfaRun_through 48 a m (c + 1) s ds k 72 hks ht (by decide) (by decide!)
  rcases hsg with h | h | h <;> subst h
  · rw [List.nil_append, hdig 48 (c + 1) (by decide)]
    simp only [List.nil_append, List.length_cons]
    have e1 : c + 1 + ds.length = c + (ds.length + 1) := by omega
    rw [e1]
  · rw [List.singleton_append, hsign '+' (Or.inl rfl), hdig 72 (c + 1 + 1) (by decide)]
    simp only [List.singleton_append, List.length_cons]
    have e1 : c + 1 + 1 + ds.length = c + (ds.length + 1 + 1) := by omega
    rw [e1]
  · rw [List.singleton_append, hsign '-' (Or.inr rfl), hdig 72 (c + 1 + 1) (by decide)]
    simp only [List.singleton_append, List.length_cons]
    have e1 : c + 1 + 1 + ds.length = c + (ds.length + 1 + 1) := by omega
    rw [e1]

/-- Below the buffer size, digits, a point and digits are one `DECIMAL` token, and the
next call returns the end-of-input signal. -/
theorem Yylex_decimal (ds fs : List Char) (d : Bool) (fuel : Nat) (hne : ds ≠ [])
    (hds : ∀ x ∈ ds, x.isDigit = true) (hfs : ∀ x ∈ fs, x.isDigit = true)
    (hlen : (ds ++ '.' :: fs).length < ZZ_BUFFERSIZE) (hfuel : (ds ++ '.' :: fs).length < fuel) :
    ((NewLexer (ofRunes (ds ++ '.' :: fs)) d).Yylex fuel).1
        = .token (newLVal (ds ++ '.' :: fs) .DECIMAL) ∧
      (((NewLexer (ofRunes (ds ++ '.' :: fs)) d).Yylex fuel).2.Yylex fuel).1 = .eof := by
  obtain ⟨st', hst', hrun⟩ := dfaRun_decimal ds fs hne hds hfs
  have hact : (if st' < 0 then some st' else idx ZZ_ACTION st') = some 26 := by
    rcases hst' with h | h <;> subst h <;> decide!
  have h := Yylex_whole (ds ++ '.' :: fs) d fuel 26 .DECIMAL st' (by simp) hlen hfuel
    ⟨st', hrun⟩ hact (by decide)
  exact ⟨h.1, Yylex_at_end _ _ _ fuel h.2 (by omega)⟩

/-- The DFA run over a mantissa (digits, or digits, a point and digits) and an
exponent. -/
theorem dfaRun_double (mant : List Char) (e : Char) (sg es : List Char)
    (hmant : (mant ≠ [] ∧ ∀ x ∈ mant, x.isDigit = true) ∨
      ∃ ds fs, mant = ds ++ '.' :: fs ∧ ds ≠ [] ∧ (∀ x ∈ ds, x.isDigit = true) ∧
        ∀ x ∈ fs, x.isDigit = true)
    (he : e = 'e' ∨ e = 'E') (hsg : sg = [] ∨ sg = ['+'] ∨ sg = ['-'])
    (hne : es ≠ []) (hes : ∀ x ∈ es, x.isDigit = true) :
    dfaRun 0 (-1) 0 0 (mant ++ e :: (sg ++ es))
      = some (none, 71, 71, (mant ++ e :: (sg ++ es)).length,
          (mant ++ e :: (sg ++ es)).length) := by
  have hm : ∃ s1, s1 ∈ ([18, 21, 47, 52] : List Int) ∧
      dfaRun 0 (-1) 0 0 mant = some (none, s1, s1, mant.length, mant.length) := by
    rcases hmant with ⟨h1, h2⟩ | ⟨ds, fs, h1, h2, h3, h4⟩
    · obtain ⟨s1, hs1, hrun⟩ := dfaRun_digits mant h1 h2
      refine ⟨s1, ?_, hrun⟩
      rcases hs1 with h | h <;> subst h <;> decide
    · obtain ⟨s1, hs1, hrun⟩ := dfaRun_decimal ds fs h2 h3 h4
      rw [h1]
      refine ⟨s1, ?_, hrun⟩
      rcases hs1 with h | h <;> subst h <;> decide
  obtain ⟨s1, hs1, hrun⟩ := hm
  rw [dfaRun_append mant _ 0 (-1) 0 0 s1 s1 _ _ hrun,
    dfaRun_exponent s1 s1 _ _ e sg es hs1 he hsg hne hes, List.length_append]

/-- Below the buffer size, a mantissa and an exponent are one `DOUBLE` token, and the
next call returns the end-of-input signal. -/
theorem Yylex_double (mant : List Char) (e : Char) (sg es : List Char) (d : Bool)
    (fuel : Nat)
    (hmant : (mant ≠ [] ∧ ∀ x ∈ mant, x.isDigit = true) ∨
      ∃ ds fs, mant = ds ++ '.' :: fs ∧ ds ≠ [] ∧ (∀ x ∈ ds, x.isDigit = true) ∧
        ∀ x ∈ fs, x.isDigit = true)
    (he : e = 'e' ∨ e = 'E') (hsg : sg = [] ∨ sg = ['+'] ∨ sg = ['-'])
    (hne : es ≠ []) (hes : ∀ x ∈ es, x.isDigit = true)
    (hlen : (mant ++ e :: (sg ++ es)).length < ZZ_BUFFERSIZE)
    (hfuel : (mant ++ e :: (sg ++ es)).length < fuel) :
    ((NewLexer (ofRunes (mant ++ e :: (sg ++ es))) d).Yylex fuel).1
        = .token (newLVal (mant ++ e :: (sg ++ es)) .DOUBLE) ∧
      (((NewLexer (ofRunes (mant ++ e :: (sg ++ es))) d).Yylex fuel).2.Yylex fuel).1
        = .eof := by
  have h := Yylex_whole (mant ++ e :: (sg ++ es)) d fuel 27 .DOUBLE 71 (by simp) hlen hfuel
    ⟨71, dfaRun_double mant e sg es hmant he hsg hne hes⟩ (by decide!) (by decide)
  exact ⟨h.1, Yylex_at_end _ _ _ fuel h.2 (by omega)⟩

theorem dropLast_cons_cons_replicate (a b c : Char) (n : Nat) (h : 0 < n) :
    (a :: b :: List.replicate n c).dropLast = a :: b :: List.replicate (n - 1) c := by
  obtain ⟨k, hk⟩ : ∃ k, n = k + 1 := ⟨n - 1, by omega⟩
  subst hk
  rw [List.replicate_succ, List.dropLast_cons₂, List.dropLast_cons₂, ← List.replicate_succ,
    List.dropLast_replicate]

theorem replicate_ne_nil (n : Nat) (c : Char) (h : 0 < n) : List.replicate n c ≠ [] := by
  intro h0
  have := congrArg List.length h0
  rw [List.length_replicate, List.length_nil] at this
  omega

theorem length_cons_cons_replicate (a b c : Char) (n : Nat) :
    (a :: b :: List.replicate n c).length = n + 2 := by
  rw [List.length_cons, List.length_cons, List.length_replicate]

theorem replicate_isDigit (n : Nat) (c : Char) (hc : c.isDigit = true) :
    ∀ x ∈ List.replicate n c, x.isDigit = true := by
  intro x hx
  rw [List.eq_of_mem_replicate hx]
  exact hc

/-! ## Quoted texts -/

theorem paired_cons_ne (q c : Char) (tl : List Char) (h : c ≠ q) :
    paired q (c :: tl) = paired q tl := by
  cases tl with
  | nil => simp [paired, h]
  | cons c2 rest => simp [paired, h]

theorem paired_cons_eq (q : Char) (tl : List Char) (h : paired q (q :: tl) = true) :
    ∃ rest, tl = q :: rest ∧ paired q rest = true := by
  cases tl with
  | nil => simp [paired] at h
  | cons c2 rest =>
    simp only [paired, if_true, Bool.and_eq_true, beq_iff_eq] at h
    exact ⟨rest, by rw [h.1], h.2⟩

theorem escaped_cons_ne (c : Char) (tl : List Char) (h : c ≠ quote) :
    escaped (c :: tl) = c :: escaped tl := by
  cases tl with
  | nil => simp [escaped]
  | cons c2 rest => simp [escaped, h]

theorem escaped_pair (rest : List Char) :
    escaped (quote :: quote :: rest) = '\\' :: quote :: escaped rest := by
  simp [escaped]

/-- A text splits into its longest beginning without the rune `q` and a rest that is
empty or begins with `q`. -/
theorem span_ne (q : Char) (body : List Char) :
    ∃ run rest, body = run ++ rest ∧ (∀ x ∈ run, x ≠ q) ∧ (rest = [] ∨ ∃ tl, rest = q :: tl) := by
  induction body with
  | nil => exact ⟨[], [], rfl, by simp, Or.inl rfl⟩
  | cons c tl ih =>
    by_cases hc : c = q
    · exact ⟨[], c :: tl, rfl, by simp, Or.inr ⟨tl, by rw [hc]⟩⟩
    · obtain ⟨run, rest, h1, h2, h3⟩ := ih
      refine ⟨c :: run, rest, by rw [h1]; rfl, ?_, h3⟩
      intro x hx
      rcases List.mem_cons.mp hx with h | h
      · rw [h]; exact hc
      · exact h2 x h

theorem paired_append_ne (q : Char) (run rest : List Char) (h : ∀ x ∈ run, x ≠ q) :
    paired q (run ++ rest) = paired q rest := by
  induction run with
  | nil => rfl
  | cons c tl ih =>
    rw [List.cons_append, paired_cons_ne q c _ (h c (List.mem_cons_self _ _))]
    exact ih (fun x hx => h x (List.mem_cons_of_mem _ hx))

theorem escaped_append_ne (run rest : List Char) (h : ∀ x ∈ run, x ≠ quote) :
    escaped (run ++ rest) = run ++ escaped rest := by
  induction run with
  | nil => rfl
  | cons c tl ih =>
    rw [List.cons_append, escaped_cons_ne c _ (h c (List.mem_cons_self _ _)),
      ih (fun x hx => h x (List.mem_cons_of_mem _ hx)), List.cons_append]

theorem toNat_eq_ofNat (r : Char) (n : Nat) (hn : (Char.ofNat n).toNat = n)
    (h : r.toNat = n) : r = Char.ofNat n := by
  apply Char.ext
  apply UInt32.ext
  show r.toNat = (Char.ofNat n).toNat
  rw [h, hn]

theorem mem_others (j k : Nat) (hk : k < 32) (hne : k ≠ j) : k ∈ others j := by
  unfold others
  rw [List.mem_filter, List.mem_range]
  exact ⟨hk, by simpa using hne⟩

/-- A rune other than the single quote is of a class other than `1`. -/
theorem class_ne_quote (r : Char) (h : r ≠ quote) : inClasses (others 1) r := by
  obtain ⟨k, hk, hlt, h1, _⟩ := cmap_cases r
  refine ⟨k, mem_others 1 k hlt ?_, hk⟩
  intro hk1
  exact h (toNat_eq_ofNat r 39 (by decide) (h1.mp hk1))

/-- A rune other than the double quote is of a class other than `2`. -/
theorem class_ne_dquote (r : Char) (h : r ≠ dquote) : inClasses (others 2) r := by
  obtain ⟨k, hk, hlt, _, h2, _⟩ := cmap_cases r
  refine ⟨k, mem_others 2 k hlt ?_, hk⟩
  intro hk2
  exact h (toNat_eq_ofNat r 34 (by decide) (h2.mp hk2))

theorem quote_class : cmap quote = some 1 := by
  obtain ⟨k, hk, _, h1, _⟩ := cmap_cases quote
  rw [hk, h1.mpr (by decide)]

theorem dquote_class : cmap dquote = some 2 := by
  obtain ⟨k, hk, _, _, h2, _⟩ := cmap_cases dquote
  rw [hk, h2.mpr (by decide)]

theorem xq_steps : ∀ st ∈ ([2, 29] : List Int), ∀ k ∈ others 1, stepsInto [29] st k = true := by
  decide!

theorem xdq_steps : ∀ st ∈ ([3, 31] : List Int), ∀ k ∈ others 2, stepsInto [31] st k = true := by
  decide!

/-- The DFA run over runes without the closing rune, then the closing rune: from the
start state `s0` of the lexical state, whose states `sIn` inside the text loop on every
class but `j`. -/
theorem dfaRun_inside (s0 sIn : Int) (j : Nat) (q : Char) (run tl : List Char)
    (hsteps : ∀ st ∈ ([s0, sIn] : List Int), ∀ k ∈ others j, stepsInto [sIn] st k = true)
    (hq : cmap q = some j) (hstop : trans sIn j = some (-1))
    (hne : run ≠ []) (hrun : ∀ x ∈ run, inClasses (others j) x) :
    dfaRun s0 (-1) 0 0 (run ++ q :: tl) = some (some q, sIn, sIn, run.length, run.length + 1) := by
  obtain ⟨st', _, h2, h3⟩ := dfaRun_accepting [s0, sIn] [sIn] (others j) hsteps
    (by intro st hst; rw [List.mem_singleton] at hst; rw [hst]; simp)
    run s0 (-1) 0 0 (by simp) hrun
  have := h2 hne
  rw [List.mem_singleton] at this
  subst this
  rw [if_neg hne, if_neg hne, Nat.zero_add] at h3
  rw [dfaRun_append run _ s0 (-1) 0 0 st' st' _ _ h3, dfaRun_stop st' st' _ _ q tl j hq hstop]

theorem lexstate_initial : idx ZZ_LEXSTATE YYINITIAL = some 0 := by decide

theorem lexstate_xq : idx ZZ_LEXSTATE xq = some 2 := by decide

theorem lexstate_xdq : idx ZZ_LEXSTATE xdq = some 3 := by decide

theorem lexstate_xc : idx ZZ_LEXSTATE xc = some 1 := by decide

theorem attr_start : ∀ st ∈ ([0, 1, 2, 3] : List Int), idx ZZ_ATTRIBUTE st = some 0 := by decide!

/-- In `YYINITIAL`, a single quote begins a string literal: `xq_start`. -/
theorem absPass_xq_start (lt txt tl held : List Char) :
    absPass ⟨YYINITIAL, lt, txt, quote :: tl, held⟩ = .again ⟨xq, [], [quote], tl, held⟩ := by
  have hrun : dfaRun 0 (-1) 0 0 (quote :: tl) = some (some quote, 10, 10, 1, 1) :=
    dfaRun_final 0 (-1) 0 0 quote tl 1 10 quote_class (by decide!) (by decide) (by decide!)
  rw [absPass_of_run ⟨YYINITIAL, lt, txt, quote :: tl, held⟩ 0 0 (some quote) 10 10 1 1 2
    lexstate_initial (attr_start 0 (by decide)) (by simp) hrun (by decide!)]
  simp [absAction, zzActionSwitch, Abs.user, Lexer.zero, Lexer.yybegin]

/-- In `xq`, runes other than the quote before a quote: `xq_inside`. -/
theorem absPass_xq_inside (lt txt run tl held : List Char) (hne : run ≠ [])
    (hrun : ∀ x ∈ run, x ≠ quote) :
    absPass ⟨xq, lt, txt, run ++ quote :: tl, held⟩
      = .again ⟨xq, lt ++ run, run, quote :: tl, held⟩ := by
  have h := dfaRun_inside 2 29 1 quote run tl xq_steps quote_class (by decide!) hne
    (fun x hx => class_ne_quote x (hrun x hx))
  rw [absPass_of_run ⟨xq, lt, txt, run ++ quote :: tl, held⟩ 2 0 (some quote) 29 29 _ _ 10
    lexstate_xq (attr_start 2 (by decide)) (by simp) h (by decide!)]
  simp [absAction, zzActionSwitch, Abs.user, Lexer.zero]

/-- In `xq`, a doubled quote: `xq_double` appends a backslash and a quote. -/
theorem absPass_xq_double (lt txt tl held : List Char) :
    absPass ⟨xq, lt, txt, quote :: quote :: tl, held⟩
      = .again ⟨xq, lt ++ ['\\', quote], [quote, quote], tl, held⟩ := by
  have h : dfaRun 2 (-1) 0 0 (quote :: quote :: tl) = some (some quote, 61, 61, 2, 2) := by
    rw [dfaRun_accept 2 (-1) 0 0 quote _ 1 30 quote_class (by decide!) (by decide) (by decide!),
      dfaRun_final 30 30 1 1 quote tl 1 61 quote_class (by decide!) (by decide) (by decide!)]
  rw [absPass_of_run ⟨xq, lt, txt, quote :: quote :: tl, held⟩ 2 0 (some quote) 61 61 _ _ 33
    lexstate_xq (attr_start 2 (by decide)) (by simp) h (by decide!)]
  simp [absAction, zzActionSwitch, Abs.user, Lexer.zero]
  decide

/-- In `xq`, a quote at the end of the text: `xq_stop` returns the `STRING` token. -/
theorem absPass_xq_stop (lt txt : List Char) :
    absPass ⟨xq, lt, txt, [quote], []⟩
      = .token (newLVal lt .STRING) ⟨YYINITIAL, lt, [quote], [], []⟩ := by
  have h : dfaRun 2 (-1) 0 0 [quote] = some (none, 30, 30, 1, 1) := by
    rw [dfaRun_accept 2 (-1) 0 0 quote _ 1 30 quote_class (by decide!) (by decide) (by decide!)]
    rfl
  rw [absPass_of_run ⟨xq, lt, txt, [quote], []⟩ 2 0 none 30 30 _ _ 11
    lexstate_xq (attr_start 2 (by decide)) (by simp) h (by decide!)]
  simp [absAction, zzActionSwitch, Abs.user, Lexer.zero, Lexer.yybegin, newLVal]

/-- The passes of `Yylex` in `xq` over the body of a literal and its closing quote. -/
theorem absYylex_xq (n : Nat) :
    ∀ (body lt txt : List Char) (fuel : Nat), body.length ≤ n → paired quote body = true →
      body.length < fuel →
      absYylex fuel ⟨xq, lt, txt, body ++ [quote], []⟩
        = .token (newLVal (lt ++ escaped body) .STRING)
            ⟨YYINITIAL, lt ++ escaped body, [quote], [], []⟩ := by
  induction n with
  | zero =>
    intro body lt txt fuel hlen _ hfuel
    have hb : body = [] := List.length_eq_zero.mp (by omega)
    subst hb
    obtain ⟨k, hk⟩ : ∃ k, fuel = k + 1 := ⟨fuel - 1, by omega⟩
    rw [hk, List.nil_append, absYylex_succ_of_ne_again k _ _ (absPass_xq_stop lt txt) (by simp)]
    simp [escaped]
  | succ n ih =>
    intro body lt txt fuel hlen hp hfuel
    obtain ⟨k, hk⟩ : ∃ k, fuel = k + 1 := ⟨fuel - 1, by omega⟩
    obtain ⟨run, rest, h1, h2, h3⟩ := span_ne quote body
    subst h1
    rw [paired_append_ne quote run rest h2] at hp
    rw [List.length_append] at hlen hfuel
    by_cases hrun : run = []
    · subst hrun
      rw [List.nil_append]
      rcases h3 with h | ⟨tl, h⟩
      · subst h
        rw [hk, List.nil_append,
          absYylex_succ_of_ne_again k _ _ (absPass_xq_stop lt txt) (by simp)]
        simp [escaped]
      · subst h
        obtain ⟨rest2, h4, h5⟩ := paired_cons_eq quote tl hp
        subst h4
        simp only [List.length_cons, List.length_nil] at hlen hfuel
        rw [hk, List.cons_append, List.cons_append,
          absYylex_succ_again k _ _ (absPass_xq_double lt txt (rest2 ++ [quote]) []),
          ih rest2 _ _ k (by omega) h5 (by omega), escaped_pair]
        simp
    · have hpos := List.length_pos.mpr hrun
      rcases h3 with h | ⟨tl, h⟩
      · subst h
        rw [List.append_nil, hk,
          absYylex_succ_again k _ _ (absPass_xq_inside lt txt run [] [] hrun h2)]
        obtain ⟨k2, hk2⟩ : ∃ k2, k = k2 + 1 := ⟨k - 1, by simp at hfuel; omega⟩
        rw [hk2, absYylex_succ_of_ne_again k2 _ _ (absPass_xq_stop (lt ++ run) run) (by simp)]
        have he : escaped run = run := by
          have := escaped_append_ne run [] h2
          rw [List.append_nil] at this
          rw [this]
          simp [escaped]
        rw [he]
      · subst h
        rw [List.append_assoc, List.cons_append, hk,
          absYylex_succ_again k _ _ (absPass_xq_inside lt txt run (tl ++ [quote]) [] hrun h2)]
        have := ih (quote :: tl) (lt ++ run) run k (by omega) hp (by omega)
        rw [List.cons_append] at this
        rw [this, escaped_append_ne run _ h2, List.append_assoc]

/-- In `YYINITIAL`, a double quote begins a quoted identifier: `xdq_start`. -/
theorem absPass_xdq_start (lt txt tl held : List Char) :
    absPass ⟨YYINITIAL, lt, txt, dquote :: tl, held⟩
      = .again ⟨xdq, [dquote], [dquote], tl, held⟩ := by
  have hrun : dfaRun 0 (-1) 0 0 (dquote :: tl) = some (some dquote, 11, 11, 1, 1) :=
    dfaRun_final 0 (-1) 0 0 dquote tl 2 11 dquote_class (by decide!) (by decide) (by decide!)
  rw [absPass_of_run ⟨YYINITIAL, lt, txt, dquote :: tl, held⟩ 0 0 (some dquote) 11 11 1 1 3
    lexstate_initial (attr_start 0 (by decide)) (by simp) hrun (by decide!)]
  simp [absAction, zzActionSwitch, Abs.user, Lexer.zero, Lexer.yybegin]

/-- In `xdq`, runes other than the double quote before a double quote: `xdq_inside`. -/
theorem absPass_xdq_inside (lt txt run tl held : List Char) (hne : run ≠ [])
    (hrun : ∀ x ∈ run, x ≠ dquote) :
    absPass ⟨xdq, lt, txt, run ++ dquote :: tl, held⟩
      = .again ⟨xdq, lt ++ run, run, dquote :: tl, held⟩ := by
  have h := dfaRun_inside 3 31 2 dquote run tl xdq_steps dquote_class (by decide!) hne
    (fun x hx => class_ne_dquote x (hrun x hx))
  rw [absPass_of_run ⟨xdq, lt, txt, run ++ dquote :: tl, held⟩ 3 0 (some dquote) 31 31 _ _ 12
    lexstate_xdq (attr_start 3 (by decide)) (by simp) h (by decide!)]
  simp [absAction, zzActionSwitch, Abs.user, Lexer.zero]

/-- In `xdq`, a doubled double quote: `xdq_double` appends it as it is. -/
theorem absPass_xdq_double (lt txt tl held : List Char) :
    absPass ⟨xdq, lt, txt, dquote :: dquote :: tl, held⟩
      = .again ⟨xdq, lt ++ [dquote, dquote], [dquote, dquote], tl, held⟩ := by
  have h : dfaRun 3 (-1) 0 0 (dquote :: dquote :: tl) = some (some dquote, 64, 64, 2, 2) := by
    rw [dfaRun_accept 3 (-1) 0 0 dquote _ 2 32 dquote_class (by decide!) (by decide)
        (by decide!),
      dfaRun_final 32 32 1 1 dquote tl 2 64 dquote_class (by decide!) (by decide) (by decide!)]
  rw [absPass_of_run ⟨xdq, lt, txt, dquote :: dquote :: tl, held⟩ 3 0 (some dquote) 64 64 _ _
    34 lexstate_xdq (attr_start 3 (by decide)) (by simp) h (by decide!)]
  simp [absAction, zzActionSwitch, Abs.user, Lexer.zero]

/-- In `xdq`, a double quote at the end of the text: `xdq_stop` returns the `NORMAL`
token. -/
theorem absPass_xdq_stop (lt txt : List Char) :
    absPass ⟨xdq, lt, txt, [dquote], []⟩
      = .token (newLVal (lt ++ [dquote]) .NORMAL)
          ⟨YYINITIAL, lt ++ [dquote], [dquote], [], []⟩ := by
  have h : dfaRun 3 (-1) 0 0 [dquote] = some (none, 32, 32, 1, 1) := by
    rw [dfaRun_accept 3 (-1) 0 0 dquote _ 2 32 dquote_class (by decide!) (by decide)
      (by decide!)]
    rfl
  rw [absPass_of_run ⟨xdq, lt, txt, [dquote], []⟩ 3 0 none 32 32 _ _ 13
    lexstate_xdq (attr_start 3 (by decide)) (by simp) h (by decide!)]
  simp [absAction, zzActionSwitch, Abs.user, Lexer.zero, Lexer.yybegin, newLVal]

/-- The passes of `Yylex` in `xdq` over the body of a quoted identifier and its closing
double quote. -/
theorem absYylex_xdq (n : Nat) :
    ∀ (body lt txt : List Char) (fuel : Nat), body.length ≤ n → paired dquote body = true →
      body.length < fuel →
      absYylex fuel ⟨xdq, lt, txt, body ++ [dquote], []⟩
        = .token (newLVal (lt ++ (body ++ [dquote])) .NORMAL)
            ⟨YYINITIAL, lt ++ (body ++ [dquote]), [dquote], [], []⟩ := by
  induction n with
  | zero =>
    intro body lt txt fuel hlen _ hfuel
    have hb : body = [] := List.length_eq_zero.mp (by omega)
    subst hb
    obtain ⟨k, hk⟩ : ∃ k, fuel = k + 1 := ⟨fuel - 1, by omega⟩
    rw [hk, List.nil_append, absYylex_succ_of_ne_again k _ _ (absPass_xdq_stop lt txt) (by simp)]
  | succ n ih =>
    intro body lt txt fuel hlen hp hfuel
    obtain ⟨k, hk⟩ : ∃ k, fuel = k + 1 := ⟨fuel - 1, by omega⟩
    obtain ⟨run, rest, h1, h2, h3⟩ := span_ne dquote body
    subst h1
    rw [paired_append_ne dquote run rest h2] at hp
    rw [List.length_append] at hlen hfuel
    by_cases hrun : run = []
    · subst hrun
      rw [List.nil_append]
      rcases h3 with h | ⟨tl, h⟩
      · subst h
        rw [hk, List.nil_append,
          absYylex_succ_of_ne_again k _ _ (absPass_xdq_stop lt txt) (by simp)]
      · subst h
        obtain ⟨rest2, h4, h5⟩ := paired_cons_eq dquote tl hp
        subst h4
        simp only [List.length_cons, List.length_nil] at hlen hfuel
        rw [hk, List.cons_append, List.cons_append,
          absYylex_succ_again k _ _ (absPass_xdq_double lt txt (rest2 ++ [dquote]) []),
          ih rest2 _ _ k (by omega) h5 (by omega)]
        simp
    · have hpos := List.length_pos.mpr hrun
      rcases h3 with h | ⟨tl, h⟩
      · subst h
        rw [List.append_nil, hk,
          absYylex_succ_again k _ _ (absPass_xdq_inside lt txt run [] [] hrun h2)]
        obtain ⟨k2, hk2⟩ : ∃ k2, k = k2 + 1 := ⟨k - 1, by simp at hfuel; omega⟩
        rw [hk2, absYylex_succ_of_ne_again k2 _ _ (absPass_xdq_stop (lt ++ run) run) (by simp)]
        simp
      · subst h
        rw [List.append_assoc, List.cons_append, hk,
          absYylex_succ_again k _ _ (absPass_xdq_inside lt txt run (tl ++ [dquote]) [] hrun h2)]
        have := ih (dquote :: tl) (lt ++ run) run k (by omega) hp (by omega)
        rw [List.cons_append] at this
        rw [this]
        simp

/-- Below the buffer size, a single-quoted literal whose body has quotes only in doubled
pairs, followed by the end of input: the first call of `Yylex` returns the `STRING` token
of the body with each doubled quote replaced by a backslash and a quote, the next call
the end-of-input signal. -/
theorem Yylex_string (body : List Char) (d : Bool) (fuel : Nat)
    (hp : paired quote body = true)
    (hlen : (quote :: (body ++ [quote])).length < ZZ_BUFFERSIZE)
    (hfuel : (quote :: (body ++ [quote])).length < fuel) :
    ((NewLexer (ofRunes (quote :: (body ++ [quote]))) d).Yylex fuel).1
        = .token (newLVal (escaped body) .STRING) ∧
      (((NewLexer (ofRunes (quote :: (body ++ [quote]))) d).Yylex fuel).2.Yylex fuel).1
        = .eof := by
  have hsim := sim_fresh (quote :: (body ++ [quote])) d fuel (by omega) hfuel
  have hstart : Abs.start (quote :: (body ++ [quote]))
      = ⟨YYINITIAL, [], [], quote :: (body ++ [quote]), []⟩ := by
    unfold Abs.start
    rw [if_neg (by omega)]
  rw [List.length_cons, List.length_append] at hfuel
  obtain ⟨k, hk⟩ : ∃ k, fuel = k + 1 := ⟨fuel - 1, by omega⟩
  rw [hstart, hk, absYylex_succ_again k _ _ (absPass_xq_start [] [] _ []),
    absYylex_xq body.length body [] [quote] k (le_refl _) hp (by omega), List.nil_append]
    at hsim
  rw [hk]
  exact ⟨hsim.1, Yylex_at_end _ _ _ _ hsim.2 (by omega)⟩

/-- Below the buffer size, a quoted identifier whose body has double quotes only in
doubled pairs, followed by the end of input: the first call of `Yylex` returns the
`NORMAL` token of the whole text, the next call the end-of-input signal. -/
theorem Yylex_quoted (body : List Char) (d : Bool) (fuel : Nat)
    (hp : paired dquote body = true)
    (hlen : (dquote :: (body ++ [dquote])).length < ZZ_BUFFERSIZE)
    (hfuel : (dquote :: (body ++ [dquote])).length < fuel) :
    ((NewLexer (ofRunes (dquote :: (body ++ [dquote]))) d).Yylex fuel).1
        = .token (newLVal (dquote :: (body ++ [dquote])) .NORMAL) ∧
      (((NewLexer (ofRunes (dquote :: (body ++ [dquote]))) d).Yylex fuel).2.Yylex fuel).1
        = .eof := by
  have hsim := sim_fresh (dquote :: (body ++ [dquote])) d fuel (by omega) hfuel
  have hstart : Abs.start (dquote :: (body ++ [dquote]))
      = ⟨YYINITIAL, [], [], dquote :: (body ++ [dquote]), []⟩ := by
    unfold Abs.start
    rw [if_neg (by omega)]
  rw [List.length_cons, List.length_append] at hfuel
  obtain ⟨k, hk⟩ : ∃ k, fuel = k + 1 := ⟨fuel - 1, by omega⟩
  rw [hstart, hk, absYylex_succ_again k _ _ (absPass_xdq_start [] [] _ []),
    absYylex_xdq body.length body [dquote] [dquote] k (le_refl _) hp (by omega),
    List.singleton_append] at hsim
  rw [hk]
  exact ⟨hsim.1, Yylex_at_end _ _ _ _ hsim.2 (by omega)⟩

/-- The state `Abs.start` of a text of exactly `ZZ_BUFFERSIZE` runes: its last rune is
held back. -/
theorem start_full (p : List Char) (z : Char) (h : (p ++ [z]).length = ZZ_BUFFERSIZE) :
    Abs.start (p ++ [z]) = ⟨YYINITIAL, [], [], p, [z]⟩ := by
  unfold Abs.start
  rw [if_pos h, List.dropLast_concat]
  have e : (p ++ [z]).length - 1 = p.length := by
    rw [List.length_append, List.length_singleton]; omega
  rw [e, List.drop_left]

/-- A quoted identifier of exactly `ZZ_BUFFERSIZE` runes whose body ends in a doubled
double quote: the closing double quote is held back and never read, and the call of
`Yylex` ends in the panic of an unterminated quoted identifier. -/
theorem Yylex_quoted_full (run : List Char) (d : Bool) (fuel : Nat) (hne : run ≠ [])
    (hrun : ∀ x ∈ run, x ≠ dquote)
    (hlen : ((dquote :: (run ++ [dquote, dquote])) ++ [dquote]).length = ZZ_BUFFERSIZE)
    (hfuel : ZZ_BUFFERSIZE < fuel) :
    ((NewLexer (ofRunes ((dquote :: (run ++ [dquote, dquote])) ++ [dquote])) d).Yylex fuel).1
      = .panic (((NewLexer (ofRunes ((dquote :: (run ++ [dquote, dquote])) ++ [dquote]))
          d).Yylex fuel).2.yyerror "unterminated quoted identifier") := by
  have hsim := sim_fresh ((dquote :: (run ++ [dquote, dquote])) ++ [dquote]) d fuel
    (by omega) (by omega)
  obtain ⟨k, hk⟩ : ∃ k, fuel = k + 4 := ⟨fuel - 4, by simp [ZZ_BUFFERSIZE] at hfuel; omega⟩
  have hend : absPass ⟨xdq, [dquote] ++ run ++ [dquote, dquote], [dquote, dquote], [],
      [dquote]⟩ = .unterminated "unterminated quoted identifier" := by
    have hl : ([dquote, dquote] : List Char).getLast? ≠ some CR := by decide
    rw [absPass_end _ 3 0 lexstate_xdq (attr_start 3 (by decide)) rfl (Or.inr hl)]
    show absEof xdq = _
    decide
  rw [start_full _ dquote hlen, hk,
    absYylex_succ_again (k + 3) _ _ (absPass_xdq_start [] [] _ [dquote]),
    absYylex_succ_again (k + 2) _ _
      (absPass_xdq_inside [dquote] [dquote] run [dquote] [dquote] hne hrun),
    absYylex_succ_again (k + 1) _ _
      (absPass_xdq_double ([dquote] ++ run) run [] [dquote]),
    absYylex_succ_of_ne_again k _ _ hend (by simp)] at hsim
  rw [hk]
  exact hsim.1

/-! ## End of input -/

/-- A scanner whose reader is exhausted and whose buffer holds no text after
`zzMarkedPos` is in a state `Abs` with nothing left to match. -/
theorem sim_of_fields (l : Lexer) (hr : l.zzReader = []) (he : l.zzAtEOF = false)
    (hf : l.zzFinalHighSurrogate = 0) (h1 : 0 ≤ l.zzStartRead)
    (h2 : l.zzStartRead ≤ l.zzCurrentPos) (h3 : l.zzCurrentPos ≤ l.zzMarkedPos)
    (h4 : l.zzMarkedPos = l.zzEndRead) (h5 : l.zzEndRead < l.zzBuffer.length) :
    Sim l ⟨l.zzLexicalState, l.ltstr,
      (l.zzBuffer.drop l.zzStartRead.toNat).take (l.zzEndRead.toNat - l.zzStartRead.toNat),
      [], []⟩ := by
  have hs : l.zzStartRead.toNat ≤ l.zzEndRead.toNat := by omega
  have hlen : l.zzEndRead.toNat < l.zzBuffer.length := by omega
  have e1 : (l.zzBuffer.take l.zzStartRead.toNat).length = l.zzStartRead.toNat := by
    rw [List.length_take]; omega
  have e2 : ((l.zzBuffer.drop l.zzStartRead.toNat).take
      (l.zzEndRead.toNat - l.zzStartRead.toNat)).length
      = l.zzEndRead.toNat - l.zzStartRead.toNat := by
    rw [List.length_take, List.length_drop]; omega
  refine ⟨l.zzBuffer.take l.zzStartRead.toNat, l.zzBuffer.drop l.zzEndRead.toNat,
    (l.zzCurrentPos - l.zzStartRead).toNat, ⟨?_, ?_, ?_, ?_, ?_, ?_, ?_⟩, ?_, ?_, ?_, he, rfl, rfl⟩
  · simp only [List.append_nil]
    have e3 : l.zzBuffer.drop l.zzEndRead.toNat
        = (l.zzBuffer.drop l.zzStartRead.toNat).drop
            (l.zzEndRead.toNat - l.zzStartRead.toNat) := by
      rw [List.drop_drop]
      congr 1
      omega
    rw [e3, List.append_assoc, List.take_append_drop, List.take_append_drop]
  · rw [e1]; omega
  · simp only [List.append_nil, List.length_nil, Nat.sub_zero]
    rw [e1, e2]; omega
  · rw [hf]; rfl
  · simp
  · right
    refine ⟨rfl, ?_⟩
    intro h
    have := congrArg List.length h
    rw [List.length_drop, List.length_nil] at this
    omega
  · rw [hr]; rfl
  · simp only
    rw [e1, e2]; omega
  · rw [e1]; omega
  · simp only [List.append_nil]
    rw [e2]; omega

/-- The action switch returns a token or panics, when it returns. -/
theorem actionSwitch_ret (action : Int) (text : List Char) (l : Lexer) (s : Scan)
    (r : YyReturn) (u : Lexer) (h : zzActionSwitch action text l s = .ret r u) :
    (∃ v, r = .token v) ∨ (∃ msg, r = .panic msg) := by
  unfold zzActionSwitch at h
  dsimp only at h
  by_cases hneg : action < 0
  · rw [if_pos hneg] at h
    simp only [Pass.ret.injEq] at h
    exact Or.inr ⟨_, h.1.symm⟩
  · rw [if_neg hneg] at h
    generalize action.toNat = n at h
    split at h
    all_goals
      first
      | (simp only [reduceCtorEq] at h)
      | (simp only [Pass.ret.injEq] at h; exact Or.inl ⟨_, h.1.symm⟩)
      | (split_ifs at h; simp only [Pass.ret.injEq] at h; exact Or.inr ⟨_, h.1.symm⟩)

/-- What the action of a match makes of the state `Abs`. -/
theorem absAction_shape (action : Int) (text : List Char) (a : Abs) (rem held : List Char) :
    (∃ v lex lt, absAction action text a rem held = .token v ⟨lex, lt, text, rem, held⟩) ∨
    (∃ lex lt, absAction action text a rem held = .again ⟨lex, lt, text, rem, held⟩) ∨
    (∃ msg, absAction action text a rem held = .panic msg) := by
  unfold absAction
  cases h : zzActionSwitch action text a.user Scan.zero with
  | again u e b => exact Or.inr (Or.inl ⟨_, _, rfl⟩)
  | ret r u =>
    rcases actionSwitch_ret action text _ _ r u h with ⟨v, hv⟩ | ⟨msg, hm⟩
    · subst hv
      exact Or.inl ⟨_, _, _, rfl⟩
    · subst hm
      exact Or.inr (Or.inr ⟨_, rfl⟩)

/-- What a pass makes of a state `Abs` without a held-back rune: it ends the scan, or
it matches a beginning of the text still to be matched. -/
theorem absPass_shape (a : Abs) (hheld : a.held = []) :
    (absPass a = .eof ∧ a.rem = []) ∨ (∃ msg, absPass a = .unterminated msg) ∨
    (∃ msg, absPass a = .panic msg) ∨
    (∃ v a', absPass a = .token v a' ∧ a'.txt ++ a'.rem = a.rem ∧ a'.held = []) ∨
    (∃ a', absPass a = .again a' ∧ a'.txt ++ a'.rem = a.rem ∧ a'.held = []) := by
  unfold absPass
  have hg : ¬ (a.held ≠ [] ∧ a.rem = [] ∧ a.txt.getLast? = some CR) := fun h => h.1 hheld
  rw [if_neg hg]
  cases hst : idx ZZ_LEXSTATE a.lex with
  | none => exact Or.inr (Or.inr (Or.inl ⟨_, rfl⟩))
  | some st0 =>
    dsimp only
    cases hat : idx ZZ_ATTRIBUTE st0 with
    | none => exact Or.inr (Or.inr (Or.inl ⟨_, rfl⟩))
    | some attr =>
      dsimp only
      unfold absRun
      cases hrun : dfaRun st0 (if attr.toNat &&& 1 = 1 then st0 else -1) 0 0 a.rem with
      | none => exact Or.inr (Or.inr (Or.inl ⟨_, rfl⟩))
      | some r =>
        obtain ⟨inp, st', act, m, c⟩ := r
        have hb := dfaRun_bounds a.rem _ _ 0 0 inp st' act m c hrun (le_refl _)
        dsimp only
        by_cases h1 : inp = none ∧ c = 0
        · rw [if_pos h1]
          have hrem : a.rem = [] := by
            have := hb.2.2.2 h1.1
            exact List.length_eq_zero.mp (by omega)
          rcases absEof_cases a.lex with h | ⟨msg, h⟩
          · exact Or.inl ⟨h, hrem⟩
          · exact Or.inr (Or.inl ⟨msg, h⟩)
        · rw [if_neg h1]
          cases hlook : (if act < 0 then some act else idx ZZ_ACTION act) with
          | none => exact Or.inr (Or.inr (Or.inl ⟨_, rfl⟩))
          | some action =>
            dsimp only
            by_cases h2 : inp = none
            · rw [if_pos h2, hheld, List.append_nil]
              rcases absAction_shape action (a.rem.take m) a (a.rem.drop m) []
                with ⟨v, lex, lt, h⟩ | ⟨lex, lt, h⟩ | ⟨msg, h⟩
              · exact Or.inr (Or.inr (Or.inr (Or.inl
                  ⟨v, _, h, List.take_append_drop _ _, rfl⟩)))
              · exact Or.inr (Or.inr (Or.inr (Or.inr ⟨_, h, List.take_append_drop _ _, rfl⟩)))
              · exact Or.inr (Or.inr (Or.inl ⟨msg, h⟩))
            · rw [if_neg h2, hheld]
              rcases absAction_shape action (a.rem.take m) a (a.rem.drop m) []
                with ⟨v, lex, lt, h⟩ | ⟨lex, lt, h⟩ | ⟨msg, h⟩
              · exact Or.inr (Or.inr (Or.inr (Or.inl
                  ⟨v, _, h, List.take_append_drop _ _, rfl⟩)))
              · exact Or.inr (Or.inr (Or.inr (Or.inr ⟨_, h, List.take_append_drop _ _, rfl⟩)))
              · exact Or.inr (Or.inr (Or.inl ⟨msg, h⟩))

/-- The matched text of a scanner in the state `a` is `a.txt`. -/
theorem sim_yytext (l : Lexer) (a : Abs) (h : Sim l a) : l.yytext = some a.txt := by
  obtain ⟨pre, post, c, hb, hm, _⟩ := h
  unfold Lexer.yytext
  rw [hb.buf, hb.st, hm]
  have := slice_mid pre (a.txt ++ a.rem ++ a.held) post a.txt.length (by simp)
  rw [this, List.append_assoc, List.take_left]

/-- One pass of the scan, from the pass in terms of `Abs`. -/
theorem scan_step (n fuel : Nat) (l : Lexer) (e : Int) (b : List Char) (a : Abs)
    (hp : PassSim (yyPass fuel l e b) (absPass a)) (hheld : a.held = [])
    (ih : ∀ l' a', Sim l' a' → a'.held = [] → a'.rem.length ≤ a.rem.length →
      scanPasses n fuel l' l'.zzEndRead l'.zzBuffer = absScan n a') :
    scanPasses (n + 1) fuel l e b = absScan (n + 1) a := by
  unfold scanPasses absScan
  rcases absPass_shape a hheld with ⟨h, _⟩ | ⟨msg, h⟩ | ⟨msg, h⟩ | ⟨v, a', h, h1, h2⟩ |
    ⟨a', h, h1, h2⟩
  · rw [h] at hp ⊢
    obtain ⟨l', hl, _⟩ := hp
    rw [hl]
  · rw [h] at hp ⊢
    obtain ⟨l', hl, _⟩ := hp
    rw [hl]
  · rw [h] at hp ⊢
    obtain ⟨l', hl⟩ := hp
    rw [hl]
  · rw [h] at hp ⊢
    obtain ⟨l', hl, hs⟩ := hp
    have hlen : a'.rem.length ≤ a.rem.length := by
      rw [← h1, List.length_append]; omega
    rw [hl]
    dsimp only
    rw [sim_yytext l' a' hs, ih l' a' hs h2 hlen]
    cases absScan n a' <;> rfl
  · rw [h] at hp ⊢
    obtain ⟨l', hl, hs⟩ := hp
    have hlen : a'.rem.length ≤ a.rem.length := by
      rw [← h1, List.length_append]; omega
    rw [hl]
    dsimp only
    rw [sim_yytext l' a' hs, ih l' a' hs h2 hlen]
    cases absScan n a' <;> rfl

/-- The scan of a scanner in the state `a` is the scan in terms of `Abs`. -/
theorem sim_scan (fuel : Nat) (n : Nat) :
    ∀ (l : Lexer) (a : Abs), Sim l a → a.held = [] → a.rem.length < fuel →
      scanPasses n fuel l l.zzEndRead l.zzBuffer = absScan n a := by
  induction n with
  | zero => intro l a _ _ _; rfl
  | succ n ih =>
    intro l a hs hheld hfuel
    exact scan_step n fuel l _ _ a (sim_pass l a fuel hs hfuel) hheld
      (fun l' a' hs' hh' hlen => ih l' a' hs' hh' (by omega))

/-- The texts matched by the passes of a scan in terms of `Abs` make up, in order, the
text still to be matched. -/
theorem absScan_join (n : Nat) :
    ∀ (a : Abs) (ps : List (Option LVal × List Char)), a.held = [] → absScan n a = some ps →
      (ps.map Prod.snd).flatten = a.rem := by
  induction n with
  | zero => intro a ps _ h; simp [absScan] at h
  | succ n ih =>
    intro a ps hheld h
    unfold absScan at h
    rcases absPass_shape a hheld with ⟨h0, hr⟩ | ⟨msg, h0⟩ | ⟨msg, h0⟩ | ⟨v, a', h0, h1, h2⟩ |
      ⟨a', h0, h1, h2⟩
    · rw [h0] at h
      simp only [Option.some.injEq] at h
      rw [← h, hr]
      rfl
    · rw [h0] at h; simp at h
    · rw [h0] at h; simp at h
    · rw [h0] at h
      dsimp only at h
      cases hrec : absScan n a' with
      | none => rw [hrec] at h; simp at h
      | some qs =>
        rw [hrec] at h
        simp only [Option.some.injEq] at h
        rw [← h, List.map_cons, List.flatten_cons, ih a' qs h2 hrec, h1]
    · rw [h0] at h
      dsimp only at h
      cases hrec : absScan n a' with
      | none => rw [hrec] at h; simp at h
      | some qs =>
        rw [hrec] at h
        simp only [Option.some.injEq] at h
        rw [← h, List.map_cons, List.flatten_cons, ih a' qs h2 hrec, h1]

/-- The first pass of a fresh scanner over a text that fits into its buffer. -/
theorem fresh_pass (text : List Char) (d : Bool) (fuel : Nat)
    (hlen : text.length ≤ ZZ_BUFFERSIZE) (hfuel : text.length < fuel) :
    PassSim (yyPass fuel (NewLexer (ofRunes text) d) (NewLexer (ofRunes text) d).zzEndRead
      (NewLexer (ofRunes text) d).zzBuffer) (absPass (Abs.start text)) := by
  have hb := newLexer_buf text d
  have hrh := start_rem_held text
  have hlexs : (Abs.start text).lex = YYINITIAL ∧ (Abs.start text).ltstr = [] ∧
      (Abs.start text).txt = [] := by
    unfold Abs.start
    split_ifs <;> exact ⟨rfl, rfl, rfl⟩
  by_cases hne : text = []
  · subst hne
    have hs : Abs.start [] = ⟨YYINITIAL, [], [], [], []⟩ := by
      unfold Abs.start
      rw [if_neg (by simp [ZZ_BUFFERSIZE])]
    rw [hs]
    exact sim_pass _ _ fuel
      ⟨[], List.replicate ZZ_BUFFERSIZE zeroRune, 0, hb, rfl, rfl, le_refl _, rfl, rfl, rfl⟩
      hfuel
  · have hheld : (Abs.start text).held.length
        = if (List.replicate ZZ_BUFFERSIZE zeroRune).length ≤ text.length then 1 else 0 := by
      rw [List.length_replicate]
      unfold Abs.start
      by_cases h : text.length = ZZ_BUFFERSIZE
      · rw [if_pos h, if_pos (by omega)]
        simp only [List.length_drop]
        have := List.length_pos.mpr hne
        omega
      · rw [if_neg h, if_neg (by omega)]
        rfl
    exact lazy_pass (NewLexer (ofRunes text) d) (List.replicate ZZ_BUFFERSIZE zeroRune) text
      (Abs.start text) fuel hb rfl rfl hlexs.1.symm hlexs.2.1.symm hne
      (by rw [List.length_replicate]; exact hlen)
      (by rw [List.length_replicate]; simp [ZZ_BUFFERSIZE]) hlexs.2.2 hrh hheld hfuel

/-- Below the buffer size, the texts matched by the passes of a scan that reaches the
end of input make up the input. -/
theorem scan_join (text : List Char) (d : Bool) (n fuel : Nat)
    (ps : List (Option LVal × List Char))
    (hlen : text.length < ZZ_BUFFERSIZE) (hfuel : text.length < fuel)
    (h : (NewLexer (ofRunes text) d).scan n fuel = some ps) :
    (ps.map Prod.snd).flatten = text := by
  have hstart : Abs.start text = ⟨YYINITIAL, [], [], text, []⟩ := by
    unfold Abs.start
    rw [if_neg (by omega)]
  cases n with
  | zero => simp [Lexer.scan, scanPasses] at h
  | succ n =>
    unfold Lexer.scan at h
    rw [scan_step n fuel _ _ _ (Abs.start text) (fresh_pass text d fuel (by omega) hfuel)
      (by rw [hstart])
      (fun l' a' hs' hh' hl' => sim_scan fuel n l' a' hs' hh'
        (by rw [hstart] at hl'; simp only at hl'; omega))] at h
    have := absScan_join (n + 1) (Abs.start text) ps (by rw [hstart]) h
    rw [this, hstart]

/-! ## The DFA loop with a reader that has more to deliver -/

theorem drop_take_append (xs t : List Char) (c n : Nat) (h : c + n ≤ xs.length) :
    ((xs ++ t).drop c).take n = (xs.drop c).take n := by
  rw [List.drop_append_of_le_length (by omega), List.take_append_of_le_length]
  rw [List.length_drop]
  omega

theorem drop_append_left (xs t : List Char) (c : Nat) (h : c ≤ xs.length) :
    (xs ++ t).drop c = xs.drop c ++ t :=
  List.drop_append_of_le_length h

/-- The DFA loop of a pass, whatever the reader has yet to deliver: the loop follows
`dfaRun` over the text `V` that lies between the current position and `zzEndRead` when
the loop ends, after the refills that happened on the way; `Hd` is the rune held back
then, if any.  A loop that ends with `zzInput = YYEOF` has exhausted the reader. -/
theorem loop_general (n : Nat) :
    ∀ (rest : List Char), rest.length = n →
    ∀ (l : Lexer) (s : Scan) (pre live post : List Char) (h m c fuel : Nat),
      Inv l s pre live post h rest m c → c + h ≤ live.length → l.zzAtEOF = false →
      (rest ≠ [] → h = 1 ∨ (live = [] ∧ 2 ≤ post.length)) →
      (∃ c0, c0 ≤ live.length ∧ l.zzCurrentPos = ((pre.length + c0 : Nat) : Int)) →
      (live.length - c) + rest.length < fuel →
      (∃ V l', dfaRun l.zzState s.zzAction m c V = none ∧
        zzLoop fuel l s = .panic indexPanic l') ∨
      ∃ (V Hd : List Char) (inp : Option Char) (st' a' : Int) (m' c' : Nat) (l' : Lexer)
          (s' : Scan) (pre' live' post' : List Char) (h' : Nat) (t rest' : List Char),
        live'.drop c = V ++ Hd ∧ live' = live ++ t ∧ rest = t ++ rest' ∧
        dfaRun l.zzState s.zzAction m c V = some (inp, st', a', m', c') ∧
        zzLoop fuel l s = .forAction inp l' s' ∧ l'.zzState = st' ∧ s'.zzAction = a' ∧
        Inv l' s' pre' live' post' h' rest' m' c' ∧ Hd.length ≤ 1 ∧
        (inp = none → rest' = [] ∧ h' = 0 ∧ pre' = [] ∧ l'.zzCurrentPos = (c' : Int)) ∧
        (inp ≠ none → Hd.length = h') ∧
        (rest' ≠ [] → h' = 1) ∧
        (∃ c0, c0 ≤ live'.length ∧ l'.zzCurrentPos = ((pre'.length + c0 : Nat) : Int)) ∧
        l'.zzLexicalState = l.zzLexicalState ∧ l'.ltstr = l.ltstr ∧ l'.zzAtEOF = false ∧
        ∃ V2, V = (live.drop c).take (live.length - h - c) ++ V2 := by
  induction n using Nat.strong_induction_on with
  | _ n ih =>
    intro rest hn l s pre live post h m c fuel hinv hch heof hgeo hcur hfuel
    obtain ⟨hb, hsb, hse, hsm, hsc, hmc, hcl⟩ := hinv
    have hh1 : h ≤ 1 := by
      rcases hb.hh with hh | hh <;> omega
    have hbufS : s.zzBufferL = pre ++ live ++ post := by rw [hsb, hb.buf]
    have heS : s.zzEndReadL = ((pre.length + (live.length - h) : Nat) : Int) := by
      rw [hse, hb.en]
      congr 1
      omega
    have hBlen : ((live.drop c).take (live.length - h - c)).length = live.length - h - c := by
      rw [List.length_take, List.length_drop]
      omega
    have hsplit : live.drop c
        = (live.drop c).take (live.length - h - c) ++ live.drop (live.length - h) := by
      have e : live.drop (live.length - h) = (live.drop c).drop (live.length - h - c) := by
        rw [List.drop_drop]
        congr 1
        omega
      rw [e, List.take_append_drop]
    have hHd : (live.drop (live.length - h)).length = h := by
      rw [List.length_drop]
      omega
    obtain ⟨f, hf⟩ : ∃ f, fuel = (f + 1) + (live.length - h - c) :=
      ⟨fuel - (live.length - h - c) - 1, by omega⟩
    cases hrun : dfaRun l.zzState s.zzAction m c ((live.drop c).take (live.length - h - c)) with
    | none =>
      left
      obtain ⟨l', hl'⟩ := loop_buffered_panic pre live post (live.length - h - c) (f + 1) l s
        m c (live.length - h) hbufS hsc heS (by omega) (by omega) hrun
      exact ⟨_, l', hrun, by rw [hf, hl']⟩
    | some r =>
      obtain ⟨inp, st1, a1, m1, c1⟩ := r
      obtain ⟨hmm1, hmc1, hcl1, hnone⟩ := dfaRun_bounds _ _ _ m c inp st1 a1 m1 c1 hrun hmc
      rw [hBlen] at hcl1 hnone
      have hloop := loop_buffered pre live post (live.length - h - c) (f + 1) l s m c
        (live.length - h) hbufS hsm hsc heS (by omega) (by omega) inp st1 a1 m1 c1 hrun
      have hb1 : ∀ (cp mp : Int), Buf ({ l with
          zzState := st1
          zzCurrentPos := cp
          zzMarkedPos := mp } : Lexer) pre live post h rest := by
        intro cp mp
        obtain ⟨b1, b2, b3, b4, b5, b6, b7⟩ := hb
        exact ⟨b1, b2, b3, b4, b5, b6, b7⟩
      have hb0 : Buf ({ l with zzState := st1 } : Lexer) pre live post h rest := by
        obtain ⟨b1, b2, b3, b4, b5, b6, b7⟩ := hb
        exact ⟨b1, b2, b3, b4, b5, b6, b7⟩
      cases inp with
      | some x =>
        right
        dsimp only at hloop
        refine ⟨_, live.drop (live.length - h), some x, st1, a1, m1, c1,
          ({ l with zzState := st1 } : Lexer),
          { s with zzAction := a1, zzMarkedPosL := ((pre.length + m1 : Nat) : Int),
                   zzCurrentPosL := ((pre.length + c1 : Nat) : Int) }, pre, live, post,
          h, [], rest, hsplit, (List.append_nil _).symm, rfl, hrun, by rw [hf, hloop], rfl, rfl,
          ⟨hb0, hsb, hse, rfl, rfl, hmc1, by omega⟩, by omega, fun hx => absurd hx (by simp),
          fun _ => hHd, ?_, hcur, rfl, rfl, heof, [], (List.append_nil _).symm⟩
        intro hr
        rcases hgeo hr with hg | hg
        · exact hg
        · exfalso
          rw [hg.1] at hrun
          simp [dfaRun] at hrun
      | none =>
        dsimp only at hloop
        have hc1 : c1 = live.length - h := by
          have := hnone rfl
          omega
        have hinv1 : Inv ({ l with zzState := st1 } : Lexer)
            { s with zzAction := a1, zzMarkedPosL := ((pre.length + m1 : Nat) : Int),
                     zzCurrentPosL := ((pre.length + c1 : Nat) : Int) }
            pre live post h rest m1 c1 :=
          ⟨hb0, hsb, hse, rfl, rfl, hmc1, by omega⟩
        by_cases hrest : rest = []
        · -- the reader is exhausted: the end of input
          subst hrest
          right
          obtain ⟨l7, s7, post7, h1, h2, h3, h4, h5, h6⟩ := loop_end _ _ pre live post h m1 c1
            hinv1 (by omega) heof f
          obtain ⟨e1, e2, _, _, _, _, e7, _, e9, _⟩ := h5
          dsimp only at e1 e2 e7 e9
          refine ⟨_, live.drop (live.length - h), none, st1, a1, m1, c1, l7, s7, [], live, post7,
            0, [], [], hsplit, (List.append_nil _).symm, rfl, hrun, by rw [hf, hloop, h1], ?_,
            h6, h2, by omega, fun _ => ⟨rfl, rfl, rfl, h3⟩, fun hx => absurd rfl hx,
            fun hx => absurd rfl hx, ⟨c1, by omega, by rw [h3]; simp⟩, e2, e9,
            by rw [e7]; exact heof, [], (List.append_nil _).symm⟩
          exact e1
        · -- the reader delivers more
          have hsafe : pre ≠ [] ∨ h = 0 ∨ live.length ≤ c1 + 1 := by
            right
            by_cases h0 : h = 0
            · left; exact h0
            · right; omega
          obtain ⟨post2, l2, r1, r2, r3, r4, r5⟩ := refill_spec _ pre live post h rest m1 c1
            (hb1 ((pre.length + c1 : Nat) : Int) ((pre.length + m1 : Nat) : Int)) rfl rfl
            (by omega) hsafe
          rw [if_neg hrest] at r1
          have hroom := room_pos _ pre live post h rest hb
          have hrl := List.length_pos.mpr hrest
          obtain ⟨e1, e2, _, _, _, _, e7, _, e9, _⟩ := r5
          dsimp only at e1 e2 e7 e9
          have hk : (rest.take (room pre live post h)).length
              = min (room pre live post h) rest.length := List.length_take _ _
          have hroom2 : h = 0 → 2 ≤ room pre live post h := by
            intro h0
            rcases hgeo hrest with hg | hg
            · omega
            · unfold room
              rw [if_neg (fun hx => by omega)]
              omega
          have hlt' : l2.zzCurrentPos < l2.zzEndRead := by
            rw [r4, r2.en]
            simp only [List.length_nil, Nat.zero_add, List.length_append]
            rw [hk]
            split_ifs with hfull
            · by_cases h0 : h = 0
              · have := hroom2 h0
                have := hfull.2
                omega
              · omega
            · by_cases h0 : h = 0
              · omega
              · omega
          have hnlt : ¬ ((pre.length + c1 : Nat) : Int) < s.zzEndReadL := by
            rw [heS]
            omega
          have hmore := loop_refill_more ({ l with zzState := st1 } : Lexer)
            { s with zzAction := a1, zzMarkedPosL := ((pre.length + m1 : Nat) : Int),
                     zzCurrentPosL := ((pre.length + c1 : Nat) : Int) } f l2 hnlt heof r1 hlt'
          dsimp only at hmore
          have hen2 := r2.en
          have hle2 := r2.hle
          have hinv2 : Inv l2 ⟨a1, l2.zzCurrentPos, l2.zzMarkedPos, l2.zzEndRead, l2.zzBuffer⟩
              [] (live ++ rest.take (room pre live post h)) post2
              (if rest ≠ [] ∧ room pre live post h ≤ rest.length then 1 else 0)
              (rest.drop (room pre live post h)) m1 c1 :=
            ⟨r2, rfl, rfl, by simp [r3], by simp [r4], hmc1,
              by rw [List.length_append]; omega⟩
          have hch2 : c1 + (if rest ≠ [] ∧ room pre live post h ≤ rest.length then 1 else 0)
              ≤ (live ++ rest.take (room pre live post h)).length := by
            rw [r4, hen2] at hlt'
            simp only [List.length_nil, Nat.zero_add] at hlt'
            omega
          have hrest2 : (rest.drop (room pre live post h)).length < n := by
            rw [List.length_drop]
            omega
          have hgeo2 : rest.drop (room pre live post h) ≠ [] →
              (if rest ≠ [] ∧ room pre live post h ≤ rest.length then 1 else 0) = 1 ∨
              (live ++ rest.take (room pre live post h) = [] ∧ 2 ≤ post2.length) := by
            intro hne
            left
            have : 0 < (rest.drop (room pre live post h)).length := List.length_pos.mpr hne
            rw [List.length_drop] at this
            rw [if_pos ⟨hrest, by omega⟩]
          have hfuel2 : ((live ++ rest.take (room pre live post h)).length - c1)
              + (rest.drop (room pre live post h)).length < f + 1 := by
            rw [List.length_append, hk, List.length_drop]
            omega
          rcases ih _ hrest2 _ rfl l2 _ [] _ post2 _ m1 c1 (f + 1) hinv2 hch2
            (by rw [e7]; exact heof) hgeo2
            ⟨c1, by rw [List.length_append]; omega, by rw [r4]; simp⟩ hfuel2
            with ⟨V2, l', hv2, hl'⟩ | ⟨V2, Hd2, inp2, st2, a2, m2, c2, l', s', pre', live', post',
              h', t2, rest', g1, g2, g3, g4, g5, g6, g7, g8, g9, g10, g11, g12, g13, g14, g15, g16,
              _⟩
          · left
            rw [e1] at hv2
            dsimp only at hv2
            exact ⟨(live.drop c).take (live.length - h - c) ++ V2, l',
              by rw [dfaRun_append _ V2 _ _ m c st1 a1 m1 c1 hrun]; exact hv2,
              by rw [hf, hloop, hmore, hl']⟩
          · right
            rw [e1] at g4
            dsimp only at g4
            refine ⟨(live.drop c).take (live.length - h - c) ++ V2, Hd2, inp2, st2, a2, m2, c2,
              l', s', pre', live', post', h', rest.take (room pre live post h) ++ t2, rest',
              ?_, by rw [g2, List.append_assoc], ?_, ?_, by rw [hf, hloop, hmore, g5], g6, g7, g8,
              g9, g10, g11, g12, g13, by rw [g14, e2], by rw [g15, e9], g16, V2, rfl⟩
            · -- the text read
              have e3 : live'.drop c = (live'.drop c).take (live.length - h - c)
                  ++ live'.drop c1 := by
                have e : live'.drop c1 = (live'.drop c).drop (live.length - h - c) := by
                  rw [List.drop_drop]
                  congr 1
                  omega
                rw [e, List.take_append_drop]
              have e4 : (live'.drop c).take (live.length - h - c)
                  = (live.drop c).take (live.length - h - c) := by
                rw [g2, List.append_assoc]
                exact drop_take_append live _ c _ (by omega)
              rw [e3, e4, g1, List.append_assoc]
            · rw [List.append_assoc, ← g3, List.take_append_drop]
            · rw [dfaRun_append _ V2 _ _ m c st1 a1 m1 c1 hrun]
              exact g4

/-! ## White space -/

/-- A blank, a tab, a line feed or a carriage return. -/
theorem ws_class (r : Char) (h : r = ' ' ∨ r = '\t' ∨ r = '\n' ∨ r = '\r') :
    inClasses [21, 22] r := by
  rcases h with h | h | h | h <;> subst h
  · exact cmap_range 32 32 _ (by decide!) ' ' (by decide) (by decide)
  · exact cmap_range 9 9 _ (by decide!) '\t' (by decide) (by decide)
  · exact cmap_range 10 10 _ (by decide!) '\n' (by decide) (by decide)
  · exact cmap_range 13 13 _ (by decide!) '\r' (by decide) (by decide)

/-- In `YYINITIAL`, a white-space rune is a token of its own: the state it leads to is
accepting without lookahead. -/
theorem absPass_ws (lt txt tl held : List Char) (r : Char)
    (h : r = ' ' ∨ r = '\t' ∨ r = '\n' ∨ r = '\r') :
    absPass ⟨YYINITIAL, lt, txt, r :: tl, held⟩
      = .token (newLVal [r] .WHITESPACE_OR_COMMENT) ⟨YYINITIAL, lt, [r], tl, held⟩ := by
  obtain ⟨k, hk, hkr⟩ := ws_class r h
  have hall : ∀ j ∈ ([21, 22] : List Nat), trans 0 j = some 22 := by decide!
  have hrun : dfaRun 0 (-1) 0 0 (r :: tl) = some (some r, 22, 22, 1, 1) :=
    dfaRun_final 0 (-1) 0 0 r tl k 22 hkr (hall k hk) (by decide) (by decide!)
  rw [absPass_of_run ⟨YYINITIAL, lt, txt, r :: tl, held⟩ 0 0 (some r) 22 22 1 1 7
    lexstate_initial (attr_start 0 (by decide)) (by simp) hrun (by decide!)]
  simp [absAction, zzActionSwitch, Abs.user, Lexer.zero, newLVal]

/-- The scan of a run of white space in terms of `Abs`: one token for each rune. -/
theorem absScan_ws (ws : List Char) :
    ∀ (n : Nat) (lt txt : List Char), ws.length < n →
      (∀ r ∈ ws, r = ' ' ∨ r = '\t' ∨ r = '\n' ∨ r = '\r') →
      absScan n ⟨YYINITIAL, lt, txt, ws, []⟩
        = some (ws.map (fun r => (some (newLVal [r] .WHITESPACE_OR_COMMENT), [r]))) := by
  induction ws with
  | nil =>
    intro n lt txt hn _
    obtain ⟨k, hk⟩ : ∃ k, n = k + 1 := ⟨n - 1, by simp at hn; omega⟩
    have hp : absPass ⟨YYINITIAL, lt, txt, [], []⟩ = .eof := by
      rw [absPass_end _ 0 0 lexstate_initial (attr_start 0 (by decide)) rfl (Or.inl rfl)]
      show absEof YYINITIAL = .eof
      decide
    rw [hk, absScan, hp]
    rfl
  | cons r tl ih =>
    intro n lt txt hn hws
    obtain ⟨k, hk⟩ : ∃ k, n = k + 1 := ⟨n - 1, by omega⟩
    rw [hk, absScan, absPass_ws lt txt tl [] r (hws r (List.mem_cons_self _ _))]
    dsimp only
    rw [ih k lt [r] (by simp only [List.length_cons] at hn; omega)
      (fun x hx => hws x (List.mem_cons_of_mem _ hx))]
    rfl

/-- The scan of a fresh scanner over a text below the buffer size is the scan in terms
of `Abs`. -/
theorem scan_fresh (text : List Char) (d : Bool) (n fuel : Nat)
    (hlen : text.length < ZZ_BUFFERSIZE) (hfuel : text.length < fuel) :
    (NewLexer (ofRunes text) d).scan (n + 1) fuel
      = absScan (n + 1) ⟨YYINITIAL, [], [], text, []⟩ := by
  have hstart : Abs.start text = ⟨YYINITIAL, [], [], text, []⟩ := by
    unfold Abs.start
    rw [if_neg (by omega)]
  unfold Lexer.scan
  rw [← hstart]
  exact scan_step n fuel _ _ _ (Abs.start text) (fresh_pass text d fuel (by omega) hfuel)
    (by rw [hstart])
    (fun l' a' hs' hh' hl' => sim_scan fuel n l' a' hs' hh'
      (by rw [hstart] at hl'; simp only at hl'; omega))

/-! ## The buffer size and the tokens -/

/-- The length of the matched text of a scanner in the state `a`. -/
theorem sim_yylength (l : Lexer) (a : Abs) (h : Sim l a) :
    l.yylength = (a.txt.length : Int) := by
  obtain ⟨pre, post, c, hb, hm, _⟩ := h
  unfold Lexer.yylength
  rw [hm, hb.st]
  omega

/-- A scanner in a state without a held-back rune has room left in its buffer. -/
theorem sim_buffer_length (l : Lexer) (a : Abs) (h : Sim l a) (hh : a.held = []) :
    (a.txt ++ a.rem).length < l.zzBuffer.length := by
  obtain ⟨pre, post, c, hb, _⟩ := h
  rw [hb.buf, hh]
  rcases hb.hh with h1 | h1
  · rw [hh] at h1
    simp at h1
  · have := List.length_pos.mpr h1.2
    simp only [List.length_append, List.append_nil, List.length_nil]
    omega

/-- After `Reset`, a run of digits that leaves room in the buffer, whatever its size, is
one `INT` token. -/
theorem Yylex_reset_digits (l : Lexer) (ds : List Char) (fuel : Nat) (hne : ds ≠ [])
    (hdig : ∀ x ∈ ds, x.isDigit = true) (hbuf : ds.length < l.zzBuffer.length)
    (hfuel : ds.length < fuel) :
    ((l.Reset (ofRunes ds)).Yylex fuel).1 = .token (newLVal ds .INT) := by
  have hpos := List.length_pos.mpr hne
  have hb : Buf (l.Reset (ofRunes ds)) [] [] l.zzBuffer 0 ds := by
    refine ⟨rfl, rfl, rfl, rfl, le_refl _, Or.inr ⟨rfl, ?_⟩, rfl⟩
    intro h0
    rw [h0] at hbuf
    simp at hbuf
  have hp := lazy_pass (l.Reset (ofRunes ds)) l.zzBuffer ds ⟨YYINITIAL, [], [], ds, []⟩ fuel
    hb rfl rfl rfl rfl hne (by omega) (by omega) rfl (List.append_nil _)
    (by rw [if_neg (by omega)]; rfl) hfuel
  obtain ⟨n, hn⟩ : ∃ n, fuel = n + 1 := ⟨fuel - 1, by omega⟩
  have hs := sim_yyLoop fuel n _ _ _ ⟨YYINITIAL, [], [], ds, []⟩
    (by simpa using hfuel) hp
  rw [absYylex_succ_of_ne_again n _ _ (absPass_digits ds [] [] [] hne hdig) (by simp)] at hs
  unfold Lexer.Yylex
  have e : yyLoop fuel fuel (l.Reset (ofRunes ds)) (l.Reset (ofRunes ds)).zzEndRead
      (l.Reset (ofRunes ds)).zzBuffer
      = yyLoop (n + 1) fuel (l.Reset (ofRunes ds)) (l.Reset (ofRunes ds)).zzEndRead
          (l.Reset (ofRunes ds)).zzBuffer := by rw [← hn]
  rw [e]
  exact hs.1

/-- The first call of `Yylex` on a run of exactly `ZZ_BUFFERSIZE` digits: the token lacks
the last digit, and the buffer has grown beyond `ZZ_BUFFERSIZE`. -/
theorem Yylex_digits_full_state (ds : List Char) (d : Bool) (fuel : Nat)
    (hdig : ∀ x ∈ ds, x.isDigit = true) (hlen : ds.length = ZZ_BUFFERSIZE)
    (hfuel : ds.length < fuel) :
    ((NewLexer (ofRunes ds) d).Yylex fuel).1 = .token (newLVal ds.dropLast .INT) ∧
      ((NewLexer (ofRunes ds) d).Yylex fuel).2.yylength = (ds.length : Int) - 1 ∧
      ds.length < ((NewLexer (ofRunes ds) d).Yylex fuel).2.zzBuffer.length := by
  have hne : ds.dropLast ≠ [] := by
    intro h
    have := congrArg List.length h
    rw [List.length_dropLast, hlen] at this
    simp [ZZ_BUFFERSIZE] at this
  obtain ⟨st', hst', hrun⟩ := dfaRun_digits ds.dropLast hne
    (fun x hx => hdig x (List.mem_of_mem_dropLast hx))
  have hact : (if st' < 0 then some st' else idx ZZ_ACTION st') = some 6 := by
    rcases hst' with h | h <;> subst h <;> decide!
  have h := Yylex_whole_full ds d fuel 6 .INT st' hlen hfuel ⟨st', hrun⟩ hact (by decide)
  refine ⟨h.1, ?_, ?_⟩
  · rw [sim_yylength _ _ h.2]
    simp only [List.length_dropLast]
    have : 0 < ds.length := by rw [hlen]; decide
    omega
  · have := sim_buffer_length _ _ h.2 rfl
    simp only [List.length_append, List.length_dropLast, List.length_drop] at this
    have : 0 < ds.length := by rw [hlen]; decide
    omega

/-! ## The position counters -/

theorem runeLen_ascii (r : Char) (h : r.toNat < 0x80) : utf8.RuneLen r = 1 := by
  unfold utf8.RuneLen
  rw [if_pos (by omega)]

/-- The line and column loop over a text of runes below U+0080 adds `countedBreaks` to
`yyline`. -/
theorem lineColumn_ascii (pre post : List Char) :
    ∀ (rest done : List Char) (n : Nat) (yl yc : Int) (zr : Bool),
      rest.length ≤ n → (∀ r ∈ rest, r.toNat < 0x80) →
      ∃ yc', zzLineColumn n (pre ++ (done ++ rest) ++ post)
          ((pre.length + done.length : Nat) : Int)
          ((pre.length + (done ++ rest).length : Nat) : Int) yl yc zr
        = some (yl + countedBreaks zr rest, yc', endsCR zr rest) := by
  intro rest
  induction rest with
  | nil =>
    intro done n yl yc zr _ _
    refine ⟨yc, ?_⟩
    cases n with
    | zero => simp [zzLineColumn, countedBreaks, endsCR]
    | succ n =>
      simp only [zzLineColumn, List.append_nil]
      rw [if_neg (by omega)]
      simp [countedBreaks, endsCR]
  | cons c cs ih =>
    intro done n yl yc zr hn hascii
    obtain ⟨k, hk⟩ : ∃ k, n = k + 1 := ⟨n - 1, by simp only [List.length_cons] at hn; omega⟩
    subst hk
    have hc := hascii c (List.mem_cons_self _ _)
    have hlt : done.length < (done ++ c :: cs).length := by
      simp only [List.length_append, List.length_cons]; omega
    have hget : (done ++ c :: cs)[done.length]? = some c := by
      rw [List.getElem?_append_right (le_refl _)]
      simp
    have hcond : ((pre.length + done.length : Nat) : Int)
        < ((pre.length + (done ++ c :: cs).length : Nat) : Int) := by omega
    have hnext : ((pre.length + done.length : Nat) : Int) + 1
        = ((pre.length + (done ++ [c]).length : Nat) : Int) := by
      simp only [List.length_append, List.length_singleton]; omega
    have hsplit : done ++ c :: cs = (done ++ [c]) ++ cs := by simp
    have hrec : ∀ yl' yc' zr', ∃ yc'', zzLineColumn k (pre ++ (done ++ c :: cs) ++ post)
          (((pre.length + done.length : Nat) : Int) + 1)
          ((pre.length + (done ++ c :: cs).length : Nat) : Int) yl' yc' zr'
        = some (yl' + countedBreaks zr' cs, yc'', endsCR zr' cs) := by
      intro yl' yc' zr'
      rw [hnext, hsplit]
      exact ih (done ++ [c]) k yl' yc' zr' (by simp only [List.length_cons] at hn; omega)
        (fun r hr => hascii r (List.mem_cons_of_mem _ hr))
    simp only [zzLineColumn]
    rw [if_pos hcond, idx_mid pre (done ++ c :: cs) post done.length hlt, hget]
    simp only []
    rw [runeLen_ascii c hc]
    simp only [countedBreaks, endsCR]
    split_ifs with h1 h2 h3 h4
    · obtain ⟨yc', h⟩ := hrec (yl + 1) 0 false
      refine ⟨yc', ?_⟩
      rw [h]
      have e : decide (c.toNat = 0x0D) = false := by
        rw [decide_eq_false_iff_not]
        omega
      rw [e]
      congr 2
      ring
    · obtain ⟨yc', h⟩ := hrec (yl + 1) 0 true
      refine ⟨yc', ?_⟩
      rw [h]
      have e : decide (c.toNat = 0x0D) = true := by simpa using h2
      rw [e]
      congr 2
      ring
    · obtain ⟨yc', h⟩ := hrec yl yc false
      refine ⟨yc', ?_⟩
      rw [h]
      have e : decide (c.toNat = 0x0D) = false := by simpa using h2
      rw [e]
    · obtain ⟨yc', h⟩ := hrec (yl + 1) 0 false
      refine ⟨yc', ?_⟩
      rw [h]
      have e : decide (c.toNat = 0x0D) = false := by simpa using h2
      rw [e]
      congr 2
      ring
    · obtain ⟨yc', h⟩ := hrec yl (yc + 1) false
      refine ⟨yc', ?_⟩
      rw [h]
      have e : decide (c.toNat = 0x0D) = false := by simpa using h2
      rw [e]

theorem endsCR_iff (cs : List Char) (hne : cs ≠ []) (zr : Bool) :
    endsCR zr cs = true ↔ cs.getLast? = some CR := by
  induction cs generalizing zr with
  | nil => exact absurd rfl hne
  | cons c tl ih =>
    cases tl with
    | nil =>
      simp only [endsCR, List.getLast?_singleton, decide_eq_true_eq, Option.some.injEq]
      constructor
      · intro h; exact toNat_eq_CR c h
      · intro h; rw [h]; exact CR_toNat
    | cons d rest =>
      rw [endsCR, ih (by simp)]
      simp [List.getLast?_cons_cons]

/-- What the loop counts, less the line that the peek takes back, is the number of line
breaks of the text. -/
theorem countedBreaks_eq (next : Option Char) (cs : List Char) :
    ∀ (zr : Bool), cs ≠ [] →
      countedBreaks zr cs
          - (if endsCR zr cs = true ∧ next.map Char.toNat = some 0x0A then 1 else 0)
        = (lineBreaks cs next : Int)
          - (if zr = true ∧ cs.head?.map Char.toNat = some 0x0A then 1 else 0) := by
  induction cs with
  | nil => intro zr h; exact absurd rfl h
  | cons c tl ih =>
    intro zr _
    cases tl with
    | nil =>
      simp only [countedBreaks, endsCR, lineBreaks, breakAt, isLineBreak, List.head?_cons,
        Option.map_some', Option.some.injEq, decide_eq_true_eq, Bool.or_eq_true]
      split_ifs <;> simp_all
    | cons d rest =>
      have h := ih (decide (c.toNat = 0x0D)) (by simp)
      clear ih
      rw [countedBreaks, endsCR, lineBreaks]
      simp only [List.head?_cons, Option.map_some', Option.some.injEq, breakAt, isLineBreak,
        Bool.or_eq_true, decide_eq_true_eq] at h ⊢
      by_cases hcr : c.toNat = 0x0D
      · simp only [hcr, decide_True] at h ⊢
        generalize countedBreaks true (d :: rest) = X at h ⊢
        generalize countedBreaks false (d :: rest) = X0 at h ⊢
        generalize lineBreaks (d :: rest) next = Y at h ⊢
        generalize (if endsCR true (d :: rest) = true ∧ Option.map Char.toNat next = some 10
          then (1 : Int) else 0) = E at h ⊢
        norm_num at h ⊢
        split_ifs at h ⊢ <;> omega
      · simp only [hcr, decide_False] at h ⊢
        generalize countedBreaks true (d :: rest) = X at h ⊢
        generalize countedBreaks false (d :: rest) = X0 at h ⊢
        generalize lineBreaks (d :: rest) next = Y at h ⊢
        generalize (if endsCR false (d :: rest) = true ∧ Option.map Char.toNat next = some 10
          then (1 : Int) else 0) = E at h ⊢
        norm_num at h ⊢
        cases zr <;> simp only [Bool.false_eq_true, false_and, true_and, if_false, if_true]
          <;> split_ifs <;> omega

/-- The buffer of a scanner with `0 ≤ zzStartRead ≤ zzMarkedPos ≤ len(zzBuffer)`: the text
before the match, the matched text and the text after it. -/
theorem buffer_split (l : Lexer) (h1 : 0 ≤ l.zzStartRead) (h2 : l.zzStartRead ≤ l.zzMarkedPos)
    (h3 : l.zzMarkedPos ≤ l.zzBuffer.length) :
    ∃ pre txt post, l.zzBuffer = pre ++ txt ++ post ∧ l.zzStartRead = (pre.length : Int) ∧
      l.zzMarkedPos = ((pre.length + txt.length : Nat) : Int) ∧ l.yytext = some txt ∧
      l.yylength = (txt.length : Int) ∧ post = l.zzBuffer.drop l.zzMarkedPos.toNat := by
  have e1 : (l.zzBuffer.take l.zzStartRead.toNat).length = l.zzStartRead.toNat := by
    rw [List.length_take]; omega
  have e2 : ((l.zzBuffer.drop l.zzStartRead.toNat).take
      (l.zzMarkedPos - l.zzStartRead).toNat).length = (l.zzMarkedPos - l.zzStartRead).toNat := by
    rw [List.length_take, List.length_drop]; omega
  have hbuf : l.zzBuffer = l.zzBuffer.take l.zzStartRead.toNat
      ++ (l.zzBuffer.drop l.zzStartRead.toNat).take (l.zzMarkedPos - l.zzStartRead).toNat
      ++ l.zzBuffer.drop l.zzMarkedPos.toNat := by
    have e3 : l.zzBuffer.drop l.zzMarkedPos.toNat
        = (l.zzBuffer.drop l.zzStartRead.toNat).drop (l.zzMarkedPos - l.zzStartRead).toNat := by
      rw [List.drop_drop]
      congr 1
      omega
    rw [e3, List.append_assoc, List.take_append_drop, List.take_append_drop]
  refine ⟨_, _, _, hbuf, by rw [e1]; omega, by rw [e1, e2]; omega, ?_, ?_, rfl⟩
  · unfold Lexer.yytext slice
    rw [if_pos ⟨h1, h2, h3⟩]
  · unfold Lexer.yylength
    rw [e2]; omega

/-- Bringing the position counters up to date when no refill is needed for the peek: the
buffer fields stay, `yychar` grows by the length of the previous match, and over a text of
runes below U+0080 `yyline` grows by the number of its line breaks. -/
theorem count_fields (l : Lexer) (pre txt post : List Char)
    (hbuf : l.zzBuffer = pre ++ txt ++ post) (hs : l.zzStartRead = (pre.length : Int))
    (hm : l.zzMarkedPos = ((pre.length + txt.length : Nat) : Int))
    (hcase : l.zzMarkedPos < l.zzEndRead ∧ post ≠ [] ∨
      ¬ (l.zzMarkedPos < l.zzEndRead) ∧ l.zzAtEOF = true ∨ txt.getLast? ≠ some CR) :
    ∃ yl yc, zzCount l l.zzEndRead l.zzBuffer
        = .ok { l with yychar := l.yychar + txt.length, yyline := yl, yycolumn := yc }
            l.zzMarkedPos l.zzEndRead l.zzBuffer ∧
      ((∀ r ∈ txt, r.toNat < 0x80) →
        yl = l.yyline
          + lineBreaks txt (if l.zzMarkedPos < l.zzEndRead then post.head? else none)) := by
  have hn : (l.zzMarkedPos - l.zzStartRead).toNat = txt.length := by
    rw [hm, hs]; omega
  have hd : l.zzMarkedPos - l.zzStartRead = (txt.length : Int) := by
    rw [hm, hs]; omega
  obtain ⟨yl, yc, zr, hlc, hzr⟩ := lineColumn_spec pre txt post txt.length 0 l.yyline
    l.yycolumn false (by omega) (by simp)
  have hasc : (∀ r ∈ txt, r.toNat < 0x80) →
      yl = l.yyline + countedBreaks false txt ∧ zr = endsCR false txt := by
    intro ha
    obtain ⟨yc', h⟩ := lineColumn_ascii pre post txt [] txt.length l.yyline l.yycolumn false
      (le_refl _) ha
    simp only [List.nil_append, List.length_nil] at h
    rw [hlc] at h
    simp only [Option.some.injEq, Prod.mk.injEq] at h
    exact ⟨h.1, h.2.2⟩
  have hzero : txt = [] → ∀ nx, (countedBreaks false txt : Int) = lineBreaks txt nx := by
    intro h nx
    rw [h]
    rfl
  unfold zzCount
  dsimp only
  rw [hn, hbuf, hs, hm]
  simp only [Nat.add_zero] at hlc
  rw [hlc]
  dsimp only
  rw [← hbuf, ← hm, ← hs, hd]
  cases zr with
  | false =>
    simp only [Bool.false_eq_true, if_false]
    refine ⟨yl, yc, rfl, fun ha => ?_⟩
    obtain ⟨e1, e2⟩ := hasc ha
    rw [e1]
    by_cases ht : txt = []
    · rw [hzero ht]
    · have := countedBreaks_eq
        (if l.zzMarkedPos < l.zzEndRead then post.head? else none) txt false ht
      rw [← e2] at this
      simp only [Bool.false_eq_true, false_and, if_false, sub_zero] at this
      rw [this]
  | true =>
    simp only [if_true]
    have hcr := hzr rfl
    have hne : txt ≠ [] := by
      intro h0
      rw [h0] at hcr
      simp at hcr
    unfold zzPeekLF
    dsimp only
    rcases hcase with ⟨hlt, hpost⟩ | ⟨hnlt, heof⟩ | hx
    · rw [if_pos hlt]
      obtain ⟨p, ps, hp⟩ : ∃ p ps, post = p :: ps := by
        cases post with
        | nil => exact absurd rfl hpost
        | cons p ps => exact ⟨p, ps, rfl⟩
      have hix : idx l.zzBuffer l.zzMarkedPos = some p := by
        have h1 : pre ++ txt ++ post = (pre ++ txt) ++ post ++ [] := by simp
        have h2 : ((pre.length + txt.length : Nat) : Int)
            = (((pre ++ txt).length + 0 : Nat) : Int) := by
          simp only [List.length_append, Nat.add_zero]
        rw [hbuf, hm, h1, h2, idx_mid (pre ++ txt) post [] 0 (by rw [hp]; simp), hp]
        simp
      rw [hix]
      dsimp only
      refine ⟨if p.toNat = 0x0A then yl - 1 else yl, yc, ?_, fun ha => ?_⟩
      · split_ifs <;> simp_all
      · obtain ⟨e1, e2⟩ := hasc ha
        have := countedBreaks_eq (some p) txt false hne
        rw [← e2] at this
        simp only [Bool.false_eq_true, false_and, if_false, sub_zero, true_and,
          Option.map_some', Option.some.injEq] at this
        rw [if_pos hlt, hp, List.head?_cons, ← this, e1]
        split_ifs <;> omega
    · rw [if_neg hnlt, if_pos heof]
      refine ⟨yl, yc, rfl, fun ha => ?_⟩
      obtain ⟨e1, e2⟩ := hasc ha
      have := countedBreaks_eq none txt false hne
      simp only [Option.map_none', reduceCtorEq, and_false, if_false, sub_zero,
        Bool.false_eq_true, false_and] at this
      rw [if_neg hnlt, ← this, e1]
    · exact absurd hcr hx

/-- The start of a pass when no refill is needed for the peek: the match starts at
`zzMarkedPos`, in the start state of the lexical state. -/
theorem begin_fields (l : Lexer) (pre txt post : List Char) (st0 attr : Int)
    (hbuf : l.zzBuffer = pre ++ txt ++ post) (hs : l.zzStartRead = (pre.length : Int))
    (hm : l.zzMarkedPos = ((pre.length + txt.length : Nat) : Int))
    (hcase : l.zzMarkedPos < l.zzEndRead ∧ post ≠ [] ∨
      ¬ (l.zzMarkedPos < l.zzEndRead) ∧ l.zzAtEOF = true ∨ txt.getLast? ≠ some CR)
    (hst : idx ZZ_LEXSTATE l.zzLexicalState = some st0)
    (hat : idx ZZ_ATTRIBUTE st0 = some attr) :
    ∃ yl yc, zzBegin l l.zzEndRead l.zzBuffer
        = .ready { l with
            yychar := l.yychar + txt.length
            yyline := yl
            yycolumn := yc
            zzCurrentPos := l.zzMarkedPos
            zzStartRead := l.zzMarkedPos
            zzState := st0 }
          ⟨if attr.toNat &&& 1 = 1 then st0 else -1, l.zzMarkedPos, l.zzMarkedPos, l.zzEndRead,
            l.zzBuffer⟩ ∧
      ((∀ r ∈ txt, r.toNat < 0x80) →
        yl = l.yyline
          + lineBreaks txt (if l.zzMarkedPos < l.zzEndRead then post.head? else none)) := by
  obtain ⟨yl, yc, hc, hy⟩ := count_fields l pre txt post hbuf hs hm hcase
  refine ⟨yl, yc, ?_, hy⟩
  unfold zzBegin
  rw [hc]
  dsimp only
  rw [hst]
  dsimp only
  rw [hat]

/-- A rune without a transition from the start state, or with one into a state that
accepts without lookahead, ends the DFA loop at once. -/
theorem loop_first (l : Lexer) (s : Scan) (x : Char) (fuel : Nat)
    (h1 : s.zzCurrentPosL < s.zzEndReadL) (h2 : idx s.zzBufferL s.zzCurrentPosL = some x)
    (h3 : zzNext l.zzState x = some (-1)) :
    zzLoop (fuel + 1) l s
      = .forAction (some x) l { s with zzCurrentPosL := s.zzCurrentPosL + 1 } := by
  simp only [zzLoop]
  rw [zzFetch_buffered l s x h1 h2]
  simp only [zzMove]
  rw [h3]
  simp

/-- A pass whose first rune has no transition from the start state, which is not
accepting, ends in the panic of `zzScanError(ZZ_NO_MATCH)`. -/
theorem pass_no_match (l : Lexer) (fuel : Nat) (x : Char) (st0 attr : Int)
    (h1 : 0 ≤ l.zzStartRead) (h2 : l.zzStartRead ≤ l.zzMarkedPos)
    (h3 : l.zzMarkedPos < l.zzEndRead) (h4 : l.zzEndRead ≤ l.zzBuffer.length)
    (hx : idx l.zzBuffer l.zzMarkedPos = some x)
    (hst : idx ZZ_LEXSTATE l.zzLexicalState = some st0)
    (hat : idx ZZ_ATTRIBUTE st0 = some attr) (hacc : ¬ (attr.toNat &&& 1 = 1))
    (hnext : zzNext st0 x = some (-1)) :
    ∃ l', yyPass (fuel + 1) l l.zzEndRead l.zzBuffer
      = .ret (.panic "Error: could not match input") l' := by
  obtain ⟨pre, txt, post, hbuf, hs, hm, _, _, hpost⟩ := buffer_split l h1 h2 (by omega)
  have hpne : post ≠ [] := by
    rw [hpost]
    intro h0
    have := congrArg List.length h0
    rw [List.length_drop, List.length_nil] at this
    omega
  obtain ⟨yl, yc, hb, _⟩ := begin_fields l pre txt post st0 attr hbuf hs hm
    (Or.inl ⟨h3, hpne⟩) hst hat
  unfold yyPass
  rw [hb]
  dsimp only
  unfold zzRun
  rw [if_neg hacc]
  rw [loop_first _ _ x fuel h3 hx hnext]
  dsimp only
  unfold zzForAction
  dsimp only
  rw [if_neg (fun h => by simp at h)]
  unfold zzDispatch
  dsimp only
  rw [if_pos (by decide)]
  dsimp only
  have hy : ({ l with
      yychar := l.yychar + txt.length
      yyline := yl
      yycolumn := yc
      zzCurrentPos := l.zzMarkedPos
      zzStartRead := l.zzMarkedPos
      zzState := st0
      zzMarkedPos := l.zzMarkedPos } : Lexer).yytext = some [] := by
    unfold Lexer.yytext slice
    dsimp only
    rw [if_pos ⟨by omega, le_refl _, by omega⟩]
    simp
  rw [hy]
  dsimp only
  unfold zzActionSwitch
  dsimp only
  rw [if_pos (by decide)]
  exact ⟨_, by
    have e : zzScanError ZZ_NO_MATCH = "Error: could not match input" := by decide
    rw [e]⟩

/-! ## What a pass leaves alone -/

theorem shifted_refl (l : Lexer) : Shifted l l :=
  ⟨rfl, rfl, rfl, 0, by simp, by simp, by simp⟩

theorem shifted_trans {a b c : Lexer} (h1 : Shifted a b) (h2 : Shifted b c) : Shifted a c := by
  obtain ⟨a1, a2, a3, d, a4, a5, a6⟩ := h1
  obtain ⟨b1, b2, b3, e, b4, b5, b6⟩ := h2
  exact ⟨by rw [b1, a1], by rw [b2, a2], by rw [b3, a3], d + e, by rw [b4, a4]; ring,
    by rw [b5, a5]; ring, by rw [b6, a6]; ring⟩

theorem makeRoom_shifted (l l1 : Lexer)
    (h : zzRefillMakeRoom l = .ok l1 ∨ zzRefillMakeRoom l = .error l1) : Shifted l l1 := by
  unfold zzRefillMakeRoom at h
  split_ifs at h with hS
  · dsimp only at h
    split at h
    · rcases h with h | h
      · simp only [reduceCtorEq] at h
      · simp only [Except.error.injEq] at h
        subst h
        exact ⟨rfl, rfl, rfl, 0, by simp, by simp, by simp⟩
    · rcases h with h | h
      · simp only [Except.ok.injEq] at h
        subst h
        exact ⟨rfl, rfl, rfl, l.zzStartRead, by simp, by simp, by simp⟩
      · simp only [reduceCtorEq] at h
  · rcases h with h | h
    · simp only [Except.ok.injEq] at h
      subst h
      exact shifted_refl l
    · simp only [reduceCtorEq] at h

theorem grow_shifted (l : Lexer) : Shifted l (zzRefillGrow l) := by
  unfold zzRefillGrow
  split_ifs
  · exact ⟨rfl, rfl, rfl, 0, by simp, by simp, by simp⟩
  · exact shifted_refl l

theorem fill_shifted (l : Lexer) : Shifted l (zzRefillFill l).2 := by
  unfold zzRefillFill
  dsimp only
  split
  · exact ⟨rfl, rfl, rfl, 0, by simp, by simp, by simp⟩
  · exact ⟨rfl, rfl, rfl, 0, by simp, by simp, by simp⟩
  · split_ifs
    · exact ⟨rfl, rfl, rfl, 0, by simp, by simp, by simp⟩
    · split
      · exact ⟨rfl, rfl, rfl, 0, by simp, by simp, by simp⟩
      · split_ifs
        · exact ⟨rfl, rfl, rfl, 0, by simp, by simp, by simp⟩
        · exact ⟨rfl, rfl, rfl, 0, by simp, by simp, by simp⟩
    · exact ⟨rfl, rfl, rfl, 0, by simp, by simp, by simp⟩
    · exact ⟨rfl, rfl, rfl, 0, by simp, by simp, by simp⟩

/-- A refill leaves the position counters alone and moves the three positions of the
match back by the same amount. -/
theorem refill_shifted (l : Lexer) : Shifted l l.zzRefill.2 := by
  unfold Lexer.zzRefill
  cases h : zzRefillMakeRoom l with
  | error l1 => exact makeRoom_shifted l l1 (Or.inr h)
  | ok l1 =>
    exact shifted_trans (shifted_trans (makeRoom_shifted l l1 (Or.inl h)) (grow_shifted l1))
      (fill_shifted _)

/-- The start of a pass adds the length of the previous match to `yychar`, and hands on
the marked position of the scanner. -/
theorem count_frame (l : Lexer) (e : Int) (b : List Char) (l1 : Lexer) (m e1 : Int)
    (b1 : List Char) (h : zzCount l e b = .ok l1 m e1 b1) :
    l1.yychar = l.yychar + l.yylength ∧ m = l1.zzMarkedPos := by
  unfold zzCount at h
  dsimp only at h
  split at h
  · simp only [reduceCtorEq] at h
  · rename_i yl yc zr heq
    split_ifs at h
    · unfold zzPeekLF at h
      dsimp only at h
      split_ifs at h
      · split at h
        · simp only [reduceCtorEq] at h
        · simp only [Counted.ok.injEq] at h
          obtain ⟨rfl, rfl, rfl, rfl⟩ := h
          split_ifs <;> exact ⟨rfl, rfl⟩
      · simp only [Counted.ok.injEq] at h
        obtain ⟨rfl, rfl, rfl, rfl⟩ := h
        exact ⟨rfl, rfl⟩
      · have hsh := refill_shifted { l with
            yychar := l.yychar + (l.zzMarkedPos - l.zzStartRead)
            yyline := yl
            yycolumn := yc }
        cases hr : ({ l with
            yychar := l.yychar + (l.zzMarkedPos - l.zzStartRead)
            yyline := yl
            yycolumn := yc } : Lexer).zzRefill with
        | mk r l3 =>
          rw [hr] at h hsh
          obtain ⟨hc, -, -, -⟩ := hsh
          dsimp only at hc
          cases r with
          | fail err => simp only [reduceCtorEq] at h
          | panic msg => simp only [reduceCtorEq] at h
          | eof =>
            simp only [Counted.ok.injEq] at h
            obtain ⟨rfl, rfl, rfl, rfl⟩ := h
            exact ⟨hc, rfl⟩
          | more =>
            dsimp only at h
            split at h
            · simp only [reduceCtorEq] at h
            · simp only [Counted.ok.injEq] at h
              obtain ⟨rfl, rfl, rfl, rfl⟩ := h
              split_ifs
              · exact ⟨hc, rfl⟩
              · exact ⟨hc, rfl⟩
    · simp only [Counted.ok.injEq] at h
      obtain ⟨rfl, rfl, rfl, rfl⟩ := h
      exact ⟨rfl, rfl⟩

/-- The start of a pass: the counters are those of `zzCount`, and the match starts at
the marked position. -/
theorem begin_frame (l : Lexer) (e : Int) (b : List Char) (l4 : Lexer) (s : Scan)
    (h : zzBegin l e b = .ready l4 s) :
    ∃ lc m ec bc, zzCount l e b = .ok lc m ec bc ∧ l4.yychar = l.yychar + l.yylength ∧
      l4.yyline = lc.yyline ∧ l4.yycolumn = lc.yycolumn ∧
      l4.zzStartRead = s.zzMarkedPosL ∧ s.zzCurrentPosL = s.zzMarkedPosL := by
  unfold zzBegin at h
  cases hc : zzCount l e b with
  | fail err l3 => rw [hc] at h; simp only [reduceCtorEq] at h
  | panic msg l3 => rw [hc] at h; simp only [reduceCtorEq] at h
  | ok lc m ec bc =>
    rw [hc] at h
    dsimp only at h
    have hf := count_frame l e b lc m ec bc hc
    split at h
    · simp only [reduceCtorEq] at h
    · split at h
      · simp only [reduceCtorEq] at h
      · simp only [Begun.ready.injEq] at h
        obtain ⟨rfl, rfl⟩ := h
        exact ⟨lc, m, ec, bc, rfl, hf.1, rfl, rfl, rfl, rfl⟩

/-- Fetching a rune leaves the counters alone and keeps the marked and the current
position at or after the start of the match. -/
theorem fetch_frame (l : Lexer) (s : Scan) (l1 : Lexer) (s1 : Scan)
    (h : (∃ x, zzFetch l s = .char x l1 s1) ∨ zzFetch l s = .eof l1 s1) :
    l1.yychar = l.yychar ∧ l1.yyline = l.yyline ∧ l1.yycolumn = l.yycolumn ∧
      (l.zzStartRead ≤ s.zzMarkedPosL → l.zzStartRead ≤ s.zzCurrentPosL →
        l1.zzStartRead ≤ s1.zzMarkedPosL ∧ l1.zzStartRead ≤ s1.zzCurrentPosL) := by
  unfold zzFetch at h
  split_ifs at h with h1 h2
  · split at h
    · rcases h with ⟨x, h⟩ | h <;> simp only [reduceCtorEq] at h
    · rcases h with ⟨x, h⟩ | h
      · simp only [Fetched.char.injEq] at h
        obtain ⟨-, rfl, rfl⟩ := h
        refine ⟨rfl, rfl, rfl, fun a b => ⟨a, ?_⟩⟩
        dsimp only
        omega
      · simp only [reduceCtorEq] at h
  · rcases h with ⟨x, h⟩ | h
    · simp only [reduceCtorEq] at h
    · simp only [Fetched.eof.injEq] at h
      obtain ⟨rfl, rfl⟩ := h
      exact ⟨rfl, rfl, rfl, fun a b => ⟨a, b⟩⟩
  · dsimp only at h
    have hsh := refill_shifted { l with
        zzCurrentPos := s.zzCurrentPosL
        zzMarkedPos := s.zzMarkedPosL }
    cases hr : ({ l with
        zzCurrentPos := s.zzCurrentPosL
        zzMarkedPos := s.zzMarkedPosL } : Lexer).zzRefill with
    | mk r l3 =>
      rw [hr] at h hsh
      obtain ⟨c1, c2, c3, d, d1, d2, d3⟩ := hsh
      dsimp only at c1 c2 c3 d1 d2 d3
      cases r with
      | fail err => rcases h with ⟨x, h⟩ | h <;> simp only [reduceCtorEq] at h
      | panic msg => rcases h with ⟨x, h⟩ | h <;> simp only [reduceCtorEq] at h
      | eof =>
        rcases h with ⟨x, h⟩ | h
        · simp only [reduceCtorEq] at h
        · simp only [Fetched.eof.injEq] at h
          obtain ⟨rfl, rfl⟩ := h
          refine ⟨c1, c2, c3, fun a b => ?_⟩
          dsimp only
          omega
      | more =>
        dsimp only at h
        split at h
        · rcases h with ⟨x, h⟩ | h <;> simp only [reduceCtorEq] at h
        · rcases h with ⟨x, h⟩ | h
          · simp only [Fetched.char.injEq] at h
            obtain ⟨-, rfl, rfl⟩ := h
            refine ⟨c1, c2, c3, fun a b => ?_⟩
            dsimp only
            omega
          · simp only [reduceCtorEq] at h

/-- A transition leaves the counters and the start of the match alone; the marked
position stays or becomes the current position. -/
theorem move_frame (x : Char) (l : Lexer) (s : Scan) (l1 : Lexer) (s1 : Scan)
    (h : zzMove x l s = .next l1 s1 ∨ zzMove x l s = .stop l1 s1) :
    l1.yychar = l.yychar ∧ l1.yyline = l.yyline ∧ l1.yycolumn = l.yycolumn ∧
      l1.zzStartRead = l.zzStartRead ∧ s1.zzCurrentPosL = s.zzCurrentPosL ∧
      (s1.zzMarkedPosL = s.zzMarkedPosL ∨ s1.zzMarkedPosL = s.zzCurrentPosL) := by
  unfold zzMove at h
  split at h
  · rcases h with h | h <;> simp only [reduceCtorEq] at h
  · split_ifs at h
    · rcases h with h | h
      · simp only [reduceCtorEq] at h
      · simp only [Moved.stop.injEq] at h
        obtain ⟨rfl, rfl⟩ := h
        exact ⟨rfl, rfl, rfl, rfl, rfl, Or.inl rfl⟩
    · dsimp only at h
      split at h
      · rcases h with h | h <;> simp only [reduceCtorEq] at h
      · split_ifs at h
        · rcases h with h | h
          · simp only [reduceCtorEq] at h
          · simp only [Moved.stop.injEq] at h
            obtain ⟨rfl, rfl⟩ := h
            exact ⟨rfl, rfl, rfl, rfl, rfl, Or.inr rfl⟩
        · rcases h with h | h
          · simp only [Moved.next.injEq] at h
            obtain ⟨rfl, rfl⟩ := h
            exact ⟨rfl, rfl, rfl, rfl, rfl, Or.inr rfl⟩
          · simp only [reduceCtorEq] at h
        · rcases h with h | h
          · simp only [Moved.next.injEq] at h
            obtain ⟨rfl, rfl⟩ := h
            exact ⟨rfl, rfl, rfl, rfl, rfl, Or.inl rfl⟩
          · simp only [reduceCtorEq] at h

/-- The DFA loop leaves the counters alone, and the marked position it arrives with at
`zzForAction` is at or after the start of the match. -/
theorem loop_frame (fuel : Nat) : ∀ (l : Lexer) (s : Scan) (inp : Option Char) (l1 : Lexer)
    (s1 : Scan), zzLoop fuel l s = .forAction inp l1 s1 →
    l.zzStartRead ≤ s.zzMarkedPosL → l.zzStartRead ≤ s.zzCurrentPosL →
    l1.yychar = l.yychar ∧ l1.yyline = l.yyline ∧ l1.yycolumn = l.yycolumn ∧
      l1.zzStartRead ≤ s1.zzMarkedPosL := by
  induction fuel with
  | zero =>
    intro l s inp l1 s1 h
    simp only [zzLoop, reduceCtorEq] at h
  | succ n ih =>
    intro l s inp l1 s1 h hm hc
    simp only [zzLoop] at h
    cases hf : zzFetch l s with
    | fail err l2 => rw [hf] at h; simp only [reduceCtorEq] at h
    | panic msg l2 => rw [hf] at h; simp only [reduceCtorEq] at h
    | eof l2 s2 =>
      rw [hf] at h
      simp only [LoopExit.forAction.injEq] at h
      obtain ⟨-, rfl, rfl⟩ := h
      obtain ⟨a1, a2, a3, a4⟩ := fetch_frame l s l2 s2 (Or.inr hf)
      exact ⟨a1, a2, a3, (a4 hm hc).1⟩
    | char x l2 s2 =>
      rw [hf] at h
      dsimp only at h
      obtain ⟨a1, a2, a3, a4⟩ := fetch_frame l s l2 s2 (Or.inl ⟨x, hf⟩)
      obtain ⟨a5, a6⟩ := a4 hm hc
      cases hmv : zzMove x l2 s2 with
      | panic msg l3 => rw [hmv] at h; simp only [reduceCtorEq] at h
      | stop l3 s3 =>
        rw [hmv] at h
        simp only [LoopExit.forAction.injEq] at h
        obtain ⟨-, rfl, rfl⟩ := h
        obtain ⟨b1, b2, b3, b4, b5, b6⟩ := move_frame x l2 s2 l3 s3 (Or.inr hmv)
        refine ⟨by rw [b1, a1], by rw [b2, a2], by rw [b3, a3], ?_⟩
        rcases b6 with b6 | b6 <;> omega
      | next l3 s3 =>
        rw [hmv] at h
        dsimp only at h
        obtain ⟨b1, b2, b3, b4, b5, b6⟩ := move_frame x l2 s2 l3 s3 (Or.inl hmv)
        obtain ⟨c1, c2, c3, c4⟩ := ih l3 s3 inp l1 s1 h (by rcases b6 with b6 | b6 <;> omega)
          (by omega)
        exact ⟨by rw [c1, b1, a1], by rw [c2, b2, a2], by rw [c3, b3, a3], c4⟩

/-- The end-of-input switch writes the lexical state only. -/
theorem eofSwitch_frame (l : Lexer) (s : Scan) :
    (∃ r u, zzEofSwitch l s = .ret r u ∧ u = { l with zzLexicalState := u.zzLexicalState }) ∨
    (∃ u e b, zzEofSwitch l s = .again u e b ∧ u = l) := by
  unfold zzEofSwitch
  dsimp only
  by_cases h0 : l.zzLexicalState = xc
  · rw [if_pos h0]
    exact Or.inl ⟨_, _, rfl, rfl⟩
  rw [if_neg h0]
  by_cases h1 : l.zzLexicalState = 105
  · rw [if_pos h1]
    exact Or.inr ⟨_, _, _, rfl, rfl⟩
  rw [if_neg h1]
  by_cases h2 : l.zzLexicalState = xq
  · rw [if_pos h2]
    exact Or.inl ⟨_, _, rfl, rfl⟩
  rw [if_neg h2]
  by_cases h3 : l.zzLexicalState = 106
  · rw [if_pos h3]
    exact Or.inr ⟨_, _, _, rfl, rfl⟩
  rw [if_neg h3]
  by_cases h4 : l.zzLexicalState = xdq
  · rw [if_pos h4]
    exact Or.inl ⟨_, _, rfl, rfl⟩
  rw [if_neg h4]
  by_cases h5 : l.zzLexicalState = 107
  · rw [if_pos h5]
    exact Or.inr ⟨_, _, _, rfl, rfl⟩
  rw [if_neg h5]
  by_cases h6 : l.zzLexicalState = xbin
  · rw [if_pos h6]
    exact Or.inl ⟨_, _, rfl, rfl⟩
  rw [if_neg h6]
  by_cases h7 : l.zzLexicalState = 108
  · rw [if_pos h7]
    exact Or.inr ⟨_, _, _, rfl, rfl⟩
  rw [if_neg h7]
  by_cases h8 : l.zzLexicalState = xhex
  · rw [if_pos h8]
    exact Or.inl ⟨_, _, rfl, rfl⟩
  rw [if_neg h8]
  by_cases h9 : l.zzLexicalState = 109
  · rw [if_pos h9]
    exact Or.inr ⟨_, _, _, rfl, rfl⟩
  rw [if_neg h9]
  by_cases h10 : l.zzLexicalState = xq2
  · rw [if_pos h10]
    exact Or.inl ⟨_, _, rfl, rfl⟩
  rw [if_neg h10]
  by_cases h11 : l.zzLexicalState = 110
  · rw [if_pos h11]
    exact Or.inr ⟨_, _, _, rfl, rfl⟩
  rw [if_neg h11]
  by_cases h12 : l.zzLexicalState = xq2_2
  · rw [if_pos h12]
    exact Or.inl ⟨_, _, rfl, rfl⟩
  rw [if_neg h12]
  by_cases h13 : l.zzLexicalState = 111
  · rw [if_pos h13]
    exact Or.inr ⟨_, _, _, rfl, rfl⟩
  rw [if_neg h13]
  exact Or.inl ⟨_, _, rfl, rfl⟩

/-- The code at `zzForAction` leaves the counters and the start of the match alone and
stores the marked position. -/
theorem forAction_frame (inp : Option Char) (l : Lexer) (s : Scan) (l1 : Lexer)
    (h : (∃ r, zzForAction inp l s = .ret r l1) ∨ ∃ e b, zzForAction inp l s = .again l1 e b) :
    l1.yychar = l.yychar ∧ l1.yyline = l.yyline ∧ l1.yycolumn = l.yycolumn ∧
      l1.zzStartRead = l.zzStartRead ∧ l1.zzMarkedPos = s.zzMarkedPosL := by
  unfold zzForAction at h
  dsimp only at h
  split_ifs at h
  · rcases eofSwitch_frame { l with zzMarkedPos := s.zzMarkedPosL, zzAtEOF := true } s with
      ⟨r0, u, h0, hu⟩ | ⟨u, e0, b0, h0, hu⟩
    · rw [h0] at h
      rcases h with ⟨r, h⟩ | ⟨e, b, h⟩
      · simp only [Pass.ret.injEq] at h
        obtain ⟨-, rfl⟩ := h
        rw [hu]
        exact ⟨rfl, rfl, rfl, rfl, rfl⟩
      · simp only [reduceCtorEq] at h
    · rw [h0] at h
      rcases h with ⟨r, h⟩ | ⟨e, b, h⟩
      · simp only [reduceCtorEq] at h
      · simp only [Pass.again.injEq] at h
        obtain ⟨rfl, -, -⟩ := h
        rw [hu]
        exact ⟨rfl, rfl, rfl, rfl, rfl⟩
  · unfold zzDispatch at h
    dsimp only at h
    split at h
    · rcases h with ⟨r, h⟩ | ⟨e, b, h⟩
      · simp only [Pass.ret.injEq] at h
        obtain ⟨-, rfl⟩ := h
        exact ⟨rfl, rfl, rfl, rfl, rfl⟩
      · simp only [reduceCtorEq] at h
    · split at h
      · rcases h with ⟨r, h⟩ | ⟨e, b, h⟩
        · simp only [Pass.ret.injEq] at h
          obtain ⟨-, rfl⟩ := h
          exact ⟨rfl, rfl, rfl, rfl, rfl⟩
        · simp only [reduceCtorEq] at h
      · rename_i x1 action x2 x3 text x4
        rw [actionSwitch_frame action text { l with zzMarkedPos := s.zzMarkedPosL } s
          ⟨l.zzLexicalState, l.ltstr, [], [], []⟩ rfl rfl] at h
        split at h
        · rcases h with ⟨r, h⟩ | ⟨e, b, h⟩
          · simp only [Pass.ret.injEq] at h
            obtain ⟨-, rfl⟩ := h
            exact ⟨rfl, rfl, rfl, rfl, rfl⟩
          · simp only [reduceCtorEq] at h
        · rcases h with ⟨r, h⟩ | ⟨e, b, h⟩
          · simp only [reduceCtorEq] at h
          · simp only [Pass.again.injEq] at h
            obtain ⟨rfl, -, -⟩ := h
            exact ⟨rfl, rfl, rfl, rfl, rfl⟩

/-- A pass that ends with a token, with the end-of-input signal or back at the top of the
outer loop has added the length of the previous match to `yychar`, has the line and the
column that `zzCount` worked out, and leaves a match of a length that is not negative. -/
theorem pass_frame (fuel : Nat) (l : Lexer) (e : Int) (b : List Char) (l1 : Lexer)
    (h : (∃ v, yyPass fuel l e b = .ret (.token v) l1) ∨ yyPass fuel l e b = .ret .eof l1 ∨
      ∃ e1 b1, yyPass fuel l e b = .again l1 e1 b1) :
    ∃ lc m ec bc, zzCount l e b = .ok lc m ec bc ∧ l1.yychar = l.yychar + l.yylength ∧
      l1.yyline = lc.yyline ∧ l1.yycolumn = lc.yycolumn ∧ 0 ≤ l1.yylength := by
  unfold yyPass at h
  cases hb : zzBegin l e b with
  | fail err l2 =>
    rw [hb] at h
    rcases h with ⟨v, h⟩ | h | ⟨e1, b1, h⟩ <;> simp only [Pass.ret.injEq, reduceCtorEq, false_and] at h
  | panic msg l2 =>
    rw [hb] at h
    rcases h with ⟨v, h⟩ | h | ⟨e1, b1, h⟩ <;> simp only [Pass.ret.injEq, reduceCtorEq, false_and] at h
  | ready l4 s =>
    rw [hb] at h
    dsimp only at h
    obtain ⟨lc, m, ec, bc, hc, a1, a2, a3, a4, a5⟩ := begin_frame l e b l4 s hb
    refine ⟨lc, m, ec, bc, hc, ?_⟩
    unfold zzRun at h
    cases hl : zzLoop fuel l4 s with
    | fail err l5 =>
      rw [hl] at h
      rcases h with ⟨v, h⟩ | h | ⟨e1, b1, h⟩ <;>
        simp only [Pass.ret.injEq, reduceCtorEq, false_and] at h
    | panic msg l5 =>
      rw [hl] at h
      rcases h with ⟨v, h⟩ | h | ⟨e1, b1, h⟩ <;>
        simp only [Pass.ret.injEq, reduceCtorEq, false_and] at h
    | timeout l5 =>
      rw [hl] at h
      rcases h with ⟨v, h⟩ | h | ⟨e1, b1, h⟩ <;>
        simp only [Pass.ret.injEq, reduceCtorEq, false_and] at h
    | forAction inp l5 s5 =>
      rw [hl] at h
      dsimp only at h
      obtain ⟨b1, b2, b3, b4⟩ := loop_frame fuel l4 s inp l5 s5 hl (by omega) (by omega)
      have hfa : (∃ r, zzForAction inp l5 s5 = .ret r l1) ∨
          ∃ e b, zzForAction inp l5 s5 = .again l1 e b := by
        rcases h with ⟨v, h⟩ | h | ⟨e1, b1, h⟩
        · exact Or.inl ⟨_, h⟩
        · exact Or.inl ⟨_, h⟩
        · exact Or.inr ⟨_, _, h⟩
      obtain ⟨c1, c2, c3, c4, c5⟩ := forAction_frame inp l5 s5 l1 hfa
      refine ⟨by rw [c1, b1, a1], by rw [c2, b2, a2], by rw [c3, b3, a3], ?_⟩
      unfold Lexer.yylength
      omega

/-! ## The end-of-input signal in `YYINITIAL` -/

/-- A pass of a scanner in `YYINITIAL` whose reader is exhausted and that has no text left
to match returns the end-of-input signal and leaves the scanner at the end. -/
theorem eof_pass (l : Lexer) (a : Abs) (fuel : Nat) (hsim : Sim l a) (hrem : a.rem = [])
    (hheld : a.held = []) (hlex : a.lex = YYINITIAL) :
    ∃ l', yyPass (fuel + 1) l l.zzEndRead l.zzBuffer = .ret .eof l' ∧ AtEnd l' ∧
      l'.zzReader = [] := by
  have hg : ¬ (a.held ≠ [] ∧ a.rem = [] ∧ a.txt.getLast? = some CR) := fun h => h.1 hheld
  obtain ⟨l3, hcount, hsim3⟩ := count_spec l a hsim hg
  obtain ⟨pre, post, c, hb, hm, hc, hcl, heof, hlex3, hlt⟩ := hsim3
  unfold yyPass zzBegin
  rw [hcount]
  dsimp only
  have hx : idx ZZ_LEXSTATE l3.zzLexicalState = some 0 := by
    rw [hlex3, hlex]; exact lexstate_initial
  rw [hx]
  dsimp only
  rw [attr_start 0 (by decide)]
  dsimp only
  have hinv : Inv { l3 with
        zzCurrentPos := l3.zzMarkedPos
        zzStartRead := l3.zzMarkedPos
        zzState := 0 }
      ⟨if (0 : Int).toNat &&& 1 = 1 then 0 else -1, l3.zzMarkedPos, l3.zzMarkedPos,
        l3.zzEndRead, l3.zzBuffer⟩ (pre ++ a.txt) [] post 0 [] 0 0 := by
    refine ⟨⟨?_, ?_, ?_, ?_, le_refl _, ?_, hb.rd⟩, rfl, rfl, ?_, ?_, le_refl _, le_refl _⟩
    · show l3.zzBuffer = _
      rw [hb.buf, hrem, hheld]
      simp only [List.append_nil]
    · show l3.zzMarkedPos = _
      rw [hm]; simp
    · show l3.zzEndRead = _
      rw [hb.en, hrem, hheld]
      simp
    · show l3.zzFinalHighSurrogate = _
      rw [hb.fhs, hheld]; rfl
    · have := hb.hh
      rw [hheld] at this
      exact this
    · show l3.zzMarkedPos = _
      rw [hm]; simp
    · show l3.zzMarkedPos = _
      rw [hm]; simp
  obtain ⟨l', s', post', hloop, hinv', hC, hM, hsame, hact⟩ :=
    loop_end _ _ (pre ++ a.txt) [] post 0 0 0 hinv (by simp) heof fuel
  unfold zzRun
  rw [hloop]
  dsimp only
  have hS : l'.zzStartRead = 0 := by rw [hinv'.b.st]; rfl
  have hC0 : l'.zzCurrentPos = 0 := by rw [hC]; rfl
  have hlx : l'.zzLexicalState = YYINITIAL := by
    rw [hsame.2.1]
    show l3.zzLexicalState = _
    rw [hlex3, hlex]
  unfold zzForAction
  dsimp only
  rw [if_pos ⟨rfl, by rw [hS, hC0]⟩]
  rw [eofSwitch_spec _ s' 0 (by show idx ZZ_LEXSTATE l'.zzLexicalState = _
                                rw [hlx]; exact lexstate_initial)]
  have he : absEof l'.zzLexicalState = .eof := by rw [hlx]; rfl
  dsimp only
  rw [he]
  refine ⟨_, rfl, ⟨rfl, ?_, ?_, hlx⟩, ?_⟩
  · show l'.zzStartRead = s'.zzMarkedPosL
    rw [hS, hinv'.hm]; rfl
  · show ¬ (s'.zzMarkedPosL < l'.zzEndRead)
    rw [hinv'.hm, hinv'.b.en]
    simp
  · show l'.zzReader = []
    rw [hinv'.b.rd]; rfl

/-- A call of `Yylex` on a scanner at the end returns the end-of-input signal again,
leaves the scanner at the end and does not touch the reader. -/
theorem eof_again (l : Lexer) (fuel : Nat) (h : AtEnd l) :
    ∃ l', l.Yylex (fuel + 1) = (.eof, l') ∧ AtEnd l' ∧ l'.zzReader = l.zzReader := by
  obtain ⟨h1, h2, h3, h4⟩ := h
  have hz : (l.zzMarkedPos - l.zzStartRead).toNat = 0 := by omega
  unfold Lexer.Yylex
  simp only [yyLoop]
  unfold yyPass zzBegin zzCount
  dsimp only
  rw [hz]
  simp only [zzLineColumn, Bool.false_eq_true, if_false]
  have hx : idx ZZ_LEXSTATE l.zzLexicalState = some 0 := by
    rw [h4]; exact lexstate_initial
  rw [hx]
  dsimp only
  rw [attr_start 0 (by decide)]
  dsimp only
  unfold zzRun
  simp only [zzLoop]
  unfold zzFetch
  dsimp only
  rw [if_neg h3, if_pos h1]
  dsimp only
  unfold zzForAction
  dsimp only
  rw [if_pos ⟨rfl, rfl⟩]
  rw [eofSwitch_spec _ _ 0 (by show idx ZZ_LEXSTATE l.zzLexicalState = _
                               rw [h4]; exact lexstate_initial)]
  have he : absEof l.zzLexicalState = .eof := by rw [h4]; rfl
  dsimp only
  rw [he]
  exact ⟨_, rfl, ⟨rfl, rfl, h3, h4⟩, rfl⟩

/-! ## The DFA inside a comment -/

/-- The transitions of the DFA states of the lexical state `xc`: class 3 is the slash,
class 4 the star. -/
theorem xc_rows : ∀ k ∈ List.range 32,
    trans 1 k = some (if k = 3 then 27 else if k = 4 then 28 else 26) ∧
    trans 26 k = some (if k = 3 ∨ k = 4 then -1 else 26) ∧
    trans 27 k = some (if k = 4 then 58 else -1) ∧
    trans 28 k = some (if k = 3 then 59 else if k = 4 then 60 else -1) ∧
    trans 60 k = some (if k = 3 then 59 else if k = 4 then 60 else -1) := by
  decide!

theorem xc_attrs : idx ZZ_ATTRIBUTE 26 = some 1 ∧ idx ZZ_ATTRIBUTE 27 = some 1 ∧
    idx ZZ_ATTRIBUTE 28 = some 1 ∧ idx ZZ_ATTRIBUTE 58 = some 9 ∧
    idx ZZ_ATTRIBUTE 59 = some 9 ∧ idx ZZ_ATTRIBUTE 60 = some 0 := by
  decide!

/-- The class of a rune, as far as the DFA of `xc` tells classes apart. -/
theorem xc_class (x : Char) :
    ∃ k, cmap x = some k ∧ k ∈ List.range 32 ∧ (k = 3 ↔ x = '/') ∧ (k = 4 ↔ x = '*') := by
  obtain ⟨k, hk, hlt, -, -, h3, h4, -, -⟩ := cmap_cases x
  refine ⟨k, hk, List.mem_range.mpr hlt, ?_, ?_⟩
  · rw [h3]
    constructor
    · intro h; exact toNat_eq_ofNat x 47 (by decide) h
    · intro h; rw [h]; decide
  · rw [h4]
    constructor
    · intro h; exact toNat_eq_ofNat x 42 (by decide) h
    · intro h; rw [h]; decide

theorem open_rows : trans 0 3 = some 12 ∧ trans 12 4 = some 43 ∧
    idx ZZ_ATTRIBUTE 12 = some 1 ∧ idx ZZ_ATTRIBUTE 43 = some 9 ∧
    idx ZZ_ACTION 43 = some 23 ∧ cmap '/' = some 3 ∧ cmap '*' = some 4 := by
  decide!

/-- The DFA run of `YYINITIAL` over a text that begins with `/*` stops behind the star,
in the state of the rule that opens a comment. -/
theorem run_open (xs : List Char) :
    dfaRun 0 (-1) 0 0 ('/' :: '*' :: xs) = some (some '*', 43, 43, 2, 2) := by
  obtain ⟨t1, t2, a1, a2, -, c1, c2⟩ := open_rows
  rw [dfaRun_accept 0 (-1) 0 0 '/' ('*' :: xs) 3 12 c1 t1 (by decide) a1,
    dfaRun_final 12 12 1 1 '*' xs 4 43 c2 t2 (by decide) a2]

/-- A pass that goes back to the top of the outer loop is followed by the next pass. -/
theorem yyLoop_again (passes fuel : Nat) (l : Lexer) (e : Int) (b : List Char) (l1 : Lexer)
    (e1 : Int) (b1 : List Char) (h : yyPass fuel l e b = .again l1 e1 b1) :
    yyLoop (passes + 1) fuel l e b = yyLoop passes fuel l1 e1 b1 := by
  simp only [yyLoop]
  rw [h]

/-- The read loop of `zzRefill` over a reader that first delivers the text `t`: the text
is written behind the prefix `a` of the buffer, and the loop goes on with the rest of the
reader. -/
theorem refillRead_runes (t : List Char) : ∀ (rd : RuneReader) (a b : List Char) (j k : Nat),
    t.length ≤ b.length →
    zzRefillRead (t.length + k) (ofRunes t ++ rd) (a ++ b) (a.length : Int) (j : Int)
      = zzRefillRead k rd (a ++ t ++ b.drop t.length) ((a.length + t.length : Nat) : Int)
          ((j + t.length : Nat) : Int) := by
  induction t with
  | nil =>
    intro rd a b j k _
    simp [ofRunes]
  | cons r t ih =>
    intro rd a b j k hn
    cases b with
    | nil => simp at hn
    | cons b0 b =>
      have hlen : (0 : Int) ≤ (a.length : Int) ∧
          (a.length : Int) < ((a ++ b0 :: b).length : Int) := by
        simp only [List.length_append, List.length_cons]
        omega
      have e1 : (r :: t).length + k = (t.length + k) + 1 := by
        simp only [List.length_cons]
        omega
      rw [e1, ofRunes_cons, List.cons_append]
      simp only [zzRefillRead]
      rw [if_pos hlen]
      have hset : (a ++ b0 :: b).set (a.length : Int).toNat r = (a ++ [r]) ++ b := by
        simp [List.set_append_right]
      have hidx : (a.length : Int) + 1 = ((a ++ [r]).length : Int) := by simp
      have hj : (j : Int) + 1 = ((j + 1 : Nat) : Int) := by simp
      rw [hset, hidx, hj, ih rd (a ++ [r]) b (j + 1) k (by simpa using hn)]
      have e2 : (a ++ [r]).length + t.length = a.length + (r :: t).length := by
        simp only [List.length_append, List.length_cons, List.length_nil]
        omega
      have e3 : j + 1 + t.length = j + (r :: t).length := by
        simp only [List.length_cons]
        omega
      rw [e2, e3]
      simp only [List.drop_succ_cons, List.append_assoc, List.singleton_append,
        List.length_cons]

/-- A refill that needs no room and finds as many runes as the buffer has free places:
the runes are written behind the text read so far, and the last of them is held back. -/
theorem refill_fills (l : Lexer) (a b t : List Char) (rd : RuneReader) (hne : t ≠ [])
    (hbuf : l.zzBuffer = a ++ b) (hbt : b.length = t.length) (hs : l.zzStartRead = 0)
    (he : l.zzEndRead = (a.length : Int)) (hf : l.zzFinalHighSurrogate = 0)
    (hc : l.zzCurrentPos < ((a ++ b).length : Int)) (hrd : l.zzReader = ofRunes t ++ rd) :
    ∃ l2, l.zzRefill = (.more, l2) ∧ l2.zzBuffer = a ++ t ∧
      l2.zzEndRead = ((a.length + t.length - 1 : Nat) : Int) ∧ l2.zzFinalHighSurrogate = 1 ∧
      l2.zzStartRead = 0 ∧ l2.zzCurrentPos = l.zzCurrentPos ∧
      l2.zzMarkedPos = l.zzMarkedPos ∧ l2.zzReader = rd ∧ Same l l2 := by
  have hmr : zzRefillMakeRoom l = .ok l := by
    unfold zzRefillMakeRoom
    have : ¬ (l.zzStartRead > 0) := by omega
    rw [if_neg this]
  have hgrow : zzRefillGrow l = l := by
    unfold zzRefillGrow
    have : ¬ (l.zzCurrentPos ≥ (l.zzBuffer.length : Int) - l.zzFinalHighSurrogate) := by
      rw [hbuf, hf]
      omega
    rw [if_neg this]
  have htl := List.length_pos.mpr hne
  have hreq : ((l.zzBuffer.length : Int) - l.zzEndRead).toNat = t.length + 0 := by
    rw [hbuf, he, List.length_append]
    omega
  have hread := refillRead_runes t rd a b 0 0 (by omega)
  have hdrop : b.drop t.length = [] := by
    rw [← hbt]
    exact List.drop_length b
  rw [hdrop, List.append_nil] at hread
  simp only [zzRefillRead, Nat.cast_zero] at hread
  unfold Lexer.zzRefill
  rw [hmr]
  dsimp only
  rw [hgrow]
  unfold zzRefillFill
  dsimp only
  rw [hreq, hrd, hbuf, he, hread]
  dsimp only
  have hne0 : ¬ (((0 + t.length : Nat) : Int) = 0) := by omega
  have hpos : ((0 + t.length : Nat) : Int) > 0 := by omega
  have heq : ((0 + t.length : Nat) : Int) = ((a ++ b).length : Int) - (a.length : Int) := by
    rw [List.length_append]
    omega
  rw [if_neg hne0, if_pos hpos, if_pos heq]
  have hix : (a.length : Int) + ((0 + t.length : Nat) : Int) - 1
      = ((a.length + (t.length - 1) : Nat) : Int) := by omega
  obtain ⟨r, hr⟩ : ∃ r, idx (a ++ t) ((a.length + (t.length - 1) : Nat) : Int) = some r := by
    have := idx_mid ([] : List Char) (a ++ t) [] (a.length + (t.length - 1))
      (by rw [List.length_append]; omega)
    simp only [List.nil_append, List.append_nil, List.length_nil, Nat.zero_add] at this
    rw [this]
    have hlt : a.length + (t.length - 1) < (a ++ t).length := by
      rw [List.length_append]
      omega
    exact ⟨_, List.getElem?_eq_getElem hlt⟩
  simp only [hix, hr, validRune_eq_true, if_true]
  refine ⟨_, rfl, rfl, ?_, rfl, hs, rfl, rfl, rfl, ?_⟩
  · show ((a.length + (t.length - 1) : Nat) : Int) = _
    omega
  · simp [Same]

/-- A refill that moves the text to the front of the buffer and whose first read fails:
the text has moved, the rune held back is counted as read again, and nothing is read. -/
theorem refill_fails (l : Lexer) (pre live : List Char) (m c : Nat) (e : String)
    (rd : RuneReader) (hpre : pre ≠ []) (hlive : live ≠ [])
    (hbuf : l.zzBuffer = pre ++ live) (hs : l.zzStartRead = (pre.length : Int))
    (he : l.zzEndRead + l.zzFinalHighSurrogate = ((pre.length + live.length : Nat) : Int))
    (hm : l.zzMarkedPos = ((pre.length + m : Nat) : Int))
    (hc : l.zzCurrentPos = ((pre.length + c : Nat) : Int)) (hcl : c ≤ live.length)
    (hrd : l.zzReader = RuneRead.fail e :: rd) :
    ∃ l2, l.zzRefill = (.fail e, l2) ∧
      l2.zzBuffer = live ++ (pre ++ live).drop live.length ∧
      l2.zzEndRead = (live.length : Int) ∧ l2.zzFinalHighSurrogate = 0 ∧
      l2.zzStartRead = 0 ∧ l2.zzCurrentPos = (c : Int) ∧ l2.zzMarkedPos = (m : Int) ∧
      l2.zzReader = rd ∧ Same l l2 := by
  have hprelen := List.length_pos.mpr hpre
  have hll := List.length_pos.mpr hlive
  have hmr : zzRefillMakeRoom l = .ok { l with
      zzBuffer := live ++ (pre ++ live).drop live.length
      zzFinalHighSurrogate := 0
      zzEndRead := (live.length : Int)
      zzCurrentPos := (c : Int)
      zzMarkedPos := (m : Int)
      zzStartRead := 0 } := by
    unfold zzRefillMakeRoom
    have hpos : l.zzStartRead > 0 := by rw [hs]; omega
    rw [if_pos hpos]
    simp only [he, hs, hbuf, hm, hc]
    have hd : ((pre.length + live.length : Nat) : Int) - (pre.length : Int)
        = (live.length : Int) := by omega
    rw [hd]
    have hgt : (live.length : Int) > 0 := by omega
    rw [if_pos hgt]
    have hs1 : slice (pre ++ live) 0 (live.length : Int)
        = some ((pre ++ live).take live.length) := by
      unfold slice
      have : (0 : Int) ≤ 0 ∧ (0 : Int) ≤ (live.length : Int) ∧
          (live.length : Int) ≤ ((pre ++ live).length : Int) := by
        simp only [List.length_append]
        omega
      rw [if_pos this]
      simp
    have hs2 := slice_mid pre live [] live.length (le_refl _)
    rw [List.take_length, List.append_nil] at hs2
    rw [hs1, hs2]
    simp
  have hgrow : ∀ l1 : Lexer, l1.zzCurrentPos = (c : Int) →
      l1.zzBuffer = live ++ (pre ++ live).drop live.length →
      l1.zzFinalHighSurrogate = 0 → zzRefillGrow l1 = l1 := by
    intro l1 e1 e2 e3
    unfold zzRefillGrow
    have : ¬ (l1.zzCurrentPos ≥ (l1.zzBuffer.length : Int) - l1.zzFinalHighSurrogate) := by
      rw [e1, e2, e3]
      simp only [List.length_append, List.length_drop]
      omega
    rw [if_neg this]
  have hreq : ∃ k, (((live ++ (pre ++ live).drop live.length).length : Int)
      - (live.length : Int)).toNat = k + 1 := by
    refine ⟨pre.length - 1, ?_⟩
    simp only [List.length_append, List.length_drop]
    omega
  obtain ⟨k, hk⟩ := hreq
  unfold Lexer.zzRefill
  rw [hmr]
  dsimp only
  rw [hgrow _ rfl rfl rfl]
  unfold zzRefillFill
  dsimp only
  rw [hk, hrd]
  simp only [zzRefillRead]
  refine ⟨_, rfl, rfl, rfl, rfl, rfl, rfl, rfl, rfl, ?_⟩
  simp [Same]

/-- Fetching the next input character when the buffered text is used up and the refill
delivers: the rune at the current position is read, wherever `zzEndRead` is. -/
theorem fetch_refilled (l : Lexer) (s : Scan) (l2 : Lexer) (x : Char)
    (h1 : ¬ (s.zzCurrentPosL < s.zzEndReadL)) (h2 : l.zzAtEOF = false)
    (h3 : ({ l with zzCurrentPos := s.zzCurrentPosL, zzMarkedPos := s.zzMarkedPosL } :
      Lexer).zzRefill = (.more, l2))
    (h4 : idx l2.zzBuffer l2.zzCurrentPos = some x) :
    zzFetch l s = .char x l2 { s with
      zzCurrentPosL := l2.zzCurrentPos + 1
      zzMarkedPosL := l2.zzMarkedPos
      zzBufferL := l2.zzBuffer
      zzEndReadL := l2.zzEndRead } := by
  have hne : ¬ (l.zzAtEOF = true) := by rw [h2]; simp
  unfold zzFetch
  dsimp only
  rw [if_neg h1, if_neg hne, h3]
  dsimp only
  rw [h4]

/-- The DFA loop when the buffered text is used up and the read of the refill fails. -/
theorem loop_refill_fails (l : Lexer) (s : Scan) (l2 : Lexer) (e : String) (fuel : Nat)
    (h1 : ¬ (s.zzCurrentPosL < s.zzEndReadL)) (h2 : l.zzAtEOF = false)
    (h3 : ({ l with zzCurrentPos := s.zzCurrentPosL, zzMarkedPos := s.zzMarkedPosL } :
      Lexer).zzRefill = (.fail e, l2)) :
    zzLoop (fuel + 1) l s = .fail e l2 := by
  have hne : ¬ (l.zzAtEOF = true) := by rw [h2]; simp
  have hf : zzFetch l s = .fail e l2 := by
    unfold zzFetch
    dsimp only
    rw [if_neg h1, if_neg hne, h3]
  simp only [zzLoop]
  rw [hf]

/-- The DFA loop ends at once on a rune that leads into a state accepting without
lookahead: the match ends behind this rune. -/
theorem loop_final (l : Lexer) (s : Scan) (x : Char) (l1 : Lexer) (s1 : Scan) (next : Int)
    (fuel : Nat) (hfetch : zzFetch l s = .char x l1 s1)
    (hnext : zzNext l1.zzState x = some next) (hn : next ≠ -1)
    (hat : idx ZZ_ATTRIBUTE next = some 9) :
    zzLoop (fuel + 1) l s = .forAction (some x) { l1 with zzState := next }
      { s1 with zzAction := next, zzMarkedPosL := s1.zzCurrentPosL } := by
  have hm : zzMove x l1 s1 = .stop { l1 with zzState := next }
      { s1 with zzAction := next, zzMarkedPosL := s1.zzCurrentPosL } := by
    unfold zzMove
    rw [hnext]
    dsimp only
    rw [if_neg hn, hat]
    dsimp only
    have e1 : (9 : Int).toNat &&& 1 = 1 := by decide
    have e8 : (9 : Int).toNat &&& 8 = 8 := by decide
    rw [if_pos e1, if_pos e8]
  simp only [zzLoop]
  rw [hfetch]
  dsimp only
  rw [hm]

/-- The code at `zzForAction` after a match whose action returns a token of its text. -/
theorem forAction_token (x : Char) (l : Lexer) (s : Scan) (action : Int) (text : List Char)
    (kind : Kind) (h0 : ¬ (s.zzAction < 0)) (ha : idx ZZ_ACTION s.zzAction = some action)
    (ht : slice l.zzBuffer l.zzStartRead s.zzMarkedPosL = some text)
    (hsw : ∀ l1 : Lexer, zzActionSwitch action text l1 s = .ret (.token (newLVal text kind)) l1) :
    zzForAction (some x) l s
      = .ret (.token (newLVal text kind)) { l with zzMarkedPos := s.zzMarkedPosL } := by
  unfold zzForAction
  dsimp only
  have hc : ¬ (some x = none ∧ l.zzStartRead = l.zzCurrentPos) := by simp
  rw [if_neg hc]
  unfold zzDispatch
  dsimp only
  rw [if_neg h0, ha]
  dsimp only
  have hy : ({ l with zzMarkedPos := s.zzMarkedPosL } : Lexer).yytext = some text := ht
  rw [hy]
  dsimp only
  rw [hsw]

theorem Yylex_of_ret (l : Lexer) (fuel : Nat) (r : YyReturn) (l1 : Lexer)
    (h : yyPass (fuel + 1) l l.zzEndRead l.zzBuffer = .ret r l1) :
    l.Yylex (fuel + 1) = (r, l1) := by
  unfold Lexer.Yylex
  simp only [yyLoop]
  rw [h]

/-! ## Three calls of `Yylex` around a failed read -/

theorem blank_next : zzNext 0 ' ' = some 22 := by decide!

theorem one_next : zzNext 0 '1' = some 18 ∧ zzNext 18 '1' = some 18 ∧ zzNext 18 'd' = some 49 := by
  decide!

theorem failing_attrs : idx ZZ_ATTRIBUTE 22 = some 9 ∧ idx ZZ_ATTRIBUTE 18 = some 1 ∧
    idx ZZ_ATTRIBUTE 49 = some 9 ∧ idx ZZ_ACTION 22 = some 7 ∧ idx ZZ_ACTION 49 = some 27 := by
  decide!

/-- The DFA loop and the action of the first pass of a scanner that has read nothing yet,
over a reader that delivers a blank and then as many runes as the buffer has places
left: the blank is matched, and the last rune read is held back. -/
theorem run_blank (l : Lexer) (s : Scan) (tl : List Char) (rd : RuneReader) (f : Nat)
    (hlen : l.zzBuffer.length = tl.length + 1)
    (hs : l.zzStartRead = 0) (he : l.zzEndRead = 0) (hf : l.zzFinalHighSurrogate = 0)
    (heof : l.zzAtEOF = false) (hst : l.zzState = 0)
    (hrd : l.zzReader = ofRunes (' ' :: tl) ++ rd)
    (hsc : s.zzCurrentPosL = 0) (hse : s.zzEndReadL = 0) :
    ∃ l', zzRun (f + 1) l s = .ret (.token (newLVal [' '] .WHITESPACE_OR_COMMENT)) l' ∧
      l'.zzBuffer = ' ' :: tl ∧ l'.zzStartRead = 0 ∧ l'.zzMarkedPos = 1 ∧
      l'.zzEndRead = (tl.length : Int) ∧ l'.zzFinalHighSurrogate = 1 ∧ l'.zzAtEOF = false ∧
      l'.zzLexicalState = l.zzLexicalState ∧ l'.zzReader = rd ∧ l'.yychar = l.yychar := by
  obtain ⟨l2, hr, b2, e2, f2, s2, c2, m2, r2, same2⟩ := refill_fills
    { l with zzCurrentPos := s.zzCurrentPosL, zzMarkedPos := s.zzMarkedPosL } [] l.zzBuffer
    (' ' :: tl) rd (by simp) (by simp) (by simp [hlen]) hs he hf
    (by show s.zzCurrentPosL < _; rw [hsc]; simp [hlen]) hrd
  have c2' : l2.zzCurrentPos = 0 := by rw [c2]; exact hsc
  have hx : idx l2.zzBuffer l2.zzCurrentPos = some ' ' := by
    rw [b2, c2']
    rfl
  have hfetch := fetch_refilled l s l2 ' ' (by rw [hsc, hse]; decide) heof hr hx
  have hl2st : l2.zzState = 0 := by rw [same2.1]; exact hst
  have hloop := loop_final l s ' ' l2 _ 22 f hfetch (by rw [hl2st]; exact blank_next)
    (by decide) failing_attrs.1
  unfold zzRun
  rw [hloop]
  dsimp only
  have hslice : slice l2.zzBuffer l2.zzStartRead (l2.zzCurrentPos + 1) = some [' '] := by
    rw [b2, c2', s2]
    simp [slice]
  rw [forAction_token ' ' _ _ 7 [' '] .WHITESPACE_OR_COMMENT
    (by show ¬ ((22 : Int) < 0); decide)
    failing_attrs.2.2.2.1 hslice (fun _ => rfl)]
  refine ⟨_, rfl, b2, s2, ?_, ?_, f2, ?_, ?_, r2, ?_⟩
  · show l2.zzCurrentPos + 1 = 1
    rw [c2']
    rfl
  · rw [e2]
    simp
  · rw [same2.2.2.2.2.2.2.1]
    exact heof
  · exact same2.2.1
  · exact same2.2.2.2.1

/-- The first call of `Yylex` of a scanner that has read nothing yet, over a reader that
delivers a blank and then as many runes as the buffer has places left. -/
theorem Yylex_blank (l : Lexer) (tl : List Char) (rd : RuneReader) (f : Nat)
    (hlen : l.zzBuffer.length = tl.length + 1)
    (hs : l.zzStartRead = 0) (hm : l.zzMarkedPos = 0) (he : l.zzEndRead = 0)
    (hf : l.zzFinalHighSurrogate = 0) (heof : l.zzAtEOF = false)
    (hlex : l.zzLexicalState = YYINITIAL) (hrd : l.zzReader = ofRunes (' ' :: tl) ++ rd) :
    ∃ l', l.Yylex (f + 1) = (.token (newLVal [' '] .WHITESPACE_OR_COMMENT), l') ∧
      l'.zzBuffer = ' ' :: tl ∧ l'.zzStartRead = 0 ∧ l'.zzMarkedPos = 1 ∧
      l'.zzEndRead = (tl.length : Int) ∧ l'.zzFinalHighSurrogate = 1 ∧ l'.zzAtEOF = false ∧
      l'.zzLexicalState = YYINITIAL ∧ l'.zzReader = rd := by
  obtain ⟨yl, yc, hb, _⟩ := begin_fields l [] [] l.zzBuffer 0 0 (by simp) (by simp [hs])
    (by simp [hm]) (Or.inr (Or.inr (by simp))) (by rw [hlex]; exact lexstate_initial)
    (attr_start 0 (by decide))
  obtain ⟨l', hrun, h1, h2, h3, h4, h5, h6, h7, h8, _⟩ := run_blank
    { l with
      yychar := l.yychar + (([] : List Char).length : Int)
      yyline := yl
      yycolumn := yc
      zzCurrentPos := l.zzMarkedPos
      zzStartRead := l.zzMarkedPos
      zzState := 0 }
    ⟨if (0 : Int).toNat &&& 1 = 1 then 0 else -1, l.zzMarkedPos, l.zzMarkedPos, l.zzEndRead,
      l.zzBuffer⟩ tl rd f hlen hm he hf heof rfl hrd hm he
  refine ⟨l', ?_, h1, h2, h3, h4, h5, h6, ?_, h8⟩
  · apply Yylex_of_ret
    unfold yyPass
    rw [hb]
    exact hrun
  · rw [h7]
    exact hlex

theorem ones_run (n : Nat) : ∀ c : Nat,
    dfaRun 18 18 c c (List.replicate n '1') = some (none, 18, 18, c + n, c + n) := by
  induction n with
  | zero =>
    intro c
    simp [dfaRun]
  | succ n ih =>
    intro c
    simp only [List.replicate_succ, dfaRun]
    rw [one_next.2.1]
    dsimp only
    have hn : ¬ ((18 : Int) = -1) := by decide
    rw [if_neg hn, failing_attrs.2.1]
    dsimp only
    have e1 : (1 : Int).toNat &&& 1 = 1 := by decide
    have e8 : ¬ ((1 : Int).toNat &&& 8 = 8) := by decide
    rw [if_pos e1, if_neg e8, ih (c + 1)]
    have e : c + 1 + n = c + (n + 1) := by omega
    rw [e]

theorem ones_run_start (n : Nat) :
    dfaRun 0 (-1) 0 0 (List.replicate (n + 1) '1') = some (none, 18, 18, n + 1, n + 1) := by
  simp only [List.replicate_succ, dfaRun]
  rw [one_next.1]
  dsimp only
  have hn : ¬ ((18 : Int) = -1) := by decide
  rw [if_neg hn, failing_attrs.2.1]
  dsimp only
  have e1 : (1 : Int).toNat &&& 1 = 1 := by decide
  have e8 : ¬ ((1 : Int).toNat &&& 8 = 8) := by decide
  rw [if_pos e1, if_neg e8, ones_run n (0 + 1)]
  have e : 0 + 1 + n = n + 1 := by omega
  rw [e]

theorem ones_snoc (n : Nat) : List.replicate n '1' ++ ['1'] = List.replicate (n + 1) '1' := by
  rw [List.replicate_succ']

/-- The DFA loop of a pass that starts behind a blank, over a buffer that is full of
digits `1`, the last of them held back, when the next read fails: the text is moved to
the front of the buffer, the rune held back is counted as read, and the loop ends with
the error of the reader. -/
theorem run_ones_fail (l : Lexer) (s : Scan) (k : Nat) (e : String) (rd : RuneReader)
    (fuel : Nat) (hfuel : k + 1 < fuel)
    (hbuf : l.zzBuffer = ' ' :: List.replicate (k + 2) '1')
    (hs : l.zzStartRead = 1) (he : l.zzEndRead = ((k + 2 : Nat) : Int))
    (hf : l.zzFinalHighSurrogate = 1) (heof : l.zzAtEOF = false) (hst : l.zzState = 0)
    (hrd : l.zzReader = RuneRead.fail e :: rd)
    (hsa : s.zzAction = -1) (hsc : s.zzCurrentPosL = 1) (hsm : s.zzMarkedPosL = 1)
    (hse : s.zzEndReadL = ((k + 2 : Nat) : Int)) (hsb : s.zzBufferL = l.zzBuffer) :
    ∃ l', zzRun fuel l s = .ret (.fail e) l' ∧
      l'.zzBuffer = List.replicate (k + 3) '1' ∧ l'.zzStartRead = 0 ∧
      l'.zzMarkedPos = ((k + 1 : Nat) : Int) ∧ l'.zzEndRead = ((k + 2 : Nat) : Int) ∧
      l'.zzFinalHighSurrogate = 0 ∧ l'.zzAtEOF = false ∧
      l'.zzLexicalState = l.zzLexicalState ∧ l'.zzReader = rd ∧ l'.yychar = l.yychar := by
  obtain ⟨f1, rfl⟩ : ∃ f1, fuel = (f1 + 1) + (k + 1) := ⟨fuel - (k + 2), by omega⟩
  have htake : ((List.replicate (k + 2) '1').drop 0).take (k + 1) = List.replicate (k + 1) '1' := by
    rw [List.drop_zero, List.take_replicate]
    congr 1
    omega
  have hrun : dfaRun l.zzState s.zzAction 0 0 (((List.replicate (k + 2) '1').drop 0).take (k + 1))
      = some (none, 18, 18, k + 1, k + 1) := by
    rw [htake, hst, hsa]
    exact ones_run_start k
  have hloop := loop_buffered [' '] (List.replicate (k + 2) '1') [] (k + 1) (f1 + 1) l s 0 0
    (k + 1) (by rw [hsb, hbuf]; simp) (by rw [hsm]; rfl) (by rw [hsc]; rfl)
    (by rw [hse]; simp only [List.length_singleton]; omega) (by omega)
    (by rw [List.length_replicate]; omega) none 18 18 (k + 1) (k + 1) hrun
  dsimp only at hloop
  obtain ⟨l2, hr, b2, e2, f2, s2, c2, m2, r2, same2⟩ := refill_fails
    { l with
      zzState := 18
      zzCurrentPos := (([' '].length + (k + 1) : Nat) : Int)
      zzMarkedPos := (([' '].length + (k + 1) : Nat) : Int) }
    [' '] (List.replicate (k + 2) '1') (k + 1) (k + 1) e rd (by simp) (by simp)
    hbuf hs (by
      show l.zzEndRead + l.zzFinalHighSurrogate = _
      rw [he, hf, List.length_replicate, List.length_singleton]
      omega) rfl rfl (by rw [List.length_replicate]; omega) hrd
  have hfail := loop_refill_fails { l with zzState := 18 }
    { s with
      zzAction := 18
      zzMarkedPosL := (([' '].length + (k + 1) : Nat) : Int)
      zzCurrentPosL := (([' '].length + (k + 1) : Nat) : Int) } l2 e f1
    (by
      show ¬ ((([' '].length + (k + 1) : Nat) : Int) < s.zzEndReadL)
      rw [hse, List.length_singleton]
      omega) heof hr
  unfold zzRun
  rw [hloop, hfail]
  dsimp only
  refine ⟨l2, rfl, ?_, s2, ?_, ?_, f2, ?_, same2.2.1, r2, same2.2.2.2.1⟩
  · rw [b2]
    have hd : ([' '] ++ List.replicate (k + 2) '1').drop (List.replicate (k + 2) '1').length
        = ['1'] := by
      rw [List.length_replicate]
      simp
    rw [hd, ones_snoc]
  · rw [m2]
  · rw [e2, List.length_replicate]
  · rw [same2.2.2.2.2.2.2.1]
    exact heof

/-- The second call of `Yylex` in the run around a failed read: the error of the
reader. -/
theorem Yylex_ones_fail (l : Lexer) (k : Nat) (e : String) (rd : RuneReader) (f : Nat)
    (hfuel : k + 1 < f + 1)
    (hbuf : l.zzBuffer = ' ' :: List.replicate (k + 2) '1')
    (hs : l.zzStartRead = 0) (hm : l.zzMarkedPos = 1)
    (he : l.zzEndRead = ((k + 2 : Nat) : Int)) (hf : l.zzFinalHighSurrogate = 1)
    (heof : l.zzAtEOF = false) (hlex : l.zzLexicalState = YYINITIAL)
    (hrd : l.zzReader = RuneRead.fail e :: rd) :
    ∃ l', l.Yylex (f + 1) = (.fail e, l') ∧
      l'.zzBuffer = List.replicate (k + 3) '1' ∧ l'.zzStartRead = 0 ∧
      l'.zzMarkedPos = ((k + 1 : Nat) : Int) ∧ l'.zzEndRead = ((k + 2 : Nat) : Int) ∧
      l'.zzFinalHighSurrogate = 0 ∧ l'.zzAtEOF = false ∧
      l'.zzLexicalState = YYINITIAL ∧ l'.zzReader = rd := by
  obtain ⟨yl, yc, hb, _⟩ := begin_fields l [] [' '] (List.replicate (k + 2) '1') 0 0
    (by rw [hbuf]; rfl) (by simp [hs]) (by simp [hm]) (Or.inr (Or.inr (by decide)))
    (by rw [hlex]; exact lexstate_initial) (attr_start 0 (by decide))
  obtain ⟨l', hrun, h1, h2, h3, h4, h5, h6, h7, h8, _⟩ := run_ones_fail
    { l with
      yychar := l.yychar + (([' '] : List Char).length : Int)
      yyline := yl
      yycolumn := yc
      zzCurrentPos := l.zzMarkedPos
      zzStartRead := l.zzMarkedPos
      zzState := 0 }
    ⟨if (0 : Int).toNat &&& 1 = 1 then 0 else -1, l.zzMarkedPos, l.zzMarkedPos, l.zzEndRead,
      l.zzBuffer⟩ k e rd (f + 1) hfuel hbuf hm he hf heof rfl hrd rfl hm hm he rfl
  refine ⟨l', ?_, h1, h2, h3, h4, h5, h6, ?_, h8⟩
  · apply Yylex_of_ret
    unfold yyPass
    rw [hb]
    exact hrun
  · rw [h7]
    exact hlex

/-- The DFA loop of a pass that starts at the front of a buffer with one free place
behind the digits `1` read so far, no rune being held back, when the reader delivers the
rune `d`: the refill asks for one rune, writes it into the last place and holds it back,
the loop reads it all the same, and the match ends behind it, one place beyond
`zzEndRead`. -/
theorem run_ones_d (l : Lexer) (s : Scan) (k : Nat) (rd : RuneReader)
    (fuel : Nat) (hfuel : k + 3 < fuel)
    (hbuf : l.zzBuffer = List.replicate (k + 3) '1')
    (hs : l.zzStartRead = 0) (he : l.zzEndRead = ((k + 2 : Nat) : Int))
    (hf : l.zzFinalHighSurrogate = 0) (heof : l.zzAtEOF = false) (hst : l.zzState = 0)
    (hrd : l.zzReader = RuneRead.rune 'd' :: rd)
    (hsa : s.zzAction = -1) (hsc : s.zzCurrentPosL = 0) (hsm : s.zzMarkedPosL = 0)
    (hse : s.zzEndReadL = ((k + 2 : Nat) : Int)) (hsb : s.zzBufferL = l.zzBuffer) :
    ∃ l', zzRun fuel l s
        = .ret (.token (newLVal (List.replicate (k + 2) '1' ++ ['d']) .DOUBLE)) l' ∧
      l'.zzBuffer = List.replicate (k + 2) '1' ++ ['d'] ∧ l'.zzStartRead = 0 ∧
      l'.zzMarkedPos = ((k + 3 : Nat) : Int) ∧ l'.zzEndRead = ((k + 2 : Nat) : Int) ∧
      l'.zzFinalHighSurrogate = 1 ∧ l'.zzAtEOF = false ∧
      l'.zzLexicalState = l.zzLexicalState ∧ l'.zzReader = rd := by
  obtain ⟨f1, rfl⟩ : ∃ f1, fuel = (f1 + 1) + (k + 2) := ⟨fuel - (k + 3), by omega⟩
  have htake : ((List.replicate (k + 2) '1').drop 0).take (k + 2) = List.replicate (k + 2) '1' := by
    rw [List.drop_zero, List.take_replicate]
    congr 1
    omega
  have hrun : dfaRun l.zzState s.zzAction 0 0 (((List.replicate (k + 2) '1').drop 0).take (k + 2))
      = some (none, 18, 18, k + 2, k + 2) := by
    rw [htake, hst, hsa]
    exact ones_run_start (k + 1)
  have hloop := loop_buffered [] (List.replicate (k + 2) '1') ['1'] (k + 2) (f1 + 1) l s 0 0
    (k + 2) (by rw [hsb, hbuf, List.nil_append, ones_snoc]) (by rw [hsm]; rfl)
    (by rw [hsc]; rfl) (by rw [hse]; simp only [List.length_nil]; omega) (by omega)
    (by rw [List.length_replicate]) none 18 18 (k + 2) (k + 2) hrun
  dsimp only at hloop
  obtain ⟨l2, hr, b2, e2, f2, s2, c2, m2, r2, same2⟩ := refill_fills
    { l with
      zzState := 18
      zzCurrentPos := ((([] : List Char).length + (k + 2) : Nat) : Int)
      zzMarkedPos := ((([] : List Char).length + (k + 2) : Nat) : Int) }
    (List.replicate (k + 2) '1') ['1'] ['d'] rd (by simp)
    (by show l.zzBuffer = _; rw [hbuf, ones_snoc]) rfl hs
    (by show l.zzEndRead = _; rw [he, List.length_replicate])
    hf (by
      show ((([] : List Char).length + (k + 2) : Nat) : Int) < _
      rw [List.length_append, List.length_replicate, List.length_singleton, List.length_nil]
      omega) hrd
  have c2' : l2.zzCurrentPos = ((k + 2 : Nat) : Int) := by
    rw [c2]
    show ((([] : List Char).length + (k + 2) : Nat) : Int) = _
    rw [List.length_nil, Nat.zero_add]
  have hx : idx l2.zzBuffer l2.zzCurrentPos = some 'd' := by
    rw [b2, c2', idx_natCast]
    rw [List.getElem?_append_right (by rw [List.length_replicate])]
    simp
  have hfetch := fetch_refilled { l with zzState := 18 }
    { s with
      zzAction := 18
      zzMarkedPosL := ((([] : List Char).length + (k + 2) : Nat) : Int)
      zzCurrentPosL := ((([] : List Char).length + (k + 2) : Nat) : Int) } l2 'd'
    (by
      show ¬ (((([] : List Char).length + (k + 2) : Nat) : Int) < s.zzEndReadL)
      rw [hse, List.length_nil]
      omega) heof hr hx
  have hl2st : l2.zzState = 18 := same2.1
  have hfin := loop_final _ _ 'd' l2 _ 49 f1 hfetch (by rw [hl2st]; exact one_next.2.2)
    (by decide) failing_attrs.2.2.1
  have hslice : slice l2.zzBuffer l2.zzStartRead (l2.zzCurrentPos + 1)
      = some (List.replicate (k + 2) '1' ++ ['d']) := by
    rw [b2, c2', s2]
    have := slice_mid ([] : List Char) (List.replicate (k + 2) '1' ++ ['d']) [] (k + 3)
      (by rw [List.length_append, List.length_replicate, List.length_singleton])
    simp only [List.nil_append, List.append_nil, List.length_nil, Nat.zero_add,
      Nat.cast_zero] at this
    have e : ((k + 2 : Nat) : Int) + 1 = ((k + 3 : Nat) : Int) := by omega
    rw [e, this, List.take_of_length_le]
    rw [List.length_append, List.length_replicate, List.length_singleton]
  unfold zzRun
  rw [hloop, hfin]
  dsimp only
  rw [forAction_token 'd' _ _ 27 (List.replicate (k + 2) '1' ++ ['d']) .DOUBLE
    (by show ¬ ((49 : Int) < 0); decide) failing_attrs.2.2.2.2 hslice (fun _ => rfl)]
  refine ⟨_, rfl, b2, s2, ?_, ?_, f2, ?_, same2.2.1, r2⟩
  · show l2.zzCurrentPos + 1 = _
    rw [c2']
    omega
  · rw [e2, List.length_replicate, List.length_singleton]
    congr 1
  · rw [same2.2.2.2.2.2.2.1]
    exact heof

/-- The call of `Yylex` after the failed read and the pushback of the whole match: the
`DOUBLE` token of the digits and the rune `d`, with `zzMarkedPos` one place beyond
`zzEndRead`. -/
theorem Yylex_ones_d (l : Lexer) (k : Nat) (rd : RuneReader) (f : Nat)
    (hfuel : k + 3 < f + 1)
    (hbuf : l.zzBuffer = List.replicate (k + 3) '1')
    (hs : l.zzStartRead = 0) (hm : l.zzMarkedPos = 0)
    (he : l.zzEndRead = ((k + 2 : Nat) : Int)) (hf : l.zzFinalHighSurrogate = 0)
    (heof : l.zzAtEOF = false) (hlex : l.zzLexicalState = YYINITIAL)
    (hrd : l.zzReader = RuneRead.rune 'd' :: rd) :
    ∃ l', l.Yylex (f + 1)
        = (.token (newLVal (List.replicate (k + 2) '1' ++ ['d']) .DOUBLE), l') ∧
      l'.zzBuffer = List.replicate (k + 2) '1' ++ ['d'] ∧ l'.zzStartRead = 0 ∧
      l'.zzMarkedPos = ((k + 3 : Nat) : Int) ∧ l'.zzEndRead = ((k + 2 : Nat) : Int) ∧
      l'.zzFinalHighSurrogate = 1 ∧ l'.zzAtEOF = false ∧
      l'.zzLexicalState = YYINITIAL ∧ l'.zzReader = rd := by
  obtain ⟨yl, yc, hb, _⟩ := begin_fields l [] [] (List.replicate (k + 3) '1') 0 0
    (by rw [hbuf]; rfl) (by simp [hs]) (by simp [hm]) (Or.inr (Or.inr (by simp)))
    (by rw [hlex]; exact lexstate_initial) (attr_start 0 (by decide))
  obtain ⟨l', hrun, h1, h2, h3, h4, h5, h6, h7, h8⟩ := run_ones_d
    { l with
      yychar := l.yychar + (([] : List Char).length : Int)
      yyline := yl
      yycolumn := yc
      zzCurrentPos := l.zzMarkedPos
      zzStartRead := l.zzMarkedPos
      zzState := 0 }
    ⟨if (0 : Int).toNat &&& 1 = 1 then 0 else -1, l.zzMarkedPos, l.zzMarkedPos, l.zzEndRead,
      l.zzBuffer⟩ k rd (f + 1) hfuel hbuf hm he hf heof rfl hrd rfl hm hm he rfl
  refine ⟨l', ?_, h1, h2, h3, h4, h5, h6, ?_, h8⟩
  · apply Yylex_of_ret
    unfold yyPass
    rw [hb]
    exact hrun
  · rw [h7]
    exact hlex

/-! ## A read that fails in the peek behind a carriage return -/

theorem letter_next : zzNext 0 'a' = some 17 ∧ zzNext 17 'a' = some 17 ∧
    zzNext 17 CR = some (-1) ∧ zzNext 0 CR = some 22 := by
  decide!

theorem letter_attrs : idx ZZ_ATTRIBUTE 17 = some 1 ∧ idx ZZ_ACTION 17 = some 5 := by
  decide!

theorem letters_run (n : Nat) (rest : List Char) : ∀ c : Nat,
    dfaRun 17 17 c c (List.replicate n 'a' ++ CR :: rest)
      = some (some CR, 17, 17, c + n, c + n + 1) := by
  induction n with
  | zero =>
    intro c
    simp only [List.replicate_zero, List.nil_append, dfaRun]
    rw [letter_next.2.2.1]
    dsimp only
    rw [if_pos rfl]
    rfl
  | succ n ih =>
    intro c
    simp only [List.replicate_succ, List.cons_append, dfaRun]
    rw [letter_next.2.1]
    dsimp only
    have hn : ¬ ((17 : Int) = -1) := by decide
    rw [if_neg hn, letter_attrs.1]
    dsimp only
    have e1 : (1 : Int).toNat &&& 1 = 1 := by decide
    have e8 : ¬ ((1 : Int).toNat &&& 8 = 8) := by decide
    rw [if_pos e1, if_neg e8]
    show dfaRun 17 17 (c + 1) (c + 1) (List.replicate n 'a' ++ CR :: rest) = _
    rw [ih (c + 1)]
    have e : c + 1 + n = c + (n + 1) := by omega
    rw [e]

theorem letters_run_start (n : Nat) (rest : List Char) :
    dfaRun 0 (-1) 0 0 (List.replicate (n + 1) 'a' ++ CR :: rest)
      = some (some CR, 17, 17, n + 1, n + 2) := by
  simp only [List.replicate_succ, List.cons_append, dfaRun]
  rw [letter_next.1]
  dsimp only
  have hn : ¬ ((17 : Int) = -1) := by decide
  rw [if_neg hn, letter_attrs.1]
  dsimp only
  have e1 : (1 : Int).toNat &&& 1 = 1 := by decide
  have e8 : ¬ ((1 : Int).toNat &&& 8 = 8) := by decide
  rw [if_pos e1, if_neg e8]
  show dfaRun 17 17 (0 + 1) (0 + 1) (List.replicate n 'a' ++ CR :: rest) = _
  rw [letters_run n rest (0 + 1)]
  have e : 0 + 1 + n = n + 1 := by omega
  rw [e]

/-- The DFA loop and the action of the first pass of a scanner that has read nothing yet,
over a reader that delivers as many runes as the buffer has places: letters `a`, a
carriage return and one more rune, which is held back. -/
theorem run_letters (l : Lexer) (s : Scan) (k : Nat) (x : Char) (rd : RuneReader)
    (fuel : Nat) (hfuel : k + 3 < fuel) (hlen : l.zzBuffer.length = k + 3)
    (hs : l.zzStartRead = 0) (he : l.zzEndRead = 0) (hf : l.zzFinalHighSurrogate = 0)
    (heof : l.zzAtEOF = false) (hst : l.zzState = 0)
    (hrd : l.zzReader = ofRunes (List.replicate (k + 1) 'a' ++ [CR, x]) ++ rd)
    (hsa : s.zzAction = -1) (hsc : s.zzCurrentPosL = 0) (hsm : s.zzMarkedPosL = 0)
    (hse : s.zzEndReadL = 0) :
    ∃ l', zzRun fuel l s = .ret (.token (newLVal (List.replicate (k + 1) 'a') .NORMAL)) l' ∧
      l'.zzBuffer = List.replicate (k + 1) 'a' ++ [CR, x] ∧ l'.zzStartRead = 0 ∧
      l'.zzMarkedPos = ((k + 1 : Nat) : Int) ∧ l'.zzEndRead = ((k + 2 : Nat) : Int) ∧
      l'.zzFinalHighSurrogate = 1 ∧ l'.zzAtEOF = false ∧
      l'.zzLexicalState = l.zzLexicalState ∧ l'.zzReader = rd ∧ l'.yychar = l.yychar := by
  obtain ⟨f0, rfl⟩ : ∃ f0, fuel = f0 + (k + 1) + 1 := ⟨fuel - (k + 2), by omega⟩
  have htlen : (List.replicate (k + 1) 'a' ++ [CR, x]).length = k + 3 := by
    rw [List.length_append, List.length_replicate]
    rfl
  obtain ⟨l2, hr, b2, e2, f2, s2, c2, m2, r2, same2⟩ := refill_fills
    { l with zzCurrentPos := s.zzCurrentPosL, zzMarkedPos := s.zzMarkedPosL } [] l.zzBuffer
    (List.replicate (k + 1) 'a' ++ [CR, x]) rd (by simp) (by simp) (by rw [hlen, htlen]) hs
    he hf (by show s.zzCurrentPosL < _; rw [hsc]; simp [hlen]; omega) hrd
  have c2' : l2.zzCurrentPos = 0 := by rw [c2]; exact hsc
  have m2' : l2.zzMarkedPos = 0 := by rw [m2]; exact hsm
  have e2' : l2.zzEndRead = ((k + 2 : Nat) : Int) := by
    rw [e2, htlen, List.length_nil]
    congr 1
    omega
  have hmore := loop_refill_more l s (f0 + (k + 1)) l2 (by rw [hsc, hse]; decide) heof hr
    (by rw [c2', e2']; omega)
  have htake : ((List.replicate (k + 1) 'a' ++ [CR, x]).drop 0).take (k + 2)
      = List.replicate (k + 1) 'a' ++ [CR] := by
    rw [List.drop_zero]
    have e : List.replicate (k + 1) 'a' ++ [CR, x]
        = (List.replicate (k + 1) 'a' ++ [CR]) ++ [x] := by simp
    rw [e]
    exact List.take_left' (by rw [List.length_append, List.length_replicate]; rfl)
  have hrun : dfaRun l2.zzState s.zzAction 0 0
      (((List.replicate (k + 1) 'a' ++ [CR, x]).drop 0).take (k + 2))
      = some (some CR, 17, 17, k + 1, k + 2) := by
    rw [htake, same2.1, hsa]
    show dfaRun l.zzState _ _ _ _ = _
    rw [hst]
    exact letters_run_start k []
  have hloop := loop_buffered [] (List.replicate (k + 1) 'a' ++ [CR, x]) [] (k + 2) f0 l2
    ⟨s.zzAction, l2.zzCurrentPos, l2.zzMarkedPos, l2.zzEndRead, l2.zzBuffer⟩ 0 0 (k + 2)
    (by show l2.zzBuffer = _; rw [b2]; simp) (by show l2.zzMarkedPos = _; rw [m2']; rfl)
    (by show l2.zzCurrentPos = _; rw [c2']; rfl)
    (by show l2.zzEndRead = _; rw [e2']; simp) (by omega) (by rw [htlen]; omega)
    (some CR) 17 17 (k + 1) (k + 2) hrun
  dsimp only at hloop
  have efuel : f0 + (k + 1) + 1 = f0 + (k + 2) := by omega
  rw [efuel] at hmore ⊢
  have hslice : slice l2.zzBuffer l2.zzStartRead
      (((([] : List Char).length + (k + 1) : Nat) : Int)) = some (List.replicate (k + 1) 'a') := by
    rw [b2, s2]
    have := slice_mid ([] : List Char) (List.replicate (k + 1) 'a' ++ [CR, x]) [] (k + 1)
      (by rw [htlen]; omega)
    simp only [List.nil_append, List.append_nil, List.length_nil, Nat.zero_add,
      Nat.cast_zero] at this
    rw [List.nil_append, List.length_nil, Nat.zero_add, this]
    congr 1
    exact List.take_left' (List.length_replicate _ _)
  unfold zzRun
  rw [hmore, hloop]
  dsimp only
  rw [forAction_token CR _ _ 5 (List.replicate (k + 1) 'a') .NORMAL
    (by show ¬ ((17 : Int) < 0); decide) letter_attrs.2 hslice (fun _ => rfl)]
  refine ⟨_, rfl, b2, s2, ?_, e2', f2, ?_, same2.2.1, r2, same2.2.2.2.1⟩
  · show ((([] : List Char).length + (k + 1) : Nat) : Int) = _
    rw [List.length_nil, Nat.zero_add]
  · rw [same2.2.2.2.2.2.2.1]
    exact heof

/-- The first call of `Yylex` in the run around a failed peek: the token of the
letters. -/
theorem Yylex_letters (l : Lexer) (k : Nat) (x : Char) (rd : RuneReader) (f : Nat)
    (hfuel : k + 3 < f + 1) (hlen : l.zzBuffer.length = k + 3)
    (hs : l.zzStartRead = 0) (hm : l.zzMarkedPos = 0) (he : l.zzEndRead = 0)
    (hf : l.zzFinalHighSurrogate = 0) (heof : l.zzAtEOF = false)
    (hlex : l.zzLexicalState = YYINITIAL)
    (hrd : l.zzReader = ofRunes (List.replicate (k + 1) 'a' ++ [CR, x]) ++ rd) :
    ∃ l', l.Yylex (f + 1) = (.token (newLVal (List.replicate (k + 1) 'a') .NORMAL), l') ∧
      l'.zzBuffer = List.replicate (k + 1) 'a' ++ [CR, x] ∧ l'.zzStartRead = 0 ∧
      l'.zzMarkedPos = ((k + 1 : Nat) : Int) ∧ l'.zzEndRead = ((k + 2 : Nat) : Int) ∧
      l'.zzFinalHighSurrogate = 1 ∧ l'.zzAtEOF = false ∧
      l'.zzLexicalState = YYINITIAL ∧ l'.zzReader = rd ∧ l'.yychar = l.yychar := by
  obtain ⟨yl, yc, hb, _⟩ := begin_fields l [] [] l.zzBuffer 0 0 (by simp) (by simp [hs])
    (by simp [hm]) (Or.inr (Or.inr (by simp))) (by rw [hlex]; exact lexstate_initial)
    (attr_start 0 (by decide))
  obtain ⟨l', hrun, h1, h2, h3, h4, h5, h6, h7, h8, h9⟩ := run_letters
    { l with
      yychar := l.yychar + (([] : List Char).length : Int)
      yyline := yl
      yycolumn := yc
      zzCurrentPos := l.zzMarkedPos
      zzStartRead := l.zzMarkedPos
      zzState := 0 }
    ⟨if (0 : Int).toNat &&& 1 = 1 then 0 else -1, l.zzMarkedPos, l.zzMarkedPos, l.zzEndRead,
      l.zzBuffer⟩ k x rd (f + 1) hfuel hlen hm he hf heof rfl hrd rfl hm hm he
  refine ⟨l', ?_, h1, h2, h3, h4, h5, h6, ?_, h8, ?_⟩
  · apply Yylex_of_ret
    unfold yyPass
    rw [hb]
    exact hrun
  · rw [h7]
    exact hlex
  · rw [h9]
    show l.yychar + (([] : List Char).length : Int) = l.yychar
    simp

/-- The second call of `Yylex` in the run around a failed peek: the token of the carriage
return, which ends at `zzEndRead`. -/
theorem Yylex_cr (l : Lexer) (k : Nat) (x : Char) (f : Nat)
    (hbuf : l.zzBuffer = List.replicate (k + 1) 'a' ++ [CR, x])
    (hs : l.zzStartRead = 0) (hm : l.zzMarkedPos = ((k + 1 : Nat) : Int))
    (he : l.zzEndRead = ((k + 2 : Nat) : Int)) (hlex : l.zzLexicalState = YYINITIAL) :
    ∃ l', l.Yylex (f + 1) = (.token (newLVal [CR] .WHITESPACE_OR_COMMENT), l') ∧
      l'.zzBuffer = l.zzBuffer ∧ l'.zzStartRead = ((k + 1 : Nat) : Int) ∧
      l'.zzMarkedPos = ((k + 2 : Nat) : Int) ∧ l'.zzCurrentPos = ((k + 1 : Nat) : Int) ∧
      l'.zzEndRead = l.zzEndRead ∧ l'.zzFinalHighSurrogate = l.zzFinalHighSurrogate ∧
      l'.zzAtEOF = l.zzAtEOF ∧ l'.zzLexicalState = YYINITIAL ∧ l'.zzReader = l.zzReader ∧
      l'.yychar = l.yychar + ((k + 1 : Nat) : Int) := by
  have hrl : (List.replicate (k + 1) 'a').length = k + 1 := List.length_replicate _ _
  obtain ⟨yl, yc, hb, _⟩ := begin_fields l [] (List.replicate (k + 1) 'a') [CR, x] 0 0
    (by rw [hbuf]; rfl) (by simp [hs]) (by rw [hm, hrl]; simp)
    (Or.inl ⟨by rw [hm, he]; omega, by simp⟩) (by rw [hlex]; exact lexstate_initial)
    (attr_start 0 (by decide))
  have hx : idx l.zzBuffer l.zzMarkedPos = some CR := by
    rw [hbuf, hm, idx_natCast, List.getElem?_append_right (by rw [hrl]), hrl]
    simp
  have hfetch := zzFetch_buffered
    { l with
      yychar := l.yychar + ((List.replicate (k + 1) 'a').length : Int)
      yyline := yl
      yycolumn := yc
      zzCurrentPos := l.zzMarkedPos
      zzStartRead := l.zzMarkedPos
      zzState := 0 }
    ⟨if (0 : Int).toNat &&& 1 = 1 then 0 else -1, l.zzMarkedPos, l.zzMarkedPos, l.zzEndRead,
      l.zzBuffer⟩ CR (by show l.zzMarkedPos < l.zzEndRead; rw [hm, he]; omega) hx
  have hloop := loop_final _ _ CR _ _ 22 f hfetch letter_next.2.2.2 (by decide)
    failing_attrs.1
  have hslice : slice l.zzBuffer l.zzMarkedPos (l.zzMarkedPos + 1) = some [CR] := by
    rw [hbuf, hm]
    have := slice_mid (List.replicate (k + 1) 'a') [CR, x] [] 1 (by simp)
    rw [List.append_nil, hrl] at this
    have e : ((k + 1 : Nat) : Int) + 1 = ((k + 1 + 1 : Nat) : Int) := by omega
    rw [e, this]
    rfl
  refine ⟨{ l with
      yychar := l.yychar + ((List.replicate (k + 1) 'a').length : Int)
      yyline := yl
      yycolumn := yc
      zzCurrentPos := l.zzMarkedPos
      zzStartRead := l.zzMarkedPos
      zzState := 22
      zzMarkedPos := l.zzMarkedPos + 1 }, ?_, ?_⟩
  · apply Yylex_of_ret
    unfold yyPass
    rw [hb]
    dsimp only
    unfold zzRun
    rw [hloop]
    dsimp only
    exact forAction_token CR _ _ 7 [CR] .WHITESPACE_OR_COMMENT
      (by show ¬ ((22 : Int) < 0); decide) failing_attrs.2.2.2.1 hslice (fun _ => rfl)
  · refine ⟨rfl, hm, ?_, hm, rfl, rfl, rfl, hlex, rfl, ?_⟩
    · show l.zzMarkedPos + 1 = _
      rw [hm]
      omega
    · show l.yychar + ((List.replicate (k + 1) 'a').length : Int) = _
      rw [hrl]

/-- The third call of `Yylex` in the run around a failed peek: the line counter is
brought up to date over the carriage return, the peek for a line feed refills the buffer,
the read fails, and the call returns the error with `yychar` and `yyline` advanced over
a match that is still the current one. -/
theorem Yylex_peek_fails (l : Lexer) (k : Nat) (x : Char) (e : String) (rd : RuneReader)
    (f : Nat) (hbuf : l.zzBuffer = List.replicate (k + 1) 'a' ++ [CR, x])
    (hs : l.zzStartRead = ((k + 1 : Nat) : Int)) (hm : l.zzMarkedPos = ((k + 2 : Nat) : Int))
    (hc : l.zzCurrentPos = ((k + 1 : Nat) : Int)) (he : l.zzEndRead = ((k + 2 : Nat) : Int))
    (hf : l.zzFinalHighSurrogate = 1) (heof : l.zzAtEOF = false)
    (hrd : l.zzReader = RuneRead.fail e :: rd) :
    ∃ l' post, l.Yylex (f + 1) = (.fail e, l') ∧
      l'.zzBuffer = CR :: x :: post ∧ post ≠ [] ∧ l'.zzStartRead = 0 ∧ l'.zzMarkedPos = 1 ∧
      l'.zzCurrentPos = 0 ∧ l'.zzEndRead = 2 ∧ l'.zzFinalHighSurrogate = 0 ∧
      l'.zzAtEOF = false ∧ l'.zzLexicalState = l.zzLexicalState ∧ l'.zzReader = rd ∧
      l'.yychar = l.yychar + 1 ∧ l'.yyline = l.yyline + 1 := by
  have hrl : (List.replicate (k + 1) 'a').length = k + 1 := List.length_replicate _ _
  obtain ⟨yc', hlc⟩ := lineColumn_ascii (List.replicate (k + 1) 'a') [x] [CR] [] 1
    l.yyline l.yycolumn false (by simp) (by decide)
  have hcb : countedBreaks false [CR] = 1 := by decide
  have hcr : endsCR false [CR] = true := by decide
  rw [hcb, hcr, hrl] at hlc
  simp only [List.nil_append, List.length_nil, Nat.add_zero, List.length_singleton] at hlc
  have ea : List.replicate (k + 1) 'a' ++ [CR] ++ [x] = List.replicate (k + 1) 'a' ++ [CR, x] := by
    simp
  have eb : k + 1 + 1 = k + 2 := rfl
  rw [ea, eb, ← hbuf, ← hs, ← hm] at hlc
  obtain ⟨l2, hr, b2, e2, f2, s2, c2, m2, r2, same2⟩ := refill_fails
    { l with
      yychar := l.yychar + (l.zzMarkedPos - l.zzStartRead)
      yyline := l.yyline + 1
      yycolumn := yc' }
    (List.replicate (k + 1) 'a') [CR, x] 1 0 e rd (by simp) (by simp) hbuf
    (by show l.zzStartRead = _; rw [hs, hrl])
    (by
      show l.zzEndRead + l.zzFinalHighSurrogate = _
      rw [he, hf, hrl]
      simp only [List.length_cons, List.length_nil]
      omega)
    (by show l.zzMarkedPos = _; rw [hm, hrl])
    (by show l.zzCurrentPos = _; rw [hc, hrl]) (by simp) hrd
  have hcount : zzCount l l.zzEndRead l.zzBuffer = .fail e l2 := by
    unfold zzCount
    dsimp only
    have h1 : (l.zzMarkedPos - l.zzStartRead).toNat = 1 := by
      rw [hm, hs]
      omega
    rw [h1, hlc]
    dsimp only
    rw [if_pos rfl]
    unfold zzPeekLF
    dsimp only
    have h2 : ¬ (l.zzMarkedPos < l.zzEndRead) := by
      rw [hm, he]
      omega
    have h3 : ¬ (l.zzAtEOF = true) := by rw [heof]; simp
    rw [if_neg h2, if_neg h3, hr]
  refine ⟨l2, (List.replicate (k + 1) 'a' ++ [CR, x]).drop 2, ?_, ?_, ?_, s2, ?_, ?_, ?_, f2,
    ?_, same2.2.1, r2, ?_, same2.2.2.1⟩
  · apply Yylex_of_ret
    unfold yyPass zzBegin
    rw [hcount]
  · rw [b2]
    rfl
  · intro h0
    have := congrArg List.length h0
    simp only [List.length_drop, List.length_append, hrl, List.length_cons,
      List.length_nil] at this
    omega
  · rw [m2]
    rfl
  · rw [c2]
    rfl
  · rw [e2]
    rfl
  · rw [same2.2.2.2.2.2.2.1]
    exact heof
  · rw [same2.2.2.2.1]
    show l.yychar + (l.zzMarkedPos - l.zzStartRead) = _
    rw [hm, hs]
    omega

/-- The call of `Yylex` after the failed peek: the carriage return is still the current
match, so `yychar` is advanced over it once more before the next match begins. -/
theorem Yylex_after_failed_peek (l : Lexer) (post : List Char) (f : Nat)
    (hbuf : l.zzBuffer = CR :: 'a' :: post) (hpost : post ≠ [])
    (hs : l.zzStartRead = 0) (hm : l.zzMarkedPos = 1) (hc : l.zzCurrentPos = 0)
    (he : l.zzEndRead = 2) (hf : l.zzFinalHighSurrogate = 0) (heof : l.zzAtEOF = false)
    (hlex : l.zzLexicalState = YYINITIAL) (hrd : l.zzReader = []) :
    ∃ l', l.Yylex (f + 2) = (.token (newLVal ['a'] .NORMAL), l') ∧
      l'.yychar = l.yychar + 1 := by
  have hsim : Sim l ⟨YYINITIAL, l.ltstr, [CR], ['a'], []⟩ := by
    refine ⟨[], post, 0, ⟨by rw [hbuf]; rfl, by simp [hs], by simp [he], by simp [hf],
      by simp, Or.inr ⟨rfl, hpost⟩, by rw [hrd]; rfl⟩, by simp [hm], by simp [hc], by simp,
      heof, hlex, rfl⟩
  have hp := sim_pass l _ (f + 2) hsim (by simp)
  have hrun : ∃ st', dfaRun 0 (-1) 0 0 ['a'] = some (none, st', 17, 1, 1) := ⟨17, by decide!⟩
  have hact : (if (17 : Int) < 0 then some 17 else idx ZZ_ACTION 17) = some 5 := by
    rw [if_neg (by decide)]
    exact letter_attrs.2
  have habs := absPass_whole ⟨YYINITIAL, l.ltstr, [CR], ['a'], []⟩ 5 .NORMAL 17 rfl (by simp)
    hrun hact (by simp)
  rw [habs] at hp
  obtain ⟨l', h1, _⟩ := hp
  refine ⟨l', Yylex_of_ret l (f + 1) _ l' h1, ?_⟩
  obtain ⟨lc, m, ec, bc, _, hy, _⟩ := pass_frame (f + 2) l l.zzEndRead l.zzBuffer l'
    (Or.inl ⟨_, h1⟩)
  rw [hy]
  unfold Lexer.yylength
  rw [hm, hs]
  rfl

/-- C1, counterexample: the input `'a'` is scanned to the end of input without failing,
in three passes that match the quote, `a` and the quote; the one token returned is the
`STRING` token with text `a`, so the texts of the returned tokens make up `a` and not
the input. -/
theorem C1_token_texts_miss_delimiters :
    (NewLexer (ofRunes [quote, 'a', quote]) false).scan 8 8
        = some [(none, [quote]), (none, ['a']), (some (newLVal ['a'] .STRING), [quote])] ∧
      (([(none, [quote]), (none, ['a']), (some (newLVal ['a'] .STRING), [quote])]
          : List (Option LVal × List Char)).filterMap Prod.fst).map LVal.Value
        = [['a']] ∧
      ([['a']] : List (List Char)).flatten ≠ [quote, 'a', quote] := by
  decide!

/-- C1, amended: for an input of fewer than `ZZ_BUFFERSIZE` runes that successive calls
of `Yylex` scan to the end of input without failing, the texts matched by the passes of
the scanner (`yytext()` after each pass) make up, in order, the input; so do the texts
of the returned tokens when every pass returns a token whose text is the text it
matched. -/
theorem C1_matched_texts_tile_input (text : List Char) (d : Bool) (n fuel : Nat)
    (ps : List (Option LVal × List Char))
    (hlen : text.length < ZZ_BUFFERSIZE) (hfuel : text.length < fuel)
    (h : (NewLexer (ofRunes text) d).scan n fuel = some ps) :
    (ps.map Prod.snd).flatten = text ∧
      ((∀ p ∈ ps, ∃ v, p.1 = some v ∧ v.Value = p.2) →
        ((ps.filterMap Prod.fst).map LVal.Value).flatten = text) := by
  have h1 := scan_join text d n fuel ps hlen hfuel h
  refine ⟨h1, fun hall => ?_⟩
  have e : ∀ qs : List (Option LVal × List Char),
      (∀ p ∈ qs, ∃ v, p.1 = some v ∧ v.Value = p.2) →
      (qs.filterMap Prod.fst).map LVal.Value = qs.map Prod.snd := by
    intro qs
    induction qs with
    | nil => intro _; rfl
    | cons q qs ih =>
      intro hq
      obtain ⟨v, hv1, hv2⟩ := hq q (List.mem_cons_self _ _)
      rw [List.filterMap_cons, hv1]
      simp only [List.map_cons]
      rw [ih (fun p hp => hq p (List.mem_cons_of_mem _ hp)), hv2]
  rw [e ps hall, h1]

/-- C1, witness: the input `1 a`, scanned as an `INT`, a white-space and a `NORMAL`
token. -/
theorem C1_matched_texts_tile_input_witness :
    (NewLexer (ofRunes ['1', ' ', 'a']) false).scan 8 8
        = some [(some (newLVal ['1'] .INT), ['1']),
            (some (newLVal [' '] .WHITESPACE_OR_COMMENT), [' ']),
            (some (newLVal ['a'] .NORMAL), ['a'])] ∧
      (([(some (newLVal ['1'] .INT), ['1']),
            (some (newLVal [' '] .WHITESPACE_OR_COMMENT), [' ']),
            (some (newLVal ['a'] .NORMAL), ['a'])]
          : List (Option LVal × List Char)).map Prod.snd).flatten = ['1', ' ', 'a'] :=
  ⟨by decide!,
    (C1_matched_texts_tile_input ['1', ' ', 'a'] false 8 8 _ (by decide) (by decide)
      (by decide!)).1⟩

/-- C2, counterexample: scanning `select 'a''b' from t`, the third call of `Yylex`
returns a `STRING` token whose text is `a`, backslash, quote, `b`, and not the body with
the doubled quote collapsed to one quote. -/
theorem C2_doubled_quote_not_collapsed :
    ((((NewLexer (ofRunes ("select ".toList ++ [quote, 'a', quote, quote, 'b', quote]
        ++ " from t".toList)) false).Yylex 32).2.Yylex 32).2.Yylex 32).1
        = .token (newLVal ['a', '\\', quote, 'b'] .STRING) ∧
      ((((NewLexer (ofRunes ("select ".toList ++ [quote, 'a', quote, quote, 'b', quote]
        ++ " from t".toList)) false).Yylex 32).2.Yylex 32).2.Yylex 32).1
        ≠ .token (newLVal (collapsed ['a', quote, quote, 'b']) .STRING) := by
  decide!

/-- C2, amended: for a single-quoted literal of fewer than `ZZ_BUFFERSIZE` runes whose
body has quotes only in doubled pairs, followed by the end of input, the first call of
`Yylex` returns one `STRING` token whose text is the body with each doubled quote
replaced by a backslash and a quote, and the next call returns the end-of-input
signal. -/
theorem C2_string_escaped (body : List Char) (d : Bool) (fuel : Nat)
    (hp : paired quote body = true)
    (hlen : (quote :: (body ++ [quote])).length < ZZ_BUFFERSIZE)
    (hfuel : (quote :: (body ++ [quote])).length < fuel) :
    ((NewLexer (ofRunes (quote :: (body ++ [quote]))) d).Yylex fuel).1
        = .token (newLVal (escaped body) .STRING) ∧
      (((NewLexer (ofRunes (quote :: (body ++ [quote]))) d).Yylex fuel).2.Yylex fuel).1
        = .eof :=
  Yylex_string body d fuel hp hlen hfuel

/-- C2, witness: the literal `'a''b'`. -/
theorem C2_string_escaped_witness :
    paired quote ['a', quote, quote, 'b'] = true ∧
      (quote :: (['a', quote, quote, 'b'] ++ [quote])).length < ZZ_BUFFERSIZE ∧
      escaped ['a', quote, quote, 'b'] = ['a', '\\', quote, 'b'] ∧
      ((NewLexer (ofRunes (quote :: (['a', quote, quote, 'b'] ++ [quote]))) false).Yylex 8).1
        = .token (newLVal (escaped ['a', quote, quote, 'b']) .STRING) ∧
      (((NewLexer (ofRunes (quote :: (['a', quote, quote, 'b'] ++ [quote]))) false).Yylex
        8).2.Yylex 8).1 = .eof :=
  ⟨by decide, by decide, by decide,
    C2_string_escaped ['a', quote, quote, 'b'] false 8 (by decide) (by decide) (by decide)⟩

/-- C5, counterexample: the panic of a failed match carries the fixed text
`Error: could not match input` and no position: it is the same for the vertical tab at
line 0, offset 0 of one input and for the vertical tab at line 1, offset 2 of another. -/
theorem C5_no_match_message_without_position :
    ((NewLexer (ofRunes [Char.ofNat 11]) false).Yylex 4).1
        = .panic "Error: could not match input" ∧
      ((NewLexer (ofRunes [Char.ofNat 11]) false).Yylex 4).2.yyline = 0 ∧
      ((NewLexer (ofRunes [Char.ofNat 11]) false).Yylex 4).2.yychar = 0 ∧
      ((((NewLexer (ofRunes ['a', '\n', Char.ofNat 11]) false).Yylex 4).2.Yylex 4).2.Yylex 4).1
        = .panic "Error: could not match input" ∧
      ((((NewLexer (ofRunes ['a', '\n', Char.ofNat 11]) false).Yylex 4).2.Yylex 4).2.Yylex
        4).2.yyline = 1 ∧
      ((((NewLexer (ofRunes ['a', '\n', Char.ofNat 11]) false).Yylex 4).2.Yylex 4).2.Yylex
        4).2.yychar = 2 := by
  decide!

/-- C5, amended: when the next rune, which is in the buffer, has no transition from the
start state of the lexical state (no accepting state is recorded then, the start states
not being accepting), `Yylex` ends in the panic of `zzScanError(ZZ_NO_MATCH)`, whose
message is the fixed text `Error: could not match input`, whatever the line, the column
and the offset of the scanner. -/
theorem C5_no_match_fixed_message (l : Lexer) (fuel : Nat) (x : Char) (st0 attr : Int)
    (hfuel : 0 < fuel)
    (h1 : 0 ≤ l.zzStartRead) (h2 : l.zzStartRead ≤ l.zzMarkedPos)
    (h3 : l.zzMarkedPos < l.zzEndRead) (h4 : l.zzEndRead ≤ l.zzBuffer.length)
    (hx : idx l.zzBuffer l.zzMarkedPos = some x)
    (hst : idx ZZ_LEXSTATE l.zzLexicalState = some st0)
    (hat : idx ZZ_ATTRIBUTE st0 = some attr) (hacc : ¬ (attr.toNat &&& 1 = 1))
    (hnext : zzNext st0 x = some (-1)) :
    (l.Yylex fuel).1 = .panic "Error: could not match input" := by
  obtain ⟨n, hn⟩ : ∃ n, fuel = n + 1 := ⟨fuel - 1, by omega⟩
  obtain ⟨l', hp⟩ := pass_no_match l n x st0 attr h1 h2 h3 h4 hx hst hat hacc hnext
  unfold Lexer.Yylex
  rw [hn]
  simp only [yyLoop]
  rw [hp]

/-- C5, witness: the scanner that has returned the token `a` of the input `a`, vertical
tab. -/
theorem C5_no_match_fixed_message_witness :
    (((NewLexer (ofRunes ['a', Char.ofNat 11]) false).Yylex 4).2.Yylex 4).1
      = .panic "Error: could not match input" :=
  C5_no_match_fixed_message ((NewLexer (ofRunes ['a', Char.ofNat 11]) false).Yylex 4).2 4
    (Char.ofNat 11) 0 0 (by decide) (by decide!) (by decide!) (by decide!) (by decide!)
    (by decide!) (by decide!) (by decide!) (by decide) (by decide!)

/-- C6, the code at the failing input: on `0x` followed by 16382 digits `f` (a text of
`ZZ_BUFFERSIZE` = 16384 runes) and the end of input, the first call of `Yylex` returns a
`HEX_INT` token whose text is `0x` and only 16381 digits, not the whole input. -/
theorem C6_hex_split :
    ((NewLexer (ofRunes ('0' :: 'x' :: List.replicate 16382 'f')) false).Yylex 16385).1
      = .token (newLVal ('0' :: 'x' :: List.replicate 16381 'f') .HEX_INT) := by
  have hd : ('0' :: 'x' :: List.replicate 16382 'f').dropLast
      = '0' :: 'x' :: List.replicate 16381 'f' :=
    dropLast_cons_cons_replicate '0' 'x' 'f' 16382 (by decide)
  have hrun := dfaRun_hex 'x' (List.replicate 16381 'f') (Or.inl rfl)
    (replicate_ne_nil _ _ (by decide)) (fun r hr => by rw [List.eq_of_mem_replicate hr]; decide)
  have h := Yylex_whole_full ('0' :: 'x' :: List.replicate 16382 'f') false 16385 37
    .HEX_INT 73 (by rw [length_cons_cons_replicate]; rfl)
    (by rw [length_cons_cons_replicate]; decide) ⟨73, by rw [hd]; exact hrun⟩ (by decide!)
    (by decide)
  rw [hd] at h
  exact h.1

/-- C7, the code at the failing input: on `1.` followed by 16382 digits `5` (a text of
`ZZ_BUFFERSIZE` = 16384 runes) and the end of input, the first call of `Yylex` returns a
`DECIMAL` token whose text is `1.` and only 16381 digits, not the whole input. -/
theorem C7_decimal_split :
    ((NewLexer (ofRunes ('1' :: '.' :: List.replicate 16382 '5')) false).Yylex 16385).1
      = .token (newLVal ('1' :: '.' :: List.replicate 16381 '5') .DECIMAL) := by
  have hd : ('1' :: '.' :: List.replicate 16382 '5').dropLast
      = '1' :: '.' :: List.replicate 16381 '5' :=
    dropLast_cons_cons_replicate '1' '.' '5' 16382 (by decide)
  obtain ⟨st', hst', hrun⟩ := dfaRun_decimal ['1'] (List.replicate 16381 '5') (by simp)
    (by decide) (replicate_isDigit _ '5' (by decide))
  have hact : (if st' < 0 then some st' else idx ZZ_ACTION st') = some 26 := by
    rcases hst' with h | h <;> subst h <;> decide!
  have h := Yylex_whole_full ('1' :: '.' :: List.replicate 16382 '5') false 16385 26
    .DECIMAL st' (by rw [length_cons_cons_replicate]; rfl)
    (by rw [length_cons_cons_replicate]; decide) ⟨st', by rw [hd]; exact hrun⟩ hact
    (by decide)
  rw [hd] at h
  exact h.1

/-- C8, the code at the failing input: on `1e` followed by 16382 digits `5` (a text of
`ZZ_BUFFERSIZE` = 16384 runes) and the end of input, the first call of `Yylex` returns a
`DOUBLE` token whose text is `1e` and only 16381 digits, not the whole input. -/
theorem C8_double_split :
    ((NewLexer (ofRunes ('1' :: 'e' :: List.replicate 16382 '5')) false).Yylex 16385).1
      = .token (newLVal ('1' :: 'e' :: List.replicate 16381 '5') .DOUBLE) := by
  have hd : ('1' :: 'e' :: List.replicate 16382 '5').dropLast
      = '1' :: 'e' :: List.replicate 16381 '5' :=
    dropLast_cons_cons_replicate '1' 'e' '5' 16382 (by decide)
  have hrun := dfaRun_double ['1'] 'e' [] (List.replicate 16381 '5')
    (Or.inl ⟨by simp, by decide⟩) (Or.inl rfl) (Or.inl rfl)
    (replicate_ne_nil _ _ (by decide))
    (replicate_isDigit _ '5' (by decide))
  have h := Yylex_whole_full ('1' :: 'e' :: List.replicate 16382 '5') false 16385 27
    .DOUBLE 71 (by rw [length_cons_cons_replicate]; rfl)
    (by rw [length_cons_cons_replicate]; decide) ⟨71, by rw [hd]; exact hrun⟩ (by decide!)
    (by decide)
  rw [hd] at h
  exact h.1

/-- C9, the code at the failing input: on a run of `ZZ_BUFFERSIZE` = 16384 digits `7`
followed by the end of input, the first call of `Yylex` returns an `INT` token whose text
is only the first 16383 digits, not the whole run. -/
theorem C9_int_run_split :
    ((NewLexer (ofRunes (List.replicate 16384 '7')) false).Yylex 16385).1
      = .token (newLVal (List.replicate 16383 '7') .INT) := by
  have h := Yylex_int_run_full (List.replicate 16384 '7') false 16385
    (fun x hx => by rw [List.eq_of_mem_replicate hx]; rfl)
    (by rw [List.length_replicate]; rfl) (by rw [List.length_replicate]; omega)
  have e : (List.replicate 16384 '7').dropLast = List.replicate 16383 '7' := by
    rw [List.dropLast_replicate]
  rw [e] at h
  exact h

/-- C10, the code at the failing input: on the quoted identifier made of a double
quote, 16380 runes `a`, a doubled double quote and the closing double quote (a text of
`ZZ_BUFFERSIZE` = 16384 runes), the first call of `Yylex` returns no `NORMAL` token: it
ends in the panic of `yyerror` for an unterminated quoted identifier. -/
theorem C10_quoted_identifier_unterminated :
    ((NewLexer (ofRunes ((dquote :: (List.replicate 16380 'a' ++ [dquote, dquote]))
        ++ [dquote])) false).Yylex 16388).1
      = .panic (((NewLexer (ofRunes ((dquote :: (List.replicate 16380 'a'
          ++ [dquote, dquote])) ++ [dquote])) false).Yylex 16388).2.yyerror
            "unterminated quoted identifier") :=
  Yylex_quoted_full (List.replicate 16380 'a') false 16388
    (replicate_ne_nil _ _ (by decide))
    (fun x hx => by rw [List.eq_of_mem_replicate hx]; decide)
    (by
      rw [List.length_append, List.length_cons, List.length_append, List.length_replicate]
      rfl)
    (by decide)

/-- C11: `yypushback(n)` ends in the panic of the scan error for a pushback that is too
large exactly when `n > yylength()`, and the panic then leaves every field of the scanner
as it was, `zzMarkedPos` among them: the scanner at the panic is the scanner the call was
made on.  The call panics in no other way, and when `n ≤ yylength()` it only takes `n` off
`zzMarkedPos`. -/
theorem C11_pushback_too_large (l : Lexer) (n : Int) :
    (l.yypushback n = .error ("Error: pushback Value was too large", l) ↔ n > l.yylength) ∧
      ((∃ e, l.yypushback n = .error e) ↔ n > l.yylength) ∧
      (∀ msg l1, l.yypushback n = .error (msg, l1) →
        msg = "Error: pushback Value was too large" ∧ l1 = l ∧
          l1.zzMarkedPos = l.zzMarkedPos) ∧
      (¬ n > l.yylength →
        l.yypushback n = .ok { l with zzMarkedPos := l.zzMarkedPos - n }) := by
  have e : zzScanError ZZ_PUSHBACK_2BIG = "Error: pushback Value was too large" := by decide
  unfold Lexer.yypushback
  rw [e]
  by_cases h : n > l.yylength
  · rw [if_pos h]
    refine ⟨⟨fun _ => h, fun _ => rfl⟩, ⟨fun _ => h, fun _ => ⟨_, rfl⟩⟩, ?_,
      fun hn => absurd h hn⟩
    intro msg l1 hm
    injection hm with hm
    injection hm with h1 h2
    subst h1
    subst h2
    exact ⟨rfl, rfl, rfl⟩
  · rw [if_neg h]
    refine ⟨⟨fun hx => ?_, fun hx => absurd hx h⟩, ⟨fun hx => ?_, fun hx => absurd hx h⟩,
      ?_, fun _ => rfl⟩
    · simp at hx
    · obtain ⟨msg, hm⟩ := hx
      simp at hm
    · intro msg l1 hm
      simp at hm

/-! ## Pushback -/

/-- A matched text lies in the buffer between `zzStartRead` and `zzMarkedPos`. -/
theorem yytext_bounds (l : Lexer) (txt : List Char) (h : l.yytext = some txt) :
    0 ≤ l.zzStartRead ∧ l.zzStartRead ≤ l.zzMarkedPos ∧
      l.zzMarkedPos ≤ (l.zzBuffer.length : Int) := by
  unfold Lexer.yytext slice at h
  by_contra hc
  rw [if_neg hc] at h
  simp only [reduceCtorEq] at h

/-- C12: for a current match `txt` of length `L` and every `k` with `0 ≤ k ≤ L`,
`yypushback(k)` succeeds, and afterwards `yytext()` is the first `L - k` runes of `txt`;
the buffer from the new `zzMarkedPos` up to `zzEndRead` holds the last `k` runes of `txt`
followed by the text `vis` that was there before, and the first `L - k` runes with the
last `k` make up `txt`.  When `k` is at least 1, the next pass of `Yylex` starts its match
at the first rune pushed back, and its DFA loop reads the runes pushed back and then
`vis`: it follows `dfaRun` over the two. -/
theorem C12_pushback_then_rescan (l : Lexer) (k fuel : Nat) (txt : List Char) (st0 attr : Int)
    (htxt : l.yytext = some txt) (hk : k ≤ txt.length)
    (hme : l.zzMarkedPos ≤ l.zzEndRead) (hel : l.zzEndRead ≤ (l.zzBuffer.length : Int))
    (hst : idx ZZ_LEXSTATE l.zzLexicalState = some st0)
    (hat : idx ZZ_ATTRIBUTE st0 = some attr) :
    ∃ l1 vis, l.yypushback k = .ok l1 ∧
      l1.yytext = some (txt.take (txt.length - k)) ∧
      slice l1.zzBuffer l1.zzMarkedPos l1.zzEndRead
        = some (txt.drop (txt.length - k) ++ vis) ∧
      txt.take (txt.length - k) ++ txt.drop (txt.length - k) = txt ∧
      (1 ≤ k → ∃ l4 s, zzBegin l1 l1.zzEndRead l1.zzBuffer = .ready l4 s ∧
        l4.zzStartRead = l.zzMarkedPos - k ∧ s.zzCurrentPosL = l.zzMarkedPos - k ∧
        s.zzMarkedPosL = l.zzMarkedPos - k ∧ s.zzEndReadL = l.zzEndRead ∧
        s.zzBufferL = l.zzBuffer ∧
        ∀ inp st' a' m' c',
          dfaRun l4.zzState s.zzAction 0 0 (txt.drop (txt.length - k) ++ vis)
            = some (inp, st', a', m', c') →
          zzLoop (fuel + (k + vis.length)) l4 s =
            match inp with
            | some x => .forAction (some x) { l4 with zzState := st' }
                { s with zzAction := a', zzMarkedPosL := l4.zzStartRead + m',
                         zzCurrentPosL := l4.zzStartRead + c' }
            | none => zzLoop fuel { l4 with zzState := st' }
                { s with zzAction := a', zzMarkedPosL := l4.zzStartRead + m',
                         zzCurrentPosL := l4.zzStartRead + c' }) := by
  obtain ⟨b1, b2, b3⟩ := yytext_bounds l txt htxt
  obtain ⟨pre, txt0, post, hbuf, hs, hm, hy, hyl, hpost⟩ := buffer_split l b1 b2 b3
  rw [htxt] at hy
  simp only [Option.some.injEq] at hy
  subst hy
  have hlen : l.zzBuffer.length = pre.length + txt.length + post.length := by
    rw [hbuf]; simp only [List.length_append]
  have htl : (txt.drop (txt.length - k)).length = k := by
    rw [List.length_drop]; omega
  have hhd : (txt.take (txt.length - k)).length = txt.length - k := by
    rw [List.length_take]; omega
  have hvis : (post.take (l.zzEndRead - l.zzMarkedPos).toNat).length
      = (l.zzEndRead - l.zzMarkedPos).toNat := by
    rw [List.length_take]; omega
  have hbuf2 : l.zzBuffer = (pre ++ txt.take (txt.length - k))
      ++ (txt.drop (txt.length - k) ++ post.take (l.zzEndRead - l.zzMarkedPos).toNat)
      ++ post.drop (l.zzEndRead - l.zzMarkedPos).toNat := by
    rw [hbuf]
    simp only [List.append_assoc, List.take_append_drop]
    rw [← List.append_assoc (txt.take _), List.take_append_drop]
  have hpush : l.yypushback k = .ok { l with zzMarkedPos := l.zzMarkedPos - k } := by
    unfold Lexer.yypushback
    rw [if_neg (by rw [hyl]; omega)]
  have hm1 : l.zzMarkedPos - (k : Int)
      = (((pre ++ txt.take (txt.length - k)).length : Nat) : Int) := by
    rw [hm, List.length_append, hhd]; omega
  have he1 : l.zzEndRead = (((pre ++ txt.take (txt.length - k)).length
      + (txt.drop (txt.length - k) ++ post.take (l.zzEndRead - l.zzMarkedPos).toNat).length
        : Nat) : Int) := by
    rw [List.length_append, List.length_append, hhd, htl, hvis]; omega
  refine ⟨{ l with zzMarkedPos := l.zzMarkedPos - k },
    post.take (l.zzEndRead - l.zzMarkedPos).toNat, hpush, ?_, ?_, List.take_append_drop _ _, ?_⟩
  · show slice l.zzBuffer l.zzStartRead (l.zzMarkedPos - k) = _
    have := slice_mid pre txt post (txt.length - k) (by omega)
    rw [hbuf, hs]
    rw [← this]
    congr 1
    rw [hm]; omega
  · show slice l.zzBuffer (l.zzMarkedPos - k) l.zzEndRead = _
    have := slice_mid (pre ++ txt.take (txt.length - k))
      (txt.drop (txt.length - k) ++ post.take (l.zzEndRead - l.zzMarkedPos).toNat)
      (post.drop (l.zzEndRead - l.zzMarkedPos).toNat)
      (txt.drop (txt.length - k) ++ post.take (l.zzEndRead - l.zzMarkedPos).toNat).length
      (le_refl _)
    rw [List.take_length] at this
    rw [← this, ← hbuf2, ← hm1, ← he1]
  · intro hk1
    have hbuf3 : l.zzBuffer = pre ++ txt.take (txt.length - k)
        ++ (txt.drop (txt.length - k) ++ post) := by
      rw [hbuf]
      simp only [List.append_assoc]
      rw [← List.append_assoc (txt.take _), List.take_append_drop]
    obtain ⟨yl, yc, hbeg, -⟩ := begin_fields { l with zzMarkedPos := l.zzMarkedPos - k } pre
      (txt.take (txt.length - k)) (txt.drop (txt.length - k) ++ post) st0 attr hbuf3 hs
      (by show l.zzMarkedPos - (k : Int) = _
          rw [hm, hhd]; omega)
      (Or.inl ⟨by show l.zzMarkedPos - (k : Int) < l.zzEndRead
                  omega,
        by intro h
           have := congrArg List.length h
           rw [List.length_append, htl] at this
           simp at this
           omega⟩) hst hat
    refine ⟨_, _, hbeg, rfl, rfl, rfl, rfl, rfl, ?_⟩
    intro inp st' a' m' c' hrun
    have etake : ((txt.drop (txt.length - k)
          ++ post.take (l.zzEndRead - l.zzMarkedPos).toNat).drop 0).take
          (k + (post.take (l.zzEndRead - l.zzMarkedPos).toNat).length)
        = txt.drop (txt.length - k) ++ post.take (l.zzEndRead - l.zzMarkedPos).toNat := by
      rw [List.drop_zero]
      apply List.take_of_length_le
      rw [List.length_append, htl]
    have hl := loop_buffered (pre ++ txt.take (txt.length - k))
      (txt.drop (txt.length - k) ++ post.take (l.zzEndRead - l.zzMarkedPos).toNat)
      (post.drop (l.zzEndRead - l.zzMarkedPos).toNat)
      (k + (post.take (l.zzEndRead - l.zzMarkedPos).toNat).length) fuel
      { l with
          yychar := l.yychar + (txt.take (txt.length - k)).length
          yyline := yl
          yycolumn := yc
          zzCurrentPos := l.zzMarkedPos - k
          zzStartRead := l.zzMarkedPos - k
          zzMarkedPos := l.zzMarkedPos - k
          zzState := st0 }
      ⟨if attr.toNat &&& 1 = 1 then st0 else -1, l.zzMarkedPos - k, l.zzMarkedPos - k,
        l.zzEndRead, l.zzBuffer⟩ 0 0
      (txt.drop (txt.length - k) ++ post.take (l.zzEndRead - l.zzMarkedPos).toNat).length
      hbuf2 (by show l.zzMarkedPos - (k : Int) = _
                rw [hm1]; simp)
      (by show l.zzMarkedPos - (k : Int) = _
          rw [hm1]; simp)
      he1 (by rw [List.length_append, htl]; omega) (le_refl _) inp st' a' m' c'
      (by rw [etake]; exact hrun)
    have em : (((pre ++ txt.take (txt.length - k)).length + m' : Nat) : Int)
        = l.zzMarkedPos - k + m' := by
      rw [hm1]; push_cast; rfl
    have ec : (((pre ++ txt.take (txt.length - k)).length + c' : Nat) : Int)
        = l.zzMarkedPos - k + c' := by
      rw [hm1]; push_cast; rfl
    rw [em, ec] at hl
    exact hl

/-- C12, witness: the scanner that has matched `abc` in the input `abc d`, and a pushback
of 2 runes. -/
theorem C12_pushback_then_rescan_witness :
    ∃ l1 vis, ((NewLexer (ofRunes ['a', 'b', 'c', ' ', 'd']) false).Yylex 8).2.yypushback ((2 : Nat) : Int) = .ok l1 ∧
      l1.yytext = some (['a', 'b', 'c'].take (1)) ∧
      slice l1.zzBuffer l1.zzMarkedPos l1.zzEndRead
        = some (['a', 'b', 'c'].drop (1) ++ vis) ∧
      ['a', 'b', 'c'].take (1) ++ ['a', 'b', 'c'].drop (1) = ['a', 'b', 'c'] ∧
      (1 ≤ 2 → ∃ l4 s, zzBegin l1 l1.zzEndRead l1.zzBuffer = .ready l4 s ∧
        l4.zzStartRead = ((NewLexer (ofRunes ['a', 'b', 'c', ' ', 'd']) false).Yylex 8).2.zzMarkedPos - ((2 : Nat) : Int) ∧ s.zzCurrentPosL = ((NewLexer (ofRunes ['a', 'b', 'c', ' ', 'd']) false).Yylex 8).2.zzMarkedPos - ((2 : Nat) : Int) ∧
        s.zzMarkedPosL = ((NewLexer (ofRunes ['a', 'b', 'c', ' ', 'd']) false).Yylex 8).2.zzMarkedPos - ((2 : Nat) : Int) ∧ s.zzEndReadL = ((NewLexer (ofRunes ['a', 'b', 'c', ' ', 'd']) false).Yylex 8).2.zzEndRead ∧
        s.zzBufferL = ((NewLexer (ofRunes ['a', 'b', 'c', ' ', 'd']) false).Yylex 8).2.zzBuffer ∧
        ∀ inp st' a' m' c',
          dfaRun l4.zzState s.zzAction 0 0 (['a', 'b', 'c'].drop (1) ++ vis)
            = some (inp, st', a', m', c') →
          zzLoop (8 + (2 + vis.length)) l4 s =
            match inp with
            | some x => .forAction (some x) { l4 with zzState := st' }
                { s with zzAction := a', zzMarkedPosL := l4.zzStartRead + m',
                         zzCurrentPosL := l4.zzStartRead + c' }
            | none => zzLoop 8 { l4 with zzState := st' }
                { s with zzAction := a', zzMarkedPosL := l4.zzStartRead + m',
                         zzCurrentPosL := l4.zzStartRead + c' }) :=
  C12_pushback_then_rescan ((NewLexer (ofRunes ['a', 'b', 'c', ' ', 'd']) false).Yylex 8).2 2 8 ['a', 'b', 'c'] 0 0
    (by decide!) (by decide) (by decide!) (by decide!) (by decide!) (by decide!)

/-- C13, counterexample: the run of two blanks is scanned as two `WHITESPACE_OR_COMMENT`
tokens of one blank each; the first call of `Yylex` does not return the whole run. -/
theorem C13_two_blanks_two_tokens :
    (NewLexer (ofRunes [' ', ' ']) false).scan 8 8
        = some [(some (newLVal [' '] .WHITESPACE_OR_COMMENT), [' ']),
            (some (newLVal [' '] .WHITESPACE_OR_COMMENT), [' '])] ∧
      ((NewLexer (ofRunes [' ', ' ']) false).Yylex 8).1
        ≠ .token (newLVal [' ', ' '] .WHITESPACE_OR_COMMENT) := by
  decide!

/-- C13, amended: for an input of fewer than `ZZ_BUFFERSIZE` runes that is a run of
white space (blanks, tabs, line feeds, carriage returns), successive calls of `Yylex`
return one `WHITESPACE_OR_COMMENT` token for each rune of the run, in order, and then
the end-of-input signal: a run of `n` runes is split into `n` tokens of one rune. -/
theorem C13_ws_run_one_token_per_rune (ws : List Char) (d : Bool) (n fuel : Nat)
    (hws : ∀ r ∈ ws, r = ' ' ∨ r = '\t' ∨ r = '\n' ∨ r = '\r')
    (hlen : ws.length < ZZ_BUFFERSIZE) (hn : ws.length < n) (hfuel : ws.length < fuel) :
    (NewLexer (ofRunes ws) d).scan n fuel
      = some (ws.map (fun r => (some (newLVal [r] .WHITESPACE_OR_COMMENT), [r]))) := by
  obtain ⟨k, hk⟩ : ∃ k, n = k + 1 := ⟨n - 1, by omega⟩
  rw [hk, scan_fresh ws d k fuel hlen hfuel, absScan_ws ws (k + 1) [] [] (by omega) hws]

/-- C13, witness: a blank, a tab and a line feed are three tokens. -/
theorem C13_ws_run_one_token_per_rune_witness :
    (NewLexer (ofRunes [' ', '\t', '\n']) false).scan 4 4
      = some [(some (newLVal [' '] .WHITESPACE_OR_COMMENT), [' ']),
          (some (newLVal ['\t'] .WHITESPACE_OR_COMMENT), ['\t']),
          (some (newLVal ['\n'] .WHITESPACE_OR_COMMENT), ['\n'])] :=
  C13_ws_run_one_token_per_rune [' ', '\t', '\n'] false 4 4 (by decide) (by decide)
    (by decide) (by decide)

/-- C14, the code at the failing input: on the comment `/*`, U+20AC, carriage return,
line feed, `*/`, two calls of `Yylex` consume the whole input (the comment token, then
the end-of-input signal) and leave `yyline` at `0`, although a carriage return and line
feed pair has been consumed; with `a` in the place of U+20AC, `yyline` is `1`. -/
theorem C14_crlf_after_wide_rune_not_counted :
    (((NewLexer (ofRunes ['/', '*', Char.ofNat 0x20AC, '\r', '\n', '*', '/']) false).Yylex
        16).2.Yylex 16).1 = .eof ∧
      (((NewLexer (ofRunes ['/', '*', Char.ofNat 0x20AC, '\r', '\n', '*', '/']) false).Yylex
        16).2.Yylex 16).2.yyline = 0 ∧
      (((NewLexer (ofRunes ['/', '*', 'a', '\r', '\n', '*', '/']) false).Yylex
        16).2.Yylex 16).2.yyline = 1 := by
  decide!

/-- C17, the code at the failing input: a scanner that has scanned a run of
`ZZ_BUFFERSIZE` = 16384 digits `3` has a grown buffer, which `Reset` keeps; after
`Reset` to the same run, the first call of `Yylex` returns the `INT` token of all 16384
digits, while a fresh scanner over the same run returns the `INT` token of 16383
digits. -/
theorem C17_reset_keeps_grown_buffer :
    ((((NewLexer (ofRunes (List.replicate 16384 '3')) false).Yylex 16385).2.Reset
        (ofRunes (List.replicate 16384 '3'))).Yylex 16385).1
        = .token (newLVal (List.replicate 16384 '3') .INT) ∧
      ((NewLexer (ofRunes (List.replicate 16384 '3')) false).Yylex 16385).1
        = .token (newLVal (List.replicate 16383 '3') .INT) := by
  have hdig := replicate_isDigit 16384 '3' (by decide)
  have hlen : (List.replicate 16384 '3').length = ZZ_BUFFERSIZE := by
    rw [List.length_replicate]; rfl
  have hfuel : (List.replicate 16384 '3').length < 16385 := by
    rw [List.length_replicate]; decide
  have h := Yylex_digits_full_state (List.replicate 16384 '3') false 16385 hdig hlen hfuel
  have e : (List.replicate 16384 '3').dropLast = List.replicate 16383 '3' := by
    rw [List.dropLast_replicate]
  rw [e] at h
  exact ⟨Yylex_reset_digits _ _ 16385 (replicate_ne_nil _ _ (by decide)) hdig h.2.2 hfuel,
    h.1⟩

/-- C18, the code at the failing input: on a run of `ZZ_BUFFERSIZE` = 16384 digits `1`
the DFA, run from the start state of `YYINITIAL`, reads the whole run and ends in an
accepting state, yet the match chosen by the first call of `Yylex` has length 16383. -/
theorem C18_match_shorter_than_dfa_run :
    (∃ st', dfaRun 0 (-1) 0 0 (List.replicate 16384 '1')
        = some (none, st', st', 16384, 16384)) ∧
      ((NewLexer (ofRunes (List.replicate 16384 '1')) false).Yylex 16385).2.yylength
        = 16383 := by
  have hdig := replicate_isDigit 16384 '1' (by decide)
  have hlen : (List.replicate 16384 '1').length = ZZ_BUFFERSIZE := by
    rw [List.length_replicate]; rfl
  have hfuel : (List.replicate 16384 '1').length < 16385 := by
    rw [List.length_replicate]; decide
  have h := Yylex_digits_full_state (List.replicate 16384 '1') false 16385 hdig hlen hfuel
  obtain ⟨st', _, hrun⟩ := dfaRun_digits (List.replicate 16384 '1')
    (replicate_ne_nil _ _ (by decide)) hdig
  rw [List.length_replicate] at hrun
  refine ⟨⟨st', hrun⟩, ?_⟩
  rw [h.2.1, List.length_replicate]
  rfl

/-! ## The line counter -/

/-- C16, the code at the failing input: over a reader that delivers a blank and 16383
digits `1`, then fails once, then delivers the rune `d`, the first call of `Yylex`
returns the token of the blank, the second call returns the error of the reader and
leaves `yylength() = 16382`, `yypushback(16382)` succeeds, and the third call returns the
`DOUBLE` token of the 16383 digits and the rune `d`.  The fields `zzStartRead`,
`zzMarkedPos`, `zzEndRead` and the length of `zzBuffer` are 0, 1, 16383, 16384 after the
first call, 0, 16382, 16383, 16384 after the second, 0, 0, 16383, 16384 after the
pushback and 0, 16384, 16383, 16384 after the third call: `zzMarkedPos` lies beyond
`zzEndRead`. -/
theorem C16_marked_pos_beyond_end_read :
    ∃ l1 l2 l3 l4 : Lexer,
      (NewLexer (RuneRead.rune ' ' :: (ofRunes (List.replicate 16383 '1') ++
          [RuneRead.fail "boom", RuneRead.rune 'd'])) false).Yylex 16386
        = (.token (newLVal [' '] .WHITESPACE_OR_COMMENT), l1) ∧
      l1.Yylex 16386 = (.fail "boom", l2) ∧
      l2.yylength = 16382 ∧ l2.yypushback 16382 = .ok l3 ∧
      l3.Yylex 16386
        = (.token (newLVal (List.replicate 16383 '1' ++ ['d']) .DOUBLE), l4) ∧
      (l1.zzStartRead = 0 ∧ l1.zzMarkedPos = 1 ∧ l1.zzEndRead = 16383 ∧
        l1.zzBuffer.length = 16384) ∧
      (l2.zzStartRead = 0 ∧ l2.zzMarkedPos = 16382 ∧ l2.zzEndRead = 16383 ∧
        l2.zzBuffer.length = 16384) ∧
      (l3.zzStartRead = 0 ∧ l3.zzMarkedPos = 0 ∧ l3.zzEndRead = 16383 ∧
        l3.zzBuffer.length = 16384) ∧
      (l4.zzStartRead = 0 ∧ l4.zzMarkedPos = 16384 ∧ l4.zzEndRead = 16383 ∧
        l4.zzBuffer.length = 16384) ∧
      ¬ (l4.zzMarkedPos ≤ l4.zzEndRead) := by
  have hlen : (NewLexer (RuneRead.rune ' ' :: (ofRunes (List.replicate 16383 '1') ++
      [RuneRead.fail "boom", RuneRead.rune 'd'])) false).zzBuffer.length
      = (List.replicate 16383 '1').length + 1 := by
    show (List.replicate ZZ_BUFFERSIZE zeroRune).length = _
    rw [List.length_replicate, List.length_replicate]
    rfl
  obtain ⟨l1, h1, b1, s1, m1, e1, f1, eof1, lex1, r1⟩ := Yylex_blank _
    (List.replicate 16383 '1') [RuneRead.fail "boom", RuneRead.rune 'd'] 16385 hlen rfl rfl
    rfl rfl rfl rfl rfl
  rw [List.length_replicate] at e1
  obtain ⟨l2, h2, b2, s2, m2, e2, f2, eof2, lex2, r2⟩ := Yylex_ones_fail l1 16381 "boom"
    [RuneRead.rune 'd'] 16385 (by decide) b1 s1 m1 e1 f1 eof1 lex1 r1
  have hy : l2.yylength = 16382 := by
    unfold Lexer.yylength
    rw [m2, s2]
    rfl
  have hp : l2.yypushback 16382 = .ok { l2 with zzMarkedPos := l2.zzMarkedPos - 16382 } := by
    unfold Lexer.yypushback
    have : ¬ ((16382 : Int) > l2.yylength) := by rw [hy]; decide
    rw [if_neg this]
  have m3 : l2.zzMarkedPos - 16382 = 0 := by
    rw [m2]
    rfl
  obtain ⟨l4, h4, b4, s4, m4, e4, _, _, _, _⟩ := Yylex_ones_d
    { l2 with zzMarkedPos := l2.zzMarkedPos - 16382 } 16381 [] 16385 (by decide) b2 s2 m3 e2
    f2 eof2 lex2 r2
  have len1 : l1.zzBuffer.length = 16384 := by
    rw [b1, List.length_cons, List.length_replicate]
  have len2 : l2.zzBuffer.length = 16384 := by
    rw [b2, List.length_replicate]
  have len4 : l4.zzBuffer.length = 16384 := by
    rw [b4, List.length_append, List.length_replicate]
    rfl
  refine ⟨l1, l2, _, l4, h1, h2, hy, hp, h4, ⟨s1, m1, e1, len1⟩, ⟨s2, m2, e2, len2⟩,
    ⟨s2, m3, e2, len2⟩, ⟨s4, m4, e4, len4⟩, ?_⟩
  rw [m4, e4]
  decide

/-! ## The matches follow one another -/

/-- Along the passes of a scan, every match starts at the offset where the one before it
ended, and its length is not negative. -/
theorem passLexers_chain (fuel : Nat) (passes : Nat) : ∀ (l : Lexer) (e : Int) (b : List Char),
    List.Chain (fun a c : Lexer => c.yychar = a.yychar + a.yylength ∧ 0 ≤ c.yylength) l
      (passLexers passes fuel l e b) := by
  induction passes with
  | zero => intro l e b; exact List.Chain.nil
  | succ n ih =>
    intro l e b
    unfold passLexers
    cases hp : yyPass fuel l e b with
    | ret r l1 =>
      cases r with
      | token v =>
        obtain ⟨lc, m, ec, bc, -, h1, -, -, h2⟩ := pass_frame fuel l e b l1 (Or.inl ⟨v, hp⟩)
        exact List.Chain.cons ⟨h1, h2⟩ (ih l1 _ _)
      | eof => exact List.Chain.nil
      | fail err => exact List.Chain.nil
      | panic msg => exact List.Chain.nil
      | timeout => exact List.Chain.nil
    | again l1 e1 b1 =>
      obtain ⟨lc, m, ec, bc, -, h1, -, -, h2⟩ :=
        pass_frame fuel l e b l1 (Or.inr (Or.inr ⟨e1, b1, hp⟩))
      exact List.Chain.cons ⟨h1, h2⟩ (ih l1 _ _)

/-- The scanner that a call of `Yylex` returns a token with is the scanner after one of
the passes of the scan. -/
theorem yyLoop_mem_passLexers (fuel : Nat) (passes : Nat) : ∀ (l : Lexer) (e : Int)
    (b : List Char) (v : LVal), (yyLoop passes fuel l e b).1 = .token v →
    (yyLoop passes fuel l e b).2 ∈ passLexers passes fuel l e b := by
  induction passes with
  | zero => intro l e b v h; simp [yyLoop] at h
  | succ n ih =>
    intro l e b v h
    unfold yyLoop at h ⊢
    unfold passLexers
    cases hp : yyPass fuel l e b with
    | ret r l1 =>
      rw [hp] at h
      dsimp only at h ⊢
      subst h
      exact List.mem_cons_self _ _
    | again l1 e1 b1 =>
      rw [hp] at h
      dsimp only at h ⊢
      exact List.mem_cons_of_mem _ (ih l1 e1 b1 v h)

/-- Along a chain of matches that follow one another, `yychar` is the sum of the lengths
of the matches before, and it does not decrease. -/
theorem chain_offsets : ∀ (t : List Lexer) (a : Lexer), 0 ≤ a.yylength →
    List.Chain (fun a c : Lexer => c.yychar = a.yychar + a.yylength ∧ 0 ≤ c.yylength) a t →
    ∀ k c, (a :: t)[k + 1]? = some c →
      ∃ p, (a :: t)[k]? = some p ∧ c.yychar = p.yychar + p.yylength ∧ p.yychar ≤ c.yychar ∧
        c.yychar = a.yychar + (((a :: t).take (k + 1)).map Lexer.yylength).sum := by
  intro t
  induction t with
  | nil => intro a _ _ k c h; simp at h
  | cons x t ih =>
    intro a ha hch k c h
    rw [List.chain_cons] at hch
    obtain ⟨⟨h1, h2⟩, hch⟩ := hch
    cases k with
    | zero =>
      simp only [zero_add, List.getElem?_cons_succ, List.getElem?_cons_zero,
        Option.some.injEq] at h
      subst h
      refine ⟨a, by simp, h1, by omega, ?_⟩
      simp [h1]
    | succ k =>
      rw [List.getElem?_cons_succ] at h
      obtain ⟨p, hp, e1, e2, e3⟩ := ih x h2 hch k c h
      refine ⟨p, by rw [List.getElem?_cons_succ]; exact hp, e1, e2, ?_⟩
      have ht : (a :: x :: t).take (k + 1 + 1) = a :: (x :: t).take (k + 1) := rfl
      rw [e3, h1, ht, List.map_cons, List.sum_cons]
      ring

/-- Along a chain of matches that follow one another, `yychar` does not decrease. -/
theorem chain_mono : ∀ (t : List Lexer) (a : Lexer), 0 ≤ a.yylength →
    List.Chain (fun a c : Lexer => c.yychar = a.yychar + a.yylength ∧ 0 ≤ c.yylength) a t →
    List.Chain (fun a c : Lexer => c.yychar = a.yychar + a.yylength ∧ a.yychar ≤ c.yychar)
      a t := by
  intro t
  induction t with
  | nil => intro a _ _; exact List.Chain.nil
  | cons x t ih =>
    intro a ha hch
    rw [List.chain_cons] at hch
    obtain ⟨⟨h1, h2⟩, hch⟩ := hch
    exact List.Chain.cons ⟨h1, by omega⟩ (ih x h2 hch)

/-- What holds of the offsets along a run without a failing call: across the successive
passes of `Yylex` calls on one source, without pushback and up to the first call that
fails or finds the end of input (`passLexers` lists the scanner after each match of such
a run), `yychar` at the start of a match is `yychar` at the start of the match before
plus the length of that match, and it is not less; so `yychar` at the start of a match
is the offset of the first match plus the total length of all matches before. -/
theorem passLexers_offsets (passes fuel : Nat) (l : Lexer) (h : 0 ≤ l.yylength) :
    List.Chain' (fun p c : Lexer => c.yychar = p.yychar + p.yylength ∧ p.yychar ≤ c.yychar)
        (l :: passLexers passes fuel l l.zzEndRead l.zzBuffer) ∧
      ∀ k c, (l :: passLexers passes fuel l l.zzEndRead l.zzBuffer)[k]? = some c →
        c.yychar = l.yychar +
          (((l :: passLexers passes fuel l l.zzEndRead l.zzBuffer).take k).map
            Lexer.yylength).sum := by
  refine ⟨chain_mono _ l h (passLexers_chain fuel passes l _ _), ?_⟩
  intro k c hc
  cases k with
  | zero =>
    simp only [List.getElem?_cons_zero, Option.some.injEq] at hc
    subst hc
    simp
  | succ k =>
    obtain ⟨p, -, -, -, e⟩ := chain_offsets _ l h (passLexers_chain fuel passes l _ _) k c hc
    exact e

/-- C19, the code at the failing input: over a reader that delivers 16382 letters `a`, a
carriage return and one more `a`, then fails once and is at its end, the first two calls
of `Yylex` return the token of the letters (`yychar = 0`) and the token of the carriage
return (`yychar = 16382`), the third call returns the error of the reader, and the fourth
call returns the token of the last `a` with `yychar = 16384` at the start of this match,
although the matches before it have 16382 + 1 = 16383 characters: the failed call had
advanced `yychar` over the carriage return before its peek for a line feed failed, and
the fourth call advances it over the same match again. -/
theorem C19_offset_counted_twice_after_failed_read :
    ∃ l1 l2 l3 l4 : Lexer,
      (NewLexer (ofRunes (List.replicate 16382 'a' ++ [CR, 'a']) ++ [RuneRead.fail "boom"])
          false).Yylex 16386
        = (.token (newLVal (List.replicate 16382 'a') .NORMAL), l1) ∧
      l1.Yylex 16386 = (.token (newLVal [CR] .WHITESPACE_OR_COMMENT), l2) ∧
      l2.Yylex 16386 = (.fail "boom", l3) ∧
      l3.Yylex 16386 = (.token (newLVal ['a'] .NORMAL), l4) ∧
      l1.yychar = 0 ∧ l2.yychar = 16382 ∧ l3.yychar = 16383 ∧ l4.yychar = 16384 := by
  have hlen : (NewLexer (ofRunes (List.replicate 16382 'a' ++ [CR, 'a']) ++
      [RuneRead.fail "boom"]) false).zzBuffer.length = 16381 + 3 := by
    show (List.replicate ZZ_BUFFERSIZE zeroRune).length = _
    rw [List.length_replicate]
    rfl
  obtain ⟨l1, h1, b1, s1, m1, e1, f1, eof1, lex1, r1, y1⟩ := Yylex_letters _ 16381 'a'
    [RuneRead.fail "boom"] 16385 (by decide) hlen rfl rfl rfl rfl rfl rfl rfl
  obtain ⟨l2, h2, b2, s2, m2, c2, e2, f2, eof2, lex2, r2, y2⟩ := Yylex_cr l1 16381 'a' 16385
    b1 s1 m1 e1 lex1
  obtain ⟨l3, post, h3, b3, hpost, s3, m3, c3, e3, f3, eof3, lex3, r3, y3, _⟩ :=
    Yylex_peek_fails l2 16381 'a' "boom" [] 16385 (by rw [b2]; exact b1) s2 m2 c2
      (by rw [e2]; exact e1) (by rw [f2]; exact f1) (by rw [eof2]; exact eof1)
      (by rw [r2]; exact r1)
  obtain ⟨l4, h4, y4⟩ := Yylex_after_failed_peek l3 post 16384 b3 hpost s3 m3 c3 e3 f3 eof3
    (by rw [lex3]; exact lex2) r3
  have y1' : l1.yychar = 0 := y1
  have y2' : l2.yychar = 16382 := by
    rw [y2, y1']
    rfl
  have y3' : l3.yychar = 16383 := by
    rw [y3, y2']
    rfl
  have y4' : l4.yychar = 16384 := by
    rw [y4, y3']
    rfl
  exact ⟨l1, l2, l3, l4, h1, h2, h3, h4, y1', y2', y3', y4'⟩

/-- A scanner at the end stays at the end over any number of calls of `Yylex`, each of
which returns the end-of-input signal. -/
theorem atEnd_calls (fuel : Nat) (calls : Nat) : ∀ l : Lexer, AtEnd l →
    AtEnd (l.afterCalls calls (fuel + 1)) ∧
      ((l.afterCalls calls (fuel + 1)).Yylex (fuel + 1)).1 = .eof := by
  induction calls with
  | zero =>
    intro l h
    obtain ⟨l', h1, -, -⟩ := eof_again l fuel h
    exact ⟨h, by rw [Lexer.afterCalls, h1]⟩
  | succ n ih =>
    intro l h
    obtain ⟨l', h1, h2, -⟩ := eof_again l fuel h
    rw [Lexer.afterCalls, h1]
    exact ih l' h2

/-- C20: in lexical state `YYINITIAL`, when no input characters remain (the reader is
exhausted and the buffer holds no text after the last match), `Yylex` returns the
end-of-input signal `(nil, nil)`, and so does every later call of `Yylex` on the scanner;
the later calls do not read the source: whatever the reader of the scanner is put to, the
call returns the end-of-input signal and leaves the reader as it is. -/
theorem C20_eof_signal_repeats (l : Lexer) (fuel : Nat) (hfuel : 0 < fuel)
    (hlex : l.zzLexicalState = YYINITIAL) (hr : l.zzReader = []) (he : l.zzAtEOF = false)
    (hf : l.zzFinalHighSurrogate = 0) (h1 : 0 ≤ l.zzStartRead)
    (h2 : l.zzStartRead ≤ l.zzCurrentPos) (h3 : l.zzCurrentPos ≤ l.zzMarkedPos)
    (h4 : l.zzMarkedPos = l.zzEndRead) (h5 : l.zzEndRead < l.zzBuffer.length) :
    (∀ calls, ((l.afterCalls calls fuel).Yylex fuel).1 = .eof) ∧
      ∀ calls rd, 1 ≤ calls →
        ({ l.afterCalls calls fuel with zzReader := rd }.Yylex fuel).1 = .eof ∧
        ({ l.afterCalls calls fuel with zzReader := rd }.Yylex fuel).2.zzReader = rd := by
  obtain ⟨n, rfl⟩ : ∃ n, fuel = n + 1 := ⟨fuel - 1, by omega⟩
  have hsim := sim_of_fields l hr he hf h1 h2 h3 h4 h5
  obtain ⟨l', hp, hAt, -⟩ := eof_pass l _ n hsim rfl rfl hlex
  have hfirst : l.Yylex (n + 1) = (.eof, l') := by
    unfold Lexer.Yylex
    simp only [yyLoop]
    rw [hp]
  have hnext : ∀ calls, l.afterCalls (calls + 1) (n + 1) = l'.afterCalls calls (n + 1) := by
    intro calls
    rw [Lexer.afterCalls, hfirst]
  refine ⟨?_, ?_⟩
  · intro calls
    cases calls with
    | zero => rw [Lexer.afterCalls, hfirst]
    | succ c =>
      rw [hnext]
      exact (atEnd_calls n c l' hAt).2
  · intro calls rd hc
    obtain ⟨c, rfl⟩ : ∃ c, calls = c + 1 := ⟨calls - 1, by omega⟩
    rw [hnext]
    obtain ⟨a1, a2, a3, a4⟩ := (atEnd_calls n c l' hAt).1
    obtain ⟨l2, e1, -, e2⟩ := eof_again { l'.afterCalls c (n + 1) with zzReader := rd } n
      ⟨a1, a2, a3, a4⟩
    rw [e1]
    exact ⟨rfl, e2⟩

/-- C20, witness: a fresh scanner over the empty input. -/
theorem C20_eof_signal_repeats_witness :
    (∀ calls, (((NewLexer [] false).afterCalls calls 2).Yylex 2).1 = .eof) ∧
      ∀ calls rd, 1 ≤ calls →
        ({ (NewLexer [] false).afterCalls calls 2 with zzReader := rd }.Yylex 2).1 = .eof ∧
        ({ (NewLexer [] false).afterCalls calls 2 with zzReader := rd }.Yylex 2).2.zzReader
          = rd :=
  C20_eof_signal_repeats (NewLexer [] false) 2 (by decide) rfl rfl rfl rfl (by decide!)
    (by decide!) (by decide!) (by decide!) (by decide!)

/-- C28, the code at the failing input: the first `zzRefill` of a fresh scanner over a
reader that delivers `ZZ_BUFFERSIZE` = 16384 letters `a` reads them all into the buffer
and then holds the last one back: `zzFinalHighSurrogate` is 1 and `zzEndRead` is 16383,
so the rune at index 16383 has been read from the source and does not lie below
`zzEndRead`. -/
theorem C28_refill_holds_rune_back :
    ∃ l2 : Lexer,
      (NewLexer (ofRunes (List.replicate 16384 'a')) false).zzRefill = (.more, l2) ∧
      l2.zzReader = [] ∧ l2.zzBuffer = List.replicate 16384 'a' ∧
      l2.zzFinalHighSurrogate = 1 ∧ l2.zzEndRead = 16383 ∧
      idx l2.zzBuffer l2.zzEndRead = some 'a' := by
  obtain ⟨l2, hr, b2, e2, f2, -, -, -, r2, -⟩ := refill_fills
    (NewLexer (ofRunes (List.replicate 16384 'a')) false) []
    (List.replicate ZZ_BUFFERSIZE zeroRune) (List.replicate 16384 'a') []
    (replicate_ne_nil _ _ (by decide)) rfl
    (by rw [List.length_replicate, List.length_replicate]; rfl) rfl rfl rfl
    (by
      show (0 : Int) < _
      rw [List.nil_append, List.length_replicate]
      decide)
    (List.append_nil _).symm
  rw [List.nil_append] at b2
  rw [List.length_nil, List.length_replicate] at e2
  have e2' : l2.zzEndRead = 16383 := by
    rw [e2]
    rfl
  refine ⟨l2, hr, r2, b2, f2, e2', ?_⟩
  rw [b2, e2']
  have h := idx_natCast (List.replicate 16384 'a') 16383
  have e : ((16383 : Nat) : Int) = 16383 := rfl
  rw [e] at h
  rw [h, List.getElem?_replicate]
  rfl

/-! ## Names of databases and tables -/

theorem validateRunes_none (isPrint isSpace : Char → Bool) (runes : List Char) :
    validateRunes isPrint isSpace runes = none ↔
      ∀ r ∈ runes, 0x0001 ≤ r.toNat ∧ r.toNat ≤ 0xFFFF ∧ r ≠ Char.ofNat 0x60 ∧
        r ≠ Char.ofNat 0x27 ∧ r ≠ Char.ofNat 0x22 ∧ isPrint r = true ∧ isSpace r = false := by
  induction runes with
  | nil => simp [validateRunes]
  | cons r runes ih =>
    simp only [validateRunes, List.mem_cons, forall_eq_or_imp]
    by_cases h0 : r.toNat = 0x0000
    · rw [if_pos h0]
      constructor
      · intro h; simp at h
      · intro h; omega
    rw [if_neg h0]
    by_cases h1 : r.toNat > 0xFFFF
    · rw [if_pos h1]
      constructor
      · intro h; simp at h
      · intro h; omega
    rw [if_neg h1]
    by_cases h2 : r = Char.ofNat 0x60
    · rw [if_pos h2]
      constructor
      · intro h; simp at h
      · intro h; exact absurd h2 h.1.2.2.1
    rw [if_neg h2]
    by_cases h3 : r = Char.ofNat 0x27 ∨ r = Char.ofNat 0x22
    · rw [if_pos h3]
      constructor
      · intro h; simp at h
      · intro h
        rcases h3 with h3 | h3
        · exact absurd h3 h.1.2.2.2.1
        · exact absurd h3 h.1.2.2.2.2.1
    rw [if_neg h3]
    by_cases h4 : isPrint r = true
    · by_cases h5 : isSpace r = true
      · have e : (if (! isPrint r) = true then some validationErr
            else if isSpace r = true then some validationErr
            else validateRunes isPrint isSpace runes) = some validationErr := by
          simp [h4, h5]
        rw [e]
        constructor
        · intro h; simp at h
        · intro h
          rw [h.1.2.2.2.2.2.2] at h5
          simp at h5
      · have h5' : isSpace r = false := by simpa using h5
        have e : (if (! isPrint r) = true then some validationErr
            else if isSpace r = true then some validationErr
            else validateRunes isPrint isSpace runes)
            = validateRunes isPrint isSpace runes := by
          simp [h4, h5']
        rw [e, ih]
        constructor
        · intro h
          exact ⟨⟨by omega, by omega, h2, fun e => h3 (Or.inl e), fun e => h3 (Or.inr e), h4,
            h5'⟩, h⟩
        · intro h
          exact h.2
    · have h4' : isPrint r = false := by simpa using h4
      have e : (if (! isPrint r) = true then some validationErr
          else if isSpace r = true then some validationErr
          else validateRunes isPrint isSpace runes) = some validationErr := by
        simp [h4']
      rw [e]
      constructor
      · intro h; simp at h
      · intro h
        exact absurd h.1.2.2.2.2.2.1 h4

/-- C29: `validate(name)` returns `nil` exactly when the name is not empty and each of
its runes lies between `0x0001` and `0xFFFF`, is none of the backtick, the single quote
and the double quote, is printable (`unicode.IsPrint`) and is no space character
(`unicode.IsSpace`); `validateDBTable(db, table)` returns `nil` exactly when both
`validate(db)` and `validate(table)` do. -/
theorem C29_validate_nil_iff (isPrint isSpace : Char → Bool) (name db table : List Char) :
    (validate isPrint isSpace name = none ↔
      name ≠ [] ∧ ∀ r ∈ name, 0x0001 ≤ r.toNat ∧ r.toNat ≤ 0xFFFF ∧ r ≠ Char.ofNat 0x60 ∧
        r ≠ Char.ofNat 0x27 ∧ r ≠ Char.ofNat 0x22 ∧ isPrint r = true ∧ isSpace r = false) ∧
      (validateDBTable isPrint isSpace db table = none ↔
        validate isPrint isSpace db = none ∧ validate isPrint isSpace table = none) := by
  constructor
  · unfold validate
    by_cases h : name = []
    · rw [if_pos h]
      constructor
      · intro hx; simp at hx
      · intro hx; exact absurd h hx.1
    · rw [if_neg h, validateRunes_none]
      exact ⟨fun hx => ⟨h, hx⟩, fun hx => hx.2⟩
  · unfold validateDBTable
    cases hd : validate isPrint isSpace db <;> cases ht : validate isPrint isSpace table <;>
      simp [wrapErr]

/-! ## The listing of keys -/

theorem listRow_eq (pfx : List Char) (keys : List (List Char)) (key : List Char) :
    listRow pfx keys key =
      if '/' ∈ strings.TrimPrefix key pfx then AppendIfMissing keys (listEntry pfx key)
      else keys ++ [listEntry pfx key] := by
  unfold listRow listEntry strings.Index
  dsimp only
  by_cases h : '/' ∈ strings.TrimPrefix key pfx
  · have h1 : ¬ (((strings.TrimPrefix key pfx).indexOf '/' : Nat) : Int) = -1 := by omega
    have h2 : ((((strings.TrimPrefix key pfx).indexOf '/' : Nat) : Int) + 1).toNat
        = (strings.TrimPrefix key pfx).indexOf '/' + 1 := by omega
    simp only [if_pos h]
    rw [if_neg h1, if_pos h1, h2]
  · simp only [if_neg h, if_true]

/-- The entry of a key is what is left of the key without a `/`, or a folder name that
ends in its first `/`. -/
theorem listEntry_shape (pfx key : List Char) :
    ('/' ∉ strings.TrimPrefix key pfx ∧ listEntry pfx key = strings.TrimPrefix key pfx) ∨
      ∃ name, '/' ∉ name ∧ listEntry pfx key = name ++ ['/'] ∧
        name ++ ['/'] <+: strings.TrimPrefix key pfx := by
  unfold listEntry
  by_cases h : '/' ∈ strings.TrimPrefix key pfx
  · right
    rw [if_pos h]
    generalize strings.TrimPrefix key pfx = rem at h
    refine ⟨rem.take (rem.indexOf '/'), ?_, ?_, ?_⟩
    · intro hin
      induction rem with
      | nil => simp at h
      | cons x xs ih =>
        by_cases hx : x = '/'
        · subst hx
          simp at hin
        · have hxs : '/' ∈ xs := by
            rcases List.mem_cons.mp h with e | e
            · exact absurd e.symm hx
            · exact e
          rw [List.indexOf_cons_ne _ hx, List.take_succ_cons] at hin
          rcases List.mem_cons.mp hin with e | e
          · exact hx e.symm
          · exact ih hxs e
    · induction rem with
      | nil => simp at h
      | cons x xs ih =>
        by_cases hx : x = '/'
        · subst hx
          simp
        · have hxs : '/' ∈ xs := by
            rcases List.mem_cons.mp h with e | e
            · exact absurd e.symm hx
            · exact e
          rw [List.indexOf_cons_ne _ hx, List.take_succ_cons, List.take_succ_cons, ih hxs]
          rfl
    · have e : rem.take (rem.indexOf '/') ++ ['/'] = rem.take (rem.indexOf '/' + 1) := by
        induction rem with
        | nil => simp at h
        | cons x xs ih =>
          by_cases hx : x = '/'
          · subst hx
            simp
          · have hxs : '/' ∈ xs := by
              rcases List.mem_cons.mp h with e | e
              · exact absurd e.symm hx
              · exact e
            rw [List.indexOf_cons_ne _ hx, List.take_succ_cons, List.take_succ_cons,
              List.cons_append, ih hxs]
      rw [e]
      exact List.take_prefix _ _
  · left
    rw [if_neg h]
    exact ⟨h, rfl⟩

theorem listEntry_slash (pfx key : List Char) :
    '/' ∈ listEntry pfx key ↔ '/' ∈ strings.TrimPrefix key pfx := by
  rcases listEntry_shape pfx key with ⟨h1, h2⟩ | ⟨name, h1, h2, h3⟩
  · rw [h2]
  · rw [h2]
    constructor
    · intro _
      exact h3.subset (by simp)
    · intro _
      simp

/-- The keys collected over the rows: each is the entry of a row, each row has its
entry among them, and no folder name is there twice. -/
theorem foldl_listRow (pfx : List Char) (rows : List (List Char)) :
    ∀ acc : List (List Char),
      (∀ e, e ∈ rows.foldl (listRow pfx) acc ↔ e ∈ acc ∨ ∃ k ∈ rows, e = listEntry pfx k) ∧
      ((acc.filter (fun e => decide ('/' ∈ e))).Nodup →
        ((rows.foldl (listRow pfx) acc).filter (fun e => decide ('/' ∈ e))).Nodup) := by
  induction rows with
  | nil =>
    intro acc
    simp
  | cons k rows ih =>
    intro acc
    rw [List.foldl_cons]
    obtain ⟨ih1, ih2⟩ := ih (listRow pfx acc k)
    have hmem : ∀ e, e ∈ listRow pfx acc k ↔ e ∈ acc ∨ e = listEntry pfx k := by
      intro e
      rw [listRow_eq]
      unfold AppendIfMissing
      split_ifs with h1 h2
      · constructor
        · intro h; exact Or.inl h
        · intro h
          rcases h with h | h
          · exact h
          · rw [h]; exact h2
      · simp
      · simp
    constructor
    · intro e
      rw [ih1, hmem]
      simp only [List.mem_cons, exists_eq_or_imp]
      tauto
    · intro hacc
      apply ih2
      rw [listRow_eq]
      unfold AppendIfMissing
      split_ifs with h1 h2
      · exact hacc
      · have hs : '/' ∈ listEntry pfx k := (listEntry_slash pfx k).mpr h1
        rw [List.filter_append, List.filter_cons_of_pos (by simpa using hs), List.filter_nil]
        refine List.Nodup.append hacc (List.nodup_singleton _) ?_
        intro e he1 he2
        rw [List.mem_singleton] at he2
        subst he2
        exact h2 (List.mem_filter.mp he1).1
      · have hs : ¬ '/' ∈ listEntry pfx k := fun h => h1 ((listEntry_slash pfx k).mp h)
        rw [List.filter_append, List.filter_cons_of_neg (by simpa using hs), List.filter_nil,
          List.append_nil]
        exact hacc

/-- C30: for every `pfx` and every list of stored keys that start with `pfx`, the keys
that `List` returns are sorted in ascending order, each of them is what is left of a
stored key behind `pfx` and has no `/`, or is a folder name that ends in its first `/`
and begins what is left of a stored key, and the folder names among them (the entries
with a `/`) are pairwise different. -/
theorem C30_list_keys_sorted_folders_once (pfx : List Char) (rows : List (List Char))
    (hrows : ∀ k ∈ rows, pfx <+: k) :
    List.Sorted (fun a b => a ≤ b) (listKeys pfx rows) ∧
      (∀ e ∈ listKeys pfx rows, ∃ k ∈ rows,
        ('/' ∉ k.drop pfx.length ∧ e = k.drop pfx.length) ∨
          ∃ name, '/' ∉ name ∧ e = name ++ ['/'] ∧ name ++ ['/'] <+: k.drop pfx.length) ∧
      ((listKeys pfx rows).filter (fun e => decide ('/' ∈ e))).Nodup := by
  have htrim : ∀ k ∈ rows, strings.TrimPrefix k pfx = k.drop pfx.length := by
    intro k hk
    unfold strings.TrimPrefix
    have : pfx.isPrefixOf k = true := List.isPrefixOf_iff_prefix.mpr (hrows k hk)
    rw [if_pos this]
  obtain ⟨h1, h2⟩ := foldl_listRow pfx rows []
  have hperm : (listKeys pfx rows).Perm (rows.foldl (listRow pfx) []) :=
    List.perm_insertionSort _ _
  refine ⟨List.sorted_insertionSort _ _, ?_, ?_⟩
  · intro e he
    have he' := (h1 e).mp (hperm.mem_iff.mp he)
    rcases he' with hx | ⟨k, hk, hek⟩
    · simp at hx
    · refine ⟨k, hk, ?_⟩
      rw [← htrim k hk, hek]
      exact listEntry_shape pfx k
  · exact ((hperm.filter _).nodup_iff).mpr (h2 (by simp))

/-- C30, witness: the listing under `a/` of the keys `a/x`, `a/d/1`, `a/d/2`, `a/b`. -/
theorem C30_list_keys_sorted_folders_once_witness :
    listKeys ['a', '/'] [['a', '/', 'x'], ['a', '/', 'd', '/', '1'],
        ['a', '/', 'd', '/', '2'], ['a', '/', 'b']] = [['b'], ['d', '/'], ['x']] ∧
      (List.Sorted (fun a b => a ≤ b) (listKeys ['a', '/'] [['a', '/', 'x'],
          ['a', '/', 'd', '/', '1'], ['a', '/', 'd', '/', '2'], ['a', '/', 'b']]) ∧
        (∀ e ∈ listKeys ['a', '/'] [['a', '/', 'x'], ['a', '/', 'd', '/', '1'],
            ['a', '/', 'd', '/', '2'], ['a', '/', 'b']],
          ∃ k ∈ [['a', '/', 'x'], ['a', '/', 'd', '/', '1'], ['a', '/', 'd', '/', '2'],
              ['a', '/', 'b']],
            ('/' ∉ k.drop ['a', '/'].length ∧ e = k.drop ['a', '/'].length) ∨
              ∃ name, '/' ∉ name ∧ e = name ++ ['/'] ∧
                name ++ ['/'] <+: k.drop ['a', '/'].length) ∧
        ((listKeys ['a', '/'] [['a', '/', 'x'], ['a', '/', 'd', '/', '1'],
            ['a', '/', 'd', '/', '2'], ['a', '/', 'b']]).filter
          (fun e => decide ('/' ∈ e))).Nodup) :=
  ⟨by decide, C30_list_keys_sorted_folders_once ['a', '/'] _ (by decide)⟩

/-! ## Every error of the character source ends the call -/

theorem delivered_nil (rd : RuneReader) : Delivered rd rd none := ⟨[], rfl⟩

theorem delivered_of_eq (a b : RuneReader) (h : b = a) : Delivered a b none := by
  subst h
  exact delivered_nil _

theorem delivered_trans (a b c : RuneReader) (err : Option String)
    (h1 : Delivered a b none) (h2 : Delivered b c err) : Delivered a c err := by
  obtain ⟨r1, h1⟩ := h1
  obtain ⟨r2, h2⟩ := h2
  refine ⟨r1 ++ r2, ?_⟩
  dsimp only at h1
  rw [h1, h2]
  simp only [ofRunes, List.map_append, List.append_assoc]

/-- The read loop of `zzRefill` takes runes from the source, and stops at its error. -/
theorem refillRead_delivered (n : Nat) (rd : RuneReader) (buf : List Char) (i k : Int) :
    Delivered rd (zzRefillRead n rd buf i k).reader (zzRefillRead n rd buf i k).error := by
  induction n generalizing rd buf i k with
  | zero => exact delivered_nil _
  | succ n ih =>
    cases rd with
    | nil => exact delivered_nil _
    | cons x rd =>
      cases x with
      | fail e => exact ⟨[], rfl⟩
      | rune r =>
        simp only [zzRefillRead]
        split_ifs
        · exact delivered_trans _ _ _ _ ⟨[r], rfl⟩ (ih rd (buf.set i.toNat r) (i + 1) (k + 1))
        · exact ⟨[r], rfl⟩

theorem fill_delivered (l : Lexer) :
    Delivered l.zzReader (zzRefillFill l).2.zzReader (zzRefillFill l).1.error := by
  have h := refillRead_delivered ((l.zzBuffer.length : Int) - l.zzEndRead).toNat l.zzReader
    l.zzBuffer l.zzEndRead 0
  unfold zzRefillFill
  dsimp only
  split
  · rename_i e rd buf heq
    rw [heq] at h
    exact h
  · rename_i rd buf heq
    rw [heq] at h
    exact h
  · rename_i rd buf k heq
    rw [heq] at h
    split_ifs
    · exact h
    · split
      · exact h
      · split_ifs
        · exact h
        · exact h
    · exact h
    · exact h

theorem makeRoom_reader (l l1 : Lexer)
    (h : zzRefillMakeRoom l = .ok l1 ∨ zzRefillMakeRoom l = .error l1) :
    l1.zzReader = l.zzReader := by
  unfold zzRefillMakeRoom at h
  split_ifs at h with hS
  · dsimp only at h
    split at h
    · rcases h with h | h
      · simp only [reduceCtorEq] at h
      · simp only [Except.error.injEq] at h
        subst h
        rfl
    · rcases h with h | h
      · simp only [Except.ok.injEq] at h
        subst h
        rfl
      · simp only [reduceCtorEq] at h
  · rcases h with h | h
    · simp only [Except.ok.injEq] at h
      subst h
      rfl
    · simp only [reduceCtorEq] at h

theorem grow_reader (l : Lexer) : (zzRefillGrow l).zzReader = l.zzReader := by
  unfold zzRefillGrow
  split_ifs <;> rfl

/-- A refill takes runes from the source; when the source answers with an error, the
refill ends there and returns this error. -/
theorem refill_delivered (l : Lexer) :
    Delivered l.zzReader l.zzRefill.2.zzReader l.zzRefill.1.error := by
  unfold Lexer.zzRefill
  cases h : zzRefillMakeRoom l with
  | error l1 =>
    exact delivered_of_eq _ _ (makeRoom_reader l l1 (Or.inr h))
  | ok l1 =>
    have h1 := fill_delivered (zzRefillGrow l1)
    rw [grow_reader, makeRoom_reader l l1 (Or.inl h)] at h1
    exact h1

theorem peekLF_delivered (l : Lexer) (m e : Int) (b : List Char) :
    Delivered l.zzReader (zzPeekLF l m e b).lexer.zzReader (zzPeekLF l m e b).error := by
  unfold zzPeekLF
  dsimp only
  split_ifs
  · split
    · exact delivered_nil _
    · split_ifs <;> exact delivered_nil _
  · exact delivered_nil _
  · have h := refill_delivered l
    cases hr : l.zzRefill with
    | mk r l1 =>
      rw [hr] at h
      cases r with
      | fail err => exact h
      | panic msg => exact h
      | eof => exact h
      | more =>
        dsimp only
        split
        · exact h
        · split_ifs <;> exact h

theorem count_delivered (l : Lexer) (e : Int) (b : List Char) :
    Delivered l.zzReader (zzCount l e b).lexer.zzReader (zzCount l e b).error := by
  unfold zzCount
  dsimp only
  split
  · exact delivered_nil _
  · rename_i yl yc zr heq
    split_ifs
    · exact peekLF_delivered { l with
        yychar := l.yychar + (l.zzMarkedPos - l.zzStartRead)
        yyline := yl
        yycolumn := yc } l.zzMarkedPos e b
    · exact delivered_nil _

theorem begin_delivered (l : Lexer) (e : Int) (b : List Char) :
    Delivered l.zzReader (zzBegin l e b).lexer.zzReader (zzBegin l e b).error := by
  have h := count_delivered l e b
  unfold zzBegin
  cases hc : zzCount l e b with
  | fail err l3 => rw [hc] at h; exact h
  | panic msg l3 => rw [hc] at h; exact h
  | ok lc m ec bc =>
    rw [hc] at h
    dsimp only
    split
    · exact h
    · split
      · exact h
      · exact h

theorem fetch_delivered (l : Lexer) (s : Scan) :
    Delivered l.zzReader (zzFetch l s).lexer.zzReader (zzFetch l s).error := by
  unfold zzFetch
  split_ifs
  · split <;> exact delivered_nil _
  · exact delivered_nil _
  · dsimp only
    have h := refill_delivered { l with
        zzCurrentPos := s.zzCurrentPosL
        zzMarkedPos := s.zzMarkedPosL }
    cases hr : ({ l with
        zzCurrentPos := s.zzCurrentPosL
        zzMarkedPos := s.zzMarkedPosL } : Lexer).zzRefill with
    | mk r l1 =>
      rw [hr] at h
      cases r with
      | fail err => exact h
      | panic msg => exact h
      | eof => exact h
      | more =>
        dsimp only
        split
        · exact h
        · exact h

theorem move_reader (x : Char) (l : Lexer) (s : Scan) :
    (zzMove x l s).lexer.zzReader = l.zzReader := by
  unfold zzMove
  split
  · rfl
  · split_ifs
    · rfl
    · dsimp only
      split
      · rfl
      · split_ifs <;> rfl

/-- The DFA loop takes runes from the source; when the source answers with an error,
the loop ends there with this error. -/
theorem loop_delivered (fuel : Nat) (l : Lexer) (s : Scan) :
    Delivered l.zzReader (zzLoop fuel l s).lexer.zzReader (zzLoop fuel l s).error := by
  induction fuel generalizing l s with
  | zero => exact delivered_nil _
  | succ fuel ih =>
    have h := fetch_delivered l s
    simp only [zzLoop]
    cases hf : zzFetch l s with
    | eof l1 s1 => rw [hf] at h; exact h
    | fail err l1 => rw [hf] at h; exact h
    | panic msg l1 => rw [hf] at h; exact h
    | char x l1 s1 =>
      rw [hf] at h
      have hm := move_reader x l1 s1
      dsimp only
      cases hv : zzMove x l1 s1 with
      | next l2 s2 =>
        rw [hv] at hm
        have h2 := ih l2 s2
        rw [show l2.zzReader = l1.zzReader from hm] at h2
        exact delivered_trans _ _ _ _ h h2
      | stop l2 s2 =>
        rw [hv] at hm
        exact delivered_trans _ _ _ _ h (delivered_of_eq _ _ hm)
      | panic msg l2 =>
        rw [hv] at hm
        exact delivered_trans _ _ _ _ h (delivered_of_eq _ _ hm)

theorem ite_holds {α : Type} (P : α → Prop) (c : Prop) [Decidable c] (a b : α)
    (ha : P a) (hb : P b) : P (if c then a else b) := by
  split_ifs
  · exact ha
  · exact hb

theorem eofSwitch_reader (l : Lexer) (s : Scan) :
    (zzEofSwitch l s).lexer.zzReader = l.zzReader ∧ (zzEofSwitch l s).error = none := by
  unfold zzEofSwitch
  dsimp only
  repeat' (first
    | apply ite_holds (fun p : Pass => p.lexer.zzReader = l.zzReader ∧ p.error = none)
    | exact ⟨rfl, rfl⟩)

theorem actionSwitch_reader (action : Int) (text : List Char) (l : Lexer) (s : Scan) :
    (zzActionSwitch action text l s).lexer.zzReader = l.zzReader ∧
      (zzActionSwitch action text l s).error = none := by
  unfold zzActionSwitch
  dsimp only
  split_ifs
  · exact ⟨rfl, rfl⟩
  · generalize action.toNat = n
    split
    all_goals first
      | exact ⟨rfl, rfl⟩
      | (split_ifs <;> exact ⟨rfl, rfl⟩)

/-- The code at `zzForAction` does not read the source and returns no error. -/
theorem forAction_reader (inp : Option Char) (l : Lexer) (s : Scan) :
    (zzForAction inp l s).lexer.zzReader = l.zzReader ∧ (zzForAction inp l s).error = none := by
  unfold zzForAction
  dsimp only
  split_ifs
  · exact eofSwitch_reader _ s
  · unfold zzDispatch
    dsimp only
    split
    · exact ⟨rfl, rfl⟩
    · split
      · exact ⟨rfl, rfl⟩
      · exact actionSwitch_reader _ _ _ s

theorem run_delivered (fuel : Nat) (l : Lexer) (s : Scan) :
    Delivered l.zzReader (zzRun fuel l s).lexer.zzReader (zzRun fuel l s).error := by
  have h := loop_delivered fuel l s
  unfold zzRun
  cases hl : zzLoop fuel l s with
  | fail err l2 => rw [hl] at h; exact h
  | panic msg l2 => rw [hl] at h; exact h
  | timeout l2 => rw [hl] at h; exact h
  | forAction inp l2 s2 =>
    rw [hl] at h
    dsimp only
    obtain ⟨h1, h2⟩ := forAction_reader inp l2 s2
    rw [h2]
    exact delivered_trans _ _ _ _ h (delivered_of_eq _ _ h1)

/-- A pass takes runes from the source; when the source answers with an error, the pass
ends there and returns this error. -/
theorem pass_delivered (fuel : Nat) (l : Lexer) (e : Int) (b : List Char) :
    Delivered l.zzReader (yyPass fuel l e b).lexer.zzReader (yyPass fuel l e b).error := by
  have h := begin_delivered l e b
  unfold yyPass
  cases hb : zzBegin l e b with
  | fail err l1 => rw [hb] at h; exact h
  | panic msg l1 => rw [hb] at h; exact h
  | ready l1 s =>
    rw [hb] at h
    exact delivered_trans _ _ _ _ h (run_delivered fuel l1 s)

theorem yyLoop_delivered (passes fuel : Nat) (l : Lexer) (e : Int) (b : List Char) :
    Delivered l.zzReader (yyLoop passes fuel l e b).2.zzReader
      (yyLoop passes fuel l e b).1.error := by
  induction passes generalizing l e b with
  | zero => exact delivered_nil _
  | succ passes ih =>
    have h := pass_delivered fuel l e b
    simp only [yyLoop]
    cases hp : yyPass fuel l e b with
    | ret r l1 => rw [hp] at h; exact h
    | again l1 e1 b1 =>
      rw [hp] at h
      exact delivered_trans _ _ _ _ h (ih l1 e1 b1)

/-- During a call the source delivers runes only, or runes and then an error, which the
call returns. -/
theorem Yylex_delivered (l : Lexer) (fuel : Nat) :
    Delivered l.zzReader (l.Yylex fuel).2.zzReader (l.Yylex fuel).1.error :=
  yyLoop_delivered fuel fuel l l.zzEndRead l.zzBuffer

theorem error_eq_some (r : YyReturn) (e : String) (h : r.error = some e) : r = .fail e := by
  cases r <;> simp only [YyReturn.error, reduceCtorEq, Option.some.injEq] at h
  rw [h]

theorem fail_not_mem_ofRunes (runes : List Char) (e : String) :
    RuneRead.fail e ∉ ofRunes runes := by
  unfold ofRunes
  intro h
  rw [List.mem_map] at h
  obtain ⟨c, -, hc⟩ := h
  simp only [reduceCtorEq] at hc

/-- C23: the answers the character source gives during a call of `Yylex` are those the
reader of the scanner held before the call and no longer holds after it.  Whenever an
error `e` (an answer other than a rune and other than end of stream) is among them, the
call returns `(nil, e)`: the result is `fail e` with this very error, no token; this
holds for every scanner state, every reader and every bound on the loops. -/
theorem C23_source_error_returned (l : Lexer) (fuel : Nat) :
    (∃ read, l.zzReader = read ++ (l.Yylex fuel).2.zzReader) ∧
      ∀ read e, l.zzReader = read ++ (l.Yylex fuel).2.zzReader → RuneRead.fail e ∈ read →
        (l.Yylex fuel).1 = .fail e := by
  obtain ⟨runes, h⟩ := Yylex_delivered l fuel
  cases herr : (l.Yylex fuel).1.error with
  | none =>
    rw [herr] at h
    dsimp only at h
    refine ⟨⟨_, h⟩, fun read e h1 h2 => ?_⟩
    rw [h] at h1
    have h3 := List.append_cancel_right h1
    rw [← h3] at h2
    exact absurd h2 (fail_not_mem_ofRunes runes e)
  | some e0 =>
    rw [herr] at h
    dsimp only at h
    have h0 : l.zzReader = (ofRunes runes ++ [RuneRead.fail e0]) ++ (l.Yylex fuel).2.zzReader := by
      rw [List.append_assoc, List.singleton_append]
      exact h
    refine ⟨⟨_, h0⟩, fun read e h1 h2 => ?_⟩
    rw [h0] at h1
    have h3 := List.append_cancel_right h1
    rw [← h3, List.mem_append] at h2
    rcases h2 with h2 | h2
    · exact absurd h2 (fail_not_mem_ofRunes runes e)
    · simp only [List.mem_singleton, RuneRead.fail.injEq] at h2
      rw [h2]
      exact error_eq_some _ _ herr

/-! ## The lexical state a call returns in -/

/-- The rows of the transition table for the DFA states of the sub-states: each state
has an attribute and a row of 32 transitions, each `-1` or one of these states. -/
theorem subStates_rows : ∀ st ∈ subStates,
    (idx ZZ_ATTRIBUTE st).isSome = true ∧
      (idx ZZ_ROWMAP st).any (fun row => decide (0 ≤ row) &&
        decide (((ZZ_TRANS.drop row.toNat).take 32).length = 32) &&
        ((ZZ_TRANS.drop row.toNat).take 32).all
          (fun n => decide (n = -1 ∨ n ∈ subStates))) = true := by
  decide!

/-- The DFA does not leave the states of the sub-states: each has an attribute, and on
every class of runes a transition that is `-1` or leads to one of them. -/
theorem subStates_closed (st : Int) (hst : st ∈ subStates) :
    (idx ZZ_ATTRIBUTE st).isSome = true ∧
      ∀ k ∈ List.range 32,
        (trans st k).any (fun n => decide (n = -1 ∨ n ∈ subStates)) = true := by
  obtain ⟨h1, h2⟩ := subStates_rows st hst
  refine ⟨h1, fun k hk => ?_⟩
  rw [List.mem_range] at hk
  unfold trans
  cases hrow : idx ZZ_ROWMAP st with
  | none => rw [hrow] at h2; simp at h2
  | some row =>
    rw [hrow] at h2
    simp only [Option.any_some, Bool.and_eq_true, decide_eq_true_eq, List.all_eq_true] at h2
    obtain ⟨⟨h0, hlen⟩, hall⟩ := h2
    dsimp only
    have hidx : idx ZZ_TRANS (row + (k : Int))
        = ((ZZ_TRANS.drop row.toNat).take 32).get? k := by
      unfold idx
      rw [if_neg (by omega), List.get?_take hk, List.get?_drop]
      congr 1
      omega
    rw [hidx]
    have hlt : k < ((ZZ_TRANS.drop row.toNat).take 32).length := by
      rw [hlen]; exact hk
    rw [List.get?_eq_get hlt]
    simp only [Option.any_some]
    exact decide_eq_true (hall _ (List.get_mem _ _ _))

/-- No DFA state of the sub-states has an action that returns a token and leaves the
lexical state as it is. -/
theorem subStates_actions : ∀ st ∈ subStates,
    (idx ZZ_ACTION st).all (fun a => decide (0 ≤ a ∧ a.toNat ∉ plainActions)) = true := by
  decide!

theorem subStates_nonneg : ∀ st ∈ subStates, (0 : Int) ≤ st := by decide

theorem lexStates_start : ∀ L ∈ lexStates, L ≠ YYINITIAL →
    ∃ st ∈ subStates, idx ZZ_LEXSTATE L = some st := by
  decide

theorem yyerror_head (l1 : Lexer) (msg : String) :
    (l1.yyerror msg).data.head? = some 's' := by
  unfold Lexer.yyerror
  dsimp only
  split_ifs <;> simp [String.data_append]

theorem runtimePanics_head : ∀ m ∈ runtimePanics, m.data.head? ≠ some 's' := by
  decide

theorem index_mem : indexPanic ∈ runtimePanics := by simp [runtimePanics]

theorem slice_mem : slicePanic ∈ runtimePanics := by simp [runtimePanics]

theorem noMatch_mem : zzScanError ZZ_NO_MATCH ∈ runtimePanics := by simp [runtimePanics]

theorem fill_kept (l : Lexer) :
    (zzRefillFill l).2.zzState = l.zzState ∧
      (zzRefillFill l).2.zzLexicalState = l.zzLexicalState ∧
      ∀ m, (zzRefillFill l).1 = .panic m → m ∈ runtimePanics := by
  unfold zzRefillFill
  dsimp only
  split
  · exact ⟨rfl, rfl, fun m h => by simp only [reduceCtorEq] at h⟩
  · refine ⟨rfl, rfl, fun m h => ?_⟩
    simp only [Refill.panic.injEq] at h
    rw [← h]
    exact index_mem
  · split_ifs
    · refine ⟨rfl, rfl, fun m h => ?_⟩
      simp only [Refill.panic.injEq] at h
      rw [← h]
      simp [runtimePanics]
    · split
      · refine ⟨rfl, rfl, fun m h => ?_⟩
        simp only [Refill.panic.injEq] at h
        rw [← h]
        exact index_mem
      · split_ifs
        · exact ⟨rfl, rfl, fun m h => by simp only [reduceCtorEq] at h⟩
        · exact ⟨rfl, rfl, fun m h => by simp only [reduceCtorEq] at h⟩
    · exact ⟨rfl, rfl, fun m h => by simp only [reduceCtorEq] at h⟩
    · exact ⟨rfl, rfl, fun m h => by simp only [reduceCtorEq] at h⟩

theorem makeRoom_kept (l l1 : Lexer)
    (h : zzRefillMakeRoom l = .ok l1 ∨ zzRefillMakeRoom l = .error l1) :
    l1.zzState = l.zzState ∧ l1.zzLexicalState = l.zzLexicalState := by
  unfold zzRefillMakeRoom at h
  split_ifs at h with hS
  · dsimp only at h
    split at h
    · rcases h with h | h
      · simp only [reduceCtorEq] at h
      · simp only [Except.error.injEq] at h
        subst h
        exact ⟨rfl, rfl⟩
    · rcases h with h | h
      · simp only [Except.ok.injEq] at h
        subst h
        exact ⟨rfl, rfl⟩
      · simp only [reduceCtorEq] at h
  · rcases h with h | h
    · simp only [Except.ok.injEq] at h
      subst h
      exact ⟨rfl, rfl⟩
    · simp only [reduceCtorEq] at h

theorem grow_kept (l : Lexer) :
    (zzRefillGrow l).zzState = l.zzState ∧
      (zzRefillGrow l).zzLexicalState = l.zzLexicalState := by
  unfold zzRefillGrow
  split_ifs <;> exact ⟨rfl, rfl⟩

/-- A refill leaves the DFA state and the lexical state alone, and its panics are
run-time panics. -/
theorem refill_kept (l : Lexer) :
    l.zzRefill.2.zzState = l.zzState ∧ l.zzRefill.2.zzLexicalState = l.zzLexicalState ∧
      ∀ m, l.zzRefill.1 = .panic m → m ∈ runtimePanics := by
  unfold Lexer.zzRefill
  cases h : zzRefillMakeRoom l with
  | error l1 =>
    obtain ⟨a, b⟩ := makeRoom_kept l l1 (Or.inr h)
    refine ⟨a, b, fun m hm => ?_⟩
    simp only [Refill.panic.injEq] at hm
    rw [← hm]
    exact slice_mem
  | ok l1 =>
    obtain ⟨a, b⟩ := makeRoom_kept l l1 (Or.inl h)
    obtain ⟨c, d⟩ := grow_kept l1
    obtain ⟨e, f, g⟩ := fill_kept (zzRefillGrow l1)
    exact ⟨by rw [e, c, a], by rw [f, d, b], g⟩

theorem peekLF_kept (l : Lexer) (m e : Int) (b : List Char) :
    (zzPeekLF l m e b).lexer.zzLexicalState = l.zzLexicalState ∧
      ∀ msg l1, zzPeekLF l m e b = .panic msg l1 → msg ∈ runtimePanics := by
  unfold zzPeekLF
  dsimp only
  split_ifs
  · split
    · refine ⟨rfl, fun msg l1 h => ?_⟩
      simp only [Counted.panic.injEq] at h
      rw [← h.1]
      exact index_mem
    · refine ⟨?_, fun msg l1 h => by simp only [reduceCtorEq] at h⟩
      split_ifs <;> rfl
  · exact ⟨rfl, fun msg l1 h => by simp only [reduceCtorEq] at h⟩
  · obtain ⟨-, h2, h3⟩ := refill_kept l
    cases hr : l.zzRefill with
    | mk r l1 =>
      rw [hr] at h2 h3
      dsimp only at h2 h3
      cases r with
      | fail err => exact ⟨h2, fun msg l1 h => by simp only [reduceCtorEq] at h⟩
      | panic msg0 =>
        refine ⟨h2, fun msg l1 h => ?_⟩
        simp only [Counted.panic.injEq] at h
        rw [← h.1]
        exact h3 _ rfl
      | eof => exact ⟨h2, fun msg l1 h => by simp only [reduceCtorEq] at h⟩
      | more =>
        dsimp only
        split
        · refine ⟨h2, fun msg l1 h => ?_⟩
          simp only [Counted.panic.injEq] at h
          rw [← h.1]
          exact index_mem
        · refine ⟨?_, fun msg l1 h => by simp only [reduceCtorEq] at h⟩
          split_ifs <;> exact h2

theorem count_kept (l : Lexer) (e : Int) (b : List Char) :
    (zzCount l e b).lexer.zzLexicalState = l.zzLexicalState ∧
      ∀ msg l1, zzCount l e b = .panic msg l1 → msg ∈ runtimePanics := by
  unfold zzCount
  dsimp only
  split
  · refine ⟨rfl, fun msg l1 h => ?_⟩
    simp only [Counted.panic.injEq] at h
    rw [← h.1]
    exact index_mem
  · rename_i yl yc zr heq
    split_ifs
    · exact peekLF_kept { l with
        yychar := l.yychar + (l.zzMarkedPos - l.zzStartRead)
        yyline := yl
        yycolumn := yc } l.zzMarkedPos e b
    · exact ⟨rfl, fun msg l1 h => by simp only [reduceCtorEq] at h⟩

/-- The start of a pass leaves the lexical state alone and puts the DFA in its start
state. -/
theorem begin_kept (l : Lexer) (e : Int) (b : List Char) :
    (∀ l4 s, zzBegin l e b = .ready l4 s →
      l4.zzLexicalState = l.zzLexicalState ∧
        idx ZZ_LEXSTATE l.zzLexicalState = some l4.zzState ∧
        (s.zzAction = -1 ∨ s.zzAction = l4.zzState)) ∧
      ∀ msg l1, zzBegin l e b = .panic msg l1 → msg ∈ runtimePanics := by
  obtain ⟨h1, h2⟩ := count_kept l e b
  unfold zzBegin
  cases hc : zzCount l e b with
  | fail err l3 =>
    exact ⟨fun l4 s h => by simp only [reduceCtorEq] at h,
      fun msg l1 h => by simp only [reduceCtorEq] at h⟩
  | panic msg0 l3 =>
    refine ⟨fun l4 s h => by simp only [reduceCtorEq] at h, fun msg l1 h => ?_⟩
    simp only [Begun.panic.injEq] at h
    rw [← h.1]
    exact h2 _ _ hc
  | ok lc m ec bc =>
    rw [hc] at h1
    dsimp only
    split
    · refine ⟨fun l4 s h => by simp only [reduceCtorEq] at h, fun msg l1 h => ?_⟩
      simp only [Begun.panic.injEq] at h
      rw [← h.1]
      exact index_mem
    · rename_i st hst
      split
      · refine ⟨fun l4 s h => by simp only [reduceCtorEq] at h, fun msg l1 h => ?_⟩
        simp only [Begun.panic.injEq] at h
        rw [← h.1]
        exact index_mem
      · refine ⟨fun l4 s h => ?_, fun msg l1 h => by simp only [reduceCtorEq] at h⟩
        simp only [Begun.ready.injEq] at h
        obtain ⟨rfl, rfl⟩ := h
        refine ⟨h1, ?_, ?_⟩
        · rw [← h1]
          exact hst
        · dsimp only
          split_ifs
          · exact Or.inr rfl
          · exact Or.inl rfl

theorem fetch_kept (l : Lexer) (s : Scan) :
    (∀ l1 s1, ((∃ x, zzFetch l s = .char x l1 s1) ∨ zzFetch l s = .eof l1 s1) →
      l1.zzState = l.zzState ∧ l1.zzLexicalState = l.zzLexicalState ∧
        s1.zzAction = s.zzAction) ∧
      ∀ msg l1, zzFetch l s = .panic msg l1 → msg ∈ runtimePanics := by
  unfold zzFetch
  split_ifs
  · split
    · refine ⟨fun l1 s1 h => ?_, fun msg l1 h => ?_⟩
      · rcases h with ⟨x, h⟩ | h <;> simp only [reduceCtorEq] at h
      · simp only [Fetched.panic.injEq] at h
        rw [← h.1]
        exact index_mem
    · refine ⟨fun l1 s1 h => ?_, fun msg l1 h => by simp only [reduceCtorEq] at h⟩
      rcases h with ⟨x, h⟩ | h
      · simp only [Fetched.char.injEq] at h
        obtain ⟨-, rfl, rfl⟩ := h
        exact ⟨rfl, rfl, rfl⟩
      · simp only [reduceCtorEq] at h
  · refine ⟨fun l1 s1 h => ?_, fun msg l1 h => by simp only [reduceCtorEq] at h⟩
    rcases h with ⟨x, h⟩ | h
    · simp only [reduceCtorEq] at h
    · simp only [Fetched.eof.injEq] at h
      obtain ⟨rfl, rfl⟩ := h
      exact ⟨rfl, rfl, rfl⟩
  · dsimp only
    obtain ⟨h1, h2, h3⟩ := refill_kept { l with
        zzCurrentPos := s.zzCurrentPosL
        zzMarkedPos := s.zzMarkedPosL }
    cases hr : ({ l with
        zzCurrentPos := s.zzCurrentPosL
        zzMarkedPos := s.zzMarkedPosL } : Lexer).zzRefill with
    | mk r l2 =>
      rw [hr] at h1 h2 h3
      dsimp only at h1 h2 h3
      cases r with
      | fail err =>
        exact ⟨fun l1 s1 h => by rcases h with ⟨x, h⟩ | h <;> simp only [reduceCtorEq] at h,
          fun msg l1 h => by simp only [reduceCtorEq] at h⟩
      | panic msg0 =>
        refine ⟨fun l1 s1 h => by rcases h with ⟨x, h⟩ | h <;> simp only [reduceCtorEq] at h,
          fun msg l1 h => ?_⟩
        simp only [Fetched.panic.injEq] at h
        rw [← h.1]
        exact h3 _ rfl
      | eof =>
        refine ⟨fun l1 s1 h => ?_, fun msg l1 h => by simp only [reduceCtorEq] at h⟩
        rcases h with ⟨x, h⟩ | h
        · simp only [reduceCtorEq] at h
        · simp only [Fetched.eof.injEq] at h
          obtain ⟨rfl, rfl⟩ := h
          exact ⟨h1, h2, rfl⟩
      | more =>
        dsimp only
        split
        · refine ⟨fun l1 s1 h => by rcases h with ⟨x, h⟩ | h <;> simp only [reduceCtorEq] at h,
            fun msg l1 h => ?_⟩
          simp only [Fetched.panic.injEq] at h
          rw [← h.1]
          exact index_mem
        · refine ⟨fun l1 s1 h => ?_, fun msg l1 h => by simp only [reduceCtorEq] at h⟩
          rcases h with ⟨x, h⟩ | h
          · simp only [Fetched.char.injEq] at h
            obtain ⟨-, rfl, rfl⟩ := h
            exact ⟨h1, h2, rfl⟩
          · simp only [reduceCtorEq] at h

/-- A transition out of a DFA state of the sub-states leads to such a state. -/
theorem next_sub (st : Int) (x : Char) (n : Int) (hst : st ∈ subStates)
    (h : zzNext st x = some n) : n = -1 ∨ n ∈ subStates := by
  obtain ⟨k, hk, hlt, -⟩ := cmap_cases x
  rw [zzNext_eq st x k hk] at h
  have hc := (subStates_closed st hst).2 k (List.mem_range.mpr hlt)
  rw [h] at hc
  simpa using hc

theorem move_kept (x : Char) (l : Lexer) (s : Scan) :
    (∀ l1 s1, (zzMove x l s = .next l1 s1 ∨ zzMove x l s = .stop l1 s1) →
      l1.zzLexicalState = l.zzLexicalState ∧
        (l.zzState ∈ subStates → (s.zzAction = -1 ∨ s.zzAction ∈ subStates) →
          l1.zzState ∈ subStates ∧ (s1.zzAction = -1 ∨ s1.zzAction ∈ subStates))) ∧
      ∀ msg l1, zzMove x l s = .panic msg l1 → msg ∈ runtimePanics := by
  unfold zzMove
  split
  · refine ⟨fun l1 s1 h => by rcases h with h | h <;> simp only [reduceCtorEq] at h,
      fun msg l1 h => ?_⟩
    simp only [Moved.panic.injEq] at h
    rw [← h.1]
    exact index_mem
  · rename_i next hnext
    split_ifs with hm
    · refine ⟨fun l1 s1 h => ?_, fun msg l1 h => by simp only [reduceCtorEq] at h⟩
      rcases h with h | h
      · simp only [reduceCtorEq] at h
      · simp only [Moved.stop.injEq] at h
        obtain ⟨rfl, rfl⟩ := h
        exact ⟨rfl, fun a b => ⟨a, b⟩⟩
    · dsimp only
      have hsub : l.zzState ∈ subStates → next ∈ subStates := fun a => by
        rcases next_sub _ _ _ a hnext with h | h
        · exact absurd h hm
        · exact h
      split
      · refine ⟨fun l1 s1 h => by rcases h with h | h <;> simp only [reduceCtorEq] at h,
          fun msg l1 h => ?_⟩
        simp only [Moved.panic.injEq] at h
        rw [← h.1]
        exact index_mem
      · split_ifs
        · refine ⟨fun l1 s1 h => ?_, fun msg l1 h => by simp only [reduceCtorEq] at h⟩
          rcases h with h | h
          · simp only [reduceCtorEq] at h
          · simp only [Moved.stop.injEq] at h
            obtain ⟨rfl, rfl⟩ := h
            exact ⟨rfl, fun a b => ⟨hsub a, Or.inr (hsub a)⟩⟩
        · refine ⟨fun l1 s1 h => ?_, fun msg l1 h => by simp only [reduceCtorEq] at h⟩
          rcases h with h | h
          · simp only [Moved.next.injEq] at h
            obtain ⟨rfl, rfl⟩ := h
            exact ⟨rfl, fun a b => ⟨hsub a, Or.inr (hsub a)⟩⟩
          · simp only [reduceCtorEq] at h
        · refine ⟨fun l1 s1 h => ?_, fun msg l1 h => by simp only [reduceCtorEq] at h⟩
          rcases h with h | h
          · simp only [Moved.next.injEq] at h
            obtain ⟨rfl, rfl⟩ := h
            exact ⟨rfl, fun a b => ⟨hsub a, b⟩⟩
          · simp only [reduceCtorEq] at h

/-- The DFA loop leaves the lexical state alone; started in a DFA state of the
sub-states it ends in one, with the last accepting state among them. -/
theorem loop_kept (fuel : Nat) (l : Lexer) (s : Scan) :
    (∀ inp l1 s1, zzLoop fuel l s = .forAction inp l1 s1 →
      l1.zzLexicalState = l.zzLexicalState ∧
        (l.zzState ∈ subStates → (s.zzAction = -1 ∨ s.zzAction ∈ subStates) →
          (s1.zzAction = -1 ∨ s1.zzAction ∈ subStates))) ∧
      ∀ msg l1, zzLoop fuel l s = .panic msg l1 → msg ∈ runtimePanics := by
  induction fuel generalizing l s with
  | zero =>
    exact ⟨fun inp l1 s1 h => by simp only [zzLoop, reduceCtorEq] at h,
      fun msg l1 h => by simp only [zzLoop, reduceCtorEq] at h⟩
  | succ fuel ih =>
    obtain ⟨f1, f2⟩ := fetch_kept l s
    simp only [zzLoop]
    cases hf : zzFetch l s with
    | eof l1 s1 =>
      obtain ⟨a, b, c⟩ := f1 l1 s1 (Or.inr hf)
      refine ⟨fun inp l2 s2 h => ?_, fun msg l2 h => by simp only [reduceCtorEq] at h⟩
      simp only [LoopExit.forAction.injEq] at h
      obtain ⟨-, rfl, rfl⟩ := h
      exact ⟨b, fun _ hs => by rw [c]; exact hs⟩
    | fail err l1 =>
      exact ⟨fun inp l2 s2 h => by simp only [reduceCtorEq] at h,
        fun msg l2 h => by simp only [reduceCtorEq] at h⟩
    | panic msg0 l1 =>
      refine ⟨fun inp l2 s2 h => by simp only [reduceCtorEq] at h, fun msg l2 h => ?_⟩
      simp only [LoopExit.panic.injEq] at h
      rw [← h.1]
      exact f2 _ _ hf
    | char x l1 s1 =>
      obtain ⟨a, b, c⟩ := f1 l1 s1 (Or.inl ⟨x, hf⟩)
      obtain ⟨m1, m2⟩ := move_kept x l1 s1
      dsimp only
      cases hv : zzMove x l1 s1 with
      | next l2 s2 =>
        obtain ⟨d, e⟩ := m1 l2 s2 (Or.inl hv)
        obtain ⟨i1, i2⟩ := ih l2 s2
        refine ⟨fun inp l3 s3 h => ?_, fun msg l3 h => i2 msg l3 h⟩
        obtain ⟨g1, g2⟩ := i1 inp l3 s3 h
        refine ⟨by rw [g1, d, b], fun hst hs => ?_⟩
        rw [← a] at hst
        rw [← c] at hs
        obtain ⟨e1, e2⟩ := e hst hs
        exact g2 e1 e2
      | stop l2 s2 =>
        obtain ⟨d, e⟩ := m1 l2 s2 (Or.inr hv)
        refine ⟨fun inp l3 s3 h => ?_, fun msg l3 h => by simp only [reduceCtorEq] at h⟩
        simp only [LoopExit.forAction.injEq] at h
        obtain ⟨-, rfl, rfl⟩ := h
        refine ⟨by rw [d, b], fun hst hs => ?_⟩
        rw [← a] at hst
        rw [← c] at hs
        exact (e hst hs).2
      | panic msg0 l2 =>
        refine ⟨fun inp l3 s3 h => by simp only [reduceCtorEq] at h, fun msg l3 h => ?_⟩
        simp only [LoopExit.panic.injEq] at h
        rw [← h.1]
        exact m2 _ _ hv

theorem eofSwitch_ok (l : Lexer) (s : Scan) (hL : l.zzLexicalState ∈ lexStates) :
    PassOk (zzEofSwitch l s) := by
  unfold zzEofSwitch
  dsimp only
  simp only [lexStates, List.mem_cons, List.mem_singleton, List.not_mem_nil, or_false] at hL
  rcases hL with h | h | h | h | h | h | h | h <;> rw [h] <;>
    first
      | exact Or.inl rfl
      | exact Or.inl h

/-- The action switch, entered in one of the lexical states of `lexStates` and, in a
sub-state, with an action that is not one of the plain token actions, ends well. -/
theorem actionSwitch_ok (action : Int) (text : List Char) (l : Lexer) (s : Scan)
    (hL : l.zzLexicalState ∈ lexStates)
    (ha : l.zzLexicalState ≠ YYINITIAL → action < 0 ∨ action.toNat ∉ plainActions) :
    PassOk (zzActionSwitch action text l s) := by
  unfold zzActionSwitch
  dsimp only
  by_cases hneg : action < 0
  · rw [if_pos hneg]
    exact Or.inr (Or.inr (Or.inr ⟨_, rfl, noMatch_mem⟩))
  · rw [if_neg hneg]
    have ha1 : l.zzLexicalState ≠ YYINITIAL → action.toNat ∉ plainActions := fun h0 => by
      rcases ha h0 with h | h
      · exact absurd h hneg
      · exact h
    generalize action.toNat = n at ha1
    split
    all_goals first
      | exact Or.inl rfl
      | exact hL
      | exact (by decide : xq ∈ lexStates)
      | exact (by decide : xdq ∈ lexStates)
      | exact (by decide : xc ∈ lexStates)
      | exact (by decide : xbin ∈ lexStates)
      | exact (by decide : xhex ∈ lexStates)
      | exact (by decide : xq2 ∈ lexStates)
      | exact (by decide : xq2_2 ∈ lexStates)
      | exact Or.inl (Classical.byContradiction fun h0 => ha1 h0 (by decide))
      | (split_ifs
         · exact hL
         · exact Or.inr (Or.inr (Or.inr ⟨_, rfl, noMatch_mem⟩)))

/-- The code at `zzForAction` ends well. -/
theorem forAction_ok (inp : Option Char) (l : Lexer) (s : Scan)
    (hL : l.zzLexicalState ∈ lexStates)
    (hs : l.zzLexicalState ≠ YYINITIAL → s.zzAction = -1 ∨ s.zzAction ∈ subStates) :
    PassOk (zzForAction inp l s) := by
  unfold zzForAction
  dsimp only
  split_ifs
  · exact eofSwitch_ok _ s hL
  · unfold zzDispatch
    dsimp only
    split
    · exact Or.inr (Or.inr (Or.inr ⟨_, rfl, index_mem⟩))
    · rename_i action hlook
      split
      · exact Or.inr (Or.inr (Or.inr ⟨_, rfl, slice_mem⟩))
      · refine actionSwitch_ok action _ _ s hL (fun h0 => ?_)
        rcases hs h0 with h | h
        · rw [h] at hlook
          simp only [Int.reduceNeg, Int.reduceLT, if_true, Option.some.injEq] at hlook
          left
          omega
        · have hn := subStates_nonneg _ h
          rw [if_neg (by omega)] at hlook
          have hact := subStates_actions _ h
          rw [hlook] at hact
          simp only [Option.all_some, decide_eq_true_eq] at hact
          exact Or.inr hact.2

theorem run_ok (fuel : Nat) (l : Lexer) (s : Scan) (hL : l.zzLexicalState ∈ lexStates)
    (hs : l.zzLexicalState ≠ YYINITIAL →
      l.zzState ∈ subStates ∧ (s.zzAction = -1 ∨ s.zzAction ∈ subStates)) :
    PassOk (zzRun fuel l s) := by
  obtain ⟨h1, h2⟩ := loop_kept fuel l s
  unfold zzRun
  cases hl : zzLoop fuel l s with
  | fail err l2 => exact Or.inr (Or.inl ⟨err, rfl⟩)
  | panic msg l2 => exact Or.inr (Or.inr (Or.inr ⟨msg, rfl, h2 _ _ hl⟩))
  | timeout l2 => exact Or.inr (Or.inr (Or.inl rfl))
  | forAction inp l2 s2 =>
    obtain ⟨a, b⟩ := h1 inp l2 s2 hl
    dsimp only
    refine forAction_ok inp l2 s2 (by rw [a]; exact hL) (fun h0 => ?_)
    rw [a] at h0
    exact b (hs h0).1 (hs h0).2

/-- A pass that starts in one of the lexical states of `lexStates` ends well. -/
theorem pass_ok (fuel : Nat) (l : Lexer) (e : Int) (b : List Char)
    (hL : l.zzLexicalState ∈ lexStates) : PassOk (yyPass fuel l e b) := by
  obtain ⟨h1, h2⟩ := begin_kept l e b
  unfold yyPass
  cases hb : zzBegin l e b with
  | fail err l1 => exact Or.inr (Or.inl ⟨err, rfl⟩)
  | panic msg l1 => exact Or.inr (Or.inr (Or.inr ⟨msg, rfl, h2 _ _ hb⟩))
  | ready l1 s =>
    obtain ⟨a, c, d⟩ := h1 l1 s hb
    dsimp only
    refine run_ok fuel l1 s (by rw [a]; exact hL) (fun h0 => ?_)
    rw [a] at h0
    obtain ⟨st, hst, hidx⟩ := lexStates_start _ hL h0
    rw [hidx] at c
    simp only [Option.some.injEq] at c
    rw [← c]
    rcases d with d | d
    · exact ⟨hst, Or.inl d⟩
    · refine ⟨hst, Or.inr ?_⟩
      rw [d, ← c]
      exact hst

theorem anyCase_cons (c : Char) (w t : List Char) (h : anyCase (c :: w) t = true) :
    ∃ x t', t = x :: t' ∧ (x = c ∨ x = c.toUpper) ∧ anyCase w t' = true := by
  cases t with
  | nil => simp [anyCase] at h
  | cons x t' =>
    simp only [anyCase, Bool.and_eq_true, Bool.or_eq_true, beq_iff_eq] at h
    exact ⟨x, t', rfl, h.1, h.2⟩

theorem anyCase_nil (t : List Char) (h : anyCase [] t = true) : t = [] := by
  cases t with
  | nil => rfl
  | cons x t' => simp [anyCase] at h

/-- The class of a letter in either case. -/
theorem letter_class (c x : Char) (k : Nat) (hx : x = c ∨ x = c.toUpper)
    (h1 : cmap c = some k) (h2 : cmap c.toUpper = some k) : cmap x = some k := by
  rcases hx with h | h <;> rw [h]
  · exact h1
  · exact h2

theorem i_class (x : Char) (h : x = 'i' ∨ x = 'i'.toUpper) : cmap x = some 28 :=
  letter_class 'i' x 28 h (class_of 105 105 28 (by decide!) 'i' (by decide) (by decide))
    (class_of 73 73 28 (by decide!) 'I' (by decide) (by decide))

theorem s_class (x : Char) (h : x = 's' ∨ x = 's'.toUpper) : cmap x = some 29 :=
  letter_class 's' x 29 h (class_of 115 115 29 (by decide!) 's' (by decide) (by decide))
    (class_of 83 83 29 (by decide!) 'S' (by decide) (by decide))

theorem n_class (x : Char) (h : x = 'n' ∨ x = 'n'.toUpper) : cmap x = some 25 :=
  letter_class 'n' x 25 h (class_of 110 110 25 (by decide!) 'n' (by decide) (by decide))
    (class_of 78 78 25 (by decide!) 'N' (by decide) (by decide))

theorem u_class (x : Char) (h : x = 'u' ∨ x = 'u'.toUpper) : cmap x = some 26 :=
  letter_class 'u' x 26 h (class_of 117 117 26 (by decide!) 'u' (by decide) (by decide))
    (class_of 85 85 26 (by decide!) 'U' (by decide) (by decide))

theorem l_class (x : Char) (h : x = 'l' ∨ x = 'l'.toUpper) : cmap x = some 27 :=
  letter_class 'l' x 27 h (class_of 108 108 27 (by decide!) 'l' (by decide) (by decide))
    (class_of 76 76 27 (by decide!) 'L' (by decide) (by decide))

theorem o_class (x : Char) (h : x = 'o' ∨ x = 'o'.toUpper) : cmap x = some 30 :=
  letter_class 'o' x 30 h (class_of 111 111 30 (by decide!) 'o' (by decide) (by decide))
    (class_of 79 79 30 (by decide!) 'O' (by decide) (by decide))

theorem t_class (x : Char) (h : x = 't' ∨ x = 't'.toUpper) : cmap x = some 31 :=
  letter_class 't' x 31 h (class_of 116 116 31 (by decide!) 't' (by decide) (by decide))
    (class_of 84 84 31 (by decide!) 'T' (by decide) (by decide))

theorem whiteSpace_class (r : Char) (h : r ∈ whiteSpace) : inClasses [21, 22] r := by
  simp only [whiteSpace, List.mem_cons, List.mem_singleton, List.not_mem_nil, or_false] at h
  rcases h with h | h | h | h | h
  · exact ws_class r (Or.inl h)
  · exact ws_class r (Or.inr (Or.inl h))
  · exact ws_class r (Or.inr (Or.inr (Or.inl h)))
  · exact ws_class r (Or.inr (Or.inr (Or.inr h)))
  · subst h
    exact cmap_range 12 12 _ (by decide!) (Char.ofNat 12) (by decide) (by decide)

/-- A run of the DFA over runes that keep it in one state that is not accepting. -/
theorem dfaRun_loop (q : Int) (ks : List Nat) (hq : ∀ k ∈ ks, trans q k = some q)
    (hn : q ≠ -1) (hat : idx ZZ_ATTRIBUTE q = some 0) (ws rest : List Char)
    (hws : ∀ r ∈ ws, inClasses ks r) (a : Int) (m : Nat) :
    ∀ c : Nat, dfaRun q a m c (ws ++ rest) = dfaRun q a m (c + ws.length) rest := by
  induction ws with
  | nil =>
    intro c
    rfl
  | cons x xs ih =>
    intro c
    obtain ⟨k, hk, hkx⟩ := hws x (List.mem_cons_self _ _)
    rw [List.cons_append, dfaRun_through q a m c x _ k q hkx (hq k hk) hn hat,
      ih (fun r hr => hws r (List.mem_cons_of_mem _ hr)) (c + 1), List.length_cons]
    congr 1
    omega

/-- White space and a word `null`, from a state `q` that is not accepting and loops on
white space, through the states `q1`, `q2`, `q3` into the final state `qf`. -/
theorem dfaRun_ws_null (q q1 q2 q3 qf : Int) (ws nul : List Char)
    (hq : ∀ k ∈ ([21, 22] : List Nat), trans q k = some q) (hn : q ≠ -1)
    (hat : idx ZZ_ATTRIBUTE q = some 0)
    (t1 : trans q 25 = some q1) (t2 : trans q1 26 = some q2) (t3 : trans q2 27 = some q3)
    (t4 : trans q3 27 = some qf)
    (n1 : q1 ≠ -1) (n2 : q2 ≠ -1) (n3 : q3 ≠ -1) (nf : qf ≠ -1)
    (a1 : idx ZZ_ATTRIBUTE q1 = some 0) (a2 : idx ZZ_ATTRIBUTE q2 = some 0)
    (a3 : idx ZZ_ATTRIBUTE q3 = some 0) (af : idx ZZ_ATTRIBUTE qf = some 9)
    (hws : ∀ r ∈ ws, r ∈ whiteSpace) (hnul : anyCase ['n', 'u', 'l', 'l'] nul = true)
    (a : Int) (m c : Nat) :
    ∃ inp, dfaRun q a m c (ws ++ nul)
      = some (inp, qf, qf, c + (ws ++ nul).length, c + (ws ++ nul).length) := by
  obtain ⟨x1, r1, e1, c1, h1⟩ := anyCase_cons _ _ _ hnul
  obtain ⟨x2, r2, e2, c2, h2⟩ := anyCase_cons _ _ _ h1
  obtain ⟨x3, r3, e3, c3, h3⟩ := anyCase_cons _ _ _ h2
  obtain ⟨x4, r4, e4, c4, h4⟩ := anyCase_cons _ _ _ h3
  have e5 := anyCase_nil _ h4
  subst e5 e4 e3 e2 e1
  refine ⟨some x4, ?_⟩
  rw [dfaRun_loop q [21, 22] hq hn hat ws _ (fun r hr => whiteSpace_class r (hws r hr)) a m c,
    dfaRun_through q a m _ x1 _ 25 q1 (n_class x1 c1) t1 n1 a1,
    dfaRun_through q1 a m _ x2 _ 26 q2 (u_class x2 c2) t2 n2 a2,
    dfaRun_through q2 a m _ x3 _ 27 q3 (l_class x3 c3) t3 n3 a3,
    dfaRun_final q3 a m _ x4 _ 27 qf (l_class x4 c4) t4 nf af]
  simp only [List.length_append, List.length_cons, List.length_nil]
  have e : c + ws.length + 1 + 1 + 1 + 1 = c + (ws.length + (0 + 1 + 1 + 1 + 1)) := by omega
  rw [e]

theorem is_rows : trans 0 28 = some 25 ∧ trans 25 29 = some 57 ∧
    (∀ k ∈ ([21, 22] : List Nat), trans 57 k = some 77) ∧
    (∀ k ∈ ([21, 22] : List Nat), trans 77 k = some 77) ∧
    trans 77 25 = some 87 ∧ trans 87 26 = some 91 ∧ trans 91 27 = some 95 ∧
    trans 95 27 = some 99 ∧ trans 87 30 = some (-1) :=
  ⟨trans_at _ _ _ (by decide!), trans_at _ _ _ (by decide!),
    fun k hk => trans_at _ _ _
      ((by decide! : ∀ k ∈ ([21, 22] : List Nat), transAt 57 k = some 77) k hk),
    fun k hk => trans_at _ _ _
      ((by decide! : ∀ k ∈ ([21, 22] : List Nat), transAt 77 k = some 77) k hk),
    trans_at _ _ _ (by decide!), trans_at _ _ _ (by decide!), trans_at _ _ _ (by decide!),
    trans_at _ _ _ (by decide!), trans_at _ _ _ (by decide!)⟩

theorem is_attrs : idx ZZ_ATTRIBUTE 25 = some 1 ∧ idx ZZ_ATTRIBUTE 57 = some 1 ∧
    idx ZZ_ATTRIBUTE 77 = some 0 ∧ idx ZZ_ATTRIBUTE 87 = some 0 ∧
    idx ZZ_ATTRIBUTE 91 = some 0 ∧ idx ZZ_ATTRIBUTE 95 = some 0 ∧
    idx ZZ_ATTRIBUTE 99 = some 9 ∧ idx ZZ_ACTION 99 = some 42 ∧
    idx ZZ_ACTION 57 = some 5 :=
  ⟨attr_at _ _ (by decide!), attr_at _ _ (by decide!), attr_at _ _ (by decide!),
    attr_at _ _ (by decide!), attr_at _ _ (by decide!), attr_at _ _ (by decide!),
    attr_at _ _ (by decide!), action_at _ _ (by decide!), action_at _ _ (by decide!)⟩

theorem not_rows : trans 0 25 = some 24 ∧ trans 24 30 = some 56 ∧ trans 56 31 = some 75 ∧
    (∀ k ∈ ([21, 22] : List Nat), trans 75 k = some 84) ∧
    (∀ k ∈ ([21, 22] : List Nat), trans 84 k = some 84) ∧
    trans 84 25 = some 89 ∧ trans 89 26 = some 93 ∧ trans 93 27 = some 97 ∧
    trans 97 27 = some 101 :=
  ⟨trans_at _ _ _ (by decide!), trans_at _ _ _ (by decide!), trans_at _ _ _ (by decide!),
    fun k hk => trans_at _ _ _
      ((by decide! : ∀ k ∈ ([21, 22] : List Nat), transAt 75 k = some 84) k hk),
    fun k hk => trans_at _ _ _
      ((by decide! : ∀ k ∈ ([21, 22] : List Nat), transAt 84 k = some 84) k hk),
    trans_at _ _ _ (by decide!), trans_at _ _ _ (by decide!), trans_at _ _ _ (by decide!),
    trans_at _ _ _ (by decide!)⟩

theorem not_attrs : idx ZZ_ATTRIBUTE 24 = some 1 ∧ idx ZZ_ATTRIBUTE 56 = some 1 ∧
    idx ZZ_ATTRIBUTE 75 = some 1 ∧ idx ZZ_ATTRIBUTE 84 = some 0 ∧
    idx ZZ_ATTRIBUTE 89 = some 0 ∧ idx ZZ_ATTRIBUTE 93 = some 0 ∧
    idx ZZ_ATTRIBUTE 97 = some 0 ∧ idx ZZ_ATTRIBUTE 101 = some 9 ∧
    idx ZZ_ACTION 101 = some 43 :=
  ⟨attr_at _ _ (by decide!), attr_at _ _ (by decide!), attr_at _ _ (by decide!),
    attr_at _ _ (by decide!), attr_at _ _ (by decide!), attr_at _ _ (by decide!),
    attr_at _ _ (by decide!), attr_at _ _ (by decide!), action_at _ _ (by decide!)⟩

/-- The DFA run over `is`, white space and `null` ends at the end of the text in the
state of the rule `is_null`. -/
theorem dfaRun_is_null (wIs ws nul : List Char) (hIs : anyCase ['i', 's'] wIs = true)
    (hne : ws ≠ []) (hws : ∀ r ∈ ws, r ∈ whiteSpace)
    (hnul : anyCase ['n', 'u', 'l', 'l'] nul = true) :
    ∃ inp, dfaRun 0 (-1) 0 0 (wIs ++ ws ++ nul)
      = some (inp, 99, 99, (wIs ++ ws ++ nul).length, (wIs ++ ws ++ nul).length) := by
  obtain ⟨x1, r1, e1, c1, h1⟩ := anyCase_cons _ _ _ hIs
  obtain ⟨x2, r2, e2, c2, h2⟩ := anyCase_cons _ _ _ h1
  have e3 := anyCase_nil _ h2
  subst e3 e2 e1
  obtain ⟨w0, ws', rfl⟩ := List.exists_cons_of_ne_nil hne
  obtain ⟨k, hk, hkx⟩ := whiteSpace_class w0 (hws w0 (List.mem_cons_self _ _))
  obtain ⟨r1, r2, r3, r4, r5, r6, r7, r8, -⟩ := is_rows
  obtain ⟨a1, a2, a3, a4, a5, a6, a7, -, -⟩ := is_attrs
  obtain ⟨inp, h⟩ := dfaRun_ws_null 77 87 91 95 99 ws' nul r4 (by decide) a3 r5 r6 r7 r8
    (by decide) (by decide) (by decide) (by decide) a4 a5 a6 a7
    (fun r hr => hws r (List.mem_cons_of_mem _ hr)) hnul 57 2 3
  refine ⟨inp, ?_⟩
  simp only [List.cons_append, List.nil_append, List.append_assoc]
  rw [dfaRun_accept 0 (-1) 0 0 x1 _ 28 25 (i_class x1 c1) r1 (by decide) a1,
    dfaRun_accept 25 25 (0 + 1) (0 + 1) x2 _ 29 57 (s_class x2 c2) r2 (by decide) a2,
    dfaRun_through 57 57 (0 + 1 + 1) (0 + 1 + 1) w0 _ k 77 hkx (r3 k hk) (by decide) a3]
  rw [show (0 + 1 + 1 + 1 : Nat) = 3 from rfl, show (0 + 1 + 1 : Nat) = 2 from rfl, h]
  simp only [List.length_cons, List.length_append]
  have e : 3 + (ws'.length + nul.length) = ws'.length + nul.length + 1 + 1 + 1 := by omega
  rw [e]

/-- The DFA run over `not`, white space and `null` ends at the end of the text in the
state of the rule `not_null`. -/
theorem dfaRun_not_null (wNot ws nul : List Char)
    (hNot : anyCase ['n', 'o', 't'] wNot = true)
    (hne : ws ≠ []) (hws : ∀ r ∈ ws, r ∈ whiteSpace)
    (hnul : anyCase ['n', 'u', 'l', 'l'] nul = true) :
    ∃ inp, dfaRun 0 (-1) 0 0 (wNot ++ ws ++ nul)
      = some (inp, 101, 101, (wNot ++ ws ++ nul).length, (wNot ++ ws ++ nul).length) := by
  obtain ⟨x1, r1, e1, c1, h1⟩ := anyCase_cons _ _ _ hNot
  obtain ⟨x2, r2, e2, c2, h2⟩ := anyCase_cons _ _ _ h1
  obtain ⟨x3, r3, e3, c3, h3⟩ := anyCase_cons _ _ _ h2
  have e4 := anyCase_nil _ h3
  subst e4 e3 e2 e1
  obtain ⟨w0, ws', rfl⟩ := List.exists_cons_of_ne_nil hne
  obtain ⟨k, hk, hkx⟩ := whiteSpace_class w0 (hws w0 (List.mem_cons_self _ _))
  obtain ⟨r1, r2, r3, r4, r5, r6, r7, r8, r9⟩ := not_rows
  obtain ⟨a1, a2, a3, a4, a5, a6, a7, a8, -⟩ := not_attrs
  obtain ⟨inp, h⟩ := dfaRun_ws_null 84 89 93 97 101 ws' nul r5 (by decide) a4 r6 r7 r8 r9
    (by decide) (by decide) (by decide) (by decide) a5 a6 a7 a8
    (fun r hr => hws r (List.mem_cons_of_mem _ hr)) hnul 75 3 4
  refine ⟨inp, ?_⟩
  simp only [List.cons_append, List.nil_append, List.append_assoc]
  rw [dfaRun_accept 0 (-1) 0 0 x1 _ 25 24 (n_class x1 c1) r1 (by decide) a1,
    dfaRun_accept 24 24 (0 + 1) (0 + 1) x2 _ 30 56 (o_class x2 c2) r2 (by decide) a2,
    dfaRun_accept 56 56 (0 + 1 + 1) (0 + 1 + 1) x3 _ 31 75 (t_class x3 c3) r3 (by decide) a3,
    dfaRun_through 75 75 (0 + 1 + 1 + 1) (0 + 1 + 1 + 1) w0 _ k 84 hkx (r4 k hk) (by decide) a4]
  rw [show (0 + 1 + 1 + 1 + 1 : Nat) = 4 from rfl, show (0 + 1 + 1 + 1 : Nat) = 3 from rfl, h]
  simp only [List.length_cons, List.length_append]
  have e : 4 + (ws'.length + nul.length) = ws'.length + nul.length + 1 + 1 + 1 + 1 := by omega
  rw [e]

/-- The DFA run over `is`, white space and `not` stops at the `o`, with `is` as the last
text accepted. -/
theorem dfaRun_is_not (wIs ws wNot rest : List Char) (hIs : anyCase ['i', 's'] wIs = true)
    (hne : ws ≠ []) (hws : ∀ r ∈ ws, r ∈ whiteSpace)
    (hNot : anyCase ['n', 'o', 't'] wNot = true) :
    ∃ inp c, dfaRun 0 (-1) 0 0 (wIs ++ ws ++ wNot ++ rest) = some (inp, 87, 57, 2, c) := by
  obtain ⟨x1, r1, e1, c1, h1⟩ := anyCase_cons _ _ _ hIs
  obtain ⟨x2, r2, e2, c2, h2⟩ := anyCase_cons _ _ _ h1
  have e3 := anyCase_nil _ h2
  obtain ⟨y1, s1, f1, d1, g1⟩ := anyCase_cons _ _ _ hNot
  obtain ⟨y2, s2, f2, d2, g2⟩ := anyCase_cons _ _ _ g1
  subst e3 e2 e1 f2 f1
  obtain ⟨w0, ws', rfl⟩ := List.exists_cons_of_ne_nil hne
  obtain ⟨k, hk, hkx⟩ := whiteSpace_class w0 (hws w0 (List.mem_cons_self _ _))
  obtain ⟨r1, r2, r3, r4, r5, -, -, -, r9⟩ := is_rows
  obtain ⟨a1, a2, a3, a4, -, -, -, -, -⟩ := is_attrs
  refine ⟨some y2, 0 + 1 + 1 + 1 + ws'.length + 1 + 1, ?_⟩
  simp only [List.cons_append, List.nil_append, List.append_assoc]
  rw [dfaRun_accept 0 (-1) 0 0 x1 _ 28 25 (i_class x1 c1) r1 (by decide) a1,
    dfaRun_accept 25 25 (0 + 1) (0 + 1) x2 _ 29 57 (s_class x2 c2) r2 (by decide) a2,
    dfaRun_through 57 57 (0 + 1 + 1) (0 + 1 + 1) w0 _ k 77 hkx (r3 k hk) (by decide) a3,
    dfaRun_loop 77 [21, 22] r4 (by decide) a3 ws' _
      (fun r hr => whiteSpace_class r (hws r (List.mem_cons_of_mem _ hr))) 57 _ _,
    dfaRun_through 77 57 _ _ y1 _ 25 87 (n_class y1 d1) r5 (by decide) a4,
    dfaRun_stop 87 57 _ _ y2 _ 30 (o_class y2 d2) r9]

/-- A text of fewer than `ZZ_BUFFERSIZE` runes of which the DFA, from the start state of
`YYINITIAL`, accepts the first `m` runes last, in a state whose action returns the
matched text: the first call of `Yylex` returns these runes as one token. -/
theorem Yylex_first (text : List Char) (d : Bool) (fuel : Nat) (action : Int) (kind : Kind)
    (inp : Option Char) (st' act : Int) (m c : Nat) (hne : text ≠ [])
    (hlen : text.length < ZZ_BUFFERSIZE) (hfuel : text.length < fuel)
    (hrun : dfaRun 0 (-1) 0 0 text = some (inp, st', act, m, c))
    (hact : (if act < 0 then some act else idx ZZ_ACTION act) = some action)
    (hk : (action, kind) ∈ [((1 : Int), Kind.NORMAL), (4, .NORMAL), (5, .NORMAL), (6, .INT),
      (7, .WHITESPACE_OR_COMMENT), (26, .DECIMAL), (27, .DOUBLE), (28, .NORMAL),
      (29, .NORMAL), (30, .NORMAL), (36, .NORMAL), (37, .HEX_INT), (42, .NORMAL),
      (43, .NORMAL)]) :
    ((NewLexer (ofRunes text) d).Yylex fuel).1 = .token (newLVal (text.take m) kind) ∧
      Sim ((NewLexer (ofRunes text) d).Yylex fuel).2
        ⟨YYINITIAL, [], text.take m, text.drop m, []⟩ := by
  have hsim := sim_fresh text d fuel (by omega) hfuel
  obtain ⟨n, hn⟩ : ∃ n, fuel = n + 1 := ⟨fuel - 1, by omega⟩
  have hstart : Abs.start text = ⟨YYINITIAL, [], [], text, []⟩ := by
    unfold Abs.start
    rw [if_neg (by omega)]
  have h0 : idx ZZ_LEXSTATE YYINITIAL = some 0 := by decide
  have h1 : idx ZZ_ATTRIBUTE 0 = some 0 := by decide!
  have e1 : (if (0 : Int).toNat &&& 1 = 1 then (0 : Int) else -1) = -1 := by decide
  have hp : absPass ⟨YYINITIAL, [], [], text, []⟩
      = .token (newLVal (text.take m) kind) ⟨YYINITIAL, [], text.take m, text.drop m, []⟩ := by
    rw [absPass_of_run ⟨YYINITIAL, [], [], text, []⟩ 0 0 inp st' act m c action h0 h1 hne
      (by rw [e1]; exact hrun) hact]
    split_ifs
    · rw [absAction_text action kind hk, List.append_nil]
    · rw [absAction_text action kind hk]
  rw [hstart, hn, absYylex_succ_of_ne_again n _ _ hp (by simp)] at hsim
  rw [hn]
  exact hsim

/-- Below the buffer size, a text that the DFA reads to its end from the start state of
`YYINITIAL`, ending in a state whose action returns the matched text, is one token, and
the next call returns the end-of-input signal. -/
theorem Yylex_one (text : List Char) (d : Bool) (fuel : Nat) (action : Int) (kind : Kind)
    (inp : Option Char) (st' act : Int) (hne : text ≠ [])
    (hlen : text.length < ZZ_BUFFERSIZE) (hfuel : text.length < fuel)
    (hrun : dfaRun 0 (-1) 0 0 text = some (inp, st', act, text.length, text.length))
    (hact : (if act < 0 then some act else idx ZZ_ACTION act) = some action)
    (hk : (action, kind) ∈ [((1 : Int), Kind.NORMAL), (4, .NORMAL), (5, .NORMAL), (6, .INT),
      (7, .WHITESPACE_OR_COMMENT), (26, .DECIMAL), (27, .DOUBLE), (28, .NORMAL),
      (29, .NORMAL), (30, .NORMAL), (36, .NORMAL), (37, .HEX_INT), (42, .NORMAL),
      (43, .NORMAL)]) :
    ((NewLexer (ofRunes text) d).Yylex fuel).1 = .token (newLVal text kind) ∧
      (((NewLexer (ofRunes text) d).Yylex fuel).2.Yylex fuel).1 = .eof := by
  have h := Yylex_first text d fuel action kind inp st' act _ _ hne hlen hfuel hrun hact hk
  rw [List.take_length, List.drop_length] at h
  exact ⟨h.1, Yylex_at_end _ _ _ fuel h.2 (by omega)⟩

/-- A call of `Yylex` in `YYINITIAL` on a scanner whose reader is exhausted and that
holds no rune back: when the DFA accepts the first `m` runes of the rest of the text
last, in a state whose action returns the matched text, the call returns these runes as
one token. -/
theorem Yylex_next (l : Lexer) (lt txt rem : List Char) (fuel : Nat) (action : Int)
    (kind : Kind) (inp : Option Char) (st' act : Int) (m c : Nat)
    (hsim : Sim l ⟨YYINITIAL, lt, txt, rem, []⟩) (hne : rem ≠ []) (hfuel : rem.length < fuel)
    (hrun : dfaRun 0 (-1) 0 0 rem = some (inp, st', act, m, c))
    (hact : (if act < 0 then some act else idx ZZ_ACTION act) = some action)
    (hk : (action, kind) ∈ [((1 : Int), Kind.NORMAL), (4, .NORMAL), (5, .NORMAL), (6, .INT),
      (7, .WHITESPACE_OR_COMMENT), (26, .DECIMAL), (27, .DOUBLE), (28, .NORMAL),
      (29, .NORMAL), (30, .NORMAL), (36, .NORMAL), (37, .HEX_INT), (42, .NORMAL),
      (43, .NORMAL)]) :
    (l.Yylex fuel).1 = .token (newLVal (rem.take m) kind) ∧
      Sim (l.Yylex fuel).2 ⟨YYINITIAL, lt, rem.take m, rem.drop m, []⟩ := by
  have h := sim_Yylex l _ fuel hsim (by simpa using hfuel)
  obtain ⟨n, hn⟩ : ∃ n, fuel = n + 1 := ⟨fuel - 1, by omega⟩
  have h0 : idx ZZ_LEXSTATE YYINITIAL = some 0 := by decide
  have h1 : idx ZZ_ATTRIBUTE 0 = some 0 := by decide!
  have e1 : (if (0 : Int).toNat &&& 1 = 1 then (0 : Int) else -1) = -1 := by decide
  have hp : absPass ⟨YYINITIAL, lt, txt, rem, []⟩
      = .token (newLVal (rem.take m) kind) ⟨YYINITIAL, lt, rem.take m, rem.drop m, []⟩ := by
    rw [absPass_of_run ⟨YYINITIAL, lt, txt, rem, []⟩ 0 0 inp st' act m c action h0 h1 hne
      (by rw [e1]; exact hrun) hact]
    split_ifs
    · rw [absAction_text action kind hk, List.append_nil]
    · rw [absAction_text action kind hk]
  rw [hn, absYylex_succ_of_ne_again n _ _ hp (by simp)] at h
  rw [hn]
  exact h

theorem null_rows : trans 0 25 = some 24 ∧ trans 24 26 = some 55 ∧ trans 55 27 = some 74 ∧
    trans 74 27 = some 82 ∧ idx ZZ_ATTRIBUTE 24 = some 1 ∧ idx ZZ_ATTRIBUTE 55 = some 1 ∧
    idx ZZ_ATTRIBUTE 74 = some 1 ∧ idx ZZ_ATTRIBUTE 82 = some 1 ∧
    idx ZZ_ACTION 82 = some 41 :=
  ⟨trans_at _ _ _ (by decide!), trans_at _ _ _ (by decide!), trans_at _ _ _ (by decide!),
    trans_at _ _ _ (by decide!), attr_at _ _ (by decide!), attr_at _ _ (by decide!), attr_at _ _ (by decide!),
    attr_at _ _ (by decide!), action_at _ _ (by decide!)⟩

theorem word_steps : ∀ st ∈ ([82, 17] : List Int), ∀ k ∈ ([17] : List Nat),
    stepsInto [17] st k = true :=
  fun st hst k hk => steps_at _ _ _
    ((by decide! : ∀ st ∈ ([82, 17] : List Int), ∀ k ∈ ([17] : List Nat),
      stepsAt [17] st k = true) st hst k hk)

theorem a_class : cmap 'a' = some 17 :=
  class_of 97 97 17 (by decide!) 'a' (by decide) (by decide)

/-- The DFA run over `null` and letters `a`: the word is read to its end as an
identifier. -/
theorem dfaRun_null_word (n : Nat) :
    dfaRun 0 (-1) 0 0 ('n' :: 'u' :: 'l' :: 'l' :: List.replicate (n + 1) 'a')
      = some (none, 17, 17, n + 5, n + 5) := by
  obtain ⟨r1, r2, r3, r4, a1, a2, a3, a4, -⟩ := null_rows
  rw [dfaRun_accept 0 (-1) 0 0 'n' _ 25 24 (n_class 'n' (Or.inl rfl)) r1 (by decide) a1,
    dfaRun_accept 24 24 (0 + 1) (0 + 1) 'u' _ 26 55 (u_class 'u' (Or.inl rfl)) r2
      (by decide) a2,
    dfaRun_accept 55 55 (0 + 1 + 1) (0 + 1 + 1) 'l' _ 27 74 (l_class 'l' (Or.inl rfl)) r3
      (by decide) a3,
    dfaRun_accept 74 74 (0 + 1 + 1 + 1) (0 + 1 + 1 + 1) 'l' _ 27 82
      (l_class 'l' (Or.inl rfl)) r4 (by decide) a4]
  obtain ⟨st', -, h2, h3⟩ := dfaRun_accepting [82, 17] [17] [17] word_steps (by decide)
    (List.replicate (n + 1) 'a') 82 82 (0 + 1 + 1 + 1 + 1) (0 + 1 + 1 + 1 + 1) (by decide)
    (fun x hx => ⟨17, by decide, by rw [List.eq_of_mem_replicate hx]; exact a_class⟩)
  have hne : List.replicate (n + 1) 'a' ≠ [] := replicate_ne_nil _ _ (by omega)
  have := h2 hne
  rw [List.mem_singleton] at this
  subst this
  rw [if_neg hne, if_neg hne, List.length_replicate] at h3
  rw [h3]
  have e : 0 + 1 + 1 + 1 + 1 + (n + 1) = n + 5 := by omega
  rw [e]

theorem dfaRun_a : dfaRun 0 (-1) 0 0 ['a'] = some (none, 17, 17, 1, 1) := by
  rw [dfaRun_accept 0 (-1) 0 0 'a' _ 17 17 a_class (trans_at _ _ _ (by decide!)) (by decide)
    (attr_at _ _ (by decide!))]
  rfl

theorem dropLast_append_replicate (p : List Char) (n : Nat) (c : Char) :
    (p ++ List.replicate (n + 1) c).dropLast = p ++ List.replicate n c := by
  rw [List.replicate_succ', ← List.append_assoc, List.dropLast_concat]

theorem last_append_replicate (p : List Char) (n : Nat) (c : Char) :
    (p ++ List.replicate (n + 1) c).drop ((p ++ List.replicate (n + 1) c).length - 1)
      = [c] := by
  have h := dropLast_append_last (p ++ List.replicate (n + 1) c)
  rw [dropLast_append_replicate] at h
  have e : p ++ List.replicate (n + 1) c = (p ++ List.replicate n c) ++ [c] := by
    rw [List.replicate_succ', List.append_assoc]
  rw [e] at h ⊢
  exact List.append_cancel_left h

/-- The word `null` followed by letters `a`, of `ZZ_BUFFERSIZE` runes in all: the first
call of `Yylex` returns the word without its last letter, the second call this letter. -/
theorem Yylex_null_word_full (n : Nat) (d : Bool) (fuel : Nat)
    (hlen : n + 6 = ZZ_BUFFERSIZE) (hfuel : n + 6 < fuel) :
    ((NewLexer (ofRunes ('n' :: 'u' :: 'l' :: 'l' :: List.replicate (n + 2) 'a')) d).Yylex
        fuel).1
        = .token (newLVal ('n' :: 'u' :: 'l' :: 'l' :: List.replicate (n + 1) 'a') .NORMAL) ∧
      (((NewLexer (ofRunes ('n' :: 'u' :: 'l' :: 'l' :: List.replicate (n + 2) 'a')) d).Yylex
        fuel).2.Yylex fuel).1 = .token (newLVal ['a'] .NORMAL) := by
  have hd := dropLast_append_replicate ['n', 'u', 'l', 'l'] (n + 1) 'a'
  have hl := last_append_replicate ['n', 'u', 'l', 'l'] (n + 1) 'a'
  have hlen' : ('n' :: 'u' :: 'l' :: 'l' :: List.replicate (n + 2) 'a').length = n + 6 := by
    simp only [List.length_cons, List.length_replicate]
  have h := Yylex_whole_full ('n' :: 'u' :: 'l' :: 'l' :: List.replicate (n + 2) 'a') d fuel 5
    .NORMAL 17 (by rw [hlen', hlen]) (by rw [hlen']; exact hfuel)
    ⟨17, by
      rw [show ('n' :: 'u' :: 'l' :: 'l' :: List.replicate (n + 2) 'a')
        = ['n', 'u', 'l', 'l'] ++ List.replicate (n + 1 + 1) 'a' from rfl, hd]
      simp only [List.cons_append, List.nil_append, List.length_cons, List.length_replicate]
      exact dfaRun_null_word n⟩
    (by decide!) (by decide)
  rw [show ('n' :: 'u' :: 'l' :: 'l' :: List.replicate (n + 2) 'a')
    = ['n', 'u', 'l', 'l'] ++ List.replicate (n + 1 + 1) 'a' from rfl, hd, hl] at h
  refine ⟨h.1, ?_⟩
  have h2 := Yylex_next _ [] _ ['a'] fuel 5 .NORMAL none 17 17 1 1 h.2 (by simp)
    (by simp only [List.length_singleton]; omega) dfaRun_a (by decide!) (by decide)
  exact h2.1

/-- C25, where the claim fails: on `IS NOT NULL` the first call of `Yylex` returns the
`NORMAL` token `IS` alone, the second the blank, the third the `NORMAL` token
`NOT NULL`, and the fourth the end-of-input signal: three tokens, not one. -/
theorem C25_is_not_null_three_tokens :
    ((NewLexer (ofRunes ['I', 'S', ' ', 'N', 'O', 'T', ' ', 'N', 'U', 'L', 'L']) false).Yylex
        20).1 = .token ⟨['I', 'S'], .NORMAL⟩ ∧
      (((NewLexer (ofRunes ['I', 'S', ' ', 'N', 'O', 'T', ' ', 'N', 'U', 'L', 'L'])
        false).Yylex 20).2.Yylex 20).1 = .token ⟨[' '], .WHITESPACE_OR_COMMENT⟩ ∧
      ((((NewLexer (ofRunes ['I', 'S', ' ', 'N', 'O', 'T', ' ', 'N', 'U', 'L', 'L'])
        false).Yylex 20).2.Yylex 20).2.Yylex 20).1
          = .token ⟨['N', 'O', 'T', ' ', 'N', 'U', 'L', 'L'], .NORMAL⟩ ∧
      (((((NewLexer (ofRunes ['I', 'S', ' ', 'N', 'O', 'T', ' ', 'N', 'U', 'L', 'L'])
        false).Yylex 20).2.Yylex 20).2.Yylex 20).2.Yylex 20).1 = .eof := by
  obtain ⟨inp, c, hrun⟩ := dfaRun_is_not ['I', 'S'] [' '] ['N', 'O', 'T']
    [' ', 'N', 'U', 'L', 'L'] (by decide) (by decide) (by decide) (by decide)
  have h1 := Yylex_first ['I', 'S', ' ', 'N', 'O', 'T', ' ', 'N', 'U', 'L', 'L'] false 20 5
    .NORMAL inp 87 57 2 c (by decide) (by decide) (by decide) hrun
    (act_at _ _ (by decide) (by decide!)) (by decide)
  obtain ⟨k, hk, hkr⟩ := ws_class ' ' (Or.inl rfl)
  have hall : ∀ j ∈ ([21, 22] : List Nat), transAt 0 j = some 22 := by decide!
  have hrun2 : dfaRun 0 (-1) 0 0 [' ', 'N', 'O', 'T', ' ', 'N', 'U', 'L', 'L']
      = some (some ' ', 22, 22, 0 + 1, 0 + 1) :=
    dfaRun_final 0 (-1) 0 0 ' ' _ k 22 hkr (trans_at _ _ _ (hall k hk)) (by decide)
      (attr_at _ _ (by decide!))
  have h2 := Yylex_next _ [] _ [' ', 'N', 'O', 'T', ' ', 'N', 'U', 'L', 'L'] 20 7
    .WHITESPACE_OR_COMMENT (some ' ') 22 22 (0 + 1) (0 + 1) h1.2 (by decide) (by decide) hrun2
    (act_at _ _ (by decide) (by decide!)) (by decide)
  obtain ⟨inp3, hrun3⟩ := dfaRun_not_null ['N', 'O', 'T'] [' '] ['N', 'U', 'L', 'L']
    (by decide) (by decide) (by decide) (by decide)
  have h3 := Yylex_next _ [] _ ['N', 'O', 'T', ' ', 'N', 'U', 'L', 'L'] 20 43 .NORMAL inp3
    101 101 _ _ h2.2 (by decide) (by decide) hrun3
    (act_at _ _ (by decide) (by decide!)) (by decide)
  exact ⟨h1.1, h2.1, h3.1, Yylex_at_end _ _ _ 20 h3.2 (by decide)⟩

/-- C25 as the code has it, for forms shorter than the buffer: the words in any letter
case, `ws` a non-empty run of white space (blank, tab, line feed, carriage return, form
feed).  On `IS ws NULL`, and on `NOT ws NULL`, the first call of `Yylex` returns one
`NORMAL` token whose text is the whole input, and the next call returns the end-of-input
signal.  On an input that begins with `IS ws NOT` (such as `IS ws NOT ws NULL`) the
first call returns the `NORMAL` token `IS` alone. -/
theorem C25_is_null_not_null_one_token (wIs wNot nul ws : List Char) (d : Bool) (fuel : Nat)
    (hIs : anyCase ['i', 's'] wIs = true) (hNot : anyCase ['n', 'o', 't'] wNot = true)
    (hnul : anyCase ['n', 'u', 'l', 'l'] nul = true)
    (hne : ws ≠ []) (hws : ∀ r ∈ ws, r ∈ whiteSpace)
    (hlen : ws.length + 7 < ZZ_BUFFERSIZE) (hfuel : ws.length + 7 < fuel) :
    (((NewLexer (ofRunes (wIs ++ ws ++ nul)) d).Yylex fuel).1
        = .token (newLVal (wIs ++ ws ++ nul) .NORMAL) ∧
      (((NewLexer (ofRunes (wIs ++ ws ++ nul)) d).Yylex fuel).2.Yylex fuel).1 = .eof) ∧
    (((NewLexer (ofRunes (wNot ++ ws ++ nul)) d).Yylex fuel).1
        = .token (newLVal (wNot ++ ws ++ nul) .NORMAL) ∧
      (((NewLexer (ofRunes (wNot ++ ws ++ nul)) d).Yylex fuel).2.Yylex fuel).1 = .eof) ∧
    ∀ rest : List Char, (wIs ++ ws ++ wNot ++ rest).length < ZZ_BUFFERSIZE →
      (wIs ++ ws ++ wNot ++ rest).length < fuel →
      ((NewLexer (ofRunes (wIs ++ ws ++ wNot ++ rest)) d).Yylex fuel).1
        = .token (newLVal wIs .NORMAL) := by
  have lIs : wIs.length = 2 := by
    obtain ⟨x1, r1, e1, -, h1⟩ := anyCase_cons _ _ _ hIs
    obtain ⟨x2, r2, e2, -, h2⟩ := anyCase_cons _ _ _ h1
    have e3 := anyCase_nil _ h2
    subst e3 e2 e1
    rfl
  have lNot : wNot.length = 3 := by
    obtain ⟨x1, r1, e1, -, h1⟩ := anyCase_cons _ _ _ hNot
    obtain ⟨x2, r2, e2, -, h2⟩ := anyCase_cons _ _ _ h1
    obtain ⟨x3, r3, e3, -, h3⟩ := anyCase_cons _ _ _ h2
    have e4 := anyCase_nil _ h3
    subst e4 e3 e2 e1
    rfl
  have lnul : nul.length = 4 := by
    obtain ⟨x1, r1, e1, -, h1⟩ := anyCase_cons _ _ _ hnul
    obtain ⟨x2, r2, e2, -, h2⟩ := anyCase_cons _ _ _ h1
    obtain ⟨x3, r3, e3, -, h3⟩ := anyCase_cons _ _ _ h2
    obtain ⟨x4, r4, e4, -, h4⟩ := anyCase_cons _ _ _ h3
    have e5 := anyCase_nil _ h4
    subst e5 e4 e3 e2 e1
    rfl
  have hwne : ∀ a b : List Char, a ++ ws ++ b ≠ [] := fun a b h => by
    have := congrArg List.length h
    simp only [List.length_append, List.length_nil] at this
    have := List.length_pos.mpr hne
    omega
  refine ⟨?_, ?_, fun rest hl hf => ?_⟩
  · obtain ⟨inp, hrun⟩ := dfaRun_is_null wIs ws nul hIs hne hws hnul
    exact Yylex_one (wIs ++ ws ++ nul) d fuel 42 .NORMAL inp 99 99 (hwne _ _)
      (by simp only [List.length_append]; omega) (by simp only [List.length_append]; omega)
      hrun (act_at _ _ (by decide) (by decide!)) (by decide)
  · obtain ⟨inp, hrun⟩ := dfaRun_not_null wNot ws nul hNot hne hws hnul
    exact Yylex_one (wNot ++ ws ++ nul) d fuel 43 .NORMAL inp 101 101 (hwne _ _)
      (by simp only [List.length_append]; omega) (by simp only [List.length_append]; omega)
      hrun (act_at _ _ (by decide) (by decide!)) (by decide)
  · obtain ⟨inp, c, hrun⟩ := dfaRun_is_not wIs ws wNot rest hIs hne hws hNot
    have h := Yylex_first (wIs ++ ws ++ wNot ++ rest) d fuel 5 .NORMAL inp 87 57 2 c
      (by
        intro h
        have := congrArg List.length h
        simp only [List.length_append, List.length_nil] at this
        omega)
      hl hf hrun (act_at _ _ (by decide) (by decide!)) (by decide)
    have e : (wIs ++ ws ++ wNot ++ rest).take 2 = wIs := by
      rw [List.append_assoc, List.append_assoc, ← lIs, List.take_left]
    rw [e] at h
    exact h.1

/-- C25 as the code has it, at `Is`, `nOT`, `NuLl` and a blank, a tab and a line feed. -/
theorem C25_is_null_not_null_one_token_witness :
    (((NewLexer (ofRunes (['I', 's'] ++ [' ', '\t', '\n'] ++ ['N', 'u', 'L', 'l']))
          false).Yylex 20).1
        = .token (newLVal (['I', 's'] ++ [' ', '\t', '\n'] ++ ['N', 'u', 'L', 'l']) .NORMAL) ∧
      (((NewLexer (ofRunes (['I', 's'] ++ [' ', '\t', '\n'] ++ ['N', 'u', 'L', 'l']))
          false).Yylex 20).2.Yylex 20).1 = .eof) ∧
    (((NewLexer (ofRunes (['n', 'O', 'T'] ++ [' ', '\t', '\n'] ++ ['N', 'u', 'L', 'l']))
          false).Yylex 20).1
        = .token (newLVal (['n', 'O', 'T'] ++ [' ', '\t', '\n'] ++ ['N', 'u', 'L', 'l'])
          .NORMAL) ∧
      (((NewLexer (ofRunes (['n', 'O', 'T'] ++ [' ', '\t', '\n'] ++ ['N', 'u', 'L', 'l']))
          false).Yylex 20).2.Yylex 20).1 = .eof) ∧
    ∀ rest : List Char,
      (['I', 's'] ++ [' ', '\t', '\n'] ++ ['n', 'O', 'T'] ++ rest).length < ZZ_BUFFERSIZE →
      (['I', 's'] ++ [' ', '\t', '\n'] ++ ['n', 'O', 'T'] ++ rest).length < 20 →
      ((NewLexer (ofRunes (['I', 's'] ++ [' ', '\t', '\n'] ++ ['n', 'O', 'T'] ++ rest))
          false).Yylex 20).1
        = .token (newLVal ['I', 's'] .NORMAL) :=
  C25_is_null_not_null_one_token ['I', 's'] ['n', 'O', 'T'] ['N', 'u', 'L', 'l']
    [' ', '\t', '\n'] false 20 (by decide) (by decide) (by decide) (by decide) (by decide)
    (by decide) (by decide)

/-- C24, the code at the failing input: on the word `null` followed by 16380 letters `a`
(an identifier of `ZZ_BUFFERSIZE` = 16384 runes) and the end of input, the first call of
`Yylex` returns a `NORMAL` token whose text is the word without its last letter, and the
second call returns this letter as a `NORMAL` token of its own: the word is two tokens,
not one. -/
theorem C24_null_word_split :
    ((NewLexer (ofRunes ('n' :: 'u' :: 'l' :: 'l' :: List.replicate 16380 'a')) false).Yylex
        16385).1
        = .token (newLVal ('n' :: 'u' :: 'l' :: 'l' :: List.replicate 16379 'a') .NORMAL) ∧
      (((NewLexer (ofRunes ('n' :: 'u' :: 'l' :: 'l' :: List.replicate 16380 'a'))
        false).Yylex 16385).2.Yylex 16385).1 = .token (newLVal ['a'] .NORMAL) :=
  Yylex_null_word_full 16378 false 16385 (by decide) (by decide)

/-! ## Strings `q'[ ... ]'` -/

theorem lexstate_xq2 : idx ZZ_LEXSTATE xq2 = some 7 ∧ idx ZZ_LEXSTATE xq2_2 = some 8 ∧
    idx ZZ_ATTRIBUTE 7 = some 0 ∧ idx ZZ_ATTRIBUTE 8 = some 0 := by
  decide!

theorem q_class : cmap 'q' = some 7 :=
  class_of 113 113 7 (by decide!) 'q' (by decide) (by decide)

theorem open_class : cmap '[' = some 5 :=
  class_of 91 91 5 (by decide!) '[' (by decide) (by decide)

theorem close_class : cmap ']' = some 6 :=
  class_of 93 93 6 (by decide!) ']' (by decide) (by decide)

theorem class_ne_close (r : Char) (h : r ≠ ']') : inClasses (others 6) r := by
  obtain ⟨k, hk, hlt, -, -, -, -, -, h6⟩ := cmap_cases r
  refine ⟨k, mem_others 6 k hlt (fun hk6 => h ?_), hk⟩
  exact toNat_eq_ofNat r 93 (by decide) (h6.mp hk6)

theorem xq2_steps : ∀ st ∈ ([7, 37] : List Int), ∀ k ∈ others 6,
    stepsInto [37] st k = true :=
  fun st hst k hk => steps_at _ _ _
    ((by decide! : ∀ st ∈ ([7, 37] : List Int), ∀ k ∈ others 6, stepsAt [37] st k = true)
      st hst k hk)

/-- In `YYINITIAL`, the opener of a `q` string: `q'[` begins the sub-state `xq2`. -/
theorem absPass_q2_start (lt txt tl held : List Char) :
    absPass ⟨YYINITIAL, lt, txt, 'q' :: quote :: '[' :: tl, held⟩
      = .again ⟨xq2, [], ['q', quote, '['], tl, held⟩ := by
  have hrun : dfaRun 0 (-1) 0 0 ('q' :: quote :: '[' :: tl) = some (some '[', 69, 69, 3, 3) := by
    rw [dfaRun_accept 0 (-1) 0 0 'q' _ 7 14 q_class (trans_at _ _ _ (by decide!)) (by decide)
        (attr_at _ _ (by decide!)),
      dfaRun_through 14 14 (0 + 1) (0 + 1) quote _ 1 44 quote_class (trans_at _ _ _ (by decide!))
        (by decide) (attr_at _ _ (by decide!)),
      dfaRun_final 44 14 (0 + 1) (0 + 1 + 1) '[' tl 5 69 open_class (trans_at _ _ _ (by decide!))
        (by decide) (attr_at _ _ (by decide!))]
  rw [absPass_of_run ⟨YYINITIAL, lt, txt, 'q' :: quote :: '[' :: tl, held⟩ 0 0 (some '[') 69 69
    3 3 35 lexstate_initial (attr_start 0 (by decide)) (by simp) hrun (by decide!)]
  simp [absAction, zzActionSwitch, Abs.user, Lexer.zero, Lexer.yybegin]

/-- In `xq2`, runes other than `]` before a `]`: they are appended to the text of the
string. -/
theorem absPass_q2_inside (lt txt run tl held : List Char) (hne : run ≠ [])
    (hrun : ∀ x ∈ run, x ≠ ']') :
    absPass ⟨xq2, lt, txt, run ++ ']' :: tl, held⟩
      = .again ⟨xq2, lt ++ run, run, ']' :: tl, held⟩ := by
  have h := dfaRun_inside 7 37 6 ']' run tl xq2_steps close_class (trans_at _ _ _ (by decide!)) hne
    (fun x hx => class_ne_close x (hrun x hx))
  rw [absPass_of_run ⟨xq2, lt, txt, run ++ ']' :: tl, held⟩ 7 0 (some ']') 37 37 _ _ 18
    lexstate_xq2.1 lexstate_xq2.2.2.1 (by simp) h (by decide!)]
  simp [absAction, zzActionSwitch, Abs.user, Lexer.zero]

/-- In `xq2`, a `]` begins the sub-state `xq2_2`. -/
theorem absPass_q2_close (lt txt tl held : List Char) :
    absPass ⟨xq2, lt, txt, ']' :: tl, held⟩ = .again ⟨xq2_2, lt, [']'], tl, held⟩ := by
  have h : dfaRun 7 (-1) 0 0 (']' :: tl) = some (some ']', 38, 38, 1, 1) :=
    dfaRun_final 7 (-1) 0 0 ']' tl 6 38 close_class (trans_at _ _ _ (by decide!)) (by decide)
      (attr_at _ _ (by decide!))
  rw [absPass_of_run ⟨xq2, lt, txt, ']' :: tl, held⟩ 7 0 (some ']') 38 38 _ _ 19
    lexstate_xq2.1 lexstate_xq2.2.2.1 (by simp) h (by decide!)]
  simp [absAction, zzActionSwitch, Abs.user, Lexer.zero, Lexer.yybegin]

/-- A `q` string of exactly `ZZ_BUFFERSIZE` runes whose body has no `]`: the closing
quote is held back and never read, and the call of `Yylex` ends in the panic of an
unterminated `q` string. -/
theorem Yylex_q2_full (run : List Char) (d : Bool) (fuel : Nat) (hne : run ≠ [])
    (hrun : ∀ x ∈ run, x ≠ ']')
    (hlen : (('q' :: quote :: '[' :: (run ++ [']'])) ++ [quote]).length = ZZ_BUFFERSIZE)
    (hfuel : ZZ_BUFFERSIZE < fuel) :
    ((NewLexer (ofRunes (('q' :: quote :: '[' :: (run ++ [']'])) ++ [quote])) d).Yylex fuel).1
      = .panic (((NewLexer (ofRunes (('q' :: quote :: '[' :: (run ++ [']'])) ++ [quote]))
          d).Yylex fuel).2.yyerror "unterminated q2 string") := by
  have hsim := sim_fresh (('q' :: quote :: '[' :: (run ++ [']'])) ++ [quote]) d fuel
    (by omega) (by omega)
  obtain ⟨k, hk⟩ : ∃ k, fuel = k + 4 := ⟨fuel - 4, by simp [ZZ_BUFFERSIZE] at hfuel; omega⟩
  have hend : absPass ⟨xq2_2, [] ++ run, [']'], [], [quote]⟩
      = .unterminated "unterminated q2 string" := by
    have hl : ([']'] : List Char).getLast? ≠ some CR := by decide
    rw [absPass_end _ 8 0 lexstate_xq2.2.1 lexstate_xq2.2.2.2 rfl (Or.inr hl)]
    show absEof xq2_2 = _
    decide
  rw [start_full _ quote hlen, hk,
    absYylex_succ_again (k + 3) _ _ (absPass_q2_start [] [] _ [quote]),
    absYylex_succ_again (k + 2) _ _
      (absPass_q2_inside [] ['q', quote, '['] run [] [quote] hne hrun),
    absYylex_succ_again (k + 1) _ _ (absPass_q2_close ([] ++ run) run [] [quote]),
    absYylex_succ_of_ne_again k _ _ hend (by simp)] at hsim
  rw [hk]
  exact hsim.1

/-- C22, the code at the failing input: on `q'[`, 16379 runes `a` and `]'` (a text of
`ZZ_BUFFERSIZE` = 16384 runes) the first call of `Yylex` returns no `STRING` token: it
ends in the panic of `yyerror` for an unterminated `q` string.  On the short text
`q'[a]]b]'` the call returns the `STRING` token `a]]b`, as the claim says. -/
theorem C22_q_string_unterminated :
    ((NewLexer (ofRunes (('q' :: quote :: '[' :: (List.replicate 16379 'a' ++ [']']))
        ++ [quote])) false).Yylex 16388).1
      = .panic (((NewLexer (ofRunes (('q' :: quote :: '[' :: (List.replicate 16379 'a'
          ++ [']'])) ++ [quote])) false).Yylex 16388).2.yyerror "unterminated q2 string") ∧
    ((NewLexer (ofRunes ['q', quote, '[', 'a', ']', ']', 'b', ']', quote]) false).Yylex 20).1
      = .token ⟨['a', ']', ']', 'b'], .STRING⟩ :=
  ⟨Yylex_q2_full (List.replicate 16379 'a') false 16388
    (replicate_ne_nil _ _ (by decide))
    (fun x hx => by rw [List.eq_of_mem_replicate hx]; decide)
    (by
      rw [List.length_append, List.length_cons, List.length_cons, List.length_cons,
        List.length_append, List.length_replicate]
      rfl)
    (by decide), by decide!⟩

/-! ## The end of a comment -/

theorem map_add_zero (o : Option Nat) : o.map (fun n => n + 0) = o := by
  cases o <;> rfl

theorem map_add_add (o : Option Nat) (a b : Nat) :
    (o.map (fun n => n + a)).map (fun n => n + b) = o.map (fun n => n + (a + b)) := by
  cases o with
  | none => rfl
  | some n => simp only [Option.map_some', Nat.add_assoc]

theorem closeAt_other (c : Char) (t : List Char) (h1 : c ≠ '*') (h2 : c ≠ '/') :
    closeAt (c :: t) = (closeAt t).map (fun n => n + 1) := by
  cases t with
  | nil => rfl
  | cons d t =>
    rw [closeAt, if_neg (fun h => h1 h.1), if_neg (fun h => h2 h.1)]

theorem closeAt_star (t : List Char) (h : t.head? ≠ some '/') :
    closeAt ('*' :: t) = (closeAt t).map (fun n => n + 1) := by
  cases t with
  | nil => rfl
  | cons d t =>
    have hd : d ≠ '/' := fun e => h (by rw [e]; rfl)
    rw [closeAt, if_neg (fun h => hd h.2), if_neg (fun h => by simp at h)]

theorem closeAt_slash (t : List Char) (h : t.head? ≠ some '*') :
    closeAt ('/' :: t) = (closeAt t).map (fun n => n + 1) := by
  cases t with
  | nil => rfl
  | cons d t =>
    have hd : d ≠ '*' := fun e => h (by rw [e]; rfl)
    rw [closeAt, if_neg (fun h => by simp at h), if_neg (fun h => hd h.2)]

theorem closeAt_open (t : List Char) :
    closeAt ('/' :: '*' :: t) = (closeAt t).map (fun n => n + 2) := by
  rw [closeAt, if_neg (fun h => by simp at h), if_pos ⟨rfl, rfl⟩]

theorem closeAt_close (t : List Char) : closeAt ('*' :: '/' :: t) = some 2 := by
  rw [closeAt, if_pos ⟨rfl, rfl⟩]

theorem stop_action : idx ZZ_ACTION 59 = some 32 := action_at _ _ (by decide!)

/-- The run of the DFA from the state of a comment text reads the runes before the next
star or slash. -/
theorem run26_close (xs : List Char) : ∀ c : Nat, ∃ inp st' m' c' j,
    dfaRun 26 26 c c xs = some (inp, st', 26, m', c') ∧ m' = c + j ∧ j ≤ xs.length ∧
      closeAt xs = (closeAt (xs.drop j)).map (fun n => n + j) := by
  induction xs with
  | nil =>
    intro c
    exact ⟨none, 26, c, c, 0, rfl, rfl, le_refl _, rfl⟩
  | cons x xs ih =>
    intro c
    obtain ⟨k, hk, hr, h3, h4⟩ := xc_class x
    have ht := (xc_rows k hr).2.1
    by_cases hs : k = 3 ∨ k = 4
    · rw [if_pos hs] at ht
      refine ⟨some x, 26, c, c + 1, 0, dfaRun_stop 26 26 c c x xs k hk ht, rfl,
        Nat.zero_le _, ?_⟩
      rw [List.drop_zero, map_add_zero]
    · rw [if_neg hs] at ht
      obtain ⟨inp, st', m', c', j, h1, h2, h5, h6⟩ := ih (c + 1)
      refine ⟨inp, st', m', c', j + 1, ?_, by omega, by simp only [List.length_cons]; omega, ?_⟩
      · rw [dfaRun_accept 26 26 c c x xs k 26 hk ht (by decide) xc_attrs.1]
        exact h1
      · have hx1 : x ≠ '*' := fun e => hs (Or.inr (h4.mpr e))
        have hx2 : x ≠ '/' := fun e => hs (Or.inl (h3.mpr e))
        rw [closeAt_other x xs hx1 hx2, h6, map_add_add, List.drop_succ_cons]

/-- The run of the DFA behind a star inside a comment: further stars and a slash close
the comment; anything else leaves the star alone. -/
theorem run60_close (xs : List Char) : ∀ (st a : Int) (m c : Nat), st = 28 ∨ st = 60 →
    ∃ inp st' a' m' c', dfaRun st a m c xs = some (inp, st', a', m', c') ∧
      ((a' = 59 ∧ ∃ j, m' = c + j + 1 ∧ j + 1 ≤ xs.length ∧
          closeAt ('*' :: xs) = some (j + 2)) ∨
        (a' = a ∧ m' = m ∧ closeAt ('*' :: xs) = (closeAt xs).map (fun n => n + 1))) := by
  induction xs with
  | nil =>
    intro st a m c _
    exact ⟨none, st, a, m, c, rfl, Or.inr ⟨rfl, rfl, rfl⟩⟩
  | cons x ys ih =>
    intro st a m c hst
    obtain ⟨k, hk, hr, h3, h4⟩ := xc_class x
    have ht : trans st k = some (if k = 3 then 59 else if k = 4 then 60 else -1) := by
      rcases hst with h | h <;> rw [h]
      · exact (xc_rows k hr).2.2.2.1
      · exact (xc_rows k hr).2.2.2.2
    by_cases hk3 : k = 3
    · rw [if_pos hk3] at ht
      have hx := h3.mp hk3
      refine ⟨some x, 59, 59, c + 1, c + 1,
        dfaRun_final st a m c x ys k 59 hk ht (by decide) xc_attrs.2.2.2.2.1,
        Or.inl ⟨rfl, 0, rfl, by simp, ?_⟩⟩
      rw [hx, closeAt_close]
    · rw [if_neg hk3] at ht
      by_cases hk4 : k = 4
      · rw [if_pos hk4] at ht
        have hx := h4.mp hk4
        obtain ⟨inp, st', a', m', c', h1, h2⟩ := ih 60 a m (c + 1) (Or.inr rfl)
        refine ⟨inp, st', a', m', c', ?_, ?_⟩
        · rw [dfaRun_through st a m c x ys k 60 hk ht (by decide) xc_attrs.2.2.2.2.2]
          exact h1
        · have hstar : closeAt ('*' :: x :: ys) = (closeAt (x :: ys)).map (fun n => n + 1) :=
            closeAt_star (x :: ys) (by rw [hx]; simp)
          rcases h2 with ⟨e1, j, e2, e3, e4⟩ | ⟨e1, e2, -⟩
          · refine Or.inl ⟨e1, j + 1, by omega, by simp only [List.length_cons]; omega, ?_⟩
            rw [hstar, hx, e4]
            rfl
          · exact Or.inr ⟨e1, e2, hstar⟩
      · rw [if_neg hk4] at ht
        refine ⟨some x, st, a, m, c + 1, dfaRun_stop st a m c x ys k hk ht,
          Or.inr ⟨rfl, rfl, ?_⟩⟩
        exact closeAt_star (x :: ys) (fun e => hk3 (h3.mpr (by simpa using e)))

/-- The run of the DFA behind a slash inside a comment: with a star the two are passed
over as a whole. -/
theorem run27_close (xs : List Char) : ∃ inp st' a' m' c',
    dfaRun 27 27 1 1 xs = some (inp, st', a', m', c') ∧
      ((a' = 58 ∧ m' = 2 ∧ 1 ≤ xs.length ∧
          closeAt ('/' :: xs) = (closeAt (xs.drop 1)).map (fun n => n + 2)) ∨
        (a' = 27 ∧ m' = 1 ∧ closeAt ('/' :: xs) = (closeAt xs).map (fun n => n + 1))) := by
  cases xs with
  | nil => exact ⟨none, 27, 27, 1, 1, rfl, Or.inr ⟨rfl, rfl, rfl⟩⟩
  | cons x ys =>
    obtain ⟨k, hk, hr, h3, h4⟩ := xc_class x
    have ht := (xc_rows k hr).2.2.1
    by_cases hk4 : k = 4
    · rw [if_pos hk4] at ht
      refine ⟨some x, 58, 58, 2, 2,
        dfaRun_final 27 27 1 1 x ys k 58 hk ht (by decide) xc_attrs.2.2.2.1,
        Or.inl ⟨rfl, rfl, by simp, ?_⟩⟩
      rw [h4.mp hk4, closeAt_open]
      rfl
    · rw [if_neg hk4] at ht
      refine ⟨some x, 27, 27, 1, 2, dfaRun_stop 27 27 1 1 x ys k hk ht,
        Or.inr ⟨rfl, rfl, ?_⟩⟩
      exact closeAt_slash (x :: ys) (fun e => hk4 (h4.mpr (by simpa using e)))

/-- One match inside a comment: it closes the comment where `closeAt` says so, or it
passes over a part of the text behind which the comment closes as before. -/
theorem run_xc_close (V : List Char) (hne : V ≠ []) : ∃ inp st' a' m' c',
    dfaRun 1 (-1) 0 0 V = some (inp, st', a', m', c') ∧ 1 ≤ m' ∧ m' ≤ V.length ∧
      ((a' = 59 ∧ closeAt V = some m') ∨
        (a' ∈ ([26, 27, 28, 58] : List Int) ∧
          closeAt V = (closeAt (V.drop m')).map (fun n => n + m'))) := by
  cases V with
  | nil => exact absurd rfl hne
  | cons x xs =>
    obtain ⟨k, hk, hr, h3, h4⟩ := xc_class x
    have ht := (xc_rows k hr).1
    by_cases hk3 : k = 3
    · rw [if_pos hk3] at ht
      have hx := h3.mp hk3
      obtain ⟨inp, st', a', m', c', h1, h2⟩ := run27_close xs
      refine ⟨inp, st', a', m', c', ?_, ?_⟩
      · rw [dfaRun_accept 1 (-1) 0 0 x xs k 27 hk ht (by decide) xc_attrs.2.1]
        exact h1
      · rcases h2 with ⟨e1, e2, e3, e4⟩ | ⟨e1, e2, e4⟩
        · refine ⟨by omega, by simp only [List.length_cons]; omega, Or.inr ⟨by rw [e1]; decide, ?_⟩⟩
          rw [hx, e4, e2]
          rfl
        · refine ⟨by omega, by simp only [List.length_cons]; omega, Or.inr ⟨by rw [e1]; decide, ?_⟩⟩
          rw [hx, e4, e2]
          rfl
    · rw [if_neg hk3] at ht
      by_cases hk4 : k = 4
      · rw [if_pos hk4] at ht
        have hx := h4.mp hk4
        obtain ⟨inp, st', a', m', c', h1, h2⟩ := run60_close xs 28 28 1 1 (Or.inl rfl)
        refine ⟨inp, st', a', m', c', ?_, ?_⟩
        · rw [dfaRun_accept 1 (-1) 0 0 x xs k 28 hk ht (by decide) xc_attrs.2.2.1]
          exact h1
        · rcases h2 with ⟨e1, j, e2, e3, e4⟩ | ⟨e1, e2, e4⟩
          · refine ⟨by omega, by simp only [List.length_cons]; omega, Or.inl ⟨e1, ?_⟩⟩
            rw [hx, e4, e2]
            congr 1
            omega
          · refine ⟨by omega, by simp only [List.length_cons]; omega,
              Or.inr ⟨by rw [e1]; decide, ?_⟩⟩
            rw [hx, e4, e2]
            rfl
      · rw [if_neg hk4] at ht
        obtain ⟨inp, st', m', c', j, h1, h2, h5, h6⟩ := run26_close xs 1
        refine ⟨inp, st', 26, m', c', ?_, by omega, by simp only [List.length_cons]; omega,
          Or.inr ⟨by decide, ?_⟩⟩
        · rw [dfaRun_accept 1 (-1) 0 0 x xs k 26 hk ht (by decide) xc_attrs.1]
          exact h1
        · have hx1 : x ≠ '*' := fun e => hk4 (h4.mpr e)
          have hx2 : x ≠ '/' := fun e => hk3 (h3.mpr e)
          rw [closeAt_other x xs hx1 hx2, h6, map_add_add, h2, Nat.add_comm 1 j,
            List.drop_succ_cons]

/-- In `YYINITIAL`, the opener `/*` begins a comment: `xc_start`. -/
theorem absPass_xc_start (lt txt tl held : List Char) :
    absPass ⟨YYINITIAL, lt, txt, '/' :: '*' :: tl, held⟩
      = .again ⟨xc, ['/', '*'], ['/', '*'], tl, held⟩ := by
  rw [absPass_of_run ⟨YYINITIAL, lt, txt, '/' :: '*' :: tl, held⟩ 0 0 (some '*') 43 43 2 2 23
    lexstate_initial (attr_start 0 (by decide)) (by simp) (run_open tl) (by decide!)]
  simp [absAction, zzActionSwitch, Abs.user, Lexer.zero, Lexer.yybegin]

/-- A pass inside a comment, in terms of `closeAt`: it returns the comment where the
comment closes, or it appends a part of the text behind which the comment closes as
before. -/
theorem absPass_xc (lt txt V : List Char) (hne : V ≠ []) : ∃ m, 1 ≤ m ∧ m ≤ V.length ∧
    ((closeAt V = some m ∧
        absPass ⟨xc, lt, txt, V, []⟩
          = .token (newLVal (lt ++ V.take m) .WHITESPACE_OR_COMMENT)
              ⟨YYINITIAL, lt ++ V.take m, V.take m, V.drop m, []⟩) ∨
      (closeAt V = (closeAt (V.drop m)).map (fun n => n + m) ∧
        absPass ⟨xc, lt, txt, V, []⟩ = .again ⟨xc, lt ++ V.take m, V.take m, V.drop m, []⟩)) := by
  obtain ⟨inp, st', a', m', c', hrun, h1, h2, h3⟩ := run_xc_close V hne
  refine ⟨m', h1, h2, ?_⟩
  rcases h3 with ⟨e1, e2⟩ | ⟨e1, e2⟩
  · refine Or.inl ⟨e2, ?_⟩
    subst e1
    rw [absPass_of_run ⟨xc, lt, txt, V, []⟩ 1 0 inp st' 59 m' c' 32 lexstate_xc
      (attr_start 1 (by decide)) hne hrun (by decide!)]
    split_ifs <;>
      simp [absAction, zzActionSwitch, Abs.user, Lexer.zero, Lexer.yybegin, newLVal]
  · refine Or.inr ⟨e2, ?_⟩
    simp only [List.mem_cons, List.mem_singleton, List.not_mem_nil, or_false] at e1
    rcases e1 with e | e | e | e <;> subst e
    · rw [absPass_of_run ⟨xc, lt, txt, V, []⟩ 1 0 inp st' 26 m' c' 8 lexstate_xc
        (attr_start 1 (by decide)) hne hrun (by decide!)]
      split_ifs <;> simp [absAction, zzActionSwitch, Abs.user, Lexer.zero]
    · rw [absPass_of_run ⟨xc, lt, txt, V, []⟩ 1 0 inp st' 27 m' c' 9 lexstate_xc
        (attr_start 1 (by decide)) hne hrun (by decide!)]
      split_ifs <;> simp [absAction, zzActionSwitch, Abs.user, Lexer.zero]
    · rw [absPass_of_run ⟨xc, lt, txt, V, []⟩ 1 0 inp st' 28 m' c' 9 lexstate_xc
        (attr_start 1 (by decide)) hne hrun (by decide!)]
      split_ifs <;> simp [absAction, zzActionSwitch, Abs.user, Lexer.zero]
    · rw [absPass_of_run ⟨xc, lt, txt, V, []⟩ 1 0 inp st' 58 m' c' 31 lexstate_xc
        (attr_start 1 (by decide)) hne hrun (by decide!)]
      split_ifs <;> simp [absAction, zzActionSwitch, Abs.user, Lexer.zero]

/-- The passes of `Yylex` inside a comment: the call returns the comment up to and
including the `*/` that `closeAt` finds. -/
theorem absYylex_xc (n : Nat) :
    ∀ (V lt txt : List Char) (fuel k : Nat), V.length ≤ n → closeAt V = some k →
      V.length < fuel →
      ∃ a', absYylex fuel ⟨xc, lt, txt, V, []⟩
          = .token (newLVal (lt ++ V.take k) .WHITESPACE_OR_COMMENT) a' ∧
        a'.lex = YYINITIAL ∧ a'.rem = V.drop k ∧ a'.held = [] := by
  induction n with
  | zero =>
    intro V lt txt fuel k hlen hc _
    have hV : V = [] := List.length_eq_zero.mp (by omega)
    subst hV
    simp [closeAt] at hc
  | succ n ih =>
    intro V lt txt fuel k hlen hc hfuel
    by_cases hne : V = []
    · subst hne
      simp [closeAt] at hc
    obtain ⟨f, hf⟩ : ∃ f, fuel = f + 1 := ⟨fuel - 1, by omega⟩
    obtain ⟨m, h1, h2, h3⟩ := absPass_xc lt txt V hne
    rcases h3 with ⟨e1, e2⟩ | ⟨e1, e2⟩
    · rw [hc] at e1
      simp only [Option.some.injEq] at e1
      subst e1
      rw [hf, absYylex_succ_of_ne_again f _ _ e2 (by simp)]
      exact ⟨_, rfl, rfl, rfl, rfl⟩
    · rw [hc] at e1
      cases hd : closeAt (V.drop m) with
      | none => rw [hd] at e1; simp at e1
      | some k' =>
        rw [hd] at e1
        simp only [Option.map_some', Option.some.injEq] at e1
        obtain ⟨a', h4, h5, h6, h7⟩ := ih (V.drop m) (lt ++ V.take m) (V.take m) f k'
          (by rw [List.length_drop]; omega) hd (by rw [List.length_drop]; omega)
        refine ⟨a', ?_, h5, ?_, h7⟩
        · rw [hf, absYylex_succ_again f _ _ e2, h4, e1, List.append_assoc, Nat.add_comm k' m,
            List.take_add]
        · rw [h6, e1, List.drop_drop, Nat.add_comm m k']

/-- Below the buffer size, a text that begins with `/*`: the first call of `Yylex`
returns the comment up to and including the `*/` that `closeAt` finds behind the
opener. -/
theorem Yylex_comment (body : List Char) (k : Nat) (d : Bool) (fuel : Nat)
    (hc : closeAt body = some k) (hlen : ('/' :: '*' :: body).length < ZZ_BUFFERSIZE)
    (hfuel : ('/' :: '*' :: body).length < fuel) :
    ((NewLexer (ofRunes ('/' :: '*' :: body)) d).Yylex fuel).1
      = .token (newLVal ('/' :: '*' :: body.take k) .WHITESPACE_OR_COMMENT) := by
  have hsim := sim_fresh ('/' :: '*' :: body) d fuel (by omega) hfuel
  simp only [List.length_cons] at hfuel hlen
  obtain ⟨f, hf⟩ : ∃ f, fuel = f + 1 := ⟨fuel - 1, by omega⟩
  have hstart : Abs.start ('/' :: '*' :: body) = ⟨YYINITIAL, [], [], '/' :: '*' :: body, []⟩ := by
    unfold Abs.start
    rw [if_neg (by simp only [List.length_cons]; omega)]
  obtain ⟨a', h4, -, -, -⟩ := absYylex_xc body.length body ['/', '*'] ['/', '*'] f k
    (le_refl _) hc (by omega)
  rw [hstart, hf, absYylex_succ_again f _ _ (absPass_xc_start [] [] body []), h4] at hsim
  rw [hf]
  exact hsim.1

/-- Where no `/*` inside the comment is directly followed by a slash, the comment closes
at the first `*/`. -/
theorem closeAt_eq_firstClose (body : List Char) :
    (∀ s t, body ≠ s ++ '/' :: '*' :: '/' :: t) → closeAt body = firstClose body := by
  induction body using closeAt.induct with
  | case1 => intro _; rfl
  | case2 c => intro _; rfl
  | case3 c d t h =>
    intro _
    rw [closeAt, firstClose, if_pos h, if_pos h]
  | case4 c d t h1 h2 ih =>
    intro hno
    obtain ⟨rfl, rfl⟩ := h2
    have iht := ih (fun s t' e => hno ('/' :: '*' :: s) t' (by rw [e]; rfl))
    rw [closeAt_open, iht, firstClose, if_neg (fun h => by simp at h)]
    cases t with
    | nil => rfl
    | cons e t' =>
      have he : e ≠ '/' := fun h => hno [] t' (by rw [h]; rfl)
      rw [firstClose, if_neg (fun h => he h.2), map_add_add]
  | case5 c d t h1 h2 ih =>
    intro hno
    have iht := ih (fun s t' e => hno (c :: s) t' (by rw [e]; rfl))
    rw [closeAt, firstClose, if_neg h1, if_neg h2, if_neg h1, iht]

/-- C21, where the claim fails: in `/* /*/ */x` the first `*/` behind the opener ends
four runes behind it (in `/*/`), so the claim has the comment `/* /*/`; the first call
of `Yylex` returns the comment `/* /*/ */`, because inside a comment the scanner passes
over `/*` as a whole and so does not see the `*/` that begins with its star. -/
theorem C21_inner_opener_hides_close :
    firstClose [' ', '/', '*', '/', ' ', '*', '/', 'x'] = some 4 ∧
      ((NewLexer (ofRunes ['/', '*', ' ', '/', '*', '/', ' ', '*', '/', 'x']) false).Yylex
        20).1 = .token ⟨['/', '*', ' ', '/', '*', '/', ' ', '*', '/'],
          .WHITESPACE_OR_COMMENT⟩ :=
  ⟨by decide, Yylex_comment [' ', '/', '*', '/', ' ', '*', '/', 'x'] 7 false 20 (by decide)
    (by decide) (by decide)⟩

/-- C21 as the code has it, for inputs shorter than the buffer: on an input that begins
with `/*`, the first call of `Yylex` returns one `WHITESPACE_OR_COMMENT` token whose
text is the input from `/*` through the `*/` that `closeAt` finds: the text behind the
opener is read from left to right, a further `/*` is passed over as a whole, and the
first `*/` met closes the comment, whatever follows.  Where no `/*` behind the opener is
directly followed by a slash, this is the first occurrence of `*/` behind the opener. -/
theorem C21_comment_ends_at_close (body : List Char) (k : Nat) (d : Bool) (fuel : Nat)
    (hc : closeAt body = some k) (hlen : ('/' :: '*' :: body).length < ZZ_BUFFERSIZE)
    (hfuel : ('/' :: '*' :: body).length < fuel) :
    ((NewLexer (ofRunes ('/' :: '*' :: body)) d).Yylex fuel).1
        = .token (newLVal ('/' :: '*' :: body.take k) .WHITESPACE_OR_COMMENT) ∧
      ((∀ s t, body ≠ s ++ '/' :: '*' :: '/' :: t) → firstClose body = some k) :=
  ⟨Yylex_comment body k d fuel hc hlen hfuel,
    fun hno => by rw [← closeAt_eq_firstClose body hno]; exact hc⟩

/-- C21 as the code has it, at `/* /* */ */`: the token is `/* /* */`. -/
theorem C21_comment_ends_at_close_witness :
    closeAt [' ', '/', '*', ' ', '*', '/', ' ', '*', '/'] = some 6 ∧
      (((NewLexer (ofRunes ('/' :: '*' :: [' ', '/', '*', ' ', '*', '/', ' ', '*', '/']))
          false).Yylex 20).1
        = .token (newLVal ('/' :: '*' :: [' ', '/', '*', ' ', '*', '/', ' ', '*', '/'].take 6)
          .WHITESPACE_OR_COMMENT) ∧
      ((∀ s t, [' ', '/', '*', ' ', '*', '/', ' ', '*', '/'] ≠ s ++ '/' :: '*' :: '/' :: t) →
        firstClose [' ', '/', '*', ' ', '*', '/', ' ', '*', '/'] = some 6)) :=
  ⟨by decide, C21_comment_ends_at_close [' ', '/', '*', ' ', '*', '/', ' ', '*', '/'] 6 false 20
    (by decide) (by decide) (by decide)⟩

/-- Bringing the position counters up to date keeps the scanner inside the literal. -/
theorem count_lit (lex : Int) (l : Lexer) (T : List Char) (h : InLit lex l T) :
    ∃ l3, zzCount l l.zzEndRead l.zzBuffer = .ok l3 l3.zzMarkedPos l3.zzEndRead l3.zzBuffer ∧
      InLit lex l3 T ∧ l3.ltstr = l.ltstr := by
  obtain ⟨pre, txt, vis, post, h, rest, c0, hb, hm, hc, hc0, hv, heof, hlex, hT, hgeo⟩ := h
  have hbuf : l.zzBuffer = pre ++ txt ++ (vis ++ post) := by
    rw [hb.buf]; simp only [List.append_assoc]
  have hcase : l.zzMarkedPos < l.zzEndRead ∧ vis ++ post ≠ [] ∨
      ¬ (l.zzMarkedPos < l.zzEndRead) ∧ l.zzAtEOF = true ∨ txt.getLast? ≠ some CR := by
    left
    refine ⟨?_, ?_⟩
    · rw [hm, hb.en]
      simp only [List.length_append]
      omega
    · intro he
      have := congrArg List.length he
      simp only [List.length_append, List.length_nil] at this
      omega
  obtain ⟨yl, yc, hcf, -⟩ := count_fields l pre txt (vis ++ post) hbuf hb.st hm hcase
  refine ⟨_, hcf, ⟨pre, txt, vis, post, h, rest, c0, ?_, hm, hc, hc0, hv, heof, hlex, hT,
    hgeo⟩, rfl⟩
  obtain ⟨b1, b2, b3, b4, b5, b6, b7⟩ := hb
  exact ⟨b1, b2, b3, b4, b5, b6, b7⟩

/-- The run of the DFA from a state of the sub-states meets no index panic. -/
theorem dfaRun_total_sub (V : List Char) : ∀ (st a : Int) (m c : Nat),
    st ∈ subStates → dfaRun st a m c V ≠ none := by
  induction V with
  | nil => intro st a m c _; simp [dfaRun]
  | cons x xs ih =>
    intro st a m c hst
    obtain ⟨k, hk, hlt, -⟩ := cmap_cases x
    have hsome := (subStates_closed st hst).2 k (List.mem_range.mpr hlt)
    cases htr : trans st k with
    | none => rw [htr] at hsome; simp at hsome
    | some next =>
      have hz : zzNext st x = some next := by rw [zzNext_eq st x k hk, htr]
      simp only [dfaRun]
      rw [hz]
      dsimp only
      split_ifs with hn
      · simp
      · have hmem : next ∈ subStates := by
          rcases next_sub st x next hst hz with h | h
          · exact absurd h hn
          · exact h
        have hat := (subStates_closed next hmem).1
        cases hattr : idx ZZ_ATTRIBUTE next with
        | none => rw [hattr] at hat; simp at hat
        | some at1 =>
          dsimp only
          split_ifs
          · simp
          · exact ih _ _ _ _ hmem
          · exact ih _ _ _ _ hmem

/-- The run of the DFA inside a literal over runes other than the quote. -/
theorem run_lit_body (s0 sIn : Int) (V : List Char)
    (hsteps : ∀ st ∈ ([s0, sIn] : List Int), ∀ k ∈ others 1, stepsInto [sIn] st k = true)
    (hne : V ≠ []) (hV : ∀ x ∈ V, x ≠ quote) :
    dfaRun s0 (-1) 0 0 V = some (none, sIn, sIn, V.length, V.length) := by
  obtain ⟨st', _, h2, h3⟩ := dfaRun_accepting [s0, sIn] [sIn] (others 1) hsteps
    (by intro st hst; rw [List.mem_singleton] at hst; rw [hst]; simp)
    V s0 (-1) 0 0 (by simp) (fun x hx => class_ne_quote x (hV x hx))
  have := h2 hne
  rw [List.mem_singleton] at this
  subst this
  rw [if_neg hne, if_neg hne, Nat.zero_add] at h3
  exact h3

/-- The run of the DFA inside a literal over the closing quote at the end of the
text. -/
theorem run_lit_quote (s0 sStop : Int) (hstart : trans s0 1 = some sStop) (hn : sStop ≠ -1)
    (hat : idx ZZ_ATTRIBUTE sStop = some 1) :
    dfaRun s0 (-1) 0 0 [quote] = some (none, sStop, sStop, 1, 1) := by
  rw [dfaRun_accept s0 (-1) 0 0 quote [] 1 sStop quote_class hstart hn hat]
  rfl

/-- The DFA loop of a pass inside a literal, in the state `InLit`: the loop reads a text
`V` that is not empty, and the text still to be matched is `V` followed by what the loop
leaves in the buffer and in the reader. -/
theorem lit_loop_run (lex s0 : Int) (l3 : Lexer) (T : List Char) (fuel : Nat)
    (hs0 : s0 ∈ subStates) (h3 : InLit lex l3 T) (hfuel : T.length < fuel) :
    ∃ (V Hd : List Char) (inp : Option Char) (st' a' : Int) (m' c' : Nat) (l' : Lexer)
        (s' : Scan) (pre' live' post' : List Char) (h' : Nat) (rest' : List Char),
      V ≠ [] ∧ live' = V ++ Hd ∧ T = V ++ (Hd ++ rest') ∧
      dfaRun s0 (-1) 0 0 V = some (inp, st', a', m', c') ∧
      zzLoop fuel { l3 with
          zzCurrentPos := l3.zzMarkedPos
          zzStartRead := l3.zzMarkedPos
          zzState := s0 }
        ⟨-1, l3.zzMarkedPos, l3.zzMarkedPos, l3.zzEndRead, l3.zzBuffer⟩
          = .forAction inp l' s' ∧
      s'.zzAction = a' ∧ Inv l' s' pre' live' post' h' rest' m' c' ∧ Hd.length ≤ 1 ∧
      (inp = none → rest' = [] ∧ h' = 0 ∧ pre' = [] ∧ l'.zzCurrentPos = (c' : Int)) ∧
      (inp ≠ none → Hd.length = h') ∧
      (∃ c0, c0 ≤ live'.length ∧ l'.zzCurrentPos = ((pre'.length + c0 : Nat) : Int)) ∧
      l'.zzLexicalState = lex ∧ l'.ltstr = l3.ltstr ∧ l'.zzAtEOF = false := by
  obtain ⟨pre, txt, vis, post, h, rest, c0, hb, hm, hc, hc0, hv, heof, hlex, hT, hgeo⟩ := h3
  have hinv : Inv { l3 with
        zzCurrentPos := l3.zzMarkedPos
        zzStartRead := l3.zzMarkedPos
        zzState := s0 }
      ⟨-1, l3.zzMarkedPos, l3.zzMarkedPos, l3.zzEndRead, l3.zzBuffer⟩
      (pre ++ txt) vis post h rest 0 0 := by
    refine ⟨⟨?_, ?_, ?_, hb.fhs, le_of_lt hv, hb.hh, hb.rd⟩, rfl, rfl, ?_, ?_, le_refl _,
      Nat.zero_le _⟩
    · show l3.zzBuffer = _
      rw [hb.buf]; simp only [List.append_assoc]
    · show l3.zzMarkedPos = _
      rw [hm]; simp
    · show l3.zzEndRead = _
      rw [hb.en]
      simp only [List.length_append]
      congr 1
      omega
    · show l3.zzMarkedPos = _
      rw [hm]; simp
    · show l3.zzMarkedPos = _
      rw [hm]; simp
  have hTlen : T.length = vis.length + rest.length := by
    rw [← hT, List.length_append]
  rcases loop_general rest.length rest rfl _ _ (pre ++ txt) vis post h 0 0 fuel hinv
      (by omega) heof (fun hr => Or.inl (hgeo hr))
      ⟨0, Nat.zero_le _, by show l3.zzMarkedPos = _
                            rw [hm]; simp⟩
      (by omega) with
    ⟨V, l', hnone, -⟩ |
    ⟨V, Hd, inp, st', a', m', c', l', s', pre', live', post', h', t, rest', hVH, hlive, hrest,
      hrun, hloop, -, hsa, hinv', hHd, hinone, hisome, -, hcc, hlex', hlt', heof', V2, hV2⟩
  · exact absurd hnone (dfaRun_total_sub V s0 (-1) 0 0 hs0)
  rw [List.drop_zero] at hVH
  have hVne : V ≠ [] := by
    intro hV
    have := congrArg List.length hV2
    rw [hV] at this
    simp only [List.length_nil, List.length_append, List.length_take, List.drop_zero,
      Nat.sub_zero] at this
    omega
  refine ⟨V, Hd, inp, st', a', m', c', l', s', pre', live', post', h', rest', hVne, hVH, ?_,
    hrun, hloop, hsa, hinv', hHd, hinone, hisome, hcc, ?_, hlt', heof'⟩
  · rw [← hT, hrest, ← List.append_assoc, ← hlive, hVH, List.append_assoc]
  · rw [hlex']
    exact hlex

/-- The pass inside a literal over its body: the whole body is appended to `ltstr`, and
the closing quote is left to be matched. -/
theorem lit_step (lex s0 sIn aIn : Int) (l : Lexer) (body : List Char) (fuel : Nat)
    (hlexst : idx ZZ_LEXSTATE lex = some s0) (hattr0 : idx ZZ_ATTRIBUTE s0 = some 0)
    (hs0 : s0 ∈ subStates)
    (hsteps : ∀ st ∈ ([s0, sIn] : List Int), ∀ k ∈ others 1, stepsInto [sIn] st k = true)
    (hstop : trans sIn 1 = some (-1)) (hsIn : ¬ (sIn < 0))
    (hact : idx ZZ_ACTION sIn = some aIn)
    (hsw : ∀ (text : List Char) (l : Lexer) (s : Scan), zzActionSwitch aIn text l s
      = .again { l with ltstr := l.ltstr ++ text } s.zzEndReadL s.zzBufferL)
    (h : InLit lex l (body ++ [quote])) (hne : body ≠ []) (hq : ∀ x ∈ body, x ≠ quote)
    (hfuel : (body ++ [quote]).length < fuel) :
    ∃ l', yyPass fuel l l.zzEndRead l.zzBuffer = .again l' l'.zzEndRead l'.zzBuffer ∧
      InLit lex l' [quote] ∧ l'.ltstr = l.ltstr ++ body := by
  obtain ⟨l3, hcount, h3, hlt3⟩ := count_lit lex l _ h
  have hlex3 : l3.zzLexicalState = lex := by
    obtain ⟨_, _, _, _, _, _, _, _, _, _, _, _, _, hx, _, _⟩ := h3
    exact hx
  unfold yyPass zzBegin
  rw [hcount]
  dsimp only
  have hx : idx ZZ_LEXSTATE l3.zzLexicalState = some s0 := by
    rw [hlex3]; exact hlexst
  rw [hx]
  dsimp only
  rw [hattr0]
  dsimp only
  have hact0 : (if (0 : Int).toNat &&& 1 = 1 then s0 else -1) = -1 := by
    rw [if_neg (by decide)]
  rw [hact0]
  obtain ⟨V, Hd, inp, st', a', m', c', l', s', pre', live', post', h', rest', hVne, hlive, hT,
    hrun, hloop, hsa, hinv', hHd, hinone, hisome, hcc, hlex', hlt', heof'⟩ :=
    lit_loop_run lex s0 l3 _ fuel hs0 h3 hfuel
  -- the text the loop has read
  have hshape : V ++ Hd = body ++ [quote] ∧ rest' = [] ∧ h' = 0 ∧ a' = sIn ∧
      m' = body.length ∧ (inp = none → 0 < c') := by
    have hTl := congrArg List.length hT
    simp only [List.length_append, List.length_singleton] at hTl
    have hpos := List.length_pos.mpr hVne
    by_cases hle : V.length ≤ body.length
    · -- `V` is a beginning of the body
      have hVt : V = body.take V.length := by
        have e : (body ++ [quote]).take V.length = V := by rw [hT, List.take_left]
        rw [List.take_append_of_le_length hle] at e
        exact e.symm
      have hVb : ∀ x ∈ V, x ≠ quote := fun x hx => hq x (by
        rw [hVt] at hx
        exact List.mem_of_mem_take hx)
      rw [run_lit_body s0 sIn V hsteps hVne hVb] at hrun
      simp only [Option.some.injEq, Prod.mk.injEq] at hrun
      obtain ⟨r1, -, r3, r4, r5⟩ := hrun
      obtain ⟨i1, i2, -, -⟩ := hinone r1.symm
      subst i1
      rw [List.append_nil] at hT
      simp only [List.length_nil, Nat.add_zero] at hTl
      have hlen : body.length = V.length := by omega
      obtain ⟨e1, e2⟩ := List.append_inj hT hlen
      exact ⟨hT.symm, rfl, i2, r3.symm, by rw [← r4, hlen], fun _ => by omega⟩
    · -- the quote is the last rune of `V`
      have hHr : Hd ++ rest' = [] := by
        apply List.length_eq_zero.mp
        simp only [List.length_append]
        omega
      obtain ⟨hH, hR⟩ := List.append_eq_nil.mp hHr
      subst hH
      subst hR
      simp only [List.append_nil] at hT
      rw [← hT] at hrun
      rw [dfaRun_inside s0 sIn 1 quote body [] hsteps quote_class hstop hne
        (fun x hx => class_ne_quote x (hq x hx))] at hrun
      simp only [Option.some.injEq, Prod.mk.injEq] at hrun
      obtain ⟨r1, -, r3, r4, r5⟩ := hrun
      have hi : inp ≠ none := by rw [← r1]; simp
      have hh' := hisome hi
      simp only [List.length_nil] at hh'
      exact ⟨by rw [List.append_nil, hT], rfl, hh'.symm, r3.symm, r4.symm,
        fun hn => absurd hn hi⟩
  obtain ⟨hVH, hrest', hh', ha', hm', hcpos⟩ := hshape
  subst hrest'
  subst hh'
  have hlive' : live' = body ++ [quote] := by rw [hlive, hVH]
  unfold zzRun
  rw [hloop]
  dsimp only
  unfold zzForAction
  dsimp only
  have hS : l'.zzStartRead = (pre'.length : Int) := hinv'.b.st
  have hcond : ¬ (inp = none ∧ l'.zzStartRead = l'.zzCurrentPos) := by
    intro ⟨hi, hsc⟩
    obtain ⟨-, -, hp, hcz⟩ := hinone hi
    have := hcpos hi
    rw [hS, hcz, hp] at hsc
    simp only [List.length_nil, Nat.cast_zero] at hsc
    omega
  rw [if_neg hcond]
  unfold zzDispatch
  dsimp only
  have hapos : ¬ (s'.zzAction < 0) := by
    rw [hsa, ha']
    exact hsIn
  rw [if_neg hapos, hsa, ha', hact]
  dsimp only
  have hml : m' ≤ live'.length := by
    rw [hlive', hm', List.length_append]
    omega
  have htext : ({ l' with zzMarkedPos := s'.zzMarkedPosL } : Lexer).yytext
      = some (live'.take m') := by
    unfold Lexer.yytext
    show slice l'.zzBuffer l'.zzStartRead s'.zzMarkedPosL = _
    rw [hinv'.b.buf, hS, hinv'.hm]
    exact slice_mid pre' live' post' m' hml
  rw [htext]
  dsimp only
  rw [hsw, hinv'.hend, hinv'.hbuf]
  have htake : live'.take m' = body := by
    rw [hlive', hm', List.take_left]
  have hdrop : live'.drop m' = [quote] := by
    rw [hlive', hm', List.drop_left]
  refine ⟨{ l' with
      zzMarkedPos := s'.zzMarkedPosL
      ltstr := l'.ltstr ++ live'.take m' }, rfl, ?_, ?_⟩
  · obtain ⟨c1, hc1, hc1e⟩ := hcc
    refine ⟨pre', body, [quote], post', 0, [], c1, ?_, ?_, hc1e, ?_, by simp, heof', hlex',
      rfl, fun hx => absurd rfl hx⟩
    · rw [← hlive']
      obtain ⟨b1, b2, b3, b4, b5, b6, b7⟩ := hinv'.b
      exact ⟨b1, b2, b3, b4, b5, b6, b7⟩
    · show s'.zzMarkedPosL = _
      rw [hinv'.hm, hm']
    · rw [← hlive']
      exact hc1
  · show l'.ltstr ++ live'.take m' = _
    rw [htake, hlt', hlt3]

/-- The pass inside a literal over its closing quote at the end of the input: the
literal is returned as a `NORMAL` token, with the quote appended to `ltstr`, and the
scanner is back in `YYINITIAL` with nothing left to match. -/
theorem lit_final (lex s0 sStop aStop : Int) (l : Lexer) (fuel : Nat)
    (hlexst : idx ZZ_LEXSTATE lex = some s0) (hattr0 : idx ZZ_ATTRIBUTE s0 = some 0)
    (hs0 : s0 ∈ subStates)
    (hstart : trans s0 1 = some sStop) (hn : sStop ≠ -1)
    (hat : idx ZZ_ATTRIBUTE sStop = some 1) (hsS : ¬ (sStop < 0))
    (hact : idx ZZ_ACTION sStop = some aStop)
    (hsw : ∀ (text : List Char) (l : Lexer) (s : Scan), zzActionSwitch aStop text l s
      = .ret (.token (newLVal (l.ltstr ++ text) .NORMAL))
          { l with zzLexicalState := YYINITIAL, ltstr := l.ltstr ++ text })
    (h : InLit lex l [quote]) (hfuel : 1 < fuel) :
    ∃ l', yyPass fuel l l.zzEndRead l.zzBuffer
        = .ret (.token (newLVal (l.ltstr ++ [quote]) .NORMAL)) l' ∧
      Sim l' ⟨YYINITIAL, l.ltstr ++ [quote], [quote], [], []⟩ := by
  obtain ⟨l3, hcount, h3, hlt3⟩ := count_lit lex l _ h
  have hlex3 : l3.zzLexicalState = lex := by
    obtain ⟨_, _, _, _, _, _, _, _, _, _, _, _, _, hx, _, _⟩ := h3
    exact hx
  unfold yyPass zzBegin
  rw [hcount]
  dsimp only
  have hx : idx ZZ_LEXSTATE l3.zzLexicalState = some s0 := by
    rw [hlex3]; exact hlexst
  rw [hx]
  dsimp only
  rw [hattr0]
  dsimp only
  have hact0 : (if (0 : Int).toNat &&& 1 = 1 then s0 else -1) = -1 := by
    rw [if_neg (by decide)]
  rw [hact0]
  obtain ⟨V, Hd, inp, st', a', m', c', l', s', pre', live', post', h', rest', hVne, hlive, hT,
    hrun, hloop, hsa, hinv', hHd, hinone, hisome, hcc, hlex', hlt', heof'⟩ :=
    lit_loop_run lex s0 l3 _ fuel hs0 h3 (by simpa using hfuel)
  have hTl := congrArg List.length hT
  simp only [List.length_append, List.length_singleton] at hTl
  have hpos := List.length_pos.mpr hVne
  have hHr : Hd ++ rest' = [] := by
    apply List.length_eq_zero.mp
    simp only [List.length_append]
    omega
  obtain ⟨hH, hR⟩ := List.append_eq_nil.mp hHr
  subst hH
  subst hR
  simp only [List.append_nil] at hT hlive
  subst hlive
  rw [← hT, run_lit_quote s0 sStop hstart hn hat] at hrun
  simp only [Option.some.injEq, Prod.mk.injEq] at hrun
  obtain ⟨r1, -, r3, r4, r5⟩ := hrun
  obtain ⟨-, i2, i3, i4⟩ := hinone r1.symm
  subst i2
  subst i3
  unfold zzRun
  rw [hloop]
  dsimp only
  unfold zzForAction
  dsimp only
  have hS : l'.zzStartRead = ((([] : List Char).length : Nat) : Int) := hinv'.b.st
  have hcond : ¬ (inp = none ∧ l'.zzStartRead = l'.zzCurrentPos) := by
    intro ⟨_, hsc⟩
    rw [hS, i4, ← r5] at hsc
    simp only [List.length_nil, Nat.cast_zero] at hsc
    omega
  rw [if_neg hcond]
  unfold zzDispatch
  dsimp only
  have hapos : ¬ (s'.zzAction < 0) := by
    rw [hsa, ← r3]
    exact hsS
  rw [if_neg hapos, hsa, ← r3, hact]
  dsimp only
  have htext : ({ l' with zzMarkedPos := s'.zzMarkedPosL } : Lexer).yytext
      = some [quote] := by
    unfold Lexer.yytext
    show slice l'.zzBuffer l'.zzStartRead s'.zzMarkedPosL = _
    rw [hinv'.b.buf, hS, hinv'.hm, ← r4, ← hT]
    exact slice_mid [] [quote] post' 1 (by simp)
  rw [htext]
  dsimp only
  rw [hsw]
  have elt : l'.ltstr = l.ltstr := by rw [hlt', hlt3]
  refine ⟨{ l' with
      zzMarkedPos := s'.zzMarkedPosL
      zzLexicalState := YYINITIAL
      ltstr := l'.ltstr ++ [quote] }, ?_, ?_⟩
  · show Pass.ret (.token (newLVal (l'.ltstr ++ [quote]) .NORMAL)) _ = _
    rw [elt]
  obtain ⟨c1, hc1, hc1e⟩ := hcc
  refine ⟨[], post', c1, ?_, ?_, hc1e, ?_, heof', rfl, ?_⟩
  · obtain ⟨b1, b2, b3, b4, b5, b6, b7⟩ := hinv'.b
    rw [← hT] at b1 b3 b5
    exact ⟨b1, b2, b3, b4, b5, b6, b7⟩
  · show s'.zzMarkedPosL = _
    rw [hinv'.hm, ← r4]
    rfl
  · rw [← hT] at hc1
    exact hc1
  · show l'.ltstr ++ [quote] = _
    rw [hlt', hlt3]

/-- The first pass of a scanner that has read nothing yet, over a text that begins with
the opener of a literal, a letter and a quote: the pass matches the opener and enters
the lexical state of the literal. -/
theorem open_lit (o1 : Char) (sf act lex : Int) (l0 : Lexer) (post body : List Char)
    (fuel : Nat)
    (hrunO : ∀ xs, dfaRun 0 (-1) 0 0 (o1 :: quote :: xs) = some (some quote, sf, sf, 2, 2))
    (hsf : ¬ (sf < 0)) (hactO : idx ZZ_ACTION sf = some act)
    (hsw : ∀ (l : Lexer) (s : Scan), zzActionSwitch act [o1, quote] l s
      = .again { l with zzLexicalState := lex, ltstr := [o1, quote] } s.zzEndReadL s.zzBufferL)
    (hb : Buf l0 [] [] post 0 (o1 :: quote :: body)) (hm : l0.zzMarkedPos = 0)
    (heof : l0.zzAtEOF = false) (hlex : l0.zzLexicalState = YYINITIAL)
    (hpost : 4 ≤ post.length) (hbody : body ≠ []) (hfuel : body.length + 2 < fuel) :
    ∃ l1, yyPass fuel l0 l0.zzEndRead l0.zzBuffer = .again l1 l1.zzEndRead l1.zzBuffer ∧
      InLit lex l1 body ∧ l1.ltstr = [o1, quote] := by
  have hst0 : l0.zzStartRead = 0 := by rw [hb.st]; rfl
  have hen0 : l0.zzEndRead = 0 := by rw [hb.en]; rfl
  unfold yyPass zzBegin zzCount
  dsimp only
  rw [hm, hst0]
  simp only [sub_self, Int.toNat_zero, zzLineColumn, Bool.false_eq_true, if_false]
  have hx : idx ZZ_LEXSTATE l0.zzLexicalState = some 0 := by
    rw [hlex]; exact lexstate_initial
  rw [hx]
  dsimp only
  rw [attr_start 0 (by decide)]
  dsimp only
  have hact : (if (0 : Int).toNat &&& 1 = 1 then (0 : Int) else -1) = -1 := by decide
  rw [hact]
  have hb1 : Buf ({ l0 with
      yychar := l0.yychar + 0
      yyline := l0.yyline
      yycolumn := l0.yycolumn
      zzCurrentPos := 0
      zzStartRead := 0
      zzState := 0
      zzMarkedPos := 0 } : Lexer) [] [] post 0 (o1 :: quote :: body) := by
    obtain ⟨b1, b2, b3, b4, b5, b6, b7⟩ := hb
    exact ⟨b1, rfl, b3, b4, b5, b6, b7⟩
  obtain ⟨post', l', h1, h2, h3, h4, h5⟩ := refill_spec _ [] [] post 0 (o1 :: quote :: body) 0 0
    hb1 rfl rfl (le_refl _) (Or.inr (Or.inl rfl))
  have hroom : room [] [] post 0 = post.length := by simp [room]
  rw [if_neg (by simp)] at h1
  rw [hroom, List.nil_append] at h2
  simp only [Nat.cast_zero] at h3 h4
  obtain ⟨k, hk⟩ : ∃ k, post.length = k + 3 := ⟨post.length - 3, by omega⟩
  have htake : (o1 :: quote :: body).take post.length = o1 :: quote :: body.take (k + 1) := by
    rw [hk]; rfl
  have hdrop : (o1 :: quote :: body).drop post.length = body.drop (k + 1) := by
    rw [hk]; rfl
  rw [htake, hdrop] at h2
  generalize hh : (if (o1 :: quote :: body) ≠ [] ∧ post.length ≤ (o1 :: quote :: body).length
    then 1 else 0) = h' at h2
  have hh1 : h' ≤ 1 := by
    rw [← hh]; split_ifs <;> omega
  have hhv : h' = 1 → k + 1 ≤ body.length := by
    intro e
    rw [← hh] at e
    by_cases hc : (o1 :: quote :: body) ≠ [] ∧ post.length ≤ (o1 :: quote :: body).length
    · have := hc.2
      simp only [List.length_cons] at this
      omega
    · rw [if_neg hc] at e
      omega
  have hhr : body.drop (k + 1) ≠ [] → h' = 1 := by
    intro hne
    have hl : k + 1 < body.length := by
      by_contra hc
      exact hne (List.drop_of_length_le (by omega))
    rw [← hh, if_pos ⟨by simp, by simp only [List.length_cons]; omega⟩]
  have hvis : 2 ≤ (body.take (k + 1)).length + 2 - h' := by
    rw [List.length_take]
    by_cases e : h' = 1
    · have := hhv e
      omega
    · omega
  have hlt' : l'.zzCurrentPos < l'.zzEndRead := by
    rw [h4, h2.en]
    simp only [List.length_nil, Nat.zero_add, List.length_cons]
    omega
  obtain ⟨f, hf⟩ : ∃ f, fuel = f + 1 := ⟨fuel - 1, by omega⟩
  have hloop := loop_refill_more ({ l0 with
      yychar := l0.yychar + 0
      yyline := l0.yyline
      yycolumn := l0.yycolumn
      zzCurrentPos := 0
      zzStartRead := 0
      zzState := 0
      zzMarkedPos := 0 } : Lexer) ⟨-1, 0, 0, l0.zzEndRead, l0.zzBuffer⟩ f l'
    (by show ¬ ((0 : Int) < l0.zzEndRead)
        rw [hen0]; omega) heof h1 hlt'
  dsimp only at hloop
  obtain ⟨e1, e2, -, -, -, -, e7, -, -, -⟩ := h5
  dsimp only at e1 e2 e7
  have hvl : (body.take (k + 1)).length + 2 - h' ≤ (o1 :: quote :: body.take (k + 1)).length := by
    simp only [List.length_cons]; omega
  obtain ⟨g, hg⟩ : ∃ g, f + 1 = g + ((body.take (k + 1)).length + 2 - h') := by
    refine ⟨f + 1 - ((body.take (k + 1)).length + 2 - h'), ?_⟩
    have : (body.take (k + 1)).length ≤ body.length := by
      rw [List.length_take]; omega
    omega
  obtain ⟨xs, hxs⟩ : ∃ xs, ((o1 :: quote :: body.take (k + 1)).drop 0).take
      ((body.take (k + 1)).length + 2 - h') = o1 :: quote :: xs := by
    obtain ⟨j, hj⟩ : ∃ j, (body.take (k + 1)).length + 2 - h' = j + 2 :=
      ⟨(body.take (k + 1)).length + 2 - h' - 2, by omega⟩
    rw [hj]
    exact ⟨_, rfl⟩
  have hlb := loop_buffered [] (o1 :: quote :: body.take (k + 1)) post'
    ((body.take (k + 1)).length + 2 - h') g l'
    ⟨-1, l'.zzCurrentPos, l'.zzMarkedPos, l'.zzEndRead, l'.zzBuffer⟩ 0 0
    ((body.take (k + 1)).length + 2 - h')
    (by show l'.zzBuffer = _
        rw [h2.buf])
    (by show l'.zzMarkedPos = _
        rw [h3]; rfl)
    (by show l'.zzCurrentPos = _
        rw [h4]; rfl)
    (by show l'.zzEndRead = _
        rw [h2.en]
        simp only [List.length_nil, Nat.zero_add, List.length_cons])
    (by omega) hvl (some quote) sf sf 2 2
    (by rw [hxs, e1]; exact hrunO xs)
  unfold zzRun
  rw [hf, hloop, hg, hlb]
  dsimp only
  unfold zzForAction
  dsimp only
  rw [if_neg (by simp)]
  unfold zzDispatch
  dsimp only
  rw [if_neg hsf, hactO]
  dsimp only
  have htext : ({ l' with zzState := sf, zzMarkedPos := (([] : List Char).length + 2 : Nat) }
      : Lexer).yytext = some [o1, quote] := by
    unfold Lexer.yytext
    show slice l'.zzBuffer l'.zzStartRead _ = _
    rw [h2.buf, h2.st]
    exact slice_mid [] (o1 :: quote :: body.take (k + 1)) post' 2 (by simp)
  rw [htext]
  dsimp only
  rw [hsw]
  have hbl := List.length_pos.mpr hbody
  refine ⟨{ l' with
      zzState := sf
      zzMarkedPos := (([] : List Char).length + 2 : Nat)
      zzLexicalState := lex
      ltstr := [o1, quote] }, rfl, ⟨[], [o1, quote], body.take (k + 1), post', h',
    body.drop (k + 1), 0, ?_, rfl, ?_, Nat.zero_le _, ?_, ?_, rfl, List.take_append_drop _ _,
    hhr⟩, rfl⟩
  · obtain ⟨b1, b2, b3, b4, b5, b6, b7⟩ := h2
    exact ⟨b1, b2, b3, b4, b5, b6, b7⟩
  · show l'.zzCurrentPos = _
    rw [h4]; rfl
  · rw [List.length_take]
    by_cases e : h' = 1
    · have := hhv e
      omega
    · omega
  · show l'.zzAtEOF = false
    rw [e7]; exact heof

/-- A literal that begins with a letter and a quote and ends with the first quote
behind them, followed by the end of input: the first call of `Yylex` returns the whole
input as one `NORMAL` token, and the next call returns the end-of-input signal.  The
DFA states and actions of the literal are parameters: `sf` and `act` for the opener,
`s0`, `sIn`, `aIn` for the body and `sStop`, `aStop` for the closing quote. -/
theorem Yylex_lit (o1 : Char) (sf act lex s0 sIn sStop aIn aStop : Int) (body : List Char)
    (d : Bool) (fuel : Nat)
    (hrunO : ∀ xs, dfaRun 0 (-1) 0 0 (o1 :: quote :: xs) = some (some quote, sf, sf, 2, 2))
    (hsf : ¬ (sf < 0)) (hactO : idx ZZ_ACTION sf = some act)
    (hswO : ∀ (l : Lexer) (s : Scan), zzActionSwitch act [o1, quote] l s
      = .again { l with zzLexicalState := lex, ltstr := [o1, quote] } s.zzEndReadL s.zzBufferL)
    (hlexst : idx ZZ_LEXSTATE lex = some s0) (hattr0 : idx ZZ_ATTRIBUTE s0 = some 0)
    (hs0 : s0 ∈ subStates)
    (hsteps : ∀ st ∈ ([s0, sIn] : List Int), ∀ k ∈ others 1, stepsInto [sIn] st k = true)
    (hstop : trans sIn 1 = some (-1)) (hsIn : ¬ (sIn < 0))
    (hactIn : idx ZZ_ACTION sIn = some aIn)
    (hswIn : ∀ (text : List Char) (l : Lexer) (s : Scan), zzActionSwitch aIn text l s
      = .again { l with ltstr := l.ltstr ++ text } s.zzEndReadL s.zzBufferL)
    (hstart : trans s0 1 = some sStop) (hn : sStop ≠ -1)
    (hat : idx ZZ_ATTRIBUTE sStop = some 1) (hsS : ¬ (sStop < 0))
    (hactS : idx ZZ_ACTION sStop = some aStop)
    (hswS : ∀ (text : List Char) (l : Lexer) (s : Scan), zzActionSwitch aStop text l s
      = .ret (.token (newLVal (l.ltstr ++ text) .NORMAL))
          { l with zzLexicalState := YYINITIAL, ltstr := l.ltstr ++ text })
    (hq : ∀ x ∈ body, x ≠ quote) (hfuel : body.length + 3 < fuel) :
    ((NewLexer (ofRunes (o1 :: quote :: (body ++ [quote]))) d).Yylex fuel).1
        = .token (newLVal (o1 :: quote :: (body ++ [quote])) .NORMAL) ∧
      (((NewLexer (ofRunes (o1 :: quote :: (body ++ [quote]))) d).Yylex fuel).2.Yylex fuel).1
        = .eof := by
  obtain ⟨n, rfl⟩ : ∃ n, fuel = n + 3 := ⟨fuel - 3, by omega⟩
  obtain ⟨l1, hp1, hin1, hlt1⟩ := open_lit o1 sf act lex
    (NewLexer (ofRunes (o1 :: quote :: (body ++ [quote]))) d)
    (List.replicate ZZ_BUFFERSIZE zeroRune) (body ++ [quote]) (n + 3) hrunO hsf hactO hswO
    (newLexer_buf _ d) rfl rfl rfl
    (by rw [List.length_replicate]; simp [ZZ_BUFFERSIZE]) (by simp)
    (by simp only [List.length_append, List.length_singleton]; omega)
  have h1 := yyLoop_again (n + 2) (n + 3) _ _ _ l1 _ _ hp1
  have key : ∃ l', (NewLexer (ofRunes (o1 :: quote :: (body ++ [quote]))) d).Yylex (n + 3)
      = (.token (newLVal (o1 :: quote :: (body ++ [quote])) .NORMAL), l') ∧
      Sim l' ⟨YYINITIAL, o1 :: quote :: (body ++ [quote]), [quote], [], []⟩ := by
    unfold Lexer.Yylex
    rw [h1]
    by_cases hb : body = []
    · subst hb
      obtain ⟨l', hp, hsim⟩ := lit_final lex s0 sStop aStop l1 (n + 3) hlexst hattr0 hs0
        hstart hn hat hsS hactS hswS hin1 (by omega)
      rw [hlt1] at hp hsim
      refine ⟨l', ?_, hsim⟩
      simp only [yyLoop]
      rw [hp]
      rfl
    · obtain ⟨l2, hp2, hin2, hlt2⟩ := lit_step lex s0 sIn aIn l1 body (n + 3) hlexst hattr0
        hs0 hsteps hstop hsIn hactIn hswIn hin1 hb hq
        (by simp only [List.length_append, List.length_singleton]; omega)
      obtain ⟨l', hp, hsim⟩ := lit_final lex s0 sStop aStop l2 (n + 3) hlexst hattr0 hs0
        hstart hn hat hsS hactS hswS hin2 (by omega)
      rw [hlt2, hlt1] at hp hsim
      refine ⟨l', ?_, ?_⟩
      · rw [yyLoop_again (n + 1) (n + 3) _ _ _ l2 _ _ hp2]
        simp only [yyLoop]
        rw [hp]
        simp only [List.cons_append, List.nil_append, List.append_assoc]
      · simp only [List.cons_append, List.nil_append, List.append_assoc] at hsim
        exact hsim
  obtain ⟨l', hy, hsim⟩ := key
  rw [hy]
  exact ⟨rfl, Yylex_at_end l' _ _ (n + 3) hsim (by omega)⟩

theorem lit_rows : trans 0 8 = some 15 ∧ trans 15 1 = some 45 ∧ trans 0 9 = some 16 ∧
    trans 16 1 = some 46 ∧ idx ZZ_ATTRIBUTE 15 = some 1 ∧ idx ZZ_ATTRIBUTE 45 = some 9 ∧
    idx ZZ_ATTRIBUTE 16 = some 1 ∧ idx ZZ_ATTRIBUTE 46 = some 9 ∧
    idx ZZ_ACTION 45 = some 24 ∧ idx ZZ_ACTION 46 = some 25 :=
  ⟨trans_at _ _ _ (by decide!), trans_at _ _ _ (by decide!), trans_at _ _ _ (by decide!),
    trans_at _ _ _ (by decide!), attr_at _ _ (by decide!), attr_at _ _ (by decide!), attr_at _ _ (by decide!),
    attr_at _ _ (by decide!), action_at _ _ (by decide!), action_at _ _ (by decide!)⟩

theorem lit_states : idx ZZ_LEXSTATE xbin = some 5 ∧ idx ZZ_LEXSTATE xhex = some 6 ∧
    idx ZZ_ATTRIBUTE 5 = some 0 ∧ idx ZZ_ATTRIBUTE 6 = some 0 ∧
    trans 33 1 = some (-1) ∧ trans 35 1 = some (-1) ∧
    trans 5 1 = some 34 ∧ trans 6 1 = some 36 ∧
    idx ZZ_ATTRIBUTE 34 = some 1 ∧ idx ZZ_ATTRIBUTE 36 = some 1 ∧
    idx ZZ_ACTION 33 = some 14 ∧ idx ZZ_ACTION 35 = some 16 ∧
    idx ZZ_ACTION 34 = some 15 ∧ idx ZZ_ACTION 36 = some 17 :=
  ⟨by decide, by decide, attr_at _ _ (by decide!), attr_at _ _ (by decide!),
    trans_at _ _ _ (by decide!), trans_at _ _ _ (by decide!), trans_at _ _ _ (by decide!),
    trans_at _ _ _ (by decide!), attr_at _ _ (by decide!), attr_at _ _ (by decide!),
    action_at _ _ (by decide!), action_at _ _ (by decide!), action_at _ _ (by decide!),
    action_at _ _ (by decide!)⟩

theorem xbin_steps : ∀ st ∈ ([5, 33] : List Int), ∀ k ∈ others 1,
    stepsInto [33] st k = true :=
  fun st hst k hk => steps_at _ _ _
    ((by decide! : ∀ st ∈ ([5, 33] : List Int), ∀ k ∈ others 1, stepsAt [33] st k = true)
      st hst k hk)

theorem xhex_steps : ∀ st ∈ ([6, 35] : List Int), ∀ k ∈ others 1,
    stepsInto [35] st k = true :=
  fun st hst k hk => steps_at _ _ _
    ((by decide! : ∀ st ∈ ([6, 35] : List Int), ∀ k ∈ others 1, stepsAt [35] st k = true)
      st hst k hk)

theorem b_class (x : Char) (h : x = 'b' ∨ x = 'B') : cmap x = some 8 := by
  rcases h with h | h <;> subst h
  · exact class_of 98 98 8 (by decide!) 'b' (by decide) (by decide)
  · exact class_of 66 66 8 (by decide!) 'B' (by decide) (by decide)

/-- A binary string literal `b'...'` whose body has no quote, followed by the end of
input: one `NORMAL` token with the text of the whole input, then the end-of-input
signal. -/
theorem Yylex_bin (o1 : Char) (body : List Char) (d : Bool) (fuel : Nat)
    (ho : o1 = 'b' ∨ o1 = 'B') (hq : ∀ x ∈ body, x ≠ quote) (hfuel : body.length + 3 < fuel) :
    ((NewLexer (ofRunes (o1 :: quote :: (body ++ [quote]))) d).Yylex fuel).1
        = .token (newLVal (o1 :: quote :: (body ++ [quote])) .NORMAL) ∧
      (((NewLexer (ofRunes (o1 :: quote :: (body ++ [quote]))) d).Yylex fuel).2.Yylex fuel).1
        = .eof := by
  obtain ⟨r1, r2, -, -, a1, a2, -, -, c1, -⟩ := lit_rows
  obtain ⟨s1, -, s3, -, s5, -, s7, -, s9, -, s11, -, s13, -⟩ := lit_states
  exact Yylex_lit o1 45 24 xbin 5 33 34 14 15 body d fuel
    (fun xs => by
      rw [dfaRun_accept 0 (-1) 0 0 o1 _ 8 15 (b_class o1 ho) r1 (by decide) a1,
        dfaRun_final 15 15 (0 + 1) (0 + 1) quote xs 1 45 quote_class r2 (by decide) a2])
    (by decide) c1 (fun l s => rfl) s1 s3 (by decide) xbin_steps s5 (by decide) s11
    (fun text l s => rfl) s7 (by decide) s9 (by decide) s13 (fun text l s => rfl) hq hfuel

/-- A hexadecimal string literal `x'...'` whose body has no quote, followed by the end of
input: one `NORMAL` token with the text of the whole input, then the end-of-input
signal. -/
theorem Yylex_hexlit (o1 : Char) (body : List Char) (d : Bool) (fuel : Nat)
    (ho : o1 = 'x' ∨ o1 = 'X') (hq : ∀ x ∈ body, x ≠ quote) (hfuel : body.length + 3 < fuel) :
    ((NewLexer (ofRunes (o1 :: quote :: (body ++ [quote]))) d).Yylex fuel).1
        = .token (newLVal (o1 :: quote :: (body ++ [quote])) .NORMAL) ∧
      (((NewLexer (ofRunes (o1 :: quote :: (body ++ [quote]))) d).Yylex fuel).2.Yylex fuel).1
        = .eof := by
  obtain ⟨-, -, r1, r2, -, -, a1, a2, -, c1⟩ := lit_rows
  obtain ⟨-, s1, -, s3, -, s5, -, s7, -, s9, -, s11, -, s13⟩ := lit_states
  exact Yylex_lit o1 46 25 xhex 6 35 36 16 17 body d fuel
    (fun xs => by
      rw [dfaRun_accept 0 (-1) 0 0 o1 _ 9 16 (x_class o1 ho) r1 (by decide) a1,
        dfaRun_final 16 16 (0 + 1) (0 + 1) quote xs 1 46 quote_class r2 (by decide) a2])
    (by decide) c1 (fun l s => rfl) s1 s3 (by decide) xhex_steps s5 (by decide) s11
    (fun text l s => rfl) s7 (by decide) s9 (by decide) s13 (fun text l s => rfl) hq hfuel

/-- C26: for every body that contains no single quote and every letter `b`, `B`, `x` or
`X`, on the input made of the letter, a single quote, the body and a single quote,
whatever its length, the first call of `Yylex` returns one `NORMAL` token whose text is
the entire input, the letter and both quotes included, and the next call returns the
end-of-input signal. -/
theorem C26_bin_hex_literal_one_token (o1 : Char) (body : List Char) (d : Bool) (fuel : Nat)
    (ho : o1 ∈ ['b', 'B', 'x', 'X']) (hq : quote ∉ body) (hfuel : body.length + 3 < fuel) :
    ((NewLexer (ofRunes (o1 :: quote :: (body ++ [quote]))) d).Yylex fuel).1
        = .token (newLVal (o1 :: quote :: (body ++ [quote])) .NORMAL) ∧
      (((NewLexer (ofRunes (o1 :: quote :: (body ++ [quote]))) d).Yylex fuel).2.Yylex fuel).1
        = .eof := by
  have hq' : ∀ x ∈ body, x ≠ quote := fun x hx e => hq (by rw [← e]; exact hx)
  simp only [List.mem_cons, List.mem_singleton, List.not_mem_nil, or_false] at ho
  rcases ho with h | h | h | h
  · exact Yylex_bin o1 body d fuel (Or.inl h) hq' hfuel
  · exact Yylex_bin o1 body d fuel (Or.inr h) hq' hfuel
  · exact Yylex_hexlit o1 body d fuel (Or.inl h) hq' hfuel
  · exact Yylex_hexlit o1 body d fuel (Or.inr h) hq' hfuel

/-- C26 at the input `X'0f'`. -/
theorem C26_bin_hex_literal_one_token_witness :
    ((NewLexer (ofRunes ('X' :: quote :: (['0', 'f'] ++ [quote]))) false).Yylex 10).1
        = .token (newLVal ('X' :: quote :: (['0', 'f'] ++ [quote])) .NORMAL) ∧
      (((NewLexer (ofRunes ('X' :: quote :: (['0', 'f'] ++ [quote]))) false).Yylex 10).2.Yylex
        10).1 = .eof :=
  C26_bin_hex_literal_one_token 'X' ['0', 'f'] false 10 (by decide) (by decide) (by decide)

/-! ## The tables of the DFA are well formed -/

/-- The checks on the unpacked tables: every row of the transition table has 32 entries,
each at most 104 (one more than a state); every row offset is a multiple of 32 that
names a row; the attribute and the action of a state agree on whether it accepts. -/
theorem tables_checked :
    transRows.all (fun r => decide (r.length = 32) && r.all (fun v => decide (v ≤ 104))) = true ∧
    rowMapValues.all (fun row => decide (row % 32 = 0) && decide (row / 32 < 69)) = true ∧
    transRows.length = 69 ∧ rowMapValues.length = 104 ∧ attributeValues.length = 104 ∧
    actionValues.length = 104 ∧
    (attributeValues.zip actionValues).all
      (fun p => decide (p.1 &&& 1 = 1 ↔ 1 ≤ p.2 ∧ p.2 ≤ 43)) = true := by
  decide!

theorem idx_some_mem {α : Type} (xs : List α) (i : Int) (v : α) (h : idx xs i = some v) :
    v ∈ xs := by
  unfold idx at h
  split at h
  · exact absurd h (by simp)
  · exact List.get?_mem h

theorem idx_in_range {α : Type} (xs : List α) (i : Int) (h0 : 0 ≤ i)
    (h1 : i < (xs.length : Int)) : ∃ v, idx xs i = some v := by
  unfold idx
  rw [if_neg (by omega)]
  have hlt : i.toNat < xs.length := by omega
  exact ⟨xs.get ⟨i.toNat, hlt⟩, List.get?_eq_get hlt⟩

/-- Every transition of a state of the DFA on a class below 32 is in the table, and
leads to a state of the DFA or is `-1`. -/
theorem trans_total (st : Int) (h0 : 0 ≤ st) (h1 : st < 104) (k : Nat) (hk : k < 32) :
    ∃ n, trans st k = some n ∧ -1 ≤ n ∧ n < 104 := by
  obtain ⟨hrows, hmap, hlen, hmlen, -, -, -⟩ := tables_checked
  obtain ⟨row, hrow⟩ := idx_in_range rowMapValues st h0 (by rw [hmlen]; exact h1)
  have hr := List.all_eq_true.mp hmap row (idx_some_mem _ _ _ hrow)
  simp only [Bool.and_eq_true, decide_eq_true_eq] at hr
  have hlt : row / 32 < transRows.length := by rw [hlen]; exact hr.2
  have hget : transRows.get? (row / 32) = some (transRows.get ⟨row / 32, hlt⟩) :=
    List.get?_eq_get hlt
  have hr2 := List.all_eq_true.mp hrows _ (List.get_mem transRows (row / 32) hlt)
  simp only [Bool.and_eq_true, decide_eq_true_eq] at hr2
  have hk2 : k < (transRows.get ⟨row / 32, hlt⟩).length := by rw [hr2.1]; exact hk
  have hv := List.all_eq_true.mp hr2.2 _ (List.get_mem _ k hk2)
  simp only [decide_eq_true_eq] at hv
  refine ⟨(((transRows.get ⟨row / 32, hlt⟩).get ⟨k, hk2⟩ : Nat) : Int) - 1, ?_, by omega,
    by omega⟩
  apply trans_at
  unfold transAt
  rw [hrow]
  dsimp only
  rw [if_pos ⟨hr.1, hk⟩, hget]
  dsimp only
  rw [List.get?_eq_get hk2]
  rfl

/-- The transition on a rune from a state of the DFA is in the tables. -/
theorem zzNext_total (st : Int) (h0 : 0 ≤ st) (h1 : st < 104) (x : Char) :
    ∃ n, zzNext st x = some n ∧ -1 ≤ n ∧ n < 104 := by
  obtain ⟨k, hk, hlt, -⟩ := cmap_cases x
  obtain ⟨n, hn, h2, h3⟩ := trans_total st h0 h1 k hlt
  exact ⟨n, by rw [zzNext_eq st x k hk, hn], h2, h3⟩

/-- The attribute and the action of a state of the DFA: the state is accepting, by its
attribute, exactly when its action is one of the actions 1 to 43. -/
theorem attr_action (st : Int) (h0 : 0 ≤ st) (h1 : st < 104) :
    ∃ a b : Nat, idx ZZ_ATTRIBUTE st = some (a : Int) ∧ idx ZZ_ACTION st = some (b : Int) ∧
      (a &&& 1 = 1 ↔ 1 ≤ b ∧ b ≤ 43) := by
  obtain ⟨-, -, -, -, halen, hblen, hzip⟩ := tables_checked
  obtain ⟨a, ha⟩ := idx_in_range attributeValues st h0 (by rw [halen]; exact h1)
  obtain ⟨b, hb⟩ := idx_in_range actionValues st h0 (by rw [hblen]; exact h1)
  refine ⟨a, b, attr_at _ _ (by unfold attributeAt; rw [ha]; rfl),
    action_at _ _ (by unfold actionAt; rw [hb]; rfl), ?_⟩
  have hz : (attributeValues.zip actionValues).get? st.toNat = some (a, b) := by
    unfold idx at ha hb
    rw [if_neg (by omega)] at ha hb
    rw [List.get?_eq_getElem?] at ha hb ⊢
    rw [List.getElem?_zip_eq_some]
    exact ⟨ha, hb⟩
  exact of_decide_eq_true (List.all_eq_true.mp hzip _ (List.get?_mem hz))

/-! ## A refill brings the scanner forward -/

/-- The read loop of `zzRefill` takes from the reader the runes it counts. -/
theorem refillRead_prog (n : Nat) : ∀ (rd : RuneReader) (buf : List Char) (i k : Int)
    (rd' : RuneReader) (buf' : List Char) (k' : Int),
    zzRefillRead n rd buf i k = .done rd' buf' k' → 0 ≤ k →
      (k' = -1 ∧ k = 0 ∧ rd' = [] ∧ rd = []) ∨
      (k ≤ k' ∧ (rd.length : Int) = (k' - k) + rd'.length ∧ k' - k ≤ n ∧
        (k' = k → n = 0 ∨ rd = [])) := by
  induction n with
  | zero =>
    intro rd buf i k rd' buf' k' h hk
    simp only [zzRefillRead, ReadLoop.done.injEq] at h
    obtain ⟨h1, -, h3⟩ := h
    subst h1; subst h3
    exact Or.inr ⟨le_refl _, by omega, by omega, fun _ => Or.inl rfl⟩
  | succ n ih =>
    intro rd buf i k rd' buf' k' h hk
    cases rd with
    | nil =>
      simp only [zzRefillRead, ReadLoop.done.injEq] at h
      obtain ⟨h1, -, h3⟩ := h
      subst h1
      by_cases hz : k = 0
      · rw [if_pos hz] at h3
        exact Or.inl ⟨h3.symm, hz, rfl, rfl⟩
      · rw [if_neg hz] at h3
        subst h3
        exact Or.inr ⟨le_refl _, by simp, by omega, fun _ => Or.inr rfl⟩
    | cons a rd =>
      cases a with
      | fail e => simp only [zzRefillRead, reduceCtorEq] at h
      | rune r =>
        simp only [zzRefillRead] at h
        split_ifs at h with hc
        rcases ih rd _ _ _ rd' buf' k' h (by omega) with ⟨-, h2, -, -⟩ | ⟨h1, h2, h3, -⟩
        · omega
        · refine Or.inr ⟨by omega, ?_, by omega, fun h => by omega⟩
          simp only [List.length_cons]
          omega

/-- The third part of `zzRefill` leaves the positions of the match alone, and what it
reads from the reader it adds to the buffer: the input yet to match does not grow, and
after new input the input yet to match behind the next rune is less. -/
theorem fill_prog (l : Lexer) (hh : 0 ≤ l.zzFinalHighSurrogate) :
    (zzRefillFill l).2.zzStartRead = l.zzStartRead ∧
      (zzRefillFill l).2.zzCurrentPos = l.zzCurrentPos ∧
      (zzRefillFill l).2.zzMarkedPos = l.zzMarkedPos ∧
      0 ≤ (zzRefillFill l).2.zzFinalHighSurrogate ∧
      (((zzRefillFill l).1 = .more ∨ (zzRefillFill l).1 = .eof) →
        ∀ pos, remaining (zzRefillFill l).2 pos ≤ remaining l pos) ∧
      ((zzRefillFill l).1 = .more →
        ∀ pos, remaining (zzRefillFill l).2 (pos + 1) < remaining l pos) := by
  unfold zzRefillFill
  dsimp only
  cases hrd : zzRefillRead ((l.zzBuffer.length : Int) - l.zzEndRead).toNat l.zzReader
      l.zzBuffer l.zzEndRead 0 with
  | fail e rd buf =>
    exact ⟨rfl, rfl, rfl, hh, fun h => by simp at h, fun h => by simp at h⟩
  | panic rd buf =>
    exact ⟨rfl, rfl, rfl, hh, fun h => by simp at h, fun h => by simp at h⟩
  | done rd buf k =>
    have hp := refillRead_prog _ _ _ _ _ _ _ _ hrd (le_refl 0)
    dsimp only
    by_cases hk0 : k = 0
    · rw [if_pos hk0]
      exact ⟨rfl, rfl, rfl, hh, fun h => by simp at h, fun h => by simp at h⟩
    · rw [if_neg hk0]
      by_cases hkp : k > 0
      · rw [if_pos hkp]
        have hlen : (l.zzReader.length : Int) = k + rd.length := by
          rcases hp with ⟨h1, -⟩ | ⟨-, h2, -⟩
          · omega
          · omega
        by_cases hreq : k = (l.zzBuffer.length : Int) - l.zzEndRead
        · rw [if_pos hreq]
          split
          · exact ⟨rfl, rfl, rfl, hh, fun h => by simp at h, fun h => by simp at h⟩
          · split_ifs
            · refine ⟨rfl, rfl, rfl, Int.zero_le_ofNat 1, fun _ pos => ?_, fun _ pos => ?_⟩
              · unfold remaining
                dsimp only
                omega
              · unfold remaining
                dsimp only
                omega
            · refine ⟨rfl, rfl, rfl, hh, fun _ pos => ?_, fun _ pos => ?_⟩
              · unfold remaining
                dsimp only
                omega
              · unfold remaining
                dsimp only
                omega
        · rw [if_neg hreq]
          refine ⟨rfl, rfl, rfl, hh, fun _ pos => ?_, fun _ pos => ?_⟩
          · unfold remaining
            dsimp only
            omega
          · unfold remaining
            dsimp only
            omega
      · rw [if_neg hkp]
        have hrd0 : rd = [] ∧ l.zzReader = [] := by
          rcases hp with ⟨-, -, h3, h4⟩ | ⟨h1, -, -, -⟩
          · exact ⟨h3, h4⟩
          · omega
        refine ⟨rfl, rfl, rfl, hh, fun _ pos => ?_, fun h => by simp at h⟩
        unfold remaining
        dsimp only
        rw [hrd0.1, hrd0.2]

/-- The first part of `zzRefill` moves the match and what follows it to the front of the
buffer: the positions keep their distance from `zzStartRead`. -/
theorem makeRoom_prog (l l1 : Lexer) (h : zzRefillMakeRoom l = .ok l1)
    (hh : 0 ≤ l.zzFinalHighSurrogate) :
    l1.zzReader = l.zzReader ∧ 0 ≤ l1.zzFinalHighSurrogate ∧
      l1.zzCurrentPos - l1.zzStartRead = l.zzCurrentPos - l.zzStartRead ∧
      l1.zzMarkedPos - l1.zzStartRead = l.zzMarkedPos - l.zzStartRead ∧
      l1.zzEndRead + l1.zzFinalHighSurrogate - l1.zzStartRead
        = l.zzEndRead + l.zzFinalHighSurrogate - l.zzStartRead := by
  unfold zzRefillMakeRoom at h
  split_ifs at h with hS
  · dsimp only at h
    split at h
    · simp only [reduceCtorEq] at h
    · simp only [Except.ok.injEq] at h
      subst h
      dsimp only
      exact ⟨rfl, le_refl _, by omega, by omega, by omega⟩
  · simp only [Except.ok.injEq] at h
    subst h
    exact ⟨rfl, hh, rfl, rfl, rfl⟩

/-- The second part of `zzRefill` leaves the positions alone and brings the runes held
back below `zzEndRead`. -/
theorem grow_prog (l : Lexer) (hh : 0 ≤ l.zzFinalHighSurrogate) :
    (zzRefillGrow l).zzReader = l.zzReader ∧ 0 ≤ (zzRefillGrow l).zzFinalHighSurrogate ∧
      (zzRefillGrow l).zzCurrentPos = l.zzCurrentPos ∧
      (zzRefillGrow l).zzMarkedPos = l.zzMarkedPos ∧
      (zzRefillGrow l).zzStartRead = l.zzStartRead ∧
      (zzRefillGrow l).zzEndRead + (zzRefillGrow l).zzFinalHighSurrogate
        = l.zzEndRead + l.zzFinalHighSurrogate := by
  unfold zzRefillGrow
  split_ifs
  · exact ⟨rfl, le_refl _, rfl, rfl, rfl, by dsimp only; omega⟩
  · exact ⟨rfl, hh, rfl, rfl, rfl, rfl⟩

/-- A refill that does not fail keeps the distance of the positions from `zzStartRead`
and does not add to the input yet to match behind any of them; after new input, less is
left behind the rune that follows a position than was left behind the position. -/
theorem refill_prog (l : Lexer) (hh : 0 ≤ l.zzFinalHighSurrogate)
    (hr : l.zzRefill.1 = .more ∨ l.zzRefill.1 = .eof) :
    0 ≤ l.zzRefill.2.zzFinalHighSurrogate ∧
      l.zzRefill.2.zzCurrentPos - l.zzRefill.2.zzStartRead = l.zzCurrentPos - l.zzStartRead ∧
      l.zzRefill.2.zzMarkedPos - l.zzRefill.2.zzStartRead = l.zzMarkedPos - l.zzStartRead ∧
      (∀ o, remaining l.zzRefill.2 (l.zzRefill.2.zzStartRead + o)
        ≤ remaining l (l.zzStartRead + o)) ∧
      (l.zzRefill.1 = .more → ∀ o, remaining l.zzRefill.2 (l.zzRefill.2.zzStartRead + o + 1)
        < remaining l (l.zzStartRead + o)) := by
  unfold Lexer.zzRefill at hr ⊢
  cases h : zzRefillMakeRoom l with
  | error l1 =>
    rw [h] at hr
    simp at hr
  | ok l1 =>
    rw [h] at hr
    dsimp only at hr ⊢
    obtain ⟨a1, a2, a3, a4, a5⟩ := makeRoom_prog l l1 h hh
    obtain ⟨b1, b2, b3, b4, b5, b6⟩ := grow_prog l1 a2
    obtain ⟨c1, c2, c3, c4, c5, c6⟩ := fill_prog (zzRefillGrow l1) b2
    have key : ∀ pos, remaining (zzRefillGrow l1) (l1.zzStartRead + pos)
        = remaining l (l.zzStartRead + pos) := by
      intro pos
      unfold remaining
      rw [b1, a1]
      congr 1
      omega
    refine ⟨c4, by rw [c2, c1, b3, b5]; exact a3, by rw [c3, c1, b4, b5]; exact a4,
      fun o => ?_, fun hm o => ?_⟩
    · rw [c1, b5, ← key o]
      exact c5 hr _
    · rw [c1, b5, ← key o]
      exact c6 hm _

/-! ## The start of a pass brings the scanner forward -/

theorem remaining_fields (l l' : Lexer) (pos : Int) (h1 : l'.zzReader = l.zzReader)
    (h2 : l'.zzEndRead = l.zzEndRead) (h3 : l'.zzFinalHighSurrogate = l.zzFinalHighSurrogate) :
    remaining l' pos = remaining l pos := by
  unfold remaining
  rw [h1, h2, h3]

/-- The start states of the lexical states are states of the DFA that are not
accepting. -/
theorem start_states (st : Int) (h : st ∈ ZZ_LEXSTATE) :
    0 ≤ st ∧ st < 104 ∧ ∃ a, idx ZZ_ATTRIBUTE st = some a ∧ ¬ (a.toNat &&& 1 = 1) := by
  have hall : ∀ st ∈ ZZ_LEXSTATE, 0 ≤ st ∧ st < 104 ∧
      (attributeAt st).any (fun a => decide (¬ (a.toNat &&& 1 = 1))) = true := by decide
  obtain ⟨h0, h1, h2⟩ := hall st h
  refine ⟨h0, h1, ?_⟩
  cases ha : attributeAt st with
  | none => rw [ha] at h2; simp at h2
  | some a =>
    rw [ha] at h2
    simp only [Option.any_some, decide_eq_true_eq] at h2
    exact ⟨a, attr_at _ _ ha, h2⟩

theorem lexstate_start (L st : Int) (h : idx ZZ_LEXSTATE L = some st) :
    0 ≤ st ∧ st < 104 ∧ ∃ a, idx ZZ_ATTRIBUTE st = some a ∧ ¬ (a.toNat &&& 1 = 1) :=
  start_states st (idx_some_mem _ _ _ h)

/-- The peek behind a carriage return keeps the cached end of the buffer up to date and
does not add to the input yet to match. -/
theorem peekLF_prog (l : Lexer) (e : Int) (b : List Char) (hs : e = l.zzEndRead)
    (hh : 0 ≤ l.zzFinalHighSurrogate) (l3 : Lexer) (m' e' : Int) (b' : List Char)
    (h : zzPeekLF l l.zzMarkedPos e b = .ok l3 m' e' b') :
    m' = l3.zzMarkedPos ∧ e' = l3.zzEndRead ∧ 0 ≤ l3.zzFinalHighSurrogate ∧
      remaining l3 l3.zzMarkedPos ≤ remaining l l.zzMarkedPos := by
  unfold zzPeekLF at h
  dsimp only at h
  split_ifs at h
  · split at h
    · simp only [reduceCtorEq] at h
    · simp only [Counted.ok.injEq] at h
      obtain ⟨rfl, rfl, rfl, -⟩ := h
      split_ifs
      · exact ⟨rfl, hs, hh, le_refl _⟩
      · exact ⟨rfl, hs, hh, le_refl _⟩
  · simp only [Counted.ok.injEq] at h
    obtain ⟨rfl, rfl, rfl, -⟩ := h
    exact ⟨rfl, hs, hh, le_refl _⟩
  · cases hr : l.zzRefill with
    | mk r l1 =>
      rw [hr] at h
      have hp := refill_prog l hh
      rw [hr] at hp
      dsimp only at hp
      cases r with
      | fail err => simp only [reduceCtorEq] at h
      | panic msg0 => simp only [reduceCtorEq] at h
      | eof =>
        obtain ⟨p1, -, p3, p4, -⟩ := hp (Or.inr rfl)
        have key : remaining l1 l1.zzMarkedPos ≤ remaining l l.zzMarkedPos := by
          have := p4 (l.zzMarkedPos - l.zzStartRead)
          rw [show l1.zzStartRead + (l.zzMarkedPos - l.zzStartRead) = l1.zzMarkedPos
              from by omega,
            show l.zzStartRead + (l.zzMarkedPos - l.zzStartRead) = l.zzMarkedPos from by omega]
            at this
          exact this
        simp only [Counted.ok.injEq] at h
        obtain ⟨rfl, rfl, rfl, -⟩ := h
        exact ⟨rfl, rfl, p1, key⟩
      | more =>
        dsimp only at h
        obtain ⟨p1, -, p3, p4, -⟩ := hp (Or.inl rfl)
        have key : remaining l1 l1.zzMarkedPos ≤ remaining l l.zzMarkedPos := by
          have := p4 (l.zzMarkedPos - l.zzStartRead)
          rw [show l1.zzStartRead + (l.zzMarkedPos - l.zzStartRead) = l1.zzMarkedPos
              from by omega,
            show l.zzStartRead + (l.zzMarkedPos - l.zzStartRead) = l.zzMarkedPos from by omega]
            at this
          exact this
        split at h
        · simp only [reduceCtorEq] at h
        · simp only [Counted.ok.injEq] at h
          obtain ⟨rfl, rfl, rfl, -⟩ := h
          split_ifs
          · exact ⟨rfl, rfl, p1, key⟩
          · exact ⟨rfl, rfl, p1, key⟩

/-- Bringing the position counters up to date keeps the cached end of the buffer up to
date and does not add to the input yet to match. -/
theorem count_prog (l : Lexer) (e : Int) (b : List Char) (hs : e = l.zzEndRead)
    (hh : 0 ≤ l.zzFinalHighSurrogate) (l3 : Lexer) (m' e' : Int) (b' : List Char)
    (h : zzCount l e b = .ok l3 m' e' b') :
    m' = l3.zzMarkedPos ∧ e' = l3.zzEndRead ∧ 0 ≤ l3.zzFinalHighSurrogate ∧
      remaining l3 l3.zzMarkedPos ≤ remaining l l.zzMarkedPos := by
  unfold zzCount at h
  dsimp only at h
  split at h
  · simp only [reduceCtorEq] at h
  · rename_i yl yc zr heq
    split_ifs at h
    · exact peekLF_prog { l with
        yychar := l.yychar + (l.zzMarkedPos - l.zzStartRead)
        yyline := yl
        yycolumn := yc } e b hs hh l3 m' e' b' h
    · simp only [Counted.ok.injEq] at h
      obtain ⟨rfl, rfl, rfl, -⟩ := h
      exact ⟨rfl, hs, hh, le_refl _⟩

/-- The start of a pass puts the DFA in the start state of the lexical state, records no
accepting state, and puts the three positions of the match at its start. -/
theorem begin_acc (l : Lexer) (e : Int) (b : List Char) (l1 : Lexer) (s1 : Scan)
    (h : zzBegin l e b = .ready l1 s1) :
    Accepted l1 s1 ∧ s1.zzAction = -1 ∧ s1.zzCurrentPosL = l1.zzStartRead ∧
      s1.zzMarkedPosL = l1.zzStartRead ∧
      idx ZZ_LEXSTATE l.zzLexicalState = some l1.zzState ∧
      l1.zzLexicalState = l.zzLexicalState := by
  obtain ⟨k1, k2, -⟩ := (begin_kept l e b).1 l1 s1 h
  obtain ⟨a0, a1, a, ha, heven⟩ := lexstate_start _ _ k2
  unfold zzBegin at h
  cases hc : zzCount l e b with
  | fail err l3 => rw [hc] at h; simp only [reduceCtorEq] at h
  | panic msg0 l3 => rw [hc] at h; simp only [reduceCtorEq] at h
  | ok lc m ec bc =>
    rw [hc] at h
    dsimp only at h
    split at h
    · simp only [reduceCtorEq] at h
    · rename_i st hst
      split at h
      · simp only [reduceCtorEq] at h
      · rename_i at' hat
        simp only [Begun.ready.injEq] at h
        obtain ⟨rfl, rfl⟩ := h
        dsimp only at ha hat ⊢
        rw [ha] at hat
        simp only [Option.some.injEq] at hat
        subst hat
        rw [if_neg heven]
        exact ⟨⟨a0, a1, Or.inl rfl⟩, rfl, rfl, rfl, k2, k1⟩

/-- The start of a pass keeps the cached end of the buffer up to date and does not add
to the input yet to match. -/
theorem begin_prog (l : Lexer) (e : Int) (b : List Char) (hs : e = l.zzEndRead)
    (hh : 0 ≤ l.zzFinalHighSurrogate) (l1 : Lexer) (s1 : Scan)
    (h : zzBegin l e b = .ready l1 s1) :
    s1.zzEndReadL = l1.zzEndRead ∧ 0 ≤ l1.zzFinalHighSurrogate ∧
      remaining l1 l1.zzStartRead ≤ remaining l l.zzMarkedPos := by
  unfold zzBegin at h
  cases hc : zzCount l e b with
  | fail err l3 => rw [hc] at h; simp only [reduceCtorEq] at h
  | panic msg0 l3 => rw [hc] at h; simp only [reduceCtorEq] at h
  | ok lc m ec bc =>
    obtain ⟨c1, c2, c3, c4⟩ := count_prog l e b hs hh lc m ec bc hc
    rw [hc] at h
    dsimp only at h
    split at h
    · simp only [reduceCtorEq] at h
    · split at h
      · simp only [reduceCtorEq] at h
      · simp only [Begun.ready.injEq] at h
        obtain ⟨rfl, rfl⟩ := h
        refine ⟨c2, c3, ?_⟩
        dsimp only
        rw [c1]
        exact c4

/-! ## The DFA loop brings the scanner forward -/

/-- Fetching the next input character: the positions keep their distance from
`zzStartRead`, but for the current position behind a character that was fetched; the
input yet to match does not grow, and it is less behind a character that was fetched. -/
theorem fetch_prog (l : Lexer) (s : Scan) (hs : s.zzEndReadL = l.zzEndRead)
    (hh : 0 ≤ l.zzFinalHighSurrogate) :
    (∀ x l2 s2, zzFetch l s = .char x l2 s2 →
      s2.zzEndReadL = l2.zzEndRead ∧ 0 ≤ l2.zzFinalHighSurrogate ∧
        s2.zzCurrentPosL - l2.zzStartRead = s.zzCurrentPosL - l.zzStartRead + 1 ∧
        s2.zzMarkedPosL - l2.zzStartRead = s.zzMarkedPosL - l.zzStartRead ∧
        remaining l2 s2.zzCurrentPosL < remaining l s.zzCurrentPosL ∧
        ∀ o, remaining l2 (l2.zzStartRead + o) ≤ remaining l (l.zzStartRead + o)) ∧
    ∀ l2 s2, zzFetch l s = .eof l2 s2 →
      s2.zzEndReadL = l2.zzEndRead ∧ 0 ≤ l2.zzFinalHighSurrogate ∧
        s2.zzCurrentPosL - l2.zzStartRead = s.zzCurrentPosL - l.zzStartRead ∧
        s2.zzMarkedPosL - l2.zzStartRead = s.zzMarkedPosL - l.zzStartRead ∧
        ∀ o, remaining l2 (l2.zzStartRead + o) ≤ remaining l (l.zzStartRead + o) := by
  unfold zzFetch
  split_ifs with hlt hat
  · split
    · exact ⟨fun x l2 s2 h => by simp only [reduceCtorEq] at h,
        fun l2 s2 h => by simp only [reduceCtorEq] at h⟩
    · refine ⟨fun x l2 s2 h => ?_, fun l2 s2 h => by simp only [reduceCtorEq] at h⟩
      simp only [Fetched.char.injEq] at h
      obtain ⟨-, rfl, rfl⟩ := h
      refine ⟨hs, hh, by dsimp only; omega, rfl, ?_, fun o => le_refl _⟩
      unfold remaining
      dsimp only
      omega
  · refine ⟨fun x l2 s2 h => by simp only [reduceCtorEq] at h, fun l2 s2 h => ?_⟩
    simp only [Fetched.eof.injEq] at h
    obtain ⟨rfl, rfl⟩ := h
    exact ⟨hs, hh, rfl, rfl, fun o => le_refl _⟩
  · dsimp only
    have hp := refill_prog { l with
        zzCurrentPos := s.zzCurrentPosL
        zzMarkedPos := s.zzMarkedPosL } hh
    cases hr : ({ l with
        zzCurrentPos := s.zzCurrentPosL
        zzMarkedPos := s.zzMarkedPosL } : Lexer).zzRefill with
    | mk r l2 =>
      rw [hr] at hp
      dsimp only at hp
      cases r with
      | fail err =>
        exact ⟨fun x l2 s2 h => by simp only [reduceCtorEq] at h,
          fun l2 s2 h => by simp only [reduceCtorEq] at h⟩
      | panic msg0 =>
        exact ⟨fun x l2 s2 h => by simp only [reduceCtorEq] at h,
          fun l2 s2 h => by simp only [reduceCtorEq] at h⟩
      | eof =>
        obtain ⟨p1, p2, p3, p4, -⟩ := hp (Or.inr rfl)
        refine ⟨fun x l2 s2 h => by simp only [reduceCtorEq] at h, fun l3 s3 h => ?_⟩
        simp only [Fetched.eof.injEq] at h
        obtain ⟨rfl, rfl⟩ := h
        exact ⟨rfl, p1, p2, p3, p4⟩
      | more =>
        obtain ⟨p1, p2, p3, p4, p5⟩ := hp (Or.inl rfl)
        dsimp only
        split
        · exact ⟨fun x l2 s2 h => by simp only [reduceCtorEq] at h,
            fun l2 s2 h => by simp only [reduceCtorEq] at h⟩
        · refine ⟨fun x l3 s3 h => ?_, fun l2 s2 h => by simp only [reduceCtorEq] at h⟩
          simp only [Fetched.char.injEq] at h
          obtain ⟨-, rfl, rfl⟩ := h
          refine ⟨rfl, p1, by dsimp only; omega, p3, ?_, p4⟩
          have := p5 rfl (s.zzCurrentPosL - l.zzStartRead)
          dsimp only at this ⊢
          rw [show l2.zzStartRead + (s.zzCurrentPosL - l.zzStartRead) + 1 = l2.zzCurrentPos + 1
              from by omega,
            show l.zzStartRead + (s.zzCurrentPosL - l.zzStartRead) = s.zzCurrentPosL
              from by omega] at this
          exact this

/-- The transition on a character, from a state of the DFA: no table is indexed out of
range, the DFA stays in its states, and an accepting state is recorded together with the
current position. -/
theorem move_prog (x : Char) (l : Lexer) (s : Scan) (ha : Accepted l s) :
    (∀ msg l2, zzMove x l s ≠ .panic msg l2) ∧
    ∀ l2 s2, (zzMove x l s = .next l2 s2 ∨ zzMove x l s = .stop l2 s2) →
      Accepted l2 s2 ∧ l2.zzReader = l.zzReader ∧ l2.zzStartRead = l.zzStartRead ∧
        l2.zzEndRead = l.zzEndRead ∧ l2.zzFinalHighSurrogate = l.zzFinalHighSurrogate ∧
        l2.zzLexicalState = l.zzLexicalState ∧ s2.zzCurrentPosL = s.zzCurrentPosL ∧
        s2.zzEndReadL = s.zzEndReadL ∧
        ((s2.zzAction = s.zzAction ∧ s2.zzMarkedPosL = s.zzMarkedPosL) ∨
          (s2.zzAction ≠ -1 ∧ s2.zzMarkedPosL = s.zzCurrentPosL)) := by
  obtain ⟨n, hn, n0, n1⟩ := zzNext_total l.zzState ha.st0 ha.st1 x
  unfold zzMove
  rw [hn]
  dsimp only
  by_cases hneg : n = -1
  · rw [if_pos hneg]
    refine ⟨fun msg l2 h => by simp only [reduceCtorEq] at h, fun l2 s2 h => ?_⟩
    rcases h with h | h
    · simp only [reduceCtorEq] at h
    · simp only [Moved.stop.injEq] at h
      obtain ⟨rfl, rfl⟩ := h
      exact ⟨ha, rfl, rfl, rfl, rfl, rfl, rfl, rfl, Or.inl ⟨rfl, rfl⟩⟩
  · rw [if_neg hneg]
    have h0 : 0 ≤ n := by omega
    obtain ⟨a, b, hat, -, -⟩ := attr_action n h0 n1
    rw [hat]
    dsimp only
    by_cases hacc : (a : Int).toNat &&& 1 = 1
    · rw [if_pos hacc]
      have hA : accepting n = true := by
        unfold accepting
        rw [hat]
        exact decide_eq_true hacc
      have hres : ∀ l2 s2,
          l2 = { l with zzState := n } →
          s2 = { s with zzAction := n, zzMarkedPosL := s.zzCurrentPosL } →
          Accepted l2 s2 ∧ l2.zzReader = l.zzReader ∧ l2.zzStartRead = l.zzStartRead ∧
            l2.zzEndRead = l.zzEndRead ∧
            l2.zzFinalHighSurrogate = l.zzFinalHighSurrogate ∧
            l2.zzLexicalState = l.zzLexicalState ∧ s2.zzCurrentPosL = s.zzCurrentPosL ∧
            s2.zzEndReadL = s.zzEndReadL ∧
            ((s2.zzAction = s.zzAction ∧ s2.zzMarkedPosL = s.zzMarkedPosL) ∨
              (s2.zzAction ≠ -1 ∧ s2.zzMarkedPosL = s.zzCurrentPosL)) := by
        intro l2 s2 e1 e2
        subst e1; subst e2
        exact ⟨⟨h0, n1, Or.inr ⟨h0, n1, hA⟩⟩, rfl, rfl, rfl, rfl, rfl, rfl, rfl,
          Or.inr ⟨hneg, rfl⟩⟩
      split_ifs
      · refine ⟨fun msg l2 h => by simp only [reduceCtorEq] at h, fun l2 s2 h => ?_⟩
        rcases h with h | h
        · simp only [reduceCtorEq] at h
        · simp only [Moved.stop.injEq] at h
          exact hres l2 s2 h.1.symm h.2.symm
      · refine ⟨fun msg l2 h => by simp only [reduceCtorEq] at h, fun l2 s2 h => ?_⟩
        rcases h with h | h
        · simp only [Moved.next.injEq] at h
          exact hres l2 s2 h.1.symm h.2.symm
        · simp only [reduceCtorEq] at h
    · rw [if_neg hacc]
      refine ⟨fun msg l2 h => by simp only [reduceCtorEq] at h, fun l2 s2 h => ?_⟩
      rcases h with h | h
      · simp only [Moved.next.injEq] at h
        obtain ⟨rfl, rfl⟩ := h
        exact ⟨⟨h0, n1, ha.acc⟩, rfl, rfl, rfl, rfl, rfl, rfl, rfl, Or.inl ⟨rfl, rfl⟩⟩
      · simp only [reduceCtorEq] at h

/-- The DFA loop stays in the states of the DFA and records accepting states only; a
state once recorded is never forgotten, and the lexical state stays. -/
theorem loop_acc (fuel : Nat) : ∀ (l : Lexer) (s : Scan), Accepted l s →
    ∀ inp l' s', zzLoop fuel l s = .forAction inp l' s' →
      Accepted l' s' ∧ l'.zzLexicalState = l.zzLexicalState ∧
        (s.zzAction ≠ -1 → s'.zzAction ≠ -1) := by
  induction fuel with
  | zero =>
    intro l s _ inp l' s' h
    simp only [zzLoop, reduceCtorEq] at h
  | succ fuel ih =>
    intro l s ha inp l' s' h
    have hk := (fetch_kept l s).1
    simp only [zzLoop] at h
    cases hf : zzFetch l s with
    | fail err l1 => rw [hf] at h; simp only [reduceCtorEq] at h
    | panic msg l1 => rw [hf] at h; simp only [reduceCtorEq] at h
    | eof l1 s1 =>
      rw [hf] at h
      simp only [LoopExit.forAction.injEq] at h
      obtain ⟨-, rfl, rfl⟩ := h
      obtain ⟨k1, k2, k3⟩ := hk l1 s1 (Or.inr hf)
      exact ⟨⟨by rw [k1]; exact ha.st0, by rw [k1]; exact ha.st1, by rw [k3]; exact ha.acc⟩,
        k2, fun hne => by rw [k3]; exact hne⟩
    | char x l1 s1 =>
      rw [hf] at h
      dsimp only at h
      obtain ⟨k1, k2, k3⟩ := hk l1 s1 (Or.inl ⟨x, hf⟩)
      have ha1 : Accepted l1 s1 :=
        ⟨by rw [k1]; exact ha.st0, by rw [k1]; exact ha.st1, by rw [k3]; exact ha.acc⟩
      obtain ⟨m1, m2⟩ := move_prog x l1 s1 ha1
      cases hm : zzMove x l1 s1 with
      | panic msg l2 => exact absurd hm (m1 msg l2)
      | stop l2 s2 =>
        rw [hm] at h
        simp only [LoopExit.forAction.injEq] at h
        obtain ⟨-, rfl, rfl⟩ := h
        obtain ⟨a2, -, -, -, -, b5, -, -, b8⟩ := m2 l2 s2 (Or.inr hm)
        refine ⟨a2, by rw [b5, k2], fun hne => ?_⟩
        rcases b8 with ⟨e1, -⟩ | ⟨e1, -⟩
        · rw [e1, k3]; exact hne
        · exact e1
      | next l2 s2 =>
        rw [hm] at h
        dsimp only at h
        obtain ⟨a2, -, -, -, -, b5, -, -, b8⟩ := m2 l2 s2 (Or.inl hm)
        obtain ⟨c1, c2, c3⟩ := ih l2 s2 a2 inp l' s' h
        refine ⟨c1, by rw [c2, b5, k2], fun hne => c3 ?_⟩
        rcases b8 with ⟨e1, -⟩ | ⟨e1, -⟩
        · rw [e1, k3]; exact hne
        · exact e1

/-- The DFA loop ends within as many iterations as there is input yet to match behind
the current position, and one more; it keeps the invariant `Running`. -/
theorem loop_prog (fuel : Nat) : ∀ (l : Lexer) (s : Scan) (B : Nat), Accepted l s →
    Running l s B →
      (remaining l s.zzCurrentPosL < fuel → ∀ l', zzLoop fuel l s ≠ .timeout l') ∧
      ∀ inp l' s', zzLoop fuel l s = .forAction inp l' s' → Running l' s' B := by
  induction fuel with
  | zero =>
    intro l s B _ _
    exact ⟨fun h => absurd h (Nat.not_lt_zero _),
      fun inp l' s' h => by simp only [zzLoop, reduceCtorEq] at h⟩
  | succ fuel ih =>
    intro l s B ha hr
    have hk := (fetch_kept l s).1
    obtain ⟨fc, fe⟩ := fetch_prog l s hr.sync hr.held
    simp only [zzLoop]
    cases hf : zzFetch l s with
    | fail err l1 =>
      exact ⟨fun _ l' h => by simp only [reduceCtorEq] at h,
        fun inp l' s' h => by simp only [reduceCtorEq] at h⟩
    | panic msg l1 =>
      exact ⟨fun _ l' h => by simp only [reduceCtorEq] at h,
        fun inp l' s' h => by simp only [reduceCtorEq] at h⟩
    | eof l1 s1 =>
      refine ⟨fun _ l' h => by simp only [reduceCtorEq] at h, fun inp l' s' h => ?_⟩
      simp only [LoopExit.forAction.injEq] at h
      obtain ⟨-, rfl, rfl⟩ := h
      obtain ⟨-, -, k3⟩ := hk l1 s1 (Or.inr hf)
      obtain ⟨f1, f2, f3, f4, f5⟩ := fe l1 s1 hf
      have hmc := hr.mc
      refine ⟨f1, f2, ?_, ?_, by omega⟩
      · rcases hr.mark with ⟨e1, e2⟩ | ⟨e1, e2⟩
        · exact Or.inl ⟨by rw [k3]; exact e1, by omega⟩
        · exact Or.inr ⟨by rw [k3]; exact e1, by omega⟩
      · rcases hr.prog with ⟨e1, e2⟩ | ⟨e1, e2⟩
        · refine Or.inl ⟨by omega, ?_⟩
          have := f5 0
          simp only [add_zero] at this
          omega
        · refine Or.inr ⟨by omega, ?_⟩
          have := f5 1
          omega
    | char x l1 s1 =>
      dsimp only
      obtain ⟨k1, k2, k3⟩ := hk l1 s1 (Or.inl ⟨x, hf⟩)
      obtain ⟨f1, f2, f3, f4, f5, f6⟩ := fc x l1 s1 hf
      have ha1 : Accepted l1 s1 :=
        ⟨by rw [k1]; exact ha.st0, by rw [k1]; exact ha.st1, by rw [k3]; exact ha.acc⟩
      have hcur : l1.zzStartRead < s1.zzCurrentPosL := by
        rcases hr.prog with ⟨e1, -⟩ | ⟨e1, -⟩ <;> omega
      have hrem : remaining l1 (l1.zzStartRead + 1) < B := by
        rcases hr.prog with ⟨e1, e2⟩ | ⟨e1, e2⟩
        · have e3 : s1.zzCurrentPosL = l1.zzStartRead + 1 := by omega
          rw [← e3]
          rw [e1] at f5
          omega
        · have := f6 1
          omega
      obtain ⟨m1, m2⟩ := move_prog x l1 s1 ha1
      have hrun : ∀ l2 s2, (zzMove x l1 s1 = .next l2 s2 ∨ zzMove x l1 s1 = .stop l2 s2) →
          Accepted l2 s2 ∧ Running l2 s2 B ∧
            remaining l2 s2.zzCurrentPosL = remaining l1 s1.zzCurrentPosL := by
        intro l2 s2 hm
        obtain ⟨a2, b1, b2, b3, b4, -, b6, b7, b8⟩ := m2 l2 s2 hm
        have hmc := hr.mc
        refine ⟨a2, ⟨by rw [b7, b3]; exact f1, by rw [b4]; exact f2, ?_, ?_, ?_⟩, ?_⟩
        · rcases b8 with ⟨e1, e2⟩ | ⟨e1, e2⟩
          · rw [e1, e2, b2]
            rcases hr.mark with ⟨g1, g2⟩ | ⟨g1, g2⟩
            · exact Or.inl ⟨by rw [k3]; exact g1, by omega⟩
            · exact Or.inr ⟨by rw [k3]; exact g1, by omega⟩
          · exact Or.inr ⟨e1, by rw [e2, b2]; exact hcur⟩
        · refine Or.inr ⟨by rw [b6, b2]; exact hcur, ?_⟩
          rw [b2, remaining_fields l1 l2 _ b1 b3 b4]
          exact hrem
        · rcases b8 with ⟨-, e2⟩ | ⟨-, e2⟩
          · rw [e2, b6]
            omega
          · rw [e2, b6]
        · rw [b6, remaining_fields l1 l2 _ b1 b3 b4]
      cases hm : zzMove x l1 s1 with
      | panic msg l2 => exact absurd hm (m1 msg l2)
      | stop l2 s2 =>
        refine ⟨fun _ l' h => by simp only [reduceCtorEq] at h, fun inp l' s' h => ?_⟩
        simp only [LoopExit.forAction.injEq] at h
        obtain ⟨-, rfl, rfl⟩ := h
        exact (hrun l2 s2 (Or.inr hm)).2.1
      | next l2 s2 =>
        dsimp only
        obtain ⟨a2, r2, e2⟩ := hrun l2 s2 (Or.inl hm)
        obtain ⟨i1, i2⟩ := ih l2 s2 B a2 r2
        exact ⟨fun hfuel => i1 (by omega), i2⟩

/-! ## A pass brings the scanner forward -/

theorem sameInput_refl (l : Lexer) : l.sameInput l := ⟨rfl, rfl, rfl, rfl, rfl⟩

/-- The action switch leaves the input alone. -/
theorem actionSwitch_input (action : Int) (text : List Char) (l : Lexer) (s : Scan)
    (hL : l.returnsAtEof) : (zzActionSwitch action text l s).Frame l s.zzEndReadL := by
  unfold zzActionSwitch
  dsimp only
  split_ifs
  · exact True.intro
  · generalize action.toNat = n
    split
    all_goals first
      | exact sameInput_refl l
      | exact ⟨rfl, sameInput_refl l, Or.inl (by decide)⟩
      | exact ⟨rfl, ⟨rfl, rfl, rfl, rfl, rfl⟩, Or.inl (by decide)⟩
      | exact ⟨rfl, ⟨rfl, rfl, rfl, rfl, rfl⟩⟩
      | exact ⟨rfl, sameInput_refl l, hL⟩
      | exact ⟨rfl, ⟨rfl, rfl, rfl, rfl, rfl⟩, hL⟩
      | exact True.intro
      | exact ⟨rfl, ⟨rfl, rfl, rfl, rfl, rfl⟩,
          Or.inl (by show (_ : Int) < 105; simp [Lexer.yybegin, xq, xdq, xc, xbin, xhex, xq2,
            xq2_2])⟩
      | (split_ifs
         · exact ⟨rfl, sameInput_refl l, hL⟩
         · exact True.intro)

/-- At the end of input, in a lexical state other than the values of the empty cases, the
switch returns. -/
theorem eofSwitch_ret (l : Lexer) (s : Scan) (hL : l.returnsAtEof) :
    ∃ l2, zzEofSwitch l s = .ret .eof l2 ∨ ∃ m, zzEofSwitch l s = .ret (.panic m) l2 := by
  have n5 : ¬ l.zzLexicalState = 105 := by rcases hL with h | h <;> omega
  have n6 : ¬ l.zzLexicalState = 106 := by rcases hL with h | h <;> omega
  have n7 : ¬ l.zzLexicalState = 107 := by rcases hL with h | h <;> omega
  have n8 : ¬ l.zzLexicalState = 108 := by rcases hL with h | h <;> omega
  have n9 : ¬ l.zzLexicalState = 109 := by rcases hL with h | h <;> omega
  have n10 : ¬ l.zzLexicalState = 110 := by rcases hL with h | h <;> omega
  have n11 : ¬ l.zzLexicalState = 111 := by rcases hL with h | h <;> omega
  unfold zzEofSwitch
  dsimp only
  rw [if_neg n5, if_neg n6, if_neg n7, if_neg n8, if_neg n9, if_neg n10, if_neg n11]
  repeat' (first
    | apply ite_holds (fun p : Pass => ∃ l2, p = .ret .eof l2 ∨ ∃ m, p = .ret (.panic m) l2)
    | exact ⟨_, Or.inl rfl⟩
    | exact ⟨_, Or.inr ⟨_, rfl⟩⟩)

/-- The code behind the DFA loop: a pass that goes on has matched at least one rune, and
less input is left behind its match than the pass started with; a token is at least one
rune long; the pass does not end for lack of fuel. -/
theorem forAction_prog (inp : Option Char) (l : Lexer) (s : Scan) (B : Nat)
    (hr : Running l s B) (hL : l.returnsAtEof) :
    (∀ l2, zzForAction inp l s ≠ .ret .timeout l2) ∧
    (∀ l2 e2 b2, zzForAction inp l s = .again l2 e2 b2 →
      e2 = l2.zzEndRead ∧ 0 ≤ l2.zzFinalHighSurrogate ∧ l2.returnsAtEof ∧
        l2.zzStartRead < l2.zzMarkedPos ∧ remaining l2 l2.zzMarkedPos < B) ∧
    ∀ v l2, zzForAction inp l s = .ret (.token v) l2 → l2.zzStartRead < l2.zzMarkedPos := by
  unfold zzForAction
  dsimp only
  split_ifs with hc
  · obtain ⟨l2, h | ⟨m, h⟩⟩ := eofSwitch_ret { l with
        zzMarkedPos := s.zzMarkedPosL, zzAtEOF := true } s hL
    · rw [h]
      exact ⟨fun l2 h => by simp at h, fun l2 e2 b2 h => by simp at h,
        fun v l2 h => by simp at h⟩
    · rw [h]
      exact ⟨fun l2 h => by simp at h, fun l2 e2 b2 h => by simp at h,
        fun v l2 h => by simp at h⟩
  · unfold zzDispatch
    dsimp only
    by_cases hneg : s.zzAction < 0
    · rw [if_pos hneg]
      dsimp only
      split
      · exact ⟨fun l2 h => by simp at h, fun l2 e2 b2 h => by simp at h,
          fun v l2 h => by simp at h⟩
      · unfold zzActionSwitch
        dsimp only
        rw [if_pos hneg]
        exact ⟨fun l2 h => by simp at h, fun l2 e2 b2 h => by simp at h,
          fun v l2 h => by simp at h⟩
    · rw [if_neg hneg]
      have hmark : l.zzStartRead < s.zzMarkedPosL := by
        rcases hr.mark with ⟨e1, -⟩ | ⟨-, e2⟩
        · omega
        · exact e2
      have hrem : remaining l s.zzMarkedPosL < B := by
        have hmc := hr.mc
        rcases hr.prog with ⟨e1, -⟩ | ⟨-, e2⟩
        · omega
        · have : remaining l s.zzMarkedPosL ≤ remaining l (l.zzStartRead + 1) := by
            unfold remaining
            omega
          omega
      split
      · exact ⟨fun l2 h => by simp at h, fun l2 e2 b2 h => by simp at h,
          fun v l2 h => by simp at h⟩
      · rename_i action hact
        split
        · exact ⟨fun l2 h => by simp at h, fun l2 e2 b2 h => by simp at h,
            fun v l2 h => by simp at h⟩
        · rename_i text htext
          have hf := actionSwitch_input action text { l with zzMarkedPos := s.zzMarkedPosL } s hL
          refine ⟨fun l2 h => ?_, fun l2 e2 b2 h => ?_, fun v l2 h => ?_⟩
          · rw [h] at hf
            exact hf
          · rw [h] at hf
            obtain ⟨f1, ⟨g1, g2, g3, g4, g5⟩, f3⟩ := hf
            dsimp only at g1 g2 g3 g4 g5
            refine ⟨by rw [f1, g4]; exact hr.sync, by rw [g5]; exact hr.held, f3,
              by rw [g2, g3]; exact hmark, ?_⟩
            rw [g3, remaining_fields l l2 _ g1 g4 g5]
            exact hrem
          · rw [h] at hf
            obtain ⟨g1, g2, g3, g4, g5⟩ := hf
            dsimp only at g2 g3
            rw [g2, g3]
            exact hmark

/-- A pass of the outer loop ends within the fuel that the input yet to match asks for;
when it goes on, it has matched at least one rune and less input is left; a token is at
least one rune long. -/
theorem pass_prog (fuel : Nat) (l : Lexer) (e : Int) (b : List Char) (hs : e = l.zzEndRead)
    (hh : 0 ≤ l.zzFinalHighSurrogate) (hL : l.returnsAtEof) :
    (remaining l l.zzMarkedPos < fuel → ∀ l2, yyPass fuel l e b ≠ .ret .timeout l2) ∧
    (∀ l2 e2 b2, yyPass fuel l e b = .again l2 e2 b2 →
      e2 = l2.zzEndRead ∧ 0 ≤ l2.zzFinalHighSurrogate ∧ l2.returnsAtEof ∧
        l2.zzStartRead < l2.zzMarkedPos ∧
        remaining l2 l2.zzMarkedPos < remaining l l.zzMarkedPos) ∧
    ∀ v l2, yyPass fuel l e b = .ret (.token v) l2 → l2.zzStartRead < l2.zzMarkedPos := by
  unfold yyPass
  cases hb : zzBegin l e b with
  | fail err l1 =>
    exact ⟨fun _ l2 h => by simp at h, fun l2 e2 b2 h => by simp at h,
      fun v l2 h => by simp at h⟩
  | panic msg l1 =>
    exact ⟨fun _ l2 h => by simp at h, fun l2 e2 b2 h => by simp at h,
      fun v l2 h => by simp at h⟩
  | ready l1 s1 =>
    obtain ⟨ha, a1, a2, a3, -, a5⟩ := begin_acc l e b l1 s1 hb
    obtain ⟨p1, p2, p3⟩ := begin_prog l e b hs hh l1 s1 hb
    have hr : Running l1 s1 (remaining l l.zzMarkedPos) :=
      ⟨p1, p2, Or.inl ⟨a1, a3⟩, Or.inl ⟨a2, p3⟩, by rw [a2, a3]⟩
    obtain ⟨q1, q2⟩ := loop_prog fuel l1 s1 _ ha hr
    dsimp only
    unfold zzRun
    cases hl : zzLoop fuel l1 s1 with
    | fail err l2 =>
      exact ⟨fun _ l2 h => by simp at h, fun l2 e2 b2 h => by simp at h,
        fun v l2 h => by simp at h⟩
    | panic msg l2 =>
      exact ⟨fun _ l2 h => by simp at h, fun l2 e2 b2 h => by simp at h,
        fun v l2 h => by simp at h⟩
    | timeout l2 =>
      refine ⟨fun hf l3 _ => q1 (by rw [a2]; omega) l2 hl, fun l2 e2 b2 h => by simp at h,
        fun v l2 h => by simp at h⟩
    | forAction inp l2 s2 =>
      dsimp only
      obtain ⟨-, c2, -⟩ := loop_acc fuel l1 s1 ha inp l2 s2 hl
      have hL2 : l2.returnsAtEof := by
        unfold Lexer.returnsAtEof
        rw [c2, a5]
        exact hL
      obtain ⟨f1, f2, f3⟩ := forAction_prog inp l2 s2 _ (q2 inp l2 s2 hl) hL2
      exact ⟨fun _ => f1, f2, f3⟩

/-- The outer loop of a call ends within as many passes as there is input yet to match,
and one more. -/
theorem yyLoop_prog (fuel : Nat) (passes : Nat) : ∀ (l : Lexer) (e : Int) (b : List Char),
    e = l.zzEndRead → 0 ≤ l.zzFinalHighSurrogate → l.returnsAtEof →
      remaining l l.zzMarkedPos < passes → remaining l l.zzMarkedPos < fuel →
      (yyLoop passes fuel l e b).1 ≠ .timeout := by
  induction passes with
  | zero =>
    intro l e b _ _ _ h _
    exact absurd h (Nat.not_lt_zero _)
  | succ passes ih =>
    intro l e b hs hh hL hp hf
    obtain ⟨p1, p2, -⟩ := pass_prog fuel l e b hs hh hL
    simp only [yyLoop]
    cases hy : yyPass fuel l e b with
    | ret r l1 =>
      dsimp only
      intro hr
      exact p1 hf l1 (by rw [hy, hr])
    | again l1 e1 b1 =>
      dsimp only
      obtain ⟨c1, c2, c3, -, c5⟩ := p2 l1 e1 b1 hy
      exact ih l1 e1 b1 c1 c2 c3 (by omega) (by omega)

/-! ## The default branch of the action switch -/

/-- The actions 1 to 43 have a case of their own in the action switch: none of them ends
in a panic. -/
theorem actionSwitch_known (action : Int) (text : List Char) (l : Lexer) (s : Scan)
    (h1 : 1 ≤ action) (h2 : action ≤ 43) (m : String) (l4 : Lexer) :
    zzActionSwitch action text l s ≠ .ret (.panic m) l4 := by
  obtain ⟨n, rfl⟩ : ∃ n : Nat, action = (n : Int) := ⟨action.toNat, by omega⟩
  have hn1 : 1 ≤ n := by omega
  have hn2 : n ≤ 43 := by omega
  unfold zzActionSwitch
  dsimp only
  rw [if_neg (by omega), Int.toNat_ofNat]
  interval_cases n <;> simp

/-- At the end of the DFA loop of a pass the state recorded in `zzAction` is `-1` or an
accepting state of the DFA, whose action is one of the actions 1 to 43. -/
theorem loop_action (l : Lexer) (e : Int) (b : List Char) (fuel : Nat) (l1 : Lexer)
    (s1 : Scan) (inp : Option Char) (l2 : Lexer) (s2 : Scan)
    (hb : zzBegin l e b = .ready l1 s1) (hl : zzLoop fuel l1 s1 = .forAction inp l2 s2) :
    s2.zzAction = -1 ∨
      (0 ≤ s2.zzAction ∧ s2.zzAction < 104 ∧ accepting s2.zzAction = true ∧
        ∃ a, idx ZZ_ACTION s2.zzAction = some a ∧ 1 ≤ a ∧ a ≤ 43) := by
  obtain ⟨ha, -⟩ := begin_acc l e b l1 s1 hb
  obtain ⟨ha2, -, -⟩ := loop_acc fuel l1 s1 ha inp l2 s2 hl
  rcases ha2.acc with h | ⟨h0, h1, h2⟩
  · exact Or.inl h
  · refine Or.inr ⟨h0, h1, h2, ?_⟩
    obtain ⟨a, b, hat, hac, hiff⟩ := attr_action s2.zzAction h0 h1
    unfold accepting at h2
    rw [hat] at h2
    simp only [Int.toNat_ofNat, decide_eq_true_eq] at h2
    obtain ⟨b1, b2⟩ := hiff.mp h2
    exact ⟨b, hac, by omega, by omega⟩

/-! ## The sizes and the entries of the tables -/

/-- The class map is the list of the values that `zzUnpackCMap` writes: they fill the
array of `0x110000` entries. -/
theorem cmap_unpacked : ZZ_CMAP = unpackRuns (ZZ_CMAP_PACKED.take 208) ∧
    (unpackRuns (ZZ_CMAP_PACKED.take 208)).length = 0x110000 := by
  have hlen : (unpackRuns (ZZ_CMAP_PACKED.take 208)).length = 0x110000 := by
    rw [unpackRuns_length, cmap_runs_sum]
  refine ⟨?_, hlen⟩
  unfold ZZ_CMAP zzUnpackCMap writeAt
  rw [List.take_zero, List.nil_append, Nat.zero_add, hlen,
    List.drop_eq_nil_of_le (by rw [List.length_replicate]), List.append_nil]

/-- Every entry of the class map is a class below 32. -/
theorem cmap_entries (v : Nat) (h : v ∈ ZZ_CMAP) : v < 32 := by
  rw [cmap_unpacked.1] at h
  obtain ⟨n, hn⟩ := List.getElem?_of_mem h
  obtain ⟨t, ht, -, -, h3⟩ := unpackRuns_get _ 0 n v hn
  have hall : ∀ t ∈ rleRuns (ZZ_CMAP_PACKED.take 208) 0, t.2.2 < 32 := by decide
  rw [← h3]
  exact hall t ht

/-- Every row offset of `ZZ_ROWMAP` leaves room for a row of 32 entries in `ZZ_TRANS`. -/
theorem rowmap_entries (r : Int) (h : r ∈ ZZ_ROWMAP) : 0 ≤ r ∧ r + 31 < 2208 := by
  rw [tables_unpacked.2.1, List.mem_map] at h
  obtain ⟨v, hv, rfl⟩ := h
  have := List.all_eq_true.mp tables_checked.2.1 v hv
  simp only [Bool.and_eq_true, decide_eq_true_eq] at this
  omega

/-- Every entry of `ZZ_TRANS` is a state of the DFA or `-1`. -/
theorem trans_entries (t : Int) (h : t ∈ ZZ_TRANS) : -1 ≤ t ∧ t ≤ 103 := by
  rw [tables_unpacked.1, List.mem_map] at h
  obtain ⟨v, hv, rfl⟩ := h
  obtain ⟨r, hr, hvr⟩ := List.mem_flatten.mp hv
  have := List.all_eq_true.mp tables_checked.1 r hr
  simp only [Bool.and_eq_true, decide_eq_true_eq] at this
  have := List.all_eq_true.mp this.2 v hvr
  simp only [decide_eq_true_eq] at this
  omega

/-- The sizes of the unpacked tables, and the numbers of entries that the unpacking
functions report as written. -/
theorem table_sizes :
    (zzUnpackAction ZZ_ACTION_PACKED_0 0 (List.replicate 104 0)).1 = 104 ∧
    (zzUnpackAttribute ZZ_ATTRIBUTE_PACKED_0 0 (List.replicate 104 0)).1 = 104 ∧
    (zzUnpackRowMap ZZ_ROWMAP_PACKED_0 0 (List.replicate 104 0)).1 = 104 ∧
    (zzUnpackTrans ZZ_TRANS_PACKED_0 0 (List.replicate 2208 0)).1 = 2208 ∧
    ZZ_ACTION.length = 104 ∧ ZZ_ATTRIBUTE.length = 104 ∧ ZZ_ROWMAP.length = 104 ∧
    ZZ_TRANS.length = 2208 := by
  obtain ⟨h1, h2, h3, h4⟩ := tables_unpacked
  obtain ⟨-, -, -, m1, m2, m3, -⟩ := tables_checked
  refine ⟨by decide!, by decide!, by decide!, by decide!, ?_, ?_, ?_, ?_⟩
  · rw [h4, List.length_map, m3]
  · rw [h3, List.length_map, m2]
  · rw [h2, List.length_map, m1]
  · rw [h1, List.length_map]
    decide!

/-- The transition on a character, from a state of the DFA, meets no index panic. -/
theorem move_total (x : Char) (l : Lexer) (s : Scan) (h0 : 0 ≤ l.zzState)
    (h1 : l.zzState < 104) (msg : String) (l2 : Lexer) : zzMove x l s ≠ .panic msg l2 := by
  obtain ⟨n, hn, n0, n1⟩ := zzNext_total l.zzState h0 h1 x
  unfold zzMove
  rw [hn]
  dsimp only
  by_cases hneg : n = -1
  · rw [if_pos hneg]
    simp
  · rw [if_neg hneg]
    obtain ⟨a, b, hat, -, -⟩ := attr_action n (by omega) n1
    rw [hat]
    dsimp only
    split_ifs <;> simp

/-! ## Where the scan error of the default action comes from -/

theorem noMatch_ioPanic : zzScanError ZZ_NO_MATCH ∉ ioPanics := by decide

theorem index_ioPanic : indexPanic ∈ ioPanics := by simp [ioPanics]

theorem fill_ioPanic (l : Lexer) (m : String) (h : (zzRefillFill l).1 = .panic m) :
    m ∈ ioPanics := by
  unfold zzRefillFill at h
  dsimp only at h
  split at h
  · simp only [reduceCtorEq] at h
  · simp only [Refill.panic.injEq] at h
    rw [← h]
    exact index_ioPanic
  · split_ifs at h
    · simp only [Refill.panic.injEq] at h
      rw [← h]
      simp [ioPanics]
    · split at h
      · simp only [Refill.panic.injEq] at h
        rw [← h]
        exact index_ioPanic
      · split_ifs at h

theorem refill_ioPanic (l : Lexer) (m : String) (h : l.zzRefill.1 = .panic m) : m ∈ ioPanics := by
  unfold Lexer.zzRefill at h
  cases hm : zzRefillMakeRoom l with
  | error l1 =>
    rw [hm] at h
    simp only [Refill.panic.injEq] at h
    rw [← h]
    simp [ioPanics]
  | ok l1 =>
    rw [hm] at h
    exact fill_ioPanic _ m h

theorem peekLF_ioPanic (l : Lexer) (m e : Int) (b : List Char) (msg : String) (l1 : Lexer)
    (h : zzPeekLF l m e b = .panic msg l1) : msg ∈ ioPanics := by
  unfold zzPeekLF at h
  dsimp only at h
  split_ifs at h
  · split at h
    · simp only [Counted.panic.injEq] at h
      rw [← h.1]
      exact index_ioPanic
    · simp only [reduceCtorEq] at h
  · have h3 := refill_ioPanic l
    cases hr : l.zzRefill with
    | mk r l2 =>
      rw [hr] at h h3
      dsimp only at h h3
      cases r with
      | fail err => simp only [reduceCtorEq] at h
      | panic msg0 =>
        simp only [Counted.panic.injEq] at h
        rw [← h.1]
        exact h3 _ rfl
      | eof => simp only [reduceCtorEq] at h
      | more =>
        dsimp only at h
        split at h
        · simp only [Counted.panic.injEq] at h
          rw [← h.1]
          exact index_ioPanic
        · simp only [reduceCtorEq] at h

theorem count_ioPanic (l : Lexer) (e : Int) (b : List Char) (msg : String) (l1 : Lexer)
    (h : zzCount l e b = .panic msg l1) : msg ∈ ioPanics := by
  unfold zzCount at h
  dsimp only at h
  split at h
  · simp only [Counted.panic.injEq] at h
    rw [← h.1]
    exact index_ioPanic
  · split_ifs at h
    exact peekLF_ioPanic _ _ _ _ _ _ h

theorem begin_ioPanic (l : Lexer) (e : Int) (b : List Char) (msg : String) (l1 : Lexer)
    (h : zzBegin l e b = .panic msg l1) : msg ∈ ioPanics := by
  unfold zzBegin at h
  cases hc : zzCount l e b with
  | fail err l3 =>
    rw [hc] at h
    simp only [reduceCtorEq] at h
  | panic msg0 l3 =>
    rw [hc] at h
    simp only [Begun.panic.injEq] at h
    rw [← h.1]
    exact count_ioPanic _ _ _ _ _ hc
  | ok lc m ec bc =>
    rw [hc] at h
    dsimp only at h
    split at h
    · simp only [Begun.panic.injEq] at h
      rw [← h.1]
      exact index_ioPanic
    · split at h
      · simp only [Begun.panic.injEq] at h
        rw [← h.1]
        exact index_ioPanic
      · simp only [reduceCtorEq] at h

theorem fetch_ioPanic (l : Lexer) (s : Scan) (msg : String) (l1 : Lexer)
    (h : zzFetch l s = .panic msg l1) : msg ∈ ioPanics := by
  unfold zzFetch at h
  split_ifs at h
  · split at h
    · simp only [Fetched.panic.injEq] at h
      rw [← h.1]
      exact index_ioPanic
    · simp only [reduceCtorEq] at h
  · dsimp only at h
    have h3 := refill_ioPanic { l with
        zzCurrentPos := s.zzCurrentPosL
        zzMarkedPos := s.zzMarkedPosL }
    cases hr : ({ l with
        zzCurrentPos := s.zzCurrentPosL
        zzMarkedPos := s.zzMarkedPosL } : Lexer).zzRefill with
    | mk r l2 =>
      rw [hr] at h h3
      dsimp only at h h3
      cases r with
      | fail err => simp only [reduceCtorEq] at h
      | panic msg0 =>
        simp only [Fetched.panic.injEq] at h
        rw [← h.1]
        exact h3 _ rfl
      | eof => simp only [reduceCtorEq] at h
      | more =>
        dsimp only at h
        split at h
        · simp only [Fetched.panic.injEq] at h
          rw [← h.1]
          exact index_ioPanic
        · simp only [reduceCtorEq] at h

theorem move_ioPanic (x : Char) (l : Lexer) (s : Scan) (msg : String) (l1 : Lexer)
    (h : zzMove x l s = .panic msg l1) : msg ∈ ioPanics := by
  unfold zzMove at h
  split at h
  · simp only [Moved.panic.injEq] at h
    rw [← h.1]
    exact index_ioPanic
  · split_ifs at h
    dsimp only at h
    split at h
    · simp only [Moved.panic.injEq] at h
      rw [← h.1]
      exact index_ioPanic
    · split_ifs at h

theorem loop_ioPanic (fuel : Nat) : ∀ (l : Lexer) (s : Scan) (msg : String) (l1 : Lexer),
    zzLoop fuel l s = .panic msg l1 → msg ∈ ioPanics := by
  induction fuel with
  | zero =>
    intro l s msg l1 h
    simp only [zzLoop, reduceCtorEq] at h
  | succ n ih =>
    intro l s msg l1 h
    simp only [zzLoop] at h
    cases hf : zzFetch l s with
    | eof l2 s2 =>
      rw [hf] at h
      simp only [reduceCtorEq] at h
    | fail err l2 =>
      rw [hf] at h
      simp only [reduceCtorEq] at h
    | panic m0 l2 =>
      rw [hf] at h
      simp only [LoopExit.panic.injEq] at h
      rw [← h.1]
      exact fetch_ioPanic _ _ _ _ hf
    | char x l2 s2 =>
      rw [hf] at h
      dsimp only at h
      cases hm : zzMove x l2 s2 with
      | next l3 s3 =>
        rw [hm] at h
        exact ih _ _ _ _ h
      | stop l3 s3 =>
        rw [hm] at h
        simp only [reduceCtorEq] at h
      | panic m0 l3 =>
        rw [hm] at h
        simp only [LoopExit.panic.injEq] at h
        rw [← h.1]
        exact move_ioPanic _ _ _ _ _ hm

/-! ## The first transition of a pass -/

theorem yyerror_noMatch (l : Lexer) (msg : String) :
    l.yyerror msg ≠ zzScanError ZZ_NO_MATCH := by
  intro h
  have h1 := yyerror_head l msg
  rw [h] at h1
  exact runtimePanics_head _ noMatch_mem h1

/-- The switch at the end of the input does not end in the scan error of the default
action. -/
theorem eofSwitch_noMatch (l : Lexer) (s : Scan) (l4 : Lexer) :
    zzEofSwitch l s ≠ .ret (.panic (zzScanError ZZ_NO_MATCH)) l4 := by
  have hne : ∀ (l1 : Lexer) (msg : String), l1.yyerror msg ≠ zzScanError ZZ_NO_MATCH :=
    yyerror_noMatch
  generalize zzScanError ZZ_NO_MATCH = nm at hne
  unfold zzEofSwitch
  dsimp only
  repeat' (first
    | apply ite_holds (fun p : Pass => p ≠ .ret (.panic nm) l4)
    | (intro h
       injection h with h1 h2
       injection h1 with h3
       exact hne _ _ h3)
    | (intro h
       injection h with h1 h2
       cases h1)
    | (intro h
       cases h))

/-- Class 24 of the class map holds the runes U+000B, U+2028 and U+2029 and no other. -/
theorem class_24 (r : Char) : ∃ k, cmap r = some k ∧ k < 32 ∧ (k = 24 ↔ noRule r) := by
  have hall : ∀ t ∈ rleRuns (ZZ_CMAP_PACKED.take 208) 0,
      t.2.2 < 32 ∧
      (t.2.2 = 24 → t.2.1 = 1 ∧ (t.1 = 0x0B ∨ t.1 = 0x2028 ∨ t.1 = 0x2029)) ∧
      (0x0B < t.1 ∨ t.1 + t.2.1 ≤ 0x0B ∨ t.2.2 = 24) ∧
      (0x2028 < t.1 ∨ t.1 + t.2.1 ≤ 0x2028 ∨ t.2.2 = 24) ∧
      (0x2029 < t.1 ∨ t.1 + t.2.1 ≤ 0x2029 ∨ t.2.2 = 24) := by
    decide!
  obtain ⟨t, ht, a1, a2, a3⟩ := cmap_run r
  obtain ⟨b0, b1, b2, b3, b4⟩ := hall t ht
  refine ⟨t.2.2, a3, b0, ?_, ?_⟩
  · intro h
    obtain ⟨c1, c2⟩ := b1 h
    unfold noRule
    omega
  · intro h
    unfold noRule at h
    omega

theorem first_steps : ∀ st ∈ startStates, ∀ k ∈ List.range 32,
    (st = 0 ∧ k = 24) ∨ firstStep st k = true := by
  decide!

theorem first_step (st : Int) (k : Nat) (h : firstStep st k = true) :
    ∃ n a, trans st k = some n ∧ 0 ≤ n ∧ idx ZZ_ATTRIBUTE n = some a ∧ a.toNat &&& 1 = 1 := by
  unfold firstStep at h
  cases ht : transAt st k with
  | none =>
    rw [ht] at h
    simp only [Bool.false_eq_true] at h
  | some n =>
    rw [ht] at h
    simp only [Bool.and_eq_true, decide_eq_true_eq] at h
    obtain ⟨h0, h1⟩ := h
    cases ha : attributeAt n with
    | none =>
      rw [ha] at h1
      simp only [Option.any_none, Bool.false_eq_true] at h1
    | some a =>
      rw [ha] at h1
      simp only [Option.any_some, decide_eq_true_eq] at h1
      exact ⟨n, a, trans_at st k n ht, h0, attr_at n a ha, h1⟩

/-- From the start state of a lexical state of `lexStates`, every rune leads into an
accepting state, but for the runes of class 24 in `YYINITIAL`. -/
theorem start_step (st : Int) (hst : st ∈ startStates) (x : Char) :
    (st = 0 ∧ noRule x ∧ zzNext st x = some (-1)) ∨
    (¬ (st = 0 ∧ noRule x) ∧ ∃ n a, zzNext st x = some n ∧ 0 ≤ n ∧
      idx ZZ_ATTRIBUTE n = some a ∧ a.toNat &&& 1 = 1) := by
  obtain ⟨k, hk, hk32, hiff⟩ := class_24 x
  rw [zzNext_eq st x k hk]
  rcases first_steps st hst k (List.mem_range.mpr hk32) with ⟨h0, h24⟩ | h
  · refine Or.inl ⟨h0, hiff.mp h24, ?_⟩
    rw [h0, h24]
    exact trans_at 0 24 (-1) (by decide!)
  · refine Or.inr ⟨?_, first_step st k h⟩
    rintro ⟨h0, hn⟩
    have h24 := hiff.mpr hn
    rw [h0, h24] at h
    revert h
    decide!

theorem lexStates_states (L st : Int) (hL : L ∈ lexStates) (h : idx ZZ_LEXSTATE L = some st) :
    st ∈ startStates ∧ (st = 0 → L = YYINITIAL) := by
  have tbl : ∀ L ∈ lexStates, (idx ZZ_LEXSTATE L).all
      (fun st => decide (st ∈ startStates ∧ (st = 0 → L = YYINITIAL))) = true := by
    decide
  have t := tbl L hL
  rw [h] at t
  simp only [Option.all_some] at t
  exact of_decide_eq_true t

/-! ## A pass that ends in the scan error of the default action -/

theorem begin_pos (l : Lexer) (e : Int) (b : List Char) (l1 : Lexer) (s1 : Scan)
    (h : zzBegin l e b = .ready l1 s1) : l1.zzCurrentPos = l1.zzStartRead := by
  unfold zzBegin at h
  split at h
  · simp only [reduceCtorEq] at h
  · simp only [reduceCtorEq] at h
  · dsimp only at h
    split at h
    · simp only [reduceCtorEq] at h
    · split at h
      · simp only [reduceCtorEq] at h
      · simp only [Begun.ready.injEq] at h
        obtain ⟨rfl, -⟩ := h
        rfl

theorem makeRoom_offset (l l1 : Lexer) (h : zzRefillMakeRoom l = .ok l1) :
    l1.zzCurrentPos - l1.zzStartRead = l.zzCurrentPos - l.zzStartRead := by
  unfold zzRefillMakeRoom at h
  split_ifs at h
  · dsimp only at h
    split at h
    · simp only [reduceCtorEq] at h
    · simp only [Except.ok.injEq] at h
      subst h
      dsimp only
      omega
  · simp only [Except.ok.injEq] at h
    subst h
    rfl

theorem fill_offset (l : Lexer) :
    (zzRefillFill l).2.zzCurrentPos = l.zzCurrentPos ∧
      (zzRefillFill l).2.zzStartRead = l.zzStartRead := by
  unfold zzRefillFill
  dsimp only
  split
  · exact ⟨rfl, rfl⟩
  · exact ⟨rfl, rfl⟩
  · split_ifs
    · exact ⟨rfl, rfl⟩
    · split
      · exact ⟨rfl, rfl⟩
      · split_ifs <;> exact ⟨rfl, rfl⟩
    · exact ⟨rfl, rfl⟩
    · exact ⟨rfl, rfl⟩

theorem grow_offset (l : Lexer) :
    (zzRefillGrow l).zzCurrentPos = l.zzCurrentPos ∧
      (zzRefillGrow l).zzStartRead = l.zzStartRead := by
  unfold zzRefillGrow
  split_ifs <;> exact ⟨rfl, rfl⟩

/-- A refill that does not panic keeps the distance of the current position from the
start of the match. -/
theorem refill_offset (l : Lexer) (hr : ∀ m, l.zzRefill.1 ≠ .panic m) :
    l.zzRefill.2.zzCurrentPos - l.zzRefill.2.zzStartRead = l.zzCurrentPos - l.zzStartRead := by
  unfold Lexer.zzRefill at hr ⊢
  cases hm : zzRefillMakeRoom l with
  | error l1 =>
    rw [hm] at hr
    exact absurd rfl (hr _)
  | ok l1 =>
    dsimp only
    rw [(fill_offset _).1, (fill_offset _).2, (grow_offset _).1, (grow_offset _).2]
    exact makeRoom_offset l l1 hm

/-- When the first fetch of a pass meets the end of the input, the current position is
still the start of the match. -/
theorem fetch_eof_pos (l : Lexer) (s : Scan) (l2 : Lexer) (s2 : Scan)
    (h1 : l.zzCurrentPos = l.zzStartRead) (h2 : s.zzCurrentPosL = l.zzStartRead)
    (h : zzFetch l s = .eof l2 s2) : l2.zzStartRead = l2.zzCurrentPos := by
  unfold zzFetch at h
  split_ifs at h
  · split at h <;> simp only [reduceCtorEq] at h
  · simp only [Fetched.eof.injEq] at h
    obtain ⟨rfl, -⟩ := h
    exact h1.symm
  · dsimp only at h
    have ho := refill_offset { l with
        zzCurrentPos := s.zzCurrentPosL
        zzMarkedPos := s.zzMarkedPosL }
    cases hr : ({ l with
        zzCurrentPos := s.zzCurrentPosL
        zzMarkedPos := s.zzMarkedPosL } : Lexer).zzRefill with
    | mk r l3 =>
      rw [hr] at h ho
      dsimp only at h ho
      cases r with
      | fail err => simp only [reduceCtorEq] at h
      | panic msg0 => simp only [reduceCtorEq] at h
      | eof =>
        simp only [Fetched.eof.injEq] at h
        obtain ⟨rfl, -⟩ := h
        have := ho (fun m hm => by simp only [reduceCtorEq] at hm)
        omega
      | more =>
        dsimp only at h
        split at h <;> simp only [reduceCtorEq] at h

/-- The action switch on an accepting state does not end in the scan error of the
default action. -/
theorem dispatch_noMatch (l : Lexer) (s : Scan) (l4 : Lexer) (h0 : 0 ≤ s.zzAction)
    (hact : ∃ a, idx ZZ_ACTION s.zzAction = some a ∧ 1 ≤ a ∧ a ≤ 43) :
    zzDispatch l s ≠ .ret (.panic (zzScanError ZZ_NO_MATCH)) l4 := by
  obtain ⟨a, ha, a1, a2⟩ := hact
  unfold zzDispatch
  dsimp only
  rw [if_neg (by omega), ha]
  dsimp only
  split
  · intro h
    injection h with h1 h2
    injection h1 with h3
    revert h3
    decide
  · exact actionSwitch_known a _ l s a1 a2 _ l4

theorem forAction_noMatch (inp : Option Char) (l : Lexer) (s : Scan) (l4 : Lexer)
    (h0 : 0 ≤ s.zzAction) (hact : ∃ a, idx ZZ_ACTION s.zzAction = some a ∧ 1 ≤ a ∧ a ≤ 43) :
    zzForAction inp l s ≠ .ret (.panic (zzScanError ZZ_NO_MATCH)) l4 := by
  unfold zzForAction
  dsimp only
  split_ifs
  · exact eofSwitch_noMatch _ _ _
  · exact dispatch_noMatch _ _ _ h0 hact

/-- An accepting state that the DFA loop has recorded has one of the actions 1 to 43. -/
theorem accepted_action (l : Lexer) (s : Scan) (ha : Accepted l s) (hn : s.zzAction ≠ -1) :
    0 ≤ s.zzAction ∧ ∃ a, idx ZZ_ACTION s.zzAction = some a ∧ 1 ≤ a ∧ a ≤ 43 := by
  rcases ha.acc with h | ⟨h0, h1, h2⟩
  · exact absurd h hn
  · refine ⟨h0, ?_⟩
    obtain ⟨a, b, hat, hac, hiff⟩ := attr_action s.zzAction h0 h1
    unfold accepting at h2
    rw [hat] at h2
    simp only [Int.toNat_ofNat, decide_eq_true_eq] at h2
    obtain ⟨b1, b2⟩ := hiff.mp h2
    exact ⟨b, hac, by omega, by omega⟩

theorem move_accepting (x : Char) (l : Lexer) (s : Scan) (n a : Int)
    (hn : zzNext l.zzState x = some n) (h0 : 0 ≤ n) (ha : idx ZZ_ATTRIBUTE n = some a)
    (hb : a.toNat &&& 1 = 1) (l2 : Lexer) (s2 : Scan)
    (h : zzMove x l s = .next l2 s2 ∨ zzMove x l s = .stop l2 s2) : s2.zzAction ≠ -1 := by
  unfold zzMove at h
  rw [hn] at h
  dsimp only at h
  rw [if_neg (by omega), ha] at h
  dsimp only at h
  rw [if_pos hb] at h
  split_ifs at h
  · rcases h with h | h
    · simp only [reduceCtorEq] at h
    · simp only [Moved.stop.injEq] at h
      obtain ⟨-, rfl⟩ := h
      dsimp only
      omega
  · rcases h with h | h
    · simp only [Moved.next.injEq] at h
      obtain ⟨-, rfl⟩ := h
      dsimp only
      omega
    · simp only [reduceCtorEq] at h

/-- A pass in one of the lexical states of `lexStates` ends in the scan error of the
default action only in `YYINITIAL`, when the first rune of the match is one of class 24. -/
theorem pass_noMatch (fuel : Nat) (l : Lexer) (e : Int) (b : List Char) (l4 : Lexer)
    (hL : l.zzLexicalState ∈ lexStates)
    (h : yyPass fuel l e b = .ret (.panic (zzScanError ZZ_NO_MATCH)) l4) :
    l.zzLexicalState = YYINITIAL ∧ ∃ l1 s1 x l2 s2, zzBegin l e b = .ready l1 s1 ∧
      l1.zzState = 0 ∧ zzFetch l1 s1 = .char x l2 s2 ∧ noRule x := by
  unfold yyPass at h
  cases hb : zzBegin l e b with
  | fail err l1 =>
    rw [hb] at h
    simp only [Pass.ret.injEq, reduceCtorEq, false_and] at h
  | panic msg l1 =>
    rw [hb] at h
    dsimp only at h
    injection h with h1 h2
    injection h1 with h3
    exact absurd (h3 ▸ begin_ioPanic l e b msg l1 hb) noMatch_ioPanic
  | ready l1 s1 =>
    rw [hb] at h
    dsimp only at h
    obtain ⟨hacc, ha1, hcur, -, hst, hlex⟩ := begin_acc l e b l1 s1 hb
    obtain ⟨hmem, hzero⟩ := lexStates_states _ _ hL hst
    have hpos := begin_pos l e b l1 s1 hb
    unfold zzRun at h
    cases hl : zzLoop fuel l1 s1 with
    | fail err l2 =>
      rw [hl] at h
      simp only [Pass.ret.injEq, reduceCtorEq, false_and] at h
    | timeout l2 =>
      rw [hl] at h
      simp only [Pass.ret.injEq, reduceCtorEq, false_and] at h
    | panic msg l2 =>
      rw [hl] at h
      dsimp only at h
      injection h with h1 h2
      injection h1 with h3
      exact absurd (h3 ▸ loop_ioPanic fuel l1 s1 msg l2 hl) noMatch_ioPanic
    | forAction inp l2 s2 =>
      rw [hl] at h
      dsimp only at h
      cases fuel with
      | zero => simp only [zzLoop, reduceCtorEq] at hl
      | succ fuel1 =>
        simp only [zzLoop] at hl
        cases hf : zzFetch l1 s1 with
        | fail err l3 =>
          rw [hf] at hl
          simp only [reduceCtorEq] at hl
        | panic msg l3 =>
          rw [hf] at hl
          simp only [reduceCtorEq] at hl
        | eof l3 s3 =>
          rw [hf] at hl
          simp only [LoopExit.forAction.injEq] at hl
          obtain ⟨rfl, rfl, rfl⟩ := hl
          have hp := fetch_eof_pos l1 s1 l3 s3 hpos hcur hf
          unfold zzForAction at h
          dsimp only at h
          rw [if_pos ⟨rfl, hp⟩] at h
          exact absurd h (eofSwitch_noMatch _ _ _)
        | char x l3 s3 =>
          rw [hf] at hl
          dsimp only at hl
          obtain ⟨k1, k2, k3⟩ := (fetch_kept l1 s1).1 l3 s3 (Or.inl ⟨x, hf⟩)
          have hacc3 : Accepted l3 s3 :=
            ⟨by rw [k1]; exact hacc.st0, by rw [k1]; exact hacc.st1, by rw [k3]; exact hacc.acc⟩
          rcases start_step l1.zzState hmem x with ⟨z, hx, -⟩ | ⟨-, n, a, hn, h0, hat, hbit⟩
          · exact ⟨hzero z, l1, s1, x, l3, s3, rfl, z, hf, hx⟩
          · exfalso
            rw [← k1] at hn
            have hmv := move_accepting x l3 s3 n a hn h0 hat hbit
            cases hm : zzMove x l3 s3 with
            | panic msg l5 =>
              rw [hm] at hl
              simp only [reduceCtorEq] at hl
            | stop l5 s5 =>
              rw [hm] at hl
              simp only [LoopExit.forAction.injEq] at hl
              obtain ⟨-, rfl, rfl⟩ := hl
              obtain ⟨hacc5, -⟩ := (move_prog x l3 s3 hacc3).2 l5 s5 (Or.inr hm)
              obtain ⟨q0, q1⟩ := accepted_action l5 s5 hacc5 (hmv l5 s5 (Or.inr hm))
              exact forAction_noMatch _ _ _ _ q0 q1 h
            | next l5 s5 =>
              rw [hm] at hl
              dsimp only at hl
              obtain ⟨hacc5, -⟩ := (move_prog x l3 s3 hacc3).2 l5 s5 (Or.inl hm)
              obtain ⟨hacc2, -, hne⟩ := loop_acc fuel1 l5 s5 hacc5 inp l2 s2 hl
              obtain ⟨q0, q1⟩ := accepted_action l2 s2 hacc2 (hne (hmv l5 s5 (Or.inl hm)))
              exact forAction_noMatch _ _ _ _ q0 q1 h

/-! ## Termination in every lexical state -/

/-- A pass gets beyond its start only in a lexical state that has a start state in
`ZZ_LEXSTATE`, and such a state is none of the values 105 to 111. -/
theorem begin_lex (l : Lexer) (e : Int) (b : List Char) (l1 : Lexer) (s1 : Scan)
    (h : zzBegin l e b = .ready l1 s1) : l.returnsAtEof := by
  obtain ⟨-, -, -, -, hst, -⟩ := begin_acc l e b l1 s1 h
  unfold idx at hst
  unfold Lexer.returnsAtEof
  split_ifs at hst with hneg
  by_contra hc
  have hlen : ZZ_LEXSTATE.length = 20 := by decide
  have hge : ZZ_LEXSTATE.length ≤ l.zzLexicalState.toNat := by
    rw [hlen]
    omega
  rw [List.get?_eq_none.mpr hge] at hst
  simp only [reduceCtorEq] at hst

/-- A pass in a lexical state without a start state ends in a panic or with an error of
the source. -/
theorem pass_no_start (fuel : Nat) (l : Lexer) (e : Int) (b : List Char)
    (hL : ¬ l.returnsAtEof) :
    ∃ l2, (∃ m, yyPass fuel l e b = .ret (.panic m) l2) ∨
      ∃ err, yyPass fuel l e b = .ret (.fail err) l2 := by
  unfold yyPass
  cases hb : zzBegin l e b with
  | fail err l1 => exact ⟨l1, Or.inr ⟨err, rfl⟩⟩
  | panic msg l1 => exact ⟨l1, Or.inl ⟨msg, rfl⟩⟩
  | ready l1 s1 => exact absurd (begin_lex l e b l1 s1 hb) hL

/-- The progress of a pass, in every lexical state. -/
theorem pass_free (fuel : Nat) (l : Lexer) (e : Int) (b : List Char) (hs : e = l.zzEndRead)
    (hh : 0 ≤ l.zzFinalHighSurrogate) :
    (remaining l l.zzMarkedPos < fuel → ∀ l2, yyPass fuel l e b ≠ .ret .timeout l2) ∧
    (∀ l2 e2 b2, yyPass fuel l e b = .again l2 e2 b2 →
      e2 = l2.zzEndRead ∧ 0 ≤ l2.zzFinalHighSurrogate ∧ l2.returnsAtEof ∧
        l2.zzStartRead < l2.zzMarkedPos ∧
        remaining l2 l2.zzMarkedPos < remaining l l.zzMarkedPos) ∧
    ∀ v l2, yyPass fuel l e b = .ret (.token v) l2 → l2.zzStartRead < l2.zzMarkedPos := by
  by_cases hL : l.returnsAtEof
  · exact pass_prog fuel l e b hs hh hL
  · obtain ⟨l3, ⟨m, h⟩ | ⟨err, h⟩⟩ := pass_no_start fuel l e b hL
    · rw [h]
      exact ⟨fun _ l2 hc => by simp only [Pass.ret.injEq, reduceCtorEq, false_and] at hc,
        fun l2 e2 b2 hc => by simp only [reduceCtorEq] at hc,
        fun v l2 hc => by simp only [Pass.ret.injEq, reduceCtorEq, false_and] at hc⟩
    · rw [h]
      exact ⟨fun _ l2 hc => by simp only [Pass.ret.injEq, reduceCtorEq, false_and] at hc,
        fun l2 e2 b2 hc => by simp only [reduceCtorEq] at hc,
        fun v l2 hc => by simp only [Pass.ret.injEq, reduceCtorEq, false_and] at hc⟩

/-- The outer loop does not run out of fuel, in every lexical state. -/
theorem yyLoop_free (fuel : Nat) (passes : Nat) (l : Lexer) (e : Int) (b : List Char)
    (hs : e = l.zzEndRead) (hh : 0 ≤ l.zzFinalHighSurrogate)
    (hp : remaining l l.zzMarkedPos < passes) (hf : remaining l l.zzMarkedPos < fuel) :
    (yyLoop passes fuel l e b).1 ≠ .timeout := by
  by_cases hL : l.returnsAtEof
  · exact yyLoop_prog fuel passes l e b hs hh hL hp hf
  · obtain ⟨n, rfl⟩ : ∃ n, passes = n + 1 := ⟨passes - 1, by omega⟩
    simp only [yyLoop]
    obtain ⟨l3, ⟨m, h⟩ | ⟨err, h⟩⟩ := pass_no_start fuel l e b hL
    · rw [h]
      simp
    · rw [h]
      simp

/-! ## What a refill does to the buffer -/

theorem take_set_self {α : Type} (xs : List α) (n : Nat) (a : α) :
    (xs.set n a).take n = xs.take n := by
  induction xs generalizing n with
  | nil => simp
  | cons x xs ih =>
    cases n with
    | zero => simp
    | succ n => simp [ih]

/-- The read loop writes at the index `i` and behind it only, and leaves the length of
the buffer alone. -/
theorem refillRead_buf (n : Nat) : ∀ (rd : RuneReader) (buf : List Char) (i k : Int), 0 ≤ i →
    (zzRefillRead n rd buf i k).buffer.length = buf.length ∧
      (zzRefillRead n rd buf i k).buffer.take i.toNat = buf.take i.toNat := by
  induction n with
  | zero =>
    intro rd buf i k _
    exact ⟨rfl, rfl⟩
  | succ n ih =>
    intro rd buf i k hi
    cases rd with
    | nil => exact ⟨rfl, rfl⟩
    | cons a rd =>
      cases a with
      | fail err => exact ⟨rfl, rfl⟩
      | rune r =>
        simp only [zzRefillRead]
        split_ifs with hin
        · obtain ⟨h1, h2⟩ := ih rd (buf.set i.toNat r) (i + 1) (k + 1) (by omega)
          refine ⟨by rw [h1, List.length_set], ?_⟩
          have e : (i + 1).toNat = i.toNat + 1 := by omega
          rw [e] at h2
          have h3 := congrArg (List.take i.toNat) h2
          rw [List.take_take, List.take_take, Nat.min_eq_left (Nat.le_succ _)] at h3
          rw [h3, take_set_self]
        · exact ⟨rfl, rfl⟩

/-- The read loop does not end in an index panic when it writes inside the buffer. -/
theorem refillRead_safe (n : Nat) : ∀ (rd : RuneReader) (buf : List Char) (i k : Int), 0 ≤ i →
    i + n ≤ buf.length → ∀ rd' buf', zzRefillRead n rd buf i k ≠ .panic rd' buf' := by
  induction n with
  | zero =>
    intro rd buf i k _ _ rd' buf' h
    simp only [zzRefillRead, reduceCtorEq] at h
  | succ n ih =>
    intro rd buf i k hi hn rd' buf' h
    cases rd with
    | nil => simp only [zzRefillRead, reduceCtorEq] at h
    | cons a rd =>
      cases a with
      | fail err => simp only [zzRefillRead, reduceCtorEq] at h
      | rune r =>
        simp only [zzRefillRead] at h
        have hin : 0 ≤ i ∧ i < (buf.length : Int) := ⟨hi, by push_cast at hn; omega⟩
        rw [if_pos hin] at h
        exact ih rd (buf.set i.toNat r) (i + 1) (k + 1) (by omega)
          (by rw [List.length_set]; push_cast at hn ⊢; omega) rd' buf' h

/-- Filling the buffer keeps the bounds, the length of the buffer and the runes before
`zzEndRead`, and what lies before `zzEndRead` or is held back becomes no less. -/
theorem fill_bounded (l : Lexer) (hb : l.Bounded) :
    (zzRefillFill l).2.Bounded ∧
      (zzRefillFill l).2.zzBuffer.length = l.zzBuffer.length ∧
      (zzRefillFill l).2.zzBuffer.take l.zzEndRead.toNat = l.zzBuffer.take l.zzEndRead.toNat ∧
      (zzRefillFill l).2.zzStartRead = l.zzStartRead ∧
      l.zzEndRead ≤ (zzRefillFill l).2.zzEndRead + (zzRefillFill l).2.zzFinalHighSurrogate := by
  obtain ⟨b1, b2, b3, b4⟩ := hb
  have hbuf := refillRead_buf ((l.zzBuffer.length : Int) - l.zzEndRead).toNat l.zzReader
    l.zzBuffer l.zzEndRead 0 (by omega)
  have hh : 0 ≤ l.zzFinalHighSurrogate := by omega
  unfold zzRefillFill
  dsimp only
  cases hrd : zzRefillRead ((l.zzBuffer.length : Int) - l.zzEndRead).toNat l.zzReader
      l.zzBuffer l.zzEndRead 0 with
  | fail e rd buf =>
    rw [hrd] at hbuf
    obtain ⟨hlen, htake⟩ := hbuf
    change buf.length = l.zzBuffer.length at hlen
    change buf.take _ = _ at htake
    exact ⟨⟨b1, b2, by show _ ≤ ((buf.length : Nat) : Int); rw [hlen]; exact b3,
      by show _ ∨ (_ ∧ _ = ((buf.length : Nat) : Int)); rw [hlen]; exact b4⟩,
      hlen, htake, rfl, by show l.zzEndRead ≤ l.zzEndRead + l.zzFinalHighSurrogate; omega⟩
  | panic rd buf =>
    rw [hrd] at hbuf
    obtain ⟨hlen, htake⟩ := hbuf
    change buf.length = l.zzBuffer.length at hlen
    change buf.take _ = _ at htake
    exact ⟨⟨b1, b2, by show _ ≤ ((buf.length : Nat) : Int); rw [hlen]; exact b3,
      by show _ ∨ (_ ∧ _ = ((buf.length : Nat) : Int)); rw [hlen]; exact b4⟩,
      hlen, htake, rfl, by show l.zzEndRead ≤ l.zzEndRead + l.zzFinalHighSurrogate; omega⟩
  | done rd buf k =>
    rw [hrd] at hbuf
    obtain ⟨hlen, htake⟩ := hbuf
    change buf.length = l.zzBuffer.length at hlen
    change buf.take _ = _ at htake
    have keep : ({ l with zzReader := rd, zzBuffer := buf } : Lexer).Bounded :=
      ⟨b1, b2, by show _ ≤ ((buf.length : Nat) : Int); rw [hlen]; exact b3,
        by show _ ∨ (_ ∧ _ = ((buf.length : Nat) : Int)); rw [hlen]; exact b4⟩
    have hp := refillRead_prog _ _ _ _ _ _ _ _ hrd (le_refl 0)
    dsimp only
    by_cases hk0 : k = 0
    · rw [if_pos hk0]
      exact ⟨keep, hlen, htake, rfl,
        by show l.zzEndRead ≤ l.zzEndRead + l.zzFinalHighSurrogate; omega⟩
    · rw [if_neg hk0]
      by_cases hkp : k > 0
      · rw [if_pos hkp]
        have hkn : k ≤ (l.zzBuffer.length : Int) - l.zzEndRead := by
          rcases hp with ⟨h1, -⟩ | ⟨-, -, h3, -⟩
          · omega
          · omega
        by_cases hreq : k = (l.zzBuffer.length : Int) - l.zzEndRead
        · rw [if_pos hreq]
          have hidx : idx buf (l.zzEndRead + k - 1) = buf.get? (buf.length - 1) := by
            unfold idx
            rw [if_neg (by omega)]
            congr 1
            omega
          have hsome : ∃ r, idx buf (l.zzEndRead + k - 1) = some r := by
            rw [hidx]
            have : buf.length - 1 < buf.length := by omega
            exact ⟨buf.get ⟨_, this⟩, List.get?_eq_get this⟩
          obtain ⟨r, hr⟩ := hsome
          rw [hr]
          dsimp only
          rw [if_pos (validRune_eq_true r)]
          refine ⟨⟨b1, ?_, ?_, ?_⟩, hlen, htake, rfl, ?_⟩
          · show l.zzStartRead ≤ l.zzEndRead + k - 1
            omega
          · show l.zzEndRead + k - 1 + 1 ≤ ((buf.length : Nat) : Int)
            omega
          · show (1 : Int) = 0 ∨ ((1 : Int) = 1 ∧ l.zzEndRead + k - 1 + 1 = ((buf.length : Nat) : Int))
            exact Or.inr ⟨rfl, by omega⟩
          · show l.zzEndRead ≤ l.zzEndRead + k - 1 + 1
            omega
        · rw [if_neg hreq]
          have hk2 : k < (buf.length : Int) - l.zzEndRead := by
            rw [hlen]
            omega
          refine ⟨⟨b1, ?_, ?_, ?_⟩, hlen, htake, rfl, ?_⟩
          · show l.zzStartRead ≤ l.zzEndRead + k
            omega
          · show l.zzEndRead + k + l.zzFinalHighSurrogate ≤ ((buf.length : Nat) : Int)
            omega
          · show l.zzFinalHighSurrogate = 0 ∨
              (l.zzFinalHighSurrogate = 1 ∧ l.zzEndRead + k + 1 = ((buf.length : Nat) : Int))
            rcases b4 with h | ⟨h, h'⟩
            · exact Or.inl h
            · omega
          · show l.zzEndRead ≤ l.zzEndRead + k + l.zzFinalHighSurrogate
            omega
      · rw [if_neg hkp]
        exact ⟨keep, hlen, htake, rfl,
          by show l.zzEndRead ≤ l.zzEndRead + l.zzFinalHighSurrogate; omega⟩

theorem slice_unread (l : Lexer) (hb : l.Bounded) :
    slice l.zzBuffer l.zzStartRead l.zzEndRead = some l.unread ∧
      slice l.zzBuffer l.zzStartRead (l.zzEndRead + l.zzFinalHighSurrogate) = some l.stored := by
  obtain ⟨b1, b2, b3, b4⟩ := hb
  unfold slice Lexer.unread Lexer.stored
  rw [if_pos ⟨b1, b2, by omega⟩, if_pos ⟨b1, by omega, b3⟩]
  exact ⟨rfl, rfl⟩

theorem take_prefix_take {α : Type} (xs : List α) (m n : Nat) (h : m ≤ n) :
    xs.take m <+: xs.take n := by
  have e : xs.take m = (xs.take n).take m := by
    rw [List.take_take, Nat.min_eq_left h]
  rw [e]
  exact List.take_prefix _ _

/-- Making room keeps the bounds and the length of the buffer, and the text not yet
consumed is still at the start of the text behind `zzStartRead`. -/
theorem makeRoom_bounded (l : Lexer) (hb : l.Bounded) :
    ∃ l1, zzRefillMakeRoom l = .ok l1 ∧ l1.Bounded ∧ l1.zzBuffer.length = l.zzBuffer.length ∧
      (l1.zzStartRead = 0 ∨ l1.zzStartRead = l.zzStartRead) ∧ l.unread <+: l1.unread ∧
      l1.zzCurrentPos - l1.zzStartRead = l.zzCurrentPos - l.zzStartRead ∧
      l1.zzEndRead + l1.zzFinalHighSurrogate - l1.zzStartRead
        = l.zzEndRead + l.zzFinalHighSurrogate - l.zzStartRead ∧
      (0 < l.zzStartRead → l1.zzFinalHighSurrogate = 0) ∧ (¬ 0 < l.zzStartRead → l1 = l) := by
  obtain ⟨b1, b2, b3, b4⟩ := hb
  have hh : 0 ≤ l.zzFinalHighSurrogate := by omega
  unfold zzRefillMakeRoom
  by_cases hs : l.zzStartRead > 0
  · rw [if_pos hs]
    dsimp only
    by_cases hl : l.zzEndRead + l.zzFinalHighSurrogate - l.zzStartRead > 0
    · rw [if_pos hl]
      obtain ⟨src, hsrc, hsl⟩ : ∃ src : List Char,
          (l.zzBuffer.drop l.zzStartRead.toNat).take
            (l.zzEndRead + l.zzFinalHighSurrogate - l.zzStartRead).toNat = src ∧
          src.length = (l.zzEndRead + l.zzFinalHighSurrogate - l.zzStartRead).toNat := by
        refine ⟨_, rfl, ?_⟩
        rw [List.length_take, List.length_drop]
        omega
      have e1 : ∃ pre, slice l.zzBuffer 0
          (l.zzEndRead + l.zzFinalHighSurrogate - l.zzStartRead) = some pre := by
        unfold slice
        rw [if_pos ⟨le_refl _, by omega, by omega⟩]
        exact ⟨_, rfl⟩
      obtain ⟨pre, e1⟩ := e1
      have e2 : slice l.zzBuffer l.zzStartRead (l.zzEndRead + l.zzFinalHighSurrogate)
          = some src := by
        unfold slice
        rw [if_pos ⟨b1, by omega, b3⟩, hsrc]
      have hu : l.unread = src.take (l.zzEndRead - l.zzStartRead).toNat := by
        unfold Lexer.unread
        rw [← hsrc, List.take_take, Nat.min_eq_left (by omega)]
      rw [e1, e2]
      dsimp only
      refine ⟨_, rfl, ⟨le_refl _, ?_, ?_, Or.inl rfl⟩, ?_, Or.inl rfl, ?_, ?_, ?_,
        fun _ => rfl, fun h => absurd hs h⟩
      · show (0 : Int) ≤ l.zzEndRead + l.zzFinalHighSurrogate - l.zzStartRead
        omega
      · show l.zzEndRead + l.zzFinalHighSurrogate - l.zzStartRead + 0
          ≤ (((src ++ l.zzBuffer.drop src.length).length : Nat) : Int)
        rw [List.length_append, List.length_drop]
        omega
      · show (src ++ l.zzBuffer.drop src.length).length = _
        rw [List.length_append, List.length_drop]
        omega
      · rw [hu]
        show _ <+: List.take (l.zzEndRead + l.zzFinalHighSurrogate - l.zzStartRead - 0).toNat
          (List.drop (0 : Int).toNat (src ++ l.zzBuffer.drop src.length))
        have e3 : (l.zzEndRead + l.zzFinalHighSurrogate - l.zzStartRead - 0).toNat
            = src.length := by omega
        rw [Int.toNat_zero, List.drop_zero, e3, List.take_left]
        exact List.take_prefix _ _
      · show l.zzCurrentPos - l.zzStartRead - 0 = _
        omega
      · show l.zzEndRead + l.zzFinalHighSurrogate - l.zzStartRead + 0 - 0 = _
        omega
    · rw [if_neg hl]
      dsimp only
      refine ⟨_, rfl, ⟨le_refl _, ?_, ?_, Or.inl rfl⟩, rfl, Or.inl rfl, ?_, ?_, ?_,
        fun _ => rfl, fun h => absurd hs h⟩
      · show (0 : Int) ≤ l.zzEndRead + l.zzFinalHighSurrogate - l.zzStartRead
        omega
      · show l.zzEndRead + l.zzFinalHighSurrogate - l.zzStartRead + 0 ≤ ((_ : Nat) : Int)
        omega
      · unfold Lexer.unread
        have e : (l.zzEndRead - l.zzStartRead).toNat = 0 := by omega
        rw [e, List.take_zero]
        exact List.nil_prefix
      · show l.zzCurrentPos - l.zzStartRead - 0 = _
        omega
      · show l.zzEndRead + l.zzFinalHighSurrogate - l.zzStartRead + 0 - 0 = _
        omega
  · rw [if_neg hs]
    exact ⟨l, rfl, ⟨b1, b2, b3, b4⟩, rfl, Or.inr rfl, List.prefix_refl _, rfl, rfl,
      fun h => absurd h hs, fun _ => rfl⟩

/-- Growing the buffer keeps the bounds and the text not yet consumed; the buffer keeps
its length or doubles it, and it doubles it only when `zzCurrentPos` has reached the
end of the buffer but for the rune held back. -/
theorem grow_bounded (l : Lexer) (hb : l.Bounded) :
    (zzRefillGrow l).Bounded ∧ l.unread <+: (zzRefillGrow l).unread ∧
      (zzRefillGrow l).zzStartRead = l.zzStartRead ∧
      ((zzRefillGrow l).zzBuffer.length = l.zzBuffer.length ∨
        ((zzRefillGrow l).zzBuffer.length = 2 * l.zzBuffer.length ∧
          (l.zzBuffer.length : Int) - l.zzFinalHighSurrogate ≤ l.zzCurrentPos)) := by
  obtain ⟨b1, b2, b3, b4⟩ := hb
  have hh : 0 ≤ l.zzFinalHighSurrogate := by omega
  unfold zzRefillGrow
  split_ifs with hc
  · refine ⟨⟨b1, ?_, ?_, Or.inl rfl⟩, ?_, rfl, Or.inr ⟨?_, by omega⟩⟩
    · show l.zzStartRead ≤ l.zzEndRead + l.zzFinalHighSurrogate
      omega
    · show l.zzEndRead + l.zzFinalHighSurrogate + 0 ≤ ((_ : Nat) : Int)
      rw [List.length_append, List.length_replicate]
      omega
    · unfold Lexer.unread
      dsimp only
      rw [List.drop_append_of_le_length (by omega),
        List.take_append_of_le_length (by rw [List.length_drop]; omega)]
      exact take_prefix_take _ _ _ (by omega)
    · show (l.zzBuffer ++ List.replicate l.zzBuffer.length zeroRune).length = _
      rw [List.length_append, List.length_replicate]
      omega
  · exact ⟨⟨b1, b2, b3, b4⟩, List.prefix_refl _, rfl, Or.inl rfl⟩

/-- Filling the buffer keeps the text not yet consumed at the start of the text read. -/
theorem fill_unread (l : Lexer) (hb : l.Bounded) : l.unread <+: (zzRefillFill l).2.stored := by
  obtain ⟨hb2, h1, h2, h3, h4⟩ := fill_bounded l hb
  obtain ⟨b1, b2, b3, b4⟩ := hb
  unfold Lexer.unread Lexer.stored
  rw [h3]
  have e : ∀ (xs : List Char) (a n : Nat), (xs.drop a).take n = ((xs.take (a + n)).drop a) := by
    intro xs a n
    rw [List.drop_take]
    congr 1
    omega
  have e1 : l.zzStartRead.toNat + (l.zzEndRead - l.zzStartRead).toNat = l.zzEndRead.toNat := by
    omega
  have key : (l.zzBuffer.drop l.zzStartRead.toNat).take (l.zzEndRead - l.zzStartRead).toNat
      = ((zzRefillFill l).2.zzBuffer.drop l.zzStartRead.toNat).take
        (l.zzEndRead - l.zzStartRead).toNat := by
    rw [e l.zzBuffer, e (zzRefillFill l).2.zzBuffer, e1, h2]
  rw [key]
  exact take_prefix_take _ _ _ (by omega)

/-! ## Reading a reader to its end (`zr.go`) -/

theorem slice_whole (bs : List Nat) : slice bs 0 (0 + (bs.length : Int)) = some bs := by
  unfold slice
  rw [if_pos ⟨le_refl _, by omega, by omega⟩]
  simp

/-- A call of `read` on a binder whose buffer is empty and whose reader is not yet read
to its end, for a read that does not return `io.EOF`: the bytes are appended, and the
binder is read over when they are fewer than `READ_LEN`. -/
theorem read_bytes (READ_LEN : Nat) (ig : Int) (b : offRowBinder) (buf : Dm_build_0)
    (r : ReadResult) (rest : ByteReader) (hobj : b.obj = r :: rest) (hbuf : b.buffer = [])
    (hover : b.readOver = false) (ht : b.targetLength = ig) (herr : r.err ≠ .eof)
    (hlen : r.bytes.length ≤ READ_LEN) :
    ∃ b1, offRowReaderBinder.read READ_LEN ig b buf = some (b1, buf ++ r.bytes) ∧
      b1.obj = rest ∧ b1.buffer = [] ∧ b1.targetLength = ig ∧
      b1.readOver = decide (r.bytes.length < READ_LEN) := by
  unfold offRowReaderBinder.read
  have h1 : ¬ (Dm_build_5 b.buffer > 0) := by
    rw [hbuf]
    decide
  have h2 : ¬ (b.readOver = true) := by
    rw [hover]
    decide
  rw [if_neg h1, if_pos h2, hobj]
  simp only [ByteReader.Read]
  rw [if_neg herr, if_pos (by exact_mod_cast hlen)]
  unfold Dm_build_26
  rw [slice_whole]
  by_cases hs : r.bytes.length < READ_LEN
  · have c : ((r.bytes.length : Int) < (READ_LEN : Int) ∨
        (b.targetLength ≠ ig ∧
          int32 (b.position + int32 (r.bytes.length : Int)) = b.targetLength)) :=
      Or.inl (by exact_mod_cast hs)
    rw [if_pos c]
    exact ⟨_, rfl, rfl, hbuf, ht, by simp [hs]⟩
  · have c : ¬ ((r.bytes.length : Int) < (READ_LEN : Int) ∨
        (b.targetLength ≠ ig ∧
          int32 (b.position + int32 (r.bytes.length : Int)) = b.targetLength)) := by
      rintro (h | ⟨h, -⟩)
      · exact hs (by exact_mod_cast h)
      · exact h ht
    rw [if_neg c]
    exact ⟨_, rfl, rfl, hbuf, ht, by simp [hs, hover]⟩

/-- A call of `read` on a binder whose buffer is empty and whose reader is not yet read
to its end, for a read that returns `io.EOF`: the binder is read over, and the bytes of
the read are not appended. -/
theorem read_eof (READ_LEN : Nat) (ig : Int) (b : offRowBinder) (buf : Dm_build_0)
    (hbuf : b.buffer = []) (hover : b.readOver = false) (herr : b.obj.Read.1.err = .eof) :
    ∃ b1, offRowReaderBinder.read READ_LEN ig b buf = some (b1, buf) ∧ b1.buffer = [] ∧
      b1.readOver = true := by
  unfold offRowReaderBinder.read
  have h1 : ¬ (Dm_build_5 b.buffer > 0) := by
    rw [hbuf]
    decide
  have h2 : ¬ (b.readOver = true) := by
    rw [hover]
    decide
  rw [if_neg h1, if_pos h2]
  dsimp only
  rw [if_pos herr]
  exact ⟨_, rfl, hbuf, rfl⟩

theorem readAllLoop_over (READ_LEN : Nat) (ig : Int) (fuel : Nat) (b : offRowBinder)
    (buf : Dm_build_0) (h : b.readOver = true) :
    readAllLoop READ_LEN ig (fuel + 1) b buf = some (b, buf) := by
  unfold readAllLoop
  rw [if_neg (by rw [h]; decide)]

/-- The loop of `readAll`, entered with an empty buffer of the binder: it appends the
bytes of the reads up to and including the first of fewer than `READ_LEN` bytes. -/
theorem readAllLoop_spec (READ_LEN : Nat) (ig : Int) (h0 : 0 < READ_LEN) :
    ∀ (rd : ByteReader) (fuel : Nat) (b : offRowBinder) (buf : Dm_build_0),
      b.obj = rd → b.buffer = [] → b.readOver = false → b.targetLength = ig →
      obeys READ_LEN rd → (∀ r ∈ rd, r.err = .eof → r.bytes = []) → rd.length + 1 < fuel →
      ∃ b', readAllLoop READ_LEN ig fuel b buf = some (b', buf ++ upToShort READ_LEN rd) ∧
        b'.readOver = true := by
  intro rd
  induction rd with
  | nil =>
    intro fuel b buf hobj hbuf hover ht _ _ hf
    obtain ⟨f, rfl⟩ : ∃ f, fuel = f + 2 := ⟨fuel - 2, by simp at hf; omega⟩
    obtain ⟨b1, hr, -, ho⟩ := read_eof READ_LEN ig b buf hbuf hover (by rw [hobj]; rfl)
    unfold readAllLoop
    rw [if_pos (by rw [hover]; decide), hr]
    dsimp only
    rw [readAllLoop_over _ _ _ _ _ ho]
    exact ⟨b1, by simp [upToShort], ho⟩
  | cons r rest ih =>
    intro fuel b buf hobj hbuf hover ht hc he hf
    obtain ⟨f, rfl⟩ : ∃ f, fuel = f + 2 := ⟨fuel - 2, by simp at hf; omega⟩
    by_cases herr : r.err = .eof
    · obtain ⟨b1, hr, -, ho⟩ := read_eof READ_LEN ig b buf hbuf hover (by rw [hobj]; exact herr)
      have hb : r.bytes = [] := he r (List.mem_cons_self _ _) herr
      unfold readAllLoop
      rw [if_pos (by rw [hover]; decide), hr]
      dsimp only
      rw [readAllLoop_over _ _ _ _ _ ho]
      refine ⟨b1, ?_, ho⟩
      simp only [upToShort]
      rw [hb, if_pos (by simpa using h0), List.append_nil]
    · obtain ⟨b1, hr, ho, hb1, ht1, hov⟩ := read_bytes READ_LEN ig b buf r rest hobj hbuf hover
        ht herr (hc r (List.mem_cons_self _ _))
      unfold readAllLoop
      rw [if_pos (by rw [hover]; decide), hr]
      dsimp only
      simp only [upToShort]
      by_cases hs : r.bytes.length < READ_LEN
      · rw [if_pos hs]
        have ho1 : b1.readOver = true := by rw [hov]; simp [hs]
        rw [readAllLoop_over _ _ _ _ _ ho1]
        exact ⟨b1, rfl, ho1⟩
      · rw [if_neg hs]
        have ho1 : b1.readOver = false := by rw [hov]; simp [hs]
        obtain ⟨b', hl, hb'⟩ := ih (f + 1) b1 (buf ++ r.bytes) ho hb1 ho1 ht1
          (fun x hx => hc x (List.mem_cons_of_mem _ hx))
          (fun x hx => he x (List.mem_cons_of_mem _ hx))
          (by simp only [List.length_cons] at hf; omega)
        rw [hl, List.append_assoc]
        exact ⟨b', rfl, hb'⟩

/-- A call of `read` on a binder that is read over and whose buffer is empty does
nothing. -/
theorem read_over (READ_LEN : Nat) (ig : Int) (b : offRowBinder) (buf : Dm_build_0)
    (hbuf : b.buffer = []) (hover : b.readOver = true) :
    offRowReaderBinder.read READ_LEN ig b buf = some (b, buf) := by
  unfold offRowReaderBinder.read
  have h1 : ¬ (Dm_build_5 b.buffer > 0) := by
    rw [hbuf]
    decide
  have h2 : ¬ ¬ (b.readOver = true) := by
    rw [hover]
    decide
  rw [if_neg h1, if_neg h2]

/-- A call of `read` on a binder whose buffer is not empty moves the bytes of this
buffer behind those of `buf`. -/
theorem read_move (READ_LEN : Nat) (ig : Int) (b : offRowBinder) (buf : Dm_build_0)
    (hbuf : b.buffer ≠ []) :
    offRowReaderBinder.read READ_LEN ig b buf = some ({ b with buffer := [] }, buf ++ b.buffer) := by
  unfold offRowReaderBinder.read
  have h1 : Dm_build_5 b.buffer > 0 := by
    unfold Dm_build_5
    have := List.length_pos.mpr hbuf
    omega
  rw [if_pos h1]
  rfl

theorem readAll_over (READ_LEN : Nat) (ig : Int) (f : Nat) (b : offRowBinder)
    (hbuf : b.buffer = []) (hover : b.readOver = true) :
    offRowReaderBinder.readAll READ_LEN ig (f + 1) b = some ([], b) := by
  unfold offRowReaderBinder.readAll
  rw [read_over _ _ _ _ hbuf hover]
  dsimp only
  rw [readAllLoop_over _ _ _ _ _ hover]
  rfl

theorem readAll_short (READ_LEN : Nat) (ig : Int) (f : Nat) (b : offRowBinder)
    (hbuf : b.buffer ≠ []) (hover : b.readOver = true) :
    offRowReaderBinder.readAll READ_LEN ig (f + 1) b
      = some (b.buffer, { b with buffer := [] }) := by
  unfold offRowReaderBinder.readAll
  rw [read_move _ _ _ _ hbuf]
  dsimp only
  rw [readAllLoop_over READ_LEN ig f { b with buffer := [] } (Dm_build_4 ++ b.buffer) hover]
  rfl

theorem readAll_more (READ_LEN : Nat) (ig : Int) (h0 : 0 < READ_LEN) (f : Nat)
    (b : offRowBinder) (hbuf : b.buffer ≠ []) (hover : b.readOver = false)
    (ht : b.targetLength = ig) (hc : obeys READ_LEN b.obj)
    (he : ∀ r ∈ b.obj, r.err = .eof → r.bytes = []) (hf : b.obj.length + 1 < f) :
    ∃ b', offRowReaderBinder.readAll READ_LEN ig f b
        = some (b.buffer ++ upToShort READ_LEN b.obj, b') ∧ b'.readOver = true := by
  obtain ⟨b', hl, hb'⟩ := readAllLoop_spec READ_LEN ig h0 b.obj f { b with buffer := [] }
    (Dm_build_4 ++ b.buffer) rfl rfl hover ht hc he hf
  unfold offRowReaderBinder.readAll
  rw [read_move _ _ _ _ hbuf]
  dsimp only
  rw [hl]
  exact ⟨b', rfl, hb'⟩

/-- The binder that `newOffRowReaderBinder` makes of a reader and the bytes that its
`readAll` returns: those of the reads up to and including the first of fewer than
`READ_LEN` bytes. -/
theorem readAll_spec (READ_LEN : Nat) (ig d806 : Int) (rd : ByteReader) (encoding : String)
    (fuel : Nat) (h0 : 0 < READ_LEN) (hc : obeys READ_LEN rd)
    (he : ∀ r ∈ rd, r.err = .eof → r.bytes = []) (hf : rd.length + 2 < fuel) :
    ∃ b b', newOffRowReaderBinder READ_LEN ig d806 rd encoding = some b ∧
      offRowReaderBinder.readAll READ_LEN ig fuel b = some (upToShort READ_LEN rd, b') ∧
      b'.readOver = true := by
  obtain ⟨f, rfl⟩ : ∃ f, fuel = f + 1 := ⟨fuel - 1, by omega⟩
  unfold newOffRowReaderBinder
  dsimp only
  cases rd with
  | nil =>
    obtain ⟨b1, hr, hb1, ho1⟩ := read_eof READ_LEN ig (newOffRowBinder [] encoding ig)
      (newOffRowBinder [] encoding ig).buffer rfl rfl rfl
    rw [hr]
    exact ⟨_, _, rfl, readAll_over READ_LEN ig f _ rfl ho1, ho1⟩
  | cons r rest =>
    by_cases herr : r.err = .eof
    · obtain ⟨b1, hr, hb1, ho1⟩ := read_eof READ_LEN ig (newOffRowBinder (r :: rest) encoding ig)
        (newOffRowBinder (r :: rest) encoding ig).buffer rfl rfl herr
      have hb : r.bytes = [] := he r (List.mem_cons_self _ _) herr
      have hu : upToShort READ_LEN (r :: rest) = [] := by
        simp only [upToShort]
        rw [hb, if_pos (by simpa using h0)]
      rw [hr, hu]
      exact ⟨_, _, rfl, readAll_over READ_LEN ig f _ rfl ho1, ho1⟩
    · obtain ⟨b1, hr, hobj1, hb1, ht1, hov⟩ := read_bytes READ_LEN ig
        (newOffRowBinder (r :: rest) encoding ig) (newOffRowBinder (r :: rest) encoding ig).buffer
        r rest rfl rfl rfl rfl herr (hc r (List.mem_cons_self _ _))
      rw [hr]
      have hnil : (newOffRowBinder (r :: rest) encoding ig).buffer ++ r.bytes = r.bytes := rfl
      rw [hnil]
      dsimp only
      by_cases hs : r.bytes.length < READ_LEN
      · have ho1 : b1.readOver = true := by rw [hov]; simp [hs]
        have hu : upToShort READ_LEN (r :: rest) = r.bytes := by
          simp only [upToShort]
          rw [if_pos hs]
        rw [hu]
        by_cases hemp : r.bytes = []
        · have h := readAll_over READ_LEN ig f
            { b1 with buffer := r.bytes, offRow := decide (Dm_build_5 r.bytes > d806) } hemp ho1
          refine ⟨_, { b1 with buffer := r.bytes, offRow := decide (Dm_build_5 r.bytes > d806) },
            rfl, ?_, ho1⟩
          rw [h]
          exact congrArg (fun bs : List Nat => some (bs, ({ b1 with
            buffer := r.bytes, offRow := decide (Dm_build_5 r.bytes > d806) } : offRowBinder)))
            hemp.symm
        · exact ⟨_, _, rfl, readAll_short READ_LEN ig f
            { b1 with buffer := r.bytes, offRow := decide (Dm_build_5 r.bytes > d806) } hemp ho1,
            ho1⟩
      · have ho1 : b1.readOver = false := by rw [hov]; simp [hs]
        have hemp : r.bytes ≠ [] := by
          intro h
          rw [h] at hs
          exact hs h0
        have hu : upToShort READ_LEN (r :: rest) = r.bytes ++ upToShort READ_LEN rest := by
          simp only [upToShort]
          rw [if_neg hs]
        obtain ⟨b', hl, hb'⟩ := readAll_more READ_LEN ig h0 (f + 1)
          { b1 with buffer := r.bytes, offRow := decide (Dm_build_5 r.bytes > d806) } hemp ho1
          ht1 (by show obeys READ_LEN b1.obj; rw [hobj1]
                  exact fun x hx => hc x (List.mem_cons_of_mem _ hx))
          (by show ∀ x ∈ b1.obj, _; rw [hobj1]
              exact fun x hx => he x (List.mem_cons_of_mem _ hx))
          (by show b1.obj.length + 1 < f + 1; rw [hobj1]
              simp only [List.length_cons] at hf; omega)
        rw [hu]
        refine ⟨_, b', rfl, ?_, hb'⟩
        rw [hl]
        show some (r.bytes ++ upToShort READ_LEN b1.obj, b') = _
        rw [hobj1]

/-- When every read but the last returns `READ_LEN` bytes, the reads up to the first
short one are all the reads, and their bytes are what the reader delivers. -/
theorem upToShort_all (READ_LEN : Nat) :
    ∀ (pre : ByteReader) (last : ReadResult), (∀ r ∈ pre, r.bytes.length = READ_LEN) →
      (∀ r ∈ pre, r.err ≠ .eof) →
      upToShort READ_LEN (pre ++ [last]) = delivered (pre ++ [last]) ∧
        delivered (pre ++ [last]) = ((pre ++ [last]).map ReadResult.bytes).flatten := by
  intro pre
  induction pre with
  | nil =>
    intro last _ _
    simp only [List.nil_append, upToShort, delivered, List.map_cons, List.map_nil,
      List.flatten_cons, List.flatten_nil, List.append_nil]
    constructor <;> split_ifs <;> rfl
  | cons r rest ih =>
    intro last hfull hne
    obtain ⟨i1, i2⟩ := ih last (fun x hx => hfull x (List.mem_cons_of_mem _ hx))
      (fun x hx => hne x (List.mem_cons_of_mem _ hx))
    have hl := hfull r (List.mem_cons_self _ _)
    simp only [List.cons_append, upToShort, delivered, List.map_cons, List.flatten_cons]
    rw [if_neg (by omega), if_neg (hne r (List.mem_cons_self _ _))]
    change r.bytes ++ upToShort READ_LEN (rest ++ [last]) = r.bytes ++ delivered (rest ++ [last]) ∧
      r.bytes ++ delivered (rest ++ [last]) = _
    rw [i1, i2]
    exact ⟨rfl, rfl⟩

/-! ## The continuation of a string literal -/

theorem newline_class (r : Char) (h : newline r) : cmap r = some 21 := by
  rcases h with h | h <;> subst h
  · exact class_of 10 10 21 (by decide!) '\n' (by decide) (by decide)
  · exact class_of 13 13 21 (by decide!) '\r' (by decide) (by decide)

theorem blank_class (r : Char) (h : blank r) : cmap r = some 22 := by
  rcases h with h | h | h <;> subst h
  · exact class_of 32 32 22 (by decide!) ' ' (by decide) (by decide)
  · exact class_of 9 9 22 (by decide!) '\t' (by decide) (by decide)
  · exact class_of 12 12 22 (by decide!) (Char.ofNat 12) (by decide) (by decide)

theorem attr_62 : idx ZZ_ATTRIBUTE 62 = some 0 := attr_at _ _ (by decide!)

theorem attr_63 : idx ZZ_ATTRIBUTE 63 = some 0 := attr_at _ _ (by decide!)

/-- In the states 30 and 63, blanks lead to the state 63, which is not accepting. -/
theorem run_blanks (bs : List Char) (hb : ∀ r ∈ bs, blank r) :
    ∀ (st a : Int) (m c : Nat) (rest : List Char), st = 30 ∨ st = 63 → bs ≠ [] →
      dfaRun st a m c (bs ++ rest) = dfaRun 63 a m (c + bs.length) rest := by
  induction bs with
  | nil => intro st a m c rest _ h; exact absurd rfl h
  | cons r tl ih =>
    intro st a m c rest hst _
    have hk := blank_class r (hb r (List.mem_cons_self _ _))
    have ht : trans st 22 = some 63 := by
      rcases hst with h | h <;> subst h
      · exact trans_at _ _ _ (by decide!)
      · exact trans_at _ _ _ (by decide!)
    rw [List.cons_append, dfaRun_through st a m c r _ 22 63 hk ht (by decide) attr_63]
    by_cases htl : tl = []
    · subst htl
      rw [List.nil_append, List.length_singleton]
    · rw [ih (fun x hx => hb x (List.mem_cons_of_mem _ hx)) 63 a m (c + 1) rest (Or.inr rfl) htl,
        List.length_cons]
      congr 1
      omega

/-- In the state 62, white space leads to the state 62, which is not accepting. -/
theorem run_spaces (ws : List Char) (hw : ∀ r ∈ ws, blank r ∨ newline r) :
    ∀ (a : Int) (m c : Nat) (rest : List Char),
      dfaRun 62 a m c (ws ++ rest) = dfaRun 62 a m (c + ws.length) rest := by
  induction ws with
  | nil => intro a m c rest; rfl
  | cons r tl ih =>
    intro a m c rest
    have hstep : ∃ k, cmap r = some k ∧ trans 62 k = some 62 := by
      rcases hw r (List.mem_cons_self _ _) with h | h
      · exact ⟨22, blank_class r h, trans_at _ _ _ (by decide!)⟩
      · exact ⟨21, newline_class r h, trans_at _ _ _ (by decide!)⟩
    obtain ⟨k, hk, ht⟩ := hstep
    rw [List.cons_append, dfaRun_through 62 a m c r _ k 62 hk ht (by decide) attr_62,
      ih (fun x hx => hw x (List.mem_cons_of_mem _ hx)) a m (c + 1) rest, List.length_cons]
    congr 1
    omega

/-- White space with a line feed or a carriage return in it: the blanks before the first
of them, this one, and the rest. -/
theorem split_newline (ws : List Char) (hw : ∀ r ∈ ws, blank r ∨ newline r)
    (hn : ∃ r ∈ ws, newline r) :
    ∃ pre nl post, ws = pre ++ nl :: post ∧ (∀ r ∈ pre, blank r) ∧ newline nl ∧
      ∀ r ∈ post, blank r ∨ newline r := by
  induction ws with
  | nil =>
    obtain ⟨r, hr, -⟩ := hn
    simp at hr
  | cons x tl ih =>
    by_cases hx : newline x
    · exact ⟨[], x, tl, rfl, by simp, hx, fun r hr => hw r (List.mem_cons_of_mem _ hr)⟩
    · have hbx : blank x := by
        rcases hw x (List.mem_cons_self _ _) with h | h
        · exact h
        · exact absurd h hx
      obtain ⟨r, hr, hnr⟩ := hn
      have hr' : r ∈ tl := by
        rcases List.mem_cons.mp hr with h | h
        · subst h
          exact absurd hnr hx
        · exact h
      obtain ⟨pre, nl, post, e, h1, h2, h3⟩ := ih
        (fun y hy => hw y (List.mem_cons_of_mem _ hy)) ⟨r, hr', hnr⟩
      refine ⟨x :: pre, nl, post, by rw [e]; rfl, ?_, h2, h3⟩
      intro y hy
      rcases List.mem_cons.mp hy with h | h
      · subst h
        exact hbx
      · exact h1 y h

/-- The DFA run in `xq` from a closing quote over white space with a line feed or a
carriage return in it and over the quote behind it: the run stops behind this quote, in
the state 79 of the continuation. -/
theorem dfaRun_cat (ws tl : List Char) (hw : ∀ r ∈ ws, blank r ∨ newline r)
    (hn : ∃ r ∈ ws, newline r) :
    dfaRun 2 (-1) 0 0 (quote :: (ws ++ quote :: tl))
      = some (some quote, 79, 79, ws.length + 2, ws.length + 2) := by
  obtain ⟨pre, nl, post, e, h1, h2, h3⟩ := split_newline ws hw hn
  have hq : dfaRun 62 30 1 (1 + pre.length + 1 + post.length) (quote :: tl)
      = some (some quote, 79, 79, 1 + pre.length + 1 + post.length + 1,
          1 + pre.length + 1 + post.length + 1) :=
    dfaRun_final 62 30 1 _ quote tl 1 79 quote_class (trans_at _ _ _ (by decide!)) (by decide)
      (attr_at _ _ (by decide!))
  subst e
  have hlen : (pre ++ nl :: post).length + 2 = 1 + pre.length + 1 + post.length + 1 := by
    rw [List.length_append, List.length_cons]
    omega
  rw [hlen, dfaRun_accept 2 (-1) 0 0 quote _ 1 30 quote_class (trans_at _ _ _ (by decide!))
    (by decide) (attr_at _ _ (by decide!)), List.append_assoc, List.cons_append, Nat.zero_add]
  have hnl := newline_class nl h2
  by_cases hpre : pre = []
  · subst hpre
    rw [List.nil_append, dfaRun_through 30 30 1 1 nl _ 21 62 hnl (trans_at _ _ _ (by decide!))
      (by decide) attr_62, run_spaces post h3]
    exact hq
  · rw [run_blanks pre h1 30 30 1 1 _ (Or.inl rfl) hpre,
      dfaRun_through 63 30 1 _ nl _ 21 62 hnl (trans_at _ _ _ (by decide!)) (by decide) attr_62,
      run_spaces post h3]
    exact hq

/-- The DFA run in `xq` from a closing quote over blanks and into the quote behind them:
the run stops at this quote, and the closing quote is the match. -/
theorem dfaRun_stop_blanks (bs tl : List Char) (hb : ∀ r ∈ bs, blank r) (hne : bs ≠ []) :
    dfaRun 2 (-1) 0 0 (quote :: (bs ++ quote :: tl))
      = some (some quote, 63, 30, 1, bs.length + 2) := by
  rw [dfaRun_accept 2 (-1) 0 0 quote _ 1 30 quote_class (trans_at _ _ _ (by decide!))
    (by decide) (attr_at _ _ (by decide!)), Nat.zero_add,
    run_blanks bs hb 30 30 1 1 _ (Or.inl rfl) hne,
    dfaRun_stop 63 30 1 _ quote tl 1 quote_class (trans_at _ _ _ (by decide!))]
  congr 5
  omega

theorem take_literal (ws tl : List Char) :
    (quote :: (ws ++ quote :: tl)).take (ws.length + 2) = quote :: (ws ++ [quote]) ∧
      (quote :: (ws ++ quote :: tl)).drop (ws.length + 2) = tl := by
  have e : quote :: (ws ++ quote :: tl) = (quote :: (ws ++ [quote])) ++ tl := by simp
  have hl : (quote :: (ws ++ [quote])).length = ws.length + 2 := by simp
  rw [e, ← hl, List.take_left, List.drop_left]
  exact ⟨rfl, rfl⟩

/-- In `xq`, a closing quote, white space with a line feed or a carriage return in it,
and a quote: the continuation `xq_cat`, which leaves the accumulated text as it is. -/
theorem absPass_xq_cat (lt txt ws tl held : List Char) (hw : ∀ r ∈ ws, blank r ∨ newline r)
    (hn : ∃ r ∈ ws, newline r) :
    absPass ⟨xq, lt, txt, quote :: (ws ++ quote :: tl), held⟩
      = .again ⟨xq, lt, quote :: (ws ++ [quote]), tl, held⟩ := by
  rw [absPass_of_run ⟨xq, lt, txt, quote :: (ws ++ quote :: tl), held⟩ 2 0 (some quote) 79 79
    _ _ 38 lexstate_xq (attr_start 2 (by decide)) (by simp) (dfaRun_cat ws tl hw hn)
    (act_at _ _ (by decide) (by decide!))]
  rw [if_neg (by simp)]
  show absAction 38 ((quote :: (ws ++ quote :: tl)).take (ws.length + 2)) _
    ((quote :: (ws ++ quote :: tl)).drop (ws.length + 2)) held = _
  rw [(take_literal ws tl).1, (take_literal ws tl).2]
  simp [absAction, zzActionSwitch, Abs.user, Lexer.zero]

/-- In `xq`, a closing quote, blanks, and a quote: `xq_stop` returns the string
literal, and the blanks are still to be scanned. -/
theorem absPass_xq_stop_blanks (lt txt bs tl held : List Char) (hb : ∀ r ∈ bs, blank r)
    (hne : bs ≠ []) :
    absPass ⟨xq, lt, txt, quote :: (bs ++ quote :: tl), held⟩
      = .token (newLVal lt .STRING) ⟨YYINITIAL, lt, [quote], bs ++ quote :: tl, held⟩ := by
  rw [absPass_of_run ⟨xq, lt, txt, quote :: (bs ++ quote :: tl), held⟩ 2 0 (some quote) 63 30
    _ _ 11 lexstate_xq (attr_start 2 (by decide)) (by simp) (dfaRun_stop_blanks bs tl hb hne)
    (act_at _ _ (by decide) (by decide!))]
  rw [if_neg (by simp)]
  simp [absAction, zzActionSwitch, Abs.user, Lexer.zero, Lexer.yybegin, newLVal]

/-- In `YYINITIAL`, a white-space rune is a token of its own. -/
theorem absPass_space (lt txt tl held : List Char) (r : Char) (h : blank r ∨ newline r) :
    absPass ⟨YYINITIAL, lt, txt, r :: tl, held⟩
      = .token (spaceToken r) ⟨YYINITIAL, lt, [r], tl, held⟩ := by
  have hstep : ∃ k, cmap r = some k ∧ trans 0 k = some 22 := by
    rcases h with h | h
    · exact ⟨22, blank_class r h, trans_at _ _ _ (by decide!)⟩
    · exact ⟨21, newline_class r h, trans_at _ _ _ (by decide!)⟩
  obtain ⟨k, hk, ht⟩ := hstep
  have hrun : dfaRun 0 (-1) 0 0 (r :: tl) = some (some r, 22, 22, 1, 1) :=
    dfaRun_final 0 (-1) 0 0 r tl k 22 hk ht (by decide) (attr_at _ _ (by decide!))
  rw [absPass_of_run ⟨YYINITIAL, lt, txt, r :: tl, held⟩ 0 0 (some r) 22 22 1 1 7
    lexstate_initial (attr_start 0 (by decide)) (by simp) hrun
    (act_at _ _ (by decide) (by decide!))]
  simp [absAction, zzActionSwitch, Abs.user, Lexer.zero, newLVal, spaceToken]

/-! ## The tokens of a scan -/

theorem scansIn_eof (a : Abs) (h : absPass a = .eof) : ScansIn 1 a [] := by
  intro n hn
  obtain ⟨m, rfl⟩ : ∃ m, n = m + 1 := ⟨n - 1, by omega⟩
  unfold absTokens absScan
  rw [h]
  rfl

theorem scansIn_again (k : Nat) (a a1 : Abs) (ts : List LVal) (h : absPass a = .again a1)
    (hs : ScansIn k a1 ts) : ScansIn (k + 1) a ts := by
  intro n hn
  obtain ⟨m, rfl⟩ : ∃ m, n = m + 1 := ⟨n - 1, by omega⟩
  have h1 := hs m (by omega)
  unfold absTokens at h1 ⊢
  unfold absScan
  rw [h]
  dsimp only
  cases hm : absScan m a1 with
  | none =>
    rw [hm] at h1
    simp at h1
  | some ps =>
    rw [hm] at h1
    simp only [Option.map_some', Option.some.injEq] at h1
    simp only [Option.map_some', List.filterMap_cons, Option.some.injEq]
    exact h1

theorem scansIn_token (k : Nat) (a a1 : Abs) (v : LVal) (ts : List LVal)
    (h : absPass a = .token v a1) (hs : ScansIn k a1 ts) : ScansIn (k + 1) a (v :: ts) := by
  intro n hn
  obtain ⟨m, rfl⟩ : ∃ m, n = m + 1 := ⟨n - 1, by omega⟩
  have h1 := hs m (by omega)
  unfold absTokens at h1 ⊢
  unfold absScan
  rw [h]
  dsimp only
  cases hm : absScan m a1 with
  | none =>
    rw [hm] at h1
    simp at h1
  | some ps =>
    rw [hm] at h1
    simp only [Option.map_some', Option.some.injEq] at h1
    simp only [Option.map_some', List.filterMap_cons, Option.some.injEq]
    rw [h1]

theorem scansIn_mono (k k' : Nat) (a : Abs) (ts : List LVal) (h : k ≤ k')
    (hs : ScansIn k a ts) : ScansIn k' a ts :=
  fun n hn => hs n (by omega)

/-- Without a rune held back, a pass does not depend on the text of the match before
it. -/
theorem absPass_txt (lex : Int) (lt txt txt' rem : List Char) :
    absPass ⟨lex, lt, txt, rem, []⟩ = absPass ⟨lex, lt, txt', rem, []⟩ := by
  unfold absPass
  rw [if_neg (fun h => h.1 rfl), if_neg (fun h => h.1 rfl)]
  rfl

theorem scansIn_txt (k : Nat) (lex : Int) (lt txt txt' rem : List Char) (ts : List LVal)
    (hs : ScansIn k ⟨lex, lt, txt, rem, []⟩ ts) : ScansIn k ⟨lex, lt, txt', rem, []⟩ ts := by
  intro n hn
  have h1 := hs n hn
  cases n with
  | zero => exact h1
  | succ m =>
    unfold absTokens absScan at h1 ⊢
    rw [absPass_txt lex lt txt' txt rem]
    exact h1

theorem scans_end (lt txt : List Char) : ScansIn 1 ⟨YYINITIAL, lt, txt, [], []⟩ [] := by
  apply scansIn_eof
  rw [absPass_end _ 0 0 lexstate_initial (attr_start 0 (by decide)) rfl (Or.inl rfl)]
  show absEof YYINITIAL = .eof
  decide

/-- In `xq`, the body of a literal without a quote in it and the closing quote at the
end of the input: the scan returns the string literal. -/
theorem scans_xq_end (b lt txt : List Char) (hb : ∀ x ∈ b, x ≠ quote) :
    ScansIn 3 ⟨xq, lt, txt, b ++ [quote], []⟩ [newLVal (lt ++ b) .STRING] := by
  by_cases hne : b = []
  · subst hne
    rw [List.nil_append, List.append_nil]
    exact scansIn_mono 2 3 _ _ (by omega)
      (scansIn_token 1 _ _ _ _ (absPass_xq_stop lt txt) (scans_end _ _))
  · exact scansIn_again 2 _ _ _ (absPass_xq_inside lt txt b [] [] hne hb)
      (scansIn_token 1 _ _ _ _ (absPass_xq_stop (lt ++ b) b) (scans_end _ _))

/-- In `YYINITIAL`, white space before a text: one token for each rune, then the tokens
of the text. -/
theorem scans_spaces (ws : List Char) (hw : ∀ r ∈ ws, blank r ∨ newline r) :
    ∀ (k : Nat) (lt txt rest : List Char) (ts : List LVal),
      (∀ txt', ScansIn k ⟨YYINITIAL, lt, txt', rest, []⟩ ts) →
      ScansIn (k + ws.length) ⟨YYINITIAL, lt, txt, ws ++ rest, []⟩
        (ws.map spaceToken ++ ts) := by
  induction ws with
  | nil =>
    intro k lt txt rest ts h
    exact h txt
  | cons r tl ih =>
    intro k lt txt rest ts h
    have h1 := ih (fun x hx => hw x (List.mem_cons_of_mem _ hx)) k lt [r] rest ts h
    exact scansIn_token _ _ _ _ _
      (absPass_space lt txt (tl ++ rest) [] r (hw r (List.mem_cons_self _ _))) h1

/-- In `xq`, the body of the first literal, white space with a line feed or a carriage
return in it, and the second literal: one string literal of both bodies. -/
theorem scans_continued (a ws b : List Char) (ha : ∀ x ∈ a, x ≠ quote)
    (hb : ∀ x ∈ b, x ≠ quote) (hw : ∀ r ∈ ws, blank r ∨ newline r)
    (hn : ∃ r ∈ ws, newline r) :
    ScansIn 6 ⟨YYINITIAL, [], [], twoLiterals a ws b, []⟩ [newLVal (a ++ b) .STRING] := by
  unfold twoLiterals
  refine scansIn_again 5 _ _ _ (absPass_xq_start [] [] _ []) ?_
  by_cases hne : a = []
  · subst hne
    rw [List.nil_append, List.nil_append]
    exact scansIn_mono 4 5 _ _ (by omega)
      (scansIn_again 3 _ _ _ (absPass_xq_cat [] [quote] ws (b ++ [quote]) [] hw hn)
        (scans_xq_end b [] _ hb))
  · exact scansIn_again 4 _ _ _ (absPass_xq_inside [] [quote] a _ [] hne ha)
      (scansIn_again 3 _ _ _ (absPass_xq_cat ([] ++ a) a ws (b ++ [quote]) [] hw hn)
        (scans_xq_end b ([] ++ a) _ hb))

/-- Two literals with blanks between them: the first string literal, one token for each
blank, and the second string literal. -/
theorem scans_separate (a bs b : List Char) (ha : ∀ x ∈ a, x ≠ quote)
    (hb : ∀ x ∈ b, x ≠ quote) (hbs : ∀ r ∈ bs, blank r) (hne : bs ≠ []) :
    ScansIn (bs.length + 7) ⟨YYINITIAL, [], [], twoLiterals a bs b, []⟩
      (newLVal a .STRING :: (bs.map spaceToken ++ [newLVal b .STRING])) := by
  have hrest : ∀ lt txt', ScansIn 4 ⟨YYINITIAL, lt, txt', quote :: (b ++ [quote]), []⟩
      [newLVal b .STRING] := fun lt txt' =>
    scansIn_again 3 _ _ _ (absPass_xq_start lt txt' _ []) (scans_xq_end b [] _ hb)
  have hsp : ∀ lt txt, ScansIn (4 + bs.length) ⟨YYINITIAL, lt, txt,
      bs ++ quote :: (b ++ [quote]), []⟩ (bs.map spaceToken ++ [newLVal b .STRING]) :=
    fun lt txt => scans_spaces bs (fun r hr => Or.inl (hbs r hr)) 4 lt txt _ _ (hrest lt)
  unfold twoLiterals
  refine scansIn_mono (4 + bs.length + 3) _ _ _ (by omega) ?_
  refine scansIn_again _ _ _ _ (absPass_xq_start [] [] _ []) ?_
  by_cases hna : a = []
  · subst hna
    rw [List.nil_append]
    exact scansIn_mono (4 + bs.length + 1) _ _ _ (by omega)
      (scansIn_token _ _ _ _ _ (absPass_xq_stop_blanks [] [quote] bs (b ++ [quote]) [] hbs hne)
        (hsp _ _))
  · exact scansIn_again _ _ _ _ (absPass_xq_inside [] [quote] a _ [] hna ha)
      (scansIn_token _ _ _ _ _
        (absPass_xq_stop_blanks ([] ++ a) a bs (b ++ [quote]) [] hbs hne) (hsp _ _))

/-- Below the size of the buffer, the tokens of the scan of a fresh scanner are those of
the scan in terms of `Abs`. -/
theorem tokens_fresh (text : List Char) (d : Bool) (k n fuel : Nat) (ts : List LVal)
    (hlen : text.length < ZZ_BUFFERSIZE) (hfuel : text.length < fuel) (hk : k ≤ n)
    (h0 : 0 < n) (hs : ScansIn k ⟨YYINITIAL, [], [], text, []⟩ ts) :
    (NewLexer (ofRunes text) d).tokens n fuel = some ts := by
  obtain ⟨m, rfl⟩ : ∃ m, n = m + 1 := ⟨n - 1, by omega⟩
  unfold Lexer.tokens
  rw [scan_fresh text d m fuel hlen hfuel]
  exact hs (m + 1) hk

/-- Two literals with a line feed between them, the second with an empty body, in a text
of exactly `ZZ_BUFFERSIZE` runes: the closing quote of the second literal is held back
and never read, and the call of `Yylex` ends in the panic of an unterminated quoted
string. -/
theorem Yylex_continued_full (a : List Char) (d : Bool) (fuel : Nat) (hne : a ≠ [])
    (ha : ∀ x ∈ a, x ≠ quote)
    (hlen : ((quote :: (a ++ quote :: (['\n'] ++ quote :: []))) ++ [quote]).length
      = ZZ_BUFFERSIZE)
    (hfuel : ZZ_BUFFERSIZE < fuel) :
    ((NewLexer (ofRunes ((quote :: (a ++ quote :: (['\n'] ++ quote :: []))) ++ [quote]))
        d).Yylex fuel).1
      = .panic (((NewLexer (ofRunes ((quote :: (a ++ quote :: (['\n'] ++ quote :: [])))
          ++ [quote])) d).Yylex fuel).2.yyerror "unterminated quoted string") := by
  have hsim := sim_fresh ((quote :: (a ++ quote :: (['\n'] ++ quote :: []))) ++ [quote]) d fuel
    (by omega) (by omega)
  obtain ⟨k, hk⟩ : ∃ k, fuel = k + 4 := ⟨fuel - 4, by simp [ZZ_BUFFERSIZE] at hfuel; omega⟩
  have hend : absPass ⟨xq, [] ++ a, quote :: (['\n'] ++ [quote]), [], [quote]⟩
      = .unterminated "unterminated quoted string" := by
    have hl : (quote :: (['\n'] ++ [quote]) : List Char).getLast? ≠ some CR := by decide
    rw [absPass_end _ 2 0 lexstate_xq (attr_start 2 (by decide)) rfl (Or.inr hl)]
    show absEof xq = _
    decide
  rw [start_full _ quote hlen, hk,
    absYylex_succ_again (k + 3) _ _ (absPass_xq_start [] [] _ [quote]),
    absYylex_succ_again (k + 2) _ _
      (absPass_xq_inside [] [quote] a (['\n'] ++ quote :: []) [quote] hne ha),
    absYylex_succ_again (k + 1) _ _
      (absPass_xq_cat ([] ++ a) a ['\n'] [] [quote]
        (fun r hr => Or.inr (Or.inl (List.mem_singleton.mp hr)))
        ⟨'\n', List.mem_singleton.mpr rfl, Or.inl rfl⟩),
    absYylex_succ_of_ne_again k _ _ hend (by simp)] at hsim
  rw [hk]
  exact hsim.1

/-- C31: `zzRefill` preserves the text not yet consumed.  For a scanner whose positions
lie in the buffer (`Bounded`, the bounds that `Reset` sets up and every refill keeps),
whatever the reader delivers and however the call ends: the runes
`zzBuffer[zzStartRead:zzEndRead]` before the call are a prefix of the runes
`zzBuffer[zzStartRead:zzEndRead+zzFinalHighSurrogate]` after it, where `zzStartRead` is
then 0 or unchanged; the offsets `zzCurrentPos - zzStartRead` and
`zzMarkedPos - zzStartRead` are unchanged; the length of the buffer is unchanged or
exactly doubled, and it is changed only when, counted from `zzStartRead`, no place of
the buffer at or after `zzCurrentPos` was free, that is, behind the text read so far;
and the bounds hold again after the call. -/
theorem C31_refill_preserves_unread (l : Lexer) (hb : l.Bounded) :
    (∃ t t' : List Char, slice l.zzBuffer l.zzStartRead l.zzEndRead = some t ∧
      slice l.zzRefill.2.zzBuffer l.zzRefill.2.zzStartRead
        (l.zzRefill.2.zzEndRead + l.zzRefill.2.zzFinalHighSurrogate) = some t' ∧ t <+: t') ∧
    (l.zzRefill.2.zzStartRead = 0 ∨ l.zzRefill.2.zzStartRead = l.zzStartRead) ∧
    l.zzRefill.2.zzCurrentPos - l.zzRefill.2.zzStartRead = l.zzCurrentPos - l.zzStartRead ∧
    l.zzRefill.2.zzMarkedPos - l.zzRefill.2.zzStartRead = l.zzMarkedPos - l.zzStartRead ∧
    (l.zzRefill.2.zzBuffer.length = l.zzBuffer.length ∨
      l.zzRefill.2.zzBuffer.length = 2 * l.zzBuffer.length) ∧
    (l.zzRefill.2.zzBuffer.length ≠ l.zzBuffer.length →
      ∀ i : Int, l.zzCurrentPos - l.zzStartRead ≤ i →
        l.zzEndRead + l.zzFinalHighSurrogate - l.zzStartRead ≤ i →
        (l.zzBuffer.length : Int) ≤ i) ∧
    l.zzRefill.2.Bounded := by
  obtain ⟨-, -, -, d, d1, d2, d3⟩ := refill_shifted l
  obtain ⟨l1, hmr, hb1, len1, st1, pre1, cur1, end1, held1, same1⟩ := makeRoom_bounded l hb
  obtain ⟨hb2, pre2, st2, len2⟩ := grow_bounded l1 hb1
  obtain ⟨hb3, len3, -, st3, -⟩ := fill_bounded (zzRefillGrow l1) hb2
  have pre3 := fill_unread (zzRefillGrow l1) hb2
  have hr : l.zzRefill = zzRefillFill (zzRefillGrow l1) := by
    unfold Lexer.zzRefill
    rw [hmr]
  rw [hr] at d1 d2 d3 ⊢
  refine ⟨⟨l.unread, _, (slice_unread l hb).1, (slice_unread _ hb3).2,
    (pre1.trans pre2).trans pre3⟩, ?_, by omega, by omega, ?_, ?_, hb3⟩
  · rw [st3, st2]
    exact st1
  · rw [len3]
    rcases len2 with h | ⟨h, -⟩
    · exact Or.inl (h.trans len1)
    · exact Or.inr (by rw [h, len1])
  · intro hne i hi1 hi2
    rw [len3] at hne
    rcases len2 with h | ⟨-, h⟩
    · exact absurd (h.trans len1) hne
    · rw [len1] at h
      obtain ⟨b1, b2, b3, b4⟩ := hb
      by_cases hs : 0 < l.zzStartRead
      · have h0 := held1 hs
        have hs1 : l1.zzStartRead = 0 := by
          rcases st1 with e | e
          · exact e
          · obtain ⟨c1, -⟩ := hb1
            unfold zzRefillMakeRoom at hmr
            rw [if_pos hs] at hmr
            dsimp only at hmr
            split at hmr
            · simp only [reduceCtorEq] at hmr
            · simp only [Except.ok.injEq] at hmr
              rw [← hmr]
        omega
      · have e := same1 hs
        rw [e] at h
        omega

/-- C31, an instance: the first refill of a fresh scanner over the text `ab`. -/
theorem C31_refill_preserves_unread_witness :
    (NewLexer (ofRunes ['a', 'b']) false).Bounded ∧
      (NewLexer (ofRunes ['a', 'b']) false).zzRefill.2.Bounded :=
  have hb : (NewLexer (ofRunes ['a', 'b']) false).Bounded :=
    ⟨by decide, by decide,
      by
        show (0 : Int) + 0 ≤ ((List.replicate ZZ_BUFFERSIZE zeroRune).length : Int)
        rw [List.length_replicate]
        decide,
      Or.inl rfl⟩
  ⟨hb, (C31_refill_preserves_unread (NewLexer (ofRunes ['a', 'b']) false) hb).2.2.2.2.2.2⟩

/-- C32, the code at the failing input: over a reader that delivers `ZZ_BUFFERSIZE` =
16384 letters `a`, the first `zzRefill` of a fresh scanner reads them all and reports new
input; when the scanner has consumed the 16383 runes before `zzEndRead` and calls
`zzRefill` again, the call returns true, the end of the input, although the rune held
back has just been put before `zzEndRead`: `zzCurrentPos` is 16383, `zzEndRead` is 16384,
and the letter at `zzCurrentPos` is unread. -/
theorem C32_refill_reports_eof_before_last_rune :
    ∃ l2 l3 : Lexer,
      (NewLexer (ofRunes (List.replicate 16384 'a')) false).zzRefill = (.more, l2) ∧
      ({ l2 with zzCurrentPos := 16383, zzMarkedPos := 16383 } : Lexer).zzRefill = (.eof, l3) ∧
      l3.zzCurrentPos = 16383 ∧ l3.zzEndRead = 16384 ∧ l3.zzCurrentPos < l3.zzEndRead ∧
      idx l3.zzBuffer l3.zzCurrentPos = some 'a' := by
  obtain ⟨l2, hr, b2, e2, f2, s2, -, -, r2, -⟩ := refill_fills
    (NewLexer (ofRunes (List.replicate 16384 'a')) false) []
    (List.replicate ZZ_BUFFERSIZE zeroRune) (List.replicate 16384 'a') []
    (replicate_ne_nil _ _ (by decide)) rfl
    (by rw [List.length_replicate, List.length_replicate]; rfl) rfl rfl rfl
    (by
      show (0 : Int) < _
      rw [List.nil_append, List.length_replicate]
      decide)
    (List.append_nil _).symm
  rw [List.nil_append] at b2
  rw [List.length_nil, List.length_replicate] at e2
  have hbuf : Buf ({ l2 with zzCurrentPos := 16383, zzMarkedPos := 16383 } : Lexer) []
      (List.replicate 16384 'a') [] 1 [] := by
    refine ⟨?_, s2, ?_, f2, ?_, Or.inl ⟨rfl, rfl⟩, r2⟩
    · show l2.zzBuffer = _
      rw [b2, List.nil_append, List.append_nil]
    · show l2.zzEndRead = _
      rw [e2, List.length_nil, List.length_replicate]
    · rw [List.length_replicate]
      decide
  obtain ⟨post, l3, h3, b3, -, c3, -⟩ := refill_spec _ [] (List.replicate 16384 'a') [] 1 []
    16383 16383 hbuf rfl rfl (by rw [List.length_replicate]; decide)
    (Or.inr (Or.inr (by rw [List.length_replicate])))
  rw [if_pos rfl] at h3
  have main : l3.zzCurrentPos = 16383 ∧ l3.zzEndRead = 16384 ∧
      idx l3.zzBuffer 16383 = some 'a' := by
    have hlen : (List.replicate 16384 'a').length = 16384 := List.length_replicate _ _
    have hget : (List.replicate 16384 'a')[16383]? = some 'a' := by
      rw [List.getElem?_replicate]
      rfl
    clear hr hbuf h3
    generalize List.replicate 16384 'a' = t at b3 hlen hget
    have hen := b3.en
    have hb := b3.buf
    rw [List.take_nil, List.append_nil, if_neg (fun h => h.1 rfl), List.length_nil, hlen] at hen
    rw [List.take_nil, List.append_nil, List.nil_append] at hb
    refine ⟨by rw [c3]; rfl, by rw [hen]; rfl, ?_⟩
    rw [hb]
    have h := idx_natCast (t ++ post) 16383
    have e : ((16383 : Nat) : Int) = 16383 := rfl
    rw [e] at h
    rw [h, List.getElem?_append_left (by rw [hlen]; decide), hget]
  obtain ⟨m1, m2, m3⟩ := main
  exact ⟨l2, l3, hr, h3, m1, m2, by rw [m1, m2]; decide, by rw [m1]; exact m3⟩

/-- C33, the code at the failing input: on the text of the two runes U+00E9 (e with acute
accent) and blank, the first call of `Yylex` returns the token of U+00E9, matched at
column 0, and the second the token of the blank; at the start of this second match one
character lies between the start of the line and the match (`yychar` is 1), yet
`yycolumn` is 2, the number of bytes of U+00E9 in UTF-8.  With the letter `e` in the
place of U+00E9, `yycolumn` is 1. -/
theorem C33_column_counts_bytes_of_wide_rune :
    (((NewLexer (ofRunes [Char.ofNat 0xE9, ' ']) false).Yylex 4).1
        = .token (newLVal [Char.ofNat 0xE9] .NORMAL)) ∧
      ((NewLexer (ofRunes [Char.ofNat 0xE9, ' ']) false).Yylex 4).2.yycolumn = 0 ∧
      (((NewLexer (ofRunes [Char.ofNat 0xE9, ' ']) false).Yylex 4).2.Yylex 4).1
        = .token (newLVal [' '] .WHITESPACE_OR_COMMENT) ∧
      (((NewLexer (ofRunes [Char.ofNat 0xE9, ' ']) false).Yylex 4).2.Yylex 4).2.yycolumn = 2 ∧
      (((NewLexer (ofRunes [Char.ofNat 0xE9, ' ']) false).Yylex 4).2.Yylex 4).2.yychar = 1 ∧
      (((NewLexer (ofRunes ['e', ' ']) false).Yylex 4).2.Yylex 4).2.yycolumn = 1 := by
  decide!

/-- The passes of a call that ends in the scan error of the default action: the last of
them started in `YYINITIAL` at a rune of class 24. -/
theorem yyLoop_noMatch (fuel : Nat) (passes : Nat) : ∀ (l : Lexer) (e : Int) (b : List Char),
    l.zzLexicalState ∈ lexStates → ∀ l4,
      yyLoop passes fuel l e b = (.panic (zzScanError ZZ_NO_MATCH), l4) →
      ∃ l' e' b', l'.zzLexicalState = YYINITIAL ∧
        yyPass fuel l' e' b' = .ret (.panic (zzScanError ZZ_NO_MATCH)) l4 ∧
        ∃ l1 s1 x l2 s2, zzBegin l' e' b' = .ready l1 s1 ∧ l1.zzState = 0 ∧
          zzFetch l1 s1 = .char x l2 s2 ∧ noRule x := by
  induction passes with
  | zero =>
    intro l e b _ l4 h
    simp only [yyLoop, Prod.mk.injEq, reduceCtorEq, false_and] at h
  | succ n ih =>
    intro l e b hL l4 h
    simp only [yyLoop] at h
    have hok := pass_ok fuel l e b hL
    cases hp : yyPass fuel l e b with
    | ret r l5 =>
      rw [hp] at h
      dsimp only at h
      injection h with h1 h2
      subst h1 h2
      obtain ⟨q1, q2⟩ := pass_noMatch fuel l e b l5 hL hp
      exact ⟨l, e, b, q1, hp, q2⟩
    | again l5 e5 b5 =>
      rw [hp] at h hok
      exact ih l5 e5 b5 hok l4 h

/-- C34, the code at the failing input: the vertical tab U+000B is in class 24 of
`ZZ_CMAP`, on which the start state of `YYINITIAL`, state 0, has no transition, and the
first call of `Yylex` on a fresh scanner over the text of this one rune ends in the panic
of the scan error `zzScanError(ZZ_NO_MATCH)`, the error that the fallback rule is there
to keep out of reach. -/
theorem C34_no_fallback_for_vertical_tab :
    cmap (Char.ofNat 0x0B) = some 24 ∧ idx ZZ_LEXSTATE YYINITIAL = some 0 ∧
      zzNext 0 (Char.ofNat 0x0B) = some (-1) ∧
      ((NewLexer (ofRunes [Char.ofNat 0x0B]) false).Yylex 2).1
        = .panic (zzScanError ZZ_NO_MATCH) := by
  have h := sim_fresh [Char.ofNat 0x0B] false 2 (by decide) (by decide)
  have e : absYylex 2 (Abs.start [Char.ofNat 0x0B]) = .panic (zzScanError ZZ_NO_MATCH) := by
    decide!
  rw [e] at h
  exact ⟨by decide!, by decide, by decide!, h⟩

/-- How far the gap in the fallback of `YYINITIAL` reaches: the start state of
`YYINITIAL`, state 0, has a transition on the class of every rune but the three of class
24, U+000B, U+2028 and U+2029, and this transition leads into an accepting state; on
these three it has none.  So, without pushback, in any scanner and with any reader: a
pass of `Yylex` in one of the lexical states the scanner enters by itself ends in the
scan error `zzScanError(ZZ_NO_MATCH)` only when it is in `YYINITIAL` and the first rune of
the match is one of these three, and a call of `Yylex` ends in this scan error only by
such a pass. -/
theorem initial_fallback_but_class_24 :
    idx ZZ_LEXSTATE YYINITIAL = some 0 ∧
    (∀ c : Char, ¬ noRule c →
      ∃ n a, zzNext 0 c = some n ∧ 0 ≤ n ∧ idx ZZ_ATTRIBUTE n = some a ∧ a.toNat &&& 1 = 1) ∧
    (∀ c : Char, noRule c → zzNext 0 c = some (-1)) ∧
    (∀ (fuel : Nat) (l : Lexer) (e : Int) (b : List Char) (l4 : Lexer),
      l.zzLexicalState ∈ lexStates →
      yyPass fuel l e b = .ret (.panic (zzScanError ZZ_NO_MATCH)) l4 →
      l.zzLexicalState = YYINITIAL ∧ ∃ l1 s1 x l2 s2, zzBegin l e b = .ready l1 s1 ∧
        l1.zzState = 0 ∧ zzFetch l1 s1 = .char x l2 s2 ∧ noRule x) ∧
    ∀ (fuel : Nat) (l : Lexer), l.zzLexicalState ∈ lexStates →
      (l.Yylex fuel).1 = .panic (zzScanError ZZ_NO_MATCH) →
      ∃ l' e' b', l'.zzLexicalState = YYINITIAL ∧
        yyPass fuel l' e' b' = .ret (.panic (zzScanError ZZ_NO_MATCH)) (l.Yylex fuel).2 ∧
        ∃ l1 s1 x l2 s2, zzBegin l' e' b' = .ready l1 s1 ∧ l1.zzState = 0 ∧
          zzFetch l1 s1 = .char x l2 s2 ∧ noRule x := by
  refine ⟨by decide, ?_, ?_, ?_, ?_⟩
  · intro c hc
    rcases start_step 0 (by decide) c with ⟨-, hx, -⟩ | ⟨-, h⟩
    · exact absurd hx hc
    · exact h
  · intro c hc
    rcases start_step 0 (by decide) c with ⟨-, -, h⟩ | ⟨h, -⟩
    · exact h
    · exact absurd ⟨rfl, hc⟩ h
  · intro fuel l e b l4 hL h
    exact pass_noMatch fuel l e b l4 hL h
  · intro fuel l hL h
    unfold Lexer.Yylex at h ⊢
    exact yyLoop_noMatch fuel fuel l _ _ hL _ (Prod.ext h rfl)

theorem scanPasses_token (n fuel : Nat) (l : Lexer) (e : Int) (b : List Char) (v : LVal)
    (l1 : Lexer) (t : List Char) (ps : List (Option LVal × List Char))
    (hp : yyPass fuel l e b = .ret (.token v) l1) (ht : l1.yytext = some t)
    (hs : scanPasses n fuel l1 l1.zzEndRead l1.zzBuffer = some ps) :
    scanPasses (n + 1) fuel l e b = some ((some v, t) :: ps) := by
  unfold scanPasses
  rw [hp]
  dsimp only
  rw [ht, hs]

/-- The scan of a run of blanks in front of a rune that is held back: one token for each
blank, then the end-of-input signal; the rune held back is not scanned. -/
theorem scan_blanks_held (fuel : Nat) (k : Nat) :
    ∀ (n : Nat) (l : Lexer) (lt txt held : List Char), k < n → k < fuel →
      txt.getLast? ≠ some CR →
      Sim l ⟨YYINITIAL, lt, txt, List.replicate k ' ', held⟩ →
      scanPasses n fuel l l.zzEndRead l.zzBuffer
        = some (List.replicate k (some (newLVal [' '] .WHITESPACE_OR_COMMENT), [' '])) := by
  induction k with
  | zero =>
    intro n l lt txt held hn hfuel htxt hs
    obtain ⟨m, hm⟩ : ∃ m, n = m + 1 := ⟨n - 1, by omega⟩
    have hp := sim_pass l _ fuel hs (by simpa using hfuel)
    rw [absPass_end _ 0 0 lexstate_initial (attr_start 0 (by decide)) rfl (Or.inr htxt)] at hp
    have he : absEof YYINITIAL = .eof := by decide
    rw [he] at hp
    obtain ⟨l', hl, -⟩ := hp
    rw [hm]
    unfold scanPasses
    rw [hl]
    rfl
  | succ k ih =>
    intro n l lt txt held hn hfuel htxt hs
    obtain ⟨m, hm⟩ : ∃ m, n = m + 1 := ⟨n - 1, by omega⟩
    have hp := sim_pass l _ fuel hs (by simpa using hfuel)
    rw [List.replicate_succ] at hp
    rw [absPass_ws lt txt (List.replicate k ' ') held ' ' (Or.inl rfl)] at hp
    obtain ⟨l', hl, hs'⟩ := hp
    rw [hm]
    unfold scanPasses
    rw [hl]
    dsimp only
    rw [sim_yytext l' _ hs', ih m l' lt [' '] held (by omega) (by omega) (by decide) hs']
    rfl

/-- C35: below the size of the buffer the claim holds, and the code at the failing input.
An input of `n` blanks, `n` less than `ZZ_BUFFERSIZE` = 16384 (so also
`ZZ_BUFFERSIZE - 1`), is scanned into `n` tokens of one blank each before the
end-of-input signal; an input of exactly `ZZ_BUFFERSIZE` blanks is scanned into 16383
such tokens before the end-of-input signal, so the lengths of the tokens sum to 16383:
the last blank is lost. -/
theorem C35_blanks_at_buffer_size_lose_one :
    (∀ n : Nat, n < ZZ_BUFFERSIZE →
      (NewLexer (ofRunes (List.replicate n ' ')) false).scan (n + 1) (n + 1)
        = some (List.replicate n (some (newLVal [' '] .WHITESPACE_OR_COMMENT), [' ']))) ∧
    (NewLexer (ofRunes (List.replicate ZZ_BUFFERSIZE ' ')) false).scan
        (ZZ_BUFFERSIZE + 1) (ZZ_BUFFERSIZE + 1)
      = some (List.replicate (ZZ_BUFFERSIZE - 1)
          (some (newLVal [' '] .WHITESPACE_OR_COMMENT), [' '])) ∧
    ((List.replicate (ZZ_BUFFERSIZE - 1)
      (some (newLVal [' '] .WHITESPACE_OR_COMMENT), [' '])).map
        (fun p : Option LVal × List Char => p.2.length)).sum = 16383 := by
  refine ⟨?_, ?_, ?_⟩
  · intro n hn
    rw [scan_fresh _ false n (n + 1) (by rw [List.length_replicate]; exact hn)
      (by rw [List.length_replicate]; omega),
      absScan_ws _ (n + 1) [] [] (by rw [List.length_replicate]; omega)
        (fun r hr => Or.inl (List.eq_of_mem_replicate hr)),
      List.map_replicate]
  · generalize hN : ZZ_BUFFERSIZE = N
    obtain ⟨k, hk⟩ : ∃ k, N = k + 2 := ⟨16382, by rw [← hN]; rfl⟩
    have hrep : List.replicate N ' ' = List.replicate (k + 1) ' ' ++ [' '] := by
      rw [hk, List.replicate_succ' (k + 1)]
    have hlenN : (List.replicate (k + 1) ' ' ++ [' ']).length = ZZ_BUFFERSIZE := by
      rw [List.length_append, List.length_replicate, List.length_singleton, hN, hk]
    have hfp := fresh_pass (List.replicate (k + 1) ' ' ++ [' ']) false (N + 1)
      (by rw [hlenN]) (by rw [hlenN, hN]; omega)
    rw [start_full _ _ hlenN, List.replicate_succ,
      absPass_ws [] [] (List.replicate k ' ') [' '] ' ' (Or.inl rfl)] at hfp
    obtain ⟨l', hl, hs'⟩ := hfp
    have e : N - 1 = k + 1 := by omega
    rw [hrep, e, List.replicate_succ _ k]
    unfold Lexer.scan
    exact scanPasses_token N (N + 1) _ _ _ _ l' _ _ hl (sim_yytext l' _ hs')
      (scan_blanks_held (N + 1) k N l' [] [' '] [' '] (by omega) (by omega) (by decide) hs')
  · rw [List.map_replicate, List.sum_replicate, smul_eq_mul]
    rfl

/-! ## The line and column loop on runes that are Unicode scalar values -/

/-- Indexing a buffer of rune values made from runes. -/
theorem idx_map_runes (buf : List Char) (i : Int) :
    idx (buf.map runeValue) i = (idx buf i).map runeValue := by
  unfold idx
  split
  · rfl
  · rw [List.get?_eq_getElem?, List.get?_eq_getElem?, List.getElem?_map]

/-- On a rune that is a Unicode scalar value the two renderings of `utf8.RuneLen` agree. -/
theorem runeLen_value (c : Char) : utf8.RuneLenValue (runeValue c) = utf8.RuneLen c := by
  unfold utf8.RuneLenValue utf8.RuneLen runeValue
  have h0 : ¬ ((c.toNat : Int) < 0) := by omega
  rw [if_neg h0]
  by_cases h1 : c.toNat ≤ 0x7F
  · rw [if_pos h1, if_pos (by omega)]
  · rw [if_neg h1, if_neg (by omega)]
    by_cases h2 : c.toNat ≤ 0x7FF
    · rw [if_pos h2, if_pos (by omega)]
    · rw [if_neg h2, if_neg (by omega)]
      by_cases h3 : 0xD800 ≤ c.toNat ∧ c.toNat ≤ 0xDFFF
      · rw [if_pos h3, if_pos (by omega)]
      · rw [if_neg h3, if_neg (by omega)]
        by_cases h4 : c.toNat ≤ 0xFFFF
        · rw [if_pos h4, if_pos (by omega)]
        · rw [if_neg h4, if_neg (by omega)]
          by_cases h5 : c.toNat ≤ 0x10FFFF
          · rw [if_pos h5, if_pos (by omega)]
          · rw [if_neg h5, if_neg (by omega)]

/-- On runes that are Unicode scalar values the line and column loop over rune values
does what the loop of the scanner model (`zzLineColumn`) does, and it ends: every
iteration moves `zzCurrentPosL` forward by at least one place, so with
`zzMarkedPosL - zzCurrentPosL` iterations or more allowed, on either side, the loop is
left, or panics at an index, and is not cut off under way. -/
theorem lineColumn_runes (buf : List Char) (marked : Int) :
    ∀ (n m : Nat) (pos yl yc : Int) (zr : Bool),
      (marked - pos).toNat ≤ n → (marked - pos).toNat ≤ m →
      zzLineColumnRunes n (buf.map runeValue) pos marked yl yc zr
        = LineColumn.ofChars (zzLineColumn m buf pos marked yl yc zr) := by
  intro n
  induction n with
  | zero =>
    intro m pos yl yc zr hn _
    have hle : ¬ pos < marked := by omega
    unfold zzLineColumnRunes
    rw [if_neg hle]
    cases m with
    | zero => rfl
    | succ m =>
      unfold zzLineColumn
      rw [if_neg hle]
      rfl
  | succ n ih =>
    intro m pos yl yc zr hn hm
    by_cases hlt : pos < marked
    · cases m with
      | zero => omega
      | succ m =>
        unfold zzLineColumnRunes zzLineColumn
        rw [if_pos hlt, if_pos hlt, idx_map_runes]
        cases hc : idx buf pos with
        | none => rfl
        | some c =>
          have hp := (runeLen_pos c).1
          have h1 : (marked - (pos + utf8.RuneLen c)).toNat ≤ n := by omega
          have h2 : (marked - (pos + utf8.RuneLen c)).toNat ≤ m := by omega
          have e : ∀ k : Nat, (runeValue c = (k : Int)) ↔ c.toNat = k := by
            intro k
            unfold runeValue
            omega
          dsimp only [Option.map_some']
          rw [runeLen_value]
          have e1 := e 0x0B
          have e2 := e 0x0C
          have e3 := e 0x85
          have e4 := e 0x2028
          have e5 := e 0x2029
          have e6 := e 0x0D
          have e7 := e 0x0A
          simp only [Nat.cast_ofNat] at e1 e2 e3 e4 e5 e6 e7
          simp only [e1, e2, e3, e4, e5, e6, e7]
          split_ifs <;> exact ih _ _ _ _ _ h1 h2
    · unfold zzLineColumnRunes
      rw [if_neg hlt]
      cases m with
      | zero => rfl
      | succ m =>
        unfold zzLineColumn
        rw [if_neg hlt]
        rfl

/-- The loop of the scanner model is not short of iterations: with the
`zzMarkedPos - zzStartRead` iterations that `zzCount` allows it, `zzLineColumn` gives what
the loop over rune values gives with that many iterations or any more. -/
theorem lineColumn_enough (buf : List Char) (start marked yl yc : Int) (zr : Bool) (n : Nat)
    (h : (marked - start).toNat ≤ n) :
    zzLineColumnRunes n (buf.map runeValue) start marked yl yc zr
      = LineColumn.ofChars (zzLineColumn (marked - start).toNat buf start marked yl yc zr) :=
  lineColumn_runes buf marked n _ start yl yc zr h (le_refl _)

/-! ## The loop behind a rune that is no Unicode scalar value -/

/-- The class of a rune value below `0x110000` is the value of the run of
`ZZ_CMAP_PACKED` it lies in. -/
theorem cmap_value_run (n : Nat) (hn : n < 0x110000) :
    ∃ t ∈ rleRuns (ZZ_CMAP_PACKED.take 208) 0, t.1 ≤ n ∧ n < t.1 + t.2.1 ∧
      ZZ_CMAP.get? n = some t.2.2 := by
  have hlen : (unpackRuns (ZZ_CMAP_PACKED.take 208)).length = 0x110000 := by
    rw [unpackRuns_length, cmap_runs_sum]
  have hget : ZZ_CMAP.get? n = (unpackRuns (ZZ_CMAP_PACKED.take 208))[n]? := by
    unfold ZZ_CMAP zzUnpackCMap writeAt
    rw [List.get?_eq_getElem?, List.take_zero, List.nil_append,
      List.getElem?_append_left (by rw [hlen]; exact hn)]
  obtain ⟨v, hsome⟩ : ∃ v, (unpackRuns (ZZ_CMAP_PACKED.take 208))[n]? = some v :=
    ⟨_, List.getElem?_eq_getElem (by rw [hlen]; exact hn)⟩
  obtain ⟨t, ht, h1, h2, h3⟩ := unpackRuns_get _ 0 n _ hsome
  refine ⟨t, ht, by omega, by omega, ?_⟩
  rw [hget, hsome, h3]

/-- The surrogates U+D800 to U+DFFF are in class 0 of `ZZ_CMAP`. -/
theorem surrogate_class (n : Nat) (h1 : 0xD800 ≤ n) (h2 : n ≤ 0xDFFF) :
    ZZ_CMAP.get? n = some 0 := by
  have hall : ∀ t ∈ rleRuns (ZZ_CMAP_PACKED.take 208) 0,
      t.1 + t.2.1 ≤ 0xD800 ∨ 0xDFFF < t.1 ∨ t.2.2 = 0 := by
    decide!
  obtain ⟨t, ht, a1, a2, a3⟩ := cmap_value_run n (by omega)
  rcases hall t ht with h | h | h
  · omega
  · omega
  · rw [a3, h]

/-- One iteration of the loop at the surrogate U+D800 that stands behind the letter `a`:
`utf8.RuneLen` is -1 there, the loop takes one off `yycolumn` and steps back onto the
letter. -/
theorem loop_at_surrogate (rest : List Int) (n : Nat) (yl yc : Int) (zr : Bool) :
    zzLineColumnRunes (n + 1) (97 :: 0xD800 :: rest) 1 2 yl yc zr
      = zzLineColumnRunes n (97 :: 0xD800 :: rest) 0 2 yl (yc - 1) false := by
  have hi : idx ((97 : Int) :: 0xD800 :: rest) 1 = some 0xD800 := rfl
  have hl : utf8.RuneLenValue 0xD800 = -1 := by decide
  conv_lhs => unfold zzLineColumnRunes
  rw [if_pos (by decide), hi]
  dsimp only
  rw [hl, if_neg (by decide), if_neg (by decide), if_neg (by decide)]
  rfl

/-- One iteration of the loop at the letter `a` before the surrogate: the loop adds one to
`yycolumn` and steps onto the surrogate again. -/
theorem loop_before_surrogate (rest : List Int) (n : Nat) (yl yc : Int) (zr : Bool) :
    zzLineColumnRunes (n + 1) (97 :: 0xD800 :: rest) 0 2 yl yc zr
      = zzLineColumnRunes n (97 :: 0xD800 :: rest) 1 2 yl (yc + 1) false := by
  have hi : idx ((97 : Int) :: 0xD800 :: rest) 0 = some 97 := rfl
  have hl : utf8.RuneLenValue 97 = 1 := by decide
  conv_lhs => unfold zzLineColumnRunes
  rw [if_pos (by decide), hi]
  dsimp only
  rw [hl, if_neg (by decide), if_neg (by decide), if_neg (by decide)]
  rfl

/-- The loop that starts at the surrogate behind the letter `a` goes to and fro between
the two places and is never left: whatever the number of iterations allowed, it is still
under way, at the surrogate or at the letter. -/
theorem loop_to_and_fro (rest : List Int) (yl yc : Int) : ∀ (n : Nat) (zr : Bool),
    (zzLineColumnRunes n (97 :: 0xD800 :: rest) 1 2 yl yc zr = .running 1 yl yc zr ∨
      zzLineColumnRunes n (97 :: 0xD800 :: rest) 1 2 yl yc zr
        = .running 0 yl (yc - 1) false ∨
      zzLineColumnRunes n (97 :: 0xD800 :: rest) 1 2 yl yc zr = .running 1 yl yc false) := by
  intro n
  induction n using Nat.strong_induction_on with
  | _ n ih =>
    intro zr
    match n with
    | 0 => exact Or.inl rfl
    | 1 =>
      rw [loop_at_surrogate]
      exact Or.inr (Or.inl rfl)
    | k + 2 =>
      rw [loop_at_surrogate, loop_before_surrogate, sub_add_cancel]
      rcases ih k (by omega) false with h | h | h
      · exact Or.inr (Or.inr h)
      · exact Or.inr (Or.inl h)
      · exact Or.inr (Or.inr h)

/-- When every rune the reader delivers is a Unicode scalar value (the runes of type
`Char` of the scanner model; the line and column loop then ends, `lineColumn_enough`),
`Yylex` terminates.  For every such scanner that holds back no negative number of runes,
in whatever lexical state: none of the start states `ZZ_LEXSTATE[l]` of the DFA is
accepting; a pass of the outer loop that goes on to the next pass, or returns a token,
has matched at least one rune (`zzMarkedPos > zzStartRead`), and a pass that goes on
leaves less input to match than it found and a scanner of the same kind; so a call needs
no more passes than there is input yet to match (`remaining`: the answers the reader has
yet to give and the runes of the buffer from `zzMarkedPos` on), and one more, and no more
iterations of a DFA loop either: with that much fuel the outer loop and `Yylex` do not
run out of fuel. -/
theorem yylex_terminates_on_scalar_values (l : Lexer) (passes fuel : Nat)
    (hh : 0 ≤ l.zzFinalHighSurrogate)
    (hp : remaining l l.zzMarkedPos < passes) (hf : remaining l l.zzMarkedPos < fuel) :
    (∀ st ∈ ZZ_LEXSTATE, accepting st = false) ∧
    (∀ b l2 e2 b2, yyPass fuel l l.zzEndRead b = .again l2 e2 b2 →
      l2.zzStartRead < l2.zzMarkedPos ∧
        remaining l2 l2.zzMarkedPos < remaining l l.zzMarkedPos ∧
        e2 = l2.zzEndRead ∧ 0 ≤ l2.zzFinalHighSurrogate ∧ l2.returnsAtEof) ∧
    (∀ b v l2, yyPass fuel l l.zzEndRead b = .ret (.token v) l2 →
      l2.zzStartRead < l2.zzMarkedPos) ∧
    (yyLoop passes fuel l l.zzEndRead l.zzBuffer).1 ≠ .timeout ∧
    (l.Yylex fuel).1 ≠ .timeout := by
  refine ⟨fun st hst => ?_, fun b l2 e2 b2 h => ?_, fun b v l2 h => ?_,
    yyLoop_free fuel passes l _ _ rfl hh hp hf,
    yyLoop_free fuel fuel l _ _ rfl hh hf hf⟩
  · obtain ⟨-, -, a, ha, hodd⟩ := start_states st hst
    unfold accepting
    rw [ha]
    exact decide_eq_false hodd
  · obtain ⟨c1, c2, c3, c4, c5⟩ := (pass_free fuel l _ b rfl hh).2.1 l2 e2 b2 h
    exact ⟨c4, c5, c1, c2, c3⟩
  · exact (pass_free fuel l _ b rfl hh).2.2 v l2 h

/-- C36, the code at the failing input: a reader that delivers the letter `a` and the
lone surrogate U+D800.  The surrogate is a rune of class 0 of `ZZ_CMAP`, as U+0100 is, and
the DFA sees the class only: over `a` and a rune of class 0 (U+0100 in the scanner model,
whose runes are Unicode scalar values) the first two calls of `Yylex` return the token of
the letter and the token of the second rune, and leave `zzStartRead = 1`,
`zzMarkedPos = 2`, `yyline = 0` and `yycolumn = 1`.  The third call starts with the line
and column loop over this match.  With U+0100 the loop is left after one iteration and
the call returns the end-of-input signal.  With U+D800, for which `utf8.RuneLen` is -1,
the loop steps back onto the letter, forward onto the surrogate, and so on: whatever the
number of iterations allowed and whatever follows in the buffer, the loop is still under
way, so the third call of `Yylex` does not return. -/
theorem C36_line_column_loop_never_ends_behind_surrogate :
    ZZ_CMAP.get? 0xD800 = some 0 ∧ cmap (Char.ofNat 0x100) = some 0 ∧
    (((NewLexer (ofRunes ['a', Char.ofNat 0x100]) false).Yylex 4).1
        = .token (newLVal ['a'] .NORMAL) ∧
      (fun r : YyReturn × Lexer =>
          (r.1, r.2.zzStartRead, r.2.zzMarkedPos, r.2.yyline, r.2.yycolumn))
          (((NewLexer (ofRunes ['a', Char.ofNat 0x100]) false).Yylex 4).2.Yylex 4)
        = (.token (newLVal [Char.ofNat 0x100] .NORMAL), 1, 2, 0, 1) ∧
      ((((NewLexer (ofRunes ['a', Char.ofNat 0x100]) false).Yylex 4).2.Yylex 4).2.Yylex 4).1
        = .eof) ∧
    utf8.RuneLenValue 0x100 = 2 ∧ utf8.RuneLenValue 0xD800 = -1 ∧
    (∀ (rest : List Int) (fuel : Nat),
      zzLineColumnRunes (fuel + 1) (97 :: 0x100 :: rest) 1 2 0 1 false = .done 0 3 false) ∧
    (∀ (rest : List Int) (fuel : Nat),
      zzLineColumnRunes fuel (97 :: 0xD800 :: rest) 1 2 0 1 false = .running 1 0 1 false ∨
      zzLineColumnRunes fuel (97 :: 0xD800 :: rest) 1 2 0 1 false = .running 0 0 0 false) ∧
    ∀ (rest : List Int) (fuel : Nat) (yyline yycolumn : Int) (zzR : Bool),
      zzLineColumnRunes fuel (97 :: 0xD800 :: rest) 1 2 0 1 false
        ≠ .done yyline yycolumn zzR := by
  have hloop : ∀ (rest : List Int) (fuel : Nat),
      zzLineColumnRunes fuel (97 :: 0xD800 :: rest) 1 2 0 1 false = .running 1 0 1 false ∨
      zzLineColumnRunes fuel (97 :: 0xD800 :: rest) 1 2 0 1 false
        = .running 0 0 0 false := by
    intro rest fuel
    rcases loop_to_and_fro rest 0 1 fuel false with h | h | h
    · exact Or.inl h
    · exact Or.inr h
    · exact Or.inl h
  refine ⟨surrogate_class 0xD800 (by decide) (by decide),
    class_of 0x100 0x100 0 (by decide!) (Char.ofNat 0x100) (by decide) (by decide),
    by decide!, by decide, by decide, ?_, hloop, ?_⟩
  · intro rest fuel
    have hi : idx ((97 : Int) :: 0x100 :: rest) 1 = some 0x100 := rfl
    have hl : utf8.RuneLenValue 0x100 = 2 := by decide
    unfold zzLineColumnRunes
    rw [if_pos (by decide), hi]
    dsimp only
    rw [hl, if_neg (by decide), if_neg (by decide), if_neg (by decide)]
    cases fuel with
    | zero => rfl
    | succ k =>
      unfold zzLineColumnRunes
      rfl
  · intro rest fuel yyline yycolumn zzR h
    rcases hloop rest fuel with e | e
    · rw [e] at h
      exact LineColumn.noConfusion h
    · rw [e] at h
      exact LineColumn.noConfusion h

theorem twoLiterals_full (a : List Char) :
    twoLiterals a ['\n'] [] = (quote :: (a ++ quote :: (['\n'] ++ quote :: []))) ++ [quote] := by
  simp [twoLiterals]

/-- C37: below the size of the buffer the claim holds, and the code at the failing input.
For two single-quoted literals whose bodies `a` and `b` have no quote in them, in a text
of fewer than `ZZ_BUFFERSIZE` = 16384 runes: when the white space between them (blanks,
tabs, form feeds, line feeds, carriage returns) has a line feed or a carriage return in
it, the scan returns one `STRING` token whose text is `a` followed by `b`; when it is
not empty and has neither, the scan returns the `STRING` token of `a`, one white-space
token for each rune between the literals, and the `STRING` token of `b`.  On the text of
exactly `ZZ_BUFFERSIZE` runes made of the literal with the body of 16379 letters `a`, a
line feed and the literal with the empty body, the first call of `Yylex` returns no
`STRING` token: it ends in the panic of `yyerror` for an unterminated quoted string. -/
theorem C37_continuation_at_buffer_size_unterminated :
    (∀ (a ws b : List Char) (d : Bool), (∀ x ∈ a, x ≠ quote) → (∀ x ∈ b, x ≠ quote) →
      (∀ r ∈ ws, blank r ∨ newline r) → (∃ r ∈ ws, newline r) →
      (twoLiterals a ws b).length < ZZ_BUFFERSIZE →
      (NewLexer (ofRunes (twoLiterals a ws b)) d).tokens ((twoLiterals a ws b).length + 3)
          ((twoLiterals a ws b).length + 1)
        = some [newLVal (a ++ b) .STRING]) ∧
    (∀ (a bs b : List Char) (d : Bool), (∀ x ∈ a, x ≠ quote) → (∀ x ∈ b, x ≠ quote) →
      (∀ r ∈ bs, blank r) → bs ≠ [] →
      (twoLiterals a bs b).length < ZZ_BUFFERSIZE →
      (NewLexer (ofRunes (twoLiterals a bs b)) d).tokens ((twoLiterals a bs b).length + 3)
          ((twoLiterals a bs b).length + 1)
        = some (newLVal a .STRING :: (bs.map spaceToken ++ [newLVal b .STRING]))) ∧
    (twoLiterals (List.replicate 16379 'a') ['\n'] []).length = ZZ_BUFFERSIZE ∧
    ((NewLexer (ofRunes (twoLiterals (List.replicate 16379 'a') ['\n'] [])) false).Yylex
        16385).1
      = .panic (((NewLexer (ofRunes (twoLiterals (List.replicate 16379 'a') ['\n'] []))
          false).Yylex 16385).2.yyerror "unterminated quoted string") := by
  refine ⟨?_, ?_, ?_, ?_⟩
  · intro a ws b d ha hb hw hn hlen
    have h5 : 5 ≤ (twoLiterals a ws b).length := by
      obtain ⟨r, hr, -⟩ := hn
      have := List.length_pos_of_mem hr
      simp only [twoLiterals, List.length_cons, List.length_append, List.length_nil]
      omega
    exact tokens_fresh _ d 6 _ _ _ hlen (by omega) (by omega) (by omega)
      (scans_continued a ws b ha hb hw hn)
  · intro a bs b d ha hb hbs hne hlen
    have h5 : bs.length + 4 ≤ (twoLiterals a bs b).length := by
      simp only [twoLiterals, List.length_cons, List.length_append, List.length_nil]
      omega
    exact tokens_fresh _ d (bs.length + 7) _ _ _ hlen (by omega) (by omega) (by omega)
      (scans_separate a bs b ha hb hbs hne)
  · rw [twoLiterals_full, List.length_append, List.length_cons, List.length_append,
      List.length_replicate]
    rfl
  · rw [twoLiterals_full]
    exact Yylex_continued_full (List.replicate 16379 'a') false 16385
      (replicate_ne_nil _ _ (by decide))
      (fun x hx => by rw [List.eq_of_mem_replicate hx]; decide)
      (by
        rw [List.length_append, List.length_cons, List.length_append, List.length_replicate]
        rfl)
      (by decide)

/-- C38, counterexample: with `READ_LEN` 4, a reader that obeys the contract of
`io.Reader` and delivers the byte 1 in a first read, the byte 2 in a second and then
reports `io.EOF` delivers the bytes 1, 2 up to the end of the stream, yet `readAll`
returns the byte 1 alone: the first read of fewer than `READ_LEN` bytes ends the
reading, and so it does for every `READ_LEN` from 2 on.  And for a reader that returns
the bytes 1, 2 together with `io.EOF`, `readAll` returns no byte. -/
theorem C38_readAll_stops_at_short_read :
    obeys 4 [⟨[1], .nil⟩, ⟨[2], .nil⟩, ⟨[], .eof⟩] ∧
    delivered [⟨[1], .nil⟩, ⟨[2], .nil⟩, ⟨[], .eof⟩] = [1, 2] ∧
    (newOffRowReaderBinder 4 (-1) 0 [⟨[1], .nil⟩, ⟨[2], .nil⟩, ⟨[], .eof⟩] "").bind
      (fun b => (offRowReaderBinder.readAll 4 (-1) 8 b).map Prod.fst) = some [1] ∧
    (∀ (READ_LEN : Nat) (ig d806 : Int) (encoding : String), 2 ≤ READ_LEN →
      ∃ b b', newOffRowReaderBinder READ_LEN ig d806
          [⟨[1], .nil⟩, ⟨[2], .nil⟩, ⟨[], .eof⟩] encoding = some b ∧
        offRowReaderBinder.readAll READ_LEN ig 8 b = some ([1], b')) ∧
    obeys 4 [⟨[1, 2], .eof⟩] ∧ delivered [⟨[1, 2], .eof⟩] = [1, 2] ∧
    (newOffRowReaderBinder 4 (-1) 0 [⟨[1, 2], .eof⟩] "").bind
      (fun b => (offRowReaderBinder.readAll 4 (-1) 8 b).map Prod.fst) = some [] := by
  refine ⟨by simp [obeys], by decide, by decide, ?_, by simp [obeys], by decide, by decide⟩
  intro READ_LEN ig d806 encoding h2
  obtain ⟨b, b', h1, h3, -⟩ := readAll_spec READ_LEN ig d806
    [⟨[1], .nil⟩, ⟨[2], .nil⟩, ⟨[], .eof⟩] encoding 8 (by omega)
    (by
      intro r hr
      simp only [List.mem_cons, List.mem_singleton, List.not_mem_nil, or_false] at hr
      rcases hr with rfl | rfl | rfl <;> simp <;> omega)
    (by
      intro r hr
      simp only [List.mem_cons, List.mem_singleton, List.not_mem_nil, or_false] at hr
      rcases hr with rfl | rfl | rfl <;> simp)
    (by decide)
  refine ⟨b, b', h1, ?_⟩
  rw [h3]
  simp only [upToShort, List.length_singleton]
  rw [if_pos (by omega)]

/-- C38, amended: for a reader that obeys the contract of `io.Reader` and reports
`io.EOF` only in a read of no bytes, and for `READ_LEN` greater than 0, the binder of
`newOffRowReaderBinder` is made and its `readAll` returns, in order, the bytes of the
reads up to and including the first read of fewer than `READ_LEN` bytes, and the binder
is read over then; when every read but the last returns `READ_LEN` bytes, these are
exactly the bytes that the reader delivers up to the end of the stream. -/
theorem C38_readAll_up_to_first_short_read (READ_LEN : Nat) (ig d806 : Int)
    (rd : ByteReader) (encoding : String) (fuel : Nat) (h0 : 0 < READ_LEN)
    (hc : obeys READ_LEN rd) (he : ∀ r ∈ rd, r.err = .eof → r.bytes = [])
    (hf : rd.length + 2 < fuel) :
    (∃ b b', newOffRowReaderBinder READ_LEN ig d806 rd encoding = some b ∧
      offRowReaderBinder.readAll READ_LEN ig fuel b = some (upToShort READ_LEN rd, b') ∧
      b'.readOver = true) ∧
    ∀ pre last, rd = pre ++ [last] → (∀ r ∈ pre, r.bytes.length = READ_LEN) →
      upToShort READ_LEN rd = delivered rd ∧
        delivered rd = (rd.map ReadResult.bytes).flatten := by
  refine ⟨readAll_spec READ_LEN ig d806 rd encoding fuel h0 hc he hf, ?_⟩
  intro pre last hrd hfull
  rw [hrd]
  refine upToShort_all READ_LEN pre last hfull ?_
  intro r hr herr
  have h1 := he r (by rw [hrd]; exact List.mem_append_left _ hr) herr
  have h2 := hfull r hr
  rw [h1] at h2
  simp only [List.length_nil] at h2
  omega

/-- C38, an instance: a reader that delivers four bytes and then one, with `READ_LEN`
4. -/
theorem C38_readAll_up_to_first_short_read_witness :
    0 < 4 ∧ obeys 4 [⟨[1, 2, 3, 4], .nil⟩, ⟨[5], .nil⟩] ∧
      upToShort 4 [⟨[1, 2, 3, 4], .nil⟩, ⟨[5], .nil⟩] = [1, 2, 3, 4, 5] ∧
      ∃ b b', newOffRowReaderBinder 4 (-1) 0 [⟨[1, 2, 3, 4], .nil⟩, ⟨[5], .nil⟩] "" = some b ∧
        offRowReaderBinder.readAll 4 (-1) 8 b
          = some (upToShort 4 [⟨[1, 2, 3, 4], .nil⟩, ⟨[5], .nil⟩], b') ∧
        b'.readOver = true :=
  ⟨by decide, by simp [obeys], by decide,
    (C38_readAll_up_to_first_short_read 4 (-1) 0 [⟨[1, 2, 3, 4], .nil⟩, ⟨[5], .nil⟩] "" 8
      (by decide) (by simp [obeys]) (by simp) (by decide)).1⟩

/-- C39: all the table lookups of the DFA are in range.  The unpacking functions write
104 entries of `ZZ_ACTION`, of `ZZ_ATTRIBUTE` and of `ZZ_ROWMAP` and 2208 entries of
`ZZ_TRANS`, which fill these tables, and `zzUnpackCMap` writes the `0x110000` entries of
`ZZ_CMAP`; every entry of `ZZ_CMAP` is a class from 0 to 31, every row offset `r` of
`ZZ_ROWMAP` has `r + 31 < 2208`, every entry of `ZZ_TRANS` is from -1 to 103 and every
entry of `ZZ_LEXSTATE` from 0 to 103.  So for every state `st` from 0 to 103 and every
rune `c` the lookup `zzTransL[zzRowMapL[st] + zzCMapL[c]]` is in range and gives `-1` or
a state from 0 to 103; in every pass of `Yylex` the DFA starts in such a state and stays
in such states, its transitions meet no index panic, and the state recorded in
`zzAction` at the end of the DFA loop is `-1` or an index of `ZZ_ACTION`. -/
theorem C39_table_lookups_in_range :
    ((zzUnpackAction ZZ_ACTION_PACKED_0 0 (List.replicate 104 0)).1 = 104 ∧
      (zzUnpackAttribute ZZ_ATTRIBUTE_PACKED_0 0 (List.replicate 104 0)).1 = 104 ∧
      (zzUnpackRowMap ZZ_ROWMAP_PACKED_0 0 (List.replicate 104 0)).1 = 104 ∧
      (zzUnpackTrans ZZ_TRANS_PACKED_0 0 (List.replicate 2208 0)).1 = 2208 ∧
      ZZ_ACTION.length = 104 ∧ ZZ_ATTRIBUTE.length = 104 ∧ ZZ_ROWMAP.length = 104 ∧
      ZZ_TRANS.length = 2208) ∧
    (unpackRuns (ZZ_CMAP_PACKED.take 208)).length = 0x110000 ∧ ZZ_CMAP.length = 0x110000 ∧
    (∀ v ∈ ZZ_CMAP, v < 32) ∧ (∀ r ∈ ZZ_ROWMAP, 0 ≤ r ∧ r + 31 < 2208) ∧
    (∀ t ∈ ZZ_TRANS, -1 ≤ t ∧ t ≤ 103) ∧ (∀ s ∈ ZZ_LEXSTATE, 0 ≤ s ∧ s ≤ 103) ∧
    (∀ st : Int, 0 ≤ st → st ≤ 103 → ∀ c : Char,
      ∃ n, zzNext st c = some n ∧ -1 ≤ n ∧ n ≤ 103) ∧
    ∀ (l : Lexer) (e : Int) (b : List Char) (l1 : Lexer) (s1 : Scan),
      zzBegin l e b = .ready l1 s1 →
        0 ≤ l1.zzState ∧ l1.zzState ≤ 103 ∧
        ∀ (fuel : Nat) (inp : Option Char) (l2 : Lexer) (s2 : Scan),
          zzLoop fuel l1 s1 = .forAction inp l2 s2 →
            0 ≤ l2.zzState ∧ l2.zzState ≤ 103 ∧
            (∀ x s msg l3, zzMove x l2 s ≠ .panic msg l3) ∧
            (s2.zzAction = -1 ∨ ∃ a, idx ZZ_ACTION s2.zzAction = some a) := by
  refine ⟨table_sizes, cmap_unpacked.2, by rw [cmap_unpacked.1]; exact cmap_unpacked.2,
    cmap_entries, rowmap_entries, trans_entries, fun s hs => ?_, fun st h0 h1 c => ?_,
    fun l e b l1 s1 hb => ?_⟩
  · obtain ⟨a, b, -⟩ := start_states s hs
    exact ⟨a, by omega⟩
  · obtain ⟨n, hn, n0, n1⟩ := zzNext_total st h0 (by omega) c
    exact ⟨n, hn, n0, by omega⟩
  · obtain ⟨ha, -⟩ := begin_acc l e b l1 s1 hb
    refine ⟨ha.st0, by have := ha.st1; omega, fun fuel inp l2 s2 hl => ?_⟩
    obtain ⟨ha2, -, -⟩ := loop_acc fuel l1 s1 ha inp l2 s2 hl
    refine ⟨ha2.st0, by have := ha2.st1; omega, fun x s msg l3 => ?_, ?_⟩
    · exact move_total x l2 s ha2.st0 ha2.st1 msg l3
    · rcases loop_action l e b fuel l1 s1 inp l2 s2 hb hl with h | ⟨-, -, -, a, ha, -⟩
      · exact Or.inl h
      · exact Or.inr ⟨a, ha⟩

/-- C40: the attribute and the action tables agree: for every state `st` of the DFA, from
0 to 103, bit 0 of `ZZ_ATTRIBUTE[st]` (accepting) is set if and only if `ZZ_ACTION[st]`
is one of the actions 1 to 43.  So, in every pass of `Yylex`, whatever the scanner and
the fuel: the state that the DFA loop has recorded in `zzAction` when it ends is `-1` or
an accepting state whose action is one of 1 to 43, and the action switch on it ends in the
scan error of the default branch, `zzScanError(ZZ_NO_MATCH)`, only when `zzAction` is
`-1`. -/
theorem C40_attribute_action_agree :
    (∀ st : Int, 0 ≤ st → st < 104 →
      ∃ a b : Nat, idx ZZ_ATTRIBUTE st = some (a : Int) ∧ idx ZZ_ACTION st = some (b : Int) ∧
        (a &&& 1 = 1 ↔ 1 ≤ b ∧ b ≤ 43)) ∧
    ∀ (l : Lexer) (e : Int) (b : List Char) (fuel : Nat) (l1 : Lexer) (s1 : Scan)
      (inp : Option Char) (l2 : Lexer) (s2 : Scan),
      zzBegin l e b = .ready l1 s1 → zzLoop fuel l1 s1 = .forAction inp l2 s2 →
        (s2.zzAction = -1 ∨
          (accepting s2.zzAction = true ∧
            ∃ a, idx ZZ_ACTION s2.zzAction = some a ∧ 1 ≤ a ∧ a ≤ 43)) ∧
        ∀ l3 l4, zzDispatch l3 s2 = .ret (.panic (zzScanError ZZ_NO_MATCH)) l4 →
          s2.zzAction = -1 := by
  refine ⟨attr_action, fun l e b fuel l1 s1 inp l2 s2 hb hl => ?_⟩
  rcases loop_action l e b fuel l1 s1 inp l2 s2 hb hl with h | ⟨h0, h1, h2, a, ha, a1, a2⟩
  · exact ⟨Or.inl h, fun _ _ _ => h⟩
  · refine ⟨Or.inr ⟨h2, a, ha, a1, a2⟩, fun l3 l4 hd => ?_⟩
    exfalso
    unfold zzDispatch at hd
    dsimp only at hd
    rw [if_neg (by omega), ha] at hd
    dsimp only at hd
    split at hd
    · simp only [Pass.ret.injEq, YyReturn.panic.injEq] at hd
      exact absurd hd.1 (by decide)
    · exact actionSwitch_known a _ l3 s2 a1 a2 _ l4 hd

end DmLexer
